import Mathlib

/-!
# A shallow embedding of the JPEG codec in `jpeg2/reader.go`

The Go source is translated function by function.  Conventions:

* bytes are `Fin 256`; Go `int`/`uint8` values that are only compared or used as
  indices are `Nat`; `int32` values are `Int`, wrapped with `i32` wherever the Go
  expression can leave the 32-bit range; `uint32` values are `Nat` below `2^32`;
* fixed-size Go arrays are total functions on `Nat` (only the indices of the Go
  array are ever used), Go slices are lists;
* a method on `*decoder` that returns an `error` is a function
  `Decoder → Result α`: both outcomes carry the decoder as the call left it;
* an explicit `panic(...)` statement is the outcome `Err.panic`, and so are the
  division by zero and the nil dereference that a state outside the decoder's
  invariants would meet; an index that is out of range for a Go slice reads as
  zero and is a dropped store (statements about index safety give the bound);
* a Go loop without a static bound is a structural recursion on a fuel argument
  that its caller sets from the loop's own variant; running out is `Err.diverged`.
-/

namespace Jpeg

/-! ## Machine integers -/

abbrev Byte := Fin 256

/-- The byte with value `n % 256`. -/
def byte (n : Nat) : Byte := ⟨n % 256, Nat.mod_lt n (by decide)⟩

/-- Wrap an integer to the `int32` range (two's complement). -/
def i32 (x : Int) : Int := (x + 2147483648) % 4294967296 - 2147483648

/-- Wrap an integer to the `uint32` range. -/
def u32 (x : Int) : Nat := (x % 4294967296).toNat

/-- Wrap a natural number to `uint8`. -/
def u8 (x : Nat) : Nat := x % 256

/-- Wrap a natural number to `uint16`. -/
def u16 (x : Nat) : Nat := x % 65536

/-- Array store `a[i] = v`. -/
def upd {α : Type} (f : Nat → α) (i : Nat) (v : α) : Nat → α :=
  fun k => if k = i then v else f k

/-- Copy of the list `l` into the array `f` from index `off` on. -/
def blit {α : Type} (f : Nat → α) (off : Nat) (l : List α) : Nat → α :=
  fun k => if off ≤ k then l.getD (k - off) (f k) else f k

/-- The `n` array entries `f[i], ..., f[i+n-1]`. -/
def slice {α : Type} (f : Nat → α) (i n : Nat) : List α :=
  (List.range n).map (fun k => f (i + k))

/-! ## Errors -/

/-- Go error values, and the two ways a call can end without returning. -/
inductive Err where
  | format (msg : String)
  | unsupported (msg : String)
  | eof
  | unexpectedEOF
  | panic (msg : String)
  | diverged
  deriving DecidableEq, Repr

def errUnsupportedSubsamplingRatio : Err := Err.unsupported "luma/chroma subsampling ratio"
def errMissingFF00 : Err := Err.format "missing 0xff00 sequence"
def errShortHuffmanData : Err := Err.format "short Huffman data"

/-! ## Constants -/

def dcTable : Nat := 0
def acTable : Nat := 1
def maxTc : Nat := 1
def maxTh : Nat := 3
def maxTq : Nat := 3
def maxComponents : Nat := 4

def sof0Marker : Nat := 0xc0
def sof1Marker : Nat := 0xc1
def sof2Marker : Nat := 0xc2
def dhtMarker : Nat := 0xc4
def rst0Marker : Nat := 0xd0
def rst7Marker : Nat := 0xd7
def soiMarker : Nat := 0xd8
def eoiMarker : Nat := 0xd9
def sosMarker : Nat := 0xda
def dqtMarker : Nat := 0xdb
def driMarker : Nat := 0xdd
def comMarker : Nat := 0xfe
def app0Marker : Nat := 0xe0
def app14Marker : Nat := 0xee
def app15Marker : Nat := 0xef

def adobeTransformUnknown : Nat := 0

def blockSize : Nat := 64
def maxCodeLength : Nat := 16
def maxNCodes : Nat := 256
def lutSize : Nat := 8

/-- The table `unzig`: zig-zag position to natural position. -/
def unzigTable : List Nat :=
  [0, 1, 8, 16, 9, 2, 3, 10,
   17, 24, 32, 25, 18, 11, 4, 5,
   12, 19, 26, 33, 40, 48, 41, 34,
   27, 20, 13, 6, 7, 14, 21, 28,
   35, 42, 49, 56, 57, 50, 43, 36,
   29, 22, 15, 23, 30, 37, 44, 51,
   58, 59, 52, 45, 38, 31, 39, 46,
   53, 60, 61, 54, 47, 55, 62, 63]

def unzig (z : Nat) : Nat := unzigTable.getD z 0

/-! ## Data model -/

/-- A DCT block `[blockSize]int32`. -/
abbrev Block := Nat → Int

def zeroBlock : Block := fun _ => 0

/-- The byte source `io.Reader`: the bytes still to come, and for each future
`Read` call the number of bytes it is willing to hand over (at least one is
always handed over while bytes remain; a call beyond the schedule hands over
as much as fits).  The only error a source reports is end of file. -/
structure Source where
  rest : List Byte
  chunks : List Nat

/-- One call `Read(p)` with `len(p) = cap`: `none` is `(0, io.EOF)`. -/
def Source.read (s : Source) (cap : Nat) : Option (List Byte × Source) :=
  match s.rest with
  | [] => none
  | _ :: _ =>
    let want := match s.chunks with
      | [] => cap
      | c :: _ => max c 1
    let n := min cap (min want s.rest.length)
    some (s.rest.take n, { rest := s.rest.drop n, chunks := s.chunks.tail })

structure Component where
  h : Nat
  v : Nat
  c : Nat
  tq : Nat
  deriving DecidableEq, Repr

structure Bits where
  a : Nat
  m : Nat
  n : Int
  deriving DecidableEq, Repr

structure Bytes where
  buf : Nat → Byte
  i : Nat
  j : Nat
  nUnreadable : Nat

structure Huffman where
  nCodes : Int
  lut : Nat → Nat
  vals : Nat → Byte
  minCodes : Nat → Int
  maxCodes : Nat → Int
  valsIndices : Nat → Int

inductive SubsampleRatio where
  | r444 | r422 | r420 | r440 | r411 | r410
  deriving DecidableEq, Repr

/-- The part of `image.Gray` the decoder uses: the pixel slice, its stride and
the visible rectangle `(0,0)-(w,h)`. -/
structure Gray where
  pix : List Nat
  stride : Nat
  w : Nat
  h : Nat
  deriving DecidableEq, Repr

/-- The part of `image.YCbCr` the decoder uses. -/
structure YCbCr where
  y : List Nat
  cb : List Nat
  cr : List Nat
  yStride : Nat
  cStride : Nat
  ratio : SubsampleRatio
  w : Nat
  h : Nat
  deriving DecidableEq, Repr

/-- The part of `image.RGBA` the decoder uses. -/
structure RGBA where
  pix : List Nat
  stride : Nat
  w : Nat
  h : Nat
  deriving DecidableEq, Repr

/-- A non-nil `image.Image` as returned by the decoder. -/
inductive Image where
  | gray (m : Gray)
  | ycbcr (m : YCbCr)
  | rgba (m : RGBA)
  deriving DecidableEq, Repr

structure Decoder where
  r : Source
  bits : Bits
  bytes : Bytes
  width : Nat
  height : Nat
  img1 : Option Gray
  img3 : Option YCbCr
  blackPix : Option (List Nat)
  blackStride : Nat
  ri : Nat
  nComp : Nat
  progressive : Bool
  jfif : Bool
  adobeTransformValid : Bool
  adobeTransform : Nat
  eobRun : Nat
  comp : Nat → Component
  progCoeffs : Nat → Option (List Block)
  huff : Nat → Nat → Huffman
  quant : Nat → Block
  tmp : Nat → Byte

def zeroHuffman : Huffman :=
  { nCodes := 0, lut := fun _ => 0, vals := fun _ => byte 0, minCodes := fun _ => 0,
    maxCodes := fun _ => 0, valsIndices := fun _ => 0 }

/-- The zero value `var d decoder`, with its reader field set to `r`. -/
def zeroDecoder (r : Source) : Decoder :=
  { r := r
    bits := { a := 0, m := 0, n := 0 }
    bytes := { buf := fun _ => byte 0, i := 0, j := 0, nUnreadable := 0 }
    width := 0, height := 0
    img1 := none, img3 := none, blackPix := none, blackStride := 0
    ri := 0, nComp := 0
    progressive := false, jfif := false, adobeTransformValid := false
    adobeTransform := 0, eobRun := 0
    comp := fun _ => { h := 0, v := 0, c := 0, tq := 0 }
    progCoeffs := fun _ => none
    huff := fun _ _ => zeroHuffman
    quant := fun _ => zeroBlock
    tmp := fun _ => byte 0 }

/-- Outcome of a decoder method: the returned value or the error, and the
decoder state the call left behind. -/
inductive Result (α : Type) where
  | ok (a : α) (d : Decoder)
  | fail (e : Err) (d : Decoder)

def Result.state {α : Type} : Result α → Decoder
  | .ok _ d => d
  | .fail _ d => d

def Result.err? {α : Type} : Result α → Option Err
  | .ok _ _ => none
  | .fail e _ => some e

def Result.val? {α : Type} : Result α → Option α
  | .ok a _ => some a
  | .fail _ _ => none

abbrev M (α : Type) := Decoder → Result α

def M.pure {α : Type} (a : α) : M α := fun d => .ok a d

def M.bind {α β : Type} (x : M α) (f : α → M β) : M β := fun d =>
  match x d with
  | .ok a d1 => f a d1
  | .fail e d1 => .fail e d1

instance : Monad M where
  pure := M.pure
  bind := M.bind

def fail {α : Type} (e : Err) : M α := fun d => .fail e d

/-! ## Byte reader -/

/-- The bytes of the stream that have not been consumed yet: the buffered
ones, then those still in the source. -/
def Decoder.stream (d : Decoder) : List Byte :=
  slice d.bytes.buf d.bytes.i (d.bytes.j - d.bytes.i) ++ d.r.rest

def fill : M Unit := fun d =>
  if d.bytes.i ≠ d.bytes.j then
    .fail (.panic "jpeg: fill called when unread bytes exist") d
  else
    let bs : Bytes :=
      if d.bytes.j > 2 then
        let b0 := upd d.bytes.buf 0 (d.bytes.buf (d.bytes.j - 2))
        let b1 := upd b0 1 (b0 (d.bytes.j - 1))
        { d.bytes with buf := b1, i := 2, j := 2 }
      else d.bytes
    match d.r.read (4096 - bs.j) with
    | none => .fail .eof { d with bytes := bs }
    | some (chunk, r1) =>
      .ok () { d with
        r := r1
        bytes := { bs with buf := blit bs.buf bs.j chunk, j := bs.j + chunk.length } }

def unreadByteStuffedByte : M Unit := fun d =>
  let bs : Bytes := { d.bytes with i := d.bytes.i - d.bytes.nUnreadable, nUnreadable := 0 }
  let bits : Bits :=
    if d.bits.n ≥ 8 then
      { a := d.bits.a >>> 8, n := d.bits.n - 8, m := d.bits.m >>> 8 }
    else d.bits
  .ok () { d with bytes := bs, bits := bits }

/-- The statements of `readByte` after its loop. -/
def takeByte : M Byte := fun d =>
  .ok (d.bytes.buf d.bytes.i)
    { d with bytes := { d.bytes with i := d.bytes.i + 1, nUnreadable := 0 } }

/-- The loop `for d.bytes.i == d.bytes.j { fill }` of `readByte`, then its tail. -/
def readByteLoop : Nat → M Byte
  | 0, d => .fail .diverged d
  | fuel + 1, d =>
    if d.bytes.i = d.bytes.j then
      match fill d with
      | .fail e d1 => .fail e d1
      | .ok _ d1 => readByteLoop fuel d1
    else takeByte d

/-- A successful `fill` of this source model always adds a byte, so the loop
test is made at most twice. -/
def readByte : M Byte := readByteLoop 2

def readByteStuffedByte : M Byte := fun d =>
  if d.bytes.i + 2 ≤ d.bytes.j then
    let x := d.bytes.buf d.bytes.i
    let d1 := { d with bytes := { d.bytes with i := d.bytes.i + 1, nUnreadable := 1 } }
    if x.val ≠ 0xff then .ok x d1
    else if (d1.bytes.buf d1.bytes.i).val ≠ 0x00 then .fail errMissingFF00 d1
    else .ok (byte 0xff) { d1 with bytes := { d1.bytes with i := d1.bytes.i + 1, nUnreadable := 2 } }
  else
    let d0 := { d with bytes := { d.bytes with nUnreadable := 0 } }
    match readByte d0 with
    | .fail e d1 => .fail e d1
    | .ok x d1 =>
      let d2 := { d1 with bytes := { d1.bytes with nUnreadable := 1 } }
      if x.val ≠ 0xff then .ok x d2
      else
        match readByte d2 with
        | .fail e d3 => .fail e d3
        | .ok x d3 =>
          let d4 := { d3 with bytes := { d3.bytes with nUnreadable := 2 } }
          if x.val ≠ 0x00 then .fail errMissingFF00 d4
          else .ok (byte 0xff) d4

/-- The block "Unread the overshot bytes, if any" that opens `readFull` and
`ignore`. -/
def unreadOvershoot : M Unit := fun d =>
  if d.bytes.nUnreadable ≠ 0 then
    let d1 := if d.bits.n ≥ 8 then (unreadByteStuffedByte d).state else d
    .ok () { d1 with bytes := { d1.bytes with nUnreadable := 0 } }
  else .ok () d

/-- The loop of `readFull`; `need` is `len(p)` and `acc` what has been copied
into `p` so far.  On failure the partly filled `p` is not returned: every
caller returns the error at once. -/
def readFullLoop : Nat → Nat → List Byte → M (List Byte)
  | 0, _, _, d => .fail .diverged d
  | fuel + 1, need, acc, d =>
    let n := min need (d.bytes.j - d.bytes.i)
    let got := slice d.bytes.buf d.bytes.i n
    let d1 := { d with bytes := { d.bytes with i := d.bytes.i + n } }
    if need - n = 0 then .ok (acc ++ got) d1
    else
      match fill d1 with
      | .fail e d2 => .fail (if e = .eof then .unexpectedEOF else e) d2
      | .ok _ d2 => readFullLoop fuel (need - n) (acc ++ got) d2

/-- Model of `readFull(p)` with `len(p) = n`, returning the bytes stored in `p`.
Every `fill` that succeeds is followed by a copy of at least one byte, so
`n + 1` rounds are enough. -/
def readFull (n : Nat) : M (List Byte) := fun d =>
  match unreadOvershoot d with
  | .fail e d1 => .fail e d1
  | .ok _ d1 => readFullLoop (n + 1) n [] d1

/-- The call `readFull(d.tmp[:n])`. -/
def readFullTmp (n : Nat) : M Unit := fun d =>
  match readFull n d with
  | .fail e d1 => .fail e d1
  | .ok p d1 => .ok () { d1 with tmp := blit d1.tmp 0 p }

def ignoreLoop : Nat → Nat → M Unit
  | 0, _, d => .fail .diverged d
  | fuel + 1, n, d =>
    let m := min (d.bytes.j - d.bytes.i) n
    let d1 := { d with bytes := { d.bytes with i := d.bytes.i + m } }
    if n - m = 0 then .ok () d1
    else
      match fill d1 with
      | .fail e d2 => .fail (if e = .eof then .unexpectedEOF else e) d2
      | .ok _ d2 => ignoreLoop fuel (n - m) d2

def ignore (n : Nat) : M Unit := fun d =>
  match unreadOvershoot d with
  | .fail e d1 => .fail e d1
  | .ok _ d1 => ignoreLoop (n + 1) n d1

/-! ## Segment handlers: SOF, DQT, DRI, APP0, APP14 -/

/-- The statement `d.comp[i].h = h; d.comp[i].v = v` that ends the loop body of
`processSOF`. -/
def sofStore (i h v : Nat) : M Unit := fun d =>
  .ok () { d with comp := upd d.comp i { d.comp i with h := h, v := v } }

/-- The body of the loop `for i := 0; i < d.nComp; i++` of `processSOF`. -/
def sofComponent (i : Nat) : M Unit := fun d =>
  let d1 := { d with comp := upd d.comp i { d.comp i with c := (d.tmp (6 + 3 * i)).val } }
  if (List.range i).any (fun j => decide ((d1.comp i).c = (d1.comp j).c)) then
    .fail (.format "repeated component identifier") d1
  else
    let d2 := { d1 with comp := upd d1.comp i { d1.comp i with tq := (d1.tmp (8 + 3 * i)).val } }
    if (d2.comp i).tq > maxTq then .fail (.format "bad Tq value") d2
    else
      let hv := (d2.tmp (7 + 3 * i)).val
      let h := hv >>> 4
      let v := hv &&& 0x0f
      if h < 1 ∨ 4 < h ∨ v < 1 ∨ 4 < v then
        .fail (.format "luma/chroma subsampling ratio") d2
      else if h = 3 ∨ v = 3 then .fail errUnsupportedSubsamplingRatio d2
      else
        match d2.nComp with
        | 1 => sofStore i 1 1 d2
        | 3 =>
          match i with
          | 0 => if v = 4 then .fail errUnsupportedSubsamplingRatio d2 else sofStore i h v d2
          | 1 =>
            if (d2.comp 0).h % h ≠ 0 ∨ (d2.comp 0).v % v ≠ 0 then
              .fail errUnsupportedSubsamplingRatio d2
            else sofStore i h v d2
          | 2 =>
            if (d2.comp 1).h ≠ h ∨ (d2.comp 1).v ≠ v then
              .fail errUnsupportedSubsamplingRatio d2
            else sofStore i h v d2
          | _ => sofStore i h v d2
        | 4 =>
          match i with
          | 0 =>
            if hv ≠ 0x11 ∧ hv ≠ 0x22 then .fail errUnsupportedSubsamplingRatio d2
            else sofStore i h v d2
          | 1 => if hv ≠ 0x11 then .fail errUnsupportedSubsamplingRatio d2 else sofStore i h v d2
          | 2 => if hv ≠ 0x11 then .fail errUnsupportedSubsamplingRatio d2 else sofStore i h v d2
          | 3 =>
            if (d2.comp 0).h ≠ h ∨ (d2.comp 0).v ≠ v then
              .fail errUnsupportedSubsamplingRatio d2
            else sofStore i h v d2
          | _ => sofStore i h v d2
        | _ => sofStore i h v d2

/-- The loop `for i := lo; i < lo + cnt; i++` over `sofComponent`. -/
def sofLoop : Nat → Nat → M Unit
  | 0, _, d => .ok () d
  | cnt + 1, lo, d =>
    match sofComponent lo d with
    | .fail e d1 => .fail e d1
    | .ok _ d1 => sofLoop cnt (lo + 1) d1

/-- The `switch n` of `processSOF`: the component count for a payload length. -/
def sofNComp (n : Nat) : Option Nat :=
  if n = 6 + 3 * 1 then some 1
  else if n = 6 + 3 * 3 then some 3
  else if n = 6 + 3 * 4 then some 4
  else none

/-- The statements of `processSOF` before its component loop. -/
def sofHeader (n : Nat) : M Unit := fun d =>
  if d.nComp ≠ 0 then .fail (.format "multiple SOF markers") d
  else
    match sofNComp n with
    | none => .fail (.unsupported "number of components") d
    | some nc =>
      match readFullTmp n { d with nComp := nc } with
      | .fail e d1 => .fail e d1
      | .ok _ d1 =>
        if (d1.tmp 0).val ≠ 8 then .fail (.unsupported "precision") d1
        else
          let d2 := { d1 with
            height := ((d1.tmp 1).val <<< 8) + (d1.tmp 2).val
            width := ((d1.tmp 3).val <<< 8) + (d1.tmp 4).val }
          if (d2.tmp 5).val ≠ d2.nComp then .fail (.format "SOF has wrong length") d2
          else .ok () d2

def processSOF (n : Nat) : M Unit := fun d =>
  match sofHeader n d with
  | .fail e d1 => .fail e d1
  | .ok _ d1 => sofLoop d1.nComp 0 d1

/-- The statement after the loop of `processDQT`. -/
def dqtEnd (n : Nat) : M Unit := fun d =>
  if n ≠ 0 then .fail (.format "DQT has wrong length") d else .ok () d

/-- The loop `for n > 0` of `processDQT` and the statement after it. -/
def dqtLoop : Nat → Nat → M Unit
  | 0, _, d => .fail .diverged d
  | fuel + 1, n, d =>
    if n > 0 then
      match readByte d with
      | .fail e d1 => .fail e d1
      | .ok x d1 =>
        let tq := x.val &&& 0x0f
        if tq > maxTq then .fail (.format "bad Tq value") d1
        else
          match x.val >>> 4 with
          | 0 =>
            if n - 1 < blockSize then dqtEnd (n - 1) d1
            else
              match readFullTmp blockSize d1 with
              | .fail e d2 => .fail e d2
              | .ok _ d2 =>
                let q : Block := fun i =>
                  if i < blockSize then ((d2.tmp i).val : Int) else d2.quant tq i
                dqtLoop fuel (n - 1 - blockSize) { d2 with quant := upd d2.quant tq q }
          | 1 =>
            if n - 1 < 2 * blockSize then dqtEnd (n - 1) d1
            else
              match readFullTmp (2 * blockSize) d1 with
              | .fail e d2 => .fail e d2
              | .ok _ d2 =>
                let q : Block := fun i =>
                  if i < blockSize then
                    ((((d2.tmp (2 * i)).val <<< 8) ||| (d2.tmp (2 * i + 1)).val : Nat) : Int)
                  else d2.quant tq i
                dqtLoop fuel (n - 1 - 2 * blockSize) { d2 with quant := upd d2.quant tq q }
          | _ => .fail (.format "bad Pq value") d1
    else dqtEnd n d

/-- Every round of the loop lowers `n`, so `n + 1` rounds are enough. -/
def processDQT (n : Nat) : M Unit := dqtLoop (n + 1) n

def processDRI (n : Nat) : M Unit := fun d =>
  if n ≠ 2 then .fail (.format "DRI has wrong length") d
  else
    match readFullTmp 2 d with
    | .fail e d1 => .fail e d1
    | .ok _ d1 => .ok () { d1 with ri := ((d1.tmp 0).val <<< 8) + (d1.tmp 1).val }

def processApp0Marker (n : Nat) : M Unit := fun d =>
  if n < 5 then ignore n d
  else
    match readFullTmp 5 d with
    | .fail e d1 => .fail e d1
    | .ok _ d1 =>
      let d2 := { d1 with
        jfif := decide ((d1.tmp 0).val = 0x4a ∧ (d1.tmp 1).val = 0x46 ∧ (d1.tmp 2).val = 0x49 ∧
          (d1.tmp 3).val = 0x46 ∧ (d1.tmp 4).val = 0x00) }
      if n - 5 > 0 then ignore (n - 5) d2 else .ok () d2

def processApp14Marker (n : Nat) : M Unit := fun d =>
  if n < 12 then ignore n d
  else
    match readFullTmp 12 d with
    | .fail e d1 => .fail e d1
    | .ok _ d1 =>
      let d2 :=
        if (d1.tmp 0).val = 0x41 ∧ (d1.tmp 1).val = 0x64 ∧ (d1.tmp 2).val = 0x6f ∧
            (d1.tmp 3).val = 0x62 ∧ (d1.tmp 4).val = 0x65 then
          { d1 with adobeTransformValid := true, adobeTransform := (d1.tmp 11).val }
        else d1
      if n - 12 > 0 then ignore (n - 12) d2 else .ok () d2

/-! ## Bit reader and Huffman tables

`d.bits.n` stays between 0 and 31 in every run that starts from an empty
accumulator, so the `int32` arithmetic on it is not wrapped. -/

/-- The loop of `ensureNBits(n)`. -/
def ensureNBitsLoop : Nat → Int → M Unit
  | 0, _, d => .fail .diverged d
  | fuel + 1, n, d =>
    match readByteStuffedByte d with
    | .fail e d1 => .fail (if e = .eof then errShortHuffmanData else e) d1
    | .ok c d1 =>
      let bits : Bits :=
        { a := ((d1.bits.a <<< 8) % 4294967296) ||| c.val
          n := d1.bits.n + 8
          m := if d1.bits.m = 0 then 1 <<< 7 else (d1.bits.m <<< 8) % 4294967296 }
      let d2 := { d1 with bits := bits }
      if d2.bits.n ≥ n then .ok () d2 else ensureNBitsLoop fuel n d2

/-- Every round adds 8 to `d.bits.n`, so `n - d.bits.n + 1` rounds are enough. -/
def ensureNBits (n : Int) : M Unit := fun d =>
  ensureNBitsLoop ((n - d.bits.n).toNat + 1) n d

/-- Bitwise and of two `int32` values. -/
def and32 (x y : Int) : Int := i32 ((u32 x &&& u32 y : Nat) : Int)

/-- Bitwise or of two `int32` values. -/
def or32 (x y : Int) : Int := i32 ((u32 x ||| u32 y : Nat) : Int)

/-- The statements of `receiveExtend(t)` after the refill. -/
def receiveExtendTail (t : Nat) : M Int := fun d =>
  let n := d.bits.n - (t : Int)
  let d1 := { d with bits := { d.bits with n := n, m := d.bits.m >>> t } }
  let s : Int := i32 (2 ^ t)
  let x : Int := and32 (i32 ((d1.bits.a >>> (n % 256).toNat : Nat) : Int)) (i32 (s - 1))
  if x < s >>> 1 then .ok (i32 (x + (i32 (-(2 ^ t)) + 1))) d1 else .ok x d1

def receiveExtend (t : Nat) : M Int := fun d =>
  if d.bits.n < (t : Int) then
    match ensureNBits (t : Int) d with
    | .fail e d1 => .fail e d1
    | .ok _ d1 => receiveExtendTail t d1
  else receiveExtendTail t d

/-- The loop `for k := uint8(0); k < 1<<(7-i); k++ { h.lut[base|k] = lutValue }`,
`cnt` rounds from `k` on. -/
def lutFillK (base lutValue : Nat) : Nat → Nat → (Nat → Nat) → (Nat → Nat)
  | 0, _, lut => lut
  | cnt + 1, k, lut => lutFillK base lutValue cnt (k + 1) (upd lut (base ||| k) lutValue)

/-- The variables of the look-up-table loops of `processDHT`. -/
structure LutState where
  lut : Nat → Nat
  x : Nat
  code : Nat

/-- The loop `for j := int32(0); j < nCodes[i]; j++` of the look-up-table
construction, `cnt` rounds. -/
def lutFillJ (vals : Nat → Byte) (i : Nat) : Nat → LutState → LutState
  | 0, s => s
  | cnt + 1, s =>
    let base := u8 (s.code <<< (7 - i))
    let lutValue := u16 (((vals s.x).val <<< 8) ||| (2 + i))
    lutFillJ vals i cnt
      { lut := lutFillK base lutValue (1 <<< (7 - i)) 0 s.lut
        x := (s.x + 1) % 4294967296
        code := (s.code + 1) % 4294967296 }

/-- The loop `for i := uint32(0); i < lutSize; i++`, `cnt` rounds from `i` on. -/
def lutFillI (vals : Nat → Byte) (nCodes : Nat → Nat) : Nat → Nat → LutState → LutState
  | 0, _, s => s
  | cnt + 1, i, s =>
    lutFillI vals nCodes cnt (i + 1)
      (lutFillJ vals i (nCodes i) { s with code := (s.code <<< 1) % 4294967296 })

/-- The variables of the loop that derives `minCodes`, `maxCodes` and
`valsIndices`. -/
structure CodeState where
  minCodes : Nat → Int
  maxCodes : Nat → Int
  valsIndices : Nat → Int
  c : Int
  index : Int

/-- The loop `for i, n := range nCodes`, `cnt` rounds from `i` on. -/
def dhtCodes (nCodes : Nat → Nat) : Nat → Nat → CodeState → CodeState
  | 0, _, s => s
  | cnt + 1, i, s =>
    let n : Int := (nCodes i : Int)
    let s1 : CodeState :=
      if n = 0 then
        { s with minCodes := upd s.minCodes i (-1), maxCodes := upd s.maxCodes i (-1),
                 valsIndices := upd s.valsIndices i (-1) }
      else
        { minCodes := upd s.minCodes i s.c
          maxCodes := upd s.maxCodes i (i32 (s.c + n - 1))
          valsIndices := upd s.valsIndices i s.index
          c := i32 (s.c + n)
          index := i32 (s.index + n) }
    dhtCodes nCodes cnt (i + 1) { s1 with c := i32 (s1.c * 2) }

/-- The table `h` after the two derivation loops of `processDHT`, from its
`vals` and the sixteen counts. -/
def buildHuffman (h : Huffman) (nCodes : Nat → Nat) : Huffman :=
  let ls := lutFillI h.vals nCodes lutSize 0 { lut := fun _ => 0, x := 0, code := 0 }
  let cs := dhtCodes nCodes maxCodeLength 0
    { minCodes := h.minCodes, maxCodes := h.maxCodes, valsIndices := h.valsIndices,
      c := 0, index := 0 }
  { h with lut := ls.lut, minCodes := cs.minCodes, maxCodes := cs.maxCodes,
           valsIndices := cs.valsIndices }

/-- The store `d.huff[tc][th] = h`. -/
def setHuff (d : Decoder) (tc th : Nat) (h : Huffman) : Decoder :=
  { d with huff := upd d.huff tc (upd (d.huff tc) th h) }

/-- The loop `for n > 0` of `processDHT`.  `h.nCodes` is never negative and is a
natural number here. -/
def dhtLoop : Nat → Nat → M Unit
  | 0, _, d => .fail .diverged d
  | fuel + 1, n, d =>
    if n > 0 then
      if n < 17 then .fail (.format "DHT has wrong length") d
      else
        match readFullTmp 17 d with
        | .fail e d1 => .fail e d1
        | .ok _ d1 =>
          let tc := (d1.tmp 0).val >>> 4
          if tc > maxTc then .fail (.format "bad Tc value") d1
          else
            let th := (d1.tmp 0).val &&& 0x0f
            if th > maxTh ∨ (d1.progressive = false ∧ th > 1) then
              .fail (.format "bad Th value") d1
            else
              let nCodes : Nat → Nat := fun i => (d1.tmp (i + 1)).val
              let total := ((List.range maxCodeLength).map nCodes).sum
              let d2 := setHuff d1 tc th { d1.huff tc th with nCodes := total }
              if total = 0 then .fail (.format "Huffman table has zero length") d2
              else if total > maxNCodes then
                .fail (.format "Huffman table has excessive length") d2
              else if n < total + 17 then .fail (.format "DHT has wrong length") d2
              else
                match readFull total d2 with
                | .fail e d3 => .fail e d3
                | .ok p d3 =>
                  let h := d3.huff tc th
                  let h1 := buildHuffman { h with vals := blit h.vals 0 p } nCodes
                  dhtLoop fuel (n - (total + 17)) (setHuff d3 tc th h1)
    else .ok () d

/-- Every round of the loop lowers `n`, so `n + 1` rounds are enough. -/
def processDHT (n : Nat) : M Unit := dhtLoop (n + 1) n

/-- The statements of `decodeBit` after the refill, also used by the ladder:
test the bit under the mask and step over it. -/
def takeBit : M Bool := fun d =>
  .ok (decide (d.bits.a &&& d.bits.m ≠ 0))
    { d with bits := { d.bits with n := d.bits.n - 1, m := d.bits.m >>> 1 } }

def decodeBit : M Bool := fun d =>
  if d.bits.n = 0 then
    match ensureNBits 1 d with
    | .fail e d1 => .fail e d1
    | .ok _ d1 => takeBit d1
  else takeBit d

/-- The ladder of `decodeHuffman` (label `slowPath`): `cnt` rounds from level
`i` on.  `code` gains one bit per round, at most sixteen in all, so it is a
natural number here and its shift is not wrapped. -/
def huffSlowPath (h : Huffman) : Nat → Nat → Nat → M Nat
  | 0, _, _, d => .fail (.format "bad Huffman code") d
  | cnt + 1, i, code, d =>
    match decodeBit d with
    | .fail e d1 => .fail e d1
    | .ok bit d1 =>
      let code1 := if bit then code ||| 1 else code
      if (code1 : Int) ≤ h.maxCodes i then
        .ok (h.vals (h.valsIndices i + (code1 : Int) - h.minCodes i).toNat).val d1
      else huffSlowPath h cnt (i + 1) (code1 <<< 1) d1

def decodeHuffman (h : Huffman) : M Nat := fun d =>
  if h.nCodes = 0 then .fail (.format "uninitialized Huffman table") d
  else
    let refill : Result Bool :=
      if d.bits.n < 8 then
        match ensureNBits 8 d with
        | .fail e d1 =>
          if e ≠ errMissingFF00 ∧ e ≠ errShortHuffmanData then .fail e d1
          else if d1.bytes.nUnreadable ≠ 0 then .ok true (unreadByteStuffedByte d1).state
          else .ok true d1
        | .ok _ d1 => .ok false d1
      else .ok false d
    match refill with
    | .fail e d1 => .fail e d1
    | .ok true d1 => huffSlowPath h maxCodeLength 0 0 d1
    | .ok false d1 =>
      let v := h.lut ((d1.bits.a >>> u32 (d1.bits.n - 8)) &&& 0xff)
      if v ≠ 0 then
        let n := u16 ((v &&& 0xff) + 65535)
        .ok (u8 (v >>> 8))
          { d1 with bits := { d1.bits with n := d1.bits.n - (n : Int), m := d1.bits.m >>> n } }
      else huffSlowPath h maxCodeLength 0 0 d1

/-- The statements of `decodeBits(n)` after the refill. -/
def decodeBitsTail (n : Int) : M Nat := fun d =>
  let ret := d.bits.a >>> u32 (d.bits.n - n)
  let mask := u32 ((((1 <<< u32 n) % 4294967296 : Nat) : Int) - 1)
  .ok (ret &&& mask)
    { d with bits := { d.bits with n := d.bits.n - n, m := d.bits.m >>> u32 n } }

def decodeBits (n : Int) : M Nat := fun d =>
  if d.bits.n < n then
    match ensureNBits n d with
    | .fail e d1 => .fail e d1
    | .ok _ d1 => decodeBitsTail n d1
  else decodeBitsTail n d

/-! ## Inverse DCT -/

def w1 : Int := 2841
def w2 : Int := 2676
def w3 : Int := 2408
def w5 : Int := 1609
def w6 : Int := 1108
def w7 : Int := 565
def w1pw7 : Int := w1 + w7
def w1mw7 : Int := w1 - w7
def w2pw6 : Int := w2 + w6
def w2mw6 : Int := w2 - w6
def w3pw5 : Int := w3 + w5
def w3mw5 : Int := w3 - w5
def r2 : Int := 181

/-- Store of eight values into row `y8 / 8` of a block. -/
def setRow (b : Block) (y8 : Nat) (v0 v1 v2 v3 v4 v5 v6 v7 : Int) : Block :=
  upd (upd (upd (upd (upd (upd (upd (upd b y8 v0) (y8 + 1) v1) (y8 + 2) v2) (y8 + 3) v3)
    (y8 + 4) v4) (y8 + 5) v5) (y8 + 6) v6) (y8 + 7) v7

/-- Store of eight values into column `x` of a block. -/
def setCol (b : Block) (x : Nat) (v0 v1 v2 v3 v4 v5 v6 v7 : Int) : Block :=
  upd (upd (upd (upd (upd (upd (upd (upd b x v0) (8 + x) v1) (16 + x) v2) (24 + x) v3)
    (32 + x) v4) (40 + x) v5) (48 + x) v6) (56 + x) v7

/-- The general computation of the horizontal pass of `idct` on the row that
starts at `y8` (prescale and stages 1 to 4). -/
def idctRowGeneral (src : Block) (y8 : Nat) : Block :=
  let x0 := i32 (src y8 * 2048 + 128)
  let x1 := i32 (src (y8 + 4) * 2048)
  let x2 := src (y8 + 6)
  let x3 := src (y8 + 2)
  let x4 := src (y8 + 1)
  let x5 := src (y8 + 7)
  let x6 := src (y8 + 5)
  let x7 := src (y8 + 3)
  -- Stage 1.
  let x8 := i32 (w7 * (x4 + x5))
  let x4 := i32 (x8 + w1mw7 * x4)
  let x5 := i32 (x8 - w1pw7 * x5)
  let x8 := i32 (w3 * (x6 + x7))
  let x6 := i32 (x8 - w3mw5 * x6)
  let x7 := i32 (x8 - w3pw5 * x7)
  -- Stage 2.
  let x8 := i32 (x0 + x1)
  let x0 := i32 (x0 - x1)
  let x1 := i32 (w6 * (x3 + x2))
  let x2 := i32 (x1 - w2pw6 * x2)
  let x3 := i32 (x1 + w2mw6 * x3)
  let x1 := i32 (x4 + x6)
  let x4 := i32 (x4 - x6)
  let x6 := i32 (x5 + x7)
  let x5 := i32 (x5 - x7)
  -- Stage 3.
  let x7 := i32 (x8 + x3)
  let x8 := i32 (x8 - x3)
  let x3 := i32 (x0 + x2)
  let x0 := i32 (x0 - x2)
  let x2 := i32 (r2 * (x4 + x5) + 128) >>> 8
  let x4 := i32 (r2 * (x4 - x5) + 128) >>> 8
  -- Stage 4.
  setRow src y8
    (i32 (x7 + x1) >>> 8) (i32 (x3 + x2) >>> 8) (i32 (x0 + x4) >>> 8) (i32 (x8 + x6) >>> 8)
    (i32 (x8 - x6) >>> 8) (i32 (x0 - x4) >>> 8) (i32 (x3 - x2) >>> 8) (i32 (x7 - x1) >>> 8)

/-- The fast path of the horizontal pass: `src[y8] << 3` in all eight places. -/
def idctRowFast (src : Block) (y8 : Nat) : Block :=
  let dc := i32 (src y8 * 8)
  setRow src y8 dc dc dc dc dc dc dc dc

/-- One round of the loop "Horizontal 1-D IDCT" of `idct`. -/
def idctRow (src : Block) (y : Nat) : Block :=
  let y8 := y * 8
  if src (y8 + 1) = 0 ∧ src (y8 + 2) = 0 ∧ src (y8 + 3) = 0 ∧ src (y8 + 4) = 0 ∧
      src (y8 + 5) = 0 ∧ src (y8 + 6) = 0 ∧ src (y8 + 7) = 0 then
    idctRowFast src y8
  else idctRowGeneral src y8

/-- One round of the loop "Vertical 1-D IDCT" of `idct`. -/
def idctCol (src : Block) (x : Nat) : Block :=
  let y0 := i32 (src x * 256 + 8192)
  let y1 := i32 (src (32 + x) * 256)
  let y2 := src (48 + x)
  let y3 := src (16 + x)
  let y4 := src (8 + x)
  let y5 := src (56 + x)
  let y6 := src (40 + x)
  let y7 := src (24 + x)
  -- Stage 1.
  let y8 := i32 (w7 * (y4 + y5) + 4)
  let y4 := i32 (y8 + w1mw7 * y4) >>> 3
  let y5 := i32 (y8 - w1pw7 * y5) >>> 3
  let y8 := i32 (w3 * (y6 + y7) + 4)
  let y6 := i32 (y8 - w3mw5 * y6) >>> 3
  let y7 := i32 (y8 - w3pw5 * y7) >>> 3
  -- Stage 2.
  let y8 := i32 (y0 + y1)
  let y0 := i32 (y0 - y1)
  let y1 := i32 (w6 * (y3 + y2) + 4)
  let y2 := i32 (y1 - w2pw6 * y2) >>> 3
  let y3 := i32 (y1 + w2mw6 * y3) >>> 3
  let y1 := i32 (y4 + y6)
  let y4 := i32 (y4 - y6)
  let y6 := i32 (y5 + y7)
  let y5 := i32 (y5 - y7)
  -- Stage 3.
  let y7 := i32 (y8 + y3)
  let y8 := i32 (y8 - y3)
  let y3 := i32 (y0 + y2)
  let y0 := i32 (y0 - y2)
  let y2 := i32 (r2 * (y4 + y5) + 128) >>> 8
  let y4 := i32 (r2 * (y4 - y5) + 128) >>> 8
  -- Stage 4.
  setCol src x
    (i32 (y7 + y1) >>> 14) (i32 (y3 + y2) >>> 14) (i32 (y0 + y4) >>> 14) (i32 (y8 + y6) >>> 14)
    (i32 (y8 - y6) >>> 14) (i32 (y0 - y4) >>> 14) (i32 (y3 - y2) >>> 14) (i32 (y7 - y1) >>> 14)

def idct (src : Block) : Block :=
  (List.range 8).foldl idctCol ((List.range 8).foldl idctRow src)

/-! ## Destination images

The constructors and the `SubImage` method of Go's `image` package are not part
of the repository; they are modelled by the sizes, strides and visible
rectangle they produce.  An empty visible rectangle gives the empty image. -/

/-- `image.NewGray(image.Rect(0, 0, bw, bh)).SubImage(image.Rect(0, 0, width, height))`. -/
def newGray (bw bh width height : Nat) : Gray :=
  if min width bw = 0 ∨ min height bh = 0 then { pix := [], stride := 0, w := 0, h := 0 }
  else { pix := List.replicate (bw * bh) 0, stride := bw, w := min width bw, h := min height bh }

/-- Chroma plane size of `image.NewYCbCr` for a `bw` by `bh` image at the origin. -/
def chromaSize (ratio : SubsampleRatio) (bw bh : Nat) : Nat × Nat :=
  match ratio with
  | .r422 => ((bw + 1) / 2, bh)
  | .r420 => ((bw + 1) / 2, (bh + 1) / 2)
  | .r440 => (bw, (bh + 1) / 2)
  | .r411 => ((bw + 3) / 4, bh)
  | .r410 => ((bw + 3) / 4, (bh + 1) / 2)
  | .r444 => (bw, bh)

/-- `image.NewYCbCr(image.Rect(0, 0, bw, bh), ratio).SubImage(image.Rect(0, 0, width, height))`. -/
def newYCbCr (bw bh : Nat) (ratio : SubsampleRatio) (width height : Nat) : YCbCr :=
  if min width bw = 0 ∨ min height bh = 0 then
    { y := [], cb := [], cr := [], yStride := 0, cStride := 0, ratio := ratio, w := 0, h := 0 }
  else
    let c := chromaSize ratio bw bh
    { y := List.replicate (bw * bh) 0
      cb := List.replicate (c.1 * c.2) 0
      cr := List.replicate (c.1 * c.2) 0
      yStride := bw, cStride := c.1, ratio := ratio, w := min width bw, h := min height bh }

/-- The `switch hRatio<<4 | vRatio` of `makeImg`; `none` is its default branch. -/
def subsampleRatioOf (hRatio vRatio : Nat) : Option SubsampleRatio :=
  let k := (hRatio <<< 4) ||| vRatio
  if k = 0x11 then some .r444
  else if k = 0x12 then some .r440
  else if k = 0x21 then some .r422
  else if k = 0x22 then some .r420
  else if k = 0x41 then some .r411
  else if k = 0x42 then some .r410
  else none

def makeImg (mxx myy : Nat) : M Unit := fun d =>
  if d.nComp = 1 then
    .ok () { d with img1 := some (newGray (8 * mxx) (8 * myy) d.width d.height) }
  else
    let h0 := (d.comp 0).h
    let v0 := (d.comp 0).v
    if (d.comp 1).h = 0 ∨ (d.comp 1).v = 0 then .fail (.panic "integer divide by zero") d
    else
      match subsampleRatioOf (h0 / (d.comp 1).h) (v0 / (d.comp 1).v) with
      | none => .fail (.panic "unreachable") d
      | some ratio =>
        let d1 := { d with
          img3 := some (newYCbCr (8 * h0 * mxx) (8 * v0 * myy) ratio d.width d.height) }
        if d1.nComp = 4 then
          let h3 := (d1.comp 3).h
          let v3 := (d1.comp 3).v
          .ok () { d1 with
            blackPix := some (List.replicate (8 * h3 * mxx * 8 * v3 * myy) 0)
            blackStride := 8 * h3 * mxx }
        else .ok () d1

/-- The level shift by +128 with clipping to `[0, 255]`. -/
def levelShift (c : Int) : Nat :=
  if c < -128 then 0 else if c > 127 then 255 else (c + 128).toNat

/-- The loop "Level shift by +128, clip to [0, 255], and write to dst", where
`dst` is `pix[off:]`. -/
def storeBlock (pix : List Nat) (off stride : Nat) (b : Block) : List Nat :=
  (List.range 8).foldl
    (fun p y => (List.range 8).foldl
      (fun p x => p.set (off + (y * stride + x)) (levelShift (b (y * 8 + x)))) p)
    pix

/-- The loop `for zig := 0; zig < blockSize; zig++ { b[unzig[zig]] *= qt[zig] }`. -/
def dequantize (b qt : Block) : Block :=
  (List.range blockSize).foldl (fun b z => upd b (unzig z) (i32 (b (unzig z) * qt z))) b

/-! ## Scans -/

/-- One entry of the local array `scan` of `processSOS`. -/
structure ScanComp where
  compIndex : Nat
  td : Nat
  ta : Nat
  deriving DecidableEq, Repr

/-- The values `processSOS` fixes before its MCU loops. -/
structure ScanParams where
  nComp : Nat
  scan : Nat → ScanComp
  zigStart : Nat
  zigEnd : Nat
  ah : Nat
  al : Nat
  mxx : Nat
  myy : Nat

/-- The local variables of `processSOS` that live across MCUs. -/
structure ScanVars where
  mcu : Nat
  expectedRST : Nat
  dc : Nat → Int
  blockCount : Nat

/-- The loop `for j, comp := range d.comp[:d.nComp]` that looks a component
selector up: the last matching index, `none` for `compIndex < 0`. -/
def findComp (d : Decoder) (cs : Nat) : Option Nat :=
  (List.range d.nComp).foldl (fun acc j => if cs = (d.comp j).c then some j else acc) none

/-- The loop `for i := 0; i < nComp; i++` over the scan header, `cnt` rounds
from `i` on; it returns the array `scan` and `totalHV`. -/
def sosHeaderLoop (d : Decoder) : Nat → Nat → (Nat → ScanComp) → Nat →
    Except Err ((Nat → ScanComp) × Nat)
  | 0, _, scan, totalHV => .ok (scan, totalHV)
  | cnt + 1, i, scan, totalHV =>
    match findComp d (d.tmp (1 + 2 * i)).val with
    | none => .error (.format "unknown component selector")
    | some compIndex =>
      if (List.range i).any (fun j => decide (compIndex = (scan j).compIndex)) then
        .error (.format "repeated component selector")
      else
        let totalHV1 := totalHV + (d.comp compIndex).h * (d.comp compIndex).v
        let td := (d.tmp (2 + 2 * i)).val >>> 4
        if td > maxTh then .error (.format "bad Td value")
        else
          let ta := (d.tmp (2 + 2 * i)).val &&& 0x0f
          if ta > maxTh then .error (.format "bad Ta value")
          else
            sosHeaderLoop d cnt (i + 1)
              (upd scan i { compIndex := compIndex, td := td, ta := ta }) totalHV1

/-- The spectral selection and successive approximation values
`(zigStart, zigEnd, ah, al)` of a scan, with their validation. -/
def sosProgression (d : Decoder) (nComp : Nat) : Except Err (Nat × Nat × Nat × Nat) :=
  if d.progressive then
    let zigStart := (d.tmp (1 + 2 * nComp)).val
    let zigEnd := (d.tmp (2 + 2 * nComp)).val
    let ah := (d.tmp (3 + 2 * nComp)).val >>> 4
    let al := (d.tmp (3 + 2 * nComp)).val &&& 0x0f
    if (zigStart = 0 ∧ zigEnd ≠ 0) ∨ zigStart > zigEnd ∨ blockSize ≤ zigEnd then
      .error (.format "bad spectral selection bounds")
    else if zigStart ≠ 0 ∧ nComp ≠ 1 then
      .error (.format "progressive AC coefficients for more than one component")
    else if ah ≠ 0 ∧ ah ≠ al + 1 then
      .error (.format "bad successive approximation values")
    else .ok (zigStart, zigEnd, ah, al)
  else .ok (0, blockSize - 1, 0, 0)

/-- The loop of `refineNonZeroes`; the result is the block and the final `zig`.
Every round raises `zig`. -/
def refineNonZeroesLoop (zigEnd : Nat) (delta : Int) : Nat → Block → Nat → Int → M (Block × Nat)
  | 0, _, _, _, d => .fail .diverged d
  | fuel + 1, b, zig, nz, d =>
    if zig ≤ zigEnd then
      let u := unzig zig
      if b u = 0 then
        if nz = 0 then .ok (b, zig) d
        else refineNonZeroesLoop zigEnd delta fuel b (zig + 1) (i32 (nz - 1)) d
      else
        match decodeBit d with
        | .fail e d1 => .fail e d1
        | .ok bit d1 =>
          if bit = false then refineNonZeroesLoop zigEnd delta fuel b (zig + 1) nz d1
          else if b u ≥ 0 then
            refineNonZeroesLoop zigEnd delta fuel (upd b u (i32 (b u + delta))) (zig + 1) nz d1
          else
            refineNonZeroesLoop zigEnd delta fuel (upd b u (i32 (b u - delta))) (zig + 1) nz d1
    else .ok (b, zig) d

def refineNonZeroes (b : Block) (zig zigEnd : Nat) (nz delta : Int) : M (Block × Nat) :=
  refineNonZeroesLoop zigEnd delta (zigEnd + 2 - zig) b zig nz

/-- The statement `d.eobRun = uint16(1 << val0)` and the optional extra bits
that follow it, shared by `processSOS` and `refine`. -/
def readEobRun (val0 : Nat) : M Unit := fun d =>
  let d1 := { d with eobRun := u16 (1 <<< val0) }
  if val0 ≠ 0 then
    match decodeBits (val0 : Int) d1 with
    | .fail e d2 => .fail e d2
    | .ok bits d2 => .ok () { d2 with eobRun := d2.eobRun ||| u16 bits }
  else .ok () d1

/-- The labelled loop of `refine`; the result is the block and the value of
`zig` when the loop is left.  Every round raises `zig`. -/
def refineLoop (h : Huffman) (zigEnd : Nat) (delta : Int) : Nat → Block → Nat → M (Block × Nat)
  | 0, _, _, d => .fail .diverged d
  | fuel + 1, b, zig, d =>
    if zig ≤ zigEnd then
      match decodeHuffman h d with
      | .fail e d1 => .fail e d1
      | .ok value d1 =>
        let val0 := value >>> 4
        let val1 := value &&& 0x0f
        let next (z : Int) (d2 : Decoder) : Result (Block × Nat) :=
          match refineNonZeroes b zig zigEnd (val0 : Int) delta d2 with
          | .fail e d3 => .fail e d3
          | .ok (b1, zig1) d3 =>
            if zig1 > zigEnd then .fail (.format "too many coefficients") d3
            else if z ≠ 0 then refineLoop h zigEnd delta fuel (upd b1 (unzig zig1) z) (zig1 + 1) d3
            else refineLoop h zigEnd delta fuel b1 (zig1 + 1) d3
        if val1 = 0 then
          if val0 ≠ 0x0f then
            match readEobRun val0 d1 with
            | .fail e d2 => .fail e d2
            | .ok _ d2 => .ok (b, zig) d2
          else next 0 d1
        else if val1 = 1 then
          match decodeBit d1 with
          | .fail e d2 => .fail e d2
          | .ok bit d2 => next (if bit = false then i32 (-delta) else delta) d2
        else .fail (.format "unexpected Huffman code") d1
    else .ok (b, zig) d

def refine (b : Block) (h : Huffman) (zigStart zigEnd : Nat) (delta : Int) : M Block := fun d =>
  if zigStart = 0 then
    if zigEnd ≠ 0 then .fail (.panic "unreachable") d
    else
      match decodeBit d with
      | .fail e d1 => .fail e d1
      | .ok bit d1 => if bit then .ok (upd b 0 (or32 (b 0) delta)) d1 else .ok b d1
  else
    let looped : Result (Block × Nat) :=
      if d.eobRun = 0 then refineLoop h zigEnd delta (zigEnd + 2 - zigStart) b zigStart d
      else .ok (b, zigStart) d
    match looped with
    | .fail e d1 => .fail e d1
    | .ok (b1, zig) d1 =>
      if d1.eobRun > 0 then
        match refineNonZeroes b1 zig zigEnd (-1) delta
            { d1 with eobRun := u16 (d1.eobRun + 65535) } with
        | .fail e d2 => .fail e d2
        | .ok (b2, _) d2 => .ok b2 d2
      else .ok b1 d1

/-- The loop "Decode the AC coefficients" of `processSOS`.  Every round raises
`zig`. -/
def acLoop (huff : Huffman) (zigEnd al : Nat) : Nat → Nat → Block → M Block
  | 0, _, _, d => .fail .diverged d
  | fuel + 1, zig, b, d =>
    if zig ≤ zigEnd then
      match decodeHuffman huff d with
      | .fail e d1 => .fail e d1
      | .ok value d1 =>
        let val0 := value >>> 4
        let val1 := value &&& 0x0f
        if val1 ≠ 0 then
          let zig1 := zig + val0
          if zig1 > zigEnd then .ok b d1
          else
            match receiveExtend val1 d1 with
            | .fail e d2 => .fail e d2
            | .ok ac d2 => acLoop huff zigEnd al fuel (zig1 + 1) (upd b (unzig zig1) (i32 (ac * 2 ^ al))) d2
        else if val0 ≠ 0x0f then
          match readEobRun val0 d1 with
          | .fail e d2 => .fail e d2
          | .ok _ d2 => .ok b { d2 with eobRun := u16 (d2.eobRun + 65535) }
        else acLoop huff zigEnd al fuel (zig + 0x0f + 1) b d1
    else .ok b d

/-- The block "Decode the DC coefficient" of `processSOS`, entered when
`zigStart` is 0; the result is the new `zig` (1), the block and the local
variables. -/
def sosDC (sp : ScanParams) (i : Nat) (b : Block) (sv : ScanVars) :
    M (Nat × Block × ScanVars) := fun d =>
  let compIndex := (sp.scan i).compIndex
  match decodeHuffman (d.huff dcTable (sp.scan i).td) d with
  | .fail e d1 => .fail e d1
  | .ok value d1 =>
    if value > 16 then .fail (.unsupported "excessive DC component") d1
    else
      match receiveExtend value d1 with
      | .fail e d2 => .fail e d2
      | .ok dcDelta d2 =>
        let dc1 := upd sv.dc compIndex (i32 (sv.dc compIndex + dcDelta))
        .ok (1, upd b 0 (i32 (dc1 compIndex * 2 ^ sp.al)), { sv with dc := dc1 }) d2

/-- The statement `if zig <= zigEnd && d.eobRun > 0 { d.eobRun-- } else { ... }`
of `processSOS`, which decodes the AC coefficients. -/
def sosAC (sp : ScanParams) (i zig : Nat) (b1 : Block) (sv1 : ScanVars) :
    M (Block × ScanVars) := fun d1 =>
  if zig ≤ sp.zigEnd ∧ d1.eobRun > 0 then
    .ok (b1, sv1) { d1 with eobRun := u16 (d1.eobRun + 65535) }
  else
    match acLoop (d1.huff acTable (sp.scan i).ta) sp.zigEnd sp.al (sp.zigEnd + 2 - zig) zig b1 d1
    with
    | .fail e d2 => .fail e d2
    | .ok b2 d2 => .ok (b2, sv1) d2

/-- The coefficient decoding of one data unit: the `if ah != 0 ... else ...`
statement of `processSOS`, from the loaded block `b`. -/
def sosCoeffs (sp : ScanParams) (i : Nat) (b : Block) (sv : ScanVars) : M (Block × ScanVars) :=
  fun d =>
  if sp.ah ≠ 0 then
    match refine b (d.huff acTable (sp.scan i).ta) sp.zigStart sp.zigEnd (2 ^ sp.al) d with
    | .fail e d1 => .fail e d1
    | .ok b1 d1 => .ok (b1, sv) d1
  else
    let dcPart : Result (Nat × Block × ScanVars) :=
      if sp.zigStart = 0 then sosDC sp i b sv d else .ok (sp.zigStart, b, sv) d
    match dcPart with
    | .fail e d1 => .fail e d1
    | .ok (zig, b1, sv1) d1 => sosAC sp i zig b1 sv1 d1

/-- The statements of the innermost loop body of `processSOS` once `bx` and
`by` are known: load, decode, then save or dequantize, transform and store. -/
def sosBlock (sp : ScanParams) (i bx by_ : Nat) (sv : ScanVars) : M ScanVars := fun d =>
  let compIndex := (sp.scan i).compIndex
  let hi := (d.comp compIndex).h
  let qt := d.quant (d.comp compIndex).tq
  let slot := by_ * sp.mxx * hi + bx
  let b0 : Block :=
    if d.progressive then ((d.progCoeffs compIndex).getD []).getD slot zeroBlock else zeroBlock
  match sosCoeffs sp i b0 sv d with
  | .fail e d1 => .fail e d1
  | .ok (b, sv1) d1 =>
    if d1.progressive = true ∧ (sp.zigEnd ≠ blockSize - 1 ∨ sp.al ≠ 0) then
      let plane := ((d1.progCoeffs compIndex).getD []).set slot b
      .ok sv1 { d1 with progCoeffs := upd d1.progCoeffs compIndex (some plane) }
    else
      let b1 := idct (dequantize b qt)
      if d1.nComp = 1 then
        match d1.img1 with
        | none => .fail (.panic "nil pointer dereference") d1
        | some g =>
          .ok sv1 { d1 with img1 := some { g with
            pix := storeBlock g.pix (8 * (by_ * g.stride + bx)) g.stride b1 } }
      else
        match d1.img3 with
        | none => .fail (.panic "nil pointer dereference") d1
        | some m =>
          if compIndex = 0 then
            .ok sv1 { d1 with img3 := some { m with
              y := storeBlock m.y (8 * (by_ * m.yStride + bx)) m.yStride b1 } }
          else if compIndex = 1 then
            .ok sv1 { d1 with img3 := some { m with
              cb := storeBlock m.cb (8 * (by_ * m.cStride + bx)) m.cStride b1 } }
          else if compIndex = 2 then
            .ok sv1 { d1 with img3 := some { m with
              cr := storeBlock m.cr (8 * (by_ * m.cStride + bx)) m.cStride b1 } }
          else if compIndex = 3 then
            let black := storeBlock (d1.blackPix.getD []) (8 * (by_ * d1.blackStride + bx))
              d1.blackStride b1
            .ok sv1 { d1 with blackPix := some black }
          else .fail (.unsupported "too many components") d1

/-- The body of the loop `for j := 0; j < hi*vi; j++` of `processSOS`. -/
def sosUnit (sp : ScanParams) (mx my i j : Nat) (sv : ScanVars) : M ScanVars := fun d =>
  let compIndex := (sp.scan i).compIndex
  let hi := (d.comp compIndex).h
  let vi := (d.comp compIndex).v
  if sp.nComp ≠ 1 then sosBlock sp i (hi * mx + j % hi) (vi * my + j / hi) sv d
  else
    let q := sp.mxx * hi
    let bx := sv.blockCount % q
    let by_ := sv.blockCount / q
    let sv1 := { sv with blockCount := sv.blockCount + 1 }
    if bx * 8 ≥ d.width ∨ by_ * 8 ≥ d.height then .ok sv1 d
    else sosBlock sp i bx by_ sv1 d

/-- The loop `for j := 0; j < hi*vi; j++`, `cnt` rounds from `j` on. -/
def sosUnits (sp : ScanParams) (mx my i : Nat) : Nat → Nat → ScanVars → M ScanVars
  | 0, _, sv, d => .ok sv d
  | cnt + 1, j, sv, d =>
    match sosUnit sp mx my i j sv d with
    | .fail e d1 => .fail e d1
    | .ok sv1 d1 => sosUnits sp mx my i cnt (j + 1) sv1 d1

/-- The loop `for i := 0; i < nComp; i++` inside an MCU, `cnt` rounds from `i`
on. -/
def sosComps (sp : ScanParams) (mx my : Nat) : Nat → Nat → ScanVars → M ScanVars
  | 0, _, sv, d => .ok sv d
  | cnt + 1, i, sv, d =>
    let c := d.comp (sp.scan i).compIndex
    match sosUnits sp mx my i (c.h * c.v) 0 sv d with
    | .fail e d1 => .fail e d1
    | .ok sv1 d1 => sosComps sp mx my cnt (i + 1) sv1 d1

/-- The statements after the component loop of an MCU: count it and, when a
restart interval ends before the last MCU, read the restart marker. -/
def sosRestart (sp : ScanParams) (sv : ScanVars) : M ScanVars := fun d =>
  let mcu := sv.mcu + 1
  if d.ri > 0 ∧ mcu % d.ri = 0 ∧ mcu < sp.mxx * sp.myy then
    match readFullTmp 2 d with
    | .fail e d1 => .fail e d1
    | .ok _ d1 =>
      if (d1.tmp 0).val ≠ 0xff ∨ (d1.tmp 1).val ≠ sv.expectedRST then
        .fail (.format "bad RST marker") d1
      else
        let e1 := u8 (sv.expectedRST + 1)
        .ok { mcu := mcu
              expectedRST := if e1 = rst7Marker + 1 then rst0Marker else e1
              dc := fun _ => 0
              blockCount := sv.blockCount }
          { d1 with bits := { a := 0, m := 0, n := 0 }, eobRun := 0 }
  else .ok { sv with mcu := mcu } d

/-- The loop `for mx := 0; mx < mxx; mx++`, `cnt` rounds from `mx` on. -/
def sosMX (sp : ScanParams) (my : Nat) : Nat → Nat → ScanVars → M ScanVars
  | 0, _, sv, d => .ok sv d
  | cnt + 1, mx, sv, d =>
    match sosComps sp mx my sp.nComp 0 sv d with
    | .fail e d1 => .fail e d1
    | .ok sv1 d1 =>
      match sosRestart sp sv1 d1 with
      | .fail e d2 => .fail e d2
      | .ok sv2 d2 => sosMX sp my cnt (mx + 1) sv2 d2

/-- The loop `for my := 0; my < myy; my++`, `cnt` rounds from `my` on. -/
def sosMY (sp : ScanParams) : Nat → Nat → ScanVars → M ScanVars
  | 0, _, sv, d => .ok sv d
  | cnt + 1, my, sv, d =>
    match sosMX sp my sp.mxx 0 sv d with
    | .fail e d1 => .fail e d1
    | .ok sv1 d1 => sosMY sp cnt (my + 1) sv1 d1

/-- The loop that allocates the progressive coefficient planes of the scanned
components, `cnt` rounds from `i` on. -/
def sosAlloc (scan : Nat → ScanComp) (mxx myy : Nat) : Nat → Nat → Decoder → Decoder
  | 0, _, d => d
  | cnt + 1, i, d =>
    let compIndex := (scan i).compIndex
    let d1 :=
      if (d.progCoeffs compIndex).isNone then
        let plane := List.replicate (mxx * myy * (d.comp compIndex).h * (d.comp compIndex).v)
          zeroBlock
        { d with progCoeffs := upd d.progCoeffs compIndex (some plane) }
      else d
    sosAlloc scan mxx myy cnt (i + 1) d1

/-- The statements of `processSOS` between the validation of the scan header
and the MCU loops: the MCU counts, the allocation of the images and of the
progressive coefficient planes, and the reset of the bit reader.  The result
holds the values that stay fixed during the loops. -/
def sosPrepare (nComp : Nat) (scan : Nat → ScanComp) (zigStart zigEnd ah al : Nat) :
    M ScanParams := fun d1 =>
  let h0 := (d1.comp 0).h
  let v0 := (d1.comp 0).v
  if h0 = 0 ∨ v0 = 0 then .fail (.panic "integer divide by zero") d1
  else
    let mxx := (d1.width + 8 * h0 - 1) / (8 * h0)
    let myy := (d1.height + 8 * v0 - 1) / (8 * v0)
    let made : Result Unit :=
      if d1.img1 = none ∧ d1.img3 = none then makeImg mxx myy d1 else .ok () d1
    match made with
    | .fail e d2 => .fail e d2
    | .ok _ d2 =>
      let d3 := if d2.progressive then sosAlloc scan mxx myy nComp 0 d2 else d2
      let d4 := { d3 with bits := { a := 0, m := 0, n := 0 } }
      .ok { nComp := nComp, scan := scan, zigStart := zigStart, zigEnd := zigEnd,
            ah := ah, al := al, mxx := mxx, myy := myy } d4

/-- The local variables of `processSOS` when the MCU loops start. -/
def scanVars0 : ScanVars :=
  { mcu := 0, expectedRST := rst0Marker, dc := fun _ => 0, blockCount := 0 }

/-- The statements of `processSOS` after the validation of the scan header. -/
def sosScan (nComp : Nat) (scan : Nat → ScanComp) (zigStart zigEnd ah al : Nat) : M Unit :=
  fun d1 =>
  match sosPrepare nComp scan zigStart zigEnd ah al d1 with
  | .fail e d2 => .fail e d2
  | .ok sp d4 =>
    match sosMY sp sp.myy 0 scanVars0 d4 with
    | .fail e d5 => .fail e d5
    | .ok _ d5 => .ok () d5

def processSOS (n : Nat) : M Unit := fun d =>
  if d.nComp = 0 then .fail (.format "missing SOF marker") d
  else if n < 6 ∨ 4 + 2 * d.nComp < n ∨ n % 2 ≠ 0 then
    .fail (.format "SOS has wrong length") d
  else
    match readFullTmp n d with
    | .fail e d1 => .fail e d1
    | .ok _ d1 =>
      let nComp := (d1.tmp 0).val
      if n ≠ 4 + 2 * nComp then
        .fail (.format "SOS length inconsistent with number of components") d1
      else
        match sosHeaderLoop d1 nComp 0 (fun _ => { compIndex := 0, td := 0, ta := 0 }) 0 with
        | .error e => .fail e d1
        | .ok (scan, totalHV) =>
          if d1.nComp > 1 ∧ totalHV > 10 then
            .fail (.format "total sampling factors too large") d1
          else
            match sosProgression d1 nComp with
            | .error e => .fail e d1
            | .ok (zigStart, zigEnd, ah, al) => sosScan nComp scan zigStart zigEnd ah al d1

/-! ## The segment scanner -/

def isRGB (d : Decoder) : Bool :=
  if d.jfif then false
  else if d.adobeTransformValid ∧ d.adobeTransform = adobeTransformUnknown then true
  else decide ((d.comp 0).c = 0x52 ∧ (d.comp 1).c = 0x47 ∧ (d.comp 2).c = 0x42)

/-- `COffset(0, y)` of Go's `image.YCbCr` for an image at the origin. -/
def cOffset (m : YCbCr) (y : Nat) : Nat :=
  match m.ratio with
  | .r422 => y * m.cStride
  | .r420 => (y / 2) * m.cStride
  | .r440 => (y / 2) * m.cStride
  | .r411 => y * m.cStride
  | .r410 => (y / 2) * m.cStride
  | .r444 => y * m.cStride

/-- The image built by `convertToRGB`: pixel `(i, y)` takes its four bytes from
the three planes of `m` and the constant 255. -/
def convertToRGB (d : Decoder) (m : YCbCr) : RGBA :=
  let cScale := (d.comp 0).h / (d.comp 1).h
  { pix := (List.range m.h).flatMap (fun y =>
      (List.range m.w).flatMap (fun i =>
        [m.y.getD (y * m.yStride + i) 0,
         m.cb.getD (cOffset m y + i / cScale) 0,
         m.cr.getD (cOffset m y + i / cScale) 0,
         255]))
    stride := 4 * m.w, w := m.w, h := m.h }

/-- What `applyBlack` returns: its body is commented out in the source and only
`return nil, nil` is left. -/
def applyBlack : M (Option Image) := fun d => .ok none d

/-- The loop `for d.tmp[0] != 0xff` of `decode`.  Every round reads a byte. -/
def skipToFF : Nat → M Unit
  | 0, d => .fail .diverged d
  | fuel + 1, d =>
    if (d.tmp 0).val ≠ 0xff then
      match readByte { d with tmp := upd d.tmp 0 (d.tmp 1) } with
      | .fail e d1 => .fail e { d1 with tmp := upd d1.tmp 1 (byte 0) }
      | .ok x d1 => skipToFF fuel { d1 with tmp := upd d1.tmp 1 x }
    else .ok () d

/-- The loop `for marker == 0xff` of `decode`.  Every round reads a byte. -/
def skipFill : Nat → Byte → M Byte
  | 0, _, d => .fail .diverged d
  | fuel + 1, marker, d =>
    if marker.val = 0xff then
      match readByte d with
      | .fail e d1 => .fail e d1
      | .ok x d1 => skipFill fuel x d1
    else .ok marker d

/-- The head of a round of the segment loop of `decode`, up to the point where
the marker is known: `none` stands for the `continue` taken on `FF 00`. -/
def scanMarker : M (Option Byte) := fun d =>
  match readFullTmp 2 d with
  | .fail e d1 => .fail e d1
  | .ok _ d1 =>
    match skipToFF (d1.stream.length + 1) d1 with
    | .fail e d2 => .fail e d2
    | .ok _ d2 =>
      if (d2.tmp 1).val = 0 then .ok none d2
      else
        match skipFill (d2.stream.length + 1) (d2.tmp 1) d2 with
        | .fail e d3 => .fail e d3
        | .ok marker d3 => .ok (some marker) d3

/-- The statements of `decode` after its segment loop. -/
def decodeFinish : M (Option Image) := fun d =>
  match d.img1 with
  | some g => .ok (some (.gray g)) d
  | none =>
    match d.img3 with
    | some m =>
      if d.blackPix.isSome then applyBlack d
      else if isRGB d then .ok (some (.rgba (convertToRGB d m))) d
      else .ok (some (.ycbcr m)) d
    | none => .fail (.format "missing SOS marker") d

/-- The `switch marker` of `decode`; `some r` is an immediate `return`. -/
def dispatch (configOnly : Bool) (marker n : Nat) : M (Option (Option Image)) := fun d =>
  let cont (r : Result Unit) : Result (Option (Option Image)) :=
    match r with
    | .fail e d1 => .fail e d1
    | .ok _ d1 => .ok none d1
  if marker = sof0Marker ∨ marker = sof1Marker ∨ marker = sof2Marker then
    match processSOF n { d with progressive := decide (marker = sof2Marker) } with
    | .fail e d1 => .fail e d1
    | .ok _ d1 => if configOnly ∧ d1.jfif then .ok (some none) d1 else .ok none d1
  else if marker = dhtMarker then
    cont (if configOnly then ignore n d else processDHT n d)
  else if marker = dqtMarker then
    cont (if configOnly then ignore n d else processDQT n d)
  else if marker = sosMarker then
    if configOnly then .ok (some none) d else cont (processSOS n d)
  else if marker = driMarker then
    cont (if configOnly then ignore n d else processDRI n d)
  else if marker = app0Marker then cont (processApp0Marker n d)
  else if marker = app14Marker then cont (processApp14Marker n d)
  else if (app0Marker ≤ marker ∧ marker ≤ app15Marker) ∨ marker = comMarker then
    cont (ignore n d)
  else if marker < 0xc0 then .fail (.format "unknown marker") d
  else .fail (.unsupported "unknown marker") d

/-- The loop "Process the remaining segments until the End Of Image marker" of
`decode`, followed by the statements after it. -/
def decodeLoop (configOnly : Bool) : Nat → M (Option Image)
  | 0, d => .fail .diverged d
  | fuel + 1, d =>
    match scanMarker d with
    | .fail e d1 => .fail e d1
    | .ok none d1 => decodeLoop configOnly fuel d1
    | .ok (some marker) d1 =>
      if marker.val = eoiMarker then decodeFinish d1
      else if rst0Marker ≤ marker.val ∧ marker.val ≤ rst7Marker then
        decodeLoop configOnly fuel d1
      else
        match readFullTmp 2 d1 with
        | .fail e d2 => .fail e d2
        | .ok _ d2 =>
          let len := ((d2.tmp 0).val <<< 8) + (d2.tmp 1).val
          if len < 2 then .fail (.format "short segment length") d2
          else
            match dispatch configOnly marker.val (len - 2) d2 with
            | .fail e d3 => .fail e d3
            | .ok (some r) d3 => .ok r d3
            | .ok none d3 => decodeLoop configOnly fuel d3

/-- Model of `decode`: the result `ok none` is the Go return `nil, nil`.  Every
round of the segment loop consumes at least two bytes of the stream. -/
def decode (r : Source) (configOnly : Bool) : M (Option Image) := fun d =>
  let d0 := { d with r := r }
  match readFullTmp 2 d0 with
  | .fail e d1 => .fail e d1
  | .ok _ d1 =>
    if (d1.tmp 0).val ≠ 0xff ∨ (d1.tmp 1).val ≠ soiMarker then
      .fail (.format "missing SOI marker") d1
    else decodeLoop configOnly (d1.stream.length + 1) d1

/-- The pair `(image.Image, error)` that the exported `Decode` returns, a nil
value being `none`.  A run that panics or exhausts its fuel shows as the error
`Err.panic` or `Err.diverged`. -/
def Decode (r : Source) : Option Image × Option Err :=
  match decode r false (zeroDecoder r) with
  | .ok img _ => (img, none)
  | .fail e _ => (none, some e)

/-! ## Predicates and sample inputs used by the theorems -/

/-- The decoder state with its source and byte buffer blanked. -/
def Decoder.noBytes (d : Decoder) : Decoder :=
  { d with r := { rest := [], chunks := [] }
           bytes := { buf := fun _ => byte 0, i := 0, j := 0, nUnreadable := 0 } }

/-- `d1` differs from `d` at most in the byte buffer and the source. -/
def SameButBytes (d d1 : Decoder) : Prop := d1.noBytes = d.noBytes

/-- The decoder state with its source, byte buffer and scratch area `tmp` blanked. -/
def Decoder.noInput (d : Decoder) : Decoder := { d.noBytes with tmp := fun _ => byte 0 }

/-- `d1` differs from `d` at most in the byte buffer, the source and `tmp`. -/
def SameButInput (d d1 : Decoder) : Prop := d1.noInput = d.noInput

/-- The bytes with the given values. -/
def bytesOf (l : List Nat) : List Byte := l.map byte

/-- A source that hands over everything it has at each `Read`. -/
def sourceOf (l : List Nat) : Source := { rest := bytesOf l, chunks := [] }

/-- A DQT segment that sets table 0 to all ones. -/
def dqtOnes : List Nat :=
  [0xff, 0xdb, 0x00, 0x43, 0x00] ++ List.replicate 64 1

/-- A DHT segment with DC table 0 and AC table 0, each holding the single code
`0` of length one for the value 0 (DC category 0, AC end of block). -/
def dhtSmall : List Nat :=
  [0xff, 0xc4, 0x00, 0x26,
   0x00, 1, 0, 0, 0, 0, 0, 0, 0, 0, 0, 0, 0, 0, 0, 0, 0, 0x00,
   0x10, 1, 0, 0, 0, 0, 0, 0, 0, 0, 0, 0, 0, 0, 0, 0, 0, 0x00]

/-- A baseline grayscale JPEG of one pixel: SOI, DQT, SOF0, DHT, SOS, one byte
of entropy-coded data (the two codes, padded with one-bits), EOI. -/
def grayJpeg : List Nat :=
  [0xff, 0xd8] ++ dqtOnes ++
  [0xff, 0xc0, 0x00, 0x0b, 0x08, 0x00, 0x01, 0x00, 0x01, 0x01, 0x01, 0x11, 0x00] ++
  dhtSmall ++
  [0xff, 0xda, 0x00, 0x08, 0x01, 0x01, 0x00, 0x00, 0x3f, 0x00,
   0x3f,
   0xff, 0xd9]

/-- A baseline four-component (Adobe CMYK) JPEG of one pixel: SOI, APP14
"Adobe" with transform 0, DQT, SOF0 with four components of sampling 1x1, DHT,
SOS, one byte of entropy-coded data (two one-bit codes for each of the four
blocks), EOI. -/
def cmykJpeg : List Nat :=
  [0xff, 0xd8,
   0xff, 0xee, 0x00, 0x0e, 0x41, 0x64, 0x6f, 0x62, 0x65, 0x00, 0x64, 0x00, 0x00, 0x00, 0x00, 0x00] ++
  dqtOnes ++
  [0xff, 0xc0, 0x00, 0x14, 0x08, 0x00, 0x01, 0x00, 0x01, 0x04,
   0x01, 0x11, 0x00, 0x02, 0x11, 0x00, 0x03, 0x11, 0x00, 0x04, 0x11, 0x00] ++
  dhtSmall ++
  [0xff, 0xda, 0x00, 0x0e, 0x04, 0x01, 0x00, 0x02, 0x00, 0x03, 0x00, 0x04, 0x00, 0x00, 0x3f, 0x00,
   0x00,
   0xff, 0xd9]

/-- The properties `processSOF` has established of the component descriptors
with index below `n`. -/
def SofPrefix (d : Decoder) (n : Nat) : Prop :=
  (∀ a b, a < n → b < a → (d.comp a).c ≠ (d.comp b).c) ∧
  (∀ a, a < n → ((d.comp a).h = 1 ∨ (d.comp a).h = 2 ∨ (d.comp a).h = 4) ∧
    ((d.comp a).v = 1 ∨ (d.comp a).v = 2 ∨ (d.comp a).v = 4) ∧ (d.comp a).tq ≤ 3) ∧
  (d.nComp = 3 →
    (0 < n → (d.comp 0).v ≠ 4) ∧
    (1 < n → (d.comp 0).h % (d.comp 1).h = 0 ∧ (d.comp 0).v % (d.comp 1).v = 0) ∧
    (2 < n → (d.comp 1).h = (d.comp 2).h ∧ (d.comp 1).v = (d.comp 2).v)) ∧
  (d.nComp = 4 →
    (0 < n → ((d.comp 0).h = 1 ∧ (d.comp 0).v = 1) ∨ ((d.comp 0).h = 2 ∧ (d.comp 0).v = 2)) ∧
    (1 < n → (d.comp 1).h = 1 ∧ (d.comp 1).v = 1) ∧
    (2 < n → (d.comp 2).h = 1 ∧ (d.comp 2).v = 1) ∧
    (3 < n → (d.comp 0).h = (d.comp 3).h ∧ (d.comp 0).v = (d.comp 3).v))

/-- The decoder state with everything the byte and bit readers write blanked:
source, byte buffer, bit accumulator and scratch area `tmp`. -/
def Decoder.noReader (d : Decoder) : Decoder :=
  { d.noInput with bits := { a := 0, m := 0, n := 0 } }

/-- The properties of the stored component descriptors that the frame header
rules of `processSOF` guarantee: distinct identifiers, sampling factors 1, 2 or
4, table selectors at most 3, and the supported sampling combinations for three
and for four components. -/
def ComponentsValid (d : Decoder) : Prop :=
  (∀ a b, a < d.nComp → b < a → (d.comp a).c ≠ (d.comp b).c) ∧
  (∀ a, a < d.nComp →
    ((d.comp a).h = 1 ∨ (d.comp a).h = 2 ∨ (d.comp a).h = 4) ∧
    ((d.comp a).v = 1 ∨ (d.comp a).v = 2 ∨ (d.comp a).v = 4) ∧
    (d.comp a).tq ≤ 3) ∧
  (d.nComp = 3 →
    ((d.comp 0).h, (d.comp 0).v) ∈ [(1, 1), (1, 2), (2, 1), (2, 2), (4, 1), (4, 2)] ∧
    (d.comp 1).h ∣ (d.comp 0).h ∧ (d.comp 1).v ∣ (d.comp 0).v ∧
    (d.comp 2).h = (d.comp 1).h ∧ (d.comp 2).v = (d.comp 1).v) ∧
  (d.nComp = 4 →
    (d.comp 1).h = 1 ∧ (d.comp 1).v = 1 ∧ (d.comp 2).h = 1 ∧ (d.comp 2).v = 1 ∧
    (d.comp 3).h = (d.comp 0).h ∧ (d.comp 3).v = (d.comp 0).v ∧
    (((d.comp 0).h, (d.comp 0).v) = (1, 1) ∨ ((d.comp 0).h, (d.comp 0).v) = (2, 2)))

/-- An SOF payload: precision 8, 16 by 16, three components with sampling
2x2, 1x1, 1x1 and tables 0, 1, 1. -/
def sofPayload420 : List Nat := [8, 0, 16, 0, 16, 3, 1, 0x22, 0, 2, 0x11, 1, 3, 0x11, 1]

/-- An SOF payload: precision 8, height 0 and width 0, one component. -/
def sofPayloadZero : List Nat := [8, 0, 0, 0, 0, 1, 1, 0x11, 0]

/-- An SOF payload with precision 12. -/
def sofPayload12 : List Nat := [12, 0, 1, 0, 1, 1, 1, 0x11, 0]

/-- An SOF payload whose second component has horizontal sampling factor 3. -/
def sofPayloadH3 : List Nat := [8, 0, 16, 0, 16, 3, 1, 0x22, 0, 2, 0x31, 1, 3, 0x11, 1]

/-- One entry of a DQT payload: the precision `pq`, the table selector `tq` and
the value bytes that follow the header byte. -/
structure DqtEntry where
  pq : Nat
  tq : Nat
  vals : List Byte

/-- A complete entry: `Pq` in {0, 1}, `Tq` in 0..3, 64 value bytes for `Pq = 0`
and 128 for `Pq = 1`. -/
def DqtEntry.Complete (e : DqtEntry) : Prop :=
  e.tq ≤ 3 ∧ ((e.pq = 0 ∧ e.vals.length = 64) ∨ (e.pq = 1 ∧ e.vals.length = 128))

/-- The bytes of an entry in the stream: the header byte `Pq<<4 | Tq`, then the
values. -/
def DqtEntry.bytes (e : DqtEntry) : List Byte := byte (e.pq * 16 + e.tq) :: e.vals

/-- The table value number `i` that an entry carries: byte `i` for `Pq = 0`,
`256 * byte(2i) + byte(2i+1)` for `Pq = 1`. -/
def DqtEntry.value (e : DqtEntry) (i : Nat) : Int :=
  if e.pq = 0 then ((e.vals.getD i (byte 0)).val : Int)
  else ((256 * (e.vals.getD (2 * i) (byte 0)).val + (e.vals.getD (2 * i + 1) (byte 0)).val : Nat) : Int)

/-- The payload made of the given entries. -/
def dqtPayload (es : List DqtEntry) : List Byte := es.flatMap DqtEntry.bytes

/-- The last entry of `es` that names table `tq`, if any. -/
def dqtLast (es : List DqtEntry) (tq : Nat) : Option DqtEntry :=
  es.reverse.find? (fun e => decide (e.tq = tq))

/-- Two sample entries: an 8-bit table 1 with values 1..64 and a 16-bit table 2
whose values are 256 + i. -/
def dqtSample : List DqtEntry :=
  [{ pq := 0, tq := 1, vals := (List.range 64).map (fun i => byte (i + 1)) },
   { pq := 1, tq := 2, vals := (List.range 128).map (fun i => byte (if i % 2 = 0 then 1 else i / 2)) }]

/-- A DQT payload that sets table 0 to all zeros. -/
def dqtZeros : List Nat := 0 :: List.replicate 64 0

instance (e : DqtEntry) : Decidable e.Complete := by
  unfold DqtEntry.Complete
  infer_instance

/-- A decoder whose four quantization tables hold 1 everywhere, reading from `r`. -/
def onesDecoder (r : Source) : Decoder := { zeroDecoder r with quant := fun _ _ => 1 }

/-- The four errors with which `processDHT` rejects a table header. -/
def dhtHeaderErrors : List (Option Err) :=
  [some (Err.format "bad Tc value"), some (Err.format "bad Th value"),
   some (Err.format "Huffman table has zero length"),
   some (Err.format "Huffman table has excessive length")]

/-- A DHT entry header with class nibble 2, followed by two value bytes. -/
def dhtBadTc : List Nat := [0x20, 1, 0, 0, 0, 0, 0, 0, 0, 0, 0, 0, 0, 0, 0, 0, 0, 7, 9]


/-! ## Encoder: rounding division, quantization tables, forward DCT -/

/-- The function `div(a, b)` on `int32` values.  Go's `/` truncates towards
zero; `none` is the run-time panic of a division by zero. -/
def div (a b : Int) : Option Int :=
  if b = 0 then none
  else if a ≥ 0 then some (i32 (Int.tdiv (i32 (a + (b >>> 1))) b))
  else some (i32 (-(i32 (Int.tdiv (i32 (i32 (-a) + (b >>> 1))) b))))

def quantIndexLuminance : Nat := 0
def quantIndexChrominance : Nat := 1
def nQuantIndex : Nat := 2

/-- The array `unscaledQuant`, in zig-zag order. -/
def unscaledQuantTable : List (List Nat) :=
  [[16, 11, 12, 14, 12, 10, 16, 14,
    13, 14, 18, 17, 16, 19, 24, 40,
    26, 24, 22, 22, 24, 49, 35, 37,
    29, 40, 58, 51, 61, 60, 57, 51,
    56, 55, 64, 72, 92, 78, 64, 68,
    87, 69, 55, 56, 80, 109, 81, 87,
    95, 98, 103, 104, 103, 62, 77, 113,
    121, 112, 100, 120, 92, 101, 103, 99],
   [17, 18, 18, 24, 21, 24, 47, 26,
    26, 47, 99, 66, 56, 66, 99, 99,
    99, 99, 99, 99, 99, 99, 99, 99,
    99, 99, 99, 99, 99, 99, 99, 99,
    99, 99, 99, 99, 99, 99, 99, 99,
    99, 99, 99, 99, 99, 99, 99, 99,
    99, 99, 99, 99, 99, 99, 99, 99,
    99, 99, 99, 99, 99, 99, 99, 99]]

def unscaledQuant (i j : Nat) : Nat := (unscaledQuantTable.getD i []).getD j 0

def DefaultQuality : Int := 100

/-- The block "Clip quality to [1, 100]" of `Encode`; `o` is `none` for a nil
`*Options` and otherwise holds `o.Quality`. -/
def clipQuality (o : Option Int) : Int :=
  match o with
  | none => DefaultQuality
  | some q => if q < 1 then 1 else if q > 100 then 100 else q

/-- The block "Convert from a quality rating to a scaling factor" of `Encode`. -/
def qualityScale (quality : Int) : Int :=
  if quality < 50 then Int.tdiv 5000 quality else 200 - quality * 2

/-- The body of the inner loop of "Initialize the quantization tables", for the
unscaled entry `u`. -/
def scaleQuant (scale : Int) (u : Nat) : Nat :=
  let x : Int := (u : Int)
  let x := Int.tdiv (x * scale + 50) 100
  let x := if x < 1 then 1 else if x > 255 then 255 else x
  u8 x.toNat

/-- The loop `for j := range e.quant[i]`. -/
def initQuantRow (scale : Int) (i : Nat) (row : Nat → Nat) : Nat → Nat :=
  (List.range blockSize).foldl (fun r j => upd r j (scaleQuant scale (unscaledQuant i j))) row

/-- The loop `for i := range e.quant`. -/
def initQuant (scale : Int) (quant : Nat → Nat → Nat) : Nat → Nat → Nat :=
  (List.range nQuantIndex).foldl (fun q i => upd q i (initQuantRow scale i (q i))) quant

/-- The tables `e.quant` that `Encode` builds for the options `o`, starting
from the zero value of the encoder. -/
def encodeQuant (o : Option Int) : Nat → Nat → Nat :=
  initQuant (qualityScale (clipQuality o)) (fun _ _ => 0)

def fix_0_298631336 : Int := 2446
def fix_0_390180644 : Int := 3196
def fix_0_541196100 : Int := 4433
def fix_0_765366865 : Int := 6270
def fix_0_899976223 : Int := 7373
def fix_1_175875602 : Int := 9633
def fix_1_501321110 : Int := 12299
def fix_1_847759065 : Int := 15137
def fix_1_961570560 : Int := 16069
def fix_2_053119869 : Int := 16819
def fix_2_562915447 : Int := 20995
def fix_3_072711026 : Int := 25172

def constBits : Nat := 13
def pass1Bits : Nat := 2
def centerJSample : Int := 128

/-- One round of the loop "Pass 1: process rows" of `fdct`. -/
def fdctRow (b : Block) (y : Nat) : Block :=
  let x0 := b (y * 8 + 0)
  let x1 := b (y * 8 + 1)
  let x2 := b (y * 8 + 2)
  let x3 := b (y * 8 + 3)
  let x4 := b (y * 8 + 4)
  let x5 := b (y * 8 + 5)
  let x6 := b (y * 8 + 6)
  let x7 := b (y * 8 + 7)
  let tmp0 := i32 (x0 + x7)
  let tmp1 := i32 (x1 + x6)
  let tmp2 := i32 (x2 + x5)
  let tmp3 := i32 (x3 + x4)
  let tmp10 := i32 (tmp0 + tmp3)
  let tmp12 := i32 (tmp0 - tmp3)
  let tmp11 := i32 (tmp1 + tmp2)
  let tmp13 := i32 (tmp1 - tmp2)
  let tmp0 := i32 (x0 - x7)
  let tmp1 := i32 (x1 - x6)
  let tmp2 := i32 (x2 - x5)
  let tmp3 := i32 (x3 - x4)
  let v0 := i32 (i32 (tmp10 + tmp11 - 8 * centerJSample) * 2 ^ pass1Bits)
  let v4 := i32 (i32 (tmp10 - tmp11) * 2 ^ pass1Bits)
  let z1 := i32 ((tmp12 + tmp13) * fix_0_541196100)
  let z1 := i32 (z1 + 2 ^ (constBits - pass1Bits - 1))
  let v2 := i32 (z1 + tmp12 * fix_0_765366865) >>> (constBits - pass1Bits)
  let v6 := i32 (z1 - tmp13 * fix_1_847759065) >>> (constBits - pass1Bits)
  let tmp10 := i32 (tmp0 + tmp3)
  let tmp11 := i32 (tmp1 + tmp2)
  let tmp12 := i32 (tmp0 + tmp2)
  let tmp13 := i32 (tmp1 + tmp3)
  let z1 := i32 ((tmp12 + tmp13) * fix_1_175875602)
  let z1 := i32 (z1 + 2 ^ (constBits - pass1Bits - 1))
  let tmp0 := i32 (tmp0 * fix_1_501321110)
  let tmp1 := i32 (tmp1 * fix_3_072711026)
  let tmp2 := i32 (tmp2 * fix_2_053119869)
  let tmp3 := i32 (tmp3 * fix_0_298631336)
  let tmp10 := i32 (tmp10 * -fix_0_899976223)
  let tmp11 := i32 (tmp11 * -fix_2_562915447)
  let tmp12 := i32 (tmp12 * -fix_0_390180644)
  let tmp13 := i32 (tmp13 * -fix_1_961570560)
  let tmp12 := i32 (tmp12 + z1)
  let tmp13 := i32 (tmp13 + z1)
  let v1 := i32 (tmp0 + tmp10 + tmp12) >>> (constBits - pass1Bits)
  let v3 := i32 (tmp1 + tmp11 + tmp13) >>> (constBits - pass1Bits)
  let v5 := i32 (tmp2 + tmp11 + tmp12) >>> (constBits - pass1Bits)
  let v7 := i32 (tmp3 + tmp10 + tmp13) >>> (constBits - pass1Bits)
  setRow b (y * 8) v0 v1 v2 v3 v4 v5 v6 v7

/-- One round of the loop "Pass 2: process columns" of `fdct`. -/
def fdctCol (b : Block) (x : Nat) : Block :=
  let tmp0 := i32 (b (0 * 8 + x) + b (7 * 8 + x))
  let tmp1 := i32 (b (1 * 8 + x) + b (6 * 8 + x))
  let tmp2 := i32 (b (2 * 8 + x) + b (5 * 8 + x))
  let tmp3 := i32 (b (3 * 8 + x) + b (4 * 8 + x))
  let tmp10 := i32 (tmp0 + tmp3 + 2 ^ (pass1Bits - 1))
  let tmp12 := i32 (tmp0 - tmp3)
  let tmp11 := i32 (tmp1 + tmp2)
  let tmp13 := i32 (tmp1 - tmp2)
  let tmp0 := i32 (b (0 * 8 + x) - b (7 * 8 + x))
  let tmp1 := i32 (b (1 * 8 + x) - b (6 * 8 + x))
  let tmp2 := i32 (b (2 * 8 + x) - b (5 * 8 + x))
  let tmp3 := i32 (b (3 * 8 + x) - b (4 * 8 + x))
  let v0 := i32 (tmp10 + tmp11) >>> pass1Bits
  let v4 := i32 (tmp10 - tmp11) >>> pass1Bits
  let z1 := i32 ((tmp12 + tmp13) * fix_0_541196100)
  let z1 := i32 (z1 + 2 ^ (constBits + pass1Bits - 1))
  let v2 := i32 (z1 + tmp12 * fix_0_765366865) >>> (constBits + pass1Bits)
  let v6 := i32 (z1 - tmp13 * fix_1_847759065) >>> (constBits + pass1Bits)
  let tmp10 := i32 (tmp0 + tmp3)
  let tmp11 := i32 (tmp1 + tmp2)
  let tmp12 := i32 (tmp0 + tmp2)
  let tmp13 := i32 (tmp1 + tmp3)
  let z1 := i32 ((tmp12 + tmp13) * fix_1_175875602)
  let z1 := i32 (z1 + 2 ^ (constBits + pass1Bits - 1))
  let tmp0 := i32 (tmp0 * fix_1_501321110)
  let tmp1 := i32 (tmp1 * fix_3_072711026)
  let tmp2 := i32 (tmp2 * fix_2_053119869)
  let tmp3 := i32 (tmp3 * fix_0_298631336)
  let tmp10 := i32 (tmp10 * -fix_0_899976223)
  let tmp11 := i32 (tmp11 * -fix_2_562915447)
  let tmp12 := i32 (tmp12 * -fix_0_390180644)
  let tmp13 := i32 (tmp13 * -fix_1_961570560)
  let tmp12 := i32 (tmp12 + z1)
  let tmp13 := i32 (tmp13 + z1)
  let v1 := i32 (tmp0 + tmp10 + tmp12) >>> (constBits + pass1Bits)
  let v3 := i32 (tmp1 + tmp11 + tmp13) >>> (constBits + pass1Bits)
  let v5 := i32 (tmp2 + tmp11 + tmp12) >>> (constBits + pass1Bits)
  let v7 := i32 (tmp3 + tmp10 + tmp13) >>> (constBits + pass1Bits)
  setCol b x v0 v1 v2 v3 v4 v5 v6 v7

def fdct (b : Block) : Block :=
  (List.range 8).foldl fdctCol ((List.range 8).foldl fdctRow b)

/-! ## Reference definitions for the bit reader, the tables and the encoder -/

/-- The inverse table of `unzig`: the zig-zag position of the natural index `i`
(the first place where `i` occurs in the table). -/
def zigOf (i : Nat) : Nat := unzigTable.indexOf i

/-- The quotient `a / b` rounded to the nearest integer, ties away from zero:
the magnitude `|a| / b` rounded half up, with the sign of `a`. -/
def roundHalfAway (a b : Int) : Int := a.sign * ((2 * |a| + b) / (2 * b))

/-- The scaling factor the specification gives for a quality in 1..100. -/
def specScale (quality : Nat) : Nat :=
  if quality < 50 then 5000 / quality else 200 - 2 * quality

/-- The scaled table entry the specification gives for the unscaled entry `u`:
`clamp((u * scale + 50) / 100, 1, 255)`. -/
def specQuant (quality u : Nat) : Nat :=
  max 1 (min 255 ((u * specScale quality + 50) / 100))

/-- Eight times the DC coefficient of the orthonormal 8x8 DCT of the block
level-shifted by -128: the DC basis function is the constant 1/8. -/
def orthoDC8 (b : Block) : ℚ :=
  8 * (((List.range 64).map (fun i => (1 / 8 : ℚ) * ((b i - 128 : Int) : ℚ))).sum)

/-- A block of samples in 0..255. -/
def sampleBlock : Block := fun i => ((7 * i + 3) % 256 : Nat)


/-- The result with the bit accumulator of its state replaced. -/
def Result.withBits {α : Type} (r : Result α) (b : Bits) : Result α :=
  match r with
  | .ok a d => .ok a { d with bits := b }
  | .fail e d => .fail e { d with bits := b }

/-- The invariant of the bit accumulator: `0 ≤ n ≤ 23`, with `m = 1 << (n-1)`
when `n > 0` and `m = 0` when `n = 0`. -/
def BitsInv (b : Bits) : Prop :=
  0 ≤ b.n ∧ b.n ≤ 23 ∧ (b.n > 0 → b.m = 1 <<< (b.n - 1).toNat) ∧ (b.n = 0 → b.m = 0)

instance (b : Bits) : Decidable (BitsInv b) := by
  unfold BitsInv
  infer_instance

/-- Every entry of the look-up table is 0 or carries, in its low byte, one plus
a code length between 1 and 8. -/
def LutOk (h : Huffman) : Prop :=
  ∀ idx, h.lut idx = 0 ∨ (2 ≤ h.lut idx &&& 0xff ∧ h.lut idx &&& 0xff ≤ 9)

/-- A look-up table all of whose entries are 0 or carry a low byte in 2..9. -/
def LutFn (lut : Nat → Nat) : Prop :=
  ∀ idx, lut idx = 0 ∨ (2 ≤ lut idx &&& 0xff ∧ lut idx &&& 0xff ≤ 9)

/-- The next `t` bits of the entropy-coded stream, as `t` successive calls of
`decodeBit` deliver them. -/
def nextBits : Nat → M (List Bool)
  | 0, d => .ok [] d
  | t + 1, d =>
    match decodeBit d with
    | .fail e d1 => .fail e d1
    | .ok b d1 =>
      match nextBits t d1 with
      | .fail e d2 => .fail e d2
      | .ok bs d2 => .ok (b :: bs) d2

/-- The `t` low bits of `x`, most significant first. -/
def bitsOf (x : Nat) : Nat → List Bool
  | 0 => []
  | t + 1 => x.testBit t :: bitsOf x t

/-- The unsigned value of a bit string, most significant bit first. -/
def ofBits (bs : List Bool) : Nat := bs.foldl (fun acc b => 2 * acc + b.toNat) 0

/-- Canonical code assignment of T.81 Annex C: the first code of length
`i + 1`, when `counts j` codes have length `j + 1`.  Codes of one length are
consecutive, and the next length starts at (last + 1) shifted left by one. -/
def canonFirst (counts : Nat → Nat) : Nat → Nat
  | 0 => 0
  | i + 1 => (canonFirst counts i + counts i) * 2

/-- The number of codes shorter than `i + 1` bits: the place in the value list
of the first value with a code of length `i + 1`. -/
def canonBase (counts : Nat → Nat) (i : Nat) : Nat := ((List.range i).map counts).sum

/-- The counts describe a valid prefix code: 1 to 256 codes in all, and every
code of length `L` is below `2 ^ L`. -/
def ValidCounts (counts : Nat → Nat) : Prop :=
  1 ≤ canonBase counts 16 ∧ canonBase counts 16 ≤ 256 ∧
  ∀ i, i < 16 → counts i ≠ 0 → canonFirst counts i + counts i ≤ 2 ^ (i + 1)

/-- The accumulator after `ensureNBits` has shifted the byte `c` in. -/
def refillBits (b : Bits) (c : Nat) : Bits :=
  { a := ((b.a <<< 8) % 4294967296) ||| c
    n := b.n + 8
    m := if b.m = 0 then 1 <<< 7 else (b.m <<< 8) % 4294967296 }

/-- The composition RECEIVE and EXTEND of T.81 F.2.2.1 on the `t`-bit value `x`. -/
def extend (x : Nat) (t : Nat) : Int :=
  if t = 0 then 0 else if x < 2 ^ (t - 1) then (x : Int) - 2 ^ t + 1 else (x : Int)

/-- Every Huffman table of the decoder has a well-formed look-up table. -/
def TablesOk (d : Decoder) : Prop := ∀ tc th, LutOk (d.huff tc th)

/-- The sixteen counts of a DHT table entry, as a function of the code length
minus one. -/
def countsOf (counts : List Byte) : Nat → Nat := fun i => (counts.getD i (byte 0)).val

instance (counts : Nat → Nat) : Decidable (ValidCounts counts) := by
  unfold ValidCounts
  infer_instance

/-- Sixteen counts with one code of length 1 and one of length 2. -/
def countsTwo : List Byte := bytesOf [1, 1, 0, 0, 0, 0, 0, 0, 0, 0, 0, 0, 0, 0, 0, 0]

/-- A decoder about to read a DHT payload: table header 0x00, the counts
`countsTwo` and the values 5 and 9. -/
def dhtTwoDecoder : Decoder :=
  zeroDecoder (sourceOf [0x00, 1, 1, 0, 0, 0, 0, 0, 0, 0, 0, 0, 0, 0, 0, 0, 0, 5, 9])

/-! ## Reference definitions for the scan: frames, scan header fields, restart bookkeeping -/

/-- The decoder state with everything a scan may change blanked: the input
side, the bit accumulator, the images, the end-of-band run and the progressive
coefficients. -/
def Decoder.noScan (d : Decoder) : Decoder :=
  { d.noReader with img1 := none, img3 := none, blackPix := none, eobRun := 0,
                    progCoeffs := fun _ => none }

/-- What the decoding of data units leaves alone: the decoder state outside the
scan-owned fields, and the MCU counter and expected restart marker. -/
def ScanFrame (r : Result ScanVars) (sv : ScanVars) (d : Decoder) : Prop :=
  r.state.noScan = d.noScan ∧
  ∀ sv1 d1, r = .ok sv1 d1 → sv1.mcu = sv.mcu ∧ sv1.expectedRST = sv.expectedRST

/-- A DHT segment whose DC table 0 holds the single code `0` of length one for
the value 17, and whose AC table 0 holds the code `0` for the value 0. -/
def dhtDc17 : List Nat :=
  [0xff, 0xc4, 0x00, 0x26,
   0x00, 1, 0, 0, 0, 0, 0, 0, 0, 0, 0, 0, 0, 0, 0, 0, 0, 0x11,
   0x10, 1, 0, 0, 0, 0, 0, 0, 0, 0, 0, 0, 0, 0, 0, 0, 0, 0x00]

/-- A baseline grayscale JPEG of one pixel whose first DC symbol is 17: SOI,
DQT, SOF0, DHT, SOS, one byte of entropy-coded data, EOI. -/
def dcExcessJpeg : List Nat :=
  [0xff, 0xd8] ++ dqtOnes ++
  [0xff, 0xc0, 0x00, 0x0b, 0x08, 0x00, 0x01, 0x00, 0x01, 0x01, 0x01, 0x11, 0x00] ++
  dhtDc17 ++
  [0xff, 0xda, 0x00, 0x08, 0x01, 0x01, 0x00, 0x00, 0x3f, 0x00,
   0x3f,
   0xff, 0xd9]

/-- The parameters of a baseline scan of one component over one MCU. -/
def scanOne : ScanParams :=
  { nComp := 1, scan := fun _ => { compIndex := 0, td := 0, ta := 0 },
    zigStart := 0, zigEnd := 63, ah := 0, al := 0, mxx := 1, myy := 1 }

/-- A decoder at the start of the entropy-coded data of a one-pixel grayscale
image, whose Huffman tables all hold the single code `0` for the value 17. -/
def dcExcessDecoder : Decoder :=
  { zeroDecoder (sourceOf [0x3f, 0xff, 0xd9]) with
    nComp := 1, width := 1, height := 1
    comp := fun _ => { h := 1, v := 1, c := 1, tq := 0 }
    huff := fun _ _ => buildHuffman { zeroHuffman with nCodes := 1, vals := fun _ => byte 17 }
      (fun i => if i = 0 then 1 else 0) }

/-- The sampling factor product `h * v` of the frame component that the scan
component selector `cs` names (0 if it names none). -/
def selHV (d : Decoder) (cs : Nat) : Nat :=
  match findComp d cs with
  | some j => (d.comp j).h * (d.comp j).v
  | none => 0

/-- Byte `k` of a segment payload, as a number (0 beyond its end). -/
def hdrByte (p : List Byte) (k : Nat) : Nat := (p.getD k (byte 0)).val

/-- The fields of an SOS payload: the number `Ns` of scan components, for each
of them the selector `Cs` and the table selectors `Td` and `Ta`, then `Ss`,
`Se`, `Ah` and `Al`. -/
def scanNc (p : List Byte) : Nat := hdrByte p 0

def scanCs (p : List Byte) (i : Nat) : Nat := hdrByte p (1 + 2 * i)

def scanTd (p : List Byte) (i : Nat) : Nat := hdrByte p (2 + 2 * i) >>> 4

def scanTa (p : List Byte) (i : Nat) : Nat := hdrByte p (2 + 2 * i) &&& 0x0f

def scanSs (p : List Byte) : Nat := hdrByte p (1 + 2 * scanNc p)

def scanSe (p : List Byte) : Nat := hdrByte p (2 + 2 * scanNc p)

def scanAh (p : List Byte) : Nat := hdrByte p (3 + 2 * scanNc p) >>> 4

def scanAl (p : List Byte) : Nat := hdrByte p (3 + 2 * scanNc p) &&& 0x0f

/-- The scan header violates a rule on the progression parameters: `Ss = 0`
with `Se ≠ 0`, `Ss > Se`, `Se ≥ 64`, `Ss ≠ 0` with more than one scan
component, or `Ah ≠ 0` with `Ah ≠ Al + 1`. -/
def BadProgression (p : List Byte) : Prop :=
  (scanSs p = 0 ∧ scanSe p ≠ 0) ∨ scanSs p > scanSe p ∨ 64 ≤ scanSe p ∨
  (scanSs p ≠ 0 ∧ scanNc p > 1) ∨ (scanAh p ≠ 0 ∧ scanAh p ≠ scanAl p + 1)

instance (p : List Byte) : Decidable (BadProgression p) := by
  unfold BadProgression
  infer_instance

/-- The total of the sampling factor products of the scanned components. -/
def scanTotalHV (d : Decoder) (p : List Byte) : Nat :=
  ((List.range (scanNc p)).map (fun i => selHV d (scanCs p i))).sum

/-- The scan header has a valid length, component selectors and table
selectors: a frame was seen, the payload holds `4 + 2 * Ns` bytes with
`1 ≤ Ns ≤` the number of frame components, every selector names a frame
component, the selectors differ from one another, and `Td, Ta ≤ 3`. -/
def ScanHeaderOk (d : Decoder) (p : List Byte) : Prop :=
  d.nComp ≠ 0 ∧ 1 ≤ scanNc p ∧ scanNc p ≤ d.nComp ∧ p.length = 4 + 2 * scanNc p ∧
  (∀ i, i < scanNc p → ∃ j, j < d.nComp ∧ (d.comp j).c = scanCs p i) ∧
  (∀ i, i < scanNc p → ∀ k, k < i → scanCs p k ≠ scanCs p i) ∧
  (∀ i, i < scanNc p → scanTd p i ≤ 3 ∧ scanTa p i ≤ 3)

instance (d : Decoder) (p : List Byte) : Decidable (ScanHeaderOk d p) := by
  unfold ScanHeaderOk
  infer_instance

/-- A progressive decoder that has seen a frame of three components with
identifiers 1, 2, 3, the first with sampling factors `h0` x `v0` and the other
two with `h0 / 2` x 1, about to read the bytes `l`. -/
def progDecoder (h0 v0 : Nat) (l : List Nat) : Decoder :=
  { zeroDecoder (sourceOf l) with
    nComp := 3, progressive := true, width := 8, height := 8
    comp := fun i =>
      if i = 0 then { h := h0, v := v0, c := 1, tq := 0 }
      else if i = 1 then { h := h0 / 2, v := 1, c := 2, tq := 0 }
      else { h := h0 / 2, v := 1, c := 3, tq := 0 } }

/-- An SOS payload for the three components 1, 2, 3 with `Ss = Se = 0`,
`Ah = 0`, `Al = 1`. -/
def scanThreeDC : List Nat := [3, 1, 0x00, 2, 0x11, 3, 0x11, 0, 0, 0x01]

/-- An SOS payload for the component 1 alone with `Ss = 5 > Se = 3`. -/
def scanBadBounds : List Nat := [1, 1, 0x00, 5, 3, 0x00]

/-- A progressive JPEG header: SOI, SOF2 for an 8x8 image with three components
of sampling factors 4x2, 2x1, 2x1, then SOS naming the three components with
`Ss = Se = 0` and `Ah = 0`, `Al = 1`. -/
def samplingJpeg : List Nat :=
  [0xff, 0xd8,
   0xff, 0xc2, 0x00, 0x11, 0x08, 0x00, 0x08, 0x00, 0x08, 0x03,
   0x01, 0x42, 0x00, 0x02, 0x21, 0x00, 0x03, 0x21, 0x00,
   0xff, 0xda, 0x00, 0x0c] ++ scanThreeDC

/-- The restart bookkeeping of a scan with restart interval `ri`: the decoder
holds `ri`, and while MCUs remain the expected restart marker is `RST0` plus
the number of restart intervals completed, modulo 8. -/
def RstInv (sp : ScanParams) (ri : Nat) (sv : ScanVars) (d : Decoder) : Prop :=
  d.ri = ri ∧ (sv.mcu < sp.mxx * sp.myy → sv.expectedRST = rst0Marker + (sv.mcu / ri) % 8)

/-- The rest of the MCU loops of a scan once the MCU at column `mx` of row `my`
is done: the remaining MCUs of the row, then the remaining rows. -/
def sosResume (sp : ScanParams) (my mx : Nat) (sv : ScanVars) : M ScanVars := fun d =>
  match sosMX sp my (sp.mxx - (mx + 1)) (mx + 1) sv d with
  | .fail e d1 => .fail e d1
  | .ok sv1 d1 => sosMY sp (sp.myy - (my + 1)) (my + 1) sv1 d1

/-- The parameters of a baseline scan of one component over two MCUs in a row. -/
def rstParams : ScanParams :=
  { nComp := 1, scan := fun _ => { compIndex := 0, td := 0, ta := 0 },
    zigStart := 0, zigEnd := 63, ah := 0, al := 0, mxx := 2, myy := 1 }

/-- A decoder at the start of the entropy-coded data of a grayscale image of 16
by 8 pixels with restart interval 1: one byte for the first MCU, the marker
`RST0`, one byte for the second MCU, then `EOI`.  The Huffman tables all hold
the single code `0` for the value 0. -/
def rstDecoder : Decoder :=
  { zeroDecoder (sourceOf [0x3f, 0xff, 0xd0, 0x3f, 0xff, 0xd9]) with
    nComp := 1, width := 16, height := 8, ri := 1
    img1 := some (newGray 16 8 16 8)
    comp := fun _ => { h := 1, v := 1, c := 1, tq := 0 }
    huff := fun _ _ => buildHuffman { zeroHuffman with nCodes := 1, vals := fun _ => byte 0 }
      (fun i => if i = 0 then 1 else 0)
    quant := fun _ _ => 1 }

/-- The decoder state and the scan variables after the data units of the first
MCU of `rstDecoder` are decoded. -/
def rstAfter : Decoder := (sosComps rstParams 0 0 1 0 scanVars0 rstDecoder).state

def rstVars : ScanVars := (sosComps rstParams 0 0 1 0 scanVars0 rstDecoder).val?.getD scanVars0

/-! ## Encoder: Huffman encoding tables -/

/-- The array `bitCount`: the number of bits needed to hold an integer below 256. -/
def bitCountTable : List Nat :=
  [0, 1, 2, 2, 3, 3, 3, 3, 4, 4, 4, 4, 4, 4, 4, 4] ++
  List.replicate 16 5 ++ List.replicate 32 6 ++ List.replicate 64 7 ++ List.replicate 128 8

/-- The read `bitCount[a]` for an `int32` index; `none` is the run-time panic of
an index out of range. -/
def bitCount (a : Int) : Option Nat :=
  if 0 ≤ a ∧ a < 256 then some (bitCountTable.getD a.toNat 0) else none

def huffIndexLuminanceDC : Nat := 0
def huffIndexLuminanceAC : Nat := 1
def huffIndexChrominanceDC : Nat := 2
def huffIndexChrominanceAC : Nat := 3
def nHuffIndex : Nat := 4

/-- The type `huffmanSpec`: `count[i]` codes have length `i + 1` bits, and
`value[i]` is the decoded value of the `i`-th code word. -/
structure HuffmanSpec where
  count : List Nat
  value : List Nat
  deriving DecidableEq, Repr

/-- The array `theHuffmanSpec`. -/
def theHuffmanSpec : List HuffmanSpec :=
  [ -- Luminance DC.
    { count := [0, 1, 5, 1, 1, 1, 1, 1, 1, 0, 0, 0, 0, 0, 0, 0],
      value := [0, 1, 2, 3, 4, 5, 6, 7, 8, 9, 10, 11] },
    -- Luminance AC.
    { count := [0, 2, 1, 3, 3, 2, 4, 3, 5, 5, 4, 4, 0, 0, 1, 125],
      value := [
        0x01, 0x02, 0x03, 0x00, 0x04, 0x11, 0x05, 0x12,
        0x21, 0x31, 0x41, 0x06, 0x13, 0x51, 0x61, 0x07,
        0x22, 0x71, 0x14, 0x32, 0x81, 0x91, 0xa1, 0x08,
        0x23, 0x42, 0xb1, 0xc1, 0x15, 0x52, 0xd1, 0xf0,
        0x24, 0x33, 0x62, 0x72, 0x82, 0x09, 0x0a, 0x16,
        0x17, 0x18, 0x19, 0x1a, 0x25, 0x26, 0x27, 0x28,
        0x29, 0x2a, 0x34, 0x35, 0x36, 0x37, 0x38, 0x39,
        0x3a, 0x43, 0x44, 0x45, 0x46, 0x47, 0x48, 0x49,
        0x4a, 0x53, 0x54, 0x55, 0x56, 0x57, 0x58, 0x59,
        0x5a, 0x63, 0x64, 0x65, 0x66, 0x67, 0x68, 0x69,
        0x6a, 0x73, 0x74, 0x75, 0x76, 0x77, 0x78, 0x79,
        0x7a, 0x83, 0x84, 0x85, 0x86, 0x87, 0x88, 0x89,
        0x8a, 0x92, 0x93, 0x94, 0x95, 0x96, 0x97, 0x98,
        0x99, 0x9a, 0xa2, 0xa3, 0xa4, 0xa5, 0xa6, 0xa7,
        0xa8, 0xa9, 0xaa, 0xb2, 0xb3, 0xb4, 0xb5, 0xb6,
        0xb7, 0xb8, 0xb9, 0xba, 0xc2, 0xc3, 0xc4, 0xc5,
        0xc6, 0xc7, 0xc8, 0xc9, 0xca, 0xd2, 0xd3, 0xd4,
        0xd5, 0xd6, 0xd7, 0xd8, 0xd9, 0xda, 0xe1, 0xe2,
        0xe3, 0xe4, 0xe5, 0xe6, 0xe7, 0xe8, 0xe9, 0xea,
        0xf1, 0xf2, 0xf3, 0xf4, 0xf5, 0xf6, 0xf7, 0xf8,
        0xf9, 0xfa] },
    -- Chrominance DC.
    { count := [0, 3, 1, 1, 1, 1, 1, 1, 1, 1, 1, 0, 0, 0, 0, 0],
      value := [0, 1, 2, 3, 4, 5, 6, 7, 8, 9, 10, 11] },
    -- Chrominance AC.
    { count := [0, 2, 1, 2, 4, 4, 3, 4, 7, 5, 4, 4, 0, 1, 2, 119],
      value := [
        0x00, 0x01, 0x02, 0x03, 0x11, 0x04, 0x05, 0x21,
        0x31, 0x06, 0x12, 0x41, 0x51, 0x07, 0x61, 0x71,
        0x13, 0x22, 0x32, 0x81, 0x08, 0x14, 0x42, 0x91,
        0xa1, 0xb1, 0xc1, 0x09, 0x23, 0x33, 0x52, 0xf0,
        0x15, 0x62, 0x72, 0xd1, 0x0a, 0x16, 0x24, 0x34,
        0xe1, 0x25, 0xf1, 0x17, 0x18, 0x19, 0x1a, 0x26,
        0x27, 0x28, 0x29, 0x2a, 0x35, 0x36, 0x37, 0x38,
        0x39, 0x3a, 0x43, 0x44, 0x45, 0x46, 0x47, 0x48,
        0x49, 0x4a, 0x53, 0x54, 0x55, 0x56, 0x57, 0x58,
        0x59, 0x5a, 0x63, 0x64, 0x65, 0x66, 0x67, 0x68,
        0x69, 0x6a, 0x73, 0x74, 0x75, 0x76, 0x77, 0x78,
        0x79, 0x7a, 0x82, 0x83, 0x84, 0x85, 0x86, 0x87,
        0x88, 0x89, 0x8a, 0x92, 0x93, 0x94, 0x95, 0x96,
        0x97, 0x98, 0x99, 0x9a, 0xa2, 0xa3, 0xa4, 0xa5,
        0xa6, 0xa7, 0xa8, 0xa9, 0xaa, 0xb2, 0xb3, 0xb4,
        0xb5, 0xb6, 0xb7, 0xb8, 0xb9, 0xba, 0xc2, 0xc3,
        0xc4, 0xc5, 0xc6, 0xc7, 0xc8, 0xc9, 0xca, 0xd2,
        0xd3, 0xd4, 0xd5, 0xd6, 0xd7, 0xd8, 0xd9, 0xda,
        0xe2, 0xe3, 0xe4, 0xe5, 0xe6, 0xe7, 0xe8, 0xe9,
        0xea, 0xf2, 0xf3, 0xf4, 0xf5, 0xf6, 0xf7, 0xf8,
        0xf9, 0xfa] } ]

/-- The variables of the loops of `huffmanLUT.init`: the table, `code` and `k`. -/
structure LutInit where
  h : List Nat
  code : Nat
  k : Nat
  deriving DecidableEq, Repr

/-- The loop `for j := uint8(0); j < s.count[i]; j++` of `huffmanLUT.init`, `cnt`
rounds; `nBits` is `uint32(i+1) << 24`.  `none` is the panic of `s.value[k]` out
of range; the store into `h` is in range, `h` having `maxValue + 1` entries. -/
def lutInitJ (s : HuffmanSpec) (nBits : Nat) : Nat → LutInit → Option LutInit
  | 0, st => some st
  | cnt + 1, st =>
    match s.value.get? st.k with
    | none => none
    | some v =>
      lutInitJ s nBits cnt
        { h := st.h.set v (nBits ||| st.code), code := (st.code + 1) % 4294967296, k := st.k + 1 }

/-- The loop `for i := 0; i < len(s.count); i++` of `huffmanLUT.init`, `cnt`
rounds from `i` on. -/
def lutInitI (s : HuffmanSpec) : Nat → Nat → LutInit → Option LutInit
  | 0, _, st => some st
  | cnt + 1, i, st =>
    match lutInitJ s (((i + 1) <<< 24) % 4294967296) (s.count.getD i 0) st with
    | none => none
    | some st1 => lutInitI s cnt (i + 1) { st1 with code := (st1.code <<< 1) % 4294967296 }

/-- The method `huffmanLUT.init`: the table it builds, an entry holding the code
length in its 8 high bits and the code word in its 24 low bits. -/
def huffmanLUTInit (s : HuffmanSpec) : Option (List Nat) :=
  let maxValue := s.value.foldl (fun m v => if v > m then v else m) 0
  match lutInitI s s.count.length 0 { h := List.replicate (maxValue + 1) 0, code := 0, k := 0 } with
  | none => none
  | some st => some st.h

/-- The array `theHuffmanLUT` after the package's `init`. -/
def theHuffmanLUT (h : Nat) : List Nat :=
  match theHuffmanSpec.get? h with
  | none => []
  | some s => (huffmanLUTInit s).getD []

/-! ## Encoder: state and byte writer

The writer `e.w` is modelled by the list of bytes it has accepted so far, and
it accepts every byte: `err` is set only in a state given from outside, after
which every write is a no-op. -/

structure Encoder where
  out : List Byte
  err : Option String
  buf : Nat → Byte
  bits : Nat
  nBits : Nat
  quant : Nat → Nat → Nat

/-- The zero value `var e encoder` over a writer that holds the bytes `w`. -/
def zeroEncoder (w : List Byte) : Encoder :=
  { out := w, err := none, buf := fun _ => byte 0, bits := 0, nBits := 0, quant := fun _ _ => 0 }

/-- Outcome of an encoder method that may panic: the returned value, or the
panic message, and the encoder state the call left behind. -/
inductive Enc (α : Type) where
  | ok (a : α) (e : Encoder)
  | panic (msg : String) (e : Encoder)

def Enc.state {α : Type} : Enc α → Encoder
  | .ok _ e => e
  | .panic _ e => e

def Enc.val? {α : Type} : Enc α → Option α
  | .ok a _ => some a
  | .panic _ _ => none

def Enc.panic? {α : Type} : Enc α → Option String
  | .ok _ _ => none
  | .panic m _ => some m

def flush (e : Encoder) : Encoder := e

def write (p : List Byte) (e : Encoder) : Encoder :=
  if e.err ≠ none then e else { e with out := e.out ++ p }

def writeByte (b : Byte) (e : Encoder) : Encoder :=
  if e.err ≠ none then e else { e with out := e.out ++ [b] }

/-! ## Encoder: bit writer -/

/-- The loop `for nBits >= 8` of `emit`, at most `cnt` rounds, then the store
`e.bits, e.nBits = bits, nBits`. -/
def emitLoop : Nat → Nat → Nat → Encoder → Encoder
  | 0, bits, nBits, e => { e with bits := bits, nBits := nBits }
  | cnt + 1, bits, nBits, e =>
    if nBits ≥ 8 then
      let b := u8 (bits >>> 24)
      let e1 := writeByte (byte b) e
      let e2 := if b = 0xff then writeByte (byte 0x00) e1 else e1
      emitLoop cnt ((bits <<< 8) % 4294967296) (nBits - 8) e2
    else { e with bits := bits, nBits := nBits }

/-- The method `emit(bits, nBits)` on `uint32` values.  A shift by 32 or more
gives 0.  Every round of the loop lowers `nBits` by 8, so `nBits / 8 + 1` rounds
reach its end. -/
def emit (bits nBits : Nat) (e : Encoder) : Encoder :=
  let nBits1 := (nBits + e.nBits) % 4294967296
  let s := (32 + 4294967296 - nBits1) % 4294967296
  let bits1 := if s < 32 then (bits <<< s) % 4294967296 else 0
  let bits2 := bits1 ||| e.bits
  emitLoop (nBits1 / 8 + 1) bits2 nBits1 e

/-- The method `emitHuff(h, value)`; the panics are those of the two index
expressions of `theHuffmanLUT[h][value]`. -/
def emitHuff (h : Nat) (value : Int) (e : Encoder) : Enc Unit :=
  if h ≥ nHuffIndex then .panic "index out of range" e
  else if value < 0 ∨ ((theHuffmanLUT h).length : Int) ≤ value then .panic "index out of range" e
  else
    let x := (theHuffmanLUT h).getD value.toNat 0
    .ok () (emit (x &&& (1 <<< 24 - 1)) (x >>> 24) e)

/-- The values `a` and `b` of `emitHuffRLE`. -/
def rleMagnitude (value : Int) : Int × Int :=
  if value < 0 then (i32 (-value), i32 (value - 1)) else (value, value)

/-- The value `nBits` of `emitHuffRLE`; `none` is the panic of an index of
`bitCount` out of range. -/
def rleSize (value : Int) : Option Nat :=
  let a := (rleMagnitude value).1
  if a < 0x100 then bitCount a
  else
    match bitCount (a >>> (8 : Nat)) with
    | none => none
    | some n => some ((8 + n) % 4294967296)

/-- The extra bits `uint32(b) & (1<<nBits - 1)` of `emitHuffRLE`. -/
def rleBits (value : Int) (nBits : Nat) : Nat :=
  let mask := if nBits < 32 then ((1 <<< nBits) % 4294967296 + 4294967295) % 4294967296 else 4294967295
  u32 (rleMagnitude value).2 &&& mask

/-- The method `emitHuffRLE(h, runLength, value)`. -/
def emitHuffRLE (h : Nat) (runLength value : Int) (e : Encoder) : Enc Unit :=
  match rleSize value with
  | none => .panic "index out of range" e
  | some nBits =>
    match emitHuff h (or32 (i32 (runLength * 16)) (i32 (nBits : Int))) e with
    | .panic m e1 => .panic m e1
    | .ok _ e1 =>
      if nBits > 0 then .ok () (emit (rleBits value nBits) nBits e1) else .ok () e1

/-! ## Encoder: marker segments -/

/-- The method `writeMarkerHeader(marker, markerlen)`, for a length that is not
negative. -/
def writeMarkerHeader (marker : Nat) (markerlen : Nat) (e : Encoder) : Encoder :=
  let buf := upd (upd (upd (upd e.buf 0 (byte 0xff)) 1 (byte marker)) 2 (byte (markerlen >>> 8)))
    3 (byte (markerlen &&& 0xff))
  write (slice buf 0 4) { e with buf := buf }

/-- The loop `for i := range e.quant` of `writeDQT`, `cnt` rounds from `i` on. -/
def writeDQTLoop : Nat → Nat → Encoder → Encoder
  | 0, _, e => e
  | cnt + 1, i, e =>
    let e1 := writeByte (byte i) e
    let e2 := write ((List.range blockSize).map (fun j => byte (e1.quant i j))) e1
    writeDQTLoop cnt (i + 1) e2

def writeDQT (e : Encoder) : Encoder :=
  let markerlen := 2 + nQuantIndex * (1 + blockSize)
  writeDQTLoop nQuantIndex 0 (writeMarkerHeader dqtMarker markerlen e)

/-- The strings `"\x22\x11\x11"` and `"\x00\x01\x01"` of `writeSOF0`. -/
def sofSampling : List Nat := [0x22, 0x11, 0x11]
def sofTq : List Nat := [0x00, 0x01, 0x01]

/-- The loop `for i := 0; i < nComponent; i++` of `writeSOF0`, `cnt` rounds from
`i` on, on the array `e.buf` of 16 bytes; an error is the panic of an index out
of range, with the array at that point. -/
def sofFill : Nat → Nat → (Nat → Byte) → Except (Nat → Byte) (Nat → Byte)
  | 0, _, buf => .ok buf
  | cnt + 1, i, buf =>
    if 3 * i + 6 ≥ 16 then .error buf
    else
      let buf1 := upd buf (3 * i + 6) (byte (i + 1))
      match sofSampling.get? i with
      | none => .error buf1
      | some hv =>
        let buf2 := upd buf1 (3 * i + 7) (byte hv)
        match sofTq.get? i with
        | none => .error buf2
        | some tq => sofFill cnt (i + 1) (upd buf2 (3 * i + 8) (byte tq))

/-- The method `writeSOF0(size, nComponent)` with `size = (sizeX, sizeY)`, for a
number of components that is not negative; `3*(nComponent-1)+9` is written
`3 * nComponent + 6`. -/
def writeSOF0 (sizeX sizeY : Int) (nComponent : Nat) (e : Encoder) : Enc Unit :=
  let markerlen := 8 + 3 * nComponent
  let e1 := writeMarkerHeader sof0Marker markerlen e
  let buf := upd e1.buf 0 (byte 8)
  let buf := upd buf 1 (byte ((sizeY >>> (8 : Nat)) % 256).toNat)
  let buf := upd buf 2 (byte (sizeY % 256).toNat)
  let buf := upd buf 3 (byte ((sizeX >>> (8 : Nat)) % 256).toNat)
  let buf := upd buf 4 (byte (sizeX % 256).toNat)
  let buf := upd buf 5 (byte nComponent)
  let filled : Except (Nat → Byte) (Nat → Byte) :=
    if nComponent = 1 then
      .ok (upd (upd (upd buf 6 (byte 1)) 7 (byte 0x11)) 8 (byte 0x00))
    else sofFill nComponent 0 buf
  match filled with
  | .error buf1 => .panic "index out of range" { e1 with buf := buf1 }
  | .ok buf1 =>
    if 3 * nComponent + 6 > 16 then .panic "slice bounds out of range" { e1 with buf := buf1 }
    else .ok () (write (slice buf1 0 (3 * nComponent + 6)) { e1 with buf := buf1 })

/-- The string `"\x00\x10\x01\x11"` of `writeDHT`. -/
def dhtSelectors : List Nat := [0x00, 0x10, 0x01, 0x11]

/-- The tables `specs` of `writeDHT`. -/
def dhtSpecs (nComponent : Nat) : List HuffmanSpec :=
  if nComponent = 1 then theHuffmanSpec.take 2 else theHuffmanSpec

/-- The loop `for i, s := range specs` that writes the tables, from table `i`
on; the index of the selector string is in range, there being four tables. -/
def writeDHTLoop : List HuffmanSpec → Nat → Encoder → Encoder
  | [], _, e => e
  | s :: rest, i, e =>
    let e1 := writeByte (byte (dhtSelectors.getD i 0)) e
    let e2 := write (s.count.map byte) e1
    let e3 := write (s.value.map byte) e2
    writeDHTLoop rest (i + 1) e3

def writeDHT (nComponent : Nat) (e : Encoder) : Encoder :=
  let specs := dhtSpecs nComponent
  let markerlen := specs.foldl (fun len s => len + (1 + 16 + s.value.length)) 2
  writeDHTLoop specs 0 (writeMarkerHeader dhtMarker markerlen e)

/-! ## Encoder: blocks and scan -/

/-- The loop `for runLength > 15` of `writeBlock`, at most `cnt` rounds; the
result is the run length left. -/
def writeZRL (h : Nat) : Nat → Int → Encoder → Enc Int
  | 0, runLength, e => .ok runLength e
  | cnt + 1, runLength, e =>
    if runLength > 15 then
      match emitHuff h 0xf0 e with
      | .panic m e1 => .panic m e1
      | .ok _ e1 => writeZRL h cnt (i32 (runLength - 16)) e1
    else .ok runLength e

/-- The quotient `div(x, 8*int32(e.quant[q][zig]))` of `writeBlock`; the table
entry is a byte. -/
def quantDiv (e : Encoder) (q zig : Nat) (x : Int) : Option Int :=
  div x (8 * (u8 (e.quant q zig) : Int))

/-- The loop `for zig := 1; zig < blockSize; zig++` of `writeBlock`, `cnt`
rounds from `zig` on; the result is the final run length.  The inner loop
lowers a run length of at most 63 by 16 per round. -/
def writeAC (b : Block) (q h : Nat) : Nat → Nat → Int → Encoder → Enc Int
  | 0, _, runLength, e => .ok runLength e
  | cnt + 1, zig, runLength, e =>
    match quantDiv e q zig (b (unzig zig)) with
    | none => .panic "integer divide by zero" e
    | some ac =>
      if ac = 0 then writeAC b q h cnt (zig + 1) (i32 (runLength + 1)) e
      else
        match writeZRL h (runLength.toNat / 16 + 1) runLength e with
        | .panic m e1 => .panic m e1
        | .ok rl e1 =>
          match emitHuffRLE h rl ac e1 with
          | .panic m e2 => .panic m e2
          | .ok _ e2 => writeAC b q h cnt (zig + 1) 0 e2

/-- The method `writeBlock(b, q, prevDC)`; the result is the block after the
in-place `fdct` and the returned DC value. -/
def writeBlock (b : Block) (q : Nat) (prevDC : Int) (e : Encoder) : Enc (Block × Int) :=
  let b1 := fdct b
  if q ≥ nQuantIndex then .panic "index out of range" e
  else
    match quantDiv e q 0 (b1 0) with
    | none => .panic "integer divide by zero" e
    | some dc =>
      match emitHuffRLE (2 * q + 0) 0 (i32 (dc - prevDC)) e with
      | .panic m e1 => .panic m e1
      | .ok _ e1 =>
        match writeAC b1 q (2 * q + 1) (blockSize - 1) 1 0 e1 with
        | .panic m e2 => .panic m e2
        | .ok runLength e2 =>
          if runLength > 0 then
            match emitHuff (2 * q + 1) 0x00 e2 with
            | .panic m e3 => .panic m e3
            | .ok _ e3 => .ok (b1, dc) e3
          else .ok (b1, dc) e2

/-- The function `scale(dst, src)`: the 16x16 region held by the four blocks
`src` averaged down to the 8x8 block `dst`. -/
def scale (dst : Block) (src : Nat → Block) : Block :=
  (List.range 4).foldl (fun dst i =>
    let dstOff := ((i &&& 2) <<< 4) ||| ((i &&& 1) <<< 2)
    (List.range 4).foldl (fun dst y =>
      (List.range 4).foldl (fun dst x =>
        let j := 16 * y + 2 * x
        let sum := i32 (i32 (i32 (src i j + src i (j + 1)) + src i (j + 8)) + src i (j + 9))
        upd dst (8 * y + x + dstOff) (i32 (sum + 2) >>> (2 : Nat))) dst) dst) dst

/-- The variable `sosHeaderY`. -/
def sosHeaderY : List Nat := [0xff, 0xda, 0x00, 0x08, 0x01, 0x01, 0x00, 0x00, 0x3f, 0x00]

/-- The variable `sosHeaderYCbCr`. -/
def sosHeaderYCbCr : List Nat :=
  [0xff, 0xda, 0x00, 0x0c, 0x03, 0x01, 0x00, 0x02, 0x11, 0x03, 0x11, 0x00, 0x3f, 0x00]

/-- What the encoder uses of an `image.Image`: whether its dynamic type is
`*image.Gray`, its bounds, and the blocks of samples that `grayToY` and
`rgbaToYCbCr` or `toYCbCr` store for the 8x8 region whose top-left corner is a
given point.  Coordinates are unbounded integers. -/
structure EncImage where
  isGray : Bool
  minX : Int
  minY : Int
  maxX : Int
  maxY : Int
  grayToY : Int → Int → Block
  toYCbCr : Int → Int → Block × Block × Block

/-- The values of the loop variable of `for v := lo; v < hi; v += step`. -/
def loopSteps (lo hi : Int) (step : Nat) : List Int :=
  (List.range ((hi - lo + (step : Int) - 1) / (step : Int)).toNat).map
    (fun k => lo + (step : Int) * (k : Int))

/-- The local variables of `writeSOS` that live across blocks. -/
structure SosVars where
  b : Block
  cb : Nat → Block
  cr : Nat → Block
  prevDCY : Int
  prevDCCb : Int
  prevDCCr : Int

def sosVars0 : SosVars :=
  { b := zeroBlock, cb := fun _ => zeroBlock, cr := fun _ => zeroBlock,
    prevDCY := 0, prevDCCb := 0, prevDCCr := 0 }

/-- The body of the loops of `writeSOS` for `*image.Gray`, at the point `(x, y)`. -/
def sosGrayStep (m : EncImage) (x y : Int) (sv : SosVars) (e : Encoder) : Enc SosVars :=
  match writeBlock (m.grayToY x y) 0 sv.prevDCY e with
  | .panic msg e1 => .panic msg e1
  | .ok (b1, dc) e1 => .ok { sv with b := b1, prevDCY := dc } e1

/-- The loop `for i := 0; i < 4; i++` of `writeSOS`, `cnt` rounds from `i` on. -/
def sosLuma (m : EncImage) (x y : Int) : Nat → Nat → SosVars → Encoder → Enc SosVars
  | 0, _, sv, e => .ok sv e
  | cnt + 1, i, sv, e =>
    let xOff : Int := ((i &&& 1) * 8 : Nat)
    let yOff : Int := ((i &&& 2) * 4 : Nat)
    let s := m.toYCbCr (x + xOff) (y + yOff)
    match writeBlock s.1 0 sv.prevDCY e with
    | .panic msg e1 => .panic msg e1
    | .ok (b1, dc) e1 =>
      sosLuma m x y cnt (i + 1)
        { sv with b := b1, cb := upd sv.cb i s.2.1, cr := upd sv.cr i s.2.2, prevDCY := dc } e1

/-- The body of the loops of `writeSOS` for the other images, at the point
`(x, y)`. -/
def sosColorStep (m : EncImage) (x y : Int) (sv : SosVars) (e : Encoder) : Enc SosVars :=
  match sosLuma m x y 4 0 sv e with
  | .panic msg e1 => .panic msg e1
  | .ok sv1 e1 =>
    match writeBlock (scale sv1.b sv1.cb) 1 sv1.prevDCCb e1 with
    | .panic msg e2 => .panic msg e2
    | .ok (b2, dcb) e2 =>
      match writeBlock (scale b2 sv1.cr) 1 sv1.prevDCCr e2 with
      | .panic msg e3 => .panic msg e3
      | .ok (b3, dcr) e3 => .ok { sv1 with b := b3, prevDCCb := dcb, prevDCCr := dcr } e3

/-- A loop over the points of a list, with the given body. -/
def sosPoints (step : Int → Int → SosVars → Encoder → Enc SosVars) :
    List (Int × Int) → SosVars → Encoder → Enc SosVars
  | [], sv, e => .ok sv e
  | p :: rest, sv, e =>
    match step p.1 p.2 sv e with
    | .panic msg e1 => .panic msg e1
    | .ok sv1 e1 => sosPoints step rest sv1 e1

/-- The points `(x, y)` that the two nested loops of `writeSOS` visit, in order. -/
def sosGrid (m : EncImage) (step : Nat) : List (Int × Int) :=
  (loopSteps m.minY m.maxY step).flatMap
    (fun y => (loopSteps m.minX m.maxX step).map (fun x => (x, y)))

/-- The two `switch` branches of `writeSOS` that write the blocks of the image. -/
def sosBlocks (m : EncImage) (e : Encoder) : Enc SosVars :=
  if m.isGray then sosPoints (sosGrayStep m) (sosGrid m 8) sosVars0 e
  else sosPoints (sosColorStep m) (sosGrid m 16) sosVars0 e

/-- The method `writeSOS(m)`. -/
def writeSOS (m : EncImage) (e : Encoder) : Enc Unit :=
  let e1 := if m.isGray then write (sosHeaderY.map byte) e else write (sosHeaderYCbCr.map byte) e
  match sosBlocks m e1 with
  | .panic msg e2 => .panic msg e2
  | .ok _ e2 => .ok () (emit 0x7f 7 e2)

/-- The statements of `Encode` from "Write the Start Of Image marker" up to the
call of `writeSOS`, for an encoder whose tables are set. -/
def encodeHead (sizeX sizeY : Int) (nComponent : Nat) (e : Encoder) : Enc Unit :=
  let buf := upd (upd e.buf 0 (byte 0xff)) 1 (byte 0xd8)
  let e1 := write (slice buf 0 2) { e with buf := buf }
  let e2 := writeDQT e1
  match writeSOF0 sizeX sizeY nComponent e2 with
  | .panic msg e3 => .panic msg e3
  | .ok _ e3 => .ok () (writeDHT nComponent e3)

/-- The function `Encode(w, m, o)` on a writer that holds the bytes `w`; `o` is
`none` for a nil `*Options` and otherwise holds `o.Quality`.  The result is the
returned error (`none` for nil), and its state holds the bytes written. -/
def Encode (w : List Byte) (m : EncImage) (o : Option Int) : Enc (Option String) :=
  let e0 := zeroEncoder w
  if m.maxX - m.minX ≥ 65536 ∨ m.maxY - m.minY ≥ 65536 then
    .ok (some "jpeg: image is too large to encode") e0
  else
    let e1 := { e0 with quant := encodeQuant o }
    let nComponent := if m.isGray then 1 else 3
    match encodeHead (m.maxX - m.minX) (m.maxY - m.minY) nComponent e1 with
    | .panic msg e2 => .panic msg e2
    | .ok _ e2 =>
      match writeSOS m e2 with
      | .panic msg e3 => .panic msg e3
      | .ok _ e3 =>
        let buf := upd (upd e3.buf 0 (byte 0xff)) 1 (byte 0xd9)
        let e4 := flush (write (slice buf 0 2) { e3 with buf := buf })
        .ok e4.err e4

/-! ## Predicates, reference functions and sample inputs for the encoder theorems -/

/-- The encoder state `e1` extends `e`: same error field and tables, and the
bytes written are those of `e` followed by more. -/
def Grows (e e1 : Encoder) : Prop :=
  e1.err = e.err ∧ e1.quant = e.quant ∧ ∃ s, e1.out = e.out ++ s

/-- A marker segment: `FF`, the marker, a 16-bit big-endian length, and a
payload of that length minus 2 bytes. -/
def IsSegment (marker : Nat) (s : List Byte) : Prop :=
  ∃ (hi lo : Byte) (payload : List Byte),
    s = byte 0xff :: byte marker :: hi :: lo :: payload ∧
    hi.val * 256 + lo.val = 2 + payload.length

/-- The 64 bytes of table `i` of `e.quant`, in the order `writeDQT` writes them. -/
def quantRow (quant : Nat → Nat → Nat) (i : Nat) : List Byte :=
  (List.range blockSize).map (fun j => byte (quant i j))

/-- The bytes of one table of a DHT segment: selector, counts, values. -/
def dhtEntry (sel : Nat) (s : HuffmanSpec) : List Byte :=
  byte sel :: (s.count.map byte ++ s.value.map byte)

/-- The bytes `writeDHT` writes after the segment header, for the tables
`specs` numbered from `i` on. -/
def dhtEntries : List HuffmanSpec → Nat → List Byte
  | [], _ => []
  | s :: rest, i => dhtEntry (dhtSelectors.getD i 0) s ++ dhtEntries rest (i + 1)

/-- The nine or fifteen bytes `writeSOF0` writes after the segment header for one
or three components. -/
def sofBody (sizeX sizeY : Int) (nComponent : Nat) : List Byte :=
  [byte 8, byte ((sizeY >>> (8 : Nat)) % 256).toNat, byte (sizeY % 256).toNat,
   byte ((sizeX >>> (8 : Nat)) % 256).toNat, byte (sizeX % 256).toNat, byte nComponent] ++
  (if nComponent = 1 then [byte 1, byte 0x11, byte 0x00]
   else [byte 1, byte 0x22, byte 0x00, byte 2, byte 0x11, byte 0x01, byte 3, byte 0x11, byte 0x01])

/-- A gray image of 8 by 8 pixels, all of value 128. -/
def grayImage : EncImage :=
  { isGray := true, minX := 0, minY := 0, maxX := 8, maxY := 8,
    grayToY := fun _ _ _ => 128,
    toYCbCr := fun _ _ => (zeroBlock, zeroBlock, zeroBlock) }

/-- An image of 8 by 8 pixels that is not of type `*image.Gray`, all of whose
samples are 128. -/
def colorImage : EncImage :=
  { isGray := false, minX := 0, minY := 0, maxX := 8, maxY := 8,
    grayToY := fun _ _ => zeroBlock,
    toYCbCr := fun _ _ => (fun _ => 128, fun _ => 128, fun _ => 128) }

/-- The DQT segment of `Encode`: two tables, numbered 0 and 1. -/
def dqtSegment (quant : Nat → Nat → Nat) : List Byte :=
  byte 0xff :: byte dqtMarker :: byte 0x00 :: byte 0x84 ::
    byte 0 :: (quantRow quant 0 ++ byte 1 :: quantRow quant 1)

/-- The SOF0 segment of `Encode` for one or three components. -/
def sofSegment (sizeX sizeY : Int) (nComponent : Nat) : List Byte :=
  byte 0xff :: byte sof0Marker :: byte ((8 + 3 * nComponent) >>> 8) ::
    byte ((8 + 3 * nComponent) &&& 0xff) :: sofBody sizeX sizeY nComponent

/-- The DHT segment of `Encode`. -/
def dhtSegment (nComponent : Nat) : List Byte :=
  byte 0xff :: byte dhtMarker ::
    byte ((dhtSpecs nComponent).foldl (fun len s => len + (1 + 16 + s.value.length)) 2 >>> 8) ::
    byte ((dhtSpecs nComponent).foldl (fun len s => len + (1 + 16 + s.value.length)) 2 &&& 0xff) ::
    dhtEntries (dhtSpecs nComponent) 0

/-- The SOS header of `Encode`. -/
def sosHeader (isGray : Bool) : List Byte :=
  if isGray then sosHeaderY.map byte else sosHeaderYCbCr.map byte

/-- Byte stuffing: every byte `FF` is followed by a byte `00`. -/
def stuff : List Byte → List Byte
  | [] => []
  | b :: rest => if b.val = 0xff then b :: byte 0x00 :: stuff rest else b :: stuff rest

/-- Removal of the `00` byte that follows a byte `FF`; `afterFF` tells whether
the byte before the list was such an `FF`. -/
def unstuffFrom : Bool → List Byte → List Byte
  | _, [] => []
  | true, b :: rest => if b.val = 0x00 then unstuffFrom false rest
      else b :: unstuffFrom (decide (b.val = 0xff)) rest
  | false, b :: rest => b :: unstuffFrom (decide (b.val = 0xff)) rest

def unstuff (l : List Byte) : List Byte := unstuffFrom false l

/-- In the byte sequence `l` every byte `FF` is immediately followed by a byte
`00`. -/
def FFStuffed (l : List Byte) : Prop :=
  ∀ i, i < l.length → (l.getD i (byte 0)).val = 0xff →
    i + 1 < l.length ∧ (l.getD (i + 1) (byte 0)).val = 0x00

/-- The bits of a byte sequence, most significant bit of each byte first. -/
def bytesBits (l : List Byte) : List Bool := l.flatMap (fun b => bitsOf b.val 8)

/-- The state of the bit writer is well formed: fewer than 8 bits are pending,
and they are the top `nBits` bits of the 32-bit accumulator, the rest being 0. -/
def EmitInv (e : Encoder) : Prop :=
  e.nBits < 8 ∧ e.bits < 4294967296 ∧ e.bits % 2 ^ (32 - e.nBits) = 0

instance (e : Encoder) : Decidable (EmitInv e) := by
  unfold EmitInv
  infer_instance

/-- The bits that `emit` has accepted and not written yet, oldest first. -/
def pendingBits (e : Encoder) : List Bool := bitsOf (e.bits >>> (32 - e.nBits)) e.nBits

/-- Between the states `e` and `e1` the bit writer has accepted the bits `bs`:
it has written whole data bytes, byte-stuffed, and what was pending in `e`
followed by `bs` is the bits of these bytes followed by what is pending in `e1`. -/
def Emitted (e e1 : Encoder) (bs : List Bool) : Prop :=
  ∃ bytes, e1.out = e.out ++ stuff bytes ∧
    bytesBits bytes ++ pendingBits e1 = pendingBits e ++ bs

/-- A sequence of calls `emit(bits, nBits)`, given as pairs `(bits, nBits)`. -/
def emitAll (calls : List (Nat × Nat)) (e : Encoder) : Encoder :=
  calls.foldl (fun e c => emit c.1 c.2 e) e

/-- The bits of a sequence of `emit` calls, in order. -/
def callBits (calls : List (Nat × Nat)) : List Bool := calls.flatMap (fun c => bitsOf c.1 c.2)


/-- A block whose 64 entries all hold the same value. -/
def constBlock (c : Int) : Block := fun _ => c

/-- A coefficient block with the given DC term and all AC terms zero. -/
def dcOnly (v : Int) : Block := fun i => if i = 0 then v else 0

/-- Every non-zero entry of the look-up table `lut` belongs to a code of at most
eight bits: the entry at index `x` packs the value number `k`, whose canonical
code has `i + 1` bits and is the top `i + 1` bits of `x`, with `2 + i`.  Only
values whose code has at most `m` bits, and of those with `m + 1` bits the ones
before number `kmax`, occur. -/
def LutSound (vals : Nat → Byte) (nc : Nat → Nat) (m kmax : Nat) (lut : Nat → Nat) : Prop :=
  ∀ x, lut x ≠ 0 → ∃ i k, i < 8 ∧ canonBase nc i ≤ k ∧ k < canonBase nc (i + 1) ∧
    (i < m ∨ (i = m ∧ k < kmax)) ∧
    lut x = 256 * (vals k).val + (2 + i) ∧ x < 256 ∧
    x >>> (7 - i) = canonFirst nc i + (k - canonBase nc i)

/-- A table header before the derivation loops of `processDHT`: two values, 5
and 9. -/
def twoValues : Huffman :=
  { zeroHuffman with nCodes := 2, vals := blit (fun _ => byte 0) 0 (bytesOf [5, 9]) }

/-- The bytes `l` are the ones the buffer holds just before the read position. -/
def Behind (d : Decoder) (l : List Byte) : Prop :=
  l.length ≤ d.bytes.i ∧ slice d.bytes.buf (d.bytes.i - l.length) l.length = l

/-- A byte stream that does not start with a data byte of entropy-coded data:
it is empty, or a lone `FF`, or an `FF` followed by a byte other than `00`. -/
def Stop (s : List Byte) : Prop :=
  s = [] ∨ s = [byte 0xff] ∨ ∃ m rest, s = byte 0xff :: m :: rest ∧ m.val ≠ 0x00

/-- The bits the accumulator of the decoder holds, oldest first. -/
def pendingD (d : Decoder) : List Bool := bitsOf d.bits.a d.bits.n.toNat

/-- The bits `bs` are what the decoder will read next: they are the first of
the bits its accumulator holds followed by the bits of the byte-stuffed data
bytes at the front of its input. -/
def Ahead (d : Decoder) (bs : List Bool) : Prop :=
  BitsInv d.bits ∧ d.bytes.i ≤ d.bytes.j ∧
  ∃ bytes tail, d.stream = stuff bytes ++ tail ∧ bs <+: pendingD d ++ bytesBits bytes

/-- The state in which `decodeHuffman` enters its ladder after a failed
refill. -/
def restoreBytes (d : Decoder) : Decoder :=
  if d.bytes.nUnreadable ≠ 0 then (unreadByteStuffedByte d).state else d

/-- The counts of a `huffmanSpec` as a function of the code length minus one. -/
def specCounts (s : HuffmanSpec) : Nat → Nat := fun i => s.count.getD i 0

/-- The code length, minus one, of the `k`-th value of a table with the given
counts. -/
def lenIndex (nc : Nat → Nat) (k : Nat) : Nat :=
  ((List.range 16).find? (fun t => decide (k < canonBase nc (t + 1)))).getD 0

/-- The canonical code word of the `k`-th value. -/
def canonCode (nc : Nat → Nat) (k : Nat) : Nat :=
  canonFirst nc (lenIndex nc k) + (k - canonBase nc (lenIndex nc k))

/-- The entry `theHuffmanSpec[h]`. -/
def theSpec (h : Nat) : HuffmanSpec := theHuffmanSpec.getD h { count := [], value := [] }

/-- The code length that `huffmanLUT.init` stores for the value `v` of table
`h`: the 8 high bits of the entry. -/
def lutLen (h v : Nat) : Nat := (theHuffmanLUT h).getD v 0 >>> 24

/-- The code word that `huffmanLUT.init` stores for the value `v` of table `h`:
the 24 low bits of the entry. -/
def lutCode (h v : Nat) : Nat := (theHuffmanLUT h).getD v 0 &&& (1 <<< 24 - 1)

/-- Successive calls `decodeBits(w)` for the widths `ws`, in order; the result
is the list of the values read. -/
def readAll : List Nat → M (List Nat)
  | [], d => .ok [] d
  | w :: ws, d =>
    match decodeBits (w : Int) d with
    | .fail e d1 => .fail e d1
    | .ok v d1 =>
      match readAll ws d1 with
      | .fail e d2 => .fail e d2
      | .ok vs d2 => .ok (v :: vs) d2

/-- The bits of the code word of the symbol `sym` in the encoder table `h`. -/
def symBits (h sym : Nat) : List Bool := bitsOf (lutCode h sym) (lutLen h sym)

/-- The size of the magnitude category of a coefficient, 0 when `bitCount`
would be read out of range. -/
def acSize (v : Int) : Nat := (rleSize v).getD 0

/-- The bits of the run-length coding of the quantized coefficients `c zig` for
`cnt` zig-zag positions from `zig` on, after a run of `run` zeros: for each
non-zero coefficient, `0xF0` for each 16 zeros of the run before it, then the
symbol `run<<4 | size` and the `size` magnitude bits; at the end `0x00` when
zeros trail. -/
def acBits (h : Nat) (c : Nat → Int) : Nat → Nat → Nat → List Bool
  | 0, _, run => if run > 0 then symBits h 0x00 else []
  | cnt + 1, zig, run =>
    if c zig = 0 then acBits h c cnt (zig + 1) (run + 1)
    else
      (List.replicate (run / 16) (symBits h 0xf0)).flatten ++
        (symBits h ((run % 16) * 16 + acSize (c zig)) ++
          (bitsOf (rleBits (c zig) (acSize (c zig))) (acSize (c zig)) ++
            acBits h c cnt (zig + 1) 0))

/-- The block in which the non-zero coefficients `c zig` of `cnt` zig-zag
positions from `zig` on have been stored at their natural positions. -/
def acFill (c : Nat → Int) : Nat → Nat → Block → Block
  | 0, _, b => b
  | cnt + 1, zig, b =>
    acFill c cnt (zig + 1) (if c zig = 0 then b else upd b (unzig zig) (c zig))

/-- The statements of `writeBlock` that code the AC coefficients: the loop over
the zig-zag positions 1 to 63 and the final `0x00` symbol. -/
def writeACPart (b : Block) (q : Nat) (e : Encoder) : Enc Unit :=
  match writeAC b q (2 * q + 1) (blockSize - 1) 1 0 e with
  | .panic m e2 => .panic m e2
  | .ok runLength e2 =>
    if runLength > 0 then emitHuff (2 * q + 1) 0x00 e2 else .ok () e2

/-- A block with two non-zero AC coefficients after the DCT: 16 at natural
position 1 and -24 at natural position 8. -/
def acSampleBlock : Block := fun i => if i = 1 then 16 else if i = 8 then -24 else 0

/-- The quantized AC coefficients of `acSampleBlock` for a table of ones, by
zig-zag position. -/
def acSampleCoeffs : Nat → Int := fun z => if z = 1 then 2 else if z = 2 then -3 else 0

/-- An encoder whose quantization tables are all ones. -/
def onesEncoder : Encoder := { zeroEncoder [] with quant := fun _ _ => 1 }


/-- A block whose row 2 holds 1000 in front of seven zeros; the other rows are
not zero. -/
def rowSample : Block := fun i => if i = 16 then 1000 else if 16 < i ∧ i < 24 then 0 else 7

/-- A decoder already marked as JFIF whose input is the five bytes `JFXX\0`. -/
def jfxxDecoder : Decoder :=
  { zeroDecoder (sourceOf [0x4a, 0x46, 0x58, 0x58, 0x00]) with jfif := true }

/-- The five bytes `JFIF\0`. -/
def jfifTag : List Byte := bytesOf [0x4a, 0x46, 0x49, 0x46, 0x00]

/-- The payloads that `processDQT` accepts: complete entries, optionally
followed by one header byte with `Tq ≤ 3` and `Pq ≤ 1` and nothing after it. -/
def DqtAccepted (p : List Byte) : Prop :=
  ∃ es : List DqtEntry, (∀ e, e ∈ es → e.Complete) ∧
    (p = dqtPayload es ∨
      ∃ x : Byte, x.val &&& 0x0f ≤ 3 ∧ x.val >>> 4 ≤ 1 ∧ p = dqtPayload es ++ [x])

/-- The index invariant of the byte buffer: `nUnreadable ≤ 2` and
`nUnreadable ≤ i ≤ j ≤ 4096`. -/
def BufInv (d : Decoder) : Prop :=
  d.bytes.nUnreadable ≤ 2 ∧ d.bytes.nUnreadable ≤ d.bytes.i ∧ d.bytes.i ≤ d.bytes.j ∧
    d.bytes.j ≤ 4096

instance (d : Decoder) : Decidable (BufInv d) := by
  unfold BufInv
  infer_instance

/-- At least `k` consumed bytes are in the buffer: `k ≤ i ≤ j ≤ 4096`. -/
def BufLow (k : Nat) (d : Decoder) : Prop :=
  k ≤ d.bytes.i ∧ d.bytes.i ≤ d.bytes.j ∧ d.bytes.j ≤ 4096

/-- The bytes that a call of `readByteStuffedByte` on `d` consumes. -/
def stuffedRead (d : Decoder) : List Byte :=
  d.stream.take (d.stream.length - (readByteStuffedByte d).state.stream.length)

/-- The states `d` that a decoder reading from `r` reaches from the zero decoder
by calls of `fill` (when `i = j`), `readByte`, `readByteStuffedByte`,
`readFull`, `ignore` and `unreadByteStuffedByte`, with changes of the rest of
the decoder state in between; `l` is what the most recent stuffed read has
consumed, as long as no later call has made these bytes unreadable. -/
inductive Reach (r : Source) : Decoder → List Byte → Prop
  | zero : Reach r (zeroDecoder r) []
  | other (d d1 : Decoder) (l : List Byte) : Reach r d l → d1.bytes = d.bytes → d1.r = d.r →
      Reach r d1 l
  | fill (d : Decoder) (l : List Byte) : Reach r d l → d.bytes.i = d.bytes.j →
      Reach r (Jpeg.fill d).state l
  | readByte (d : Decoder) (l : List Byte) : Reach r d l →
      Reach r (Jpeg.readByte d).state (if (Jpeg.readByte d).err? = none then [] else l)
  | stuffed (d : Decoder) (l : List Byte) : Reach r d l →
      Reach r (readByteStuffedByte d).state (stuffedRead d)
  | readFull (d : Decoder) (l : List Byte) (n : Nat) : Reach r d l →
      Reach r (Jpeg.readFull n d).state []
  | ignore (d : Decoder) (l : List Byte) (n : Nat) : Reach r d l →
      Reach r (Jpeg.ignore n d).state []
  | unread (d : Decoder) (l : List Byte) : Reach r d l →
      Reach r (unreadByteStuffedByte d).state []

/-- A source that hands over the bytes `FF 00 12` one at a time, so that a
`fill` happens between the `FF` and the `00`. -/
def stuffedSource : Source := { rest := bytesOf [0xff, 0x00, 0x12], chunks := [1, 1, 1] }

/-- A source that hands over the bytes `FF D9` one at a time. -/
def markerSource : Source := { rest := bytesOf [0xff, 0xd9], chunks := [1, 1] }

/-- The zig-zag positions in `[zig, zigEnd]` whose entry of `b` is zero, in
increasing order. -/
def zeroPositions (b : Block) (zig zigEnd : Nat) : List Nat :=
  (List.range' zig (zigEnd + 1 - zig)).filter (fun z => decide (b (unzig z) = 0))

/-- The position of the `(nz+1)`-th zero entry of `b` among the zig-zag
positions `[zig, zigEnd]`, or `zigEnd + 1` when there are not that many. -/
def refineStop (b : Block) (zig zigEnd : Nat) (nz : Int) : Nat :=
  (zeroPositions b zig zigEnd).getD nz.toNat (zigEnd + 1)

/-- The number of non-zero entries of `b` at the zig-zag positions
`[zig, stop)`. -/
def refinedCount (b : Block) (zig stop : Nat) : Nat :=
  ((List.range' zig (stop - zig)).filter (fun z => decide (b (unzig z) ≠ 0))).length

/-- The value `x` moved away from zero by `delta`. -/
def awayFromZero (x delta : Int) : Int := if x > 0 then x + delta else x - delta

/-- A block with the entries 5 and -3 at the zig-zag positions 1 and 2 and
zeros elsewhere. -/
def refineSample : Block := fun i => if i = 1 then 5 else if i = 8 then -3 else 0

/-- A decoder with an empty input whose accumulator holds the `n` low bits of
`a`. -/
def bitsDecoder (a : Nat) (n : Nat) : Decoder :=
  { zeroDecoder (sourceOf []) with
    bits := { a := a, m := if n = 0 then 0 else 2 ^ (n - 1), n := (n : Int) } }

/-- A block whose first entry is the largest `int32`. -/
def overflowBlock : Block := fun i => if i = 0 then 2147483647 else 0

/-- The ladder of `decodeHuffman` with its return statement left open: the
result is the level `i` and the code at which the ladder returns, in place of
the value `h.vals[h.valsIndices[i]+code-h.minCodes[i]]`. -/
def huffSlowPathAt (h : Huffman) : Nat → Nat → Nat → M (Nat × Nat)
  | 0, _, _, d => .fail (.format "bad Huffman code") d
  | cnt + 1, i, code, d =>
    match decodeBit d with
    | .fail e d1 => .fail e d1
    | .ok bit d1 =>
      let code1 := if bit then code ||| 1 else code
      if (code1 : Int) ≤ h.maxCodes i then .ok (i, code1) d1
      else huffSlowPathAt h cnt (i + 1) (code1 <<< 1) d1

/-- The index `h.valsIndices[i]+code-h.minCodes[i]` at which the ladder reads
`h.vals` when it returns at level `i` with the code `code`. -/
def valsIndex (h : Huffman) (p : Nat × Nat) : Int :=
  h.valsIndices p.1 + (p.2 : Int) - h.minCodes p.1

/-- The loop over `j` of the look-up-table construction, which also records
the indices `x` at which it reads `h.vals`. -/
def lutFillJReads (vals : Nat → Byte) (i : Nat) : Nat → LutState × List Nat → LutState × List Nat
  | 0, s => s
  | cnt + 1, s =>
    let base := u8 (s.1.code <<< (7 - i))
    let lutValue := u16 (((vals s.1.x).val <<< 8) ||| (2 + i))
    lutFillJReads vals i cnt
      ({ lut := lutFillK base lutValue (1 <<< (7 - i)) 0 s.1.lut
         x := (s.1.x + 1) % 4294967296
         code := (s.1.code + 1) % 4294967296 }, s.2 ++ [s.1.x])

/-- The loop over `i` of the look-up-table construction, with the recorded
read indices. -/
def lutFillIReads (vals : Nat → Byte) (nCodes : Nat → Nat) :
    Nat → Nat → LutState × List Nat → LutState × List Nat
  | 0, _, s => s
  | cnt + 1, i, s =>
    lutFillIReads vals nCodes cnt (i + 1)
      (lutFillJReads vals i (nCodes i) ({ s.1 with code := (s.1.code <<< 1) % 4294967296 }, s.2))

/-- The look-up-table construction of `processDHT` from `vals` and the
sixteen counts, with the list of indices at which `h.vals` is read. -/
def lutReads (vals : Nat → Byte) (nCodes : Nat → Nat) : LutState × List Nat :=
  lutFillIReads vals nCodes lutSize 0 ({ lut := fun _ => 0, x := 0, code := 0 }, [])

/-- Sixteen counts with three codes of length 1: not a prefix code. -/
def countsOver : List Byte := bytesOf (3 :: List.replicate 15 0)

/-- A decoder whose input is a DHT payload for DC table 0 with the counts
`countsOver` and the values 5, 9, 7. -/
def dhtOverDecoder : Decoder :=
  zeroDecoder (sourceOf (0 :: 3 :: List.replicate 15 0 ++ [5, 9, 7]))

/-- The block position `(bx, by)` of step `j` of the MCU `(mx, my)` in an
interleaved scan, for a component with the sampling factors `hi` and `vi`. -/
def unitBlock (hi vi mx my j : Nat) : Nat × Nat := (hi * mx + j % hi, vi * my + j / hi)

/-- The index `by*mxx*hi + bx` of the block `(bx, by)` in the coefficient plane
of a component. -/
def slotOf (mxx hi : Nat) (p : Nat × Nat) : Nat := p.2 * mxx * hi + p.1

/-- The decoder state after the first MCU of `rstDecoder` and the restart marker
that follows it. -/
def rstNextDecoder : Decoder := (sosMX rstParams 0 1 0 scanVars0 rstDecoder).state

/-- The scan variables after the first MCU of `rstDecoder`. -/
def rstNextVars : ScanVars := (sosMX rstParams 0 1 0 scanVars0 rstDecoder).val?.getD scanVars0

/-! ## The calls of the bit writer made by `writeBlock` -/

/-- A call that `writeBlock` makes on the bit writer: `emitHuff(h, value)`, or
the call `emit(bits, nBits)` for the magnitude bits in `emitHuffRLE`. -/
inductive EmitCall where
  | huff (h : Nat) (value : Int)
  | raw (bits nBits : Nat)

/-- The calls that `emitHuffRLE(h, runLength, value)` makes, in order; none
when `bitCount` is read out of range. -/
def emitHuffRLECalls (h : Nat) (runLength value : Int) : List EmitCall :=
  match rleSize value with
  | none => []
  | some nBits =>
    EmitCall.huff h (or32 (i32 (runLength * 16)) (i32 (nBits : Int))) ::
      (if nBits > 0 then [EmitCall.raw (rleBits value nBits) nBits] else [])

/-- The calls of the inner loop `for runLength > 15` of `writeBlock`, at most
`cnt` rounds, and the run length the loop leaves. -/
def writeZRLCalls (h : Nat) : Nat → Int → List EmitCall × Int
  | 0, runLength => ([], runLength)
  | cnt + 1, runLength =>
    if runLength > 15 then
      (EmitCall.huff h 0xf0 :: (writeZRLCalls h cnt (i32 (runLength - 16))).1,
        (writeZRLCalls h cnt (i32 (runLength - 16))).2)
    else ([], runLength)

/-- The calls of the loop `for zig := 1; zig < blockSize; zig++` of
`writeBlock`, `cnt` rounds from `zig` on with the tables of `e`, and the final
run length. -/
def writeACCalls (e : Encoder) (b : Block) (q h : Nat) : Nat → Nat → Int → List EmitCall × Int
  | 0, _, runLength => ([], runLength)
  | cnt + 1, zig, runLength =>
    match quantDiv e q zig (b (unzig zig)) with
    | none => ([], runLength)
    | some ac =>
      if ac = 0 then writeACCalls e b q h cnt (zig + 1) (i32 (runLength + 1))
      else
        ((writeZRLCalls h (runLength.toNat / 16 + 1) runLength).1 ++
          (emitHuffRLECalls h (writeZRLCalls h (runLength.toNat / 16 + 1) runLength).2 ac ++
            (writeACCalls e b q h cnt (zig + 1) 0).1),
          (writeACCalls e b q h cnt (zig + 1) 0).2)

/-- The calls of `writeBlock(b, q, prevDC)` on the bit writer, in order: the DC
difference, the AC loop, and the final `0x00` when zeros trail. -/
def writeBlockCalls (b : Block) (q : Nat) (prevDC : Int) (e : Encoder) : List EmitCall :=
  match quantDiv e q 0 (fdct b 0) with
  | none => []
  | some dc =>
    emitHuffRLECalls (2 * q + 0) 0 (i32 (dc - prevDC)) ++
      ((writeACCalls e (fdct b) q (2 * q + 1) (blockSize - 1) 1 0).1 ++
        (if (writeACCalls e (fdct b) q (2 * q + 1) (blockSize - 1) 1 0).2 > 0
          then [EmitCall.huff (2 * q + 1) 0x00] else []))

/-- The calls `cs` made one after the other from the state `e`. -/
def runCalls : List EmitCall → Encoder → Enc Unit
  | [], e => .ok () e
  | EmitCall.huff h v :: cs, e =>
    match emitHuff h v e with
    | .panic m e1 => .panic m e1
    | .ok _ e1 => runCalls cs e1
  | EmitCall.raw bits n :: cs, e => runCalls cs (emit bits n e)

/-- The value `v` passed to `emitHuff(h, v)` has a code in table `h`: it is one
of the values of `theHuffmanSpec[h]`, it is an index of `theHuffmanLUT[h]`, and
the code length stored there is not zero. -/
def HasCode (h : Nat) (v : Int) : Prop :=
  h < 4 ∧ 0 ≤ v ∧ v.toNat ∈ (theSpec h).value ∧ v.toNat < (theHuffmanLUT h).length ∧
    1 ≤ lutLen h v.toNat

/-- A block of samples that rise from 0 to 252 in steps of 4. -/
def rampBlock : Block := fun i => ((i % 64 : Nat) : Int) * 4

/-- The zero encoder with the quantization tables that `Encode` builds for
quality 75. -/
def quality75Encoder : Encoder := { zeroEncoder [] with quant := encodeQuant (some 75) }

/-! # Theorems -/

/-! ## The byte reader on the stream of unread bytes -/

theorem slice_succ {α : Type} (f : Nat → α) (i n : Nat) :
    slice f i (n + 1) = f i :: slice f (i + 1) n := by
  unfold slice
  rw [List.range_succ_eq_map]
  simp [List.map_map, Function.comp_def, Nat.add_comm, Nat.add_left_comm]

theorem slice_zero {α : Type} (f : Nat → α) (i : Nat) : slice f i 0 = [] := by
  simp [slice]

theorem slice_length {α : Type} (f : Nat → α) (i n : Nat) : (slice f i n).length = n := by
  simp [slice]

theorem slice_blit {α : Type} (f : Nat → α) (off : Nat) (l : List α) :
    slice (blit f off l) off l.length = l := by
  apply List.ext_getElem
  · simp [slice]
  · intro n h1 h2
    simp [slice, blit, List.getD_eq_getElem?_getD, h2]

theorem slice_add {α : Type} (f : Nat → α) (i n m : Nat) :
    slice f i (n + m) = slice f i n ++ slice f (i + n) m := by
  induction n generalizing i with
  | zero => simp [slice_zero]
  | succ n ih =>
    rw [Nat.add_right_comm, slice_succ, slice_succ, ih]
    simp [Nat.add_assoc, Nat.add_comm 1 n]


theorem sameBytes_refl (d : Decoder) : SameButBytes d d := rfl

theorem sameBytes_trans {a b c : Decoder} (h1 : SameButBytes a b) (h2 : SameButBytes b c) :
    SameButBytes a c := by
  unfold SameButBytes at *
  rw [h2, h1]

theorem sameBytes_tmp {a b : Decoder} (h : SameButBytes a b) : b.tmp = a.tmp :=
  show b.noBytes.tmp = a.noBytes.tmp from congrArg Decoder.tmp h

theorem sameBytes_toInput {a b : Decoder} (h : SameButBytes a b) : SameButInput a b :=
  show ({ b.noBytes with tmp := fun _ => byte 0 } : Decoder) = { a.noBytes with tmp := fun _ => byte 0 }
  from congrArg (fun d : Decoder => ({ d with tmp := fun _ => byte 0 } : Decoder))
    (show b.noBytes = a.noBytes from h)

theorem sameInput_refl (d : Decoder) : SameButInput d d := rfl

theorem sameInput_trans {a b c : Decoder} (h1 : SameButInput a b) (h2 : SameButInput b c) :
    SameButInput a c := by
  unfold SameButInput at *
  rw [h2, h1]

theorem Source.read_nil (s : Source) (cap : Nat) (h : s.rest = []) : s.read cap = none := by
  unfold Source.read; rw [h]

theorem Source.read_cons (s : Source) (cap : Nat) (h : s.rest ≠ []) (hc : 1 ≤ cap) :
    ∃ chunk s1, s.read cap = some (chunk, s1) ∧ chunk ++ s1.rest = s.rest ∧
      1 ≤ chunk.length ∧ chunk.length ≤ cap := by
  unfold Source.read
  cases hr : s.rest with
  | nil => exact absurd hr h
  | cons x xs =>
    refine ⟨_, _, rfl, ?_, ?_, ?_⟩
    · simp
    · simp only [List.length_take, List.length_cons]
      cases s.chunks <;> simp <;> omega
    · simp only [List.length_take]
      omega

/-- fill at end of input -/
theorem fill_eof (d : Decoder) (hij : d.bytes.i = d.bytes.j) (hr : d.r.rest = []) :
    ∃ d1, fill d = .fail .eof d1 ∧ SameButBytes d d1 ∧ d1.stream = [] ∧
      d1.bytes.i = d1.bytes.j ∧ d1.bytes.nUnreadable = d.bytes.nUnreadable := by
  unfold fill
  simp only [hij, ne_eq, not_true_eq_false, if_false]
  rw [Source.read_nil _ _ hr]
  refine ⟨_, rfl, rfl, ?_, ?_, ?_⟩
  · simp only [Decoder.stream, hr]
    split <;> simp [slice_zero, hij]
  · dsimp only; split <;> first | rfl | exact hij
  · dsimp only; split <;> rfl

theorem fill_ok (d : Decoder) (hij : d.bytes.i = d.bytes.j) (hr : d.r.rest ≠ []) :
    ∃ d1, fill d = .ok () d1 ∧ SameButBytes d d1 ∧ d1.stream = d.r.rest ∧
      d1.bytes.i < d1.bytes.j ∧ d1.bytes.nUnreadable = d.bytes.nUnreadable := by
  unfold fill
  simp only [hij, ne_eq, not_true_eq_false, if_false]
  by_cases hj : d.bytes.j > 2
  · simp only [hj, if_true]
    obtain ⟨chunk, s1, hread, hcat, hlen, -⟩ := Source.read_cons d.r (4096 - 2) hr (by omega)
    rw [hread]
    refine ⟨_, rfl, rfl, ?_, ?_, rfl⟩
    · simp only [Decoder.stream, Nat.add_sub_cancel_left, slice_blit, hcat]
    · simp only; omega
  · simp only [hj, if_false]
    obtain ⟨chunk, s1, hread, hcat, hlen, -⟩ := Source.read_cons d.r (4096 - d.bytes.j) hr (by omega)
    rw [hread]
    refine ⟨_, rfl, rfl, ?_, ?_, rfl⟩
    · simp only [Decoder.stream, hij, Nat.add_sub_cancel_left, slice_blit, hcat]
    · simp only [hij]; omega


theorem take_append_of_le {α : Type} (A R : List α) (n : Nat) (h : A.length ≤ n) :
    (A ++ R).take n = A ++ R.take (n - A.length) := by
  rw [List.take_append_eq_append_take, List.take_of_length_le h]

theorem drop_append_of_le {α : Type} (A R : List α) (n : Nat) (h : A.length ≤ n) :
    (A ++ R).drop n = R.drop (n - A.length) := by
  rw [List.drop_append_eq_append_drop, List.drop_of_length_le h, List.nil_append]

theorem stream_of_lt (d : Decoder) (h : d.bytes.i < d.bytes.j) :
    d.stream = d.bytes.buf d.bytes.i ::
      (slice d.bytes.buf (d.bytes.i + 1) (d.bytes.j - (d.bytes.i + 1)) ++ d.r.rest) := by
  unfold Decoder.stream
  have : d.bytes.j - d.bytes.i = (d.bytes.j - (d.bytes.i + 1)) + 1 := by omega
  rw [this, slice_succ]
  rfl

theorem stream_of_eq (d : Decoder) (h : d.bytes.i = d.bytes.j) : d.stream = d.r.rest := by
  simp [Decoder.stream, h, slice_zero]

theorem takeByte_spec (d : Decoder) (h : d.bytes.i < d.bytes.j) (x : Byte) (s : List Byte)
    (hs : d.stream = x :: s) :
    ∃ d1, takeByte d = .ok x d1 ∧ SameButBytes d d1 ∧ d1.stream = s ∧
      d1.bytes.i ≤ d1.bytes.j ∧ d1.bytes.nUnreadable = 0 := by
  rw [stream_of_lt d h] at hs
  injection hs with h1 h2
  subst h1
  exact ⟨_, rfl, rfl, h2, h, rfl⟩

theorem readByte_cons (d : Decoder) (hle : d.bytes.i ≤ d.bytes.j) (x : Byte) (s : List Byte)
    (hs : d.stream = x :: s) :
    ∃ d1, readByte d = .ok x d1 ∧ SameButBytes d d1 ∧ d1.stream = s ∧
      d1.bytes.i ≤ d1.bytes.j ∧ d1.bytes.nUnreadable = 0 := by
  unfold readByte
  by_cases hij : d.bytes.i = d.bytes.j
  · have hr : d.r.rest ≠ [] := by
      rw [stream_of_eq d hij] at hs; rw [hs]; simp
    obtain ⟨d1, hf, hsame, hst, hlt, -⟩ := fill_ok d hij hr
    have hs1 : d1.stream = x :: s := by rw [hst, ← stream_of_eq d hij, hs]
    obtain ⟨d2, ht, hsame2, hst2, hle2, hn2⟩ := takeByte_spec d1 hlt x s hs1
    refine ⟨d2, ?_, sameBytes_trans hsame hsame2, hst2, hle2, hn2⟩
    simp only [readByteLoop, hij, if_true, hf, Nat.ne_of_lt hlt, if_false, ht]
  · have hlt : d.bytes.i < d.bytes.j := by omega
    obtain ⟨d2, ht, hsame2, hst2, hle2, hn2⟩ := takeByte_spec d hlt x s hs
    exact ⟨d2, by simp only [readByteLoop, hij, if_false, ht], hsame2, hst2, hle2, hn2⟩

theorem readByte_nil (d : Decoder) (hle : d.bytes.i ≤ d.bytes.j) (hs : d.stream = []) :
    ∃ d1, readByte d = .fail .eof d1 ∧ SameButBytes d d1 ∧ d1.stream = [] := by
  unfold readByte
  have hij : d.bytes.i = d.bytes.j := by
    by_contra hne
    have hlt : d.bytes.i < d.bytes.j := by omega
    rw [stream_of_lt d hlt] at hs
    exact absurd hs (by simp)
  have hr : d.r.rest = [] := by rw [← stream_of_eq d hij]; exact hs
  obtain ⟨d1, hf, hsame, hst, -, -⟩ := fill_eof d hij hr
  exact ⟨d1, by simp only [readByteLoop, hij, if_true, hf], hsame, hst⟩

/-- The loop of `readFull` on a stream that holds the bytes asked for. -/
theorem readFullLoop_ok (fuel : Nat) : ∀ (need : Nat) (acc : List Byte) (d : Decoder),
    d.bytes.i ≤ d.bytes.j → need ≤ d.stream.length → 1 ≤ fuel →
    need + 1 ≤ fuel + (if d.bytes.i < d.bytes.j then 1 else 0) →
    ∃ d1, readFullLoop fuel need acc d = .ok (acc ++ d.stream.take need) d1 ∧
      SameButBytes d d1 ∧ d1.stream = d.stream.drop need ∧ d1.bytes.i ≤ d1.bytes.j ∧
      d1.bytes.nUnreadable = d.bytes.nUnreadable := by
  induction fuel with
  | zero => intro _ _ _ _ _ h; omega
  | succ fuel ih =>
    intro need acc d hle hlen _ hfuel
    unfold readFullLoop
    simp only
    by_cases hn : need - min need (d.bytes.j - d.bytes.i) = 0
    · -- everything asked for is buffered
      simp only [hn, if_true]
      have hmin : min need (d.bytes.j - d.bytes.i) = need := by omega
      have hsplit : d.bytes.j - d.bytes.i = need + (d.bytes.j - (d.bytes.i + need)) := by omega
      have hst : d.stream = slice d.bytes.buf d.bytes.i need ++
          (slice d.bytes.buf (d.bytes.i + need) (d.bytes.j - (d.bytes.i + need)) ++ d.r.rest) := by
        unfold Decoder.stream
        rw [hsplit, slice_add, List.append_assoc]
      have htake : d.stream.take need = slice d.bytes.buf d.bytes.i need := by
        rw [hst, List.take_left' (slice_length _ _ _)]
      have hdrop : d.stream.drop need =
          slice d.bytes.buf (d.bytes.i + need) (d.bytes.j - (d.bytes.i + need)) ++ d.r.rest := by
        rw [hst, List.drop_left' (slice_length _ _ _)]
      rw [hmin, htake, hdrop]
      exact ⟨_, rfl, rfl, rfl, by show d.bytes.i + need ≤ d.bytes.j; omega, rfl⟩
    · -- the buffer runs dry: copy what is there and fill
      simp only [hn, if_false]
      have hmin : min need (d.bytes.j - d.bytes.i) = d.bytes.j - d.bytes.i := by omega
      have hlt : d.bytes.j - d.bytes.i < need := by omega
      have hst : d.stream = slice d.bytes.buf d.bytes.i (d.bytes.j - d.bytes.i) ++ d.r.rest := rfl
      have hlen1 : (slice d.bytes.buf d.bytes.i (d.bytes.j - d.bytes.i)).length
          = d.bytes.j - d.bytes.i := slice_length _ _ _
      have hr : d.r.rest ≠ [] := by
        intro h0
        rw [hst, h0, List.append_nil, hlen1] at hlen
        omega
      rw [hmin]
      let d0 : Decoder := { d with bytes := { d.bytes with i := d.bytes.i + (d.bytes.j - d.bytes.i) } }
      have hij0 : d0.bytes.i = d0.bytes.j := by show d.bytes.i + (d.bytes.j - d.bytes.i) = d.bytes.j; omega
      obtain ⟨d1, hf, hsame, hst1, hlt1, hnu1⟩ := fill_ok d0 hij0 hr
      have hf' : fill { d with bytes := { d.bytes with i := d.bytes.i + (d.bytes.j - d.bytes.i) } }
          = .ok () d1 := hf
      rw [hf']
      simp only
      have hlen2 : need - (d.bytes.j - d.bytes.i) ≤ d1.stream.length := by
        rw [hst1]
        show _ ≤ d.r.rest.length
        rw [hst, List.length_append, hlen1] at hlen
        omega
      obtain ⟨d2, hrec, hsame2, hst2, hle2, hnu2⟩ :=
        ih (need - (d.bytes.j - d.bytes.i)) (acc ++ slice d.bytes.buf d.bytes.i (d.bytes.j - d.bytes.i))
          d1 (Nat.le_of_lt hlt1) hlen2 (by split at hfuel <;> omega)
          (by simp only [hlt1, if_true]; split at hfuel <;> omega)
      refine ⟨d2, ?_, ?_, ?_, hle2, ?_⟩
      · rw [hrec, hst1, List.append_assoc]
        congr 2
        show _ = List.take need d.stream
        rw [hst, take_append_of_le _ _ _ (by rw [hlen1]; omega), hlen1]
      · exact sameBytes_trans (sameBytes_trans (show SameButBytes d d0 from rfl) hsame) hsame2
      · rw [hst2, hst1, hst]
        show _ = List.drop need _
        rw [drop_append_of_le _ _ _ (by rw [hlen1]; omega), hlen1]
      · rw [hnu2, hnu1]

theorem unreadOvershoot_id (d : Decoder) (h : d.bytes.nUnreadable = 0) :
    unreadOvershoot d = .ok () d := by
  simp [unreadOvershoot, h]

theorem readFull_ok (n : Nat) (d : Decoder) (hle : d.bytes.i ≤ d.bytes.j)
    (hnu : d.bytes.nUnreadable = 0) (hlen : n ≤ d.stream.length) :
    ∃ d1, readFull n d = .ok (d.stream.take n) d1 ∧ SameButBytes d d1 ∧
      d1.stream = d.stream.drop n ∧ d1.bytes.i ≤ d1.bytes.j ∧ d1.bytes.nUnreadable = 0 := by
  obtain ⟨d1, h1, h2, h3, h4, h5⟩ := readFullLoop_ok (n + 1) n [] d hle hlen (by omega)
    (by split <;> omega)
  refine ⟨d1, ?_, h2, h3, h4, by rw [h5, hnu]⟩
  unfold readFull
  rw [unreadOvershoot_id d hnu]
  simpa using h1

theorem blit_zero_lt {α : Type} (f : Nat → α) (l : List α) (k : Nat) (h : k < l.length) :
    blit f 0 l k = l[k] := by
  simp [blit, List.getD_eq_getElem?_getD, h]

theorem blit_zero_ge {α : Type} (f : Nat → α) (l : List α) (k : Nat) (h : l.length ≤ k) :
    blit f 0 l k = f k := by
  simp [blit, List.getD_eq_getElem?_getD, List.getElem?_eq_none h]

theorem readFullTmp_ok (n : Nat) (d : Decoder) (hle : d.bytes.i ≤ d.bytes.j)
    (hnu : d.bytes.nUnreadable = 0) (hlen : n ≤ d.stream.length) :
    ∃ d0, readFullTmp n d = .ok () { d0 with tmp := blit d.tmp 0 (d.stream.take n) } ∧
      SameButBytes d d0 ∧ d0.stream = d.stream.drop n ∧ d0.bytes.i ≤ d0.bytes.j ∧
      d0.bytes.nUnreadable = 0 := by
  obtain ⟨d1, h1, h2, h3, h4, h5⟩ := readFull_ok n d hle hnu hlen
  refine ⟨d1, ?_, h2, h3, h4, h5⟩
  unfold readFullTmp
  rw [h1]
  rw [← sameBytes_tmp h2]

theorem zeroDecoder_stream (r : Source) : (zeroDecoder r).stream = r.rest := by
  simp [Decoder.stream, zeroDecoder, slice_zero]


/-! ## The SOI check of `decode` (C1, C2, C3) -/

/-- When the first two bytes are not `FF D8`, `decode` stops right after them. -/
theorem decode_bad_SOI (r : Source) (configOnly : Bool) (b0 b1 : Byte) (rest : List Byte)
    (hr : r.rest = b0 :: b1 :: rest) (hne : ¬ (b0.val = 0xff ∧ b1.val = 0xd8)) :
    ∃ d1, decode r configOnly (zeroDecoder r) = .fail (.format "missing SOI marker") d1 ∧
      d1.stream = rest := by
  have hz : ({ zeroDecoder r with r := r } : Decoder) = zeroDecoder r := rfl
  have hst : (zeroDecoder r).stream = b0 :: b1 :: rest := by rw [zeroDecoder_stream, hr]
  obtain ⟨d0, h1, h2, h3, h4, h5⟩ := readFullTmp_ok 2 (zeroDecoder r) (Nat.le_refl _) rfl
    (by rw [hst]; simp)
  rw [hst] at h1 h3
  refine ⟨{ d0 with tmp := blit (zeroDecoder r).tmp 0 [b0, b1] }, ?_, h3⟩
  unfold decode
  simp only [hz]
  rw [h1]
  have e0 : blit (zeroDecoder r).tmp 0 [b0, b1] 0 = b0 := rfl
  have e1 : blit (zeroDecoder r).tmp 0 [b0, b1] 1 = b1 := rfl
  simp only [List.take_succ_cons, List.take_zero, e0, e1, soiMarker]
  rw [if_pos]
  by_contra hcon
  exact hne ⟨by omega, by omega⟩

/-- C1, evaluated at the failing input: for the one-pixel four-component JPEG
`cmykJpeg`, `Decode` returns a nil image together with a nil error. -/
theorem Decode_cmyk_nil_nil : Decode (sourceOf cmykJpeg) = (none, none) := by
  decide!

/-- C2: for every input of at least two bytes whose first two bytes are not
exactly `FF D8`, `decode` (in either mode, from the zero decoder) fails with
`FormatError("missing SOI marker")`, and the bytes after those two are all still
unread; `Decode` returns no image and that error. -/
theorem decode_missing_SOI (r : Source) (configOnly : Bool) (b0 b1 : Byte) (rest : List Byte)
    (hr : r.rest = b0 :: b1 :: rest) (hne : ¬ (b0.val = 0xff ∧ b1.val = 0xd8)) :
    (decode r configOnly (zeroDecoder r)).err? = some (.format "missing SOI marker") ∧
    (decode r configOnly (zeroDecoder r)).state.stream = rest ∧
    Decode r = (none, some (.format "missing SOI marker")) := by
  obtain ⟨d1, h1, h2⟩ := decode_bad_SOI r configOnly b0 b1 rest hr hne
  obtain ⟨d2, g1, -⟩ := decode_bad_SOI r false b0 b1 rest hr hne
  refine ⟨by rw [h1]; rfl, by rw [h1]; exact h2, ?_⟩
  unfold Decode
  rw [g1]

/-- C2 at the stream `FF D9 00 01`, handed over one byte per read. -/
theorem decode_missing_SOI_witness :
    (({ rest := bytesOf [0xff, 0xd9, 0x00, 0x01], chunks := [1, 1, 1, 1] } : Source).rest =
        byte 0xff :: byte 0xd9 :: bytesOf [0x00, 0x01]) ∧
    ¬ ((byte 0xff).val = 0xff ∧ (byte 0xd9).val = 0xd8) ∧
    (decode { rest := bytesOf [0xff, 0xd9, 0x00, 0x01], chunks := [1, 1, 1, 1] } true
        (zeroDecoder { rest := bytesOf [0xff, 0xd9, 0x00, 0x01], chunks := [1, 1, 1, 1] })).err?
      = some (.format "missing SOI marker") ∧
    (decode { rest := bytesOf [0xff, 0xd9, 0x00, 0x01], chunks := [1, 1, 1, 1] } true
        (zeroDecoder { rest := bytesOf [0xff, 0xd9, 0x00, 0x01], chunks := [1, 1, 1, 1] })).state.stream
      = bytesOf [0x00, 0x01] ∧
    Decode { rest := bytesOf [0xff, 0xd9, 0x00, 0x01], chunks := [1, 1, 1, 1] }
      = (none, some (.format "missing SOI marker")) :=
  ⟨rfl, by decide,
    decode_missing_SOI { rest := bytesOf [0xff, 0xd9, 0x00, 0x01], chunks := [1, 1, 1, 1] } true
      (byte 0xff) (byte 0xd9) (bytesOf [0x00, 0x01]) rfl (by decide)⟩



theorem skipFill_run (k : Nat) : ∀ (fuel : Nat) (d : Decoder) (m : Byte) (s : List Byte),
    d.bytes.i ≤ d.bytes.j → d.stream = List.replicate k (byte 0xff) ++ m :: s →
    m.val ≠ 0xff → k + 2 ≤ fuel →
    ∃ d1, skipFill fuel (byte 0xff) d = .ok m d1 ∧ SameButBytes d d1 ∧ d1.stream = s ∧
      d1.bytes.i ≤ d1.bytes.j ∧ d1.bytes.nUnreadable = 0 := by
  induction k with
  | zero =>
    intro fuel d m s hle hst hm hfuel
    obtain ⟨f, rfl⟩ : ∃ f, fuel = f + 2 := ⟨fuel - 2, by omega⟩
    obtain ⟨d1, h1, h2, h3, h4, h5⟩ := readByte_cons d hle m s (by simpa using hst)
    refine ⟨d1, ?_, h2, h3, h4, h5⟩
    have hb : (byte 0xff).val = 0xff := rfl
    simp only [skipFill, hb, if_true, h1, hm, if_false]
  | succ k ih =>
    intro fuel d m s hle hst hm hfuel
    obtain ⟨f, rfl⟩ : ∃ f, fuel = f + 1 := ⟨fuel - 1, by omega⟩
    obtain ⟨d1, h1, h2, h3, h4, -⟩ := readByte_cons d hle (byte 0xff)
      (List.replicate k (byte 0xff) ++ m :: s) (by rw [hst, List.replicate_succ]; rfl)
    obtain ⟨d2, g1, g2, g3, g4, g5⟩ := ih f d1 m s h4 h3 hm (by omega)
    refine ⟨d2, ?_, sameBytes_trans h2 g2, g3, g4, g5⟩
    have hb : (byte 0xff).val = 0xff := rfl
    simp only [skipFill, hb, if_true, h1]
    exact g1

theorem skipToFF_ff (fuel : Nat) (d : Decoder) (h : (d.tmp 0).val = 0xff) :
    skipToFF (fuel + 1) d = .ok () d := by
  simp [skipToFF, h]

/-- The marker scan of `decode` over any number of fill bytes. -/
theorem scanMarker_fill (k : Nat) (d : Decoder) (m : Byte) (s : List Byte)
    (hle : d.bytes.i ≤ d.bytes.j) (hnu : d.bytes.nUnreadable = 0)
    (hst : d.stream = byte 0xff :: (List.replicate k (byte 0xff) ++ m :: s))
    (hm : m.val ≠ 0xff) (hm0 : m.val ≠ 0) :
    ∃ d1, scanMarker d = .ok (some m) d1 ∧ d1.stream = s ∧ d1.bytes.i ≤ d1.bytes.j ∧
      d1.bytes.nUnreadable = 0 ∧ SameButInput d d1 := by
  cases k with
  | zero =>
    obtain ⟨d0, h1, h2, h3, h4, h5⟩ := readFullTmp_ok 2 d hle hnu
      (by rw [hst]; simp only [List.length_cons, List.length_append, List.length_replicate]; omega)
    rw [hst] at h1 h3
    simp only [List.replicate_zero, List.nil_append, List.take_succ_cons, List.take_zero,
      List.drop_succ_cons, List.drop_zero] at h1 h3
    refine ⟨{ d0 with tmp := blit d.tmp 0 [byte 0xff, m] }, ?_, h3, h4, h5, ?_⟩
    · unfold scanMarker
      rw [h1]
      simp only
      have e0 : (blit d.tmp 0 [byte 0xff, m] 0).val = 0xff := rfl
      have e1 : blit d.tmp 0 [byte 0xff, m] 1 = m := rfl
      rw [skipToFF_ff _ _ e0]
      simp only [e1, hm0, if_false]
      obtain ⟨f, hf⟩ : ∃ f, ({ d0 with tmp := blit d.tmp 0 [byte 0xff, m] } : Decoder).stream.length + 1
          = f + 1 := ⟨_, rfl⟩
      rw [hf]
      simp only [skipFill, hm, if_false]
    · have e : SameButInput d d0 := sameBytes_toInput h2
      exact e
  | succ k =>
    obtain ⟨d0, h1, h2, h3, h4, h5⟩ := readFullTmp_ok 2 d hle hnu
      (by rw [hst]; simp only [List.length_cons, List.length_append, List.length_replicate]; omega)
    rw [hst] at h1 h3
    simp only [List.replicate_succ, List.cons_append, List.take_succ_cons, List.take_zero,
      List.drop_succ_cons, List.drop_zero] at h1 h3
    let d0' : Decoder := { d0 with tmp := blit d.tmp 0 [byte 0xff, byte 0xff] }
    have hst0 : d0'.stream = List.replicate k (byte 0xff) ++ m :: s := h3
    obtain ⟨d2, g1, g2, g3, g4, g5⟩ := skipFill_run k (d0'.stream.length + 1) d0' m s h4 hst0 hm
      (by rw [hst0]; simp only [List.length_append, List.length_replicate, List.length_cons]; omega)
    refine ⟨d2, ?_, g3, g4, g5, ?_⟩
    · unfold scanMarker
      rw [h1]
      simp only
      have e0 : (blit d.tmp 0 [byte 0xff, byte 0xff] 0).val = 0xff := rfl
      have e1 : blit d.tmp 0 [byte 0xff, byte 0xff] 1 = byte 0xff := rfl
      rw [skipToFF_ff _ _ e0]
      have e2 : (byte 0xff).val ≠ 0 := by decide
      simp only [e1, e2, if_false]
      rw [show skipFill _ (byte 0xff) _ = Result.ok m d2 from g1]
    · have e : SameButInput d0 d0' := rfl
      exact sameInput_trans (sameInput_trans (sameBytes_toInput h2) e) (sameBytes_toInput g2)

/-- C3 refuted at an explicit input: the one-pixel grayscale JPEG `grayJpeg`
decodes to an image without error, while the same stream with two fill bytes in
front of it (so that it begins `FF FF FF D8`) is rejected. -/
theorem fill_before_SOI_counterexample :
    (Decode (sourceOf grayJpeg)).1.isSome = true ∧ (Decode (sourceOf grayJpeg)).2 = none ∧
    Decode (sourceOf ([0xff, 0xff] ++ grayJpeg)) = (none, some (.format "missing SOI marker")) := by
  decide!

/-- C3 (amended): a stream that begins `FF FF` (in particular `FF FF FF D8`) is
rejected with `FormatError("missing SOI marker")`; fill bytes are collapsed only
in front of the markers after the SOI: when the unread stream of a decoder
(byte buffer consistent, no overshoot pending) is `FF`, any
number `k` of further `FF` bytes, then a marker byte `m` other than `00` and
`FF`, the marker scan of `decode` finds marker `m` and leaves the stream right
after it, changing nothing of the decoder but its input side, whatever `k`. -/
theorem fill_bytes_after_SOI_only (r : Source) (configOnly : Bool) (rest : List Byte)
    (d : Decoder) (k : Nat) (m : Byte) (s : List Byte)
    (hr : r.rest = byte 0xff :: byte 0xff :: rest)
    (hle : d.bytes.i ≤ d.bytes.j) (hnu : d.bytes.nUnreadable = 0)
    (hst : d.stream = byte 0xff :: (List.replicate k (byte 0xff) ++ m :: s))
    (hm : m.val ≠ 0xff) (hm0 : m.val ≠ 0) :
    (decode r configOnly (zeroDecoder r)).err? = some (.format "missing SOI marker") ∧
    (scanMarker d).val? = some (some m) ∧ (scanMarker d).state.stream = s ∧
    SameButInput d (scanMarker d).state := by
  obtain ⟨d1, h1, -⟩ := decode_bad_SOI r configOnly (byte 0xff) (byte 0xff) rest hr (by decide)
  obtain ⟨d2, g1, g2, -, -, g5⟩ := scanMarker_fill k d m s hle hnu hst hm hm0
  refine ⟨by rw [h1]; rfl, by rw [g1]; rfl, by rw [g1]; exact g2, by rw [g1]; exact g5⟩

/-- C3 (amended) at the stream `FF FF FF D8 00` for the first part and at a
decoder whose unread stream is `FF FF FF D9 01` for the second. -/
theorem fill_bytes_after_SOI_only_witness :
    ((sourceOf [0xff, 0xff, 0xff, 0xd8, 0x00]).rest
      = byte 0xff :: byte 0xff :: bytesOf [0xff, 0xd8, 0x00]) ∧
    (zeroDecoder (sourceOf [0xff, 0xff, 0xff, 0xd9, 0x01])).bytes.i
      ≤ (zeroDecoder (sourceOf [0xff, 0xff, 0xff, 0xd9, 0x01])).bytes.j ∧
    (zeroDecoder (sourceOf [0xff, 0xff, 0xff, 0xd9, 0x01])).bytes.nUnreadable = 0 ∧
    (zeroDecoder (sourceOf [0xff, 0xff, 0xff, 0xd9, 0x01])).stream
      = byte 0xff :: (List.replicate 2 (byte 0xff) ++ byte 0xd9 :: [byte 0x01]) ∧
    (byte 0xd9).val ≠ 0xff ∧ (byte 0xd9).val ≠ 0 ∧
    (decode (sourceOf [0xff, 0xff, 0xff, 0xd8, 0x00]) false
        (zeroDecoder (sourceOf [0xff, 0xff, 0xff, 0xd8, 0x00]))).err?
      = some (.format "missing SOI marker") ∧
    (scanMarker (zeroDecoder (sourceOf [0xff, 0xff, 0xff, 0xd9, 0x01]))).val?
      = some (some (byte 0xd9)) ∧
    (scanMarker (zeroDecoder (sourceOf [0xff, 0xff, 0xff, 0xd9, 0x01]))).state.stream
      = [byte 0x01] ∧
    SameButInput (zeroDecoder (sourceOf [0xff, 0xff, 0xff, 0xd9, 0x01]))
      (scanMarker (zeroDecoder (sourceOf [0xff, 0xff, 0xff, 0xd9, 0x01]))).state :=
  ⟨rfl, by decide, rfl, rfl, by decide, by decide,
    fill_bytes_after_SOI_only (sourceOf [0xff, 0xff, 0xff, 0xd8, 0x00]) false
      (bytesOf [0xff, 0xd8, 0x00]) (zeroDecoder (sourceOf [0xff, 0xff, 0xff, 0xd9, 0x01])) 2
      (byte 0xd9) [byte 0x01] rfl (by decide) rfl rfl (by decide) (by decide)⟩


/-! ## `processSOF` (C4, C5, C6, C7) -/

@[simp] theorem upd_same {α : Type} (f : Nat → α) (i : Nat) (v : α) : upd f i v i = v := by
  simp [upd]

theorem upd_other {α : Type} (f : Nat → α) (i k : Nat) (v : α) (h : k ≠ i) :
    upd f i v k = f k := by
  simp [upd, h]

@[simp] theorem upd_upd {α : Type} (f : Nat → α) (i : Nat) (v w : α) :
    upd (upd f i v) i w = upd f i w := by
  funext k
  simp only [upd]
  split <;> rfl

/-- What a successful round of the component loop of `processSOF` has checked
and stored. -/
theorem sofComponent_ok (i : Nat) (d d1 : Decoder) (hok : sofComponent i d = .ok () d1) :
    ∃ h v, d1 = { d with
        comp := upd d.comp i ⟨h, v, (d.tmp (6 + 3 * i)).val, (d.tmp (8 + 3 * i)).val⟩ } ∧
      (∀ j, j < i → (d.comp j).c ≠ (d.tmp (6 + 3 * i)).val) ∧
      (d.tmp (8 + 3 * i)).val ≤ 3 ∧
      (h = 1 ∨ h = 2 ∨ h = 4) ∧ (v = 1 ∨ v = 2 ∨ v = 4) ∧
      (d.nComp = 3 → i = 0 → v ≠ 4) ∧
      (d.nComp = 3 → i = 1 → (d.comp 0).h % h = 0 ∧ (d.comp 0).v % v = 0) ∧
      (d.nComp = 3 → i = 2 → (d.comp 1).h = h ∧ (d.comp 1).v = v) ∧
      (d.nComp = 4 → i = 0 → (h = 1 ∧ v = 1) ∨ (h = 2 ∧ v = 2)) ∧
      (d.nComp = 4 → i = 1 ∨ i = 2 → h = 1 ∧ v = 1) ∧
      (d.nComp = 4 → i = 3 → (d.comp 0).h = h ∧ (d.comp 0).v = v) := by
  unfold sofComponent at hok
  simp only [upd_same, upd_upd, maxTq] at hok
  generalize (d.tmp (6 + 3 * i)).val = c at hok ⊢
  generalize (d.tmp (8 + 3 * i)).val = tq at hok ⊢
  generalize (d.tmp (7 + 3 * i)).val = hv at hok ⊢
  split at hok
  · exact Result.noConfusion hok
  rename_i hrep
  have hrep' : ∀ j, j < i → (d.comp j).c ≠ c := by
    intro j hj heq
    apply hrep
    rw [List.any_eq_true]
    refine ⟨j, List.mem_range.mpr hj, ?_⟩
    rw [upd_other _ _ _ _ (Nat.ne_of_lt hj)]
    simp [heq]
  split at hok
  · exact Result.noConfusion hok
  rename_i htq
  split at hok
  · exact Result.noConfusion hok
  rename_i hrange
  split at hok
  · exact Result.noConfusion hok
  rename_i h3
  have hh : hv >>> 4 = 1 ∨ hv >>> 4 = 2 ∨ hv >>> 4 = 4 := by omega
  have hvv : hv &&& 15 = 1 ∨ hv &&& 15 = 2 ∨ hv &&& 15 = 4 := by omega
  have h17 : hv = 17 → hv >>> 4 = 1 ∧ hv &&& 15 = 1 := by rintro rfl; decide
  have h34 : hv = 34 → hv >>> 4 = 2 ∧ hv &&& 15 = 2 := by rintro rfl; decide
  clear hrep
  split at hok
  · -- one component
    rename_i hn
    simp only [sofStore, upd_same, upd_upd, Result.ok.injEq, true_and] at hok
    subst hok
    refine ⟨1, 1, rfl, hrep', by omega, by omega, by omega, ?_, ?_, ?_, ?_, ?_, ?_⟩ <;>
      (intro h0; omega)
  · -- three components
    rename_i hn
    split at hok
    all_goals (try split at hok)
    all_goals (first | exact Result.noConfusion hok | skip)
    all_goals simp only [sofStore, upd_same, upd_upd, Result.ok.injEq, true_and, ne_eq] at hok
    all_goals subst hok
    all_goals refine ⟨hv >>> 4, hv &&& 15, rfl, hrep', by omega, hh, hvv, ?_, ?_, ?_, ?_, ?_, ?_⟩
    all_goals (intro h0 h1)
    all_goals (first | omega | (simp [upd, not_or] at *; omega))
  · -- four components
    rename_i hn
    split at hok
    all_goals (try split at hok)
    all_goals (first | exact Result.noConfusion hok | skip)
    all_goals simp only [sofStore, upd_same, upd_upd, Result.ok.injEq, true_and, ne_eq] at hok
    all_goals subst hok
    all_goals refine ⟨hv >>> 4, hv &&& 15, rfl, hrep', by omega, hh, hvv, ?_, ?_, ?_, ?_, ?_, ?_⟩
    all_goals (intro h0 h1)
    all_goals (first | omega | (simp [upd, not_or] at *; omega))
  · -- no other component count reaches the loop with a stored result
    rename_i hn1 hn3 hn4
    simp only [sofStore, upd_same, upd_upd, Result.ok.injEq, true_and] at hok
    subst hok
    refine ⟨hv >>> 4, hv &&& 15, rfl, hrep', by omega, hh, hvv, ?_, ?_, ?_, ?_, ?_, ?_⟩ <;>
      (intro h0; first | exact absurd h0 hn3 | exact absurd h0 hn4)

theorem sofComponent_prefix (i : Nat) (d d1 : Decoder) (hinv : SofPrefix d i)
    (hok : sofComponent i d = .ok () d1) :
    SofPrefix d1 (i + 1) ∧ d1.nComp = d.nComp ∧ d1.tmp = d.tmp ∧ d1.width = d.width ∧
      d1.height = d.height := by
  obtain ⟨h, v, rfl, hc, htq, hh, hv, c30, c31, c32, c40, c412, c43⟩ := sofComponent_ok i d d1 hok
  obtain ⟨i1, i2, i3, i4⟩ := hinv
  refine ⟨⟨?_, ?_, ?_, ?_⟩, rfl, rfl, rfl, rfl⟩
  · intro a b ha hb
    by_cases hai : a = i
    · subst hai
      simp only [upd_same, upd_other _ _ _ _ (Nat.ne_of_lt hb)]
      exact fun e => hc b hb e.symm
    · simp only [upd_other _ _ _ _ hai, upd_other _ _ _ _ (show b ≠ i by omega)]
      exact i1 a b (by omega) hb
  · intro a ha
    by_cases hai : a = i
    · subst hai
      simp only [upd_same]
      exact ⟨hh, hv, htq⟩
    · simp only [upd_other _ _ _ _ hai]
      exact i2 a (by omega)
  · intro hn
    obtain ⟨j0, j1, j2⟩ := i3 hn
    have k0 := c30 hn
    have k1 := c31 hn
    have k2 := c32 hn
    clear i1 i2 i3 i4 c30 c31 c32 c40 c412 c43 hc hh hv htq
    refine ⟨?_, ?_, ?_⟩ <;> intro hlt <;> simp only [upd] <;> split_ifs <;>
      first | omega | simp_all
  · intro hn
    obtain ⟨j0, j1, j2, j3⟩ := i4 hn
    have k0 := c40 hn
    have k1 := c412 hn
    have k3 := c43 hn
    clear i1 i2 i3 i4 c30 c31 c32 c40 c412 c43 hc hh hv htq
    refine ⟨?_, ?_, ?_, ?_⟩ <;> intro hlt <;> simp only [upd] <;> split_ifs <;>
      first | omega | simp_all

/-! ### Frame: the readers touch nothing but the input side -/

theorem fill_frame (d : Decoder) : (fill d).state.noReader = d.noReader := by
  unfold fill
  split
  · rfl
  · simp only
    split <;> rfl

theorem unreadOvershoot_frame (d : Decoder) : (unreadOvershoot d).state.noReader = d.noReader := by
  unfold unreadOvershoot
  split
  · simp only [Result.state]
    split <;> rfl
  · rfl

theorem readFullLoop_frame (fuel : Nat) : ∀ (need : Nat) (acc : List Byte) (d : Decoder),
    (readFullLoop fuel need acc d).state.noReader = d.noReader := by
  induction fuel with
  | zero => intro need acc d; rfl
  | succ fuel ih =>
    intro need acc d
    unfold readFullLoop
    simp only
    split
    · rfl
    · have hf := fill_frame
        { d with bytes := { d.bytes with i := d.bytes.i + min need (d.bytes.j - d.bytes.i) } }
      split
      · rename_i e d2 heq
        rw [heq] at hf
        exact hf
      · rename_i u d2 heq
        rw [heq] at hf
        rw [ih]
        exact hf

theorem readFull_frame (n : Nat) (d : Decoder) : (readFull n d).state.noReader = d.noReader := by
  unfold readFull
  have h := unreadOvershoot_frame d
  split
  · rename_i e d1 heq
    rw [heq] at h; exact h
  · rename_i u d1 heq
    rw [heq] at h
    rw [readFullLoop_frame]
    exact h

theorem readFullTmp_frame (n : Nat) (d : Decoder) :
    (readFullTmp n d).state.noReader = d.noReader := by
  unfold readFullTmp
  have h := readFull_frame n d
  split
  · rename_i e d1 heq
    rw [heq] at h; exact h
  · rename_i u d1 heq
    rw [heq] at h
    exact h

theorem Result.eq_ok_of_err_none {r : Result Unit} (h : r.err? = none) : r = .ok () r.state := by
  cases r with
  | ok a d => rfl
  | fail e d => simp [Result.err?] at h

theorem sofPrefix_zero (d : Decoder) : SofPrefix d 0 := by
  refine ⟨?_, ?_, ?_, ?_⟩
  · intro a b ha; omega
  · intro a ha; omega
  · intro _; refine ⟨?_, ?_, ?_⟩ <;> intro h <;> omega
  · intro _; refine ⟨?_, ?_, ?_, ?_⟩ <;> intro h <;> omega

theorem sofLoop_prefix (cnt : Nat) : ∀ (lo : Nat) (d d1 : Decoder), SofPrefix d lo →
    sofLoop cnt lo d = .ok () d1 →
    SofPrefix d1 (lo + cnt) ∧ d1.nComp = d.nComp ∧ d1.tmp = d.tmp ∧ d1.width = d.width ∧
      d1.height = d.height := by
  induction cnt with
  | zero =>
    intro lo d d1 hinv hok
    simp only [sofLoop, Result.ok.injEq, true_and] at hok
    subst hok
    exact ⟨hinv, rfl, rfl, rfl, rfl⟩
  | succ cnt ih =>
    intro lo d d1 hinv hok
    unfold sofLoop at hok
    split at hok
    · exact Result.noConfusion hok
    · rename_i u d2 heq
      obtain ⟨h1, h2, h3, h4, h5⟩ := sofComponent_prefix lo d d2 hinv heq
      obtain ⟨g1, g2, g3, g4, g5⟩ := ih (lo + 1) d2 d1 h1 hok
      refine ⟨?_, by rw [g2, h2], by rw [g3, h3], by rw [g4, h4], by rw [g5, h5]⟩
      have : lo + (cnt + 1) = lo + 1 + cnt := by omega
      rw [this]
      exact g1

theorem sofNComp_some (n nc : Nat) (h : sofNComp n = some nc) :
    (nc = 1 ∨ nc = 3 ∨ nc = 4) ∧ n = 6 + 3 * nc := by
  unfold sofNComp at h
  split at h
  · simp only [Option.some.injEq] at h; omega
  · split at h
    · simp only [Option.some.injEq] at h; omega
    · split at h
      · simp only [Option.some.injEq] at h; omega
      · exact Option.noConfusion h

/-- What a successful header part of `processSOF` has checked and stored. -/
theorem sofHeader_ok (n : Nat) (d d1 : Decoder) (h : sofHeader n d = .ok () d1) :
    d.nComp = 0 ∧ sofNComp n = some d1.nComp ∧ (d1.tmp 0).val = 8 ∧
    d1.height = ((d1.tmp 1).val <<< 8) + (d1.tmp 2).val ∧
    d1.width = ((d1.tmp 3).val <<< 8) + (d1.tmp 4).val ∧
    (d1.tmp 5).val = d1.nComp := by
  unfold sofHeader at h
  split at h
  · exact Result.noConfusion h
  rename_i h0
  split at h
  · exact Result.noConfusion h
  rename_i nc hnc
  split at h
  · exact Result.noConfusion h
  rename_i u d2 heq
  have hfr := readFullTmp_frame n { d with nComp := nc }
  rw [heq] at hfr
  have hn2 : d2.nComp = nc := congrArg Decoder.nComp hfr
  split at h
  · exact Result.noConfusion h
  rename_i h8
  simp only at h
  split at h
  · exact Result.noConfusion h
  rename_i h5
  simp only [Result.ok.injEq, true_and] at h
  subst h
  refine ⟨by simpa using h0, by rw [hnc]; exact congrArg some hn2.symm, by simpa using h8,
    rfl, rfl, by simpa using h5⟩

/-- What a successful `processSOF` has established. -/
theorem processSOF_ok (n : Nat) (d : Decoder) (hok : (processSOF n d).err? = none) :
    ((processSOF n d).state.nComp = 1 ∨ (processSOF n d).state.nComp = 3 ∨
      (processSOF n d).state.nComp = 4) ∧
    n = 6 + 3 * (processSOF n d).state.nComp ∧
    SofPrefix (processSOF n d).state (processSOF n d).state.nComp ∧
    (processSOF n d).state.width
      = (((processSOF n d).state.tmp 3).val <<< 8) + ((processSOF n d).state.tmp 4).val ∧
    (processSOF n d).state.height
      = (((processSOF n d).state.tmp 1).val <<< 8) + ((processSOF n d).state.tmp 2).val := by
  have hres := Result.eq_ok_of_err_none hok
  generalize (processSOF n d).state = d1 at hres ⊢
  unfold processSOF at hres
  split at hres
  · exact Result.noConfusion hres
  rename_i u dh heq
  obtain ⟨-, h2, -, h4, h5, -⟩ := sofHeader_ok n d dh heq
  obtain ⟨g1, g2, g3, g4, g5⟩ := sofLoop_prefix dh.nComp 0 dh d1 (sofPrefix_zero dh) hres
  obtain ⟨k1, k2⟩ := sofNComp_some n dh.nComp h2
  rw [Nat.zero_add] at g1
  rw [g2, g3, g4, g5]
  exact ⟨k1, k2, g1, h5, h4⟩

theorem byte_pair_le (a b : Byte) : (a.val <<< 8) + b.val ≤ 65535 := by
  have ha := a.isLt
  have hb := b.isLt
  rw [Nat.shiftLeft_eq]
  omega

theorem componentsValid_of_prefix (d : Decoder) (h : SofPrefix d d.nComp) :
    ComponentsValid d := by
  obtain ⟨i1, i2, i3, i4⟩ := h
  refine ⟨i1, i2, ?_, ?_⟩
  · intro hn
    obtain ⟨j0, j1, j2⟩ := i3 hn
    obtain ⟨a1, a2, -⟩ := i2 0 (by omega)
    have b0 := j0 (by omega)
    obtain ⟨b1, b2⟩ := j1 (by omega)
    obtain ⟨b3, b4⟩ := j2 (by omega)
    refine ⟨?_, Nat.dvd_of_mod_eq_zero b1, Nat.dvd_of_mod_eq_zero b2, b3.symm, b4.symm⟩
    simp only [List.mem_cons, Prod.mk.injEq, List.mem_singleton, List.not_mem_nil, or_false]
    omega
  · intro hn
    obtain ⟨j0, j1, j2, j3⟩ := i4 hn
    obtain ⟨b1, b2⟩ := j1 (by omega)
    obtain ⟨b3, b4⟩ := j2 (by omega)
    obtain ⟨b5, b6⟩ := j3 (by omega)
    refine ⟨b1, b2, b3, b4, b5.symm, b6.symm, ?_⟩
    simp only [Prod.mk.injEq]
    exact j0 (by omega)

/-- C4: after `processSOF` succeeds, the stored component descriptors are
valid (`ComponentsValid`): the identifiers of the `nComp` components are pairwise
distinct; every `h` and `v` is 1, 2 or 4 and every `tq` is at most 3; for three
components, Y's `(h, v)` is one of (1,1), (1,2), (2,1), (2,2), (4,1), (4,2),
Cb's `h` and `v` divide Y's, and Cr's `(h, v)` equals Cb's; for four components,
components 1 and 2 have `(h, v) = (1, 1)` and components 0 and 3 share the same
`(h, v)`, which is (1,1) or (2,2). -/
theorem processSOF_components (n : Nat) (d : Decoder) (hok : (processSOF n d).err? = none) :
    ComponentsValid (processSOF n d).state :=
  componentsValid_of_prefix _ (processSOF_ok n d hok).2.2.1

/-- C4 at a 4:2:0 frame header read by the zero decoder. -/
theorem processSOF_components_witness :
    (processSOF 15 (zeroDecoder (sourceOf sofPayload420))).err? = none ∧
    ComponentsValid (processSOF 15 (zeroDecoder (sourceOf sofPayload420))).state :=
  ⟨by decide!, processSOF_components 15 (zeroDecoder (sourceOf sofPayload420)) (by decide!)⟩

/-- C5 refuted at an explicit input: `processSOF` accepts a frame header whose
height and width fields are zero and stores width 0 and height 0. -/
theorem processSOF_zero_dims :
    (processSOF 9 (zeroDecoder (sourceOf sofPayloadZero))).err? = none ∧
    (processSOF 9 (zeroDecoder (sourceOf sofPayloadZero))).state.width = 0 ∧
    (processSOF 9 (zeroDecoder (sourceOf sofPayloadZero))).state.height = 0 := by
  decide!

/-- C5 (amended): after `processSOF` succeeds, the decoder's image width and
height each lie in [0, 65535]: they are the 16-bit big-endian values of payload
bytes 3..4 and 1..2, and zero is not rejected. -/
theorem processSOF_dims (n : Nat) (d : Decoder) (hok : (processSOF n d).err? = none) :
    (processSOF n d).state.width ≤ 65535 ∧ (processSOF n d).state.height ≤ 65535 ∧
    (processSOF n d).state.width
      = 256 * ((processSOF n d).state.tmp 3).val + ((processSOF n d).state.tmp 4).val ∧
    (processSOF n d).state.height
      = 256 * ((processSOF n d).state.tmp 1).val + ((processSOF n d).state.tmp 2).val := by
  obtain ⟨-, -, -, hw, hh⟩ := processSOF_ok n d hok
  rw [hw, hh]
  refine ⟨byte_pair_le _ _, byte_pair_le _ _, ?_, ?_⟩ <;> rw [Nat.shiftLeft_eq] <;> omega

/-- C5 (amended) at a 16 by 16 frame header read by the zero decoder. -/
theorem processSOF_dims_witness :
    (processSOF 15 (zeroDecoder (sourceOf sofPayload420))).err? = none ∧
    (processSOF 15 (zeroDecoder (sourceOf sofPayload420))).state.width ≤ 65535 ∧
    (processSOF 15 (zeroDecoder (sourceOf sofPayload420))).state.height ≤ 65535 ∧
    (processSOF 15 (zeroDecoder (sourceOf sofPayload420))).state.width
      = 256 * ((processSOF 15 (zeroDecoder (sourceOf sofPayload420))).state.tmp 3).val
        + ((processSOF 15 (zeroDecoder (sourceOf sofPayload420))).state.tmp 4).val ∧
    (processSOF 15 (zeroDecoder (sourceOf sofPayload420))).state.height
      = 256 * ((processSOF 15 (zeroDecoder (sourceOf sofPayload420))).state.tmp 1).val
        + ((processSOF 15 (zeroDecoder (sourceOf sofPayload420))).state.tmp 2).val :=
  ⟨by decide!, processSOF_dims 15 (zeroDecoder (sourceOf sofPayload420)) (by decide!)⟩


theorem sofLoop_append (a : Nat) : ∀ (b lo : Nat) (d : Decoder),
    sofLoop (a + b) lo d =
      match sofLoop a lo d with
      | .fail e d1 => .fail e d1
      | .ok _ d1 => sofLoop b (lo + a) d1 := by
  induction a with
  | zero => intro b lo d; simp [sofLoop]
  | succ a ih =>
    intro b lo d
    have e : a + 1 + b = (a + b) + 1 := by omega
    rw [e]
    simp only [sofLoop]
    cases h : sofComponent lo d with
    | fail e1 d1 => rfl
    | ok u d1 =>
      simp only
      rw [ih b (lo + 1) d1]
      have e2 : lo + 1 + a = lo + (a + 1) := by omega
      rw [e2]

/-- A component with a sampling factor 3 whose identifier is new and whose table
selector is in range makes its round of the component loop fail as unsupported. -/
theorem sofComponent_three (i : Nat) (d : Decoder)
    (hnew : ∀ j, j < i → (d.comp j).c ≠ (d.tmp (6 + 3 * i)).val)
    (htq : (d.tmp (8 + 3 * i)).val ≤ 3)
    (hh : 1 ≤ (d.tmp (7 + 3 * i)).val >>> 4 ∧ (d.tmp (7 + 3 * i)).val >>> 4 ≤ 4)
    (hv : 1 ≤ (d.tmp (7 + 3 * i)).val &&& 15 ∧ (d.tmp (7 + 3 * i)).val &&& 15 ≤ 4)
    (h3 : (d.tmp (7 + 3 * i)).val >>> 4 = 3 ∨ (d.tmp (7 + 3 * i)).val &&& 15 = 3) :
    (sofComponent i d).err? = some (.unsupported "luma/chroma subsampling ratio") := by
  unfold sofComponent
  simp only [upd_same, upd_upd, maxTq]
  have hrep : ¬ ((List.range i).any (fun j => decide ((d.tmp (6 + 3 * i)).val =
      (upd d.comp i ⟨(d.comp i).h, (d.comp i).v, (d.tmp (6 + 3 * i)).val, (d.comp i).tq⟩ j).c))
        = true) := by
    rw [List.any_eq_true]
    rintro ⟨j, hj, hdec⟩
    have hj' := List.mem_range.mp hj
    rw [upd_other _ _ _ _ (Nat.ne_of_lt hj')] at hdec
    exact hnew j hj' (of_decide_eq_true hdec).symm
  rw [if_neg hrep, if_neg (by omega), if_neg (by omega), if_pos h3]
  rfl

/-- C6: on the first SOF of a stream (`d.nComp = 0`), `processSOF` reports an
`UnsupportedError`, not a `FormatError`, (a) when the payload length is none of
9, 15, 18; (b) when the payload, at the head of the unread stream (byte buffer
consistent, no overshoot pending), has a precision byte other than 8; (c) when the header part and the components before `i` were accepted and
component `i` has a sampling factor 3 (both factors in 1..4), a new identifier
and a table selector of at most 3. -/
theorem processSOF_unsupported (n : Nat) (d : Decoder) (h0 : d.nComp = 0) :
    (n ≠ 9 ∧ n ≠ 15 ∧ n ≠ 18 →
      (processSOF n d).err? = some (.unsupported "number of components")) ∧
    (∀ (p rest : List Byte) (b : Byte), (n = 9 ∨ n = 15 ∨ n = 18) →
      d.bytes.i ≤ d.bytes.j → d.bytes.nUnreadable = 0 → d.stream = b :: p ++ rest →
      p.length + 1 = n → b.val ≠ 8 →
      (processSOF n d).err? = some (.unsupported "precision")) ∧
    (∀ i : Nat, (sofHeader n d).err? = none → i < (sofHeader n d).state.nComp →
      (sofLoop i 0 (sofHeader n d).state).err? = none →
      (∀ j, j < i → ((sofLoop i 0 (sofHeader n d).state).state.comp j).c
        ≠ ((sofHeader n d).state.tmp (6 + 3 * i)).val) →
      ((sofHeader n d).state.tmp (8 + 3 * i)).val ≤ 3 →
      (1 ≤ ((sofHeader n d).state.tmp (7 + 3 * i)).val >>> 4 ∧
        ((sofHeader n d).state.tmp (7 + 3 * i)).val >>> 4 ≤ 4) →
      (1 ≤ ((sofHeader n d).state.tmp (7 + 3 * i)).val &&& 15 ∧
        ((sofHeader n d).state.tmp (7 + 3 * i)).val &&& 15 ≤ 4) →
      (((sofHeader n d).state.tmp (7 + 3 * i)).val >>> 4 = 3 ∨
        ((sofHeader n d).state.tmp (7 + 3 * i)).val &&& 15 = 3) →
      (processSOF n d).err? = some (.unsupported "luma/chroma subsampling ratio")) := by
  refine ⟨?_, ?_, ?_⟩
  · intro hn
    have : sofNComp n = none := by
      unfold sofNComp
      rw [if_neg (by omega), if_neg (by omega), if_neg (by omega)]
    simp [processSOF, sofHeader, h0, this, Result.err?]
  · intro p rest b hn hle hnu hst hlen hb
    have hnc : ∃ nc, sofNComp n = some nc := by
      unfold sofNComp
      rcases hn with rfl | rfl | rfl <;> simp
    obtain ⟨nc, hnc⟩ := hnc
    obtain ⟨d0, g1, -, -, -, -⟩ := readFullTmp_ok n { d with nComp := nc } hle hnu
      (by
        have : ({ d with nComp := nc } : Decoder).stream = d.stream := rfl
        rw [this, hst]
        simp only [List.length_cons, List.length_append]
        omega)
    have hs : ({ d with nComp := nc } : Decoder).stream = b :: p ++ rest := hst
    have htake : (b :: p ++ rest).take n = b :: (p ++ rest).take (n - 1) := by
      obtain ⟨m, rfl⟩ : ∃ m, n = m + 1 := ⟨p.length, by omega⟩
      rfl
    rw [hs, htake] at g1
    simp only [processSOF, sofHeader, h0, ne_eq, not_true_eq_false, if_false, hnc, g1]
    have e0 : blit d.tmp 0 (b :: (p ++ rest).take (n - 1)) 0 = b := rfl
    have e0' : blit ({ d with nComp := nc } : Decoder).tmp 0 (b :: (p ++ rest).take (n - 1)) 0
        = b := rfl
    simp only [e0', hb, not_false_eq_true, if_true, Result.err?]
  · intro i hhead hi hloop hnew htq hh hv h3
    have e1 := Result.eq_ok_of_err_none hhead
    have e2 := Result.eq_ok_of_err_none hloop
    generalize (sofHeader n d).state = dh at *
    generalize (sofLoop i 0 dh).state = di at *
    obtain ⟨-, -, htmp, -, -⟩ := sofLoop_prefix i 0 dh di (sofPrefix_zero dh) e2
    have hfail := sofComponent_three i di (by rw [htmp]; exact hnew) (by rw [htmp]; exact htq)
      (by rw [htmp]; exact hh) (by rw [htmp]; exact hv) (by rw [htmp]; exact h3)
    obtain ⟨k, hk⟩ : ∃ k, dh.nComp = i + (k + 1) := ⟨dh.nComp - i - 1, by omega⟩
    unfold processSOF
    rw [e1]
    simp only
    rw [hk, sofLoop_append, e2]
    simp only [sofLoop, Nat.zero_add]
    cases hc : sofComponent i di with
    | fail e d2 =>
      rw [hc] at hfail
      exact hfail
    | ok u d2 =>
      rw [hc] at hfail
      exact Option.noConfusion hfail

/-- C6 at three frame headers read by the zero decoder: a payload of length 10,
a payload with precision 12, and a payload whose component 1 has sampling 3x1. -/
theorem processSOF_unsupported_witness :
    ((zeroDecoder (sourceOf sofPayload12)).nComp = 0 ∧ (10 ≠ 9 ∧ 10 ≠ 15 ∧ 10 ≠ 18) ∧
      (processSOF 10 (zeroDecoder (sourceOf sofPayload12))).err?
        = some (.unsupported "number of components")) ∧
    ((9 = 9 ∨ 9 = 15 ∨ 9 = 18) ∧
      (zeroDecoder (sourceOf sofPayload12)).stream
        = byte 12 :: bytesOf [0, 1, 0, 1, 1, 1, 0x11, 0] ++ [] ∧
      (byte 12).val ≠ 8 ∧
      (processSOF 9 (zeroDecoder (sourceOf sofPayload12))).err?
        = some (.unsupported "precision")) ∧
    ((sofHeader 15 (zeroDecoder (sourceOf sofPayloadH3))).err? = none ∧
      (sofLoop 1 0 (sofHeader 15 (zeroDecoder (sourceOf sofPayloadH3))).state).err? = none ∧
      ((sofHeader 15 (zeroDecoder (sourceOf sofPayloadH3))).state.tmp (7 + 3 * 1)).val >>> 4 = 3 ∧
      (processSOF 15 (zeroDecoder (sourceOf sofPayloadH3))).err?
        = some (.unsupported "luma/chroma subsampling ratio")) :=
  ⟨⟨rfl, by decide,
      (processSOF_unsupported 10 (zeroDecoder (sourceOf sofPayload12)) rfl).1 (by decide)⟩,
    ⟨by decide, by decide!, by decide,
      (processSOF_unsupported 9 (zeroDecoder (sourceOf sofPayload12)) rfl).2.1
        (bytesOf [0, 1, 0, 1, 1, 1, 0x11, 0]) [] (byte 12) (by decide) (by decide) rfl
        (by decide!) rfl (by decide)⟩,
    ⟨by decide!, by decide!, by decide!,
      (processSOF_unsupported 15 (zeroDecoder (sourceOf sofPayloadH3)) rfl).2.2 1
        (by decide!) (by decide!) (by decide!) (by decide!) (by decide!) (by decide!)
        (by decide!) (by decide!)⟩⟩


/-- The ratio `makeImg` selects for an accepted frame of three or four
components, as a function of the sampling factors of components 0 and 1. -/
theorem subsampleRatioOf_valid (d : Decoder) (hv : ComponentsValid d)
    (hn : d.nComp = 3 ∨ d.nComp = 4) :
    (d.comp 1).h ≠ 0 ∧ (d.comp 1).v ≠ 0 ∧
    ((d.comp 0).h / (d.comp 1).h, (d.comp 0).v / (d.comp 1).v,
        subsampleRatioOf ((d.comp 0).h / (d.comp 1).h) ((d.comp 0).v / (d.comp 1).v)) ∈
      [(1, 1, some SubsampleRatio.r444), (1, 2, some SubsampleRatio.r440),
       (2, 1, some SubsampleRatio.r422), (2, 2, some SubsampleRatio.r420),
       (4, 1, some SubsampleRatio.r411), (4, 2, some SubsampleRatio.r410)] := by
  obtain ⟨-, i2, i3, i4⟩ := hv
  rcases hn with hn | hn
  · obtain ⟨j0, ⟨k1, hk1⟩, ⟨k2, hk2⟩, -, -⟩ := i3 hn
    obtain ⟨a1, a2, -⟩ := i2 1 (by omega)
    generalize (d.comp 0).h = h0 at *
    generalize (d.comp 0).v = v0 at *
    generalize (d.comp 1).h = h1 at *
    generalize (d.comp 1).v = v1 at *
    simp only [List.mem_cons, Prod.mk.injEq, List.mem_singleton, List.not_mem_nil, or_false] at j0
    rcases j0 with ⟨rfl, rfl⟩ | ⟨rfl, rfl⟩ | ⟨rfl, rfl⟩ | ⟨rfl, rfl⟩ | ⟨rfl, rfl⟩ | ⟨rfl, rfl⟩ <;>
      rcases a1 with rfl | rfl | rfl <;> rcases a2 with rfl | rfl | rfl <;>
      first | omega | decide
  · obtain ⟨b1, b2, -, -, -, -, j0⟩ := i4 hn
    generalize (d.comp 0).h = h0 at *
    generalize (d.comp 0).v = v0 at *
    generalize (d.comp 1).h = h1 at *
    generalize (d.comp 1).v = v1 at *
    subst b1 b2
    simp only [Prod.mk.injEq] at j0
    rcases j0 with ⟨rfl, rfl⟩ | ⟨rfl, rfl⟩ <;> decide

/-- C7: for every frame of three or four components accepted by `processSOF`,
and every later decoder state `d1` with the same components, `makeImg` succeeds
(its `panic("unreachable")` branch is not taken) and the subsampling tag of the
image it allocates is given by the ratio `(h0/h1, v0/v1)` of component 0 to
component 1 as (1,1) -> 444, (1,2) -> 440, (2,1) -> 422, (2,2) -> 420,
(4,1) -> 411, (4,2) -> 410. -/
theorem makeImg_subsample (n : Nat) (d d1 : Decoder) (mxx myy : Nat)
    (hok : (processSOF n d).err? = none)
    (hn : (processSOF n d).state.nComp = 3 ∨ (processSOF n d).state.nComp = 4)
    (hn1 : d1.nComp = (processSOF n d).state.nComp)
    (hc1 : d1.comp = (processSOF n d).state.comp) :
    (makeImg mxx myy d1).err? = none ∧
    ((d1.comp 0).h / (d1.comp 1).h, (d1.comp 0).v / (d1.comp 1).v,
        (makeImg mxx myy d1).state.img3.map YCbCr.ratio) ∈
      [(1, 1, some SubsampleRatio.r444), (1, 2, some SubsampleRatio.r440),
       (2, 1, some SubsampleRatio.r422), (2, 2, some SubsampleRatio.r420),
       (4, 1, some SubsampleRatio.r411), (4, 2, some SubsampleRatio.r410)] := by
  have hvalid : ComponentsValid d1 := by
    have := componentsValid_of_prefix _ (processSOF_ok n d hok).2.2.1
    unfold ComponentsValid at this ⊢
    rw [hn1, hc1]
    exact this
  have hn' : d1.nComp = 3 ∨ d1.nComp = 4 := by rw [hn1]; exact hn
  obtain ⟨g1, g2, g3⟩ := subsampleRatioOf_valid d1 hvalid hn'
  have hne1 : d1.nComp ≠ 1 := by omega
  unfold makeImg
  simp only [hne1, if_false, g1, g2, or_self]
  cases hr : subsampleRatioOf ((d1.comp 0).h / (d1.comp 1).h) ((d1.comp 0).v / (d1.comp 1).v) with
  | none =>
    rw [hr] at g3
    simp at g3
  | some ratio =>
    rw [hr] at g3
    simp only
    have hrat : (newYCbCr (8 * (d1.comp 0).h * mxx) (8 * (d1.comp 0).v * myy) ratio
        d1.width d1.height).ratio = ratio := by
      unfold newYCbCr
      split <;> rfl
    split <;> simp only [Result.err?, Result.state, Option.map_some', hrat, true_and] <;> exact g3

/-- C7 at a 4:2:0 frame header read by the zero decoder. -/
theorem makeImg_subsample_witness :
    (processSOF 15 (zeroDecoder (sourceOf sofPayload420))).err? = none ∧
    ((processSOF 15 (zeroDecoder (sourceOf sofPayload420))).state.nComp = 3 ∨
      (processSOF 15 (zeroDecoder (sourceOf sofPayload420))).state.nComp = 4) ∧
    (makeImg 1 1 (processSOF 15 (zeroDecoder (sourceOf sofPayload420))).state).err? = none ∧
    (((processSOF 15 (zeroDecoder (sourceOf sofPayload420))).state.comp 0).h
        / ((processSOF 15 (zeroDecoder (sourceOf sofPayload420))).state.comp 1).h,
      ((processSOF 15 (zeroDecoder (sourceOf sofPayload420))).state.comp 0).v
        / ((processSOF 15 (zeroDecoder (sourceOf sofPayload420))).state.comp 1).v,
      (makeImg 1 1 (processSOF 15 (zeroDecoder (sourceOf sofPayload420))).state).state.img3.map
        YCbCr.ratio) ∈
      [(1, 1, some SubsampleRatio.r444), (1, 2, some SubsampleRatio.r440),
       (2, 1, some SubsampleRatio.r422), (2, 2, some SubsampleRatio.r420),
       (4, 1, some SubsampleRatio.r411), (4, 2, some SubsampleRatio.r410)] :=
  ⟨by decide!, by decide!,
    makeImg_subsample 15 (zeroDecoder (sourceOf sofPayload420))
      (processSOF 15 (zeroDecoder (sourceOf sofPayload420))).state 1 1 (by decide!) (by decide!)
      rfl rfl⟩


/-! ## `processDQT` (C8, C9) -/

theorem sameBytes_quant {a b : Decoder} (h : SameButBytes a b) : b.quant = a.quant :=
  show b.noBytes.quant = a.noBytes.quant from congrArg Decoder.quant h

theorem stream_with_quant (d : Decoder) (q : Nat → Block) :
    ({ d with quant := q } : Decoder).stream = d.stream := rfl

theorem stream_with_tmp (d : Decoder) (t : Nat → Byte) :
    ({ d with tmp := t } : Decoder).stream = d.stream := rfl

theorem byte_or (a b : Byte) : (a.val <<< 8) ||| b.val = 256 * a.val + b.val := by
  have hb : b.val < 2 ^ 8 := b.isLt
  rw [Nat.shiftLeft_eq, Nat.mul_comm, show (2:Nat) ^ 8 = 256 from rfl]
  exact (Nat.mul_add_lt_is_or hb a.val).symm

theorem dqt_header (pq tq : Nat) (hpq : pq ≤ 1) (htq : tq ≤ 3) :
    (byte (pq * 16 + tq)).val &&& 0x0f = tq ∧ (byte (pq * 16 + tq)).val >>> 4 = pq := by
  interval_cases pq <;> interval_cases tq <;> decide

theorem dqtPayload_cons (e : DqtEntry) (es : List DqtEntry) :
    dqtPayload (e :: es) = byte (e.pq * 16 + e.tq) :: (e.vals ++ dqtPayload es) := by
  simp [dqtPayload, DqtEntry.bytes]

theorem dqtLast_cons (e : DqtEntry) (es : List DqtEntry) (tq : Nat) :
    dqtLast (e :: es) tq = (dqtLast es tq).or (if e.tq = tq then some e else none) := by
  unfold dqtLast
  rw [List.reverse_cons, List.find?_append]
  congr 1
  simp only [List.find?_cons, List.find?_nil]
  by_cases h : e.tq = tq <;> simp [h]

/-- The loop of `processDQT` over a payload of complete entries. -/
theorem dqtLoop_entries (es : List DqtEntry) : ∀ (fuel : Nat) (d : Decoder) (rest : List Byte),
    (∀ e, e ∈ es → e.Complete) → d.bytes.i ≤ d.bytes.j →
    d.stream = dqtPayload es ++ rest → (dqtPayload es).length < fuel →
    ∃ d1, dqtLoop fuel (dqtPayload es).length d = .ok () d1 ∧ d1.stream = rest ∧
      d1.bytes.i ≤ d1.bytes.j ∧
      ∀ tq i, i < 64 → d1.quant tq i =
        match dqtLast es tq with
        | some e => e.value i
        | none => d.quant tq i := by
  induction es with
  | nil =>
    intro fuel d rest _ hle hst hfuel
    obtain ⟨f, rfl⟩ : ∃ f, fuel = f + 1 := ⟨fuel - 1, by omega⟩
    refine ⟨d, ?_, by simpa [dqtPayload] using hst, hle, ?_⟩
    · simp [dqtPayload, dqtLoop, dqtEnd]
    · intro tq i _
      simp [dqtLast]
  | cons e es ih =>
    intro fuel d rest hwf hle hst hfuel
    obtain ⟨f, rfl⟩ : ∃ f, fuel = f + 1 := ⟨fuel - 1, by omega⟩
    obtain ⟨htq, hpq⟩ := hwf e (List.mem_cons_self _ _)
    have hwf' : ∀ e', e' ∈ es → e'.Complete := fun e' h => hwf e' (List.mem_cons_of_mem _ h)
    have hpq1 : e.pq ≤ 1 := by rcases hpq with ⟨h, -⟩ | ⟨h, -⟩ <;> omega
    obtain ⟨hx1, hx2⟩ := dqt_header e.pq e.tq hpq1 htq
    rw [dqtPayload_cons] at hst hfuel ⊢
    simp only [List.length_cons, List.length_append] at hfuel ⊢
    obtain ⟨d1, r1, r2, r3, r4, r5⟩ := readByte_cons d hle (byte (e.pq * 16 + e.tq))
      (e.vals ++ dqtPayload es ++ rest) (by rw [hst]; simp)
    have hq1 : d1.quant = d.quant := sameBytes_quant r2
    have ht1 : d1.tmp = d.tmp := sameBytes_tmp r2
    unfold dqtLoop
    rw [if_pos (by omega), r1]
    simp only [hx1, hx2, maxTq]
    rw [if_neg (by omega)]
    rcases hpq with ⟨hp, hlen⟩ | ⟨hp, hlen⟩
    · -- an 8-bit table
      simp only [hp, blockSize]
      rw [if_neg (by omega)]
      obtain ⟨d2, s1, s2, s3, s4, s5⟩ := readFullTmp_ok 64 d1 r4 r5
        (by rw [r3]; simp only [List.length_append]; omega)
      rw [s1]
      simp only
      have htake : List.take 64 d1.stream = e.vals := by
        rw [r3, List.append_assoc, List.take_left' hlen]
      have hdrop : List.drop 64 d1.stream = dqtPayload es ++ rest := by
        rw [r3, List.append_assoc, List.drop_left' hlen]
      rw [htake]
      have hq2 : d2.quant = d.quant := by rw [← hq1]; exact sameBytes_quant s2
      obtain ⟨d3, t1, t2, t3, t5⟩ := ih f
        { d2 with
          tmp := blit d1.tmp 0 e.vals
          quant := upd d2.quant e.tq (fun i =>
            if i < 64 then ((blit d1.tmp 0 e.vals i).val : Int) else d2.quant e.tq i) }
        rest hwf' s4 (by rw [← hdrop]; exact s3) (by omega)
      have hn : e.vals.length + (dqtPayload es).length + 1 - 1 - 64 = (dqtPayload es).length := by
        omega
      rw [hn]
      refine ⟨d3, t1, t2, t3, ?_⟩
      intro tq i hi
      rw [t5 tq i hi, dqtLast_cons]
      cases hl : dqtLast es tq with
      | some e' => rfl
      | none =>
        simp only [Option.or_none, Option.none_or]
        by_cases htqe : e.tq = tq
        · subst htqe
          simp only [if_true, upd_same, hi, DqtEntry.value, hp]
          rw [blit_zero_lt _ _ _ (by omega), List.getD_eq_getElem _ _ (by omega)]
        · simp only [htqe, if_false]
          rw [upd_other _ _ _ _ (Ne.symm htqe), hq2]
    · -- a 16-bit table
      simp only [hp, blockSize]
      rw [if_neg (by omega)]
      obtain ⟨d2, s1, s2, s3, s4, s5⟩ := readFullTmp_ok (2 * 64) d1 r4 r5
        (by rw [r3]; simp only [List.length_append]; omega)
      rw [s1]
      simp only
      have htake : List.take (2 * 64) d1.stream = e.vals := by
        rw [r3, List.append_assoc, List.take_left' hlen]
      have hdrop : List.drop (2 * 64) d1.stream = dqtPayload es ++ rest := by
        rw [r3, List.append_assoc, List.drop_left' hlen]
      rw [htake]
      have hq2 : d2.quant = d.quant := by rw [← hq1]; exact sameBytes_quant s2
      obtain ⟨d3, t1, t2, t3, t5⟩ := ih f
        { d2 with
          tmp := blit d1.tmp 0 e.vals
          quant := upd d2.quant e.tq (fun i =>
            if i < 64 then
              ((((blit d1.tmp 0 e.vals (2 * i)).val <<< 8) |||
                (blit d1.tmp 0 e.vals (2 * i + 1)).val : Nat) : Int)
            else d2.quant e.tq i) }
        rest hwf' s4 (by rw [← hdrop]; exact s3) (by omega)
      have hn : e.vals.length + (dqtPayload es).length + 1 - 1 - 2 * 64
          = (dqtPayload es).length := by omega
      rw [hn]
      refine ⟨d3, t1, t2, t3, ?_⟩
      intro tq i hi
      rw [t5 tq i hi, dqtLast_cons]
      cases hl : dqtLast es tq with
      | some e' => rfl
      | none =>
        simp only [Option.or_none, Option.none_or]
        by_cases htqe : e.tq = tq
        · subst htqe
          simp only [if_true, upd_same, hi, DqtEntry.value, hp, one_ne_zero, if_false, byte_or]
          rw [blit_zero_lt _ _ _ (by omega), blit_zero_lt _ _ _ (by omega),
            List.getD_eq_getElem _ _ (by omega), List.getD_eq_getElem _ _ (by omega)]
        · simp only [htqe, if_false]
          rw [upd_other _ _ _ _ (Ne.symm htqe), hq2]


/-- C8: for every DQT payload that is a concatenation of complete entries, at
the head of the unread stream of a decoder with a consistent byte buffer
(`i ≤ j`), `processDQT` succeeds and consumes exactly the payload; afterwards, for every
table `tq` named by an entry, `quant[tq][i]` (`i` in 0..63) is the value carried
by the last entry for that `tq` (byte `i` for `Pq = 0`, `256 * byte(2i) +
byte(2i+1)` for `Pq = 1`), and the tables that no entry names are unchanged. -/
theorem processDQT_tables (es : List DqtEntry) (d : Decoder) (rest : List Byte)
    (hwf : ∀ e, e ∈ es → e.Complete) (hle : d.bytes.i ≤ d.bytes.j)
    (hst : d.stream = dqtPayload es ++ rest) :
    (processDQT (dqtPayload es).length d).err? = none ∧
    (processDQT (dqtPayload es).length d).state.stream = rest ∧
    ∀ tq i, i < 64 → (processDQT (dqtPayload es).length d).state.quant tq i =
      match dqtLast es tq with
      | some e => e.value i
      | none => d.quant tq i := by
  obtain ⟨d1, h1, h2, -, h5⟩ := dqtLoop_entries es ((dqtPayload es).length + 1) d rest hwf hle
    hst (by omega)
  unfold processDQT
  rw [h1]
  exact ⟨rfl, h2, h5⟩

/-- C8 at a payload of an 8-bit table 1 and a 16-bit table 2, handed over in
reads of 100 bytes, with two more bytes behind it. -/
theorem processDQT_tables_witness :
    (∀ e, e ∈ dqtSample → e.Complete) ∧
    (zeroDecoder { rest := dqtPayload dqtSample ++ [byte 0xff, byte 0xd9],
                   chunks := [100, 100] }).bytes.i
      ≤ (zeroDecoder { rest := dqtPayload dqtSample ++ [byte 0xff, byte 0xd9],
                       chunks := [100, 100] }).bytes.j ∧
    (zeroDecoder { rest := dqtPayload dqtSample ++ [byte 0xff, byte 0xd9],
                   chunks := [100, 100] }).stream
      = dqtPayload dqtSample ++ [byte 0xff, byte 0xd9] ∧
    (processDQT (dqtPayload dqtSample).length
      (zeroDecoder { rest := dqtPayload dqtSample ++ [byte 0xff, byte 0xd9],
                     chunks := [100, 100] })).err? = none ∧
    (processDQT (dqtPayload dqtSample).length
      (zeroDecoder { rest := dqtPayload dqtSample ++ [byte 0xff, byte 0xd9],
                     chunks := [100, 100] })).state.stream = [byte 0xff, byte 0xd9] ∧
    ∀ tq i, i < 64 →
      (processDQT (dqtPayload dqtSample).length
        (zeroDecoder { rest := dqtPayload dqtSample ++ [byte 0xff, byte 0xd9],
                       chunks := [100, 100] })).state.quant tq i =
      match dqtLast dqtSample tq with
      | some e => e.value i
      | none => (zeroDecoder { rest := dqtPayload dqtSample ++ [byte 0xff, byte 0xd9],
                               chunks := [100, 100] }).quant tq i :=
  ⟨by decide!, by decide, rfl,
    processDQT_tables dqtSample
      (zeroDecoder { rest := dqtPayload dqtSample ++ [byte 0xff, byte 0xd9],
                     chunks := [100, 100] })
      [byte 0xff, byte 0xd9] (by decide!) (by decide) rfl⟩

theorem noReader_quant {a b : Decoder} (h : a.noReader = b.noReader) : a.quant = b.quant :=
  show a.noReader.quant = b.noReader.quant from congrArg Decoder.quant h

theorem readByte_frame (d : Decoder) : (readByte d).state.noReader = d.noReader := by
  unfold readByte
  simp only [readByteLoop]
  split
  · have hf := fill_frame d
    split
    · rename_i e d1 heq
      rw [heq] at hf; exact hf
    · rename_i u d1 heq
      rw [heq] at hf
      split
      · have hf2 := fill_frame d1
        split
        · rename_i e d2 heq2
          rw [heq2] at hf2
          exact hf2.trans hf
        · rename_i u2 d2 heq2
          rw [heq2] at hf2
          exact hf2.trans hf
      · exact hf
  · rfl

/-- Every table is either untouched or holds 64 values of at most 16 bits after
a successful run of the loop of `processDQT`. -/
theorem dqtLoop_range (fuel : Nat) : ∀ (n : Nat) (d d1 : Decoder),
    dqtLoop fuel n d = .ok () d1 →
    ∀ tq, (∀ i, i < 64 → d1.quant tq i = d.quant tq i) ∨
      (∀ i, i < 64 → 0 ≤ d1.quant tq i ∧ d1.quant tq i ≤ 65535) := by
  induction fuel with
  | zero => intro n d d1 h; exact Result.noConfusion h
  | succ fuel ih =>
    intro n d d1 h tq
    unfold dqtLoop at h
    have hend : ∀ (m : Nat) (a b : Decoder), dqtEnd m a = .ok () b → b = a := by
      intro m a b hab
      unfold dqtEnd at hab
      split at hab
      · exact Result.noConfusion hab
      · simp only [Result.ok.injEq, true_and] at hab; exact hab.symm
    split at h
    · have hfr := readByte_frame d
      split at h
      · exact Result.noConfusion h
      rename_i x d2 heq
      rw [heq] at hfr
      have hq2 : d2.quant = d.quant := noReader_quant hfr
      simp only at h
      split at h
      · exact Result.noConfusion h
      split at h
      · -- Pq = 0
        split at h
        · rw [hend _ _ _ h, hq2]; exact Or.inl (fun _ _ => rfl)
        · have hfr3 := readFullTmp_frame blockSize d2
          split at h
          · exact Result.noConfusion h
          rename_i u d3 heq3
          rw [heq3] at hfr3
          have hq3 : d3.quant = d.quant := by rw [← hq2]; exact noReader_quant hfr3
          rcases ih _ _ _ h tq with hsame | hrange
          · by_cases htq : tq = (x.val &&& 0x0f)
            · right
              intro i hi
              rw [hsame i hi]
              simp only [htq, upd_same, blockSize, hi, if_true]
              have := (d3.tmp i).isLt
              omega
            · left
              intro i hi
              rw [hsame i hi]
              simp only [upd_other _ _ _ _ htq, hq3]
          · exact Or.inr hrange
      · -- Pq = 1
        split at h
        · rw [hend _ _ _ h, hq2]; exact Or.inl (fun _ _ => rfl)
        · have hfr3 := readFullTmp_frame (2 * blockSize) d2
          split at h
          · exact Result.noConfusion h
          rename_i u d3 heq3
          rw [heq3] at hfr3
          have hq3 : d3.quant = d.quant := by rw [← hq2]; exact noReader_quant hfr3
          rcases ih _ _ _ h tq with hsame | hrange
          · by_cases htq : tq = (x.val &&& 0x0f)
            · right
              intro i hi
              rw [hsame i hi]
              simp only [htq, upd_same, blockSize, hi, if_true, byte_or]
              have := (d3.tmp (2 * i)).isLt
              have := (d3.tmp (2 * i + 1)).isLt
              omega
            · left
              intro i hi
              rw [hsame i hi]
              simp only [upd_other _ _ _ _ htq, hq3]
          · exact Or.inr hrange
      · exact Result.noConfusion h
    · rw [hend _ _ _ h]; exact Or.inl (fun _ _ => rfl)

/-- C9 refuted at an explicit input: from a decoder whose tables hold 1
everywhere, `processDQT` accepts an 8-bit table 0 of 64 zero bytes and stores a
table whose entries are 0. -/
theorem processDQT_zero_entry :
    (processDQT 65 (onesDecoder (sourceOf dqtZeros))).err? = none ∧
    (processDQT 65 (onesDecoder (sourceOf dqtZeros))).state.quant 0 0 = 0 ∧
    ¬ (1 ≤ (processDQT 65 (onesDecoder (sourceOf dqtZeros))).state.quant 0 0) := by
  decide!

/-- C9 (amended): every quantization table stored by a successful `processDQT`
consists of 64 integers between 0 and 65535 (zero entries are not rejected);
every table is either left as it was or holds such values. -/
theorem processDQT_range (n : Nat) (d : Decoder) (hok : (processDQT n d).err? = none) :
    ∀ tq, (∀ i, i < 64 → (processDQT n d).state.quant tq i = d.quant tq i) ∨
      (∀ i, i < 64 → 0 ≤ (processDQT n d).state.quant tq i ∧
        (processDQT n d).state.quant tq i ≤ 65535) :=
  dqtLoop_range (n + 1) n d _ (Result.eq_ok_of_err_none hok)

/-- C9 (amended) at the payload of 64 zero bytes for table 0. -/
theorem processDQT_range_witness :
    (processDQT 65 (onesDecoder (sourceOf dqtZeros))).err? = none ∧
    ∀ tq, (∀ i, i < 64 → (processDQT 65 (onesDecoder (sourceOf dqtZeros))).state.quant tq i
        = (onesDecoder (sourceOf dqtZeros)).quant tq i) ∨
      (∀ i, i < 64 → 0 ≤ (processDQT 65 (onesDecoder (sourceOf dqtZeros))).state.quant tq i ∧
        (processDQT 65 (onesDecoder (sourceOf dqtZeros))).state.quant tq i ≤ 65535) :=
  ⟨by decide!, processDQT_range 65 (onesDecoder (sourceOf dqtZeros)) (by decide!)⟩


/-! ## `processDHT` header checks (C10) -/

theorem stream_setHuff (d : Decoder) (tc th : Nat) (h : Huffman) :
    (setHuff d tc th h).stream = d.stream := rfl

theorem dht_counts (t : Nat → Byte) (b0 : Byte) (counts : List Byte) (hlen : counts.length = 16) :
    (List.range maxCodeLength).map (fun i => (blit t 0 (b0 :: counts) (i + 1)).val)
      = counts.map (fun b => b.val) := by
  apply List.ext_getElem
  · simp [maxCodeLength, hlen]
  · intro k h1 h2
    simp only [List.length_map, List.length_range, maxCodeLength] at h1
    simp only [List.getElem_map, List.getElem_range]
    rw [blit_zero_lt _ _ _ (by simp only [List.length_cons]; omega)]
    simp

/-- A table header with a bad class, destination or total count makes the round
of the loop of `processDHT` that reads it fail, with only the 17 header bytes
consumed. -/
theorem dhtLoop_rejects (fuel n : Nat) (d : Decoder) (b0 : Byte) (counts rest : List Byte)
    (hle : d.bytes.i ≤ d.bytes.j) (hnu : d.bytes.nUnreadable = 0) (hn : 17 ≤ n)
    (hlen : counts.length = 16) (hst : d.stream = b0 :: counts ++ rest)
    (hbad : b0.val >>> 4 > 1 ∨ b0.val &&& 0x0f > 3 ∨
      (d.progressive = false ∧ b0.val &&& 0x0f > 1) ∨
      (counts.map (fun b => b.val)).sum = 0 ∨ (counts.map (fun b => b.val)).sum > 256) :
    (dhtLoop (fuel + 1) n d).err? ∈ dhtHeaderErrors ∧
    (dhtLoop (fuel + 1) n d).state.stream = rest := by
  obtain ⟨d0, h1, h2, h3, h4, h5⟩ := readFullTmp_ok 17 d hle hnu
    (by rw [hst]; simp only [List.length_cons, List.length_append]; omega)
  have htake : List.take 17 d.stream = b0 :: counts := by
    rw [hst]
    exact List.take_left' (by simp only [List.length_cons]; omega)
  have hdrop : List.drop 17 d.stream = rest := by
    rw [hst]
    exact List.drop_left' (by simp only [List.length_cons]; omega)
  rw [htake] at h1
  rw [hdrop] at h3
  have hprog : d0.progressive = d.progressive :=
    show d0.noBytes.progressive = d.noBytes.progressive from congrArg Decoder.progressive h2
  unfold dhtLoop
  rw [if_pos (by omega), if_neg (by omega), h1]
  have e0 : blit d.tmp 0 (b0 :: counts) 0 = b0 := rfl
  simp only [e0, maxTc, maxTh, dht_counts _ _ _ hlen, maxNCodes, hprog]
  by_cases c1 : b0.val >>> 4 > 1
  · rw [if_pos c1]
    exact ⟨by simp [Result.err?, dhtHeaderErrors], h3⟩
  rw [if_neg c1]
  by_cases c2 : b0.val &&& 0x0f > 3 ∨ (d.progressive = false ∧ b0.val &&& 0x0f > 1)
  · rw [if_pos c2]
    exact ⟨by simp [Result.err?, dhtHeaderErrors], h3⟩
  rw [if_neg c2]
  by_cases c3 : (counts.map (fun b => b.val)).sum = 0
  · rw [if_pos c3]
    exact ⟨by simp [Result.err?, dhtHeaderErrors], h3⟩
  rw [if_neg c3]
  have c4 : (counts.map (fun b => b.val)).sum > 256 := by
    rcases hbad with h | h | h | h | h
    · exact absurd h c1
    · exact absurd (Or.inl h) c2
    · exact absurd (Or.inr h) c2
    · exact absurd h c3
    · exact h
  rw [if_pos c4]
  exact ⟨by simp [Result.err?, dhtHeaderErrors], h3⟩

/-- C10: called as `decode` calls it (byte buffer consistent, `i ≤ j`, and no
overshoot pending, `nUnreadable = 0`) on a segment of at least 17 bytes,
`processDHT` returns a `FormatError` for a table entry whose class
nibble `Tc` is greater than 1, whose destination nibble `Th` is greater than 3,
whose `Th` is greater than 1 when the frame is not progressive, or whose sixteen
counts sum to 0 or to more than 256; it fails with the stream right after the
17 header bytes, so before any of the entry's value bytes is read.  This holds
for the first entry of a segment (`processDHT n d`) and for the entry at the
head of any later round of the loop (`dhtLoop (fuel + 1) n d`). -/
theorem processDHT_rejects (n : Nat) (d : Decoder) (b0 : Byte) (counts rest : List Byte)
    (hle : d.bytes.i ≤ d.bytes.j) (hnu : d.bytes.nUnreadable = 0) (hn : 17 ≤ n)
    (hlen : counts.length = 16) (hst : d.stream = b0 :: counts ++ rest)
    (hbad : b0.val >>> 4 > 1 ∨ b0.val &&& 0x0f > 3 ∨
      (d.progressive = false ∧ b0.val &&& 0x0f > 1) ∨
      (counts.map (fun b => b.val)).sum = 0 ∨ (counts.map (fun b => b.val)).sum > 256) :
    ((processDHT n d).err? ∈ dhtHeaderErrors ∧ (processDHT n d).state.stream = rest) ∧
    ∀ fuel, (dhtLoop (fuel + 1) n d).err? ∈ dhtHeaderErrors ∧
      (dhtLoop (fuel + 1) n d).state.stream = rest :=
  ⟨dhtLoop_rejects n n d b0 counts rest hle hnu hn hlen hst hbad,
    fun fuel => dhtLoop_rejects fuel n d b0 counts rest hle hnu hn hlen hst hbad⟩

/-- C10 at a segment of 19 bytes whose header has class nibble 2. -/
theorem processDHT_rejects_witness :
    (zeroDecoder (sourceOf dhtBadTc)).bytes.i ≤ (zeroDecoder (sourceOf dhtBadTc)).bytes.j ∧
    (zeroDecoder (sourceOf dhtBadTc)).bytes.nUnreadable = 0 ∧ 17 ≤ 19 ∧
    (bytesOf [1, 0, 0, 0, 0, 0, 0, 0, 0, 0, 0, 0, 0, 0, 0, 0]).length = 16 ∧
    (zeroDecoder (sourceOf dhtBadTc)).stream
      = byte 0x20 :: bytesOf [1, 0, 0, 0, 0, 0, 0, 0, 0, 0, 0, 0, 0, 0, 0, 0] ++ bytesOf [7, 9] ∧
    (byte 0x20).val >>> 4 > 1 ∧
    ((processDHT 19 (zeroDecoder (sourceOf dhtBadTc))).err? ∈ dhtHeaderErrors ∧
      (processDHT 19 (zeroDecoder (sourceOf dhtBadTc))).state.stream = bytesOf [7, 9]) ∧
    ∀ fuel, (dhtLoop (fuel + 1) 19 (zeroDecoder (sourceOf dhtBadTc))).err? ∈ dhtHeaderErrors ∧
      (dhtLoop (fuel + 1) 19 (zeroDecoder (sourceOf dhtBadTc))).state.stream = bytesOf [7, 9] :=
  ⟨by decide, rfl, by decide, rfl, rfl, by decide,
    processDHT_rejects 19 (zeroDecoder (sourceOf dhtBadTc)) (byte 0x20)
      (bytesOf [1, 0, 0, 0, 0, 0, 0, 0, 0, 0, 0, 0, 0, 0, 0, 0]) (bytesOf [7, 9])
      (by decide) rfl (by decide) rfl rfl (Or.inl (by decide))⟩


/-! ## The zig-zag table -/

/-- C17: the table `unzig` is a permutation of 0..63: its 64 entries lie in
0..63 and are pairwise different, and `zigOf` is its inverse table on both
sides. -/
theorem unzig_permutation :
    unzigTable.length = 64 ∧
    (∀ z : Fin 64, unzig z.val < 64) ∧
    (∀ a b : Fin 64, unzig a.val = unzig b.val → a = b) ∧
    (∀ i : Fin 64, zigOf i.val < 64 ∧ unzig (zigOf i.val) = i.val) ∧
    (∀ z : Fin 64, zigOf (unzig z.val) = z.val) := by
  refine ⟨by decide, by decide, ?_, by decide, by decide⟩
  have hz : ∀ z : Fin 64, zigOf (unzig z.val) = z.val := by decide
  intro a b h
  have ha := hz a
  have hb := hz b
  apply Fin.ext
  rw [← ha, ← hb, h]

/-! ## Rounding division -/

theorem int_shiftRight_cast (m : Int) (n : Nat) : m >>> (n : Int) = m >>> n := by
  cases m <;> cases n <;> rfl

theorem int_shiftRight_div (m : Int) (n : Nat) : m >>> (n : Int) = m / 2 ^ n := by
  rw [int_shiftRight_cast, Int.shiftRight_eq_div_pow]; norm_cast

theorem int_shiftRight_one (b : Int) : b >>> 1 = b / 2 := by
  have := int_shiftRight_div b 1
  simpa using this

theorem i32_of_range (x : Int) (h1 : -2147483648 ≤ x) (h2 : x ≤ 2147483647) : i32 x = x := by
  unfold i32; omega

/-- For `x ≥ 0` and `b > 0`, the quotient `(x + b/2) / b` is `x / b` rounded
half up. -/
theorem half_up_quotient (x b : Int) (hx : 0 ≤ x) (hb : 0 < b) :
    (x + b / 2) / b = (2 * x + b) / (2 * b) ∧
    2 * |x - b * ((x + b / 2) / b)| ≤ b ∧ 0 ≤ (x + b / 2) / b ∧
    (x + b / 2) / b ≤ x + b / 2 ∧
    (2 * |x - b * ((x + b / 2) / b)| = b → x < b * ((x + b / 2) / b)) := by
  have h1 := Int.emod_add_ediv (x + b / 2) b
  have h2 := Int.emod_nonneg (x + b / 2) (ne_of_gt hb)
  have h3 := Int.emod_lt_of_pos (x + b / 2) hb
  set q := (x + b / 2) / b with hq
  set r := (x + b / 2) % b with hr
  set bq := b * q with hbq
  have hq0 : 0 ≤ q := Int.ediv_nonneg (by omega) (le_of_lt hb)
  have hqle : q ≤ x + b / 2 := by
    have : q * 1 ≤ q * b := by
      apply mul_le_mul_of_nonneg_left _ hq0
      omega
    rw [mul_comm q b] at this
    omega
  refine ⟨?_, ?_, hq0, hqle, ?_⟩
  · symm
    have : (2 * x + b) / (2 * b) = q ∧ (2 * x + b) % (2 * b) = 2 * r + (b - 2 * (b / 2)) := by
      rw [Int.ediv_emod_unique (by omega)]
      refine ⟨?_, by omega, by omega⟩
      have : 2 * b * q = 2 * bq := by rw [hbq]; ring
      omega
    exact this.1
  · rcases abs_cases (x - bq) with ⟨h, _⟩ | ⟨h, _⟩ <;> rw [h] <;> omega
  · rcases abs_cases (x - bq) with ⟨h, _⟩ | ⟨h, _⟩ <;> rw [h] <;> omega

theorem div_of_nonneg (a b : Int) (ha : 0 ≤ a) (hb : 0 < b) (hov : a + b / 2 ≤ 2147483647) :
    div a b = some ((a + b / 2) / b) := by
  have hq := half_up_quotient a b ha hb
  have hs : b >>> 1 = b / 2 := int_shiftRight_one b
  unfold div
  rw [if_neg (ne_of_gt hb), if_pos ha, hs, i32_of_range _ (by omega) hov,
    Int.tdiv_eq_ediv (by omega) (le_of_lt hb), i32_of_range _ (by omega) (by omega)]

theorem div_of_neg (a b : Int) (ha : a < 0) (hb : 0 < b) (hov : -a + b / 2 ≤ 2147483647) :
    div a b = some (-((-a + b / 2) / b)) := by
  have hq := half_up_quotient (-a) b (by omega) hb
  have hs : b >>> 1 = b / 2 := int_shiftRight_one b
  unfold div
  rw [if_neg (ne_of_gt hb), if_neg (by omega), hs, i32_of_range (-a) (by omega) (by omega),
    i32_of_range _ (by omega) hov,
    Int.tdiv_eq_ediv (by omega) (le_of_lt hb), i32_of_range ((-a + b / 2) / b) (by omega) (by omega),
    i32_of_range _ (by omega) (by omega)]

/-- C19: for `int32` values `a` and `b > 0` with `|a| + b/2` within `int32`,
`div(a, b)` returns `a / b` rounded to the nearest integer, ties away from zero:
the result `q` has `2 * |a - b*q| ≤ b`, in a tie `|b*q| > |a|`, `q` is the
magnitude `|a| / b` rounded half up with the sign of `a`, and
`div(-a, b) = -div(a, b)`. -/
theorem div_rounds (a b : Int) (ha : -2147483648 ≤ a ∧ a ≤ 2147483647)
    (hb : 0 < b ∧ b ≤ 2147483647) (hov : |a| + b / 2 ≤ 2147483647) :
    ∃ q, div a b = some q ∧ 2 * |a - b * q| ≤ b ∧
      (2 * |a - b * q| = b → |a| < |b * q|) ∧
      q = roundHalfAway a b ∧ div (-a) b = some (-q) := by
  rcases lt_trichotomy a 0 with hneg | hzero | hpos
  · have habs : |a| = -a := abs_of_neg hneg
    rw [habs] at hov
    have hq := half_up_quotient (-a) b (by omega) hb.1
    refine ⟨_, div_of_neg a b hneg hb.1 hov, ?_, ?_, ?_, ?_⟩
    · have e : a - b * -((-a + b / 2) / b) = -(-a - b * ((-a + b / 2) / b)) := by ring
      rw [e, abs_neg]; exact hq.2.1
    · have e : a - b * -((-a + b / 2) / b) = -(-a - b * ((-a + b / 2) / b)) := by ring
      rw [e, abs_neg, habs]
      intro h
      have := hq.2.2.2.2 h
      have e2 : b * -((-a + b / 2) / b) = -(b * ((-a + b / 2) / b)) := by ring
      rw [e2, abs_neg, abs_of_nonneg (mul_nonneg (le_of_lt hb.1) hq.2.2.1)]
      exact this
    · unfold roundHalfAway
      rw [habs, Int.sign_eq_neg_one_of_neg hneg, hq.1]; ring
    · rw [div_of_nonneg (-a) b (by omega) hb.1 hov]
      simp
  · subst hzero
    have hq := half_up_quotient 0 b (le_refl _) hb.1
    simp only [abs_zero, zero_add] at hov
    have hz : (0 + b / 2) / b = 0 := by
      apply Int.ediv_eq_zero_of_lt <;> omega
    refine ⟨0, ?_, ?_, ?_, ?_, ?_⟩
    · rw [div_of_nonneg 0 b (le_refl _) hb.1 (by omega), hz]
    · simp; omega
    · simp; omega
    · unfold roundHalfAway; simp
    · simp only [neg_zero]
      rw [div_of_nonneg 0 b (le_refl _) hb.1 (by omega), hz]
  · have habs : |a| = a := abs_of_pos hpos
    rw [habs] at hov
    have hq := half_up_quotient a b (by omega) hb.1
    refine ⟨_, div_of_nonneg a b (le_of_lt hpos) hb.1 hov, hq.2.1, ?_, ?_, ?_⟩
    · rw [habs, abs_of_nonneg (mul_nonneg (le_of_lt hb.1) hq.2.2.1)]
      exact hq.2.2.2.2
    · unfold roundHalfAway
      rw [habs, Int.sign_eq_one_of_pos hpos, hq.1]; ring
    · rw [div_of_neg (-a) b (by omega) hb.1 (by rw [neg_neg]; exact hov), neg_neg]

theorem div_rounds_witness :
    ((-2147483648 : Int) ≤ -7 ∧ (-7 : Int) ≤ 2147483647) ∧ ((0 : Int) < 2 ∧ (2 : Int) ≤ 2147483647) ∧
    |(-7 : Int)| + 2 / 2 ≤ 2147483647 ∧
    ∃ q, div (-7) 2 = some q ∧ 2 * |(-7 : Int) - 2 * q| ≤ 2 ∧
      (2 * |(-7 : Int) - 2 * q| = 2 → |(-7 : Int)| < |2 * q|) ∧
      q = roundHalfAway (-7) 2 ∧ div (- -7) 2 = some (-q) :=
  ⟨by decide, by decide, by decide, div_rounds (-7) 2 (by decide) (by decide) (by decide)⟩

/-! ## Encoder quantization tables -/

theorem foldl_upd_range {α : Type} (f : Nat → α) (n : Nat) (r : Nat → α) (j : Nat) :
    (List.range n).foldl (fun r j => upd r j (f j)) r j = if j < n then f j else r j := by
  induction n with
  | zero => simp
  | succ n ih =>
    rw [List.range_succ, List.foldl_append]
    simp only [List.foldl_cons, List.foldl_nil]
    show (if j = n then f n else (List.range n).foldl (fun r j => upd r j (f j)) r j) = _
    rw [ih]
    by_cases h : j = n
    · subst h; simp
    · by_cases h2 : j < n
      · simp [h, h2, Nat.lt_succ_of_lt h2]
      · have : ¬ j < n + 1 := by omega
        simp [h, h2, this]

theorem initQuant_entry (scale : Int) (q : Nat → Nat → Nat) (i j : Nat) (hi : i < 2) (hj : j < 64) :
    initQuant scale q i j = scaleQuant scale (unscaledQuant i j) := by
  unfold initQuant nQuantIndex
  have : (List.range 2).foldl (fun q i => upd q i (initQuantRow scale i (q i))) q
      = upd (upd q 0 (initQuantRow scale 0 (q 0))) 1 (initQuantRow scale 1 (upd q 0 (initQuantRow scale 0 (q 0)) 1)) := rfl
  rw [this]
  unfold initQuantRow blockSize
  have hi' : i = 0 ∨ i = 1 := by omega
  rcases hi' with h | h <;> subst h <;> simp [upd, foldl_upd_range, hj]

theorem clipQuality_range (o : Option Int) : 1 ≤ clipQuality o ∧ clipQuality o ≤ 100 := by
  unfold clipQuality DefaultQuality
  cases o with
  | none => simp
  | some q => 
    simp only
    split_ifs <;> omega

theorem scaleQuant_spec (quality : Int) (hq : 1 ≤ quality ∧ quality ≤ 100) (u : Nat) :
    scaleQuant (qualityScale quality) u = specQuant quality.toNat u := by
  obtain ⟨k, rfl⟩ : ∃ k : Nat, quality = k := ⟨quality.toNat, by omega⟩
  simp only [Int.toNat_ofNat]
  have hk : 1 ≤ k ∧ k ≤ 100 := by omega
  have hs : qualityScale (k : Int) = (specScale k : Nat) := by
    unfold qualityScale specScale
    by_cases h : k < 50
    · have h' : (k : Int) < 50 := by omega
      rw [if_pos h, if_pos h', Int.tdiv_eq_ediv (by norm_num) (by omega)]
      norm_cast
    · have h' : ¬ (k : Int) < 50 := by omega
      rw [if_neg h, if_neg h']
      omega
  rw [hs]
  unfold scaleQuant specQuant u8
  have e : Int.tdiv ((u : Int) * (specScale k : Nat) + 50) 100 = (((u * specScale k + 50) / 100 : Nat) : Int) := by
    rw [Int.tdiv_eq_ediv (by positivity) (by norm_num)]
    norm_cast
  simp only [e]
  generalize (u * specScale k + 50) / 100 = x
  split_ifs <;> omega

/-- C18: for every requested quality, clipped by `Encode` to `q` in 1..100,
and each of the 64 entries `u` of the two unscaled tables, the entry `Encode`
stores in `e.quant` is `clamp((u * scale + 50) / 100, 1, 255)` with
`scale = 5000 / q` for `q < 50` and `200 - 2 * q` otherwise; it lies in 1..255,
is 1 at quality 100 and is `u` at quality 50.  A requested quality in 1..100 is
not changed by the clipping, and no options mean quality 100. -/
theorem encodeQuant_scaled (o : Option Int) (i j : Nat) (hi : i < 2) (hj : j < 64) :
    (1 ≤ clipQuality o ∧ clipQuality o ≤ 100) ∧
    (∀ q : Int, o = some q → 1 ≤ q → q ≤ 100 → clipQuality o = q) ∧
    (o = none → clipQuality o = 100) ∧
    encodeQuant o i j = specQuant (clipQuality o).toNat (unscaledQuant i j) ∧
    (1 ≤ encodeQuant o i j ∧ encodeQuant o i j ≤ 255) ∧
    (clipQuality o = 100 → encodeQuant o i j = 1) ∧
    (clipQuality o = 50 → encodeQuant o i j = unscaledQuant i j) := by
  have hc := clipQuality_range o
  have he : encodeQuant o i j = specQuant (clipQuality o).toNat (unscaledQuant i j) := by
    unfold encodeQuant
    rw [initQuant_entry _ _ i j hi hj, scaleQuant_spec _ hc]
  refine ⟨hc, ?_, ?_, he, ?_, ?_, ?_⟩
  · intro q ho h1 h2
    subst ho
    unfold clipQuality
    simp only
    rw [if_neg (by omega), if_neg (by omega)]
  · intro ho; subst ho; rfl
  · rw [he]; unfold specQuant; omega
  · intro h
    rw [he, h]
    have : ∀ i : Fin 2, ∀ j : Fin 64, specQuant (100 : Int).toNat (unscaledQuant i.val j.val) = 1 := by
      decide
    exact this ⟨i, hi⟩ ⟨j, hj⟩
  · intro h
    rw [he, h]
    have : ∀ i : Fin 2, ∀ j : Fin 64,
        specQuant (50 : Int).toNat (unscaledQuant i.val j.val) = unscaledQuant i.val j.val := by
      decide
    exact this ⟨i, hi⟩ ⟨j, hj⟩

theorem encodeQuant_scaled_witness :
    (1 < 2 ∧ 5 < 64) ∧
    (1 ≤ clipQuality (some 75) ∧ clipQuality (some 75) ≤ 100) ∧
    (∀ q : Int, some (75 : Int) = some q → 1 ≤ q → q ≤ 100 → clipQuality (some 75) = q) ∧
    (some (75 : Int) = none → clipQuality (some 75) = 100) ∧
    encodeQuant (some 75) 1 5 = specQuant (clipQuality (some 75)).toNat (unscaledQuant 1 5) ∧
    (1 ≤ encodeQuant (some 75) 1 5 ∧ encodeQuant (some 75) 1 5 ≤ 255) ∧
    (clipQuality (some 75) = 100 → encodeQuant (some 75) 1 5 = 1) ∧
    (clipQuality (some 75) = 50 → encodeQuant (some 75) 1 5 = unscaledQuant 1 5) :=
  ⟨by decide, encodeQuant_scaled (some 75) 1 5 (by decide) (by decide)⟩

/-! ## Forward DCT -/


theorem setRow_other (b : Block) (y8 : Nat) (v0 v1 v2 v3 v4 v5 v6 v7 : Int) (i : Nat)
    (h : i < y8 ∨ y8 + 8 ≤ i) : setRow b y8 v0 v1 v2 v3 v4 v5 v6 v7 i = b i := by
  unfold setRow upd
  have h0 : i ≠ y8 := by omega
  have h1 : i ≠ y8 + 1 := by omega
  have h2 : i ≠ y8 + 2 := by omega
  have h3 : i ≠ y8 + 3 := by omega
  have h4 : i ≠ y8 + 4 := by omega
  have h5 : i ≠ y8 + 5 := by omega
  have h6 : i ≠ y8 + 6 := by omega
  have h7 : i ≠ y8 + 7 := by omega
  simp only [h0, h1, h2, h3, h4, h5, h6, h7, if_false]

theorem setRow_first (b : Block) (y8 : Nat) (v0 v1 v2 v3 v4 v5 v6 v7 : Int) :
    setRow b y8 v0 v1 v2 v3 v4 v5 v6 v7 y8 = v0 := by
  unfold setRow upd
  simp

theorem setCol_other (b : Block) (x : Nat) (v0 v1 v2 v3 v4 v5 v6 v7 : Int) (i : Nat)
    (h : i % 8 ≠ x % 8 ∨ 64 + x ≤ i) : setCol b x v0 v1 v2 v3 v4 v5 v6 v7 i = b i := by
  unfold setCol upd
  have h0 : i ≠ x := by omega
  have h1 : i ≠ 8 + x := by omega
  have h2 : i ≠ 16 + x := by omega
  have h3 : i ≠ 24 + x := by omega
  have h4 : i ≠ 32 + x := by omega
  have h5 : i ≠ 40 + x := by omega
  have h6 : i ≠ 48 + x := by omega
  have h7 : i ≠ 56 + x := by omega
  simp only [h0, h1, h2, h3, h4, h5, h6, h7, if_false]

theorem setCol_first (b : Block) (x : Nat) (v0 v1 v2 v3 v4 v5 v6 v7 : Int) :
    setCol b x v0 v1 v2 v3 v4 v5 v6 v7 x = v0 := by
  unfold setCol upd
  simp

theorem fdctRow_other (b : Block) (y i : Nat) (h : i < y * 8 ∨ y * 8 + 8 ≤ i) :
    fdctRow b y i = b i := by
  unfold fdctRow
  exact setRow_other _ _ _ _ _ _ _ _ _ _ _ h

theorem fdctCol_other (b : Block) (x i : Nat) (h : i % 8 ≠ x % 8 ∨ 64 + x ≤ i) :
    fdctCol b x i = b i := by
  unfold fdctCol
  exact setCol_other _ _ _ _ _ _ _ _ _ _ _ h

/-- The first entry of a row after pass 1 of `fdct`. -/
theorem fdctRow_first (b : Block) (y : Nat) :
    fdctRow b y (y * 8) =
      i32 (i32 (i32 (i32 (b (y * 8 + 0) + b (y * 8 + 7)) + i32 (b (y * 8 + 3) + b (y * 8 + 4)))
        + i32 (i32 (b (y * 8 + 1) + b (y * 8 + 6)) + i32 (b (y * 8 + 2) + b (y * 8 + 5)))
        - 8 * centerJSample) * 2 ^ pass1Bits) := by
  unfold fdctRow
  exact setRow_first _ _ _ _ _ _ _ _ _ _

/-- The first entry of a column after pass 2 of `fdct`. -/
theorem fdctCol_first (b : Block) (x : Nat) :
    fdctCol b x x =
      i32 (i32 (i32 (b (0 * 8 + x) + b (7 * 8 + x)) + i32 (b (3 * 8 + x) + b (4 * 8 + x))
          + 2 ^ (pass1Bits - 1))
        + i32 (i32 (b (1 * 8 + x) + b (6 * 8 + x)) + i32 (b (2 * 8 + x) + b (5 * 8 + x))))
        >>> pass1Bits := by
  unfold fdctCol
  exact setCol_first _ _ _ _ _ _ _ _ _ _

/-- A row pass reads only its own row: later rows of the block after the first
`n` row passes are still those of the input. -/
theorem fdctRows_other (b : Block) (n i : Nat) (h : n * 8 ≤ i) :
    (List.range n).foldl fdctRow b i = b i := by
  induction n with
  | zero => simp
  | succ n ih =>
    rw [List.range_succ, List.foldl_append]
    simp only [List.foldl_cons, List.foldl_nil]
    rw [fdctRow_other _ _ _ (by omega), ih (by omega)]

theorem fdctRows_first (b : Block) (n y : Nat) (hy : y < n) :
    (List.range n).foldl fdctRow b (y * 8) = fdctRow ((List.range y).foldl fdctRow b) y (y * 8) := by
  induction n with
  | zero => omega
  | succ n ih =>
    rw [List.range_succ, List.foldl_append]
    simp only [List.foldl_cons, List.foldl_nil]
    by_cases h : y = n
    · subst h; rfl
    · rw [fdctRow_other _ _ _ (by omega), ih (by omega)]

theorem fdctCols_zero (b : Block) (n : Nat) (hn : 0 < n) (hn8 : n ≤ 8) :
    (List.range n).foldl fdctCol b 0 = fdctCol b 0 0 := by
  induction n with
  | zero => omega
  | succ n ih =>
    rw [List.range_succ, List.foldl_append]
    simp only [List.foldl_cons, List.foldl_nil]
    by_cases h : n = 0
    · subst h; rfl
    · rw [fdctCol_other _ _ _ (by omega), ih (by omega) (by omega)]

theorem fdctRows_dc (b : Block) (hb : ∀ i, i < 64 → 0 ≤ b i ∧ b i ≤ 255) (y : Nat) (hy : y < 8) :
    (List.range 8).foldl fdctRow b (y * 8) =
      4 * (b (y * 8) + b (y * 8 + 1) + b (y * 8 + 2) + b (y * 8 + 3) + b (y * 8 + 4) +
        b (y * 8 + 5) + b (y * 8 + 6) + b (y * 8 + 7) - 1024) := by
  rw [fdctRows_first b 8 y hy, fdctRow_first]
  rw [fdctRows_other b y _ (by omega), fdctRows_other b y _ (by omega),
    fdctRows_other b y _ (by omega), fdctRows_other b y _ (by omega),
    fdctRows_other b y _ (by omega), fdctRows_other b y _ (by omega),
    fdctRows_other b y _ (by omega), fdctRows_other b y _ (by omega)]
  have h0 := hb (y * 8) (by omega)
  have h1 := hb (y * 8 + 1) (by omega)
  have h2 := hb (y * 8 + 2) (by omega)
  have h3 := hb (y * 8 + 3) (by omega)
  have h4 := hb (y * 8 + 4) (by omega)
  have h5 := hb (y * 8 + 5) (by omega)
  have h6 := hb (y * 8 + 6) (by omega)
  have h7 := hb (y * 8 + 7) (by omega)
  simp only [centerJSample, pass1Bits, Nat.add_zero]
  generalize b (y * 8) = a0 at *
  generalize b (y * 8 + 1) = a1 at *
  generalize b (y * 8 + 2) = a2 at *
  generalize b (y * 8 + 3) = a3 at *
  generalize b (y * 8 + 4) = a4 at *
  generalize b (y * 8 + 5) = a5 at *
  generalize b (y * 8 + 6) = a6 at *
  generalize b (y * 8 + 7) = a7 at *
  rw [i32_of_range (a0 + a7) (by omega) (by omega), i32_of_range (a3 + a4) (by omega) (by omega),
    i32_of_range (a1 + a6) (by omega) (by omega), i32_of_range (a2 + a5) (by omega) (by omega),
    i32_of_range (a0 + a7 + (a3 + a4)) (by omega) (by omega),
    i32_of_range (a1 + a6 + (a2 + a5)) (by omega) (by omega),
    i32_of_range (a0 + a7 + (a3 + a4) + (a1 + a6 + (a2 + a5)) - 8 * 128) (by omega) (by omega),
    i32_of_range _ (by omega) (by omega)]
  omega

/-- C20: for every block whose 64 entries lie in 0..255, the DC entry of the
result of `fdct` is exactly the sum of the 64 entries minus 8192, which is the
sum of the level-shifted entries and 8 times the DC coefficient of the
orthonormal 8x8 DCT of the level-shifted block. -/
theorem fdct_dc (b : Block) (hb : ∀ i, i < 64 → 0 ≤ b i ∧ b i ≤ 255) :
    fdct b 0 = ((List.range 64).map b).sum - 8192 ∧
    fdct b 0 = ((List.range 64).map (fun i => b i - 128)).sum ∧
    ((fdct b 0 : Int) : ℚ) = orthoDC8 b := by
  have key : fdct b 0 = ((List.range 64).map b).sum - 8192 := by
    unfold fdct
    rw [fdctCols_zero _ 8 (by omega) (by omega), fdctCol_first]
    have r0 := fdctRows_dc b hb 0 (by omega)
    have r1 := fdctRows_dc b hb 1 (by omega)
    have r2 := fdctRows_dc b hb 2 (by omega)
    have r3 := fdctRows_dc b hb 3 (by omega)
    have r4 := fdctRows_dc b hb 4 (by omega)
    have r5 := fdctRows_dc b hb 5 (by omega)
    have r6 := fdctRows_dc b hb 6 (by omega)
    have r7 := fdctRows_dc b hb 7 (by omega)
    simp only [Nat.zero_mul, Nat.one_mul, Nat.reduceMul, Nat.add_zero, Nat.zero_add,
      Nat.reduceAdd] at r0 r1 r2 r3 r4 r5 r6 r7 ⊢
    rw [r0, r1, r2, r3, r4, r5, r6, r7]
    have hl : List.range 64 = [0, 1, 2, 3, 4, 5, 6, 7, 8, 9, 10, 11, 12, 13, 14, 15, 16, 17, 18,
      19, 20, 21, 22, 23, 24, 25, 26, 27, 28, 29, 30, 31, 32, 33, 34, 35, 36, 37, 38, 39, 40, 41,
      42, 43, 44, 45, 46, 47, 48, 49, 50, 51, 52, 53, 54, 55, 56, 57, 58, 59, 60, 61, 62, 63] := by
      decide
    rw [hl]
    simp only [List.map_cons, List.map_nil, List.sum_cons, List.sum_nil, pass1Bits]
    have e0 := hb 0 (by omega); have e1 := hb 1 (by omega); have e2 := hb 2 (by omega)
    have e3 := hb 3 (by omega); have e4 := hb 4 (by omega); have e5 := hb 5 (by omega)
    have e6 := hb 6 (by omega); have e7 := hb 7 (by omega); have e8 := hb 8 (by omega)
    have e9 := hb 9 (by omega); have e10 := hb 10 (by omega); have e11 := hb 11 (by omega)
    have e12 := hb 12 (by omega); have e13 := hb 13 (by omega); have e14 := hb 14 (by omega)
    have e15 := hb 15 (by omega); have e16 := hb 16 (by omega); have e17 := hb 17 (by omega)
    have e18 := hb 18 (by omega); have e19 := hb 19 (by omega); have e20 := hb 20 (by omega)
    have e21 := hb 21 (by omega); have e22 := hb 22 (by omega); have e23 := hb 23 (by omega)
    have e24 := hb 24 (by omega); have e25 := hb 25 (by omega); have e26 := hb 26 (by omega)
    have e27 := hb 27 (by omega); have e28 := hb 28 (by omega); have e29 := hb 29 (by omega)
    have e30 := hb 30 (by omega); have e31 := hb 31 (by omega); have e32 := hb 32 (by omega)
    have e33 := hb 33 (by omega); have e34 := hb 34 (by omega); have e35 := hb 35 (by omega)
    have e36 := hb 36 (by omega); have e37 := hb 37 (by omega); have e38 := hb 38 (by omega)
    have e39 := hb 39 (by omega); have e40 := hb 40 (by omega); have e41 := hb 41 (by omega)
    have e42 := hb 42 (by omega); have e43 := hb 43 (by omega); have e44 := hb 44 (by omega)
    have e45 := hb 45 (by omega); have e46 := hb 46 (by omega); have e47 := hb 47 (by omega)
    have e48 := hb 48 (by omega); have e49 := hb 49 (by omega); have e50 := hb 50 (by omega)
    have e51 := hb 51 (by omega); have e52 := hb 52 (by omega); have e53 := hb 53 (by omega)
    have e54 := hb 54 (by omega); have e55 := hb 55 (by omega); have e56 := hb 56 (by omega)
    have e57 := hb 57 (by omega); have e58 := hb 58 (by omega); have e59 := hb 59 (by omega)
    have e60 := hb 60 (by omega); have e61 := hb 61 (by omega); have e62 := hb 62 (by omega)
    have e63 := hb 63 (by omega)
    obtain ⟨t0, ht0⟩ : ∃ t, t = b 0 + b 1 + b 2 + b 3 + b 4 + b 5 + b 6 + b 7 - 1024 := ⟨_, rfl⟩
    obtain ⟨t1, ht1⟩ : ∃ t, t = b 8 + b 9 + b 10 + b 11 + b 12 + b 13 + b 14 + b 15 - 1024 := ⟨_, rfl⟩
    obtain ⟨t2, ht2⟩ : ∃ t, t = b 16 + b 17 + b 18 + b 19 + b 20 + b 21 + b 22 + b 23 - 1024 := ⟨_, rfl⟩
    obtain ⟨t3, ht3⟩ : ∃ t, t = b 24 + b 25 + b 26 + b 27 + b 28 + b 29 + b 30 + b 31 - 1024 := ⟨_, rfl⟩
    obtain ⟨t4, ht4⟩ : ∃ t, t = b 32 + b 33 + b 34 + b 35 + b 36 + b 37 + b 38 + b 39 - 1024 := ⟨_, rfl⟩
    obtain ⟨t5, ht5⟩ : ∃ t, t = b 40 + b 41 + b 42 + b 43 + b 44 + b 45 + b 46 + b 47 - 1024 := ⟨_, rfl⟩
    obtain ⟨t6, ht6⟩ : ∃ t, t = b 48 + b 49 + b 50 + b 51 + b 52 + b 53 + b 54 + b 55 - 1024 := ⟨_, rfl⟩
    obtain ⟨t7, ht7⟩ : ∃ t, t = b 56 + b 57 + b 58 + b 59 + b 60 + b 61 + b 62 + b 63 - 1024 := ⟨_, rfl⟩
    rw [← ht0, ← ht1, ← ht2, ← ht3, ← ht4, ← ht5, ← ht6, ← ht7]
    have b0 : -1024 ≤ t0 ∧ t0 ≤ 1016 := by omega
    have b1 : -1024 ≤ t1 ∧ t1 ≤ 1016 := by omega
    have b2 : -1024 ≤ t2 ∧ t2 ≤ 1016 := by omega
    have b3 : -1024 ≤ t3 ∧ t3 ≤ 1016 := by omega
    have b4 : -1024 ≤ t4 ∧ t4 ≤ 1016 := by omega
    have b5 : -1024 ≤ t5 ∧ t5 ≤ 1016 := by omega
    have b6 : -1024 ≤ t6 ∧ t6 ≤ 1016 := by omega
    have b7 : -1024 ≤ t7 ∧ t7 ≤ 1016 := by omega
    have hsum : b 0 + (b 1 + (b 2 + (b 3 + (b 4 + (b 5 + (b 6 + (b 7 + (b 8 + (b 9 + (b 10 + (b 11 +
      (b 12 + (b 13 + (b 14 + (b 15 + (b 16 + (b 17 + (b 18 + (b 19 + (b 20 + (b 21 + (b 22 + (b 23 +
      (b 24 + (b 25 + (b 26 + (b 27 + (b 28 + (b 29 + (b 30 + (b 31 + (b 32 + (b 33 + (b 34 + (b 35 +
      (b 36 + (b 37 + (b 38 + (b 39 + (b 40 + (b 41 + (b 42 + (b 43 + (b 44 + (b 45 + (b 46 + (b 47 +
      (b 48 + (b 49 + (b 50 + (b 51 + (b 52 + (b 53 + (b 54 + (b 55 + (b 56 + (b 57 + (b 58 + (b 59 +
      (b 60 + (b 61 + (b 62 + (b 63 + 0))))))))))))))))))))))))))))))))))))))))))))))))))))))))))))))) - 8192
      = t0 + t1 + t2 + t3 + t4 + t5 + t6 + t7 := by
      rw [ht0, ht1, ht2, ht3, ht4, ht5, ht6, ht7]; ring
    rw [hsum]
    clear hsum ht0 ht1 ht2 ht3 ht4 ht5 ht6 ht7 e0 e1 e2 e3 e4 e5 e6 e7 e8 e9 e10 e11 e12 e13 e14 e15
      e16 e17 e18 e19 e20 e21 e22 e23 e24 e25 e26 e27 e28 e29 e30 e31 e32 e33 e34 e35 e36 e37 e38
      e39 e40 e41 e42 e43 e44 e45 e46 e47 e48 e49 e50 e51 e52 e53 e54 e55 e56 e57 e58 e59 e60 e61
      e62 e63 r0 r1 r2 r3 r4 r5 r6 r7 hl hb
    rw [i32_of_range (4 * t0 + 4 * t7) (by omega) (by omega),
      i32_of_range (4 * t3 + 4 * t4) (by omega) (by omega),
      i32_of_range (4 * t1 + 4 * t6) (by omega) (by omega),
      i32_of_range (4 * t2 + 4 * t5) (by omega) (by omega),
      i32_of_range (4 * t0 + 4 * t7 + (4 * t3 + 4 * t4) + 2 ^ (2 - 1)) (by omega) (by omega),
      i32_of_range (4 * t1 + 4 * t6 + (4 * t2 + 4 * t5)) (by omega) (by omega),
      i32_of_range _ (by omega) (by omega),
      Int.shiftRight_eq_div_pow]
    omega
  refine ⟨key, ?_, ?_⟩
  · rw [key]
    have : ∀ (l : List Nat), (l.map (fun i => b i - 128)).sum = (l.map b).sum - 128 * l.length := by
      intro l
      induction l with
      | nil => simp
      | cons a l ih => simp only [List.map_cons, List.sum_cons, ih, List.length_cons]; push_cast; ring
    rw [this (List.range 64), List.length_range]
    norm_num
  · rw [key]
    unfold orthoDC8
    have : ∀ (l : List Nat), 8 * ((l.map (fun i => (1 / 8 : ℚ) * ((b i - 128 : Int) : ℚ))).sum)
        = (((l.map b).sum - 128 * l.length : Int) : ℚ) := by
      intro l
      induction l with
      | nil => simp
      | cons a l ih =>
        simp only [List.map_cons, List.sum_cons, List.length_cons, mul_add, ih]
        push_cast; ring
    rw [this (List.range 64), List.length_range]
    norm_num

theorem fdct_dc_witness :
    (∀ i, i < 64 → 0 ≤ sampleBlock i ∧ sampleBlock i ≤ 255) ∧
    fdct sampleBlock 0 = ((List.range 64).map sampleBlock).sum - 8192 ∧
    fdct sampleBlock 0 = ((List.range 64).map (fun i => sampleBlock i - 128)).sum ∧
    ((fdct sampleBlock 0 : Int) : ℚ) = orthoDC8 sampleBlock :=
  ⟨by decide, fdct_dc sampleBlock (by decide)⟩

theorem fill_bits (d : Decoder) (b : Bits) :
    fill { d with bits := b } = (fill d).withBits b := by
  unfold fill
  simp only
  split
  · rfl
  · split <;> rfl

theorem takeByte_bits (d : Decoder) (b : Bits) :
    takeByte { d with bits := b } = (takeByte d).withBits b := rfl

theorem readByteLoop_bits (fuel : Nat) : ∀ (d : Decoder) (b : Bits),
    readByteLoop fuel { d with bits := b } = (readByteLoop fuel d).withBits b := by
  induction fuel with
  | zero => intro d b; rfl
  | succ fuel ih =>
    intro d b
    unfold readByteLoop
    simp only
    split
    · rw [fill_bits]
      cases h : fill d with
      | ok u d1 => simp only [Result.withBits]; exact ih d1 b
      | fail e d1 => rfl
    · rfl

theorem readByte_bits (d : Decoder) (b : Bits) :
    readByte { d with bits := b } = (readByte d).withBits b := readByteLoop_bits 2 d b

theorem readByteStuffedByte_bits (d : Decoder) (b : Bits) :
    readByteStuffedByte { d with bits := b } = (readByteStuffedByte d).withBits b := by
  unfold readByteStuffedByte
  simp only
  split
  · split
    · rfl
    · split <;> rfl
  · have h1 := readByte_bits { d with bytes := { d.bytes with nUnreadable := 0 } } b
    rw [show ({ ({ d with bits := b } : Decoder) with bytes := { d.bytes with nUnreadable := 0 } } : Decoder)
        = { ({ d with bytes := { d.bytes with nUnreadable := 0 } } : Decoder) with bits := b } from rfl, h1]
    cases h : readByte { d with bytes := { d.bytes with nUnreadable := 0 } } with
    | fail e d1 => rfl
    | ok x d1 =>
      simp only [Result.withBits]
      split
      · rfl
      · have h2 := readByte_bits { d1 with bytes := { d1.bytes with nUnreadable := 1 } } b
        rw [show ({ ({ d1 with bits := b } : Decoder) with bytes := { d1.bytes with nUnreadable := 1 } } : Decoder)
            = { ({ d1 with bytes := { d1.bytes with nUnreadable := 1 } } : Decoder) with bits := b } from rfl, h2]
        cases h' : readByte { d1 with bytes := { d1.bytes with nUnreadable := 1 } } with
        | fail e d3 => rfl
        | ok x d3 =>
          simp only [Result.withBits]
          split <;> rfl

theorem withBits_self {α : Type} (r : Result α) : r.withBits r.state.bits = r := by
  cases r <;> rfl

theorem readByteStuffedByte_keeps_bits (d : Decoder) :
    (readByteStuffedByte d).state.bits = d.bits := by
  have h := readByteStuffedByte_bits d d.bits
  have e : ({ d with bits := d.bits } : Decoder) = d := rfl
  rw [e] at h
  rw [h]
  cases readByteStuffedByte d <;> rfl

theorem bitsInv_iff (b : Bits) :
    BitsInv b ↔ ∃ k : Nat, k ≤ 23 ∧ b.n = (k : Int) ∧ b.m = (if k = 0 then 0 else 2 ^ (k - 1)) := by
  constructor
  · rintro ⟨h0, h1, h2, h3⟩
    refine ⟨b.n.toNat, by omega, by omega, ?_⟩
    by_cases hn : b.n = 0
    · rw [h3 hn, hn]; rfl
    · have hpos : b.n > 0 := by omega
      rw [h2 hpos, if_neg (by omega), Nat.shiftLeft_eq, one_mul]
      congr 1
      omega
  · rintro ⟨k, hk, hn, hm⟩
    refine ⟨by omega, by omega, ?_, ?_⟩
    · intro hpos
      rw [hm, if_neg (by omega), Nat.shiftLeft_eq, one_mul]
      congr 1
      omega
    · intro h0
      rw [hm, if_pos (by omega)]

theorem bitsInv_mk (a : Nat) (k : Nat) (hk : k ≤ 23) :
    BitsInv { a := a, m := (if k = 0 then 0 else 2 ^ (k - 1)), n := (k : Int) } :=
  (bitsInv_iff _).2 ⟨k, hk, rfl, rfl⟩

/-- Shifting the mask right by `t ≤ n` gives the mask for `n - t`. -/
theorem mask_shiftRight (k t : Nat) (ht : t ≤ k) :
    (if k = 0 then 0 else 2 ^ (k - 1)) >>> t = (if k - t = 0 then 0 else 2 ^ (k - t - 1)) := by
  by_cases hk : k = 0
  · subst hk; simp
  · rw [if_neg hk, Nat.shiftRight_eq_div_pow]
    by_cases hkt : k - t = 0
    · rw [if_pos hkt]
      apply Nat.div_eq_of_lt
      apply Nat.pow_lt_pow_right (by norm_num)
      omega
    · rw [if_neg hkt, Nat.pow_div (by omega) (by norm_num)]
      congr 1
      omega

/-- The mask after a refill of eight bits. -/
theorem mask_refill (k : Nat) (hk : k ≤ 15) :
    (if (if k = 0 then 0 else 2 ^ (k - 1)) = 0 then 1 <<< 7
      else ((if k = 0 then 0 else 2 ^ (k - 1)) <<< 8) % 4294967296)
    = (if k + 8 = 0 then 0 else 2 ^ (k + 8 - 1)) := by
  interval_cases k <;> rfl

/-- What a successful call `decodeBit`-style consumer of `t` bits does to the accumulator. -/
theorem bitsInv_consume (b : Bits) (t : Nat) (h : BitsInv b) (ht : (t : Int) ≤ b.n) :
    BitsInv { b with n := b.n - (t : Int), m := b.m >>> t } := by
  obtain ⟨k, hk, hn, hm⟩ := (bitsInv_iff b).1 h
  have htk : t ≤ k := by omega
  rw [bitsInv_iff]
  refine ⟨k - t, by omega, ?_, ?_⟩
  · show b.n - (t : Int) = ((k - t : Nat) : Int)
    omega
  · show b.m >>> t = _
    rw [hm, mask_shiftRight k t htk]

theorem bitsInv_refill (b : Bits) (c : Nat) (h : BitsInv b) (hn : b.n ≤ 15) :
    BitsInv { a := ((b.a <<< 8) % 4294967296) ||| c, n := b.n + 8,
              m := if b.m = 0 then 1 <<< 7 else (b.m <<< 8) % 4294967296 } := by
  obtain ⟨k, hk, hkn, hm⟩ := (bitsInv_iff b).1 h
  rw [bitsInv_iff]
  refine ⟨k + 8, by omega, ?_, ?_⟩
  · show b.n + 8 = ((k + 8 : Nat) : Int)
    omega
  · show (if b.m = 0 then 1 <<< 7 else (b.m <<< 8) % 4294967296) = _
    rw [hm, mask_refill k (by omega)]

theorem ensureNBitsLoop_inv (fuel : Nat) : ∀ (k : Int) (d : Decoder),
    BitsInv d.bits → d.bits.n < k → k ≤ 16 →
    BitsInv (ensureNBitsLoop fuel k d).state.bits ∧
    ((ensureNBitsLoop fuel k d).err? = none → k ≤ (ensureNBitsLoop fuel k d).state.bits.n) := by
  induction fuel with
  | zero =>
    intro k d h _ _
    exact ⟨h, fun he => by simp [ensureNBitsLoop, Result.err?] at he⟩
  | succ fuel ih =>
    intro k d h hlt hk
    unfold ensureNBitsLoop
    have hb := readByteStuffedByte_keeps_bits d
    cases hr : readByteStuffedByte d with
    | fail e d1 =>
      rw [hr] at hb
      simp only [Result.state, Result.err?]
      simp only [Result.state] at hb
      rw [hb]
      exact ⟨h, fun he => by simp at he⟩
    | ok c d1 =>
      rw [hr] at hb
      simp only [Result.state] at hb
      simp only
      have hinv := bitsInv_refill d1.bits c.val (hb ▸ h) (by rw [hb]; omega)
      split
      · rename_i hge
        exact ⟨hinv, fun _ => hge⟩
      · rename_i hge
        exact ih k _ hinv (by simpa using hge) hk

theorem ensureNBits_inv (k : Int) (d : Decoder) (h : BitsInv d.bits) (hlt : d.bits.n < k)
    (hk : k ≤ 16) :
    BitsInv (ensureNBits k d).state.bits ∧
    ((ensureNBits k d).err? = none → k ≤ (ensureNBits k d).state.bits.n) :=
  ensureNBitsLoop_inv _ k d h hlt hk

theorem takeBit_inv (d : Decoder) (h : BitsInv d.bits) (hn : 1 ≤ d.bits.n) :
    BitsInv (takeBit d).state.bits := by
  have := bitsInv_consume d.bits 1 h (by simpa using hn)
  exact this

theorem decodeBit_inv (d : Decoder) (h : BitsInv d.bits) : BitsInv (decodeBit d).state.bits := by
  unfold decodeBit
  split
  · rename_i h0
    have he := ensureNBits_inv 1 d h (by omega) (by omega)
    cases hr : ensureNBits 1 d with
    | fail e d1 => rw [hr] at he; exact he.1
    | ok u d1 =>
      rw [hr] at he
      exact takeBit_inv d1 he.1 (he.2 rfl)
  · rename_i h0
    exact takeBit_inv d h (by have := h.1; omega)

theorem receiveExtendTail_inv (t : Nat) (d : Decoder) (h : BitsInv d.bits) (ht : (t : Int) ≤ d.bits.n) :
    BitsInv (receiveExtendTail t d).state.bits := by
  have := bitsInv_consume d.bits t h ht
  unfold receiveExtendTail
  simp only
  split <;> exact this

theorem receiveExtend_inv (t : Nat) (d : Decoder) (h : BitsInv d.bits) (ht : t ≤ 16) :
    BitsInv (receiveExtend t d).state.bits := by
  unfold receiveExtend
  split
  · rename_i hlt
    have he := ensureNBits_inv t d h hlt (by omega)
    cases hr : ensureNBits (t : Int) d with
    | fail e d1 => rw [hr] at he; exact he.1
    | ok u d1 =>
      rw [hr] at he
      exact receiveExtendTail_inv t d1 he.1 (he.2 rfl)
  · rename_i hlt
    exact receiveExtendTail_inv t d h (by omega)

theorem u32_of_nonneg (k : Int) (h0 : 0 ≤ k) (h1 : k < 4294967296) : u32 k = k.toNat := by
  unfold u32
  rw [Int.emod_eq_of_lt h0 h1]

theorem decodeBitsTail_inv (k : Int) (d : Decoder) (h : BitsInv d.bits) (h0 : 0 ≤ k)
    (hk : k ≤ d.bits.n) : BitsInv (decodeBitsTail k d).state.bits := by
  have := bitsInv_consume d.bits k.toNat h (by omega)
  unfold decodeBitsTail
  simp only [Result.state]
  have h23 := h.2.1
  rw [u32_of_nonneg k h0 (by omega)]
  have e : d.bits.n - k = d.bits.n - ((k.toNat : Nat) : Int) := by omega
  rw [e]
  exact this

theorem decodeBits_inv (k : Int) (d : Decoder) (h : BitsInv d.bits) (h0 : 0 ≤ k) (hk : k ≤ 16) :
    BitsInv (decodeBits k d).state.bits := by
  unfold decodeBits
  split
  · rename_i hlt
    have he := ensureNBits_inv k d h hlt hk
    cases hr : ensureNBits k d with
    | fail e d1 => rw [hr] at he; exact he.1
    | ok u d1 =>
      rw [hr] at he
      exact decodeBitsTail_inv k d1 he.1 h0 (he.2 rfl)
  · rename_i hlt
    exact decodeBitsTail_inv k d h h0 (by omega)

theorem unreadByteStuffedByte_inv (d : Decoder) (h : BitsInv d.bits) :
    BitsInv (unreadByteStuffedByte d).state.bits := by
  unfold unreadByteStuffedByte
  simp only [Result.state]
  split
  · rename_i hge
    have := bitsInv_consume d.bits 8 h (by simpa using hge)
    obtain ⟨k, hk, hn, hm⟩ := (bitsInv_iff _).1 this
    rw [bitsInv_iff]
    exact ⟨k, hk, hn, hm⟩
  · exact h

theorem huffSlowPath_inv (h : Huffman) (cnt : Nat) : ∀ (i code : Nat) (d : Decoder),
    BitsInv d.bits → BitsInv (huffSlowPath h cnt i code d).state.bits := by
  induction cnt with
  | zero => intro i code d hd; exact hd
  | succ cnt ih =>
    intro i code d hd
    unfold huffSlowPath
    have hb := decodeBit_inv d hd
    cases hr : decodeBit d with
    | fail e d1 => rw [hr] at hb; exact hb
    | ok bit d1 =>
      rw [hr] at hb
      simp only
      generalize (if bit = true then code ||| 1 else code) = code1
      split
      · exact hb
      · exact ih _ _ d1 hb

theorem decodeHuffman_inv (h : Huffman) (hl : LutOk h) (d : Decoder) (hd : BitsInv d.bits) :
    BitsInv (decodeHuffman h d).state.bits := by
  unfold decodeHuffman
  split
  · exact hd
  · simp only
    have fast : ∀ d1 : Decoder, BitsInv d1.bits → 8 ≤ d1.bits.n →
        BitsInv (if h.lut ((d1.bits.a >>> u32 (d1.bits.n - 8)) &&& 0xff) ≠ 0 then
          (Result.ok (u8 (h.lut ((d1.bits.a >>> u32 (d1.bits.n - 8)) &&& 0xff) >>> 8))
            { d1 with bits := { d1.bits with
                n := d1.bits.n - ((u16 ((h.lut ((d1.bits.a >>> u32 (d1.bits.n - 8)) &&& 0xff) &&& 0xff) + 65535) : Nat) : Int),
                m := d1.bits.m >>> u16 ((h.lut ((d1.bits.a >>> u32 (d1.bits.n - 8)) &&& 0xff) &&& 0xff) + 65535) } } : Result Nat)
          else huffSlowPath h maxCodeLength 0 0 d1).state.bits := by
      intro d1 h1 h8
      split
      · rename_i hv
        rcases hl ((d1.bits.a >>> u32 (d1.bits.n - 8)) &&& 0xff) with h0 | ⟨h2, h9⟩
        · exact absurd h0 hv
        · generalize h.lut ((d1.bits.a >>> u32 (d1.bits.n - 8)) &&& 0xff) &&& 0xff = w at h2 h9
          have hw : u16 (w + 65535) = w - 1 := by unfold u16; omega
          rw [hw]
          exact bitsInv_consume d1.bits (w - 1) h1 (by omega)
      · exact huffSlowPath_inv h _ _ _ d1 h1
    by_cases hlt : d.bits.n < 8
    · rw [if_pos hlt]
      have he := ensureNBits_inv 8 d hd hlt (by omega)
      cases hr : ensureNBits 8 d with
      | fail e d1 =>
        rw [hr] at he
        simp only [Result.state] at he
        simp only
        by_cases hE : e ≠ errMissingFF00 ∧ e ≠ errShortHuffmanData
        · rw [if_pos hE]
          exact he.1
        · rw [if_neg hE]
          by_cases hU : d1.bytes.nUnreadable ≠ 0
          · rw [if_pos hU]
            exact huffSlowPath_inv h _ _ _ _ (unreadByteStuffedByte_inv d1 he.1)
          · rw [if_neg hU]
            exact huffSlowPath_inv h _ _ _ _ he.1
      | ok u d1 =>
        rw [hr] at he
        simp only
        exact fast d1 he.1 (he.2 rfl)
    · rw [if_neg hlt]
      simp only
      exact fast d hd (by omega)

theorem shl8_or (v c : Nat) (hc : c < 256) : (v <<< 8) ||| c = 256 * v + c := by
  rw [Nat.shiftLeft_eq, Nat.mul_comm v (2 ^ 8)]
  exact (Nat.mul_add_lt_is_or (by simpa using hc) v).symm

theorem and_255 (x : Nat) : x &&& 0xff = x % 256 := by
  have : (0xff : Nat) = 2 ^ 8 - 1 := by norm_num
  rw [this, Nat.and_pow_two_sub_one_eq_mod]

/-- The entry that `processDHT` writes for a code of length `i + 1 ≤ 8`: the
value in the high byte, `2 + i` in the low byte. -/
theorem lutValue_low (v i : Nat) (hv : v < 256) (hi : i < 8) :
    u16 ((v <<< 8) ||| (2 + i)) = 256 * v + (2 + i) ∧
    u16 ((v <<< 8) ||| (2 + i)) &&& 0xff = 2 + i ∧
    u16 ((v <<< 8) ||| (2 + i)) >>> 8 = v := by
  rw [shl8_or v (2 + i) (by omega), and_255, Nat.shiftRight_eq_div_pow]
  unfold u16
  omega

theorem lutFillK_ok (base v : Nat) (hv : 2 ≤ v &&& 0xff ∧ v &&& 0xff ≤ 9) (cnt : Nat) :
    ∀ (k : Nat) (lut : Nat → Nat), LutFn lut → LutFn (lutFillK base v cnt k lut) := by
  induction cnt with
  | zero => intro k lut h; exact h
  | succ cnt ih =>
    intro k lut h
    unfold lutFillK
    apply ih
    intro idx
    unfold upd
    split
    · exact Or.inr hv
    · exact h idx

theorem lutFillJ_ok (vals : Nat → Byte) (i : Nat) (hi : i < 8) (cnt : Nat) :
    ∀ s : LutState, LutFn s.lut → LutFn (lutFillJ vals i cnt s).lut := by
  induction cnt with
  | zero => intro s h; exact h
  | succ cnt ih =>
    intro s h
    unfold lutFillJ
    apply ih
    simp only
    apply lutFillK_ok _ _ _ _ _ _ h
    have := (lutValue_low (vals s.x).val i (vals s.x).isLt hi).2.1
    rw [this]; omega

theorem lutFillI_ok (vals : Nat → Byte) (nCodes : Nat → Nat) (cnt : Nat) :
    ∀ (i : Nat) (s : LutState), i + cnt ≤ 8 → LutFn s.lut →
      LutFn (lutFillI vals nCodes cnt i s).lut := by
  induction cnt with
  | zero => intro i s _ h; exact h
  | succ cnt ih =>
    intro i s hi h
    unfold lutFillI
    apply ih (i + 1) _ (by omega)
    exact lutFillJ_ok vals i (by omega) _ _ h

/-- Every table built by the derivation loops of `processDHT` has a well-formed
look-up table, whatever the counts and values. -/
theorem buildHuffman_lutOk (h : Huffman) (nCodes : Nat → Nat) : LutOk (buildHuffman h nCodes) := by
  unfold LutOk buildHuffman
  simp only
  exact lutFillI_ok h.vals nCodes lutSize 0 _ (by simp [lutSize]) (fun _ => Or.inl rfl)

theorem canonBase_succ (counts : Nat → Nat) (i : Nat) :
    canonBase counts (i + 1) = canonBase counts i + counts i := by
  unfold canonBase
  rw [List.range_succ, List.map_append, List.sum_append]
  simp

theorem canonBase_mono (counts : Nat → Nat) (i j : Nat) (h : i ≤ j) :
    canonBase counts i ≤ canonBase counts j := by
  induction j with
  | zero => have : i = 0 := by omega
            subst this; exact le_refl _
  | succ j ih =>
    by_cases hij : i = j + 1
    · subst hij; exact le_refl _
    · have := ih (by omega)
      rw [canonBase_succ]; omega

theorem canonFirst_le (counts : Nat → Nat) (i : Nat) :
    canonFirst counts i ≤ canonBase counts i * 2 ^ i := by
  induction i with
  | zero => simp [canonFirst]
  | succ i ih =>
    rw [canonBase_succ]
    show (canonFirst counts i + counts i) * 2 ≤ _
    have h1 : counts i ≤ counts i * 2 ^ i := Nat.le_mul_of_pos_right _ (by positivity)
    calc (canonFirst counts i + counts i) * 2
        ≤ (canonBase counts i * 2 ^ i + counts i * 2 ^ i) * 2 := by omega
      _ = (canonBase counts i + counts i) * 2 ^ (i + 1) := by ring

/-- Prefix freedom of the canonical assignment: the first code of length
`t + 1`, cut to its first `l + 1` bits, lies above every code of length `l + 1`. -/
theorem canonFirst_prefix (counts : Nat → Nat) (l t : Nat) (h : l < t) :
    (canonFirst counts l + counts l) * 2 ^ (t - l) ≤ canonFirst counts t := by
  induction t with
  | zero => omega
  | succ t ih =>
    show _ ≤ (canonFirst counts t + counts t) * 2
    by_cases hlt : l = t
    · subst hlt
      have : l + 1 - l = 1 := by omega
      rw [this]; omega
    · have := ih (by omega)
      have e : t + 1 - l = (t - l) + 1 := by omega
      rw [e, pow_succ, ← mul_assoc]
      omega

theorem canonFirst_congr (f g : Nat → Nat) (n : Nat) (h : ∀ i, i < n → f i = g i) :
    ∀ i, i ≤ n → canonFirst f i = canonFirst g i := by
  intro i
  induction i with
  | zero => intro _; rfl
  | succ i ih =>
    intro hi
    show (canonFirst f i + f i) * 2 = (canonFirst g i + g i) * 2
    rw [ih (by omega), h i (by omega)]

theorem canonBase_congr (f g : Nat → Nat) (n : Nat) (h : ∀ i, i < n → f i = g i) :
    ∀ i, i ≤ n → canonBase f i = canonBase g i := by
  intro i
  induction i with
  | zero => intro _; rfl
  | succ i ih =>
    intro hi
    rw [canonBase_succ, canonBase_succ, ih (by omega), h i (by omega)]

theorem validCounts_congr (f g : Nat → Nat) (h : ∀ i, i < 16 → f i = g i) (hf : ValidCounts f) :
    ValidCounts g := by
  obtain ⟨h1, h2, h3⟩ := hf
  have eb := canonBase_congr f g 16 h 16 (le_refl _)
  refine ⟨by omega, by omega, ?_⟩
  intro i hi hne
  rw [← canonFirst_congr f g 16 h i (by omega), ← h i hi]
  exact h3 i hi (by rw [h i hi]; exact hne)

theorem canonFirst_bound (nc : Nat → Nat) (htot : canonBase nc 16 ≤ 256) (i : Nat) (hi : i ≤ 16) :
    canonFirst nc i ≤ 16777216 := by
  have h1 := canonFirst_le nc i
  have h2 := canonBase_mono nc i 16 hi
  have h3 : 2 ^ i ≤ 2 ^ 16 := Nat.pow_le_pow_right (by norm_num) hi
  calc canonFirst nc i ≤ canonBase nc i * 2 ^ i := h1
    _ ≤ 256 * 2 ^ 16 := Nat.mul_le_mul (by omega) h3
    _ = 16777216 := by norm_num

/-- The closed form of the tables `minCodes`, `maxCodes` and `valsIndices` that
the last loop of `processDHT` derives. -/
theorem dhtCodes_spec (nc : Nat → Nat) (htot : canonBase nc 16 ≤ 256) (cnt : Nat) :
    ∀ (i : Nat) (s : CodeState), i + cnt ≤ 16 → s.c = canonFirst nc i → s.index = canonBase nc i →
    (dhtCodes nc cnt i s).c = canonFirst nc (i + cnt) ∧
    (dhtCodes nc cnt i s).index = canonBase nc (i + cnt) ∧
    (∀ j, i ≤ j → j < i + cnt →
      (nc j = 0 → (dhtCodes nc cnt i s).minCodes j = -1 ∧ (dhtCodes nc cnt i s).maxCodes j = -1 ∧
        (dhtCodes nc cnt i s).valsIndices j = -1) ∧
      (nc j ≠ 0 → (dhtCodes nc cnt i s).minCodes j = canonFirst nc j ∧
        (dhtCodes nc cnt i s).maxCodes j = canonFirst nc j + nc j - 1 ∧
        (dhtCodes nc cnt i s).valsIndices j = canonBase nc j)) ∧
    (∀ j, j < i → (dhtCodes nc cnt i s).minCodes j = s.minCodes j ∧
      (dhtCodes nc cnt i s).maxCodes j = s.maxCodes j ∧
      (dhtCodes nc cnt i s).valsIndices j = s.valsIndices j) := by
  induction cnt with
  | zero =>
    intro i s _ hc hx
    refine ⟨hc, hx, ?_, ?_⟩
    · intro j h1 h2; omega
    · intro j _; exact ⟨rfl, rfl, rfl⟩
  | succ cnt ih =>
    intro i s hi hc hx
    have hb1 := canonFirst_bound nc htot (i + 1) (by omega)
    have hcf : canonFirst nc (i + 1) = (canonFirst nc i + nc i) * 2 := rfl
    have hbase := canonBase_succ nc i
    have hbm := canonBase_mono nc (i + 1) 16 (by omega)
    unfold dhtCodes
    simp only
    by_cases hz : (nc i : Int) = 0
    · have hz' : nc i = 0 := by exact_mod_cast hz
      rw [if_pos hz]
      simp only
      have hc' : i32 (s.c * 2) = canonFirst nc (i + 1) := by
        rw [hc, i32_of_range _ (by omega) (by omega), hcf, hz']; push_cast; ring
      have hx' : s.index = canonBase nc (i + 1) := by rw [hx, hbase, hz']; simp
      obtain ⟨r1, r2, r3, r4⟩ := ih (i + 1)
        { minCodes := upd s.minCodes i (-1), maxCodes := upd s.maxCodes i (-1),
          valsIndices := upd s.valsIndices i (-1), c := i32 (s.c * 2), index := s.index }
        (by omega) hc' hx'
      refine ⟨by rw [r1]; congr 2; omega, by rw [r2]; congr 2; omega, ?_, ?_⟩
      · intro j h1 h2
        by_cases hj : j = i
        · subst hj
          have := r4 j (by omega)
          simp only [upd, if_true] at this
          exact ⟨fun _ => this, fun h => absurd hz' h⟩
        · exact r3 j (by omega) (by omega)
      · intro j hj
        have := r4 j (by omega)
        simp only [upd, if_neg (show j ≠ i by omega)] at this
        exact this
    · have hz' : nc i ≠ 0 := by intro h; apply hz; exact_mod_cast h
      rw [if_neg hz]
      simp only
      have hc' : i32 (i32 (s.c + (nc i : Int)) * 2) = canonFirst nc (i + 1) := by
        rw [hc, i32_of_range (_ + _) (by omega) (by omega), i32_of_range _ (by omega) (by omega), hcf]
        push_cast; ring
      have hx' : i32 (s.index + (nc i : Int)) = canonBase nc (i + 1) := by
        rw [hx, i32_of_range _ (by omega) (by omega), hbase]; push_cast; ring
      obtain ⟨r1, r2, r3, r4⟩ := ih (i + 1)
        { minCodes := upd s.minCodes i s.c, maxCodes := upd s.maxCodes i (i32 (s.c + (nc i : Int) - 1)),
          valsIndices := upd s.valsIndices i s.index, c := i32 (i32 (s.c + (nc i : Int)) * 2),
          index := i32 (s.index + (nc i : Int)) }
        (by omega) hc' hx'
      refine ⟨by rw [r1]; congr 2; omega, by rw [r2]; congr 2; omega, ?_, ?_⟩
      · intro j h1 h2
        by_cases hj : j = i
        · subst hj
          have := r4 j (by omega)
          simp only [upd, if_true] at this
          refine ⟨fun h => absurd h hz', fun _ => ?_⟩
          rw [this.1, this.2.1, this.2.2, hc, hx, i32_of_range _ (by omega) (by omega)]
          exact ⟨rfl, rfl, rfl⟩
        · exact r3 j (by omega) (by omega)
      · intro j hj
        have := r4 j (by omega)
        simp only [upd, if_neg (show j ≠ i by omega)] at this
        exact this

/-- The decoding tables of a table built by `processDHT` from counts with at
most 256 codes in all. -/
theorem buildHuffman_codes (h : Huffman) (nc : Nat → Nat) (htot : canonBase nc 16 ≤ 256)
    (j : Nat) (hj : j < 16) :
    (buildHuffman h nc).vals = h.vals ∧
    (nc j = 0 → (buildHuffman h nc).maxCodes j = -1) ∧
    (nc j ≠ 0 → (buildHuffman h nc).minCodes j = canonFirst nc j ∧
      (buildHuffman h nc).maxCodes j = canonFirst nc j + nc j - 1 ∧
      (buildHuffman h nc).valsIndices j = canonBase nc j) := by
  have := dhtCodes_spec nc htot 16 0
    { minCodes := h.minCodes, maxCodes := h.maxCodes, valsIndices := h.valsIndices,
      c := 0, index := 0 } (by omega) rfl rfl
  obtain ⟨_, _, r3, _⟩ := this
  have r := r3 j (by omega) (by omega)
  refine ⟨rfl, fun hz => (r.1 hz).2.1, fun hz => r.2 hz⟩

theorem shiftRight_step (w r : Nat) : 2 * (w >>> (r + 1)) + (w.testBit r).toNat = w >>> r := by
  rw [Nat.toNat_testBit, Nat.shiftRight_eq_div_pow, Nat.shiftRight_eq_div_pow, pow_succ,
    ← Nat.div_div_eq_div_mul]
  omega

theorem or_one_of_even (c : Nat) (b : Bool) :
    (if b = true then (2 * c) ||| 1 else 2 * c) = 2 * c + b.toNat := by
  cases b
  · simp
  · simp only [if_true, Bool.toNat_true]
    have := Nat.mul_add_lt_is_or (show 1 < 2 ^ 1 by norm_num) c
    simpa using this.symm

/-- The ladder of `decodeHuffman` on the canonical code word of the `k`-th
value: started at level `l` with the first `l` bits of the code word read. -/
theorem huffSlowPath_canonical (h : Huffman) (nc : Nat → Nat) (htot : canonBase nc 16 ≤ 256)
    (t k : Nat) (ht : t < 16) (hk1 : canonBase nc t ≤ k) (hk2 : k < canonBase nc (t + 1))
    (r : Nat) : ∀ (l : Nat) (d d1 : Decoder), l + r = t →
    nextBits (r + 1) d = .ok (bitsOf (canonFirst nc t + (k - canonBase nc t)) (r + 1)) d1 →
    huffSlowPath (buildHuffman h nc) (maxCodeLength - l) l
      (2 * ((canonFirst nc t + (k - canonBase nc t)) >>> (r + 1))) d = .ok (h.vals k).val d1 := by
  have hbs := canonBase_succ nc t
  have hnt : nc t ≠ 0 := by omega
  induction r with
  | zero =>
    intro l d d1 hl hbits
    have hl' : l = t := by omega
    subst hl'
    have e : maxCodeLength - l = (15 - l) + 1 := by unfold maxCodeLength; omega
    rw [e]
    unfold huffSlowPath
    simp only [nextBits, bitsOf] at hbits
    cases hdb : decodeBit d with
    | fail e d2 => rw [hdb] at hbits; simp at hbits
    | ok b d2 =>
      rw [hdb] at hbits
      simp only [Result.ok.injEq, List.cons.injEq, and_true] at hbits
      obtain ⟨hb, hd⟩ := hbits
      subst hd
      simp only
      rw [or_one_of_even, hb, shiftRight_step, Nat.shiftRight_zero]
      obtain ⟨hv, _, hc⟩ := buildHuffman_codes h nc htot l ht
      obtain ⟨c1, c2, c3⟩ := hc hnt
      rw [c1, c2, c3, hv]
      rw [if_pos (by push_cast; omega)]
      congr 3
      push_cast
      omega
  | succ r ih =>
    intro l d d1 hl hbits
    have e : maxCodeLength - l = (15 - l) + 1 := by unfold maxCodeLength; omega
    rw [e]
    unfold huffSlowPath
    rw [show nextBits (r + 1 + 1) d = (match decodeBit d with
      | .fail e d1 => .fail e d1
      | .ok b d1 =>
        match nextBits (r + 1) d1 with
        | .fail e d2 => .fail e d2
        | .ok bs d2 => .ok (b :: bs) d2) from rfl] at hbits
    cases hdb : decodeBit d with
    | fail e d2 => rw [hdb] at hbits; simp at hbits
    | ok b d2 =>
      rw [hdb] at hbits
      simp only at hbits
      cases hnb : nextBits (r + 1) d2 with
      | fail e d3 => rw [hnb] at hbits; simp at hbits
      | ok bs d3 =>
        rw [hnb] at hbits
        simp only [bitsOf, Result.ok.injEq, List.cons.injEq] at hbits
        obtain ⟨⟨hb, hbs'⟩, hd⟩ := hbits
        subst hd
        subst hbs'
        simp only
        rw [or_one_of_even, hb, shiftRight_step]
        have hgt : ¬ (((canonFirst nc t + (k - canonBase nc t)) >>> (r + 1) : Nat) : Int)
            ≤ (buildHuffman h nc).maxCodes l := by
          obtain ⟨_, hz, hc⟩ := buildHuffman_codes h nc htot l (by omega)
          by_cases hn : nc l = 0
          · rw [hz hn]
            have := Int.ofNat_nonneg ((canonFirst nc t + (k - canonBase nc t)) >>> (r + 1))
            intro hle
            exact absurd (le_trans this hle) (by norm_num)
          · rw [(hc hn).2.1]
            have hp := canonFirst_prefix nc l t (by omega)
            have e2 : t - l = r + 1 := by omega
            rw [e2] at hp
            have : canonFirst nc l + nc l ≤ (canonFirst nc t + (k - canonBase nc t)) >>> (r + 1) := by
              rw [Nat.shiftRight_eq_div_pow, Nat.le_div_iff_mul_le (by positivity)]
              omega
            intro hle
            have : ((canonFirst nc l + nc l : Nat) : Int)
                ≤ (((canonFirst nc t + (k - canonBase nc t)) >>> (r + 1) : Nat) : Int) := by
              exact_mod_cast this
            push_cast at this
            linarith
        rw [if_neg hgt]
        have e3 : 15 - l = maxCodeLength - (l + 1) := by unfold maxCodeLength; omega
        rw [e3, Nat.shiftLeft_eq, pow_one, Nat.mul_comm]
        exact ih (l + 1) d2 d3 (by omega) hnb

theorem sameBytes_huff {a b : Decoder} (h : SameButBytes a b) : b.huff = a.huff :=
  show b.noBytes.huff = a.noBytes.huff from congrArg Decoder.huff h

theorem setHuff_setHuff (d : Decoder) (tc th : Nat) (x y : Huffman) :
    setHuff (setHuff d tc th x) tc th y = setHuff d tc th y := by
  unfold setHuff
  simp only [upd_same, upd_upd]

theorem setHuff_sameBytes {a b : Decoder} (h : SameButBytes a b) (tc th : Nat) (x : Huffman) :
    SameButBytes (setHuff a tc th x) (setHuff b tc th x) := by
  have hh := sameBytes_huff h
  unfold SameButBytes at *
  show ({ b.noBytes with huff := upd b.huff tc (upd (b.huff tc) th x) } : Decoder)
    = { a.noBytes with huff := upd a.huff tc (upd (a.huff tc) th x) }
  rw [h, hh]

theorem setHuff_get (d : Decoder) (tc th : Nat) (x : Huffman) : (setHuff d tc th x).huff tc th = x := by
  simp [setHuff]

/-- A table entry with valid class, destination and counts is accepted by the
round of the loop of `processDHT` that reads it: the table it names is rebuilt
from the counts and the values, and the loop goes on after the values. -/
theorem dhtLoop_accepts (fuel n : Nat) (d : Decoder) (b0 : Byte) (counts vals rest : List Byte)
    (hle : d.bytes.i ≤ d.bytes.j) (hnu : d.bytes.nUnreadable = 0)
    (hlen : counts.length = 16) (hst : d.stream = b0 :: counts ++ (vals ++ rest))
    (htc : b0.val >>> 4 ≤ 1) (hth : b0.val &&& 0x0f ≤ 3)
    (hprog : d.progressive = false → b0.val &&& 0x0f ≤ 1)
    (hsum : (counts.map (fun b => b.val)).sum = vals.length)
    (h1 : 1 ≤ vals.length) (h256 : vals.length ≤ 256) (hn : vals.length + 17 ≤ n) :
    ∃ (dF : Decoder) (nc : Nat → Nat),
      dhtLoop (fuel + 1) n d = dhtLoop fuel (n - (vals.length + 17)) dF ∧
      (∀ i, i < 16 → nc i = (counts.getD i (byte 0)).val) ∧
      SameButInput (setHuff d (b0.val >>> 4) (b0.val &&& 0x0f)
        (buildHuffman { d.huff (b0.val >>> 4) (b0.val &&& 0x0f) with
          nCodes := vals.length, vals := blit (d.huff (b0.val >>> 4) (b0.val &&& 0x0f)).vals 0 vals } nc)) dF ∧
      dF.stream = rest ∧ dF.bytes.i ≤ dF.bytes.j ∧ dF.bytes.nUnreadable = 0 := by
  obtain ⟨d0, r1, r2, r3, r4, r5⟩ := readFullTmp_ok 17 d hle hnu
    (by rw [hst]; simp only [List.length_cons, List.length_append]; omega)
  have htake : List.take 17 d.stream = b0 :: counts := by
    rw [hst]
    exact List.take_left' (by simp only [List.length_cons]; omega)
  have hdrop : List.drop 17 d.stream = vals ++ rest := by
    rw [hst]
    exact List.drop_left' (by simp only [List.length_cons]; omega)
  rw [htake] at r1
  rw [hdrop] at r3
  have hprog0 : d0.progressive = d.progressive :=
    show d0.noBytes.progressive = d.noBytes.progressive from congrArg Decoder.progressive r2
  have hhuff0 : d0.huff = d.huff := sameBytes_huff r2
  rw [dhtLoop]
  rw [if_pos (by omega), if_neg (by omega), r1]
  have e0 : blit d.tmp 0 (b0 :: counts) 0 = b0 := rfl
  simp only [e0, maxTc, maxTh, dht_counts _ _ _ hlen, maxNCodes, hsum]
  rw [if_neg (by omega), if_neg (by
    intro h
    rcases h with h | ⟨h, h'⟩
    · omega
    · rw [hprog0] at h
      have := hprog h; omega),
    if_neg (by omega), if_neg (by omega), if_neg (by omega)]
  -- the values
  set tc := b0.val >>> 4 with htcdef
  set th := b0.val &&& 0x0f with hthdef
  set d1 : Decoder := { d0 with tmp := blit d.tmp 0 (b0 :: counts) } with hd1
  set hh : Huffman := { d1.huff tc th with nCodes := vals.length } with hhdef
  obtain ⟨d3, q1, q2, q3, q4, q5⟩ := readFull_ok vals.length (setHuff d1 tc th hh) r4 r5
    (by rw [stream_setHuff, hd1, stream_with_tmp, r3]; simp)
  have hs2 : (setHuff d1 tc th hh).stream = vals ++ rest := by
    rw [stream_setHuff, hd1, stream_with_tmp, r3]
  rw [hs2] at q1 q3
  rw [List.take_left, ] at q1
  rw [List.drop_left] at q3
  rw [q1]
  simp only
  have hh3 : d3.huff = (setHuff d1 tc th hh).huff := sameBytes_huff q2
  have ht3 : d3.huff tc th = hh := by rw [hh3]; exact setHuff_get _ _ _ _
  rw [ht3]
  refine ⟨_, (fun i => (d1.tmp (i + 1)).val), rfl, ?_, ?_, ?_, q4, q5⟩
  · intro i hi
    simp only [hd1]
    rw [blit_zero_lt _ _ _ (by simp only [List.length_cons]; omega)]
    simp [List.getD_eq_getElem?_getD, List.getElem?_eq_getElem (show i < counts.length by omega)]
  · -- everything but the input side is `d` with the rebuilt table
    have s1 : SameButBytes (setHuff d1 tc th hh) d3 := q2
    have s2 := setHuff_sameBytes s1 tc th
      (buildHuffman { hh with vals := blit hh.vals 0 vals } (fun i => (d1.tmp (i + 1)).val))
    rw [setHuff_setHuff] at s2
    have s3 : SameButInput (setHuff d tc th
        (buildHuffman { hh with vals := blit hh.vals 0 vals } (fun i => (d1.tmp (i + 1)).val)))
        (setHuff d1 tc th
        (buildHuffman { hh with vals := blit hh.vals 0 vals } (fun i => (d1.tmp (i + 1)).val))) := by
      have a1 : SameButBytes d d0 := r2
      have a2 := setHuff_sameBytes a1 tc th
        (buildHuffman { hh with vals := blit hh.vals 0 vals } (fun i => (d1.tmp (i + 1)).val))
      have a3 := sameBytes_toInput a2
      exact a3
    have s4 := sameInput_trans s3 (sameBytes_toInput s2)
    have e1 : d1.huff tc th = d.huff tc th := by rw [hd1]; show d0.huff tc th = _; rw [hhuff0]
    have e2 : hh = { d.huff tc th with nCodes := vals.length } := by rw [hhdef, e1]
    rw [e2] at s4 ⊢
    exact s4
  · show (setHuff d3 tc th _).stream = rest
    rw [stream_setHuff, q3]

theorem bitsOf_length (x t : Nat) : (bitsOf x t).length = t := by
  induction t with
  | zero => rfl
  | succ t ih => simp [bitsOf, ih]

theorem bitsOf_congr (x y : Nat) (t : Nat) (h : ∀ j, j < t → x.testBit j = y.testBit j) :
    bitsOf x t = bitsOf y t := by
  induction t with
  | zero => rfl
  | succ t ih =>
    simp only [bitsOf]
    rw [h t (by omega), ih (fun j hj => h j (by omega))]

theorem ofBits_foldl (bs : List Bool) (acc : Nat) :
    bs.foldl (fun acc b => 2 * acc + b.toNat) acc = acc * 2 ^ bs.length + ofBits bs := by
  induction bs generalizing acc with
  | nil => simp [ofBits]
  | cons b bs ih =>
    unfold ofBits
    simp only [List.foldl_cons, List.length_cons]
    rw [ih, ih (2 * 0 + b.toNat)]
    ring

theorem ofBits_cons (b : Bool) (bs : List Bool) :
    ofBits (b :: bs) = b.toNat * 2 ^ bs.length + ofBits bs := by
  unfold ofBits
  simp only [List.foldl_cons]
  rw [ofBits_foldl]
  simp [ofBits]

/-- The value of the `t` low bits of `x` is `x mod 2^t`. -/
theorem ofBits_bitsOf (x t : Nat) : ofBits (bitsOf x t) = x % 2 ^ t := by
  induction t with
  | zero => simp [bitsOf, ofBits, Nat.mod_one]
  | succ t ih =>
    simp only [bitsOf]
    rw [ofBits_cons, bitsOf_length, ih, Nat.toNat_testBit]
    have h1 : x % 2 ^ (t + 1) = 2 ^ t * (x / 2 ^ t % 2) + x % 2 ^ t := by
      rw [pow_succ, Nat.mod_mul]
      omega
    rw [h1]; ring

theorem ofBits_lt (bs : List Bool) : ofBits bs < 2 ^ bs.length := by
  induction bs with
  | nil => simp [ofBits]
  | cons b bs ih =>
    rw [ofBits_cons, List.length_cons, pow_succ]
    cases b <;> simp <;> omega

theorem nextBits_succ (t : Nat) (d : Decoder) :
    nextBits (t + 1) d =
      match decodeBit d with
      | .fail e d1 => .fail e d1
      | .ok b d1 =>
        match nextBits t d1 with
        | .fail e d2 => .fail e d2
        | .ok bs d2 => .ok (b :: bs) d2 := rfl

/-- Reading `s + t` bits is reading `s` bits and then `t` bits. -/
theorem nextBits_add (s : Nat) : ∀ (t : Nat) (d : Decoder),
    nextBits (s + t) d =
      match nextBits s d with
      | .fail e d1 => .fail e d1
      | .ok bs d1 =>
        match nextBits t d1 with
        | .fail e d2 => .fail e d2
        | .ok bs2 d2 => .ok (bs ++ bs2) d2 := by
  induction s with
  | zero =>
    intro t d
    simp only [Nat.zero_add, nextBits]
    cases nextBits t d <;> rfl
  | succ s ih =>
    intro t d
    rw [show s + 1 + t = (s + t) + 1 by omega, nextBits_succ, nextBits_succ]
    cases decodeBit d with
    | fail e d1 => rfl
    | ok b d1 =>
      simp only
      rw [ih t d1]
      cases nextBits s d1 with
      | fail e d2 => rfl
      | ok bs d2 =>
        simp only
        cases nextBits t d2 <;> rfl

theorem and_mask_ne_zero (a k : Nat) (hk : k ≠ 0) :
    decide (a &&& (if k = 0 then 0 else 2 ^ (k - 1)) ≠ 0) = a.testBit (k - 1) := by
  rw [if_neg hk, Nat.and_two_pow]
  cases h : a.testBit (k - 1)
  · simp
  · simp

/-- A state whose accumulator holds at least `t` bits delivers them from the
accumulator: they are bits `n-1 .. n-t` of `a`, and only `n` and `m` change. -/
theorem nextBits_acc (t : Nat) : ∀ (d : Decoder) (k : Nat), k ≤ 23 → d.bits.n = (k : Int) →
    d.bits.m = (if k = 0 then 0 else 2 ^ (k - 1)) → t ≤ k →
    nextBits t d = .ok (bitsOf (d.bits.a >>> (k - t)) t)
      { d with bits := { a := d.bits.a, m := (if k - t = 0 then 0 else 2 ^ (k - t - 1)),
                         n := ((k - t : Nat) : Int) } } := by
  induction t with
  | zero =>
    intro d k hk hn hm _
    simp only [nextBits, bitsOf, Nat.sub_zero]
    rw [← hn, ← hm]
  | succ t ih =>
    intro d k hk hn hm ht
    rw [nextBits_succ]
    have hne : ¬ d.bits.n = 0 := by omega
    unfold decodeBit
    rw [if_neg hne]
    unfold takeBit
    simp only
    have hm1 : d.bits.m >>> 1 = (if k - 1 = 0 then 0 else 2 ^ (k - 1 - 1)) := by
      rw [hm]; exact mask_shiftRight k 1 (by omega)
    rw [ih { d with bits := { d.bits with n := d.bits.n - 1, m := d.bits.m >>> 1 } } (k - 1)
      (by omega) (by show d.bits.n - 1 = ((k - 1 : Nat) : Int); omega) hm1 (by omega)]
    simp only [bitsOf]
    have e1 : k - 1 - t = k - (t + 1) := by omega
    rw [e1, hm, and_mask_ne_zero _ _ (by omega), Nat.testBit_shiftRight]
    have e2 : k - (t + 1) + t = k - 1 := by omega
    rw [e2]

theorem ensureNBitsLoop_succ (fuel : Nat) (k : Int) (d : Decoder) :
    ensureNBitsLoop (fuel + 1) k d =
      match readByteStuffedByte d with
      | .fail e d1 => .fail (if e = .eof then errShortHuffmanData else e) d1
      | .ok c d1 =>
        if (refillBits d1.bits c.val).n ≥ k then .ok () { d1 with bits := refillBits d1.bits c.val }
        else ensureNBitsLoop fuel k { d1 with bits := refillBits d1.bits c.val } := rfl

theorem testBit_refill (a c j : Nat) (hc : c < 256) (hj : j < 24) :
    ((((a <<< 8) % 4294967296) ||| c) >>> 8).testBit j = a.testBit j := by
  rw [Nat.testBit_shiftRight, Nat.testBit_or]
  have h2 : c.testBit (8 + j) = false := by
    apply Nat.testBit_lt_two_pow
    calc c < 256 := hc
      _ = 2 ^ 8 := by norm_num
      _ ≤ 2 ^ (8 + j) := Nat.pow_le_pow_right (by norm_num) (by omega)
  have h3 : (4294967296 : Nat) = 2 ^ 32 := by norm_num
  rw [h2, h3, Nat.testBit_mod_two_pow, Nat.testBit_shiftLeft]
  simp
  intro h; omega

/-- A refill does not change the bits that are read next: when `t` bits can be
read from `d` and the accumulator holds fewer than `t`, the next stuffed byte
can be read, and from the state after the refill the same bits are read and
the same state is reached. -/
theorem nextBits_refill (t : Nat) (d : Decoder) (k : Nat) (hk : k ≤ 15) (hn : d.bits.n = (k : Int))
    (hm : d.bits.m = (if k = 0 then 0 else 2 ^ (k - 1))) (ht : k < t)
    (bs : List Bool) (d' : Decoder) (hbits : nextBits t d = .ok bs d') :
    ∃ c d1, readByteStuffedByte d = .ok c d1 ∧
      nextBits t { d1 with bits := refillBits d.bits c.val } = .ok bs d' := by
  obtain ⟨r, hr⟩ : ∃ r, t = k + (r + 1) := ⟨t - k - 1, by omega⟩
  subst hr
  rw [nextBits_add, nextBits_acc k d k (by omega) hn hm (le_refl _)] at hbits
  simp only [Nat.sub_self, if_true, Nat.shiftRight_zero] at hbits
  rw [nextBits_succ] at hbits
  -- the first bit after the accumulator has run empty needs a refill
  have hdb : decodeBit { d with bits := { a := d.bits.a, m := 0, n := ((0 : Nat) : Int) } }
      = match readByteStuffedByte d with
        | .fail e d1 => .fail (if e = .eof then errShortHuffmanData else e)
            { d1 with bits := { a := d.bits.a, m := 0, n := ((0 : Nat) : Int) } }
        | .ok c d1 => takeBit { d1 with bits :=
            { a := ((d.bits.a <<< 8) % 4294967296) ||| c.val, m := 128, n := 8 } } := by
    unfold decodeBit
    rw [if_pos (by rfl)]
    unfold ensureNBits
    simp only [Nat.cast_zero, sub_zero, Int.toNat_one, Nat.reduceAdd]
    rw [ensureNBitsLoop_succ, readByteStuffedByte_bits]
    cases readByteStuffedByte d with
    | fail e d1 => rfl
    | ok c d1 => rfl
  rw [hdb] at hbits
  cases hrb : readByteStuffedByte d with
  | fail e d1 => rw [hrb] at hbits; simp at hbits
  | ok c d1 =>
    rw [hrb] at hbits
    simp only at hbits
    refine ⟨c, d1, rfl, ?_⟩
    rw [nextBits_add]
    have hm' : (refillBits d.bits c.val).m = (if k + 8 = 0 then 0 else 2 ^ (k + 8 - 1)) := by
      show (if d.bits.m = 0 then 1 <<< 7 else (d.bits.m <<< 8) % 4294967296) = _
      rw [hm, mask_refill k hk]
    rw [nextBits_acc k { d1 with bits := refillBits d.bits c.val } (k + 8) (by omega)
      (by show d.bits.n + 8 = ((k + 8 : Nat) : Int); omega) hm' (by omega)]
    simp only [Nat.add_sub_cancel_left]
    have hbo : bitsOf ((refillBits d.bits c.val).a >>> 8) k = bitsOf d.bits.a k := by
      apply bitsOf_congr
      intro j hj
      exact testBit_refill d.bits.a c.val j c.isLt (by omega)
    have hbo' : bitsOf (({ d1 with bits := refillBits d.bits c.val } : Decoder).bits.a >>> 8) k
        = bitsOf d.bits.a k := hbo
    rw [hbo', nextBits_succ]
    have hdb2 : decodeBit { ({ d1 with bits := refillBits d.bits c.val } : Decoder) with
        bits := { a := (refillBits d.bits c.val).a, m := (if 8 = 0 then 0 else 2 ^ (8 - 1)),
                  n := ((8 : Nat) : Int) } }
        = takeBit { d1 with bits :=
            { a := ((d.bits.a <<< 8) % 4294967296) ||| c.val, m := 128, n := 8 } } := by
      unfold decodeBit
      rw [if_neg (by simp)]
      rfl
    have hdb3 := hdb2
    simp only at hdb3
    rw [hdb3]
    exact hbits

theorem bitsInv_refillBits (b : Bits) (c : Nat) (h : BitsInv b) (hn : b.n ≤ 15) :
    BitsInv (refillBits b c) := bitsInv_refill b c h hn

/-- With enough fuel, `ensureNBits(k)` succeeds whenever the bits it is asked
for can be read one at a time, and it does not change what is read next. -/
theorem ensureNBitsLoop_next (fuel : Nat) : ∀ (k : Int) (t : Nat) (d : Decoder) (bs : List Bool)
    (d' : Decoder), BitsInv d.bits → d.bits.n < k → k ≤ 16 → k ≤ (t : Int) →
    (k - d.bits.n).toNat ≤ fuel → nextBits t d = .ok bs d' →
    ∃ d1, ensureNBitsLoop fuel k d = .ok () d1 ∧ BitsInv d1.bits ∧ k ≤ d1.bits.n ∧
      nextBits t d1 = .ok bs d' := by
  induction fuel with
  | zero => intro k t d bs d' _ hlt _ _ hf _; omega
  | succ fuel ih =>
    intro k t d bs d' hinv hlt hk hkt hf hbits
    obtain ⟨n0, hn23, hn, hm⟩ := (bitsInv_iff d.bits).1 hinv
    obtain ⟨c, d1, hr, hnext⟩ := nextBits_refill t d n0 (by omega) hn hm (by omega) bs d' hbits
    have hb : d1.bits = d.bits := by
      have := readByteStuffedByte_keeps_bits d
      rw [hr] at this; exact this
    rw [ensureNBitsLoop_succ, hr]
    simp only
    rw [hb]
    have hinv2 := bitsInv_refillBits d.bits c.val hinv (by omega)
    by_cases hge : (refillBits d.bits c.val).n ≥ k
    · rw [if_pos hge]
      exact ⟨_, rfl, hinv2, hge, hnext⟩
    · rw [if_neg hge]
      have hn2 : (refillBits d.bits c.val).n = d.bits.n + 8 := rfl
      exact ih k t _ bs d' hinv2 (by show (refillBits d.bits c.val).n < k; omega) hk hkt
        (by show (k - (refillBits d.bits c.val).n).toNat ≤ fuel; rw [hn2] at hge ⊢; omega)
        hnext

theorem ensureNBits_next (k : Int) (t : Nat) (d : Decoder) (bs : List Bool) (d' : Decoder)
    (hinv : BitsInv d.bits) (hlt : d.bits.n < k) (hk : k ≤ 16) (hkt : k ≤ (t : Int))
    (hbits : nextBits t d = .ok bs d') :
    ∃ d1, ensureNBits k d = .ok () d1 ∧ BitsInv d1.bits ∧ k ≤ d1.bits.n ∧
      nextBits t d1 = .ok bs d' :=
  ensureNBitsLoop_next _ k t d bs d' hinv hlt hk hkt (by omega) hbits

theorem u32_i32_natCast (y : Nat) : u32 (i32 (y : Int)) = y % 4294967296 := by
  unfold u32 i32; omega

theorem and_low_mask (y t : Nat) (ht : t ≤ 16) :
    and32 (i32 (y : Int)) (i32 ((2 : Int) ^ t - 1)) = ((y % 2 ^ t : Nat) : Int) := by
  unfold and32
  have h1 : ((2 : Int) ^ t - 1) = ((2 ^ t - 1 : Nat) : Int) := by
    have : 1 ≤ 2 ^ t := Nat.one_le_two_pow
    push_cast [Nat.cast_sub this]; ring
  have hp : 2 ^ t ≤ 2 ^ 16 := Nat.pow_le_pow_right (by norm_num) ht
  have hp16 : (2 : Nat) ^ 16 = 65536 := by norm_num
  rw [h1, u32_i32_natCast, u32_i32_natCast, Nat.mod_eq_of_lt (a := 2 ^ t - 1) (by omega),
    Nat.and_pow_two_sub_one_eq_mod]
  have h32 : (4294967296 : Nat) = 2 ^ 32 := by norm_num
  rw [h32, Nat.mod_mod_of_dvd _ (pow_dvd_pow 2 (by omega : t ≤ 32))]
  have hlt : y % 2 ^ t < 2 ^ t := Nat.mod_lt _ (by positivity)
  apply i32_of_range <;> omega

theorem receiveExtendTail_spec (t : Nat) (ht : t ≤ 16) (d : Decoder) (k : Nat) (hk : k ≤ 23)
    (hn : d.bits.n = (k : Int)) (htk : t ≤ k) :
    receiveExtendTail t d = .ok (extend ((d.bits.a >>> (k - t)) % 2 ^ t) t)
      { d with bits := { d.bits with n := d.bits.n - (t : Int), m := d.bits.m >>> t } } := by
  unfold receiveExtendTail
  simp only
  have hs : i32 ((2 : Int) ^ t) = 2 ^ t := by
    have h0 : (0 : Int) ≤ 2 ^ t := by positivity
    have : (2 : Int) ^ t ≤ 2 ^ 16 := pow_le_pow_right₀ (by norm_num) ht
    norm_num at this
    apply i32_of_range <;> linarith
  have hsh : ((d.bits.n - (t : Int)) % 256).toNat = k - t := by omega
  rw [hs, hsh, and_low_mask _ t ht]
  have hp : (2 : Nat) ^ t ≤ 2 ^ 16 := Nat.pow_le_pow_right (by norm_num) ht
  have hp16 : (2 : Nat) ^ 16 = 65536 := by norm_num
  have hlt : (d.bits.a >>> (k - t)) % 2 ^ t < 2 ^ t := Nat.mod_lt _ (by positivity)
  generalize (d.bits.a >>> (k - t)) % 2 ^ t = x at hlt
  have hhalf : ((2 : Int) ^ t) >>> 1 = ((2 ^ t / 2 : Nat) : Int) := by
    rw [int_shiftRight_one]; norm_cast
  rw [hhalf]
  unfold extend
  by_cases h0 : t = 0
  · subst h0
    simp only [pow_zero] at hlt ⊢
    have : x = 0 := by omega
    subst this
    simp
  · obtain ⟨t', rfl⟩ : ∃ t', t = t' + 1 := ⟨t - 1, by omega⟩
    rw [if_neg (show ¬ t' + 1 = 0 by omega)]
    have e : (2 : Nat) ^ (t' + 1) / 2 = 2 ^ t' := by rw [pow_succ]; omega
    rw [e, Nat.add_sub_cancel]
    have hneg : i32 (-((2 : Int) ^ (t' + 1))) = -((2 : Int) ^ (t' + 1)) := by
      have : ((2 : Int) ^ (t' + 1)) = ((2 ^ (t' + 1) : Nat) : Int) := by norm_cast
      rw [this]
      apply i32_of_range <;> omega
    by_cases hx : x < 2 ^ t'
    · rw [if_pos (by exact_mod_cast hx), if_pos hx, hneg]
      have : ((2 : Int) ^ (t' + 1)) = ((2 ^ (t' + 1) : Nat) : Int) := by norm_cast
      rw [this, i32_of_range _ (by omega) (by omega)]
      congr 1
      ring
    · rw [if_neg (by exact_mod_cast hx), if_neg hx]

theorem Result.eq_ok_of_val {α : Type} {r : Result α} {a : α} (h : r.val? = some a) :
    r = .ok a r.state := by
  cases r with
  | ok b d => simp only [Result.val?, Option.some.injEq] at h; subst h; rfl
  | fail e d => simp [Result.val?] at h

theorem receiveExtendTail_next (t : Nat) (ht : t ≤ 16) (d : Decoder) (hinv : BitsInv d.bits)
    (htn : (t : Int) ≤ d.bits.n) (bs : List Bool) (d' : Decoder)
    (hbits : nextBits t d = .ok bs d') :
    receiveExtendTail t d = .ok (extend (ofBits bs) t) d' := by
  obtain ⟨k, hk, hn, hm⟩ := (bitsInv_iff d.bits).1 hinv
  have htk : t ≤ k := by omega
  rw [nextBits_acc t d k hk hn hm htk] at hbits
  simp only [Result.ok.injEq] at hbits
  obtain ⟨h1, h2⟩ := hbits
  rw [receiveExtendTail_spec t ht d k hk hn htk, ← h1, ofBits_bitsOf, ← h2]
  have e1 : d.bits.n - (t : Int) = ((k - t : Nat) : Int) := by omega
  have e2 : d.bits.m >>> t = (if k - t = 0 then 0 else 2 ^ (k - t - 1)) := by
    rw [hm, mask_shiftRight k t htk]
  rw [e1, e2]

theorem receiveExtend_next (t : Nat) (ht : t ≤ 16) (d : Decoder) (hinv : BitsInv d.bits)
    (bs : List Bool) (d' : Decoder) (hbits : nextBits t d = .ok bs d') :
    receiveExtend t d = .ok (extend (ofBits bs) t) d' := by
  unfold receiveExtend
  by_cases hlt : d.bits.n < (t : Int)
  · rw [if_pos hlt]
    obtain ⟨d1, h1, h2, h3, h4⟩ := ensureNBits_next t t d bs d' hinv hlt (by omega) (le_refl _) hbits
    rw [h1]
    exact receiveExtendTail_next t ht d1 h2 h3 bs d' h4
  · rw [if_neg hlt]
    exact receiveExtendTail_next t ht d hinv (by omega) bs d' hbits

theorem nextBits_length (t : Nat) : ∀ (d : Decoder) (bs : List Bool) (d' : Decoder),
    nextBits t d = .ok bs d' → bs.length = t := by
  induction t with
  | zero => intro d bs d' h; simp only [nextBits, Result.ok.injEq] at h; rw [← h.1]; rfl
  | succ t ih =>
    intro d bs d' h
    rw [nextBits_succ] at h
    cases h1 : decodeBit d with
    | fail e d1 => rw [h1] at h; simp at h
    | ok b d1 =>
      rw [h1] at h
      simp only at h
      cases h2 : nextBits t d1 with
      | fail e d2 => rw [h2] at h; simp at h
      | ok bs2 d2 =>
        rw [h2] at h
        simp only [Result.ok.injEq] at h
        rw [← h.1, List.length_cons, ih d1 bs2 d2 h2]

/-- C13: from a state that satisfies the bit accumulator invariant, for every
`t` in 0..16, when the next `t` unread bits (as `t` calls of `decodeBit` would
deliver them, most significant first) have the unsigned value `x`,
`receiveExtend(t)` succeeds, consumes exactly those bits (it ends in the state
reached by reading them) and returns `x` if `x ≥ 2^(t-1)` and `x - 2^t + 1`
otherwise; for `t = 0` it changes nothing and returns 0, and for `t > 0` the
result `r` has `2^(t-1) ≤ |r| ≤ 2^t - 1`. -/
theorem receiveExtend_spec (t : Nat) (d : Decoder) (bs : List Bool) (ht : t ≤ 16)
    (hinv : BitsInv d.bits) (hbits : (nextBits t d).val? = some bs) :
    receiveExtend t d = .ok (extend (ofBits bs) t) (nextBits t d).state ∧
    (t = 0 → receiveExtend t d = .ok 0 d) ∧
    (0 < t → ((2 : Int) ^ (t - 1) ≤ (ofBits bs : Int) → extend (ofBits bs) t = (ofBits bs : Int)) ∧
      ((ofBits bs : Int) < 2 ^ (t - 1) → extend (ofBits bs) t = (ofBits bs : Int) - 2 ^ t + 1) ∧
      (2 : Int) ^ (t - 1) ≤ |extend (ofBits bs) t| ∧ |extend (ofBits bs) t| ≤ 2 ^ t - 1) := by
  have hb := Result.eq_ok_of_val hbits
  have hmain := receiveExtend_next t ht d hinv bs _ hb
  refine ⟨hmain, ?_, ?_⟩
  · intro h0
    subst h0
    have : nextBits 0 d = .ok [] d := rfl
    rw [this] at hb hmain
    simp only [Result.ok.injEq, Result.state, and_true] at hb
    rw [hmain, ← hb]
    rfl
  · intro hpos
    have hlen := nextBits_length t d bs _ hb
    have hlt := ofBits_lt bs
    rw [hlen] at hlt
    generalize ofBits bs = x at hlt
    obtain ⟨t', rfl⟩ : ∃ t', t = t' + 1 := ⟨t - 1, by omega⟩
    unfold extend
    rw [if_neg (by omega), Nat.add_sub_cancel]
    have hp : (2 : Nat) ^ (t' + 1) = 2 * 2 ^ t' := by rw [pow_succ]; ring
    have hpi : (2 : Int) ^ (t' + 1) = 2 * 2 ^ t' := by rw [pow_succ]; ring
    have hc : ((2 ^ t' : Nat) : Int) = (2 : Int) ^ t' := by norm_cast
    have hpos' : 0 < 2 ^ t' := by positivity
    refine ⟨?_, ?_, ?_, ?_⟩
    · intro h
      rw [if_neg (by intro h'; have : (x : Int) < ((2 ^ t' : Nat) : Int) := by exact_mod_cast h'
                     rw [hc] at this; omega)]
    · intro h
      rw [if_pos (by have : (x : Int) < ((2 ^ t' : Nat) : Int) := by rw [hc]; exact h
                     exact_mod_cast this)]
    · by_cases hx : x < 2 ^ t'
      · rw [if_pos hx, hpi, ← hc]
        rw [abs_of_nonpos (by omega)]
        omega
      · rw [if_neg hx, ← hc, abs_of_nonneg (by omega)]
        omega
    · by_cases hx : x < 2 ^ t'
      · rw [if_pos hx, hpi, ← hc]
        rw [abs_of_nonpos (by omega)]
        omega
      · rw [if_neg hx, hpi, ← hc, abs_of_nonneg (by omega)]
        omega

theorem noReader_huff {a b : Decoder} (h : a.noReader = b.noReader) : a.huff = b.huff :=
  show a.noReader.huff = b.noReader.huff from congrArg Decoder.huff h

theorem tablesOk_of_huff {a b : Decoder} (h : a.huff = b.huff) (hb : TablesOk b) : TablesOk a := by
  intro tc th
  rw [h]; exact hb tc th

theorem tablesOk_setHuff (d : Decoder) (tc th : Nat) (x : Huffman) (hd : TablesOk d) (hx : LutOk x) :
    TablesOk (setHuff d tc th x) := by
  intro a b
  show LutOk (upd d.huff tc (upd (d.huff tc) th x) a b)
  by_cases h1 : a = tc
  · subst h1
    rw [upd_same]
    by_cases h2 : b = th
    · subst h2; rw [upd_same]; exact hx
    · rw [upd_other _ _ _ _ h2]; exact hd a b
  · rw [upd_other _ _ _ _ h1]; exact hd a b

theorem zeroDecoder_tablesOk (r : Source) : TablesOk (zeroDecoder r) :=
  fun _ _ _ => Or.inl rfl

/-- The loop of `processDHT` keeps every look-up table well-formed, whether it
succeeds or fails. -/
theorem dhtLoop_tablesOk (fuel : Nat) : ∀ (n : Nat) (d : Decoder), TablesOk d →
    TablesOk (dhtLoop fuel n d).state := by
  induction fuel with
  | zero => intro n d h; exact h
  | succ fuel ih =>
    intro n d hd
    rw [dhtLoop]
    split
    · split
      · exact hd
      · have hf := readFullTmp_frame 17 d
        cases h1 : readFullTmp 17 d with
        | fail e d1 =>
          rw [h1] at hf
          exact tablesOk_of_huff (noReader_huff hf) hd
        | ok u d1 =>
          rw [h1] at hf
          have hd1 : TablesOk d1 := tablesOk_of_huff (noReader_huff hf) hd
          simp only
          split
          · exact hd1
          · split
            · exact hd1
            · have hl : LutOk { d1.huff ((d1.tmp 0).val >>> 4) ((d1.tmp 0).val &&& 15) with
                  nCodes := (((List.range maxCodeLength).map (fun i => (d1.tmp (i + 1)).val)).sum : Nat) } :=
                hd1 _ _
              have hd2 := tablesOk_setHuff d1 ((d1.tmp 0).val >>> 4) ((d1.tmp 0).val &&& 15) _ hd1 hl
              split
              · exact hd2
              · split
                · exact hd2
                · split
                  · exact hd2
                  · have hf2 := readFull_frame
                      ((List.range maxCodeLength).map (fun i => (d1.tmp (i + 1)).val)).sum
                      (setHuff d1 ((d1.tmp 0).val >>> 4) ((d1.tmp 0).val &&& 15)
                        { d1.huff ((d1.tmp 0).val >>> 4) ((d1.tmp 0).val &&& 15) with
                          nCodes := (((List.range maxCodeLength).map
                            (fun i => (d1.tmp (i + 1)).val)).sum : Nat) })
                    cases h2 : readFull
                      ((List.range maxCodeLength).map (fun i => (d1.tmp (i + 1)).val)).sum
                      (setHuff d1 ((d1.tmp 0).val >>> 4) ((d1.tmp 0).val &&& 15)
                        { d1.huff ((d1.tmp 0).val >>> 4) ((d1.tmp 0).val &&& 15) with
                          nCodes := (((List.range maxCodeLength).map
                            (fun i => (d1.tmp (i + 1)).val)).sum : Nat) }) with
                    | fail e d3 =>
                      rw [h2] at hf2
                      exact tablesOk_of_huff (noReader_huff hf2) hd2
                    | ok p d3 =>
                      rw [h2] at hf2
                      have hd3 : TablesOk d3 := tablesOk_of_huff (noReader_huff hf2) hd2
                      simp only
                      apply ih
                      exact tablesOk_setHuff d3 _ _ _ hd3 (buildHuffman_lutOk _ _)
    · exact hd

/-- C13 at `t = 3` on a stream whose first byte is `0xa5`: the bits 1, 0, 1. -/
theorem receiveExtend_spec_witness :
    3 ≤ 16 ∧ BitsInv (zeroDecoder (sourceOf [0xa5])).bits ∧
    (nextBits 3 (zeroDecoder (sourceOf [0xa5]))).val? = some [true, false, true] ∧
    (receiveExtend 3 (zeroDecoder (sourceOf [0xa5]))
      = .ok (extend (ofBits [true, false, true]) 3) (nextBits 3 (zeroDecoder (sourceOf [0xa5]))).state ∧
    (3 = 0 → receiveExtend 3 (zeroDecoder (sourceOf [0xa5])) = .ok 0 (zeroDecoder (sourceOf [0xa5]))) ∧
    (0 < 3 → ((2 : Int) ^ (3 - 1) ≤ (ofBits [true, false, true] : Int) →
        extend (ofBits [true, false, true]) 3 = (ofBits [true, false, true] : Int)) ∧
      ((ofBits [true, false, true] : Int) < 2 ^ (3 - 1) →
        extend (ofBits [true, false, true]) 3 = (ofBits [true, false, true] : Int) - 2 ^ 3 + 1) ∧
      (2 : Int) ^ (3 - 1) ≤ |extend (ofBits [true, false, true]) 3| ∧
      |extend (ofBits [true, false, true]) 3| ≤ 2 ^ 3 - 1)) :=
  ⟨by decide, by decide, by decide!,
    receiveExtend_spec 3 (zeroDecoder (sourceOf [0xa5])) [true, false, true] (by decide) (by decide)
      (by decide!)⟩

theorem canonBase_countsOf (counts : List Byte) (hlen : counts.length = 16) :
    canonBase (countsOf counts) 16 = (counts.map (fun b => b.val)).sum := by
  unfold canonBase
  congr 1
  apply List.ext_getElem
  · simp [hlen]
  · intro k h1 h2
    simp only [List.length_map, List.length_range] at h1
    simp [countsOf, List.getD_eq_getElem?_getD, List.getElem?_eq_getElem (show k < counts.length by omega)]

theorem dhtLoop_zero_length (fuel : Nat) (d : Decoder) : dhtLoop (fuel + 1) 0 d = .ok () d := by
  rw [dhtLoop]
  simp

theorem sameInput_huff {a b : Decoder} (h : SameButInput a b) : b.huff = a.huff :=
  show b.noInput.huff = a.noInput.huff from congrArg Decoder.huff h

/-- C11: for every DHT table entry (class and destination accepted, sixteen
counts, then the values) whose counts describe a valid prefix code, `processDHT`
accepts the entry, and the ladder of `decodeHuffman` on the table it has built,
fed the `t + 1` bits of the canonical code word of the `k`-th value most
significant bit first, returns that value and ends in the state reached by
reading exactly those `t + 1` bits.  The `k`-th value has a code of length
`t + 1` when `canonBase t ≤ k < canonBase (t + 1)`, and its code word is then
`canonFirst t + (k - canonBase t)`. -/
theorem processDHT_ladder_canonical (d : Decoder) (b0 : Byte) (counts vals rest : List Byte)
    (t k : Nat) (e : Decoder)
    (hle : d.bytes.i ≤ d.bytes.j) (hnu : d.bytes.nUnreadable = 0)
    (hlen : counts.length = 16) (hst : d.stream = b0 :: counts ++ (vals ++ rest))
    (htc : b0.val >>> 4 ≤ 1) (hth : b0.val &&& 0x0f ≤ 3)
    (hprog : d.progressive = false → b0.val &&& 0x0f ≤ 1)
    (hsum : (counts.map (fun b => b.val)).sum = vals.length)
    (hvalid : ValidCounts (countsOf counts))
    (ht : t < 16) (hk1 : canonBase (countsOf counts) t ≤ k)
    (hk2 : k < canonBase (countsOf counts) (t + 1))
    (hbits : (nextBits (t + 1) e).val? = some
      (bitsOf (canonFirst (countsOf counts) t + (k - canonBase (countsOf counts) t)) (t + 1))) :
    (processDHT (vals.length + 17) d).err? = none ∧
    (processDHT (vals.length + 17) d).state.stream = rest ∧
    canonFirst (countsOf counts) t + (k - canonBase (countsOf counts) t) < 2 ^ (t + 1) ∧
    huffSlowPath ((processDHT (vals.length + 17) d).state.huff (b0.val >>> 4) (b0.val &&& 0x0f))
      maxCodeLength 0 0 e = .ok (vals.getD k (byte 0)).val (nextBits (t + 1) e).state := by
  have hb16 := canonBase_countsOf counts hlen
  obtain ⟨v1, v2, v3⟩ := hvalid
  rw [hb16, hsum] at v1 v2
  obtain ⟨dF, nc, q1, q2, q3, q4, q5, q6⟩ := dhtLoop_accepts (vals.length + 17) (vals.length + 17) d
    b0 counts vals rest hle hnu hlen hst htc hth hprog hsum v1 v2 (le_refl _)
  have hproc : processDHT (vals.length + 17) d = .ok () dF := by
    unfold processDHT
    rw [q1, Nat.sub_self]
    exact dhtLoop_zero_length _ dF
  rw [hproc]
  have hagree : ∀ i, i < 16 → countsOf counts i = nc i := fun i hi => (q2 i hi).symm
  have ecf : ∀ i, i ≤ 16 → canonFirst (countsOf counts) i = canonFirst nc i :=
    canonFirst_congr _ _ 16 hagree
  have ecb : ∀ i, i ≤ 16 → canonBase (countsOf counts) i = canonBase nc i :=
    canonBase_congr _ _ 16 hagree
  have htable : dF.huff (b0.val >>> 4) (b0.val &&& 0x0f) =
      buildHuffman { d.huff (b0.val >>> 4) (b0.val &&& 0x0f) with
          nCodes := vals.length,
          vals := blit (d.huff (b0.val >>> 4) (b0.val &&& 0x0f)).vals 0 vals } nc := by
    rw [sameInput_huff q3]
    exact setHuff_get _ _ _ _
  have hbs := canonBase_succ (countsOf counts) t
  have hnt : countsOf counts t ≠ 0 := by omega
  have hw : canonFirst (countsOf counts) t + (k - canonBase (countsOf counts) t) < 2 ^ (t + 1) := by
    have := v3 t ht hnt
    omega
  have hkv : k < vals.length := by
    have := canonBase_mono (countsOf counts) (t + 1) 16 (by omega)
    omega
  refine ⟨rfl, q4, hw, ?_⟩
  show huffSlowPath (dF.huff (b0.val >>> 4) (b0.val &&& 0x0f)) maxCodeLength 0 0 e = _
  rw [htable]
  have hb := Result.eq_ok_of_val hbits
  rw [ecf t (by omega), ecb t (by omega)] at hb hw
  have hlad := huffSlowPath_canonical
    { d.huff (b0.val >>> 4) (b0.val &&& 0x0f) with
        nCodes := vals.length, vals := blit (d.huff (b0.val >>> 4) (b0.val &&& 0x0f)).vals 0 vals }
    nc (by rw [← ecb 16 (le_refl _), hb16, hsum]; exact v2) t k ht
    (by rw [← ecb t (by omega)]; exact hk1) (by rw [← ecb (t + 1) (by omega)]; exact hk2)
    t 0 e _ (by omega) hb
  have hz : (canonFirst nc t + (k - canonBase nc t)) >>> (t + 1) = 0 := by
    rw [Nat.shiftRight_eq_div_pow]
    exact Nat.div_eq_of_lt hw
  rw [hz, Nat.mul_zero, Nat.sub_zero] at hlad
  have hv : blit (d.huff (b0.val >>> 4) (b0.val &&& 0x0f)).vals 0 vals k = vals.getD k (byte 0) := by
    rw [blit_zero_lt _ _ _ hkv]
    simp [List.getD_eq_getElem?_getD, List.getElem?_eq_getElem hkv]
  rw [hlad]
  show Result.ok (blit (d.huff (b0.val >>> 4) (b0.val &&& 0x0f)).vals 0 vals k).val _ = _
  rw [hv]

/-- C11 at a table with the codes `0` (value 5) and `10` (value 9): the second
value is decoded from the bits 1, 0 of the byte `0x80`. -/
theorem processDHT_ladder_canonical_witness :
    (dhtTwoDecoder.bytes.i ≤ dhtTwoDecoder.bytes.j ∧ dhtTwoDecoder.bytes.nUnreadable = 0 ∧
     countsTwo.length = 16 ∧
     dhtTwoDecoder.stream = byte 0 :: countsTwo ++ (bytesOf [5, 9] ++ []) ∧
     (byte 0).val >>> 4 ≤ 1 ∧ (byte 0).val &&& 0x0f ≤ 3 ∧
     (dhtTwoDecoder.progressive = false → (byte 0).val &&& 0x0f ≤ 1) ∧
     (countsTwo.map (fun b => b.val)).sum = (bytesOf [5, 9]).length ∧
     ValidCounts (countsOf countsTwo) ∧ 1 < 16 ∧
     canonBase (countsOf countsTwo) 1 ≤ 1 ∧ 1 < canonBase (countsOf countsTwo) (1 + 1) ∧
     (nextBits (1 + 1) (zeroDecoder (sourceOf [0x80]))).val? = some
       (bitsOf (canonFirst (countsOf countsTwo) 1 + (1 - canonBase (countsOf countsTwo) 1)) (1 + 1))) ∧
    ((processDHT ((bytesOf [5, 9]).length + 17) dhtTwoDecoder).err? = none ∧
     (processDHT ((bytesOf [5, 9]).length + 17) dhtTwoDecoder).state.stream = [] ∧
     canonFirst (countsOf countsTwo) 1 + (1 - canonBase (countsOf countsTwo) 1) < 2 ^ (1 + 1) ∧
     huffSlowPath ((processDHT ((bytesOf [5, 9]).length + 17) dhtTwoDecoder).state.huff
         ((byte 0).val >>> 4) ((byte 0).val &&& 0x0f))
       maxCodeLength 0 0 (zeroDecoder (sourceOf [0x80]))
       = .ok ((bytesOf [5, 9]).getD 1 (byte 0)).val
           (nextBits (1 + 1) (zeroDecoder (sourceOf [0x80]))).state) :=
  ⟨⟨by decide, rfl, rfl, rfl, by decide, by decide, fun _ => by decide, by decide, by decide,
     by decide, by decide, by decide, by decide!⟩,
   processDHT_ladder_canonical dhtTwoDecoder (byte 0) countsTwo (bytesOf [5, 9]) [] 1 1
     (zeroDecoder (sourceOf [0x80])) (by decide) rfl rfl rfl (by decide) (by decide)
     (fun _ => by decide) (by decide) (by decide) (by decide) (by decide) (by decide) (by decide!)⟩

theorem noScan_of_noReader {a b : Decoder} (h : a.noReader = b.noReader) : a.noScan = b.noScan := by
  unfold Decoder.noScan
  rw [h]

theorem readByteStuffedByte_frame (d : Decoder) :
    (readByteStuffedByte d).state.noReader = d.noReader := by
  unfold readByteStuffedByte
  simp only
  split
  · split
    · rfl
    · split <;> rfl
  · have h1 := readByte_frame { d with bytes := { d.bytes with nUnreadable := 0 } }
    cases hr : readByte { d with bytes := { d.bytes with nUnreadable := 0 } } with
    | fail e d1 => rw [hr] at h1; exact h1
    | ok x d1 =>
      rw [hr] at h1
      simp only
      split
      · exact h1
      · have h2 := readByte_frame { d1 with bytes := { d1.bytes with nUnreadable := 1 } }
        cases hr2 : readByte { d1 with bytes := { d1.bytes with nUnreadable := 1 } } with
        | fail e d3 => rw [hr2] at h2; exact h2.trans h1
        | ok y d3 =>
          rw [hr2] at h2
          simp only
          split
          · exact h2.trans h1
          · exact h2.trans h1

theorem ensureNBitsLoop_frame (fuel : Nat) : ∀ (k : Int) (d : Decoder),
    (ensureNBitsLoop fuel k d).state.noReader = d.noReader := by
  induction fuel with
  | zero => intro k d; rfl
  | succ fuel ih =>
    intro k d
    rw [ensureNBitsLoop_succ]
    have h1 := readByteStuffedByte_frame d
    cases hr : readByteStuffedByte d with
    | fail e d1 => rw [hr] at h1; exact h1
    | ok c d1 =>
      rw [hr] at h1
      simp only
      split
      · exact h1
      · rw [ih]; exact h1

theorem ensureNBits_frame (k : Int) (d : Decoder) : (ensureNBits k d).state.noReader = d.noReader :=
  ensureNBitsLoop_frame _ k d

theorem decodeBit_frame (d : Decoder) : (decodeBit d).state.noReader = d.noReader := by
  unfold decodeBit
  split
  · have h1 := ensureNBits_frame 1 d
    cases hr : ensureNBits 1 d with
    | fail e d1 => rw [hr] at h1; exact h1
    | ok u d1 => rw [hr] at h1; exact h1
  · rfl

theorem receiveExtendTail_frame (t : Nat) (d : Decoder) :
    (receiveExtendTail t d).state.noReader = d.noReader := by
  unfold receiveExtendTail
  simp only
  split <;> rfl

theorem receiveExtend_frame (t : Nat) (d : Decoder) :
    (receiveExtend t d).state.noReader = d.noReader := by
  unfold receiveExtend
  split
  · have h1 := ensureNBits_frame t d
    cases hr : ensureNBits (t : Int) d with
    | fail e d1 => rw [hr] at h1; exact h1
    | ok u d1 => rw [hr] at h1; exact (receiveExtendTail_frame t d1).trans h1
  · exact receiveExtendTail_frame t d

theorem decodeBits_frame (k : Int) (d : Decoder) : (decodeBits k d).state.noReader = d.noReader := by
  unfold decodeBits
  split
  · have h1 := ensureNBits_frame k d
    cases hr : ensureNBits k d with
    | fail e d1 => rw [hr] at h1; exact h1
    | ok u d1 => rw [hr] at h1; exact h1
  · rfl

theorem unreadByteStuffedByte_frame (d : Decoder) :
    (unreadByteStuffedByte d).state.noReader = d.noReader := rfl

theorem huffSlowPath_frame (h : Huffman) (cnt : Nat) : ∀ (i code : Nat) (d : Decoder),
    (huffSlowPath h cnt i code d).state.noReader = d.noReader := by
  induction cnt with
  | zero => intro i code d; rfl
  | succ cnt ih =>
    intro i code d
    unfold huffSlowPath
    have h1 := decodeBit_frame d
    cases hr : decodeBit d with
    | fail e d1 => rw [hr] at h1; exact h1
    | ok bit d1 =>
      rw [hr] at h1
      simp only
      generalize (if bit = true then code ||| 1 else code) = code1
      split
      · exact h1
      · rw [ih]; exact h1

theorem noReader_setBits (d : Decoder) (b : Bits) :
    ({ d with bits := b } : Decoder).noReader = d.noReader := rfl

theorem decodeHuffman_frame (h : Huffman) (d : Decoder) :
    (decodeHuffman h d).state.noReader = d.noReader := by
  unfold decodeHuffman
  split
  · rfl
  · simp only
    by_cases hlt : d.bits.n < 8
    · rw [if_pos hlt]
      have h1 := ensureNBits_frame 8 d
      cases hr : ensureNBits 8 d with
      | fail e d1 =>
        rw [hr] at h1
        simp only
        by_cases hE : e ≠ errMissingFF00 ∧ e ≠ errShortHuffmanData
        · rw [if_pos hE]; exact h1
        · rw [if_neg hE]
          by_cases hU : d1.bytes.nUnreadable ≠ 0
          · rw [if_pos hU]
            simp only
            rw [huffSlowPath_frame]
            exact h1
          · rw [if_neg hU]
            simp only
            rw [huffSlowPath_frame]
            exact h1
      | ok u d1 =>
        rw [hr] at h1
        simp only
        split
        · exact (noReader_setBits d1 _).trans h1
        · rw [huffSlowPath_frame]; exact h1
    · rw [if_neg hlt]
      simp only
      split
      · exact noReader_setBits d _
      · rw [huffSlowPath_frame]

theorem noScan_setEob (d : Decoder) (e : Nat) :
    ({ d with eobRun := e } : Decoder).noScan = d.noScan := rfl

theorem decodeBit_noScan (d : Decoder) : (decodeBit d).state.noScan = d.noScan :=
  noScan_of_noReader (decodeBit_frame d)

theorem decodeHuffman_noScan (h : Huffman) (d : Decoder) :
    (decodeHuffman h d).state.noScan = d.noScan :=
  noScan_of_noReader (decodeHuffman_frame h d)

theorem receiveExtend_noScan (t : Nat) (d : Decoder) :
    (receiveExtend t d).state.noScan = d.noScan :=
  noScan_of_noReader (receiveExtend_frame t d)

theorem readEobRun_noScan (val0 : Nat) (d : Decoder) :
    (readEobRun val0 d).state.noScan = d.noScan := by
  unfold readEobRun
  simp only
  split
  · have h1 := noScan_of_noReader (decodeBits_frame (val0 : Int) { d with eobRun := u16 (1 <<< val0) })
    cases hr : decodeBits (val0 : Int) { d with eobRun := u16 (1 <<< val0) } with
    | fail e d2 => rw [hr] at h1; exact h1
    | ok bits d2 => rw [hr] at h1; exact h1
  · rfl

theorem refineNonZeroesLoop_noScan (zigEnd : Nat) (delta : Int) (fuel : Nat) :
    ∀ (b : Block) (zig : Nat) (nz : Int) (d : Decoder),
    (refineNonZeroesLoop zigEnd delta fuel b zig nz d).state.noScan = d.noScan := by
  induction fuel with
  | zero => intro b zig nz d; rfl
  | succ fuel ih =>
    intro b zig nz d
    unfold refineNonZeroesLoop
    split
    · simp only
      split
      · split
        · rfl
        · exact ih _ _ _ _
      · have h1 := decodeBit_noScan d
        cases hr : decodeBit d with
        | fail e d1 => rw [hr] at h1; exact h1
        | ok bit d1 =>
          rw [hr] at h1
          simp only
          split
          · rw [ih]; exact h1
          · split
            · rw [ih]; exact h1
            · rw [ih]; exact h1
    · rfl

theorem refineNonZeroes_noScan (b : Block) (zig zigEnd : Nat) (nz delta : Int) (d : Decoder) :
    (refineNonZeroes b zig zigEnd nz delta d).state.noScan = d.noScan :=
  refineNonZeroesLoop_noScan _ _ _ _ _ _ _

theorem refineLoop_noScan (h : Huffman) (zigEnd : Nat) (delta : Int) (fuel : Nat) :
    ∀ (b : Block) (zig : Nat) (d : Decoder),
    (refineLoop h zigEnd delta fuel b zig d).state.noScan = d.noScan := by
  induction fuel with
  | zero => intro b zig d; rfl
  | succ fuel ih =>
    intro b zig d
    unfold refineLoop
    split
    · have h1 := decodeHuffman_noScan h d
      cases hr : decodeHuffman h d with
      | fail e d1 => rw [hr] at h1; exact h1
      | ok value d1 =>
        rw [hr] at h1
        simp only
        have hnext : ∀ (z : Int) (d2 : Decoder), d2.noScan = d.noScan →
            (match refineNonZeroes b zig zigEnd ((value >>> 4 : Nat) : Int) delta d2 with
              | .fail e d3 => (Result.fail e d3 : Result (Block × Nat))
              | .ok (b1, zig1) d3 =>
                if zig1 > zigEnd then .fail (.format "too many coefficients") d3
                else if z ≠ 0 then
                  refineLoop h zigEnd delta fuel (upd b1 (unzig zig1) z) (zig1 + 1) d3
                else refineLoop h zigEnd delta fuel b1 (zig1 + 1) d3).state.noScan = d.noScan := by
          intro z d2 hd2
          have h2 := refineNonZeroes_noScan b zig zigEnd ((value >>> 4 : Nat) : Int) delta d2
          cases hr2 : refineNonZeroes b zig zigEnd ((value >>> 4 : Nat) : Int) delta d2 with
          | fail e d3 => rw [hr2] at h2; exact h2.trans hd2
          | ok p d3 =>
            rw [hr2] at h2
            obtain ⟨b1, zig1⟩ := p
            simp only
            split
            · exact h2.trans hd2
            · split
              · rw [ih]; exact h2.trans hd2
              · rw [ih]; exact h2.trans hd2
        split
        · split
          · have h2 := readEobRun_noScan (value >>> 4) d1
            cases hr2 : readEobRun (value >>> 4) d1 with
            | fail e d2 => rw [hr2] at h2; exact h2.trans h1
            | ok u d2 => rw [hr2] at h2; exact h2.trans h1
          · exact hnext 0 d1 h1
        · split
          · have h2 := decodeBit_noScan d1
            cases hr2 : decodeBit d1 with
            | fail e d2 => rw [hr2] at h2; exact h2.trans h1
            | ok bit d2 =>
              rw [hr2] at h2
              exact hnext _ d2 (h2.trans h1)
          · exact h1
    · rfl

theorem refine_noScan (b : Block) (h : Huffman) (zigStart zigEnd : Nat) (delta : Int) (d : Decoder) :
    (refine b h zigStart zigEnd delta d).state.noScan = d.noScan := by
  unfold refine
  split
  · split
    · rfl
    · have h1 := decodeBit_noScan d
      cases hr : decodeBit d with
      | fail e d1 => rw [hr] at h1; exact h1
      | ok bit d1 =>
        rw [hr] at h1
        simp only
        split <;> exact h1
  · simp only
    have hl : (if d.eobRun = 0 then refineLoop h zigEnd delta (zigEnd + 2 - zigStart) b zigStart d
        else (Result.ok (b, zigStart) d : Result (Block × Nat))).state.noScan = d.noScan := by
      split
      · exact refineLoop_noScan _ _ _ _ _ _ _
      · rfl
    cases hr : (if d.eobRun = 0 then refineLoop h zigEnd delta (zigEnd + 2 - zigStart) b zigStart d
        else (Result.ok (b, zigStart) d : Result (Block × Nat))) with
    | fail e d1 => rw [hr] at hl; exact hl
    | ok p d1 =>
      rw [hr] at hl
      obtain ⟨b1, zig⟩ := p
      simp only
      split
      · have h2 := refineNonZeroes_noScan b1 zig zigEnd (-1) delta
          { d1 with eobRun := u16 (d1.eobRun + 65535) }
        cases hr2 : refineNonZeroes b1 zig zigEnd (-1) delta
            { d1 with eobRun := u16 (d1.eobRun + 65535) } with
        | fail e d2 => rw [hr2] at h2; exact h2.trans ((noScan_setEob d1 _).trans hl)
        | ok p2 d2 =>
          rw [hr2] at h2
          exact h2.trans ((noScan_setEob d1 _).trans hl)
      · exact hl

theorem acLoop_noScan (huff : Huffman) (zigEnd al : Nat) (fuel : Nat) :
    ∀ (zig : Nat) (b : Block) (d : Decoder),
    (acLoop huff zigEnd al fuel zig b d).state.noScan = d.noScan := by
  induction fuel with
  | zero => intro zig b d; rfl
  | succ fuel ih =>
    intro zig b d
    unfold acLoop
    split
    · have h1 := decodeHuffman_noScan huff d
      cases hr : decodeHuffman huff d with
      | fail e d1 => rw [hr] at h1; exact h1
      | ok value d1 =>
        rw [hr] at h1
        simp only
        split
        · split
          · exact h1
          · have h2 := receiveExtend_noScan (value &&& 0x0f) d1
            cases hr2 : receiveExtend (value &&& 0x0f) d1 with
            | fail e d2 => rw [hr2] at h2; exact h2.trans h1
            | ok ac d2 =>
              rw [hr2] at h2
              simp only
              rw [ih]; exact h2.trans h1
        · split
          · have h2 := readEobRun_noScan (value >>> 4) d1
            cases hr2 : readEobRun (value >>> 4) d1 with
            | fail e d2 => rw [hr2] at h2; exact h2.trans h1
            | ok u d2 => rw [hr2] at h2; exact (noScan_setEob d2 _).trans (h2.trans h1)
          · rw [ih]; exact h1
    · rfl

theorem scanFrame_refl (sv : ScanVars) (d : Decoder) : ScanFrame (.ok sv d) sv d :=
  ⟨rfl, fun sv1 d1 h => by injection h with h1 h2; subst h1; exact ⟨rfl, rfl⟩⟩

theorem scanFrame_fail (e : Err) (d1 : Decoder) (sv : ScanVars) (d : Decoder)
    (h : d1.noScan = d.noScan) : ScanFrame (.fail e d1) sv d :=
  ⟨h, fun sv1 d2 h => by cases h⟩

theorem scanFrame_trans {r : Result ScanVars} {sv sv1 : ScanVars} {d d1 : Decoder}
    (h1 : d1.noScan = d.noScan) (h2 : sv1.mcu = sv.mcu ∧ sv1.expectedRST = sv.expectedRST)
    (h : ScanFrame r sv1 d1) : ScanFrame r sv d :=
  ⟨h.1.trans h1, fun sv2 d2 he => ⟨((h.2 sv2 d2 he).1).trans h2.1, ((h.2 sv2 d2 he).2).trans h2.2⟩⟩

theorem sosDC_frame (sp : ScanParams) (i : Nat) (b : Block) (sv : ScanVars) (d : Decoder) :
    (sosDC sp i b sv d).state.noScan = d.noScan ∧
    ∀ z b1 sv1 d1, sosDC sp i b sv d = .ok (z, b1, sv1) d1 →
      sv1.mcu = sv.mcu ∧ sv1.expectedRST = sv.expectedRST := by
  unfold sosDC
  simp only
  have h1 := decodeHuffman_noScan (d.huff dcTable (sp.scan i).td) d
  cases hr : decodeHuffman (d.huff dcTable (sp.scan i).td) d with
  | fail e d1 => rw [hr] at h1; exact ⟨h1, fun _ _ _ _ h => by cases h⟩
  | ok value d1 =>
    rw [hr] at h1
    simp only
    split
    · exact ⟨h1, fun _ _ _ _ h => by cases h⟩
    · have h2 := receiveExtend_noScan value d1
      cases hr2 : receiveExtend value d1 with
      | fail e d2 => rw [hr2] at h2; exact ⟨h2.trans h1, fun _ _ _ _ h => by cases h⟩
      | ok dcDelta d2 =>
        rw [hr2] at h2
        refine ⟨h2.trans h1, fun z b1 sv1 d3 h => ?_⟩
        simp only [Result.ok.injEq, Prod.mk.injEq] at h
        rw [← h.1.2.2]; exact ⟨rfl, rfl⟩

theorem sosAC_frame (sp : ScanParams) (i zig : Nat) (b : Block) (sv : ScanVars) (d : Decoder) :
    (sosAC sp i zig b sv d).state.noScan = d.noScan ∧
    ∀ b1 sv1 d1, sosAC sp i zig b sv d = .ok (b1, sv1) d1 → sv1 = sv := by
  unfold sosAC
  split
  · refine ⟨noScan_setEob d _, fun b2 sv2 d2 h => ?_⟩
    simp only [Result.ok.injEq, Prod.mk.injEq] at h
    exact h.1.2.symm
  · have h2 := acLoop_noScan (d.huff acTable (sp.scan i).ta) sp.zigEnd sp.al
      (sp.zigEnd + 2 - zig) zig b d
    cases hr3 : acLoop (d.huff acTable (sp.scan i).ta) sp.zigEnd sp.al
        (sp.zigEnd + 2 - zig) zig b d with
    | fail e d2 => rw [hr3] at h2; exact ⟨h2, fun _ _ _ h => by cases h⟩
    | ok b2 d2 =>
      rw [hr3] at h2
      refine ⟨h2, fun b3 sv3 d3 h => ?_⟩
      simp only [Result.ok.injEq, Prod.mk.injEq] at h
      exact h.1.2.symm

theorem sosCoeffs_frame (sp : ScanParams) (i : Nat) (b : Block) (sv : ScanVars) (d : Decoder) :
    (sosCoeffs sp i b sv d).state.noScan = d.noScan ∧
    ∀ b1 sv1 d1, sosCoeffs sp i b sv d = .ok (b1, sv1) d1 →
      sv1.mcu = sv.mcu ∧ sv1.expectedRST = sv.expectedRST := by
  unfold sosCoeffs
  simp only
  split
  · have h1 := refine_noScan b (d.huff acTable (sp.scan i).ta) sp.zigStart sp.zigEnd (2 ^ sp.al) d
    cases hr : refine b (d.huff acTable (sp.scan i).ta) sp.zigStart sp.zigEnd (2 ^ sp.al) d with
    | fail e d1 => rw [hr] at h1; exact ⟨h1, fun _ _ _ h => by cases h⟩
    | ok b1 d1 =>
      rw [hr] at h1
      refine ⟨h1, fun b2 sv2 d2 h => ?_⟩
      simp only [Result.ok.injEq, Prod.mk.injEq] at h
      rw [← h.1.2]; exact ⟨rfl, rfl⟩
  · have hdc : (if sp.zigStart = 0 then sosDC sp i b sv d
          else (Result.ok (sp.zigStart, b, sv) d : Result (Nat × Block × ScanVars))).state.noScan
          = d.noScan ∧
        ∀ z b1 sv1 d1, (if sp.zigStart = 0 then sosDC sp i b sv d
          else (Result.ok (sp.zigStart, b, sv) d : Result (Nat × Block × ScanVars)))
          = .ok (z, b1, sv1) d1 → sv1.mcu = sv.mcu ∧ sv1.expectedRST = sv.expectedRST := by
      split
      · exact sosDC_frame sp i b sv d
      · refine ⟨rfl, fun z b1 sv1 d3 h => ?_⟩
        simp only [Result.ok.injEq, Prod.mk.injEq] at h
        rw [← h.1.2.2]; exact ⟨rfl, rfl⟩
    cases hr : (if sp.zigStart = 0 then sosDC sp i b sv d
          else (Result.ok (sp.zigStart, b, sv) d : Result (Nat × Block × ScanVars))) with
    | fail e d1 => rw [hr] at hdc; exact ⟨hdc.1, fun _ _ _ h => by cases h⟩
    | ok p d1 =>
      rw [hr] at hdc
      obtain ⟨zig, b1, sv1⟩ := p
      have hsv := hdc.2 zig b1 sv1 d1 rfl
      simp only
      have hac := sosAC_frame sp i zig b1 sv1 d1
      refine ⟨hac.1.trans hdc.1, fun b2 sv2 d2 h => ?_⟩
      rw [hac.2 b2 sv2 d2 h]; exact hsv

theorem noScan_setProg (d : Decoder) (p : Nat → Option (List Block)) :
    ({ d with progCoeffs := p } : Decoder).noScan = d.noScan := rfl

theorem noScan_setImg1 (d : Decoder) (g : Option Gray) :
    ({ d with img1 := g } : Decoder).noScan = d.noScan := rfl

theorem noScan_setImg3 (d : Decoder) (g : Option YCbCr) :
    ({ d with img3 := g } : Decoder).noScan = d.noScan := rfl

theorem noScan_setBlack (d : Decoder) (g : Option (List Nat)) :
    ({ d with blackPix := g } : Decoder).noScan = d.noScan := rfl

theorem sosBlock_frame (sp : ScanParams) (i bx by_ : Nat) (sv : ScanVars) (d : Decoder) :
    ScanFrame (sosBlock sp i bx by_ sv d) sv d := by
  unfold sosBlock
  simp only
  generalize (if d.progressive = true then
      ((d.progCoeffs (sp.scan i).compIndex).getD []).getD
        (by_ * sp.mxx * (d.comp (sp.scan i).compIndex).h + bx) zeroBlock
    else zeroBlock) = b0
  have hc := sosCoeffs_frame sp i b0 sv d
  cases hr : sosCoeffs sp i b0 sv d with
  | fail e d1 => rw [hr] at hc; exact scanFrame_fail _ _ _ _ hc.1
  | ok p d1 =>
    rw [hr] at hc
    obtain ⟨b, sv1⟩ := p
    have hsv := hc.2 b sv1 d1 rfl
    have h1 : d1.noScan = d.noScan := hc.1
    simp only
    split
    · exact scanFrame_trans ((noScan_setProg d1 _).trans h1) hsv (scanFrame_refl _ _)
    · split
      · split
        · exact scanFrame_fail _ _ _ _ h1
        · exact scanFrame_trans ((noScan_setImg1 d1 _).trans h1) hsv (scanFrame_refl _ _)
      · split
        · exact scanFrame_fail _ _ _ _ h1
        · split
          · exact scanFrame_trans ((noScan_setImg3 d1 _).trans h1) hsv (scanFrame_refl _ _)
          · split
            · exact scanFrame_trans ((noScan_setImg3 d1 _).trans h1) hsv (scanFrame_refl _ _)
            · split
              · exact scanFrame_trans ((noScan_setImg3 d1 _).trans h1) hsv (scanFrame_refl _ _)
              · split
                · exact scanFrame_trans ((noScan_setBlack d1 _).trans h1) hsv (scanFrame_refl _ _)
                · exact scanFrame_fail _ _ _ _ h1

theorem sosUnit_frame (sp : ScanParams) (mx my i j : Nat) (sv : ScanVars) (d : Decoder) :
    ScanFrame (sosUnit sp mx my i j sv d) sv d := by
  unfold sosUnit
  simp only
  split
  · exact sosBlock_frame _ _ _ _ _ _
  · split
    · exact scanFrame_trans rfl ⟨rfl, rfl⟩ (scanFrame_refl _ _)
    · exact scanFrame_trans rfl ⟨rfl, rfl⟩ (sosBlock_frame _ _ _ _ _ _)

theorem sosUnits_frame (sp : ScanParams) (mx my i : Nat) (cnt : Nat) :
    ∀ (j : Nat) (sv : ScanVars) (d : Decoder), ScanFrame (sosUnits sp mx my i cnt j sv d) sv d := by
  induction cnt with
  | zero => intro j sv d; exact scanFrame_refl _ _
  | succ cnt ih =>
    intro j sv d
    unfold sosUnits
    have h1 := sosUnit_frame sp mx my i j sv d
    cases hr : sosUnit sp mx my i j sv d with
    | fail e d1 => rw [hr] at h1; exact h1
    | ok sv1 d1 =>
      rw [hr] at h1
      exact scanFrame_trans h1.1 (h1.2 sv1 d1 rfl) (ih _ _ _)

theorem sosComps_frame (sp : ScanParams) (mx my : Nat) (cnt : Nat) :
    ∀ (i : Nat) (sv : ScanVars) (d : Decoder), ScanFrame (sosComps sp mx my cnt i sv d) sv d := by
  induction cnt with
  | zero => intro i sv d; exact scanFrame_refl _ _
  | succ cnt ih =>
    intro i sv d
    unfold sosComps
    simp only
    have h1 := sosUnits_frame sp mx my i
      ((d.comp (sp.scan i).compIndex).h * (d.comp (sp.scan i).compIndex).v) 0 sv d
    cases hr : sosUnits sp mx my i
      ((d.comp (sp.scan i).compIndex).h * (d.comp (sp.scan i).compIndex).v) 0 sv d with
    | fail e d1 => rw [hr] at h1; exact h1
    | ok sv1 d1 =>
      rw [hr] at h1
      exact scanFrame_trans h1.1 (h1.2 sv1 d1 rfl) (ih _ _ _)

theorem sosUnits_append (sp : ScanParams) (mx my i : Nat) (a : Nat) :
    ∀ (b j : Nat) (sv : ScanVars) (d : Decoder),
    sosUnits sp mx my i (a + b) j sv d =
      match sosUnits sp mx my i a j sv d with
      | .fail e d1 => .fail e d1
      | .ok sv1 d1 => sosUnits sp mx my i b (j + a) sv1 d1 := by
  induction a with
  | zero => intro b j sv d; simp [sosUnits]
  | succ a ih =>
    intro b j sv d
    rw [show a + 1 + b = (a + b) + 1 by omega]
    simp only [sosUnits]
    cases sosUnit sp mx my i j sv d with
    | fail e d1 => rfl
    | ok sv1 d1 =>
      simp only
      rw [ih b (j + 1) sv1 d1, show j + (a + 1) = j + 1 + a by omega]

theorem sosComps_append (sp : ScanParams) (mx my : Nat) (a : Nat) :
    ∀ (b i : Nat) (sv : ScanVars) (d : Decoder),
    sosComps sp mx my (a + b) i sv d =
      match sosComps sp mx my a i sv d with
      | .fail e d1 => .fail e d1
      | .ok sv1 d1 => sosComps sp mx my b (i + a) sv1 d1 := by
  induction a with
  | zero => intro b i sv d; simp [sosComps]
  | succ a ih =>
    intro b i sv d
    rw [show a + 1 + b = (a + b) + 1 by omega]
    simp only [sosComps]
    cases sosUnits sp mx my i ((d.comp (sp.scan i).compIndex).h * (d.comp (sp.scan i).compIndex).v)
        0 sv d with
    | fail e d1 => rfl
    | ok sv1 d1 =>
      simp only
      rw [ih b (i + 1) sv1 d1, show i + (a + 1) = i + 1 + a by omega]

theorem sosMX_append (sp : ScanParams) (my : Nat) (a : Nat) :
    ∀ (b mx : Nat) (sv : ScanVars) (d : Decoder),
    sosMX sp my (a + b) mx sv d =
      match sosMX sp my a mx sv d with
      | .fail e d1 => .fail e d1
      | .ok sv1 d1 => sosMX sp my b (mx + a) sv1 d1 := by
  induction a with
  | zero => intro b mx sv d; simp [sosMX]
  | succ a ih =>
    intro b mx sv d
    rw [show a + 1 + b = (a + b) + 1 by omega]
    simp only [sosMX]
    cases sosComps sp mx my sp.nComp 0 sv d with
    | fail e d1 => rfl
    | ok sv1 d1 =>
      simp only
      cases sosRestart sp sv1 d1 with
      | fail e d2 => rfl
      | ok sv2 d2 =>
        simp only
        rw [ih b (mx + 1) sv2 d2, show mx + (a + 1) = mx + 1 + a by omega]

theorem sosMY_append (sp : ScanParams) (a : Nat) :
    ∀ (b my : Nat) (sv : ScanVars) (d : Decoder),
    sosMY sp (a + b) my sv d =
      match sosMY sp a my sv d with
      | .fail e d1 => .fail e d1
      | .ok sv1 d1 => sosMY sp b (my + a) sv1 d1 := by
  induction a with
  | zero => intro b my sv d; simp [sosMY]
  | succ a ih =>
    intro b my sv d
    rw [show a + 1 + b = (a + b) + 1 by omega]
    simp only [sosMY]
    cases sosMX sp my sp.mxx 0 sv d with
    | fail e d1 => rfl
    | ok sv1 d1 =>
      simp only
      rw [ih b (my + 1) sv1 d1, show my + (a + 1) = my + 1 + a by omega]

/-- A failure while the MCU at column `mx` of row `my` is handled is the
failure of the whole MCU loops.  `x` is what the loop over the MCUs of a row
does from that MCU on. -/
theorem sosMY_fail_at (sp : ScanParams) (my mx : Nat) (sv0 svA svB : ScanVars)
    (d0 dA dB : Decoder) (e : Err) (dE : Decoder)
    (hmy : my < sp.myy) (hmx : mx < sp.mxx)
    (hA : sosMY sp my 0 sv0 d0 = .ok svA dA)
    (hB : sosMX sp my mx 0 svA dA = .ok svB dB)
    (hE : sosMX sp my (sp.mxx - mx) mx svB dB = .fail e dE) :
    sosMY sp sp.myy 0 sv0 d0 = .fail e dE := by
  have e1 : sp.myy = my + ((sp.myy - my - 1) + 1) := by omega
  rw [e1, sosMY_append, hA]
  simp only [Nat.zero_add]
  rw [sosMY]
  have e2 : sp.mxx = mx + (sp.mxx - mx) := by omega
  have hrow : sosMX sp my sp.mxx 0 svA dA = .fail e dE := by
    conv_lhs => rw [e2]
    rw [sosMX_append, hB]
    simp only [Nat.zero_add]
    exact hE
  rw [hrow]

/-- A failure of the coefficient decoding of a data unit that is decoded is the
failure of the loop over the MCUs of its row, from its MCU on. -/
theorem sosMX_fail_unit (sp : ScanParams) (my mx i j : Nat) (svB svC sv : ScanVars)
    (dB dC d : Decoder) (e : Err) (dE : Decoder) (cnt : Nat)
    (hi : i < sp.nComp)
    (hj : j < (dC.comp (sp.scan i).compIndex).h * (dC.comp (sp.scan i).compIndex).v)
    (hC : sosComps sp mx my i 0 svB dB = .ok svC dC)
    (hD : sosUnits sp mx my i j 0 svC dC = .ok sv d)
    (hE : sosUnit sp mx my i j sv d = .fail e dE) :
    sosMX sp my (cnt + 1) mx svB dB = .fail e dE := by
  rw [sosMX]
  have e1 : sp.nComp = i + ((sp.nComp - i - 1) + 1) := by omega
  have hcomps : sosComps sp mx my sp.nComp 0 svB dB = .fail e dE := by
    rw [e1, sosComps_append, hC]
    simp only [Nat.zero_add]
    rw [sosComps]
    have e2 : (dC.comp (sp.scan i).compIndex).h * (dC.comp (sp.scan i).compIndex).v
        = j + (((dC.comp (sp.scan i).compIndex).h * (dC.comp (sp.scan i).compIndex).v - j - 1) + 1) := by
      omega
    have hunits : sosUnits sp mx my i
        ((dC.comp (sp.scan i).compIndex).h * (dC.comp (sp.scan i).compIndex).v) 0 svC dC
        = .fail e dE := by
      rw [e2, sosUnits_append, hD]
      simp only [Nat.zero_add]
      rw [sosUnits, hE]
    rw [hunits]
  rw [hcomps]

theorem sosDC_excessive (sp : ScanParams) (i : Nat) (b : Block) (sv : ScanVars) (d : Decoder)
    (value : Nat) (hv : (decodeHuffman (d.huff dcTable (sp.scan i).td) d).val? = some value)
    (hgt : 16 < value) :
    sosDC sp i b sv d = .fail (.unsupported "excessive DC component")
      (decodeHuffman (d.huff dcTable (sp.scan i).td) d).state := by
  have h := Result.eq_ok_of_val hv
  unfold sosDC
  simp only
  generalize (decodeHuffman (d.huff dcTable (sp.scan i).td) d).state = d1 at h
  rw [h]
  simp only [Result.state]
  rw [if_pos hgt]

theorem sosBlock_excessive (sp : ScanParams) (i bx by_ : Nat) (sv : ScanVars) (d : Decoder)
    (value : Nat) (hah : sp.ah = 0) (hss : sp.zigStart = 0)
    (hv : (decodeHuffman (d.huff dcTable (sp.scan i).td) d).val? = some value)
    (hgt : 16 < value) :
    sosBlock sp i bx by_ sv d = .fail (.unsupported "excessive DC component")
      (decodeHuffman (d.huff dcTable (sp.scan i).td) d).state := by
  unfold sosBlock
  simp only
  unfold sosCoeffs
  simp only
  rw [if_neg (by simp [hah]), if_pos hss, sosDC_excessive sp i _ sv d value hv hgt]

theorem sosUnit_excessive (sp : ScanParams) (mx my i j : Nat) (sv : ScanVars) (d : Decoder)
    (value : Nat) (hah : sp.ah = 0) (hss : sp.zigStart = 0)
    (hin : sp.nComp ≠ 1 ∨
      ((sv.blockCount % (sp.mxx * (d.comp (sp.scan i).compIndex).h)) * 8 < d.width ∧
       (sv.blockCount / (sp.mxx * (d.comp (sp.scan i).compIndex).h)) * 8 < d.height))
    (hv : (decodeHuffman (d.huff dcTable (sp.scan i).td) d).val? = some value)
    (hgt : 16 < value) :
    sosUnit sp mx my i j sv d = .fail (.unsupported "excessive DC component")
      (decodeHuffman (d.huff dcTable (sp.scan i).td) d).state := by
  unfold sosUnit
  simp only
  by_cases hn : sp.nComp ≠ 1
  · rw [if_pos hn]
    exact sosBlock_excessive sp i _ _ sv d value hah hss hv hgt
  · rw [if_neg hn]
    rcases hin with h | ⟨h1, h2⟩
    · exact absurd h hn
    · rw [if_neg (by omega)]
      exact sosBlock_excessive sp i _ _ _ d value hah hss hv hgt

/-- C14 (amended): when, in a scan that carries DC coefficients (`Ah = 0`,
`Ss = 0`), the symbol decoded from the DC Huffman table for a data unit is
greater than 16, the scan is aborted with `UnsupportedError("excessive DC
component")`, right after that symbol.  The data unit is unit `j` of component
`i` of the MCU in column `mx` of row `my`, reached after the rows, MCUs,
components and units before it were decoded (`hA` to `hD`), and it is a unit
that is decoded (`hin`: in a one-component scan, it lies inside the image).  The
block "Decode the DC coefficient", the MCU loops and `processSOS` itself all
return that error. -/
theorem sos_excessive_dc (sp : ScanParams) (my mx i j value : Nat)
    (sv0 svA svB svC sv : ScanVars) (d0 dA dB dC d : Decoder)
    (hah : sp.ah = 0) (hss : sp.zigStart = 0)
    (hmy : my < sp.myy) (hmx : mx < sp.mxx) (hi : i < sp.nComp)
    (hj : j < (dC.comp (sp.scan i).compIndex).h * (dC.comp (sp.scan i).compIndex).v)
    (hA : sosMY sp my 0 sv0 d0 = .ok svA dA)
    (hB : sosMX sp my mx 0 svA dA = .ok svB dB)
    (hC : sosComps sp mx my i 0 svB dB = .ok svC dC)
    (hD : sosUnits sp mx my i j 0 svC dC = .ok sv d)
    (hin : sp.nComp ≠ 1 ∨
      ((sv.blockCount % (sp.mxx * (d.comp (sp.scan i).compIndex).h)) * 8 < d.width ∧
       (sv.blockCount / (sp.mxx * (d.comp (sp.scan i).compIndex).h)) * 8 < d.height))
    (hv : (decodeHuffman (d.huff dcTable (sp.scan i).td) d).val? = some value)
    (hgt : 16 < value) :
    (∀ b svx, sosDC sp i b svx d = .fail (.unsupported "excessive DC component")
      (decodeHuffman (d.huff dcTable (sp.scan i).td) d).state) ∧
    sosMY sp sp.myy 0 sv0 d0 = .fail (.unsupported "excessive DC component")
      (decodeHuffman (d.huff dcTable (sp.scan i).td) d).state ∧
    (∀ (n nc : Nat) (scan : Nat → ScanComp) (zs ze ah al : Nat) (dd d1 : Decoder),
      sv0 = scanVars0 → sosPrepare nc scan zs ze ah al d1 = .ok sp d0 →
      processSOS n dd = sosScan nc scan zs ze ah al d1 →
      (processSOS n dd).err? = some (.unsupported "excessive DC component")) := by
  have hU := sosUnit_excessive sp mx my i j sv d value hah hss hin hv hgt
  have hX := sosMX_fail_unit sp my mx i j svB svC sv dB dC d _ _ (sp.mxx - mx - 1) hi hj hC hD hU
  have hY := sosMY_fail_at sp my mx sv0 svA svB d0 dA dB _ _ hmy hmx hA hB
    (by rw [show sp.mxx - mx = sp.mxx - mx - 1 + 1 by omega]; exact hX)
  refine ⟨fun b svx => sosDC_excessive sp i b svx d value hv hgt, hY, ?_⟩
  intro n nc scan zs ze ah al dd d1 hsv hprep hproc
  subst hsv
  rw [hproc]
  unfold sosScan
  rw [hprep]
  simp only
  rw [hY]
  rfl

/-- C14 (counterexample): on a one-pixel grayscale JPEG whose DC table decodes
the first symbol to 17, `Decode` fails with `UnsupportedError("excessive DC
component")`, which is not a `FormatError`. -/
theorem excessive_dc_is_unsupported :
    Decode (sourceOf dcExcessJpeg) = (none, some (Err.unsupported "excessive DC component")) ∧
    ∀ s, (Decode (sourceOf dcExcessJpeg)).2 ≠ some (Err.format s) := by
  have h : Decode (sourceOf dcExcessJpeg)
      = (none, some (Err.unsupported "excessive DC component")) := by decide!
  refine ⟨h, fun s => ?_⟩
  rw [h]
  simp

/-- C14 (amended) at the first data unit of a one-MCU scan whose DC symbol is 17. -/
theorem sos_excessive_dc_witness :
    (scanOne.ah = 0 ∧ scanOne.zigStart = 0 ∧ 0 < scanOne.myy ∧ 0 < scanOne.mxx ∧ 0 < scanOne.nComp ∧
     0 < (dcExcessDecoder.comp (scanOne.scan 0).compIndex).h *
         (dcExcessDecoder.comp (scanOne.scan 0).compIndex).v ∧
     sosMY scanOne 0 0 scanVars0 dcExcessDecoder = .ok scanVars0 dcExcessDecoder ∧
     sosMX scanOne 0 0 0 scanVars0 dcExcessDecoder = .ok scanVars0 dcExcessDecoder ∧
     sosComps scanOne 0 0 0 0 scanVars0 dcExcessDecoder = .ok scanVars0 dcExcessDecoder ∧
     sosUnits scanOne 0 0 0 0 0 scanVars0 dcExcessDecoder = .ok scanVars0 dcExcessDecoder ∧
     (scanOne.nComp ≠ 1 ∨
      ((scanVars0.blockCount % (scanOne.mxx *
          (dcExcessDecoder.comp (scanOne.scan 0).compIndex).h)) * 8 < dcExcessDecoder.width ∧
       (scanVars0.blockCount / (scanOne.mxx *
          (dcExcessDecoder.comp (scanOne.scan 0).compIndex).h)) * 8 < dcExcessDecoder.height)) ∧
     (decodeHuffman (dcExcessDecoder.huff dcTable (scanOne.scan 0).td) dcExcessDecoder).val?
       = some 17 ∧ 16 < 17) ∧
    ((∀ b svx, sosDC scanOne 0 b svx dcExcessDecoder = .fail (.unsupported "excessive DC component")
      (decodeHuffman (dcExcessDecoder.huff dcTable (scanOne.scan 0).td) dcExcessDecoder).state) ∧
    sosMY scanOne scanOne.myy 0 scanVars0 dcExcessDecoder
      = .fail (.unsupported "excessive DC component")
      (decodeHuffman (dcExcessDecoder.huff dcTable (scanOne.scan 0).td) dcExcessDecoder).state ∧
    (∀ (n nc : Nat) (scan : Nat → ScanComp) (zs ze ah al : Nat) (dd d1 : Decoder),
      scanVars0 = scanVars0 → sosPrepare nc scan zs ze ah al d1 = .ok scanOne dcExcessDecoder →
      processSOS n dd = sosScan nc scan zs ze ah al d1 →
      (processSOS n dd).err? = some (.unsupported "excessive DC component"))) :=
  ⟨⟨rfl, rfl, by decide, by decide, by decide, by decide, rfl, rfl, rfl, rfl,
     Or.inr ⟨by decide, by decide⟩, by decide!, by decide⟩,
   sos_excessive_dc scanOne 0 0 0 0 17 scanVars0 scanVars0 scanVars0 scanVars0 scanVars0
     dcExcessDecoder dcExcessDecoder dcExcessDecoder dcExcessDecoder dcExcessDecoder
     rfl rfl (by decide) (by decide) (by decide) (by decide) rfl rfl rfl rfl
     (Or.inr ⟨by decide, by decide⟩) (by decide!) (by decide)⟩

theorem findComp_foldl (comp : Nat → Component) (cs : Nat) (n : Nat) :
    ((∃ j, j < n ∧ (comp j).c = cs) →
      ∃ j, (List.range n).foldl (fun acc j => if cs = (comp j).c then some j else acc) none = some j ∧
        j < n ∧ (comp j).c = cs) ∧
    ((¬ ∃ j, j < n ∧ (comp j).c = cs) →
      (List.range n).foldl (fun acc j => if cs = (comp j).c then some j else acc) none = none) := by
  induction n with
  | zero =>
    refine ⟨fun ⟨j, hj, _⟩ => by omega, fun _ => rfl⟩
  | succ n ih =>
    rw [List.range_succ, List.foldl_append]
    simp only [List.foldl_cons, List.foldl_nil]
    by_cases hn : cs = (comp n).c
    · rw [if_pos hn]
      refine ⟨fun _ => ⟨n, rfl, by omega, hn.symm⟩, fun h => absurd ⟨n, by omega, hn.symm⟩ h⟩
    · rw [if_neg hn]
      constructor
      · rintro ⟨j, hj, hc⟩
        have hjn : j ≠ n := by intro h; subst h; exact hn hc.symm
        obtain ⟨j', h1, h2, h3⟩ := ih.1 ⟨j, by omega, hc⟩
        exact ⟨j', h1, by omega, h3⟩
      · intro h
        apply ih.2
        rintro ⟨j, hj, hc⟩
        exact h ⟨j, by omega, hc⟩

/-- A selector that names a component of the frame is found by the look-up
loop of `processSOS`, at an index whose identifier is the selector. -/
theorem findComp_some (d : Decoder) (cs : Nat) (h : ∃ j, j < d.nComp ∧ (d.comp j).c = cs) :
    ∃ j, findComp d cs = some j ∧ j < d.nComp ∧ (d.comp j).c = cs :=
  (findComp_foldl d.comp cs d.nComp).1 h

theorem findComp_congr (d d1 : Decoder) (hn : d1.nComp = d.nComp) (hc : d1.comp = d.comp) (cs : Nat) :
    findComp d1 cs = findComp d cs := by
  unfold findComp
  rw [hn, hc]

/-- Every error of the loop over the scan header is a `FormatError`. -/
theorem sosHeaderLoop_error (d : Decoder) (cnt : Nat) : ∀ (i : Nat) (scan : Nat → ScanComp)
    (thv : Nat) (e : Err), sosHeaderLoop d cnt i scan thv = .error e → ∃ s, e = .format s := by
  induction cnt with
  | zero => intro i scan thv e h; simp [sosHeaderLoop] at h
  | succ cnt ih =>
    intro i scan thv e h
    unfold sosHeaderLoop at h
    split at h
    · injection h with h; exact ⟨_, h.symm⟩
    · split at h
      · injection h with h; exact ⟨_, h.symm⟩
      · simp only at h
        split at h
        · injection h with h; exact ⟨_, h.symm⟩
        · split at h
          · injection h with h; exact ⟨_, h.symm⟩
          · exact ih _ _ _ _ h

theorem sosProgression_error (d : Decoder) (nc : Nat) (e : Err)
    (h : sosProgression d nc = .error e) : ∃ s, e = .format s := by
  unfold sosProgression at h
  split at h
  · simp only at h
    split at h
    · injection h with h; exact ⟨_, h.symm⟩
    · split at h
      · injection h with h; exact ⟨_, h.symm⟩
      · split at h
        · injection h with h; exact ⟨_, h.symm⟩
        · cases h
  · cases h

theorem sum_range_succ_shift (f : Nat → Nat) (n : Nat) :
    ((List.range (n + 1)).map f).sum = f 0 + ((List.range n).map (fun k => f (k + 1))).sum := by
  rw [List.range_succ_eq_map]
  simp only [List.map_cons, List.sum_cons, List.map_map]
  rfl

/-- The loop over the scan header accepts selectors that name frame components,
differ from one another and carry table selectors of at most 3; it stores the
index found for each selector and its two table selectors, and adds up the
sampling factor products. -/
theorem sosHeaderLoop_ok (d1 : Decoder) (nc : Nat)
    (hsel : ∀ k, k < nc → ∃ j, j < d1.nComp ∧ (d1.comp j).c = (d1.tmp (1 + 2 * k)).val)
    (hdist : ∀ k k', k < nc → k' < k → (d1.tmp (1 + 2 * k')).val ≠ (d1.tmp (1 + 2 * k)).val)
    (htab : ∀ k, k < nc → (d1.tmp (2 + 2 * k)).val >>> 4 ≤ 3 ∧ (d1.tmp (2 + 2 * k)).val &&& 0x0f ≤ 3)
    (cnt : Nat) : ∀ (i : Nat) (scan : Nat → ScanComp) (thv : Nat), i + cnt = nc →
    (∀ k, k < i → findComp d1 (d1.tmp (1 + 2 * k)).val = some (scan k).compIndex) →
    ∃ scan1 thv1, sosHeaderLoop d1 cnt i scan thv = .ok (scan1, thv1) ∧
      (∀ k, k < nc → findComp d1 (d1.tmp (1 + 2 * k)).val = some (scan1 k).compIndex) ∧
      (∀ k, i ≤ k → k < nc → (scan1 k).td = (d1.tmp (2 + 2 * k)).val >>> 4 ∧
        (scan1 k).ta = (d1.tmp (2 + 2 * k)).val &&& 0x0f) ∧
      (∀ k, k < i → scan1 k = scan k) ∧
      thv1 = thv + ((List.range cnt).map (fun k => selHV d1 (d1.tmp (1 + 2 * (i + k))).val)).sum := by
  induction cnt with
  | zero =>
    intro i scan thv hi hinv
    refine ⟨scan, thv, rfl, ?_, ?_, fun _ _ => rfl, by simp⟩
    · intro k hk; exact hinv k (by omega)
    · intro k h1 h2; omega
  | succ cnt ih =>
    intro i scan thv hi hinv
    obtain ⟨j, hj1, hj2, hj3⟩ := findComp_some d1 _ (hsel i (by omega))
    unfold sosHeaderLoop
    rw [hj1]
    simp only
    have hany : (List.range i).any (fun k => decide (j = (scan k).compIndex)) = false := by
      rw [List.any_eq_false]
      intro k hk
      simp only [List.mem_range] at hk
      simp only [decide_eq_true_eq]
      intro hjk
      have h1 := hinv k hk
      rw [← hjk] at h1
      obtain ⟨j', q1, q2, q3⟩ := findComp_some d1 _ (hsel k (by omega))
      rw [q1] at h1
      injection h1 with h1
      subst h1
      exact hdist i k (by omega) hk (q3.symm.trans hj3)
    rw [hany]
    simp only [Bool.false_eq_true, if_false]
    have ht := htab i (by omega)
    rw [if_neg (by unfold maxTh; omega), if_neg (by unfold maxTh; omega)]
    obtain ⟨scan1, thv1, r1, r2, r3, r4, r5⟩ := ih (i + 1)
      (upd scan i { compIndex := j, td := (d1.tmp (2 + 2 * i)).val >>> 4,
                    ta := (d1.tmp (2 + 2 * i)).val &&& 0x0f })
      (thv + (d1.comp j).h * (d1.comp j).v) (by omega)
      (by
        intro k hk
        by_cases hki : k = i
        · subst hki; rw [upd_same]; exact hj1
        · rw [upd_other _ _ _ _ hki]; exact hinv k (by omega))
    refine ⟨scan1, thv1, r1, r2, ?_, ?_, ?_⟩
    · intro k h1 h2
      by_cases hki : k = i
      · subst hki
        rw [r4 k (by omega), upd_same]
        exact ⟨rfl, rfl⟩
      · exact r3 k (by omega) h2
    · intro k hk
      rw [r4 k (by omega), upd_other _ _ _ _ (by omega)]
    · rw [r5, sum_range_succ_shift]
      have e : selHV d1 (d1.tmp (1 + 2 * (i + 0))).val = (d1.comp j).h * (d1.comp j).v := by
        unfold selHV
        rw [Nat.add_zero, hj1]
      rw [e]
      have e2 : (fun k => selHV d1 (d1.tmp (1 + 2 * (i + 1 + k))).val)
          = (fun k => selHV d1 (d1.tmp (1 + 2 * (i + (k + 1)))).val) := by
        funext k
        rw [show i + 1 + k = i + (k + 1) by omega]
      rw [e2]
      omega

theorem sameBytes_fields {a b : Decoder} (h : SameButBytes a b) :
    b.progressive = a.progressive ∧ b.nComp = a.nComp ∧ b.comp = a.comp :=
  ⟨show b.noBytes.progressive = a.noBytes.progressive from congrArg Decoder.progressive h,
   show b.noBytes.nComp = a.noBytes.nComp from congrArg Decoder.nComp h,
   show b.noBytes.comp = a.noBytes.comp from congrArg Decoder.comp h⟩

/-- The state after `processSOS` has read its payload: the frame data are those
of `d`, and `tmp` holds the payload. -/
theorem sos_read (n : Nat) (d : Decoder) (p rest : List Byte)
    (hle : d.bytes.i ≤ d.bytes.j) (hnu : d.bytes.nUnreadable = 0)
    (hst : d.stream = p ++ rest) (hlen : p.length = n) :
    readFullTmp n d = .ok () (readFullTmp n d).state ∧
    (readFullTmp n d).state.progressive = d.progressive ∧
    (readFullTmp n d).state.nComp = d.nComp ∧ (readFullTmp n d).state.comp = d.comp ∧
    ∀ k, k < n → ((readFullTmp n d).state.tmp k).val = hdrByte p k := by
  obtain ⟨d0, h1, h2, h3, h4, h5⟩ := readFullTmp_ok n d hle hnu
    (by rw [hst, List.length_append]; omega)
  have htake : List.take n d.stream = p := by
    rw [hst, ← hlen]; exact List.take_left' rfl
  rw [htake] at h1
  rw [h1]
  obtain ⟨f1, f2, f3⟩ := sameBytes_fields h2
  refine ⟨rfl, f1, f2, f3, ?_⟩
  intro k hk
  show (blit d.tmp 0 p k).val = hdrByte p k
  rw [blit_zero_lt _ _ _ (by omega)]
  simp [hdrByte, List.getD_eq_getElem?_getD, List.getElem?_eq_getElem (show k < p.length by omega)]

theorem sosProgression_eval (d1 : Decoder) (p : List Byte) (hprog : d1.progressive = true)
    (ht : ∀ k, k < 4 + 2 * scanNc p → (d1.tmp k).val = hdrByte p k) :
    sosProgression d1 (scanNc p) =
      if (scanSs p = 0 ∧ scanSe p ≠ 0) ∨ scanSs p > scanSe p ∨ blockSize ≤ scanSe p then
        .error (.format "bad spectral selection bounds")
      else if scanSs p ≠ 0 ∧ scanNc p ≠ 1 then
        .error (.format "progressive AC coefficients for more than one component")
      else if scanAh p ≠ 0 ∧ scanAh p ≠ scanAl p + 1 then
        .error (.format "bad successive approximation values")
      else .ok (scanSs p, scanSe p, scanAh p, scanAl p) := by
  unfold sosProgression
  rw [if_pos hprog]
  simp only
  rw [ht _ (by omega), ht _ (by omega), ht _ (by omega)]
  rfl

theorem scanHeader_format (n : Nat) (d : Decoder) (p rest : List Byte)
    (hprog : d.progressive = true)
    (hle : d.bytes.i ≤ d.bytes.j) (hnu : d.bytes.nUnreadable = 0)
    (hst : d.stream = p ++ rest) (hlen : p.length = n) (hbad : BadProgression p) :
    ∃ s, (processSOS n d).err? = some (.format s) := by
  obtain ⟨hr, f1, f2, f3, f4⟩ := sos_read n d p rest hle hnu hst hlen
  unfold processSOS
  by_cases h0 : d.nComp = 0
  · rw [if_pos h0]; exact ⟨_, rfl⟩
  rw [if_neg h0]
  by_cases hl : n < 6 ∨ 4 + 2 * d.nComp < n ∨ n % 2 ≠ 0
  · rw [if_pos hl]; exact ⟨_, rfl⟩
  rw [if_neg hl, hr]
  simp only
  have hnc : ((readFullTmp n d).state.tmp 0).val = scanNc p := f4 0 (by omega)
  rw [hnc]
  by_cases hn : n ≠ 4 + 2 * scanNc p
  · rw [if_pos hn]; exact ⟨_, rfl⟩
  rw [if_neg hn]
  have hn' : n = 4 + 2 * scanNc p := by omega
  cases hh : sosHeaderLoop (readFullTmp n d).state (scanNc p) 0
      (fun _ => { compIndex := 0, td := 0, ta := 0 }) 0 with
  | error e =>
    obtain ⟨s, hs⟩ := sosHeaderLoop_error _ _ _ _ _ _ hh
    exact ⟨s, by rw [hs]; rfl⟩
  | ok r =>
    obtain ⟨scan, thv⟩ := r
    simp only
    by_cases ht : (readFullTmp n d).state.nComp > 1 ∧ thv > 10
    · rw [if_pos ht]; exact ⟨_, rfl⟩
    rw [if_neg ht]
    have hp := sosProgression_eval (readFullTmp n d).state p (f1.trans hprog)
      (fun k hk => f4 k (by omega))
    cases hq : sosProgression (readFullTmp n d).state (scanNc p) with
    | error e =>
      obtain ⟨s, hs⟩ := sosProgression_error _ _ _ hq
      exact ⟨s, by rw [hs]; rfl⟩
    | ok q =>
      exfalso
      rw [hp] at hq
      unfold BadProgression at hbad
      split at hq
      · cases hq
      · split at hq
        · cases hq
        · split at hq
          · cases hq
          · rename_i g1 g2 g3
            simp only [blockSize] at g1
            rcases hbad with h | h | h | h | h
            · exact g1 (Or.inl h)
            · exact g1 (Or.inr (Or.inl h))
            · exact g1 (Or.inr (Or.inr h))
            · exact g2 ⟨h.1, by omega⟩
            · exact g3 h

theorem scanHeader_passes (n : Nat) (d : Decoder) (p rest : List Byte)
    (hprog : d.progressive = true)
    (hle : d.bytes.i ≤ d.bytes.j) (hnu : d.bytes.nUnreadable = 0)
    (hst : d.stream = p ++ rest) (hlen : p.length = n)
    (hok : ScanHeaderOk d p) (htot : 1 < d.nComp → scanTotalHV d p ≤ 10)
    (hgood : ¬ BadProgression p) :
    ∃ scan, (∀ i, i < scanNc p → findComp d (scanCs p i) = some (scan i).compIndex ∧
        (scan i).td = scanTd p i ∧ (scan i).ta = scanTa p i) ∧
      processSOS n d = sosScan (scanNc p) scan (scanSs p) (scanSe p) (scanAh p) (scanAl p)
        (readFullTmp n d).state := by
  obtain ⟨hr, f1, f2, f3, f4⟩ := sos_read n d p rest hle hnu hst hlen
  obtain ⟨k0, k1, k2, k3, k4, k5, k6⟩ := hok
  have hn' : n = 4 + 2 * scanNc p := by omega
  have hnc : ((readFullTmp n d).state.tmp 0).val = scanNc p := f4 0 (by omega)
  have hfc : ∀ cs, findComp (readFullTmp n d).state cs = findComp d cs :=
    findComp_congr d _ f2 f3
  obtain ⟨scan1, thv1, e1, e2, e3, _, e5⟩ := sosHeaderLoop_ok (readFullTmp n d).state (scanNc p)
    (by
      intro k hk
      rw [f2, f3, f4 _ (by omega)]
      exact k4 k hk)
    (by
      intro k k' hk hk'
      rw [f4 _ (by omega), f4 _ (by omega)]
      exact k5 k hk k' hk')
    (by
      intro k hk
      rw [f4 _ (by omega)]
      exact k6 k hk)
    (scanNc p) 0 (fun _ => { compIndex := 0, td := 0, ta := 0 }) 0 (by omega)
    (by intro k hk; omega)
  refine ⟨scan1, ?_, ?_⟩
  · intro i hi
    have a := e2 i hi
    have b := e3 i (by omega) hi
    rw [hfc, f4 _ (by omega)] at a
    rw [f4 _ (by omega)] at b
    exact ⟨a, b.1, b.2⟩
  · have hthv : thv1 = scanTotalHV d p := by
      rw [e5]
      unfold scanTotalHV
      simp only [Nat.zero_add]
      congr 1
      apply List.map_congr_left
      intro k hk
      simp only [List.mem_range] at hk
      rw [f4 _ (by omega)]
      unfold selHV
      rw [hfc, f3]
      rfl
    have hp := sosProgression_eval (readFullTmp n d).state p (f1.trans hprog)
      (fun k hk => f4 k (by omega))
    unfold BadProgression at hgood
    have g1 : ¬ ((scanSs p = 0 ∧ scanSe p ≠ 0) ∨ scanSs p > scanSe p ∨ blockSize ≤ scanSe p) := by
      simp only [blockSize]
      intro h
      rcases h with h | h | h
      · exact hgood (Or.inl h)
      · exact hgood (Or.inr (Or.inl h))
      · exact hgood (Or.inr (Or.inr (Or.inl h)))
    have g2 : ¬ (scanSs p ≠ 0 ∧ scanNc p ≠ 1) := by
      intro h
      exact hgood (Or.inr (Or.inr (Or.inr (Or.inl ⟨h.1, by omega⟩))))
    have g3 : ¬ (scanAh p ≠ 0 ∧ scanAh p ≠ scanAl p + 1) := by
      intro h
      exact hgood (Or.inr (Or.inr (Or.inr (Or.inr h))))
    rw [if_neg g1, if_neg g2, if_neg g3] at hp
    unfold processSOS
    rw [if_neg k0, if_neg (by omega), hr]
    simp only
    rw [hnc, if_neg (by omega), e1]
    simp only
    rw [if_neg (by rw [f2, hthv]; intro h; have := htot h.1; omega), hp]
    rfl

theorem noScan_ri {a b : Decoder} (h : a.noScan = b.noScan) : a.ri = b.ri :=
  show a.noScan.ri = b.noScan.ri from congrArg Decoder.ri h

theorem noScan_setBitsEob (d : Decoder) (b : Bits) (e : Nat) :
    ({ d with bits := b, eobRun := e } : Decoder).noScan = d.noScan := rfl

theorem sosRestart_noScan (sp : ScanParams) (sv : ScanVars) (d : Decoder) :
    (sosRestart sp sv d).state.noScan = d.noScan := by
  unfold sosRestart
  simp only
  split
  · have h := noScan_of_noReader (readFullTmp_frame 2 d)
    cases hr : readFullTmp 2 d with
    | fail e d1 => rw [hr] at h; exact h
    | ok u d1 =>
      rw [hr] at h
      simp only
      split
      · exact h
      · exact (noScan_setBitsEob d1 _ _).trans h
  · rfl

theorem rst_next (k : Nat) :
    (if u8 (rst0Marker + k % 8 + 1) = rst7Marker + 1 then rst0Marker
      else u8 (rst0Marker + k % 8 + 1)) = rst0Marker + (k + 1) % 8 := by
  unfold u8 rst0Marker rst7Marker
  split <;> omega

theorem div_succ_of_dvd (k ri : Nat) (h : (k + 1) % ri = 0) :
    (k + 1) / ri = k / ri + 1 := by
  rw [Nat.succ_div, if_pos (Nat.dvd_of_mod_eq_zero h)]

theorem div_succ_of_not_dvd (k ri : Nat) (h : (k + 1) % ri ≠ 0) :
    (k + 1) / ri = k / ri := by
  rw [Nat.succ_div, if_neg (fun hd => h (Nat.mod_eq_zero_of_dvd hd))]
  rfl

theorem sosRestart_inv (sp : ScanParams) (ri : Nat) (hri : 0 < ri) (sv sv1 : ScanVars)
    (d d1 : Decoder) (hinv : RstInv sp ri sv d) (h : sosRestart sp sv d = .ok sv1 d1) :
    RstInv sp ri sv1 d1 ∧ sv1.mcu = sv.mcu + 1 := by
  have hf := sosRestart_noScan sp sv d
  rw [h] at hf
  have hri1 : d1.ri = ri := (noScan_ri hf).trans hinv.1
  unfold sosRestart at h
  simp only at h
  split at h
  · rename_i hc
    split at h
    · cases h
    · split at h
      · cases h
      · injection h with h1 h2
        subst h1
        refine ⟨⟨hri1, fun _ => ?_⟩, rfl⟩
        show (if u8 (sv.expectedRST + 1) = rst7Marker + 1 then rst0Marker
          else u8 (sv.expectedRST + 1)) = rst0Marker + ((sv.mcu + 1) / ri) % 8
        rw [hinv.2 (by omega), rst_next, div_succ_of_dvd _ _ (by rw [← hinv.1]; exact hc.2.1)]
  · rename_i hc
    injection h with h1 h2
    subst h1
    refine ⟨⟨hri1, fun hlt => ?_⟩, rfl⟩
    show sv.expectedRST = rst0Marker + ((sv.mcu + 1) / ri) % 8
    have hlt' : sv.mcu + 1 < sp.mxx * sp.myy := hlt
    have hnd : (sv.mcu + 1) % ri ≠ 0 := by
      intro h0
      apply hc
      rw [hinv.1]
      exact ⟨hri, h0, hlt'⟩
    rw [div_succ_of_not_dvd _ _ hnd]
    exact hinv.2 (by omega)

theorem sosComps_inv (sp : ScanParams) (ri : Nat) (mx my cnt i : Nat) (sv sv1 : ScanVars)
    (d d1 : Decoder) (hinv : RstInv sp ri sv d) (h : sosComps sp mx my cnt i sv d = .ok sv1 d1) :
    RstInv sp ri sv1 d1 ∧ sv1.mcu = sv.mcu := by
  have hf := sosComps_frame sp mx my cnt i sv d
  rw [h] at hf
  obtain ⟨a, b⟩ := hf.2 sv1 d1 rfl
  refine ⟨⟨(noScan_ri hf.1).trans hinv.1, fun hlt => ?_⟩, a⟩
  rw [b, a]
  rw [a] at hlt
  exact hinv.2 hlt

theorem sosMX_inv (sp : ScanParams) (ri : Nat) (hri : 0 < ri) (my : Nat) (cnt : Nat) :
    ∀ (mx : Nat) (sv sv1 : ScanVars) (d d1 : Decoder), RstInv sp ri sv d →
    sosMX sp my cnt mx sv d = .ok sv1 d1 → RstInv sp ri sv1 d1 ∧ sv1.mcu = sv.mcu + cnt := by
  induction cnt with
  | zero =>
    intro mx sv sv1 d d1 hinv h
    simp only [sosMX] at h
    injection h with h1 h2
    subst h1; subst h2
    exact ⟨hinv, rfl⟩
  | succ cnt ih =>
    intro mx sv sv1 d d1 hinv h
    rw [sosMX] at h
    cases hc : sosComps sp mx my sp.nComp 0 sv d with
    | fail e d2 => rw [hc] at h; cases h
    | ok sv2 d2 =>
      rw [hc] at h
      simp only at h
      obtain ⟨i2, m2⟩ := sosComps_inv sp ri mx my _ _ sv sv2 d d2 hinv hc
      cases hr : sosRestart sp sv2 d2 with
      | fail e d3 => rw [hr] at h; cases h
      | ok sv3 d3 =>
        rw [hr] at h
        simp only at h
        obtain ⟨i3, m3⟩ := sosRestart_inv sp ri hri sv2 sv3 d2 d3 i2 hr
        obtain ⟨i4, m4⟩ := ih _ _ _ _ _ i3 h
        exact ⟨i4, by omega⟩

theorem sosMY_inv (sp : ScanParams) (ri : Nat) (hri : 0 < ri) (cnt : Nat) :
    ∀ (my : Nat) (sv sv1 : ScanVars) (d d1 : Decoder), RstInv sp ri sv d →
    sosMY sp cnt my sv d = .ok sv1 d1 →
    RstInv sp ri sv1 d1 ∧ sv1.mcu = sv.mcu + cnt * sp.mxx := by
  induction cnt with
  | zero =>
    intro my sv sv1 d d1 hinv h
    simp only [sosMY] at h
    injection h with h1 h2
    subst h1; subst h2
    exact ⟨hinv, by omega⟩
  | succ cnt ih =>
    intro my sv sv1 d d1 hinv h
    rw [sosMY] at h
    cases hc : sosMX sp my sp.mxx 0 sv d with
    | fail e d2 => rw [hc] at h; cases h
    | ok sv2 d2 =>
      rw [hc] at h
      simp only at h
      obtain ⟨i2, m2⟩ := sosMX_inv sp ri hri my _ _ sv sv2 d d2 hinv hc
      obtain ⟨i4, m4⟩ := ih _ _ _ _ _ i2 h
      refine ⟨i4, ?_⟩
      rw [m4, m2, Nat.succ_mul]
      omega

theorem rstInv_start (sp : ScanParams) (d : Decoder) : RstInv sp d.ri scanVars0 d :=
  ⟨rfl, fun _ => by simp [scanVars0]⟩

theorem unreadOvershoot_ok (d : Decoder) :
    unreadOvershoot d = .ok () (unreadOvershoot d).state ∧
    (unreadOvershoot d).state.bytes.nUnreadable = 0 := by
  unfold unreadOvershoot
  split
  · exact ⟨rfl, rfl⟩
  · rename_i h
    exact ⟨rfl, by simpa using h⟩

/-- The call `readFull` starts by giving back the overshoot of the bit reader:
it acts as on the state where that is done already. -/
theorem readFullTmp_pending (n : Nat) (d : Decoder) :
    readFullTmp n d = readFullTmp n (unreadOvershoot d).state := by
  obtain ⟨h1, h2⟩ := unreadOvershoot_ok d
  have h3 := unreadOvershoot_id _ h2
  unfold readFullTmp readFull
  rw [h3]
  conv_lhs => rw [h1]

/-- The MCU loops of a scan, split at the restart handling of the MCU at column
`mx` of row `my`. -/
theorem sosMY_at_restart (sp : ScanParams) (my mx : Nat) (sv0 svA svB svC : ScanVars)
    (d0 dA dB dC : Decoder) (hmy : my < sp.myy) (hmx : mx < sp.mxx)
    (hA : sosMY sp my 0 sv0 d0 = .ok svA dA)
    (hB : sosMX sp my mx 0 svA dA = .ok svB dB)
    (hC : sosComps sp mx my sp.nComp 0 svB dB = .ok svC dC) :
    sosMY sp sp.myy 0 sv0 d0 =
      match sosRestart sp svC dC with
      | .fail e d1 => .fail e d1
      | .ok sv1 d1 => sosResume sp my mx sv1 d1 := by
  have e1 : sp.myy = my + ((sp.myy - (my + 1)) + 1) := by omega
  conv_lhs => rw [e1]
  rw [sosMY_append, hA]
  simp only [Nat.zero_add]
  rw [sosMY]
  have e2 : sp.mxx = mx + ((sp.mxx - (mx + 1)) + 1) := by omega
  have hrow : sosMX sp my sp.mxx 0 svA dA =
      match sosRestart sp svC dC with
      | .fail e d1 => .fail e d1
      | .ok sv1 d1 => sosMX sp my (sp.mxx - (mx + 1)) (mx + 1) sv1 d1 := by
    conv_lhs => rw [e2]
    rw [sosMX_append, hB]
    simp only [Nat.zero_add]
    rw [sosMX, hC]
  rw [hrow]
  cases sosRestart sp svC dC with
  | fail e d1 => rfl
  | ok sv1 d1 => rfl

/-- The restart handling when a marker is due: the two bytes read are compared
with `FF` and the expected marker. -/
theorem sosRestart_due (sp : ScanParams) (sv : ScanVars) (d : Decoder) (b0 b1 : Byte)
    (rest : List Byte) (hri : 0 < d.ri) (hdue : (sv.mcu + 1) % d.ri = 0)
    (hlt : sv.mcu + 1 < sp.mxx * sp.myy)
    (hle : (unreadOvershoot d).state.bytes.i ≤ (unreadOvershoot d).state.bytes.j)
    (hst : (unreadOvershoot d).state.stream = b0 :: b1 :: rest) :
    (b0.val = 0xff ∧ b1.val = sv.expectedRST →
      ∃ sv1 d1, sosRestart sp sv d = .ok sv1 d1 ∧ d1.stream = rest ∧ sv1.mcu = sv.mcu + 1 ∧
        (∀ i, sv1.dc i = 0) ∧ d1.eobRun = 0 ∧ d1.bits = { a := 0, m := 0, n := 0 }) ∧
    (¬ (b0.val = 0xff ∧ b1.val = sv.expectedRST) →
      ∃ d1, sosRestart sp sv d = .fail (.format "bad RST marker") d1 ∧ d1.stream = rest) := by
  obtain ⟨_, hnu⟩ := unreadOvershoot_ok d
  obtain ⟨dR, h1, h2, h3, h4, h5⟩ := readFullTmp_ok 2 (unreadOvershoot d).state hle hnu
    (by rw [hst]; simp)
  rw [← readFullTmp_pending, hst] at h1
  rw [hst] at h3
  simp only [List.take_succ_cons, List.take_zero, List.drop_succ_cons, List.drop_zero] at h1 h3
  have t0 : (blit (unreadOvershoot d).state.tmp 0 [b0, b1] 0) = b0 := by
    rw [blit_zero_lt _ _ _ (by simp)]; rfl
  have t1 : (blit (unreadOvershoot d).state.tmp 0 [b0, b1] 1) = b1 := by
    rw [blit_zero_lt _ _ _ (by simp)]; rfl
  have hc : d.ri > 0 ∧ (sv.mcu + 1) % d.ri = 0 ∧ sv.mcu + 1 < sp.mxx * sp.myy := ⟨hri, hdue, hlt⟩
  constructor
  · intro hm
    have heq : sosRestart sp sv d = .ok
        { mcu := sv.mcu + 1
          expectedRST := if u8 (sv.expectedRST + 1) = rst7Marker + 1 then rst0Marker
            else u8 (sv.expectedRST + 1)
          dc := fun _ => 0
          blockCount := sv.blockCount }
        { ({ dR with tmp := blit (unreadOvershoot d).state.tmp 0 [b0, b1] } : Decoder) with
          bits := { a := 0, m := 0, n := 0 }, eobRun := 0 } := by
      unfold sosRestart
      simp only
      rw [if_pos hc, h1]
      simp only
      rw [t0, t1, if_neg (by intro h; rcases h with h | h; exact h hm.1; exact h hm.2)]
    exact ⟨_, _, heq, h3, rfl, fun _ => rfl, rfl, rfl⟩
  · intro hm
    have heq : sosRestart sp sv d = .fail (.format "bad RST marker")
        { dR with tmp := blit (unreadOvershoot d).state.tmp 0 [b0, b1] } := by
      unfold sosRestart
      simp only
      rw [if_pos hc, h1]
      simp only
      rw [t0, t1, if_pos (by
        by_cases h : b0.val = 0xff
        · exact Or.inr (fun h' => hm ⟨h, h'⟩)
        · exact Or.inl h)]
    exact ⟨_, heq, h3⟩

theorem sosRestart_skip (sp : ScanParams) (sv : ScanVars) (d : Decoder)
    (h : ¬ ((sv.mcu + 1) % d.ri = 0 ∧ sv.mcu + 1 < sp.mxx * sp.myy)) :
    sosRestart sp sv d = .ok { sv with mcu := sv.mcu + 1 } d := by
  unfold sosRestart
  simp only
  rw [if_neg (fun hc => h hc.2)]

theorem sosResume_last (sp : ScanParams) (my mx : Nat) (sv : ScanVars) (d : Decoder)
    (hmy : my < sp.myy) (hmx : mx < sp.mxx)
    (h : my * sp.mxx + mx + 1 = sp.mxx * sp.myy) : sosResume sp my mx sv d = .ok sv d := by
  have h1 : my + 1 = sp.myy := by
    by_contra hne
    have h2 : my + 2 ≤ sp.myy := by omega
    have h3 : sp.mxx * (my + 2) ≤ sp.mxx * sp.myy := Nat.mul_le_mul_left _ h2
    have h4 : sp.mxx * (my + 2) = my * sp.mxx + 2 * sp.mxx := by ring
    omega
  have h2 : mx + 1 = sp.mxx := by
    rw [← h1] at h
    have h4 : sp.mxx * (my + 1) = my * sp.mxx + sp.mxx := by ring
    omega
  unfold sosResume
  rw [show sp.mxx - (mx + 1) = 0 by omega, show sp.myy - (my + 1) = 0 by omega]
  rfl

/-- C16: in a scan with restart interval `ri > 0`, consider the MCU in column
`mx` of row `my`, the `m`-th of the scan with `m = my * mxx + mx + 1`, reached
after the MCUs before it were decoded (`hA`, `hB`) and its own data units too
(`hC`).  (1) If `m mod ri = 0` and `m < mxx * myy`, the scan reads the next two
bytes `b0`, `b1` of the input (after `readFull` has given back the overshoot of
the bit reader): when they are `FF` and `0xD0 + ((m / ri - 1) mod 8)`, the scan
goes on with the next MCU from a state whose DC predictors are all 0, whose
end-of-band run is 0 and whose bit accumulator is empty; for any other pair the
restart handling, the MCU loops and the scan fail with `FormatError("bad RST
marker")`.  (2) Otherwise nothing is read and the scan goes on from the same
decoder state.  (3) After the last MCU the scan ends in the state that the
decoding of that MCU left. -/
theorem restart_marker (sp : ScanParams) (my mx : Nat) (svA svB svC : ScanVars)
    (d0 dA dB dC : Decoder)
    (hri : 0 < d0.ri) (hmy : my < sp.myy) (hmx : mx < sp.mxx)
    (hA : sosMY sp my 0 scanVars0 d0 = .ok svA dA)
    (hB : sosMX sp my mx 0 svA dA = .ok svB dB)
    (hC : sosComps sp mx my sp.nComp 0 svB dB = .ok svC dC) :
    (∀ (b0 b1 : Byte) (rest : List Byte),
      (my * sp.mxx + mx + 1) % d0.ri = 0 → my * sp.mxx + mx + 1 < sp.mxx * sp.myy →
      (unreadOvershoot dC).state.bytes.i ≤ (unreadOvershoot dC).state.bytes.j →
      (unreadOvershoot dC).state.stream = b0 :: b1 :: rest →
      (b0.val = 0xff ∧ b1.val = 0xd0 + ((my * sp.mxx + mx + 1) / d0.ri - 1) % 8 →
        ∃ sv1 d1, sosRestart sp svC dC = .ok sv1 d1 ∧ d1.stream = rest ∧
          (∀ i, sv1.dc i = 0) ∧ d1.eobRun = 0 ∧ d1.bits = { a := 0, m := 0, n := 0 } ∧
          sosMY sp sp.myy 0 scanVars0 d0 = sosResume sp my mx sv1 d1) ∧
      (¬ (b0.val = 0xff ∧ b1.val = 0xd0 + ((my * sp.mxx + mx + 1) / d0.ri - 1) % 8) →
        ∃ d1, sosRestart sp svC dC = .fail (.format "bad RST marker") d1 ∧ d1.stream = rest ∧
          sosMY sp sp.myy 0 scanVars0 d0 = .fail (.format "bad RST marker") d1 ∧
          ∀ (nc : Nat) (scan : Nat → ScanComp) (zs ze ah al : Nat) (dd : Decoder),
            sosPrepare nc scan zs ze ah al dd = .ok sp d0 →
            sosScan nc scan zs ze ah al dd = .fail (.format "bad RST marker") d1)) ∧
    (¬ ((my * sp.mxx + mx + 1) % d0.ri = 0 ∧ my * sp.mxx + mx + 1 < sp.mxx * sp.myy) →
      sosRestart sp svC dC = .ok { svC with mcu := my * sp.mxx + mx + 1 } dC ∧
      sosMY sp sp.myy 0 scanVars0 d0
        = sosResume sp my mx { svC with mcu := my * sp.mxx + mx + 1 } dC) ∧
    (my * sp.mxx + mx + 1 = sp.mxx * sp.myy →
      sosRestart sp svC dC = .ok { svC with mcu := sp.mxx * sp.myy } dC ∧
      sosMY sp sp.myy 0 scanVars0 d0 = .ok { svC with mcu := sp.mxx * sp.myy } dC) := by
  obtain ⟨iA, mA⟩ := sosMY_inv sp d0.ri hri my 0 scanVars0 svA d0 dA (rstInv_start sp d0) hA
  obtain ⟨iB, mB⟩ := sosMX_inv sp d0.ri hri my mx 0 svA svB dA dB iA hB
  obtain ⟨iC, mC⟩ := sosComps_inv sp d0.ri mx my sp.nComp 0 svB svC dB dC iB hC
  have h0 : scanVars0.mcu = 0 := rfl
  have hm : svC.mcu + 1 = my * sp.mxx + mx + 1 := by omega
  have hsplit := sosMY_at_restart sp my mx scanVars0 svA svB svC d0 dA dB dC hmy hmx hA hB hC
  have hskip : ¬ ((my * sp.mxx + mx + 1) % d0.ri = 0 ∧ my * sp.mxx + mx + 1 < sp.mxx * sp.myy) →
      sosRestart sp svC dC = .ok { svC with mcu := my * sp.mxx + mx + 1 } dC := by
    intro hn
    have := sosRestart_skip sp svC dC (by rw [iC.1, hm]; exact hn)
    rw [hm] at this
    exact this
  refine ⟨?_, ?_, ?_⟩
  · intro b0 b1 rest hdue hlt hle hst
    have hexp : svC.expectedRST = 0xd0 + ((my * sp.mxx + mx + 1) / d0.ri - 1) % 8 := by
      rw [iC.2 (by omega), ← hm, div_succ_of_dvd _ _ (by rw [hm]; exact hdue)]
      rfl
    obtain ⟨c1, c2⟩ := sosRestart_due sp svC dC b0 b1 rest (by rw [iC.1]; exact hri)
      (by rw [iC.1, hm]; exact hdue) (by rw [hm]; exact hlt) hle hst
    rw [hexp] at c1 c2
    constructor
    · intro hp
      obtain ⟨sv1, d1, r1, r2, _, r4, r5, r6⟩ := c1 hp
      refine ⟨sv1, d1, r1, r2, r4, r5, r6, ?_⟩
      rw [hsplit, r1]
    · intro hp
      obtain ⟨d1, r1, r2⟩ := c2 hp
      have hY : sosMY sp sp.myy 0 scanVars0 d0 = .fail (.format "bad RST marker") d1 := by
        rw [hsplit, r1]
      refine ⟨d1, r1, r2, hY, ?_⟩
      intro nc scan zs ze ah al dd hprep
      unfold sosScan
      rw [hprep]
      simp only
      rw [hY]
  · intro hn
    have hr := hskip hn
    refine ⟨hr, ?_⟩
    rw [hsplit, hr]
  · intro hlast
    have hr := hskip (by omega)
    rw [hlast] at hr
    refine ⟨hr, ?_⟩
    rw [hsplit, hr]
    exact sosResume_last sp my mx _ dC hmy hmx hlast

theorem Result.eq_ok_of_isSome {α : Type} {r : Result α} (a : α) (h : r.val?.isSome = true) :
    r = .ok (r.val?.getD a) r.state := by
  cases r with
  | ok b d => rfl
  | fail e d => simp [Result.val?] at h

/-- C16 at the first of the two MCUs of a scan with restart interval 1: the
bytes `FF D0` that follow its data are accepted as the restart marker. -/
theorem restart_marker_witness :
    (0 < rstDecoder.ri ∧ 0 < rstParams.myy ∧ 0 < rstParams.mxx ∧
     sosMY rstParams 0 0 scanVars0 rstDecoder = .ok scanVars0 rstDecoder ∧
     sosMX rstParams 0 0 0 scanVars0 rstDecoder = .ok scanVars0 rstDecoder ∧
     sosComps rstParams 0 0 rstParams.nComp 0 scanVars0 rstDecoder = .ok rstVars rstAfter) ∧
    ((0 * rstParams.mxx + 0 + 1) % rstDecoder.ri = 0 ∧
     0 * rstParams.mxx + 0 + 1 < rstParams.mxx * rstParams.myy ∧
     (unreadOvershoot rstAfter).state.bytes.i ≤ (unreadOvershoot rstAfter).state.bytes.j ∧
     (unreadOvershoot rstAfter).state.stream = byte 0xff :: byte 0xd0 :: bytesOf [0x3f, 0xff, 0xd9] ∧
     (byte 0xff).val = 0xff ∧
     (byte 0xd0).val = 0xd0 + ((0 * rstParams.mxx + 0 + 1) / rstDecoder.ri - 1) % 8) ∧
    (∃ sv1 d1, sosRestart rstParams rstVars rstAfter = .ok sv1 d1 ∧
      d1.stream = bytesOf [0x3f, 0xff, 0xd9] ∧
      (∀ i, sv1.dc i = 0) ∧ d1.eobRun = 0 ∧ d1.bits = { a := 0, m := 0, n := 0 } ∧
      sosMY rstParams rstParams.myy 0 scanVars0 rstDecoder = sosResume rstParams 0 0 sv1 d1) :=
  ⟨⟨by decide, by decide, by decide, rfl, rfl, Result.eq_ok_of_isSome scanVars0 (by decide!)⟩,
   ⟨by decide, by decide, by decide!, by decide!, by decide, by decide⟩,
   ((restart_marker rstParams 0 0 scanVars0 scanVars0 rstVars rstDecoder rstDecoder rstDecoder
      rstAfter (by decide) (by decide) (by decide) rfl rfl
      (Result.eq_ok_of_isSome scanVars0 (by decide!))).1
      (byte 0xff) (byte 0xd0) (bytesOf [0x3f, 0xff, 0xd9])
      (by decide) (by decide) (by decide!) (by decide!)).1 ⟨by decide, by decide⟩⟩

theorem grows_refl (e : Encoder) : Grows e e := ⟨rfl, rfl, [], by simp⟩

theorem grows_trans {a b c : Encoder} (h1 : Grows a b) (h2 : Grows b c) : Grows a c := by
  obtain ⟨a1, a2, s, a3⟩ := h1
  obtain ⟨b1, b2, t, b3⟩ := h2
  exact ⟨b1.trans a1, b2.trans a2, s ++ t, by rw [b3, a3, List.append_assoc]⟩

theorem write_ok (p : List Byte) (e : Encoder) (h : e.err = none) :
    write p e = { e with out := e.out ++ p } := by
  simp [write, h]

theorem writeByte_ok (b : Byte) (e : Encoder) (h : e.err = none) :
    writeByte b e = { e with out := e.out ++ [b] } := by
  simp [writeByte, h]

theorem write_grows (p : List Byte) (e : Encoder) : Grows e (write p e) := by
  unfold write
  split
  · exact grows_refl e
  · exact ⟨rfl, rfl, p, rfl⟩

theorem writeByte_grows (b : Byte) (e : Encoder) : Grows e (writeByte b e) := by
  unfold writeByte
  split
  · exact grows_refl e
  · exact ⟨rfl, rfl, [b], rfl⟩

theorem grows_setBuf (e : Encoder) (buf : Nat → Byte) : Grows e { e with buf := buf } :=
  ⟨rfl, rfl, [], by simp⟩

theorem grows_setBits (e : Encoder) (bits nBits : Nat) :
    Grows e { e with bits := bits, nBits := nBits } :=
  ⟨rfl, rfl, [], by simp⟩

theorem emitLoop_grows (cnt : Nat) : ∀ (bits nBits : Nat) (e : Encoder),
    Grows e (emitLoop cnt bits nBits e) := by
  induction cnt with
  | zero => intro bits nBits e; exact grows_setBits e bits nBits
  | succ cnt ih =>
    intro bits nBits e
    rw [emitLoop]
    split
    · simp only
      refine grows_trans ?_ (ih _ _ _)
      split
      · exact grows_trans (writeByte_grows _ e) (writeByte_grows _ _)
      · exact writeByte_grows _ e
    · exact grows_setBits e bits nBits

theorem emit_grows (bits nBits : Nat) (e : Encoder) : Grows e (emit bits nBits e) :=
  emitLoop_grows _ _ _ e

theorem emitHuff_grows (h : Nat) (value : Int) (e : Encoder) :
    Grows e (emitHuff h value e).state := by
  unfold emitHuff
  split
  · exact grows_refl e
  · split
    · exact grows_refl e
    · exact emit_grows _ _ e

theorem emitHuffRLE_grows (h : Nat) (runLength value : Int) (e : Encoder) :
    Grows e (emitHuffRLE h runLength value e).state := by
  unfold emitHuffRLE
  split
  · exact grows_refl e
  · rename_i nBits _
    have h1 := emitHuff_grows h (or32 (i32 (runLength * 16)) (i32 (nBits : Int))) e
    cases hr : emitHuff h (or32 (i32 (runLength * 16)) (i32 (nBits : Int))) e with
    | panic m e1 => rw [hr] at h1; exact h1
    | ok u e1 =>
      rw [hr] at h1
      simp only
      split
      · exact grows_trans h1 (emit_grows _ _ e1)
      · exact h1

theorem writeZRL_grows (h : Nat) (cnt : Nat) : ∀ (runLength : Int) (e : Encoder),
    Grows e (writeZRL h cnt runLength e).state := by
  induction cnt with
  | zero => intro r e; exact grows_refl e
  | succ cnt ih =>
    intro r e
    rw [writeZRL]
    split
    · have h1 := emitHuff_grows h 0xf0 e
      cases hr : emitHuff h 0xf0 e with
      | panic m e1 => rw [hr] at h1; exact h1
      | ok u e1 => rw [hr] at h1; exact grows_trans h1 (ih _ _)
    · exact grows_refl e

theorem writeAC_grows (b : Block) (q h : Nat) (cnt : Nat) : ∀ (zig : Nat) (runLength : Int)
    (e : Encoder), Grows e (writeAC b q h cnt zig runLength e).state := by
  induction cnt with
  | zero => intro zig r e; exact grows_refl e
  | succ cnt ih =>
    intro zig r e
    rw [writeAC]
    cases quantDiv e q zig (b (unzig zig)) with
    | none => exact grows_refl e
    | some ac =>
      simp only
      split
      · exact ih _ _ _
      · have h1 := writeZRL_grows h (r.toNat / 16 + 1) r e
        cases hr : writeZRL h (r.toNat / 16 + 1) r e with
        | panic m e1 => rw [hr] at h1; exact h1
        | ok rl e1 =>
          rw [hr] at h1
          simp only
          have h2 := emitHuffRLE_grows h rl ac e1
          cases hr2 : emitHuffRLE h rl ac e1 with
          | panic m e2 => rw [hr2] at h2; exact grows_trans h1 h2
          | ok u e2 => rw [hr2] at h2; exact grows_trans (grows_trans h1 h2) (ih _ _ _)

theorem writeBlock_grows (b : Block) (q : Nat) (prevDC : Int) (e : Encoder) :
    Grows e (writeBlock b q prevDC e).state := by
  unfold writeBlock
  simp only
  split
  · exact grows_refl e
  · cases quantDiv e q 0 (fdct b 0) with
    | none => exact grows_refl e
    | some dc =>
      simp only
      have h1 := emitHuffRLE_grows (2 * q + 0) 0 (i32 (dc - prevDC)) e
      cases hr : emitHuffRLE (2 * q + 0) 0 (i32 (dc - prevDC)) e with
      | panic m e1 => rw [hr] at h1; exact h1
      | ok u e1 =>
        rw [hr] at h1
        simp only
        have h2 := writeAC_grows (fdct b) q (2 * q + 1) (blockSize - 1) 1 0 e1
        cases hr2 : writeAC (fdct b) q (2 * q + 1) (blockSize - 1) 1 0 e1 with
        | panic m e2 => rw [hr2] at h2; exact grows_trans h1 h2
        | ok rl e2 =>
          rw [hr2] at h2
          simp only
          split
          · have h3 := emitHuff_grows (2 * q + 1) 0x00 e2
            cases hr3 : emitHuff (2 * q + 1) 0x00 e2 with
            | panic m e3 => rw [hr3] at h3; exact grows_trans (grows_trans h1 h2) h3
            | ok u e3 => rw [hr3] at h3; exact grows_trans (grows_trans h1 h2) h3
          · exact grows_trans h1 h2

theorem sosGrayStep_grows (m : EncImage) (x y : Int) (sv : SosVars) (e : Encoder) :
    Grows e (sosGrayStep m x y sv e).state := by
  unfold sosGrayStep
  have h1 := writeBlock_grows (m.grayToY x y) 0 sv.prevDCY e
  cases hr : writeBlock (m.grayToY x y) 0 sv.prevDCY e with
  | panic msg e1 => rw [hr] at h1; exact h1
  | ok r e1 => rw [hr] at h1; exact h1

theorem sosLuma_grows (m : EncImage) (x y : Int) (cnt : Nat) : ∀ (i : Nat) (sv : SosVars)
    (e : Encoder), Grows e (sosLuma m x y cnt i sv e).state := by
  induction cnt with
  | zero => intro i sv e; exact grows_refl e
  | succ cnt ih =>
    intro i sv e
    rw [sosLuma]
    generalize m.toYCbCr (x + ((i &&& 1) * 8 : Nat)) (y + ((i &&& 2) * 4 : Nat)) = s
    have h1 := writeBlock_grows s.1 0 sv.prevDCY e
    cases hr : writeBlock s.1 0 sv.prevDCY e with
    | panic msg e1 => rw [hr] at h1; exact h1
    | ok r e1 => rw [hr] at h1; exact grows_trans h1 (ih _ _ _)

theorem sosColorStep_grows (m : EncImage) (x y : Int) (sv : SosVars) (e : Encoder) :
    Grows e (sosColorStep m x y sv e).state := by
  unfold sosColorStep
  have h1 := sosLuma_grows m x y 4 0 sv e
  cases hr : sosLuma m x y 4 0 sv e with
  | panic msg e1 => rw [hr] at h1; exact h1
  | ok sv1 e1 =>
    rw [hr] at h1
    simp only
    have h2 := writeBlock_grows (scale sv1.b sv1.cb) 1 sv1.prevDCCb e1
    cases hr2 : writeBlock (scale sv1.b sv1.cb) 1 sv1.prevDCCb e1 with
    | panic msg e2 => rw [hr2] at h2; exact grows_trans h1 h2
    | ok r2 e2 =>
      rw [hr2] at h2
      simp only
      have h3 := writeBlock_grows (scale r2.1 sv1.cr) 1 sv1.prevDCCr e2
      cases hr3 : writeBlock (scale r2.1 sv1.cr) 1 sv1.prevDCCr e2 with
      | panic msg e3 => rw [hr3] at h3; exact grows_trans (grows_trans h1 h2) h3
      | ok r3 e3 => rw [hr3] at h3; exact grows_trans (grows_trans h1 h2) h3

theorem sosPoints_grows (step : Int → Int → SosVars → Encoder → Enc SosVars)
    (hstep : ∀ x y sv e, Grows e (step x y sv e).state) (pts : List (Int × Int)) :
    ∀ (sv : SosVars) (e : Encoder), Grows e (sosPoints step pts sv e).state := by
  induction pts with
  | nil => intro sv e; exact grows_refl e
  | cons p rest ih =>
    intro sv e
    rw [sosPoints]
    have h1 := hstep p.1 p.2 sv e
    cases hr : step p.1 p.2 sv e with
    | panic msg e1 => rw [hr] at h1; exact h1
    | ok sv1 e1 => rw [hr] at h1; exact grows_trans h1 (ih _ _)

theorem writeMarkerHeader_out (marker markerlen : Nat) (e : Encoder) (h : e.err = none) :
    (writeMarkerHeader marker markerlen e).out =
      e.out ++ [byte 0xff, byte marker, byte (markerlen >>> 8), byte (markerlen &&& 0xff)] ∧
    (writeMarkerHeader marker markerlen e).err = none ∧
    (writeMarkerHeader marker markerlen e).quant = e.quant := by
  unfold writeMarkerHeader
  simp only
  rw [write_ok _ _ (by exact h)]
  refine ⟨?_, h, rfl⟩
  rfl

theorem writeDQTLoop_out (cnt : Nat) : ∀ (i : Nat) (e : Encoder), e.err = none →
    (writeDQTLoop cnt i e).out =
      e.out ++ ((List.range cnt).map (fun k => byte (i + k) :: quantRow e.quant (i + k))).flatten ∧
    (writeDQTLoop cnt i e).err = none ∧ (writeDQTLoop cnt i e).quant = e.quant := by
  induction cnt with
  | zero => intro i e h; exact ⟨by simp [writeDQTLoop], h, rfl⟩
  | succ cnt ih =>
    intro i e h
    rw [writeDQTLoop]
    have e1 : write ((List.range blockSize).map (fun j => byte ((writeByte (byte i) e).quant i j)))
        (writeByte (byte i) e) =
        { e with out := e.out ++ [byte i] ++ (List.range blockSize).map (fun j => byte (e.quant i j)) } := by
      rw [writeByte_ok _ _ h, write_ok _ _ (by exact h)]
    rw [e1]
    obtain ⟨a1, a2, a3⟩ := ih (i + 1)
      { e with out := e.out ++ [byte i] ++ (List.range blockSize).map (fun j => byte (e.quant i j)) } h
    refine ⟨?_, a2, a3⟩
    rw [a1, List.range_succ_eq_map]
    simp only [List.map_cons, List.map_map, List.flatten_cons, List.append_assoc, Nat.add_zero,
      List.cons_append, List.nil_append, quantRow]
    congr 3
    apply congrArg
    apply List.map_congr_left
    intro k _
    simp only [Function.comp]
    rw [show i + 1 + k = i + (k + 1) by omega]

theorem writeDQT_out (e : Encoder) (h : e.err = none) :
    (writeDQT e).out = e.out ++ (byte 0xff :: byte dqtMarker :: byte 0x00 :: byte 0x84 ::
      byte 0 :: (quantRow e.quant 0 ++ byte 1 :: quantRow e.quant 1)) ∧
    (writeDQT e).err = none ∧ (writeDQT e).quant = e.quant := by
  obtain ⟨h1, h2, h3⟩ := writeMarkerHeader_out dqtMarker (2 + nQuantIndex * (1 + blockSize)) e h
  obtain ⟨a1, a2, a3⟩ := writeDQTLoop_out nQuantIndex 0 _ h2
  unfold writeDQT
  refine ⟨?_, a2, a3.trans h3⟩
  rw [a1, h1, h3]
  simp [nQuantIndex, List.range_succ, blockSize]
  rfl

theorem writeDHTLoop_out (specs : List HuffmanSpec) : ∀ (i : Nat) (e : Encoder), e.err = none →
    (writeDHTLoop specs i e).out = e.out ++ dhtEntries specs i ∧
    (writeDHTLoop specs i e).err = none ∧ (writeDHTLoop specs i e).quant = e.quant := by
  induction specs with
  | nil => intro i e h; exact ⟨by simp [writeDHTLoop, dhtEntries], h, rfl⟩
  | cons s rest ih =>
    intro i e h
    rw [writeDHTLoop]
    have e1 : write (s.value.map byte) (write (s.count.map byte)
        (writeByte (byte (dhtSelectors.getD i 0)) e)) =
        { e with out := e.out ++ [byte (dhtSelectors.getD i 0)] ++ s.count.map byte ++
            s.value.map byte } := by
      rw [writeByte_ok _ _ h, write_ok (s.count.map byte) _ (by exact h),
        write_ok (s.value.map byte) _ (by exact h)]
    rw [e1]
    obtain ⟨a1, a2, a3⟩ := ih (i + 1)
      { e with out := e.out ++ [byte (dhtSelectors.getD i 0)] ++ s.count.map byte ++ s.value.map byte }
      h
    refine ⟨?_, a2, a3⟩
    rw [a1]
    simp [dhtEntries, dhtEntry, List.append_assoc]

theorem writeDHT_out (nComponent : Nat) (e : Encoder) (h : e.err = none) :
    (writeDHT nComponent e).out =
      e.out ++ (byte 0xff :: byte dhtMarker ::
        byte ((dhtSpecs nComponent).foldl (fun len s => len + (1 + 16 + s.value.length)) 2 >>> 8) ::
        byte ((dhtSpecs nComponent).foldl (fun len s => len + (1 + 16 + s.value.length)) 2 &&& 0xff) ::
        dhtEntries (dhtSpecs nComponent) 0) ∧
    (writeDHT nComponent e).err = none ∧ (writeDHT nComponent e).quant = e.quant := by
  obtain ⟨h1, h2, h3⟩ := writeMarkerHeader_out dhtMarker
    ((dhtSpecs nComponent).foldl (fun len s => len + (1 + 16 + s.value.length)) 2) e h
  unfold writeDHT
  simp only
  obtain ⟨a1, a2, a3⟩ := writeDHTLoop_out (dhtSpecs nComponent) 0 _ h2
  refine ⟨?_, a2, a3.trans h3⟩
  rw [a1, h1]
  simp [List.append_assoc]

theorem writeSOF0_out (sizeX sizeY : Int) (nComponent : Nat) (e : Encoder) (h : e.err = none)
    (hn : nComponent = 1 ∨ nComponent = 3) :
    ∃ e1, writeSOF0 sizeX sizeY nComponent e = .ok () e1 ∧
      e1.out = e.out ++ (byte 0xff :: byte sof0Marker :: byte ((8 + 3 * nComponent) >>> 8) ::
        byte ((8 + 3 * nComponent) &&& 0xff) :: sofBody sizeX sizeY nComponent) ∧
      e1.err = none ∧ e1.quant = e.quant := by
  obtain ⟨h1, h2, h3⟩ := writeMarkerHeader_out sof0Marker (8 + 3 * nComponent) e h
  unfold writeSOF0
  simp only
  generalize writeMarkerHeader sof0Marker (8 + 3 * nComponent) e = e1 at h1 h2 h3
  rcases hn with hn | hn
  · subst hn
    simp only [if_true]
    rw [if_neg (by decide), write_ok _ _ (by exact h2)]
    refine ⟨_, rfl, ?_, h2, h3⟩
    simp only [h1, List.append_assoc, List.cons_append, List.nil_append, sofBody, if_true]
    rfl
  · subst hn
    rw [if_neg (by decide)]
    simp only [sofFill, sofSampling, sofTq, List.get?]
    rw [if_neg (by decide), if_neg (by decide), if_neg (by decide)]
    simp only
    rw [if_neg (by decide), write_ok _ _ (by exact h2)]
    refine ⟨_, rfl, ?_, h2, h3⟩
    simp only [h1, List.append_assoc, List.cons_append, List.nil_append, sofBody]
    rfl

theorem quantRow_length (quant : Nat → Nat → Nat) (i : Nat) : (quantRow quant i).length = 64 := by
  simp [quantRow, blockSize]

theorem dqtSegment_isSegment (quant : Nat → Nat → Nat) : IsSegment dqtMarker (dqtSegment quant) := by
  refine ⟨byte 0x00, byte 0x84, _, rfl, ?_⟩
  simp [quantRow_length]
  decide

theorem sofSegment_isSegment (sizeX sizeY : Int) (nComponent : Nat)
    (hn : nComponent = 1 ∨ nComponent = 3) :
    IsSegment sof0Marker (sofSegment sizeX sizeY nComponent) := by
  refine ⟨_, _, _, rfl, ?_⟩
  rcases hn with hn | hn <;> subst hn <;> simp [sofBody] <;> decide

theorem dhtSegment_isSegment (nComponent : Nat) (hn : nComponent = 1 ∨ nComponent = 3) :
    IsSegment dhtMarker (dhtSegment nComponent) := by
  refine ⟨_, _, _, rfl, ?_⟩
  rcases hn with hn | hn <;> subst hn <;> decide!

theorem sosHeader_isSegment (isGray : Bool) : IsSegment sosMarker (sosHeader isGray) := by
  cases isGray
  · exact ⟨byte 0x00, byte 0x0c, _, rfl, by decide⟩
  · exact ⟨byte 0x00, byte 0x08, _, rfl, by decide⟩

theorem write_out (p : List Byte) (e : Encoder) (h : e.err = none) :
    (write p e).out = e.out ++ p ∧ (write p e).err = none ∧ (write p e).quant = e.quant := by
  rw [write_ok p e h]
  exact ⟨rfl, h, rfl⟩

theorem encodeHead_out (sizeX sizeY : Int) (nComponent : Nat) (e : Encoder) (h : e.err = none)
    (hn : nComponent = 1 ∨ nComponent = 3) :
    ∃ e1, encodeHead sizeX sizeY nComponent e = .ok () e1 ∧
      e1.out = e.out ++ (byte 0xff :: byte soiMarker :: (dqtSegment e.quant ++
        (sofSegment sizeX sizeY nComponent ++ dhtSegment nComponent))) ∧
      e1.err = none ∧ e1.quant = e.quant := by
  unfold encodeHead
  simp only
  obtain ⟨g1, g2, g3⟩ := write_out (slice (upd (upd e.buf 0 (byte 0xff)) 1 (byte 0xd8)) 0 2) { e with buf := upd (upd e.buf 0 (byte 0xff)) 1 (byte 0xd8) } h
  generalize write (slice (upd (upd e.buf 0 (byte 0xff)) 1 (byte 0xd8)) 0 2) { e with buf := upd (upd e.buf 0 (byte 0xff)) 1 (byte 0xd8) } = e1 at g1 g2 g3
  replace g1 : e1.out = e.out ++ [byte 0xff, byte soiMarker] := g1
  replace g3 : e1.quant = e.quant := g3
  obtain ⟨a1, a2, a3⟩ := writeDQT_out e1 g2
  obtain ⟨e3, b0, b1, b2, b3⟩ := writeSOF0_out sizeX sizeY nComponent (writeDQT e1) a2 hn
  rw [b0]
  simp only
  obtain ⟨c1, c2, c3⟩ := writeDHT_out nComponent e3 b2
  refine ⟨_, rfl, ?_, c2, ?_⟩
  · rw [c1, b1, a1, g1, g3]
    simp [dqtSegment, sofSegment, dhtSegment, List.append_assoc]
  · rw [c3, b3, a3, g3]

theorem sosBlocks_grows (m : EncImage) (e : Encoder) : Grows e (sosBlocks m e).state := by
  unfold sosBlocks
  split
  · exact sosPoints_grows (sosGrayStep m) (sosGrayStep_grows m) _ _ _
  · exact sosPoints_grows (sosColorStep m) (sosColorStep_grows m) _ _ _

theorem writeSOS_out (m : EncImage) (e : Encoder) (h : e.err = none) :
    ∃ data, (writeSOS m e).state.out = e.out ++ (sosHeader m.isGray ++ data) := by
  have hw : Grows (write (sosHeader m.isGray) e) (writeSOS m e).state := by
    unfold writeSOS
    simp only
    have e1 : (if m.isGray then write (sosHeaderY.map byte) e else write (sosHeaderYCbCr.map byte) e)
        = write (sosHeader m.isGray) e := by
      unfold sosHeader
      cases m.isGray <;> rfl
    rw [e1]
    have h1 := sosBlocks_grows m (write (sosHeader m.isGray) e)
    cases hr : sosBlocks m (write (sosHeader m.isGray) e) with
    | panic msg e2 => rw [hr] at h1; exact h1
    | ok sv e2 => rw [hr] at h1; exact grows_trans h1 (emit_grows _ _ e2)
  obtain ⟨_, _, s, hs⟩ := hw
  refine ⟨s, hs.trans ?_⟩
  rw [(write_out (sosHeader m.isGray) e h).1, List.append_assoc]

theorem Encode_out (w : List Byte) (m : EncImage) (o : Option Int)
    (hx : m.maxX - m.minX < 65536) (hy : m.maxY - m.minY < 65536) :
    ∃ data, (Encode w m o).state.out = w ++ (byte 0xff :: byte soiMarker ::
      (dqtSegment (encodeQuant o) ++ (sofSegment (m.maxX - m.minX) (m.maxY - m.minY)
        (if m.isGray then 1 else 3) ++ (dhtSegment (if m.isGray then 1 else 3) ++
          (sosHeader m.isGray ++ data))))) := by
  unfold Encode
  simp only
  rw [if_neg (by omega)]
  have hn : (if m.isGray then 1 else 3) = 1 ∨ (if m.isGray then 1 else 3) = 3 := by
    cases m.isGray <;> simp
  obtain ⟨e2, a0, a1, a2, a3⟩ := encodeHead_out (m.maxX - m.minX) (m.maxY - m.minY)
    (if m.isGray then 1 else 3) { zeroEncoder w with quant := encodeQuant o } rfl hn
  rw [a0]
  simp only
  obtain ⟨data, hd⟩ := writeSOS_out m e2 a2
  have hw : ({ zeroEncoder w with quant := encodeQuant o } : Encoder).out = w := rfl
  have hq : ({ zeroEncoder w with quant := encodeQuant o } : Encoder).quant = encodeQuant o := rfl
  rw [hw, hq] at a1
  cases hr : writeSOS m e2 with
  | panic msg e3 =>
    rw [hr] at hd
    refine ⟨data, ?_⟩
    show e3.out = _
    rw [show e3.out = e2.out ++ (sosHeader m.isGray ++ data) from hd, a1]
    simp [List.append_assoc]
  | ok u e3 =>
    rw [hr] at hd
    simp only
    have hg : Grows e3 (flush (write (slice (upd (upd e3.buf 0 (byte 0xff)) 1 (byte 0xd9)) 0 2)
        { e3 with buf := upd (upd e3.buf 0 (byte 0xff)) 1 (byte 0xd9) })) :=
      grows_trans (grows_setBuf e3 _) (write_grows _ _)
    obtain ⟨_, _, s, hs⟩ := hg
    refine ⟨data ++ s, hs.trans ?_⟩
    rw [show e3.out = e2.out ++ (sosHeader m.isGray ++ data) from hd, a1]
    simp [List.append_assoc]

/-- C21 (counterexample): for a grayscale image (of 8 by 8 pixels, default
options) `Encode` returns without error and the DQT segment it writes, right
after SOI, declares the length 132 and carries two tables, numbered 0 and 1;
the SOF0 marker follows the second table. -/
theorem Encode_gray_two_tables :
    grayImage.isGray = true ∧
    Encode [] grayImage none = .ok none (Encode [] grayImage none).state ∧
    (Encode [] grayImage none).state.out.take 136 =
      bytesOf ([0xff, 0xd8, 0xff, 0xdb, 0x00, 0x84, 0x00] ++ List.replicate 64 1 ++
        [0x01] ++ List.replicate 64 1) ∧
    ((Encode [] grayImage none).state.out.drop 136).take 2 = bytesOf [0xff, 0xc0] := by
  have h : (Encode [] grayImage none).val? = some none := by decide!
  refine ⟨rfl, ?_, by decide!, by decide!⟩
  cases hr : Encode [] grayImage none with
  | panic msg e => rw [hr] at h; simp [Enc.val?] at h
  | ok a e =>
    rw [hr] at h
    simp only [Enc.val?, Option.some.injEq] at h
    subst h
    rfl

/-- C21 (amended): for every image, grayscale or not, whose width and height
are below 65536, the bytes `Encode` writes begin with SOI and a DQT segment of
declared length 132 that carries two quantization tables: the byte 0 and the 64
entries of the luminance table, then the byte 1 and the 64 entries of the
chrominance table; the SOF0 marker follows. -/
theorem Encode_dqt_two_tables (w : List Byte) (m : EncImage) (o : Option Int)
    (hx : m.maxX - m.minX < 65536) (hy : m.maxY - m.minY < 65536) :
    ∃ rest, (Encode w m o).state.out = w ++ (byte 0xff :: byte 0xd8 ::
      byte 0xff :: byte 0xdb :: byte 0x00 :: byte 0x84 ::
      byte 0 :: (quantRow (encodeQuant o) 0 ++
      byte 1 :: (quantRow (encodeQuant o) 1 ++
      byte 0xff :: byte 0xc0 :: rest))) := by
  obtain ⟨data, hd⟩ := Encode_out w m o hx hy
  rw [hd]
  refine ⟨byte ((8 + 3 * (if m.isGray then 1 else 3)) >>> 8) ::
    byte ((8 + 3 * (if m.isGray then 1 else 3)) &&& 0xff) ::
    (sofBody (m.maxX - m.minX) (m.maxY - m.minY) (if m.isGray then 1 else 3) ++
      (dhtSegment (if m.isGray then 1 else 3) ++ (sosHeader m.isGray ++ data))), ?_⟩
  simp only [dqtSegment, sofSegment, List.cons_append, List.append_assoc, List.nil_append]
  rfl

/-- C21 (amended) on a grayscale image and on another image. -/
theorem Encode_dqt_two_tables_witness :
    (grayImage.maxX - grayImage.minX < 65536 ∧ grayImage.maxY - grayImage.minY < 65536 ∧
     grayImage.isGray = true) ∧
    (∃ rest, (Encode [] grayImage (some 50)).state.out = [] ++ (byte 0xff :: byte 0xd8 ::
      byte 0xff :: byte 0xdb :: byte 0x00 :: byte 0x84 ::
      byte 0 :: (quantRow (encodeQuant (some 50)) 0 ++
      byte 1 :: (quantRow (encodeQuant (some 50)) 1 ++
      byte 0xff :: byte 0xc0 :: rest)))) ∧
    (colorImage.maxX - colorImage.minX < 65536 ∧ colorImage.maxY - colorImage.minY < 65536 ∧
     colorImage.isGray = false) ∧
    (∃ rest, (Encode [] colorImage none).state.out = [] ++ (byte 0xff :: byte 0xd8 ::
      byte 0xff :: byte 0xdb :: byte 0x00 :: byte 0x84 ::
      byte 0 :: (quantRow (encodeQuant none) 0 ++
      byte 1 :: (quantRow (encodeQuant none) 1 ++
      byte 0xff :: byte 0xc0 :: rest)))) :=
  ⟨⟨by decide, by decide, rfl⟩,
   Encode_dqt_two_tables [] grayImage (some 50) (by decide) (by decide),
   ⟨by decide, by decide, rfl⟩,
   Encode_dqt_two_tables [] colorImage none (by decide) (by decide)⟩

/-- C22: for one or three components, each marker segment the encoder writes
(DQT, SOF0, DHT, and the SOS header) is `FF`, the marker, a 16-bit big-endian
length and then exactly that length minus 2 payload bytes; and the bytes
`Encode` writes are SOI followed by these four segments one after the other,
the entropy-coded data starting right after the SOS header. -/
theorem segment_lengths (e : Encoder) (sizeX sizeY : Int) (nComponent : Nat)
    (herr : e.err = none) (hn : nComponent = 1 ∨ nComponent = 3) :
    (∃ s, (writeDQT e).out = e.out ++ s ∧ IsSegment dqtMarker s) ∧
    (∃ s e1, writeSOF0 sizeX sizeY nComponent e = .ok () e1 ∧ e1.out = e.out ++ s ∧
      IsSegment sof0Marker s) ∧
    (∃ s, (writeDHT nComponent e).out = e.out ++ s ∧ IsSegment dhtMarker s) ∧
    IsSegment sosMarker (sosHeaderY.map byte) ∧
    IsSegment sosMarker (sosHeaderYCbCr.map byte) ∧
    (∀ (w : List Byte) (m : EncImage) (o : Option Int),
      m.maxX - m.minX < 65536 → m.maxY - m.minY < 65536 →
      ∃ s1 s2 s3 s4 data,
        (Encode w m o).state.out =
          w ++ (byte 0xff :: byte soiMarker :: (s1 ++ (s2 ++ (s3 ++ (s4 ++ data))))) ∧
        IsSegment dqtMarker s1 ∧ IsSegment sof0Marker s2 ∧ IsSegment dhtMarker s3 ∧
        IsSegment sosMarker s4 ∧
        s4 = (if m.isGray then sosHeaderY.map byte else sosHeaderYCbCr.map byte)) := by
  refine ⟨⟨_, (writeDQT_out e herr).1, dqtSegment_isSegment e.quant⟩, ?_,
    ⟨_, (writeDHT_out nComponent e herr).1, dhtSegment_isSegment nComponent hn⟩,
    sosHeader_isSegment true, sosHeader_isSegment false, ?_⟩
  · obtain ⟨e1, a0, a1, _, _⟩ := writeSOF0_out sizeX sizeY nComponent e herr hn
    exact ⟨_, e1, a0, a1, sofSegment_isSegment sizeX sizeY nComponent hn⟩
  · intro w m o hx hy
    obtain ⟨data, hd⟩ := Encode_out w m o hx hy
    have hn' : (if m.isGray then 1 else 3) = 1 ∨ (if m.isGray then 1 else 3) = 3 := by
      cases m.isGray <;> simp
    exact ⟨_, _, _, _, data, hd, dqtSegment_isSegment _, sofSegment_isSegment _ _ _ hn',
      dhtSegment_isSegment _ hn', sosHeader_isSegment _, rfl⟩

/-- C22 for three components, from the zero encoder. -/
theorem segment_lengths_witness :
    ((zeroEncoder []).err = none ∧ ((3 : Nat) = 1 ∨ (3 : Nat) = 3)) ∧
    ((∃ s, (writeDQT (zeroEncoder [])).out = (zeroEncoder []).out ++ s ∧ IsSegment dqtMarker s) ∧
    (∃ s e1, writeSOF0 16 8 3 (zeroEncoder []) = .ok () e1 ∧
      e1.out = (zeroEncoder []).out ++ s ∧ IsSegment sof0Marker s) ∧
    (∃ s, (writeDHT 3 (zeroEncoder [])).out = (zeroEncoder []).out ++ s ∧
      IsSegment dhtMarker s) ∧
    IsSegment sosMarker (sosHeaderY.map byte) ∧
    IsSegment sosMarker (sosHeaderYCbCr.map byte) ∧
    (∀ (w : List Byte) (m : EncImage) (o : Option Int),
      m.maxX - m.minX < 65536 → m.maxY - m.minY < 65536 →
      ∃ s1 s2 s3 s4 data,
        (Encode w m o).state.out =
          w ++ (byte 0xff :: byte soiMarker :: (s1 ++ (s2 ++ (s3 ++ (s4 ++ data))))) ∧
        IsSegment dqtMarker s1 ∧ IsSegment sof0Marker s2 ∧ IsSegment dhtMarker s3 ∧
        IsSegment sosMarker s4 ∧
        s4 = (if m.isGray then sosHeaderY.map byte else sosHeaderYCbCr.map byte))) :=
  ⟨⟨rfl, Or.inr rfl⟩, segment_lengths (zeroEncoder []) 16 8 3 rfl (Or.inr rfl)⟩


theorem stuff_append (a b : List Byte) : stuff (a ++ b) = stuff a ++ stuff b := by
  induction a with
  | nil => rfl
  | cons x rest ih =>
    simp only [List.cons_append, stuff]
    split <;> simp [ih]

theorem unstuffFrom_stuff (l : List Byte) : unstuffFrom false (stuff l) = l := by
  induction l with
  | nil => rfl
  | cons b rest ih =>
    simp only [stuff]
    by_cases hb : b.val = 0xff
    · rw [if_pos hb]
      simp only [unstuffFrom, hb, decide_True]
      have h0 : (byte 0x00).val = 0x00 := rfl
      rw [if_pos h0, ih]
    · rw [if_neg hb]
      simp only [unstuffFrom, hb, decide_False, ih]

theorem unstuff_stuff (l : List Byte) : unstuff (stuff l) = l := unstuffFrom_stuff l

theorem stuff_ffStuffed (l : List Byte) : FFStuffed (stuff l) := by
  induction l with
  | nil => intro i hi; simp [stuff] at hi
  | cons b rest ih =>
    intro i hi hv
    simp only [stuff] at hi hv ⊢
    by_cases hb : b.val = 0xff
    · rw [if_pos hb] at hi hv ⊢
      match i with
      | 0 => exact ⟨by simp, by simp [byte]⟩
      | 1 => simp [byte] at hv
      | i + 2 =>
        simp only [List.length_cons, List.getD_cons_succ] at hi hv ⊢
        obtain ⟨h1, h2⟩ := ih i (by omega) hv
        exact ⟨by omega, h2⟩
    · rw [if_neg hb] at hi hv ⊢
      match i with
      | 0 => simp at hv; exact absurd hv hb
      | i + 1 =>
        simp only [List.length_cons, List.getD_cons_succ] at hi hv ⊢
        obtain ⟨h1, h2⟩ := ih i (by omega) hv
        exact ⟨by omega, h2⟩

theorem bytesBits_append (a b : List Byte) : bytesBits (a ++ b) = bytesBits a ++ bytesBits b := by
  simp [bytesBits]

theorem bytesBits_length (a : List Byte) : (bytesBits a).length = 8 * a.length := by
  induction a with
  | nil => rfl
  | cons b rest ih =>
    simp only [bytesBits, List.flatMap_cons, List.length_append, bitsOf_length, List.length_cons] at ih ⊢
    omega

theorem bitsOf_append (x a : Nat) : ∀ b : Nat, bitsOf x (a + b) = bitsOf (x >>> b) a ++ bitsOf x b := by
  induction a with
  | zero => intro b; simp [bitsOf]
  | succ a ih =>
    intro b
    rw [show a + 1 + b = (a + b) + 1 by omega]
    simp only [bitsOf, List.cons_append]
    rw [ih b, Nat.testBit_shiftRight, Nat.add_comm b a]

theorem bitsOf_mod (x t : Nat) : bitsOf (x % 2 ^ t) t = bitsOf x t := by
  apply bitsOf_congr
  intro j hj
  rw [Nat.testBit_mod_two_pow]
  simp [hj]

theorem emitted_refl (e : Encoder) : Emitted e e [] := ⟨[], by simp [stuff], by simp [bytesBits]⟩

theorem emitted_trans {a b c : Encoder} {bs bs' : List Bool} (h1 : Emitted a b bs)
    (h2 : Emitted b c bs') : Emitted a c (bs ++ bs') := by
  obtain ⟨x, x1, x2⟩ := h1
  obtain ⟨y, y1, y2⟩ := h2
  refine ⟨x ++ y, by rw [y1, x1, stuff_append, List.append_assoc], ?_⟩
  rw [bytesBits_append, List.append_assoc, y2, ← List.append_assoc, x2, List.append_assoc]

theorem top_byte (V L : Nat) (h8 : 8 ≤ L) (h32 : L ≤ 32) :
    (V * 2 ^ (32 - L)) >>> 24 = V >>> (L - 8) := by
  rw [Nat.shiftRight_eq_div_pow, Nat.shiftRight_eq_div_pow]
  have e : (2 : Nat) ^ 24 = 2 ^ (L - 8) * 2 ^ (32 - L) := by
    rw [← Nat.pow_add]; congr 1; omega
  rw [e, Nat.mul_div_mul_right _ _ (by positivity)]

theorem shift_out (V L : Nat) (h8 : 8 ≤ L) (h32 : L ≤ 32) :
    ((V * 2 ^ (32 - L)) <<< 8) % 4294967296 = (V % 2 ^ (L - 8)) * 2 ^ (32 - (L - 8)) := by
  rw [Nat.shiftLeft_eq, Nat.mul_assoc, ← Nat.pow_add]
  have e1 : 32 - L + 8 = 32 - (L - 8) := by omega
  have e2 : (4294967296 : Nat) = 2 ^ (L - 8) * 2 ^ (32 - (L - 8)) := by
    rw [← Nat.pow_add, show L - 8 + (32 - (L - 8)) = 32 by omega]
  rw [e1, e2, Nat.mul_mod_mul_right]

theorem shiftRight_lt (V L : Nat) (h8 : 8 ≤ L) (hV : V < 2 ^ L) : V >>> (L - 8) < 256 := by
  rw [Nat.shiftRight_eq_div_pow, Nat.div_lt_iff_lt_mul (by positivity)]
  calc V < 2 ^ L := hV
    _ = 256 * 2 ^ (L - 8) := by
      rw [show (256 : Nat) = 2 ^ 8 by norm_num, ← Nat.pow_add]; congr 1; omega

theorem byte_val_of_lt (x : Nat) (h : x < 256) : (byte x).val = x := by
  simp [byte, Nat.mod_eq_of_lt h]

/-- The loop of `emit` on an accumulator that holds the `L` bits of `V` at its
top: it writes the whole bytes, byte-stuffed, and keeps the `L mod 8` low bits. -/
theorem emitLoop_spec (cnt : Nat) : ∀ (V L : Nat) (e : Encoder), e.err = none → V < 2 ^ L →
    L ≤ 32 → L / 8 < cnt →
    ∃ bytes, (emitLoop cnt (V * 2 ^ (32 - L)) L e).out = e.out ++ stuff bytes ∧
      (emitLoop cnt (V * 2 ^ (32 - L)) L e).nBits = L % 8 ∧
      (emitLoop cnt (V * 2 ^ (32 - L)) L e).bits = (V % 2 ^ (L % 8)) * 2 ^ (32 - L % 8) ∧
      bytesBits bytes ++ bitsOf V (L % 8) = bitsOf V L ∧
      bytes.length = L / 8 ∧
      (emitLoop cnt (V * 2 ^ (32 - L)) L e).err = none ∧
      (emitLoop cnt (V * 2 ^ (32 - L)) L e).quant = e.quant ∧
      (emitLoop cnt (V * 2 ^ (32 - L)) L e).buf = e.buf := by
  induction cnt with
  | zero => intro V L e _ _ _ h; omega
  | succ cnt ih =>
    intro V L e herr hV h32 hcnt
    rw [emitLoop]
    by_cases h8 : L ≥ 8
    · rw [if_pos h8]
      simp only
      rw [top_byte V L h8 h32, shift_out V L h8 h32]
      have hb : V >>> (L - 8) < 256 := shiftRight_lt V L h8 hV
      have hu : u8 (V >>> (L - 8)) = V >>> (L - 8) := Nat.mod_eq_of_lt hb
      rw [hu]
      have hmod : V % 2 ^ (L - 8) < 2 ^ (L - 8) := Nat.mod_lt _ (by positivity)
      have hL : (L - 8) % 8 = L % 8 := by omega
      have hstep : ∀ e2 : Encoder, e2.err = none → e2.quant = e.quant → e2.buf = e.buf →
          e2.out = e.out ++ stuff [byte (V >>> (L - 8))] →
          ∃ bytes, (emitLoop cnt ((V % 2 ^ (L - 8)) * 2 ^ (32 - (L - 8))) (L - 8) e2).out
              = e.out ++ stuff bytes ∧
            (emitLoop cnt ((V % 2 ^ (L - 8)) * 2 ^ (32 - (L - 8))) (L - 8) e2).nBits = L % 8 ∧
            (emitLoop cnt ((V % 2 ^ (L - 8)) * 2 ^ (32 - (L - 8))) (L - 8) e2).bits
              = (V % 2 ^ (L % 8)) * 2 ^ (32 - L % 8) ∧
            bytesBits bytes ++ bitsOf V (L % 8) = bitsOf V L ∧
            bytes.length = L / 8 ∧
            (emitLoop cnt ((V % 2 ^ (L - 8)) * 2 ^ (32 - (L - 8))) (L - 8) e2).err = none ∧
            (emitLoop cnt ((V % 2 ^ (L - 8)) * 2 ^ (32 - (L - 8))) (L - 8) e2).quant = e.quant ∧
            (emitLoop cnt ((V % 2 ^ (L - 8)) * 2 ^ (32 - (L - 8))) (L - 8) e2).buf = e.buf := by
        intro e2 g1 g2 g3 g4
        obtain ⟨bytes, a1, a2, a3, a4, a5, a6, a7, a8⟩ := ih (V % 2 ^ (L - 8)) (L - 8) e2 g1 hmod
          (by omega) (by omega)
        refine ⟨byte (V >>> (L - 8)) :: bytes, ?_, by rw [a2, hL], ?_, ?_, ?_, a6, a7.trans g2,
          a8.trans g3⟩
        · rw [a1, g4, List.append_assoc, ← stuff_append]
          rfl
        · rw [a3, hL, Nat.mod_mod_of_dvd _ (Nat.pow_dvd_pow 2 (by omega))]
        · have e1 : bitsOf V L = bitsOf (V >>> (L - 8)) 8 ++ bitsOf V (L - 8) := by
            rw [← bitsOf_append]; congr 1; omega
          rw [e1, ← bitsOf_mod V (L - 8), ← a4, hL]
          have e2 : bitsOf (V % 2 ^ (L - 8)) (L % 8) = bitsOf V (L % 8) := by
            rw [← bitsOf_mod (V % 2 ^ (L - 8)), ← bitsOf_mod V,
              Nat.mod_mod_of_dvd _ (Nat.pow_dvd_pow 2 (by omega))]
          rw [e2]
          simp [bytesBits, byte_val_of_lt _ hb]
        · simp only [List.length_cons, a5]; omega
      by_cases hff : V >>> (L - 8) = 0xff
      · rw [if_pos hff]
        apply hstep
        · rw [writeByte_ok _ _ herr, writeByte_ok _ _ (by exact herr)]; exact herr
        · rw [writeByte_ok _ _ herr, writeByte_ok _ _ (by exact herr)]
        · rw [writeByte_ok _ _ herr, writeByte_ok _ _ (by exact herr)]
        · rw [writeByte_ok _ _ herr, writeByte_ok _ _ (by exact herr)]
          rw [hff]
          simp [stuff]
          rfl
      · rw [if_neg hff]
        apply hstep
        · rw [writeByte_ok _ _ herr]; exact herr
        · rw [writeByte_ok _ _ herr]
        · rw [writeByte_ok _ _ herr]
        · rw [writeByte_ok _ _ herr]
          simp [stuff, byte_val_of_lt _ hb, hff]
    · rw [if_neg h8]
      have hlt : L < 8 := by omega
      have hm : L % 8 = L := Nat.mod_eq_of_lt hlt
      refine ⟨[], by simp [stuff], hm.symm, ?_, by simp [bytesBits, hm], by simp; omega, herr,
        rfl, rfl⟩
      show V * 2 ^ (32 - L) = _
      rw [hm, Nat.mod_eq_of_lt hV]

theorem or_eq_add_of_lt (a b n : Nat) (h : a < 2 ^ n) : a ||| (b * 2 ^ n) = b * 2 ^ n + a := by
  rw [Nat.or_comm, Nat.mul_comm b]
  exact (Nat.mul_add_lt_is_or h b).symm

/-- The accumulator of a well-formed bit writer is its pending value shifted to
the top. -/
theorem emitInv_bits (e : Encoder) (h : EmitInv e) :
    e.bits = (e.bits >>> (32 - e.nBits)) * 2 ^ (32 - e.nBits) ∧
    e.bits >>> (32 - e.nBits) < 2 ^ e.nBits := by
  obtain ⟨h1, h2, h3⟩ := h
  rw [Nat.shiftRight_eq_div_pow]
  constructor
  · have := Nat.div_add_mod e.bits (2 ^ (32 - e.nBits))
    rw [h3] at this
    rw [Nat.mul_comm]; omega
  · rw [Nat.div_lt_iff_lt_mul (by positivity), ← Nat.pow_add,
      show e.nBits + (32 - e.nBits) = 32 by omega]
    exact h2

theorem pending_of_top (x r : Nat) :
    bitsOf ((x % 2 ^ r * 2 ^ (32 - r)) >>> (32 - r)) r = bitsOf x r := by
  rw [Nat.shiftRight_eq_div_pow, Nat.mul_div_cancel _ (by positivity), bitsOf_mod]

/-- One call of `emit` that meets its precondition, on a well-formed bit
writer. -/
theorem emit_spec (bits nBits : Nat) (e : Encoder) (herr : e.err = none) (hinv : EmitInv e)
    (hn : nBits ≤ 16) (hb : bits < 2 ^ nBits) :
    ∃ bytes, (emit bits nBits e).out = e.out ++ stuff bytes ∧
      bytesBits bytes ++ pendingBits (emit bits nBits e) = pendingBits e ++ bitsOf bits nBits ∧
      bytes.length = (e.nBits + nBits) / 8 ∧
      (emit bits nBits e).nBits = (e.nBits + nBits) % 8 ∧
      EmitInv (emit bits nBits e) ∧ (emit bits nBits e).err = none ∧
      (emit bits nBits e).quant = e.quant ∧ (emit bits nBits e).buf = e.buf := by
  obtain ⟨hP, hPlt⟩ := emitInv_bits e hinv
  obtain ⟨hk, hlt32, hmod⟩ := hinv
  generalize hPdef : e.bits >>> (32 - e.nBits) = P at hP hPlt
  have hV : P * 2 ^ nBits + bits < 2 ^ (e.nBits + nBits) := by
    have h1 : (P + 1) * 2 ^ nBits ≤ 2 ^ e.nBits * 2 ^ nBits := Nat.mul_le_mul_right _ hPlt
    rw [Nat.pow_add]
    have h2 : (P + 1) * 2 ^ nBits = P * 2 ^ nBits + 2 ^ nBits := by ring
    omega
  have hacc : (if (32 + 4294967296 - (nBits + e.nBits) % 4294967296) % 4294967296 < 32 then
        (bits <<< ((32 + 4294967296 - (nBits + e.nBits) % 4294967296) % 4294967296)) % 4294967296
        else 0) ||| e.bits
      = (P * 2 ^ nBits + bits) * 2 ^ (32 - (e.nBits + nBits)) := by
    have hL : (nBits + e.nBits) % 4294967296 = nBits + e.nBits := Nat.mod_eq_of_lt (by omega)
    rw [hL]
    by_cases h0 : nBits + e.nBits = 0
    · have hn0 : nBits = 0 := by omega
      have hk0 : e.nBits = 0 := by omega
      rw [hk0] at hP hPlt
      rw [hn0] at hb
      simp only [hn0, hk0, Nat.add_zero, Nat.sub_zero, Nat.pow_zero, Nat.mul_one] at hP hPlt hb ⊢
      have hP0 : P = 0 := by omega
      have hb0 : bits = 0 := by omega
      rw [hP, hP0, hb0]
      norm_num
    · have hs : (32 + 4294967296 - (nBits + e.nBits)) % 4294967296 = 32 - (e.nBits + nBits) := by
        rw [show 32 + 4294967296 - (nBits + e.nBits) = (32 - (e.nBits + nBits)) + 4294967296 by omega]
        rw [Nat.add_mod_right, Nat.mod_eq_of_lt (by omega)]
      rw [hs, if_pos (by omega), Nat.shiftLeft_eq]
      have hlt : bits * 2 ^ (32 - (e.nBits + nBits)) < 2 ^ (32 - e.nBits) := by
        calc bits * 2 ^ (32 - (e.nBits + nBits))
            < 2 ^ nBits * 2 ^ (32 - (e.nBits + nBits)) :=
              Nat.mul_lt_mul_of_pos_right hb (by positivity)
          _ = 2 ^ (32 - e.nBits) := by rw [← Nat.pow_add]; congr 1; omega
      have hle : (2 : Nat) ^ (32 - e.nBits) ≤ 4294967296 := by
        calc (2 : Nat) ^ (32 - e.nBits) ≤ 2 ^ 32 := Nat.pow_le_pow_right (by norm_num) (by omega)
          _ = 4294967296 := by norm_num
      rw [Nat.mod_eq_of_lt (lt_of_lt_of_le hlt hle)]
      rw [hP, or_eq_add_of_lt _ _ _ hlt]
      have e1 : (2 : Nat) ^ (32 - e.nBits) = 2 ^ nBits * 2 ^ (32 - (e.nBits + nBits)) := by
        rw [← Nat.pow_add]; congr 1; omega
      rw [e1]
      ring
  obtain ⟨bytes, a1, a2, a3, a4, a5, a6, a7, a8⟩ := emitLoop_spec ((e.nBits + nBits) / 8 + 1)
    (P * 2 ^ nBits + bits) (e.nBits + nBits) e herr hV (by omega) (by omega)
  have hemit : emit bits nBits e = emitLoop ((e.nBits + nBits) / 8 + 1)
      ((P * 2 ^ nBits + bits) * 2 ^ (32 - (e.nBits + nBits))) (e.nBits + nBits) e := by
    unfold emit
    simp only
    rw [hacc, Nat.mod_eq_of_lt (show nBits + e.nBits < 4294967296 by omega), Nat.add_comm nBits]
  rw [hemit]
  have hpend : pendingBits (emitLoop ((e.nBits + nBits) / 8 + 1)
      ((P * 2 ^ nBits + bits) * 2 ^ (32 - (e.nBits + nBits))) (e.nBits + nBits) e)
      = bitsOf (P * 2 ^ nBits + bits) ((e.nBits + nBits) % 8) := by
    unfold pendingBits
    rw [a2, a3, pending_of_top]
  have hall : bitsOf (P * 2 ^ nBits + bits) (e.nBits + nBits)
      = pendingBits e ++ bitsOf bits nBits := by
    rw [bitsOf_append]
    unfold pendingBits
    rw [hPdef]
    congr 1
    · congr 1
      rw [Nat.shiftRight_eq_div_pow, Nat.add_comm, Nat.add_mul_div_right _ _ (by positivity),
        Nat.div_eq_of_lt hb, Nat.zero_add]
    · rw [← bitsOf_mod, Nat.add_comm, Nat.add_mul_mod_self_right, Nat.mod_eq_of_lt hb]
  refine ⟨bytes, a1, by rw [hpend, a4, hall], a5, a2, ?_, a6, a7, a8⟩
  refine ⟨by rw [a2]; omega, ?_, ?_⟩
  · rw [a3]
    calc (P * 2 ^ nBits + bits) % 2 ^ ((e.nBits + nBits) % 8) * 2 ^ (32 - (e.nBits + nBits) % 8)
        < 2 ^ ((e.nBits + nBits) % 8) * 2 ^ (32 - (e.nBits + nBits) % 8) :=
          Nat.mul_lt_mul_of_pos_right (Nat.mod_lt _ (by positivity)) (by positivity)
      _ = 4294967296 := by
          rw [← Nat.pow_add, show (e.nBits + nBits) % 8 + (32 - (e.nBits + nBits) % 8) = 32 by omega]
  · rw [a3, a2, Nat.mul_mod_left]

theorem callBits_cons (c : Nat × Nat) (cs : List (Nat × Nat)) :
    callBits (c :: cs) = bitsOf c.1 c.2 ++ callBits cs := by
  simp [callBits]

/-- A sequence of `emit` calls that meet the precondition, on a well-formed bit
writer. -/
theorem emitAll_spec (calls : List (Nat × Nat)) : ∀ (e : Encoder), e.err = none → EmitInv e →
    (∀ c ∈ calls, c.2 ≤ 16 ∧ c.1 < 2 ^ c.2) →
    Emitted e (emitAll calls e) (callBits calls) ∧ EmitInv (emitAll calls e) ∧
      (emitAll calls e).err = none ∧ (emitAll calls e).quant = e.quant ∧
      (emitAll calls e).buf = e.buf := by
  induction calls with
  | nil => intro e herr hinv _; exact ⟨emitted_refl e, hinv, herr, rfl, rfl⟩
  | cons c cs ih =>
    intro e herr hinv hpre
    obtain ⟨h1, h2⟩ := hpre c (List.mem_cons_self _ _)
    obtain ⟨bytes, a1, a2, _, _, a5, a6, a7, a8⟩ := emit_spec c.1 c.2 e herr hinv h1 h2
    obtain ⟨b1, b2, b3, b4, b5⟩ := ih (emit c.1 c.2 e) a6 a5
      (fun c' hc' => hpre c' (List.mem_cons_of_mem _ hc'))
    have hstep : emitAll (c :: cs) e = emitAll cs (emit c.1 c.2 e) := rfl
    rw [hstep, callBits_cons]
    exact ⟨emitted_trans ⟨bytes, a1, a2⟩ b1, b2, b3, b4.trans a7, b5.trans a8⟩

/-- C23: for every sequence of `emit` calls that satisfy the precondition
(`nBits ≤ 16`, `bits < 2^nBits`), made on a bit writer in a well-formed state
whose sink reports no error, the bytes written are the byte-stuffed form of a
sequence of data bytes: in them every byte `FF` is immediately followed by a
byte `00`, removing those `00` bytes leaves the data bytes, and the data bytes
are formed from the emitted bits: the bits pending before the calls followed by
the bits of the calls are the bits of the data bytes followed by the fewer than
8 bits still pending. -/
theorem emit_byte_stuffing (calls : List (Nat × Nat)) (e : Encoder) (herr : e.err = none)
    (hinv : EmitInv e) (hpre : ∀ c ∈ calls, c.2 ≤ 16 ∧ c.1 < 2 ^ c.2) :
    ∃ written data, (emitAll calls e).out = e.out ++ written ∧
      FFStuffed written ∧ unstuff written = data ∧ written = stuff data ∧
      bytesBits data ++ pendingBits (emitAll calls e) = pendingBits e ++ callBits calls ∧
      (pendingBits (emitAll calls e)).length < 8 := by
  obtain ⟨⟨bytes, a1, a2⟩, a3, _, _, _⟩ := emitAll_spec calls e herr hinv hpre
  refine ⟨stuff bytes, bytes, a1, stuff_ffStuffed bytes, unstuff_stuff bytes, rfl, a2, ?_⟩
  unfold pendingBits
  rw [bitsOf_length]
  exact a3.1

/-- C23 on three calls from the empty bit writer: 12 one-bits, then `0101`, then
three zero bits; the bytes written are `FF 00 F5`. -/
theorem emit_byte_stuffing_witness :
    ((zeroEncoder []).err = none ∧ EmitInv (zeroEncoder []) ∧
     (∀ c ∈ [(0xfff, 12), (5, 4), (0, 3)], c.2 ≤ 16 ∧ c.1 < 2 ^ c.2)) ∧
    (emitAll [(0xfff, 12), (5, 4), (0, 3)] (zeroEncoder [])).out = bytesOf [0xff, 0x00, 0xf5] ∧
    (∃ written data, (emitAll [(0xfff, 12), (5, 4), (0, 3)] (zeroEncoder [])).out
        = (zeroEncoder []).out ++ written ∧
      FFStuffed written ∧ unstuff written = data ∧ written = stuff data ∧
      bytesBits data ++ pendingBits (emitAll [(0xfff, 12), (5, 4), (0, 3)] (zeroEncoder []))
        = pendingBits (zeroEncoder []) ++ callBits [(0xfff, 12), (5, 4), (0, 3)] ∧
      (pendingBits (emitAll [(0xfff, 12), (5, 4), (0, 3)] (zeroEncoder []))).length < 8) :=
  ⟨⟨rfl, by decide, by decide⟩, by decide,
   emit_byte_stuffing [(0xfff, 12), (5, 4), (0, 3)] (zeroEncoder []) rfl (by decide) (by decide)⟩

theorem ones_seven : bitsOf 0x7f 7 = List.replicate 7 true := by decide

/-- C24: when the blocks of the scan leave `k` pending bits in a well-formed bit
writer, the final `emit(0x7f, 7)` of `writeSOS` writes nothing if `k = 0`, and
otherwise writes exactly one data byte, byte-stuffed, whose bits are the `k`
pending bits followed by `8 - k` one-bits; what stays pending afterwards is
one-bits only.  `writeSOS` returns right after that call. -/
theorem final_padding (e : Encoder) (herr : e.err = none) (hinv : EmitInv e) :
    (e.nBits = 0 → (emit 0x7f 7 e).out = e.out) ∧
    (0 < e.nBits → ∃ b : Byte,
      bitsOf b.val 8 = pendingBits e ++ List.replicate (8 - e.nBits) true ∧
      (emit 0x7f 7 e).out = e.out ++ stuff [b] ∧
      ((emit 0x7f 7 e).out = e.out ++ [b] ∨
       (b.val = 0xff ∧ (emit 0x7f 7 e).out = e.out ++ [b, byte 0x00]))) ∧
    pendingBits (emit 0x7f 7 e) = List.replicate ((e.nBits + 7) % 8) true ∧
    (∀ (m : EncImage) (e0 e1 : Encoder), writeSOS m e0 = .ok () e1 →
      ∃ sv e2, sosBlocks m (write (if m.isGray then sosHeaderY.map byte
          else sosHeaderYCbCr.map byte) e0) = .ok sv e2 ∧ e1 = emit 0x7f 7 e2) := by
  obtain ⟨bytes, a1, a2, a3, a4, a5, _, _, _⟩ := emit_spec 0x7f 7 e herr hinv (by decide) (by decide)
  rw [ones_seven] at a2
  have hk := hinv.1
  have hpl : (pendingBits e).length = e.nBits := by unfold pendingBits; rw [bitsOf_length]
  have hpl' : (pendingBits (emit 0x7f 7 e)).length = (e.nBits + 7) % 8 := by
    unfold pendingBits; rw [bitsOf_length, a4]
  refine ⟨?_, ?_, ?_, ?_⟩
  · intro h0
    have : bytes = [] := by
      apply List.eq_nil_of_length_eq_zero
      rw [a3, h0]
    rw [a1, this]
    simp [stuff]
  · intro hpos
    have hlen : bytes.length = 1 := by rw [a3]; omega
    obtain ⟨b, hb⟩ := List.length_eq_one.mp hlen
    subst hb
    refine ⟨b, ?_, a1, ?_⟩
    · have h1 := congrArg (List.take 8) a2
      simp only [bytesBits, List.flatMap_cons, List.flatMap_nil, List.append_nil] at h1
      rw [List.take_append_of_le_length (by rw [bitsOf_length]),
        List.take_of_length_le (by rw [bitsOf_length])] at h1
      rw [h1, List.take_append_eq_append_take, List.take_of_length_le (by omega), hpl,
        List.take_replicate]
      congr 2
      omega
    · rw [a1]
      simp only [stuff]
      by_cases hff : b.val = 0xff
      · right
        rw [if_pos hff]
        exact ⟨hff, rfl⟩
      · left
        rw [if_neg hff]
  · have h1 := congrArg (List.drop (8 * bytes.length)) a2
    rw [List.drop_append_of_le_length (by rw [bytesBits_length]),
      List.drop_of_length_le (by rw [bytesBits_length]), List.nil_append] at h1
    rw [h1, List.drop_append_eq_append_drop, hpl]
    by_cases h0 : e.nBits = 0
    · have hb : bytes.length = 0 := by rw [a3, h0]
      rw [hb, h0]
      have : pendingBits e = [] := List.eq_nil_of_length_eq_zero (by rw [hpl, h0])
      rw [this]
      simp
    · have hb : bytes.length = 1 := by rw [a3]; omega
      rw [hb, List.drop_of_length_le (by omega), List.nil_append, List.drop_replicate]
      congr 1
      omega
  · intro m e0 e1 hw
    unfold writeSOS at hw
    simp only at hw
    have e1' : (if m.isGray then write (sosHeaderY.map byte) e0
        else write (sosHeaderYCbCr.map byte) e0)
        = write (if m.isGray then sosHeaderY.map byte else sosHeaderYCbCr.map byte) e0 := by
      cases m.isGray <;> rfl
    rw [e1'] at hw
    cases hr : sosBlocks m (write (if m.isGray then sosHeaderY.map byte
        else sosHeaderYCbCr.map byte) e0) with
    | panic msg e2 => rw [hr] at hw; cases hw
    | ok sv e2 =>
      rw [hr] at hw
      injection hw with _ h2
      exact ⟨sv, e2, rfl, h2.symm⟩

/-- C24 with three pending bits `101`: the final call writes the byte `BF`. -/
theorem final_padding_witness :
    ((emit 5 3 (zeroEncoder [])).err = none ∧ EmitInv (emit 5 3 (zeroEncoder [])) ∧
     (emit 5 3 (zeroEncoder [])).nBits = 3 ∧
     (emit 0x7f 7 (emit 5 3 (zeroEncoder []))).out = bytesOf [0xbf]) ∧
    ((emit 5 3 (zeroEncoder [])).nBits = 0 →
      (emit 0x7f 7 (emit 5 3 (zeroEncoder []))).out = (emit 5 3 (zeroEncoder [])).out) ∧
    (0 < (emit 5 3 (zeroEncoder [])).nBits → ∃ b : Byte,
      bitsOf b.val 8 = pendingBits (emit 5 3 (zeroEncoder [])) ++
        List.replicate (8 - (emit 5 3 (zeroEncoder [])).nBits) true ∧
      (emit 0x7f 7 (emit 5 3 (zeroEncoder []))).out = (emit 5 3 (zeroEncoder [])).out ++ stuff [b] ∧
      ((emit 0x7f 7 (emit 5 3 (zeroEncoder []))).out = (emit 5 3 (zeroEncoder [])).out ++ [b] ∨
       (b.val = 0xff ∧ (emit 0x7f 7 (emit 5 3 (zeroEncoder []))).out
          = (emit 5 3 (zeroEncoder [])).out ++ [b, byte 0x00]))) ∧
    pendingBits (emit 0x7f 7 (emit 5 3 (zeroEncoder [])))
      = List.replicate (((emit 5 3 (zeroEncoder [])).nBits + 7) % 8) true ∧
    (∀ (m : EncImage) (e0 e1 : Encoder), writeSOS m e0 = .ok () e1 →
      ∃ sv e2, sosBlocks m (write (if m.isGray then sosHeaderY.map byte
          else sosHeaderYCbCr.map byte) e0) = .ok sv e2 ∧ e1 = emit 0x7f 7 e2) :=
  ⟨⟨by decide, by decide, by decide, by decide⟩,
   final_padding (emit 5 3 (zeroEncoder [])) (by decide) (by decide)⟩

theorem bitCount_spec : ∀ a : Fin 256, 1 ≤ a.val →
    1 ≤ bitCountTable.getD a.val 0 ∧ bitCountTable.getD a.val 0 ≤ 8 ∧
    2 ^ (bitCountTable.getD a.val 0 - 1) ≤ a.val ∧ a.val < 2 ^ (bitCountTable.getD a.val 0) := by
  decide!

/-- The size that `emitHuffRLE` computes for a magnitude `a` in 1..65535 is its
bit length. -/
theorem rleSize_of_magnitude (v : Int) (a : Nat) (hm : (rleMagnitude v).1 = (a : Int))
    (h1 : 1 ≤ a) (h2 : a < 65536) :
    ∃ n, rleSize v = some n ∧ 1 ≤ n ∧ n ≤ 16 ∧ 2 ^ (n - 1) ≤ a ∧ a < 2 ^ n := by
  unfold rleSize
  dsimp only
  rw [hm]
  by_cases hlt : a < 256
  · rw [if_pos (by exact_mod_cast hlt)]
    obtain ⟨c1, c2, c3, c4⟩ := bitCount_spec ⟨a, hlt⟩ h1
    simp only at c1 c2 c3 c4
    refine ⟨bitCountTable.getD a 0, ?_, c1, by omega, c3, c4⟩
    unfold bitCount
    rw [if_pos ⟨by positivity, by exact_mod_cast hlt⟩, Int.toNat_ofNat]
  · rw [if_neg (by intro h; exact hlt (by exact_mod_cast h))]
    have hsh : ((a : Int) >>> (8 : Nat)) = ((a / 256 : Nat) : Int) := by
      rw [Int.shiftRight_eq_div_pow]
      norm_num
    rw [hsh]
    have hq : a / 256 < 256 := by omega
    have hq1 : 1 ≤ a / 256 := by omega
    obtain ⟨c1, c2, c3, c4⟩ := bitCount_spec ⟨a / 256, hq⟩ hq1
    simp only at c1 c2 c3 c4
    generalize hn : bitCountTable.getD (a / 256) 0 = n at c1 c2 c3 c4
    have hbc : bitCount ((a / 256 : Nat) : Int) = some n := by
      unfold bitCount
      rw [if_pos ⟨by positivity, by exact_mod_cast hq⟩, Int.toNat_ofNat, hn]
    rw [hbc]
    refine ⟨8 + n, ?_, by omega, by omega, ?_, ?_⟩
    · show some ((8 + n) % 4294967296) = some (8 + n)
      rw [Nat.mod_eq_of_lt (by omega)]
    · have e1 : 8 + n - 1 = (n - 1) + 8 := by omega
      rw [e1, Nat.pow_add]
      have : 2 ^ (n - 1) * 2 ^ 8 ≤ (a / 256) * 256 := Nat.mul_le_mul_right _ c3
      omega
    · rw [Nat.add_comm 8 n, Nat.pow_add]
      have : (a / 256 + 1) * 256 ≤ 2 ^ n * 2 ^ 8 := Nat.mul_le_mul_right _ c4
      omega


theorem rle_mask (n : Nat) (hn : n ≤ 16) :
    (if n < 32 then ((1 <<< n) % 4294967296 + 4294967295) % 4294967296 else 4294967295)
      = 2 ^ n - 1 := by
  rw [if_pos (by omega), Nat.shiftLeft_eq, Nat.one_mul]
  have h1 : (2 : Nat) ^ n ≤ 2 ^ 16 := Nat.pow_le_pow_right (by norm_num) hn
  have h2 : 0 < (2 : Nat) ^ n := by positivity
  norm_num at h1
  generalize (2 : Nat) ^ n = p at h1 h2 ⊢
  omega

/-- The size and the extra bits of `emitHuffRLE` for a positive value. -/
theorem rle_pos (v : Int) (h1 : 0 < v) (h2 : v < 65536) :
    ∃ n, rleSize v = some n ∧ 1 ≤ n ∧ n ≤ 16 ∧ 2 ^ (n - 1) ≤ v.toNat ∧ v.toNat < 2 ^ n ∧
      rleBits v n = v.toNat := by
  obtain ⟨a, rfl⟩ : ∃ a : Nat, v = (a : Int) := ⟨v.toNat, by omega⟩
  have ha1 : 1 ≤ a := by omega
  have ha2 : a < 65536 := by omega
  have hm : rleMagnitude (a : Int) = ((a : Int), (a : Int)) := by
    unfold rleMagnitude
    rw [if_neg (by omega)]
  obtain ⟨n, c0, c1, c2, c3, c4⟩ := rleSize_of_magnitude (a : Int) a (by rw [hm]) ha1 ha2
  refine ⟨n, c0, c1, c2, by simpa using c3, by simpa using c4, ?_⟩
  · unfold rleBits
    rw [hm]
    simp only
    rw [rle_mask n c2, Nat.and_pow_two_sub_one_eq_mod]
    have hu : u32 (a : Int) = a := by
      unfold u32
      rw [Int.emod_eq_of_lt (by omega) (by omega)]
      simp
    rw [hu, Nat.mod_eq_of_lt c4]
    simp

/-- The size and the extra bits of `emitHuffRLE` for a negative value. -/
theorem rle_neg (v : Int) (h1 : v < 0) (h2 : -65536 < v) :
    ∃ n, rleSize v = some n ∧ 1 ≤ n ∧ n ≤ 16 ∧ 2 ^ (n - 1) ≤ (-v).toNat ∧ (-v).toNat < 2 ^ n ∧
      rleBits v n = 2 ^ n - 1 - (-v).toNat := by
  obtain ⟨a, rfl⟩ : ∃ a : Nat, v = -(a : Int) := ⟨(-v).toNat, by omega⟩
  have ha1 : 1 ≤ a := by omega
  have ha2 : a < 65536 := by omega
  have hm : rleMagnitude (-(a : Int)) = ((a : Int), -(a : Int) - 1) := by
    unfold rleMagnitude
    rw [if_pos (by omega)]
    have e1 : i32 (-(-(a : Int))) = (a : Int) := by
      unfold i32
      rw [Int.emod_eq_of_lt (by omega) (by omega)]; omega
    have e2 : i32 (-(a : Int) - 1) = -(a : Int) - 1 := by
      unfold i32
      rw [Int.emod_eq_of_lt (by omega) (by omega)]; omega
    rw [e1, e2]
  obtain ⟨n, c0, c1, c2, c3, c4⟩ := rleSize_of_magnitude (-(a : Int)) a (by rw [hm]) ha1 ha2
  refine ⟨n, c0, c1, c2, by simpa using c3, by simpa using c4, ?_⟩
  · unfold rleBits
    rw [hm]
    simp only
    rw [rle_mask n c2, Nat.and_pow_two_sub_one_eq_mod]
    have hu : u32 (-(a : Int) - 1) = 4294967296 - a - 1 := by
      unfold u32
      have : (-(a : Int) - 1) % 4294967296 = ((4294967296 - a - 1 : Nat) : Int) := by
        have e0 : (-(a : Int) - 1) = ((4294967296 - a - 1 : Nat) : Int) + 4294967296 * (-1) := by
          omega
        rw [e0, Int.add_mul_emod_self_left, Int.emod_eq_of_lt (by omega) (by omega)]
      rw [this]
      simp
    rw [hu]
    simp only [neg_neg, Int.toNat_ofNat]
    have hp : (2 : Nat) ^ n ∣ 4294967296 := by
      rw [show (4294967296 : Nat) = 2 ^ 32 by norm_num]
      exact Nat.pow_dvd_pow 2 (by omega)
    obtain ⟨q, hq⟩ := hp
    have hq1 : 1 ≤ q := by
      rcases Nat.eq_zero_or_pos q with h | h
      · rw [h] at hq; omega
      · exact h
    have e1 : 4294967296 - a - 1 = (2 ^ n - 1 - a) + 2 ^ n * (q - 1) := by
      have hq' : q = (q - 1) + 1 := by omega
      have : 2 ^ n * q = 2 ^ n * (q - 1) + 2 ^ n := by
        conv_lhs => rw [hq']
        ring
      omega
    rw [e1, Nat.add_mul_mod_self_left, Nat.mod_eq_of_lt (by omega)]

theorem extend_high (x t : Nat) (ht : 1 ≤ t) (h : 2 ^ (t - 1) ≤ x) : extend x t = (x : Int) := by
  unfold extend
  rw [if_neg (by omega), if_neg (by omega)]

theorem extend_low (x t : Nat) (ht : 1 ≤ t) (h : x < 2 ^ (t - 1)) :
    extend x t = (x : Int) - 2 ^ t + 1 := by
  unfold extend
  rw [if_neg (by omega), if_pos h]

/-- C28: for every integer `v` with `1 ≤ |v| < 2^16`, the size `nBits` that
`emitHuffRLE` computes is the bit length of `|v|`, between 1 and 16, and the
extra bits it emits are `v` itself for `v > 0` and the low `nBits` bits of
`v - 1` for `v < 0`; EXTEND maps them back to `v`, and `receiveExtend(nBits)`
reading these bits returns `v` and consumes exactly them.  `emitHuffRLE` emits
the Huffman code of `runLength<<4 | nBits` and then these bits.  For `v = 0` the
size is 0 and no extra bits are emitted. -/
theorem magnitude_round_trip (v : Int) (h1 : 1 ≤ |v|) (h2 : |v| < 65536) :
    ∃ n, rleSize v = some n ∧ 1 ≤ n ∧ n ≤ 16 ∧
      (2 : Int) ^ (n - 1) ≤ |v| ∧ |v| < 2 ^ n ∧
      rleBits v n < 2 ^ n ∧
      (0 < v → (rleBits v n : Int) = v) ∧
      (v < 0 → (rleBits v n : Int) = (v - 1) % 2 ^ n) ∧
      extend (rleBits v n) n = v ∧
      (∀ d : Decoder, BitsInv d.bits →
        (nextBits n d).val? = some (bitsOf (rleBits v n) n) →
        receiveExtend n d = .ok v (nextBits n d).state) ∧
      (∀ (h : Nat) (r : Int) (e : Encoder), emitHuffRLE h r v e =
        match emitHuff h (or32 (i32 (r * 16)) (i32 (n : Int))) e with
        | .panic m e1 => .panic m e1
        | .ok _ e1 => .ok () (emit (rleBits v n) n e1)) ∧
      rleSize 0 = some 0 ∧
      (∀ (h : Nat) (r : Int) (e : Encoder), emitHuffRLE h r 0 e =
        match emitHuff h (or32 (i32 (r * 16)) (i32 0)) e with
        | .panic m e1 => .panic m e1
        | .ok _ e1 => .ok () e1) := by
  have hz : rleSize 0 = some 0 := by decide
  have key : ∀ n : Nat, rleSize v = some n → 1 ≤ n → n ≤ 16 → rleBits v n < 2 ^ n →
      extend (rleBits v n) n = v →
      (∀ d : Decoder, BitsInv d.bits →
        (nextBits n d).val? = some (bitsOf (rleBits v n) n) →
        receiveExtend n d = .ok v (nextBits n d).state) ∧
      (∀ (h : Nat) (r : Int) (e : Encoder), emitHuffRLE h r v e =
        match emitHuff h (or32 (i32 (r * 16)) (i32 (n : Int))) e with
        | .panic m e1 => .panic m e1
        | .ok _ e1 => .ok () (emit (rleBits v n) n e1)) ∧
      rleSize 0 = some 0 ∧
      (∀ (h : Nat) (r : Int) (e : Encoder), emitHuffRLE h r 0 e =
        match emitHuff h (or32 (i32 (r * 16)) (i32 0)) e with
        | .panic m e1 => .panic m e1
        | .ok _ e1 => .ok () e1) := by
    intro n hs hn1 hn16 hlt hext
    refine ⟨?_, ?_, hz, ?_⟩
    · intro d hinv hbits
      have hb := Result.eq_ok_of_val hbits
      have hr := receiveExtend_next n hn16 d hinv _ _ hb
      rw [hr, ofBits_bitsOf, Nat.mod_eq_of_lt hlt, hext]
    · intro h r e
      unfold emitHuffRLE
      rw [hs]
      simp only
      cases emitHuff h (or32 (i32 (r * 16)) (i32 (n : Int))) e with
      | panic m e1 => rfl
      | ok u e1 =>
        simp only
        rw [if_pos (by omega)]
    · intro h r e
      unfold emitHuffRLE
      rw [hz]
      simp only
      cases emitHuff h (or32 (i32 (r * 16)) (i32 ((0 : Nat) : Int))) e with
      | panic m e1 => rfl
      | ok u e1 => rfl
  rcases lt_or_gt_of_ne (show v ≠ 0 by intro h; rw [h] at h1; simp at h1) with hneg | hpos
  · obtain ⟨n, c0, c1, c2, c3, c4, c5⟩ := rle_neg v hneg (by rw [abs_of_neg hneg] at h2; omega)
    have habs : |v| = ((-v).toNat : Int) := by rw [abs_of_neg hneg]; omega
    have hp : 0 < (2 : Nat) ^ n := by positivity
    have hlt : rleBits v n < 2 ^ n := by rw [c5]; omega
    have hcast : (rleBits v n : Int) = 2 ^ n - 1 - ((-v).toNat : Int) := by
      rw [c5]
      push_cast [Nat.cast_sub (show (-v).toNat ≤ 2 ^ n - 1 by omega),
        Nat.cast_sub (show 1 ≤ 2 ^ n by omega)]
      ring
    have hhalf : (2 : Nat) ^ n = 2 * 2 ^ (n - 1) := by
      rw [← Nat.pow_succ']; congr 1; omega
    have hext : extend (rleBits v n) n = v := by
      rw [extend_low _ _ c1 (by rw [c5]; omega), hcast]
      omega
    refine ⟨n, c0, c1, c2, ?_, ?_, hlt, fun h => absurd h (by omega), fun _ => ?_, hext,
      key n c0 c1 c2 hlt hext⟩
    · rw [habs]; exact_mod_cast c3
    · rw [habs]; exact_mod_cast c4
    · rw [hcast]
      have e1 : v - 1 = (2 ^ n - 1 - ((-v).toNat : Int)) + 2 ^ n * (-1) := by
        have : ((-v).toNat : Int) = -v := by omega
        rw [this]; ring
      rw [e1, Int.add_mul_emod_self_left, Int.emod_eq_of_lt]
      · have h0 : (((-v).toNat + 1 : Nat) : Int) ≤ ((2 ^ n : Nat) : Int) :=
          Int.ofNat_le.mpr (by omega)
        push_cast at h0
        omega
      · have : (0 : Int) ≤ ((-v).toNat : Int) := by positivity
        have : (1 : Int) ≤ ((-v).toNat : Int) := by exact_mod_cast (show 1 ≤ (-v).toNat by omega)
        omega
  · obtain ⟨n, c0, c1, c2, c3, c4, c5⟩ := rle_pos v hpos (by rw [abs_of_pos hpos] at h2; omega)
    have habs : |v| = (v.toNat : Int) := by rw [abs_of_pos hpos]; omega
    have hlt : rleBits v n < 2 ^ n := by rw [c5]; exact c4
    have hext : extend (rleBits v n) n = v := by
      rw [extend_high _ _ c1 (by rw [c5]; exact c3), c5]
      omega
    refine ⟨n, c0, c1, c2, ?_, ?_, hlt, fun _ => by rw [c5]; omega, fun h => absurd h (by omega),
      hext, key n c0 c1 c2 hlt hext⟩
    · rw [habs]; exact_mod_cast c3
    · rw [habs]; exact_mod_cast c4

theorem magnitude_round_trip_witness :
    (1 ≤ |(-5 : Int)| ∧ |(-5 : Int)| < 65536) ∧
    ∃ n, rleSize (-5) = some n ∧ 1 ≤ n ∧ n ≤ 16 ∧
      (2 : Int) ^ (n - 1) ≤ |(-5 : Int)| ∧ |(-5 : Int)| < 2 ^ n ∧
      rleBits (-5) n < 2 ^ n ∧
      (0 < (-5 : Int) → (rleBits (-5) n : Int) = -5) ∧
      ((-5 : Int) < 0 → (rleBits (-5) n : Int) = (-5 - 1) % 2 ^ n) ∧
      extend (rleBits (-5) n) n = -5 ∧
      (∀ d : Decoder, BitsInv d.bits →
        (nextBits n d).val? = some (bitsOf (rleBits (-5) n) n) →
        receiveExtend n d = .ok (-5) (nextBits n d).state) ∧
      (∀ (h : Nat) (r : Int) (e : Encoder), emitHuffRLE h r (-5) e =
        match emitHuff h (or32 (i32 (r * 16)) (i32 (n : Int))) e with
        | .panic m e1 => .panic m e1
        | .ok _ e1 => .ok () (emit (rleBits (-5) n) n e1)) ∧
      rleSize 0 = some 0 ∧
      (∀ (h : Nat) (r : Int) (e : Encoder), emitHuffRLE h r 0 e =
        match emitHuff h (or32 (i32 (r * 16)) (i32 0)) e with
        | .panic m e1 => .panic m e1
        | .ok _ e1 => .ok () e1) :=
  ⟨⟨by decide, by decide⟩, magnitude_round_trip (-5) (by decide) (by decide)⟩


theorem i32_zero : i32 0 = 0 := by decide

theorem setRow_get (b : Block) (y8 : Nat) (v0 v1 v2 v3 v4 v5 v6 v7 : Int) (x : Nat) (hx : x < 8) :
    setRow b y8 v0 v1 v2 v3 v4 v5 v6 v7 (y8 + x) = [v0, v1, v2, v3, v4, v5, v6, v7].getD x 0 := by
  unfold setRow upd
  interval_cases x <;> simp

theorem fdctRow_const (b : Block) (y : Nat) (c : Int) (h0 : 0 ≤ c) (h1 : c ≤ 255)
    (hrow : ∀ k, k < 8 → b (y * 8 + k) = c) (x : Nat) (hx : x < 8) :
    fdctRow b y (y * 8 + x) = if x = 0 then 32 * c - 4096 else 0 := by
  have r0 := hrow 0 (by omega)
  have r1 := hrow 1 (by omega)
  have r2 := hrow 2 (by omega)
  have r3 := hrow 3 (by omega)
  have r4 := hrow 4 (by omega)
  have r5 := hrow 5 (by omega)
  have r6 := hrow 6 (by omega)
  have r7 := hrow 7 (by omega)
  unfold fdctRow
  simp only [r0, r1, r2, r3, r4, r5, r6, r7]
  rw [setRow_get _ _ _ _ _ _ _ _ _ _ x hx]
  have e2 : i32 (c + c) = 2 * c := by rw [i32_of_range _ (by omega) (by omega)]; ring
  have e4 : i32 (2 * c + 2 * c) = 4 * c := by rw [i32_of_range _ (by omega) (by omega)]; ring
  have e8 : i32 (4 * c + 4 * c - 8 * centerJSample) = 8 * c - 1024 := by
    rw [i32_of_range _ (by unfold centerJSample; omega) (by unfold centerJSample; omega)]
    unfold centerJSample; ring
  have e32 : i32 ((8 * c - 1024) * 2 ^ pass1Bits) = 32 * c - 4096 := by
    unfold pass1Bits
    rw [i32_of_range _ (by omega) (by omega)]; ring
  simp only [e2, e4, e8, e32, sub_self, i32_zero, add_zero, zero_add, zero_mul, mul_zero, sub_zero]
  interval_cases x <;> simp <;> norm_num [i32, constBits, pass1Bits, Int.shiftRight_eq_div_pow]

theorem setCol_get (b : Block) (x : Nat) (v0 v1 v2 v3 v4 v5 v6 v7 : Int) (y : Nat) (hy : y < 8) :
    setCol b x v0 v1 v2 v3 v4 v5 v6 v7 (y * 8 + x) = [v0, v1, v2, v3, v4, v5, v6, v7].getD y 0 := by
  unfold setCol upd
  interval_cases y <;> simp

theorem fdctRows_at (b : Block) (n y x : Nat) (hy : y < n) (hx : x < 8) :
    (List.range n).foldl fdctRow b (y * 8 + x) =
      fdctRow ((List.range y).foldl fdctRow b) y (y * 8 + x) := by
  induction n with
  | zero => omega
  | succ n ih =>
    rw [List.range_succ, List.foldl_append]
    simp only [List.foldl_cons, List.foldl_nil]
    by_cases h : y = n
    · subst h; rfl
    · rw [fdctRow_other _ _ _ (by omega), ih (by omega)]

theorem fdctCols_other (b : Block) (n i : Nat) (hn : n ≤ 8) (h : n ≤ i % 8) :
    (List.range n).foldl fdctCol b i = b i := by
  induction n with
  | zero => simp
  | succ n ih =>
    rw [List.range_succ, List.foldl_append]
    simp only [List.foldl_cons, List.foldl_nil]
    rw [fdctCol_other _ _ _ (by omega), ih (by omega) (by omega)]

theorem fdctCols_at (b : Block) (n y x : Nat) (hn : n ≤ 8) (hx : x < n) :
    (List.range n).foldl fdctCol b (y * 8 + x) =
      fdctCol ((List.range x).foldl fdctCol b) x (y * 8 + x) := by
  induction n with
  | zero => omega
  | succ n ih =>
    rw [List.range_succ, List.foldl_append]
    simp only [List.foldl_cons, List.foldl_nil]
    by_cases h : x = n
    · subst h; rfl
    · rw [fdctCol_other _ _ _ (by omega), ih (by omega) (by omega)]

theorem fdctRows_const (c : Int) (h0 : 0 ≤ c) (h1 : c ≤ 255) (y x : Nat) (hy : y < 8)
    (hx : x < 8) :
    (List.range 8).foldl fdctRow (constBlock c) (y * 8 + x) =
      if x = 0 then 32 * c - 4096 else 0 := by
  rw [fdctRows_at _ _ _ _ hy hx]
  apply fdctRow_const _ _ _ h0 h1 _ _ hx
  intro k hk
  rw [fdctRows_other _ _ _ (by omega)]
  rfl

theorem fdctCol_const (b : Block) (x : Nat) (r : Int) (h0 : -100000 ≤ r) (h1 : r ≤ 100000)
    (hcol : ∀ k, k < 8 → b (k * 8 + x) = r) (y : Nat) (hy : y < 8) :
    fdctCol b x (y * 8 + x) = if y = 0 then 2 * r else 0 := by
  have r0 := hcol 0 (by omega)
  have r1 := hcol 1 (by omega)
  have r2 := hcol 2 (by omega)
  have r3 := hcol 3 (by omega)
  have r4 := hcol 4 (by omega)
  have r5 := hcol 5 (by omega)
  have r6 := hcol 6 (by omega)
  have r7 := hcol 7 (by omega)
  unfold fdctCol
  simp only [r0, r1, r2, r3, r4, r5, r6, r7]
  rw [setCol_get _ _ _ _ _ _ _ _ _ _ y hy]
  have e2 : i32 (r + r) = 2 * r := by rw [i32_of_range _ (by omega) (by omega)]; ring
  have e4 : i32 (2 * r + 2 * r) = 4 * r := by rw [i32_of_range _ (by omega) (by omega)]; ring
  have e5 : i32 (2 * r + 2 * r + 2 ^ (pass1Bits - 1)) = 4 * r + 2 := by
    unfold pass1Bits
    rw [i32_of_range _ (by omega) (by omega)]; ring
  have e8 : i32 (4 * r + 2 + 4 * r) = 8 * r + 2 := by
    rw [i32_of_range _ (by omega) (by omega)]; ring
  have e9 : i32 (4 * r + 2 - 4 * r) = 2 := by
    have : 4 * r + 2 - 4 * r = 2 := by ring
    rw [this]; decide
  simp only [e2, e4, e5, e8, e9, sub_self, i32_zero, add_zero, zero_add, zero_mul, mul_zero,
    sub_zero]
  interval_cases y <;> simp <;>
    norm_num [i32, constBits, pass1Bits, Int.shiftRight_eq_div_pow]
  omega

theorem fdct_const_at (c : Int) (h0 : 0 ≤ c) (h1 : c ≤ 255) (y x : Nat) (hy : y < 8)
    (hx : x < 8) :
    fdct (constBlock c) (y * 8 + x) = if y = 0 ∧ x = 0 then 64 * (c - 128) else 0 := by
  unfold fdct
  rw [fdctCols_at _ _ _ _ (le_refl 8) hx]
  have hcol : ∀ k, k < 8 →
      (List.range x).foldl fdctCol ((List.range 8).foldl fdctRow (constBlock c)) (k * 8 + x) =
        if x = 0 then 32 * c - 4096 else 0 := by
    intro k hk
    rw [fdctCols_other _ _ _ (by omega) (by omega), fdctRows_const c h0 h1 k x hk hx]
  by_cases hx0 : x = 0
  · subst hx0
    rw [fdctCol_const _ 0 (32 * c - 4096) (by omega) (by omega) (fun k hk => by
      rw [hcol k hk]; simp) y hy]
    by_cases hy0 : y = 0
    · simp [hy0]; ring
    · simp [hy0]
  · rw [fdctCol_const _ x 0 (by omega) (by omega) (fun k hk => by
      rw [hcol k hk]; simp [hx0]) y hy]
    simp [hx0]

theorem fdct_const (c : Int) (h0 : 0 ≤ c) (h1 : c ≤ 255) (i : Nat) (hi : i < 64) :
    fdct (constBlock c) i = if i = 0 then 64 * (c - 128) else 0 := by
  have e : i = i / 8 * 8 + i % 8 := by omega
  rw [e, fdct_const_at c h0 h1 (i / 8) (i % 8) (by omega) (by omega)]
  by_cases h : i = 0
  · subst h; simp
  · have h2 : ¬ (i / 8 = 0 ∧ i % 8 = 0) := by omega
    have h3 : ¬ (i / 8 * 8 + i % 8 = 0) := by omega
    rw [if_neg h2, if_neg h3]

theorem dequantize_ones (b qt : Block) (hb : ∀ i, -2147483648 ≤ b i ∧ b i ≤ 2147483647)
    (hq : ∀ z, z < blockSize → qt z = 1) : dequantize b qt = b := by
  unfold dequantize
  have key : ∀ l : List Nat, (∀ z ∈ l, z < blockSize) →
      l.foldl (fun b z => upd b (unzig z) (i32 (b (unzig z) * qt z))) b = b := by
    intro l
    induction l with
    | nil => intro _; rfl
    | cons z l ih =>
      intro hl
      rw [List.foldl_cons]
      have e : upd b (unzig z) (i32 (b (unzig z) * qt z)) = b := by
        funext i
        unfold upd
        split
        · rename_i h
          rw [hq z (hl z (List.mem_cons_self _ _)), mul_one,
            i32_of_range _ (hb _).1 (hb _).2, h]
        · rfl
      rw [e]
      exact ih (fun z hz => hl z (List.mem_cons_of_mem _ hz))
  exact key _ (fun z hz => List.mem_range.mp hz)

theorem idctRow_other (b : Block) (y i : Nat) (h : i < y * 8 ∨ y * 8 + 8 ≤ i) :
    idctRow b y i = b i := by
  unfold idctRow
  split
  · unfold idctRowFast
    exact setRow_other _ _ _ _ _ _ _ _ _ _ _ h
  · unfold idctRowGeneral
    exact setRow_other _ _ _ _ _ _ _ _ _ _ _ h

theorem idctCol_other (b : Block) (x i : Nat) (h : i % 8 ≠ x % 8 ∨ 64 + x ≤ i) :
    idctCol b x i = b i := by
  unfold idctCol
  exact setCol_other _ _ _ _ _ _ _ _ _ _ _ h

theorem idctRows_other (b : Block) (n i : Nat) (h : n * 8 ≤ i) :
    (List.range n).foldl idctRow b i = b i := by
  induction n with
  | zero => simp
  | succ n ih =>
    rw [List.range_succ, List.foldl_append]
    simp only [List.foldl_cons, List.foldl_nil]
    rw [idctRow_other _ _ _ (by omega), ih (by omega)]

theorem idctRows_at (b : Block) (n y x : Nat) (hy : y < n) (hx : x < 8) :
    (List.range n).foldl idctRow b (y * 8 + x) =
      idctRow ((List.range y).foldl idctRow b) y (y * 8 + x) := by
  induction n with
  | zero => omega
  | succ n ih =>
    rw [List.range_succ, List.foldl_append]
    simp only [List.foldl_cons, List.foldl_nil]
    by_cases h : y = n
    · subst h; rfl
    · rw [idctRow_other _ _ _ (by omega), ih (by omega)]

theorem idctCols_other (b : Block) (n i : Nat) (hn : n ≤ 8) (h : n ≤ i % 8) :
    (List.range n).foldl idctCol b i = b i := by
  induction n with
  | zero => simp
  | succ n ih =>
    rw [List.range_succ, List.foldl_append]
    simp only [List.foldl_cons, List.foldl_nil]
    rw [idctCol_other _ _ _ (by omega), ih (by omega) (by omega)]

theorem idctCols_at (b : Block) (n y x : Nat) (hn : n ≤ 8) (hx : x < n) :
    (List.range n).foldl idctCol b (y * 8 + x) =
      idctCol ((List.range x).foldl idctCol b) x (y * 8 + x) := by
  induction n with
  | zero => omega
  | succ n ih =>
    rw [List.range_succ, List.foldl_append]
    simp only [List.foldl_cons, List.foldl_nil]
    by_cases h : x = n
    · subst h; rfl
    · rw [idctCol_other _ _ _ (by omega), ih (by omega) (by omega)]

/-- The fast path of the horizontal pass: a row whose AC terms are zero is
filled with its first term times eight. -/
theorem idctRow_fast_at (src : Block) (y x : Nat) (hx : x < 8)
    (hz : ∀ k, 1 ≤ k → k < 8 → src (y * 8 + k) = 0) :
    idctRow src y (y * 8 + x) = i32 (src (y * 8) * 8) := by
  unfold idctRow
  rw [if_pos ⟨hz 1 (by omega) (by omega), hz 2 (by omega) (by omega),
    hz 3 (by omega) (by omega), hz 4 (by omega) (by omega), hz 5 (by omega) (by omega),
    hz 6 (by omega) (by omega), hz 7 (by omega) (by omega)⟩]
  unfold idctRowFast
  rw [setRow_get _ _ _ _ _ _ _ _ _ _ x hx]
  interval_cases x <;> rfl

theorem idctRows_dcOnly (v : Int) (h0 : -100000 ≤ v) (h1 : v ≤ 100000) (y x : Nat)
    (hy : y < 8) (hx : x < 8) :
    (List.range 8).foldl idctRow (dcOnly v) (y * 8 + x) = if y = 0 then 8 * v else 0 := by
  rw [idctRows_at _ _ _ _ hy hx, idctRow_fast_at _ _ _ hx, idctRows_other _ _ _ (le_refl _)]
  · unfold dcOnly
    by_cases h : y = 0
    · subst h
      simp
      rw [i32_of_range _ (by omega) (by omega)]; ring
    · have : y * 8 ≠ 0 := by omega
      simp [h, this, i32_zero]
  · intro k hk1 hk8
    rw [idctRows_other _ _ _ (by omega)]
    unfold dcOnly
    rw [if_neg (by omega)]

theorem idctCol_dc (src : Block) (x : Nat) (s : Int) (h0 : -1000000 ≤ s) (h1 : s ≤ 1000000)
    (hs : src x = s) (hz : ∀ k, 1 ≤ k → k < 8 → src (k * 8 + x) = 0) (y : Nat) (hy : y < 8) :
    idctCol src x (y * 8 + x) = (s * 256 + 8192) / 16384 := by
  have z1 : src (8 + x) = 0 := hz 1 (by omega) (by omega)
  have z2 : src (16 + x) = 0 := hz 2 (by omega) (by omega)
  have z3 : src (24 + x) = 0 := hz 3 (by omega) (by omega)
  have z4 : src (32 + x) = 0 := hz 4 (by omega) (by omega)
  have z5 : src (40 + x) = 0 := hz 5 (by omega) (by omega)
  have z6 : src (48 + x) = 0 := hz 6 (by omega) (by omega)
  have z7 : src (56 + x) = 0 := hz 7 (by omega) (by omega)
  unfold idctCol
  simp only [hs, z1, z2, z3, z4, z5, z6, z7]
  rw [setCol_get _ _ _ _ _ _ _ _ _ _ y hy]
  have e0 : i32 (s * 256 + 8192) = s * 256 + 8192 := i32_of_range _ (by omega) (by omega)
  have e4 : i32 4 = 4 := by decide
  have e128 : i32 128 = 128 := by decide
  have s3 : (4 : Int) >>> 3 = 0 := by decide
  have s8 : (128 : Int) >>> 8 = 0 := by decide
  simp only [e0, e4, e128, s3, s8, sub_self, i32_zero, add_zero, zero_add, zero_mul, mul_zero,
    sub_zero]
  have e14 : (s * 256 + 8192) >>> (14 : Int) = (s * 256 + 8192) / 16384 := by
    have := int_shiftRight_div (s * 256 + 8192) 14
    simpa using this
  interval_cases y <;> simp <;> exact e14

theorem idct_dcOnly_at (v : Int) (h0 : -100000 ≤ v) (h1 : v ≤ 100000) (y x : Nat) (hy : y < 8)
    (hx : x < 8) : idct (dcOnly v) (y * 8 + x) = (8 * v * 256 + 8192) / 16384 := by
  unfold idct
  rw [idctCols_at _ _ _ _ (le_refl 8) hx]
  have hcol : ∀ k, k < 8 →
      (List.range x).foldl idctCol ((List.range 8).foldl idctRow (dcOnly v)) (k * 8 + x) =
        if k = 0 then 8 * v else 0 := by
    intro k hk
    rw [idctCols_other _ _ _ (by omega) (by omega), idctRows_dcOnly v h0 h1 k x hk hx]
  apply idctCol_dc _ _ _ (by omega) (by omega) _ _ _ hy
  · have := hcol 0 (by omega)
    simpa using this
  · intro k hk1 hk8
    rw [hcol k hk8, if_neg (by omega)]

theorem idct_dcOnly (v : Int) (h0 : -100000 ≤ v) (h1 : v ≤ 100000) (i : Nat) (hi : i < 64) :
    idct (dcOnly v) i = (8 * v * 256 + 8192) / 16384 := by
  have e : i = i / 8 * 8 + i % 8 := by omega
  rw [e, idct_dcOnly_at v h0 h1 (i / 8) (i % 8) (by omega) (by omega)]

theorem levelShift_sub (c : Int) (h0 : 0 ≤ c) (h1 : c ≤ 255) : (levelShift (c - 128) : Int) = c := by
  unfold levelShift
  rw [if_neg (by omega), if_neg (by omega)]
  have : c - 128 + 128 = c := by ring
  rw [this]
  exact Int.toNat_of_nonneg h0

theorem encodeQuant_hundred (q zig : Nat) (hq : q < 2) (hz : zig < 64) :
    encodeQuant (some 100) q zig = 1 := by
  have key : ∀ q : Fin 2, ∀ z : Fin 64, encodeQuant (some 100) q.val z.val = 1 := by decide!
  exact key ⟨q, hq⟩ ⟨zig, hz⟩

theorem unzig_pos (zig : Nat) (h1 : 1 ≤ zig) (h2 : zig < 64) : 1 ≤ unzig zig ∧ unzig zig < 64 := by
  have key : ∀ z : Fin 64, 1 ≤ z.val → 1 ≤ unzig z.val ∧ unzig z.val < 64 := by decide
  exact key ⟨zig, h2⟩ h1

/-- C29: the constant-block pipeline at quality 100.  For every `c` in `0..255`
the block whose 64 samples equal `c` is transformed by `fdct` into the DC term
`64*(c-128)` with all 63 AC terms 0; `div` with the divisor `8*1` that
`writeBlock` uses at quality 100 turns the DC term into `8*(c-128)` and every AC
term into 0; and on the block with that DC term the decoder's dequantization by
a table of ones, `idct` and the level shift with clamping give back `c` at all
64 positions. -/
theorem constant_block_round_trip (c : Nat) (hc : c ≤ 255) :
    fdct (constBlock c) 0 = 64 * ((c : Int) - 128) ∧
    (∀ i, 1 ≤ i → i < 64 → fdct (constBlock c) i = 0) ∧
    div (fdct (constBlock c) 0) (8 * 1) = some (8 * ((c : Int) - 128)) ∧
    (∀ i, 1 ≤ i → i < 64 → div (fdct (constBlock c) i) (8 * 1) = some 0) ∧
    (∀ (e : Encoder) (q zig : Nat), e.quant = encodeQuant (some 100) → q < 2 → zig < 64 →
      quantDiv e q zig (fdct (constBlock c) (unzig zig)) =
        some (dcOnly (8 * ((c : Int) - 128)) (unzig zig))) ∧
    (∀ qt : Block, (∀ z, z < blockSize → qt z = 1) → ∀ i, i < 64 →
      idct (dequantize (dcOnly (8 * ((c : Int) - 128))) qt) i = (c : Int) - 128 ∧
      levelShift (idct (dequantize (dcOnly (8 * ((c : Int) - 128))) qt) i) = c) := by
  have h0 : (0 : Int) ≤ c := Int.ofNat_nonneg c
  have h1 : (c : Int) ≤ 255 := by exact_mod_cast hc
  have hdc : fdct (constBlock c) 0 = 64 * ((c : Int) - 128) := by
    rw [fdct_const c h0 h1 0 (by omega)]; simp
  have hac : ∀ i, 1 ≤ i → i < 64 → fdct (constBlock c) i = 0 := by
    intro i hi1 hi2
    rw [fdct_const c h0 h1 i hi2, if_neg (by omega)]
  have hd0 : div (0 : Int) (8 * 1) = some 0 := by decide
  have hddc : div (64 * ((c : Int) - 128)) (8 * 1) = some (8 * ((c : Int) - 128)) := by
    by_cases hneg : (c : Int) < 128
    · have e : -((-(64 * ((c : Int) - 128)) + 8 * 1 / 2) / (8 * 1)) = 8 * ((c : Int) - 128) := by
        omega
      rw [div_of_neg _ _ (by omega) (by norm_num) (by omega), e]
    · have e : (64 * ((c : Int) - 128) + 8 * 1 / 2) / (8 * 1) = 8 * ((c : Int) - 128) := by
        omega
      rw [div_of_nonneg _ _ (by omega) (by norm_num) (by omega), e]
  refine ⟨hdc, hac, by rw [hdc]; exact hddc, ?_, ?_, ?_⟩
  · intro i hi1 hi2
    rw [hac i hi1 hi2]; exact hd0
  · intro e q zig he hq hz
    unfold quantDiv
    rw [he, encodeQuant_hundred q zig hq hz]
    have e1 : ((u8 1 : Nat) : Int) = 1 := by decide
    rw [e1]
    by_cases hz0 : zig = 0
    · subst hz0
      have e2 : unzig 0 = 0 := by decide
      rw [e2, hdc, hddc]
      simp [dcOnly]
    · have hu := unzig_pos zig (by omega) hz
      rw [hac _ hu.1 hu.2, hd0]
      unfold dcOnly
      rw [if_neg (by omega)]
  · intro qt hq i hi
    have hb : ∀ j, -2147483648 ≤ dcOnly (8 * ((c : Int) - 128)) j ∧
        dcOnly (8 * ((c : Int) - 128)) j ≤ 2147483647 := by
      intro j
      unfold dcOnly
      split <;> omega
    rw [dequantize_ones _ _ hb hq, idct_dcOnly _ (by omega) (by omega) i hi]
    have e : (8 * (8 * ((c : Int) - 128)) * 256 + 8192) / 16384 = (c : Int) - 128 := by omega
    rw [e]
    refine ⟨rfl, ?_⟩
    have := levelShift_sub (c : Int) h0 h1
    exact_mod_cast this

theorem constant_block_round_trip_witness :
    200 ≤ 255 ∧
    (fdct (constBlock (200 : Nat)) 0 = 64 * (((200 : Nat) : Int) - 128) ∧
    (∀ i, 1 ≤ i → i < 64 → fdct (constBlock (200 : Nat)) i = 0) ∧
    div (fdct (constBlock (200 : Nat)) 0) (8 * 1) = some (8 * (((200 : Nat) : Int) - 128)) ∧
    (∀ i, 1 ≤ i → i < 64 → div (fdct (constBlock (200 : Nat)) i) (8 * 1) = some 0) ∧
    (∀ (e : Encoder) (q zig : Nat), e.quant = encodeQuant (some 100) → q < 2 → zig < 64 →
      quantDiv e q zig (fdct (constBlock (200 : Nat)) (unzig zig)) =
        some (dcOnly (8 * (((200 : Nat) : Int) - 128)) (unzig zig))) ∧
    (∀ qt : Block, (∀ z, z < blockSize → qt z = 1) → ∀ i, i < 64 →
      idct (dequantize (dcOnly (8 * (((200 : Nat) : Int) - 128))) qt) i =
        ((200 : Nat) : Int) - 128 ∧
      levelShift (idct (dequantize (dcOnly (8 * (((200 : Nat) : Int) - 128))) qt) i) = 200)) :=
  ⟨by decide, constant_block_round_trip 200 (by decide)⟩


theorem lutFillK_sound (P : Nat → Nat → Prop) (base v : Nat) (cnt : Nat) :
    ∀ (k : Nat) (lut : Nat → Nat), (∀ x, lut x ≠ 0 → P x (lut x)) →
      (∀ j, k ≤ j → j < k + cnt → P (base ||| j) v) →
      ∀ x, lutFillK base v cnt k lut x ≠ 0 → P x (lutFillK base v cnt k lut x) := by
  induction cnt with
  | zero => intro k lut hl _ x hx; exact hl x hx
  | succ cnt ih =>
    intro k lut hl hv
    rw [lutFillK]
    apply ih
    · intro x hx
      unfold upd at hx ⊢
      by_cases h : x = base ||| k
      · rw [if_pos h]
        rw [h]
        exact hv k (le_refl _) (by omega)
      · rw [if_neg h] at hx ⊢
        exact hl x hx
    · intro j hj1 hj2
      exact hv j (by omega) (by omega)

theorem shl_or_low (code s j : Nat) (hj : j < 2 ^ s) :
    ((code <<< s) ||| j) = code * 2 ^ s + j ∧ ((code <<< s) ||| j) >>> s = code := by
  have e : (code <<< s) ||| j = code * 2 ^ s + j := by
    rw [Nat.shiftLeft_eq, Nat.mul_comm]
    exact (Nat.mul_add_lt_is_or hj code).symm
  refine ⟨e, ?_⟩
  rw [e, Nat.shiftRight_eq_div_pow, Nat.mul_comm, Nat.mul_add_div (by positivity),
    Nat.div_eq_of_lt hj, Nat.add_zero]

theorem lutSound_mono (vals : Nat → Byte) (nc : Nat → Nat) (m kmax m1 kmax1 : Nat)
    (lut : Nat → Nat) (h : LutSound vals nc m kmax lut)
    (hm : ∀ i k, (i < m ∨ (i = m ∧ k < kmax)) → k < canonBase nc (i + 1) →
      (i < m1 ∨ (i = m1 ∧ k < kmax1))) :
    LutSound vals nc m1 kmax1 lut := by
  intro x hx
  obtain ⟨i, k, h1, h2, h3, h4, h5⟩ := h x hx
  exact ⟨i, k, h1, h2, h3, hm i k h4 h3, h5⟩

theorem lutFillJ_sound (vals : Nat → Byte) (nc : Nat → Nat) (i : Nat) (hi : i < 8)
    (hv : nc i ≠ 0 → canonFirst nc i + nc i ≤ 2 ^ (i + 1)) (cnt : Nat) :
    ∀ (j0 : Nat) (s : LutState), j0 + cnt ≤ nc i → s.code = canonFirst nc i + j0 →
      s.x = canonBase nc i + j0 → canonBase nc i + nc i ≤ 256 →
      LutSound vals nc i (canonBase nc i + j0) s.lut →
      (lutFillJ vals i cnt s).code = canonFirst nc i + (j0 + cnt) ∧
      (lutFillJ vals i cnt s).x = canonBase nc i + (j0 + cnt) ∧
      LutSound vals nc i (canonBase nc i + (j0 + cnt)) (lutFillJ vals i cnt s).lut := by
  induction cnt with
  | zero => intro j0 s _ hc hx _ hl; exact ⟨hc, hx, hl⟩
  | succ cnt ih =>
    intro j0 s hle hc hx hb hl
    rw [lutFillJ]
    have hne : nc i ≠ 0 := by omega
    have hcode : s.code < 2 ^ (i + 1) := by have := hv hne; omega
    have hp : (2 : Nat) ^ (i + 1) * 2 ^ (7 - i) = 256 := by
      rw [← pow_add]
      have : i + 1 + (7 - i) = 8 := by omega
      rw [this]
      norm_num
    have hshift : s.code <<< (7 - i) = s.code * 2 ^ (7 - i) := Nat.shiftLeft_eq _ _
    have hbase : u8 (s.code <<< (7 - i)) = s.code <<< (7 - i) := by
      unfold u8
      apply Nat.mod_eq_of_lt
      rw [hshift]
      calc s.code * 2 ^ (7 - i) < 2 ^ (i + 1) * 2 ^ (7 - i) :=
            Nat.mul_lt_mul_of_pos_right hcode (by positivity)
        _ = 256 := hp
    have hval := (lutValue_low (vals s.x).val i (vals s.x).isLt hi).1
    have h32 : (2 : Nat) ^ (i + 1) ≤ 256 := by
      calc (2 : Nat) ^ (i + 1) ≤ 2 ^ 8 := Nat.pow_le_pow_right (by norm_num) (by omega)
        _ = 256 := by norm_num
    have := ih (j0 + 1)
      { lut := lutFillK (u8 (s.code <<< (7 - i))) (u16 (((vals s.x).val <<< 8) ||| (2 + i)))
          (1 <<< (7 - i)) 0 s.lut
        x := (s.x + 1) % 4294967296
        code := (s.code + 1) % 4294967296 } (by omega)
      (by show (s.code + 1) % 4294967296 = _; omega)
      (by show (s.x + 1) % 4294967296 = _; omega) hb ?_
    · have e : j0 + 1 + cnt = j0 + (cnt + 1) := by omega
      rw [e] at this
      exact this
    · show LutSound vals nc i (canonBase nc i + (j0 + 1)) _
      apply lutFillK_sound (fun x v => ∃ i1 k, i1 < 8 ∧ canonBase nc i1 ≤ k ∧
        k < canonBase nc (i1 + 1) ∧ (i1 < i ∨ (i1 = i ∧ k < canonBase nc i + (j0 + 1))) ∧
        v = 256 * (vals k).val + (2 + i1) ∧ x < 256 ∧
        x >>> (7 - i1) = canonFirst nc i1 + (k - canonBase nc i1))
      · intro x hx0
        obtain ⟨i1, k, h1, h2, h3, h4, h5⟩ := hl x hx0
        exact ⟨i1, k, h1, h2, h3, by omega, h5⟩
      · intro j _ hj
        rw [Nat.zero_add, Nat.shiftLeft_eq, Nat.one_mul] at hj
        have hs := shl_or_low s.code (7 - i) j hj
        refine ⟨i, s.x, hi, by omega, ?_, Or.inr ⟨rfl, by omega⟩, ?_, ?_, ?_⟩
        · rw [canonBase_succ]; omega
        · rw [hval]
        · rw [hbase, hs.1]
          calc s.code * 2 ^ (7 - i) + j < s.code * 2 ^ (7 - i) + 2 ^ (7 - i) := by omega
            _ = (s.code + 1) * 2 ^ (7 - i) := by ring
            _ ≤ 2 ^ (i + 1) * 2 ^ (7 - i) := Nat.mul_le_mul_right _ (by omega)
            _ = 256 := hp
        · rw [hbase, hs.2, hc, hx]; omega

theorem lutFillI_sound (vals : Nat → Byte) (nc : Nat → Nat) (hv : ValidCounts nc) (cnt : Nat) :
    ∀ (i : Nat) (s : LutState), i + cnt ≤ 8 → s.code * 2 = canonFirst nc i →
      s.x = canonBase nc i → LutSound vals nc i (canonBase nc i) s.lut →
      LutSound vals nc (i + cnt) (canonBase nc (i + cnt)) (lutFillI vals nc cnt i s).lut := by
  induction cnt with
  | zero => intro i s _ _ _ hl; exact hl
  | succ cnt ih =>
    intro i s hle hc hx hl
    rw [lutFillI]
    have hb := canonFirst_bound nc hv.2.1 i (by omega)
    have hbase : canonBase nc i + nc i ≤ 256 := by
      rw [← canonBase_succ]
      exact le_trans (canonBase_mono nc (i + 1) 16 (by omega)) hv.2.1
    have hcode : (s.code <<< 1) % 4294967296 = canonFirst nc i + 0 := by
      rw [Nat.shiftLeft_eq, pow_one, hc, Nat.add_zero]
      omega
    have hJ := lutFillJ_sound vals nc i (by omega) (hv.2.2 i (by omega)) (nc i) 0
      { s with code := (s.code <<< 1) % 4294967296 } (by omega) hcode (by rw [Nat.add_zero]; exact hx)
      hbase (by rw [Nat.add_zero]; exact hl)
    rw [Nat.zero_add] at hJ
    have := ih (i + 1) _ (by omega) (by rw [hJ.1]; rfl) (by rw [hJ.2.1, canonBase_succ])
      (lutSound_mono vals nc _ _ _ _ _ hJ.2.2 (fun i1 k h _ => by omega))
    have e : i + 1 + cnt = i + (cnt + 1) := by omega
    rw [e] at this
    exact this

theorem buildHuffman_lutSound (h : Huffman) (nc : Nat → Nat) (hv : ValidCounts nc) :
    LutSound h.vals nc 8 (canonBase nc 8) (buildHuffman h nc).lut := by
  have := lutFillI_sound h.vals nc hv lutSize 0 { lut := fun _ => 0, x := 0, code := 0 }
    (by decide) rfl rfl (fun x hx => absurd rfl hx)
  exact this

/-- With at least eight bits buffered `decodeHuffman` does not refill: it looks
the next eight bits up in the table and falls back to the ladder on a zero
entry. -/
theorem decodeHuffman_buffered (h : Huffman) (d : Decoder) (hn : h.nCodes ≠ 0)
    (h8 : 8 ≤ d.bits.n) :
    decodeHuffman h d =
      if h.lut ((d.bits.a >>> u32 (d.bits.n - 8)) &&& 0xff) ≠ 0 then
        .ok (u8 (h.lut ((d.bits.a >>> u32 (d.bits.n - 8)) &&& 0xff) >>> 8))
          { d with bits := { d.bits with
              n := d.bits.n -
                ((u16 ((h.lut ((d.bits.a >>> u32 (d.bits.n - 8)) &&& 0xff) &&& 0xff) + 65535) : Nat) : Int)
              m := d.bits.m >>>
                u16 ((h.lut ((d.bits.a >>> u32 (d.bits.n - 8)) &&& 0xff) &&& 0xff) + 65535) } }
      else huffSlowPath h maxCodeLength 0 0 d := by
  unfold decodeHuffman
  rw [if_neg hn, if_neg (by omega)]

theorem window_top (a kk i : Nat) (hk : 8 ≤ kk) (hi : i < 8) :
    bitsOf (a >>> (kk - (i + 1))) (i + 1) =
      bitsOf (((a >>> (kk - 8)) &&& 0xff) >>> (7 - i)) (i + 1) := by
  apply bitsOf_congr
  intro j hj
  rw [and_255]
  simp only [Nat.testBit_shiftRight]
  have e : (256 : Nat) = 2 ^ 8 := by norm_num
  rw [e, Nat.testBit_mod_two_pow, Nat.testBit_shiftRight]
  have h1 : 7 - i + j < 8 := by omega
  have h2 : kk - 8 + (7 - i + j) = kk - (i + 1) + j := by omega
  simp [h1, h2]

theorem bits_consume_eq (b : Bits) (kk t : Nat) (hkn : b.n = (kk : Int))
    (hkm : b.m = if kk = 0 then 0 else 2 ^ (kk - 1)) (ht : t ≤ kk) :
    Bits.mk b.a (if kk - t = 0 then 0 else 2 ^ (kk - t - 1)) ((kk - t : Nat) : Int) =
      { b with n := b.n - (t : Int), m := b.m >>> t } := by
  rw [hkm, mask_shiftRight kk t ht, hkn]
  have : ((kk - t : Nat) : Int) = (kk : Int) - (t : Int) := by omega
  rw [this]

/-- The table path of `decodeHuffman` on an accumulator that holds `kk ≥ 8`
bits: a non-zero entry belongs to the value number `k` with a code of `i + 1`
bits, and the ladder started on the same state returns the same value and
state. -/
theorem lut_path (h0 : Huffman) (nc : Nat → Nat) (hv : ValidCounts nc) (d : Decoder)
    (hinv : BitsInv d.bits) (h8 : 8 ≤ d.bits.n)
    (hne : (buildHuffman h0 nc).lut ((d.bits.a >>> (d.bits.n - 8).toNat) &&& 0xff) ≠ 0) :
    ∃ i k, i < 8 ∧ canonBase nc i ≤ k ∧ k < canonBase nc (i + 1) ∧
      (buildHuffman h0 nc).lut ((d.bits.a >>> (d.bits.n - 8).toNat) &&& 0xff) =
        256 * (h0.vals k).val + (2 + i) ∧
      ((d.bits.a >>> (d.bits.n - 8).toNat) &&& 0xff) >>> (7 - i) =
        canonFirst nc i + (k - canonBase nc i) ∧
      huffSlowPath (buildHuffman h0 nc) maxCodeLength 0 0 d =
        .ok (h0.vals k).val { d with bits := { d.bits with
          n := d.bits.n - ((i + 1 : Nat) : Int), m := d.bits.m >>> (i + 1) } } := by
  obtain ⟨kk, hk23, hkn, hkm⟩ := (bitsInv_iff d.bits).mp hinv
  have hk8 : 8 ≤ kk := by omega
  have hsh : (d.bits.n - 8).toNat = kk - 8 := by omega
  rw [hsh] at hne ⊢
  obtain ⟨i, k, hi, hk1, hk2, _, hl, hx, hcode⟩ := buildHuffman_lutSound h0 nc hv _ hne
  refine ⟨i, k, hi, hk1, hk2, hl, hcode, ?_⟩
  have hnb := nextBits_acc (i + 1) d kk hk23 hkn hkm (by omega)
  rw [window_top d.bits.a kk i hk8 hi, hcode] at hnb
  have hlt : canonFirst nc i + (k - canonBase nc i) < 2 ^ (i + 1) := by
    rw [← hcode, Nat.shiftRight_eq_div_pow]
    apply Nat.div_lt_of_lt_mul
    have hp : (2 : Nat) ^ (7 - i) * 2 ^ (i + 1) = 256 := by
      rw [← pow_add]
      have : 7 - i + (i + 1) = 8 := by omega
      rw [this]
      norm_num
    rw [hp]
    exact hx
  have hz : 2 * ((canonFirst nc i + (k - canonBase nc i)) >>> (i + 1)) = 0 := by
    rw [Nat.shiftRight_eq_div_pow, Nat.div_eq_of_lt hlt]
  have hsp := huffSlowPath_canonical h0 nc hv.2.1 i k (by omega) hk1 hk2 i 0 d _ (by omega) hnb
  rw [hz] at hsp
  rw [show maxCodeLength - 0 = maxCodeLength from rfl] at hsp
  rw [hsp]
  have hb := bits_consume_eq d.bits kk (i + 1) hkn hkm (by omega)
  rw [hb]

/-- A non-zero table entry met with at least eight bits buffered: the result of
`decodeHuffman` in terms of the entry, which is also what the ladder returns. -/
theorem lut_hit (h0 : Huffman) (nc : Nat → Nat) (hv : ValidCounts nc) (hn0 : h0.nCodes ≠ 0)
    (d : Decoder) (hinv : BitsInv d.bits) (h8 : 8 ≤ d.bits.n) (v : Nat)
    (hv1 : v = (buildHuffman h0 nc).lut ((d.bits.a >>> (d.bits.n - 8).toNat) &&& 0xff))
    (hv0 : v ≠ 0) :
    decodeHuffman (buildHuffman h0 nc) d = .ok (v >>> 8)
      { d with bits := { d.bits with
          n := d.bits.n - (((v &&& 0xff) - 1 : Nat) : Int)
          m := d.bits.m >>> ((v &&& 0xff) - 1) } } ∧
    decodeHuffman (buildHuffman h0 nc) d =
      huffSlowPath (buildHuffman h0 nc) maxCodeLength 0 0 d := by
  have hu : u32 (d.bits.n - 8) = (d.bits.n - 8).toNat :=
    u32_of_nonneg _ (by omega) (by have := hinv.2.1; omega)
  have hbuf := decodeHuffman_buffered (buildHuffman h0 nc) d hn0 h8
  rw [hu] at hbuf
  rw [hv1] at hv0
  obtain ⟨i, k, hi, hk1, hk2, hl, _, hsp⟩ := lut_path h0 nc hv d hinv h8 hv0
  rw [if_pos hv0] at hbuf
  have hb := (h0.vals k).isLt
  have e1 : (buildHuffman h0 nc).lut ((d.bits.a >>> (d.bits.n - 8).toNat) &&& 0xff) &&& 0xff
      = 2 + i := by
    rw [hl, and_255]; omega
  have e2 : (buildHuffman h0 nc).lut ((d.bits.a >>> (d.bits.n - 8).toNat) &&& 0xff) >>> 8
      = (h0.vals k).val := by
    rw [hl, Nat.shiftRight_eq_div_pow]; omega
  have e3 : u16 (2 + i + 65535) = i + 1 := by unfold u16; omega
  have e4 : u8 (h0.vals k).val = (h0.vals k).val := by unfold u8; omega
  have e5 : 2 + i - 1 = i + 1 := by omega
  rw [e1, e2, e3, e4] at hbuf
  rw [hv1, e1, e2, e5]
  exact ⟨hbuf, hbuf.trans hsp.symm⟩

/-- With at least eight bits buffered `decodeHuffman` returns what its ladder
returns on the same state. -/
theorem decodeHuffman_ladder (h0 : Huffman) (nc : Nat → Nat) (hv : ValidCounts nc)
    (hn0 : h0.nCodes ≠ 0) (d : Decoder) (hinv : BitsInv d.bits) (h8 : 8 ≤ d.bits.n) :
    decodeHuffman (buildHuffman h0 nc) d =
      huffSlowPath (buildHuffman h0 nc) maxCodeLength 0 0 d := by
  by_cases hz : (buildHuffman h0 nc).lut ((d.bits.a >>> (d.bits.n - 8).toNat) &&& 0xff) = 0
  · have hu : u32 (d.bits.n - 8) = (d.bits.n - 8).toNat :=
      u32_of_nonneg _ (by omega) (by have := hinv.2.1; omega)
    rw [decodeHuffman_buffered (buildHuffman h0 nc) d hn0 h8, hu, if_neg (by rw [hz]; simp)]
  · exact (lut_hit h0 nc hv hn0 d hinv h8 _ rfl hz).2

/-- C30: for a table that `processDHT` derives from counts of a valid prefix
code, every non-zero look-up-table entry has low byte `1 + L` with
`1 ≤ L ≤ 8` and high byte the value whose canonical code of length `L` is the
top `L` bits of the index; an index that begins no code of at most 8 bits holds
0; and with at least 8 bits buffered `decodeHuffman` returns what the ladder
returns on the same state, value and state alike: on a non-zero entry it
returns the high byte and steps over `L` bits. -/
theorem lut_agrees_with_ladder (h0 : Huffman) (nc : Nat → Nat) (hv : ValidCounts nc)
    (hn : h0.nCodes = (canonBase nc 16 : Int)) :
    (∀ x, (buildHuffman h0 nc).lut x ≠ 0 →
      ∃ L k, 1 ≤ L ∧ L ≤ 8 ∧ (buildHuffman h0 nc).lut x &&& 0xff = 1 + L ∧
        canonBase nc (L - 1) ≤ k ∧ k < canonBase nc L ∧
        (buildHuffman h0 nc).lut x >>> 8 = (h0.vals k).val ∧ x < 256 ∧
        x >>> (8 - L) = canonFirst nc (L - 1) + (k - canonBase nc (L - 1))) ∧
    (∀ x, (∀ L k, 1 ≤ L → L ≤ 8 → canonBase nc (L - 1) ≤ k → k < canonBase nc L →
        x >>> (8 - L) ≠ canonFirst nc (L - 1) + (k - canonBase nc (L - 1))) →
      (buildHuffman h0 nc).lut x = 0) ∧
    (∀ d : Decoder, BitsInv d.bits → 8 ≤ d.bits.n →
      decodeHuffman (buildHuffman h0 nc) d =
        huffSlowPath (buildHuffman h0 nc) maxCodeLength 0 0 d ∧
      ∀ v, v = (buildHuffman h0 nc).lut ((d.bits.a >>> (d.bits.n - 8).toNat) &&& 0xff) →
        v ≠ 0 →
        decodeHuffman (buildHuffman h0 nc) d = .ok (v >>> 8)
          { d with bits := { d.bits with
              n := d.bits.n - (((v &&& 0xff) - 1 : Nat) : Int)
              m := d.bits.m >>> ((v &&& 0xff) - 1) } }) := by
  have hs := buildHuffman_lutSound h0 nc hv
  have hA : ∀ x, (buildHuffman h0 nc).lut x ≠ 0 →
      ∃ L k, 1 ≤ L ∧ L ≤ 8 ∧ (buildHuffman h0 nc).lut x &&& 0xff = 1 + L ∧
        canonBase nc (L - 1) ≤ k ∧ k < canonBase nc L ∧
        (buildHuffman h0 nc).lut x >>> 8 = (h0.vals k).val ∧ x < 256 ∧
        x >>> (8 - L) = canonFirst nc (L - 1) + (k - canonBase nc (L - 1)) := by
    intro x hx
    obtain ⟨i, k, hi, hk1, hk2, _, hl, hx256, hcode⟩ := hs x hx
    have hb := (h0.vals k).isLt
    refine ⟨i + 1, k, by omega, by omega, ?_, hk1, hk2, ?_, hx256, ?_⟩
    · rw [hl, and_255]; omega
    · rw [hl, Nat.shiftRight_eq_div_pow]; omega
    · have : 8 - (i + 1) = 7 - i := by omega
      rw [this]; exact hcode
  refine ⟨hA, ?_, ?_⟩
  · intro x hno
    by_contra hx
    obtain ⟨L, k, h1, h2, _, h4, h5, _, _, h8⟩ := hA x hx
    exact hno L k h1 h2 h4 h5 h8
  · intro d hinv h8
    have hn0 : h0.nCodes ≠ 0 := by
      rw [hn]
      have := hv.1
      omega
    exact ⟨decodeHuffman_ladder h0 nc hv hn0 d hinv h8,
      fun v hv1 hv0 => (lut_hit h0 nc hv hn0 d hinv h8 v hv1 hv0).1⟩

theorem lut_agrees_with_ladder_witness :
    (ValidCounts (countsOf countsTwo) ∧
      twoValues.nCodes = (canonBase (countsOf countsTwo) 16 : Int)) ∧
    ((∀ x, (buildHuffman twoValues (countsOf countsTwo)).lut x ≠ 0 →
      ∃ L k, 1 ≤ L ∧ L ≤ 8 ∧ (buildHuffman twoValues (countsOf countsTwo)).lut x &&& 0xff = 1 + L ∧
        canonBase (countsOf countsTwo) (L - 1) ≤ k ∧ k < canonBase (countsOf countsTwo) L ∧
        (buildHuffman twoValues (countsOf countsTwo)).lut x >>> 8 = (twoValues.vals k).val ∧
        x < 256 ∧
        x >>> (8 - L) = canonFirst (countsOf countsTwo) (L - 1) +
          (k - canonBase (countsOf countsTwo) (L - 1))) ∧
    (∀ x, (∀ L k, 1 ≤ L → L ≤ 8 → canonBase (countsOf countsTwo) (L - 1) ≤ k →
        k < canonBase (countsOf countsTwo) L →
        x >>> (8 - L) ≠ canonFirst (countsOf countsTwo) (L - 1) +
          (k - canonBase (countsOf countsTwo) (L - 1))) →
      (buildHuffman twoValues (countsOf countsTwo)).lut x = 0) ∧
    (∀ d : Decoder, BitsInv d.bits → 8 ≤ d.bits.n →
      decodeHuffman (buildHuffman twoValues (countsOf countsTwo)) d =
        huffSlowPath (buildHuffman twoValues (countsOf countsTwo)) maxCodeLength 0 0 d ∧
      ∀ v, v = (buildHuffman twoValues (countsOf countsTwo)).lut
          ((d.bits.a >>> (d.bits.n - 8).toNat) &&& 0xff) →
        v ≠ 0 →
        decodeHuffman (buildHuffman twoValues (countsOf countsTwo)) d = .ok (v >>> 8)
          { d with bits := { d.bits with
              n := d.bits.n - (((v &&& 0xff) - 1 : Nat) : Int)
              m := d.bits.m >>> ((v &&& 0xff) - 1) } })) :=
  ⟨⟨by decide, by decide⟩, lut_agrees_with_ladder twoValues (countsOf countsTwo) (by decide)
    (by decide)⟩


theorem stop_or_data (s : List Byte) : Stop s ∨ ∃ b rest, s = stuff [b] ++ rest := by
  cases s with
  | nil => exact Or.inl (Or.inl rfl)
  | cons x s =>
    by_cases hx : x.val = 0xff
    · have hxe : x = byte 0xff := Fin.ext hx
      cases s with
      | nil => exact Or.inl (Or.inr (Or.inl (by rw [hxe])))
      | cons m s =>
        by_cases hm : m.val = 0x00
        · have hme : m = byte 0x00 := Fin.ext hm
          refine Or.inr ⟨x, s, ?_⟩
          simp [stuff, hx, hme]
        · exact Or.inl (Or.inr (Or.inr ⟨m, s, by rw [hxe], hm⟩))
    · refine Or.inr ⟨x, s, ?_⟩
      simp [stuff, hx]

theorem slice_congr {α : Type} (f g : Nat → α) (a b n : Nat)
    (h : ∀ k, k < n → f (a + k) = g (b + k)) : slice f a n = slice g b n := by
  unfold slice
  apply List.map_congr_left
  intro k hk
  exact h k (List.mem_range.mp hk)

theorem behind_nil (d : Decoder) : Behind d [] := ⟨Nat.zero_le _, rfl⟩

theorem fill_eof_behind (d : Decoder) (hij : d.bytes.i = d.bytes.j) (hr : d.r.rest = [])
    (l : List Byte) (hl : l.length ≤ 2) (hb : Behind d l) :
    ∃ d1, fill d = .fail .eof d1 ∧ SameButBytes d d1 ∧ d1.stream = [] ∧
      d1.bytes.i = d1.bytes.j ∧ d1.bytes.nUnreadable = d.bytes.nUnreadable ∧ Behind d1 l := by
  obtain ⟨hb1, hb2⟩ := hb
  unfold fill
  simp only [hij, ne_eq, not_true_eq_false, if_false]
  rw [Source.read_nil _ _ hr]
  by_cases hj : d.bytes.j > 2
  · simp only [hj, if_true]
    refine ⟨_, rfl, rfl, ?_, rfl, rfl, ?_, ?_⟩
    · simp [Decoder.stream, hr, slice_zero]
    · exact hl
    · show slice _ (2 - l.length) l.length = l
      refine Eq.trans (slice_congr _ _ _ _ _ ?_) hb2
      intro k hk
      rw [hij]
      simp only [upd]
      have h1 : 2 - l.length + k ≠ d.bytes.j := by omega
      by_cases h0 : 2 - l.length + k = 0
      · have : d.bytes.j - l.length + k = d.bytes.j - 2 := by omega
        simp [h0, this]
      · have h11 : 2 - l.length + k = 1 := by omega
        have : d.bytes.j - l.length + k = d.bytes.j - 1 := by omega
        have h3 : d.bytes.j - 1 ≠ 0 := by omega
        simp [h11, this, h3]
  · simp only [hj, if_false]
    refine ⟨_, rfl, rfl, ?_, hij, rfl, hb1, hb2⟩
    simp [Decoder.stream, hr, slice_zero, hij]

theorem blit_below {α : Type} (f : Nat → α) (off : Nat) (l : List α) (k : Nat) (h : k < off) :
    blit f off l k = f k := by
  unfold blit
  rw [if_neg (by omega)]

theorem fill_ok_behind (d : Decoder) (hij : d.bytes.i = d.bytes.j) (hr : d.r.rest ≠ [])
    (l : List Byte) (hl : l.length ≤ 2) (hb : Behind d l) :
    ∃ d1, fill d = .ok () d1 ∧ SameButBytes d d1 ∧ d1.stream = d.r.rest ∧
      d1.bytes.i < d1.bytes.j ∧ d1.bytes.nUnreadable = d.bytes.nUnreadable ∧ Behind d1 l := by
  obtain ⟨hb1, hb2⟩ := hb
  unfold fill
  simp only [hij, ne_eq, not_true_eq_false, if_false]
  by_cases hj : d.bytes.j > 2
  · simp only [hj, if_true]
    obtain ⟨chunk, s1, hread, hcat, hlen, -⟩ := Source.read_cons d.r (4096 - 2) hr (by omega)
    rw [hread]
    refine ⟨_, rfl, rfl, ?_, ?_, rfl, ?_, ?_⟩
    · simp only [Decoder.stream, Nat.add_sub_cancel_left, slice_blit, hcat]
    · simp only; omega
    · exact hl
    · show slice _ (2 - l.length) l.length = l
      refine Eq.trans (slice_congr _ _ _ _ _ ?_) hb2
      intro k hk
      rw [hij]
      show blit _ 2 chunk (2 - l.length + k) = _
      rw [blit_below _ _ _ _ (by omega)]
      simp only [upd]
      by_cases h0 : 2 - l.length + k = 0
      · have : d.bytes.j - l.length + k = d.bytes.j - 2 := by omega
        simp [h0, this]
      · have h11 : 2 - l.length + k = 1 := by omega
        have : d.bytes.j - l.length + k = d.bytes.j - 1 := by omega
        have h3 : d.bytes.j - 1 ≠ 0 := by omega
        simp [h11, this, h3]
  · simp only [hj, if_false]
    obtain ⟨chunk, s1, hread, hcat, hlen, -⟩ := Source.read_cons d.r (4096 - d.bytes.j) hr (by omega)
    rw [hread]
    refine ⟨_, rfl, rfl, ?_, ?_, rfl, ?_, ?_⟩
    · simp only [Decoder.stream, hij, Nat.add_sub_cancel_left, slice_blit, hcat]
    · simp only [hij]; omega
    · exact hb1
    · show slice _ (d.bytes.i - l.length) l.length = l
      refine Eq.trans (slice_congr _ _ _ _ _ ?_) hb2
      intro k hk
      show blit _ d.bytes.j chunk (d.bytes.i - l.length + k) = _
      rw [blit_below _ _ _ _ (by omega)]

theorem takeByte_behind (d : Decoder) (h : d.bytes.i < d.bytes.j) (x : Byte) (s : List Byte)
    (hs : d.stream = x :: s) (l : List Byte) (hb : Behind d l) :
    ∃ d1, takeByte d = .ok x d1 ∧ SameButBytes d d1 ∧ d1.stream = s ∧
      d1.bytes.i ≤ d1.bytes.j ∧ d1.bytes.nUnreadable = 0 ∧ Behind d1 (l ++ [x]) := by
  obtain ⟨hb1, hb2⟩ := hb
  rw [stream_of_lt d h] at hs
  injection hs with h1 h2
  subst h1
  refine ⟨_, rfl, rfl, h2, h, rfl, ?_, ?_⟩
  · show (l ++ [d.bytes.buf d.bytes.i]).length ≤ d.bytes.i + 1
    simp; omega
  · show slice d.bytes.buf (d.bytes.i + 1 - (l ++ [d.bytes.buf d.bytes.i]).length)
      (l ++ [d.bytes.buf d.bytes.i]).length = l ++ [d.bytes.buf d.bytes.i]
    have e1 : (l ++ [d.bytes.buf d.bytes.i]).length = l.length + 1 := by simp
    have e2 : d.bytes.i + 1 - (l.length + 1) = d.bytes.i - l.length := by omega
    rw [e1, e2, slice_add, hb2]
    have e3 : d.bytes.i - l.length + l.length = d.bytes.i := by omega
    rw [e3, slice_succ, slice_zero]

theorem readByte_cons_behind (d : Decoder) (hle : d.bytes.i ≤ d.bytes.j) (x : Byte)
    (s : List Byte) (hs : d.stream = x :: s) (l : List Byte) (hl : l.length ≤ 2)
    (hb : Behind d l) :
    ∃ d1, readByte d = .ok x d1 ∧ SameButBytes d d1 ∧ d1.stream = s ∧
      d1.bytes.i ≤ d1.bytes.j ∧ d1.bytes.nUnreadable = 0 ∧ Behind d1 (l ++ [x]) := by
  unfold readByte
  by_cases hij : d.bytes.i = d.bytes.j
  · have hr : d.r.rest ≠ [] := by
      rw [stream_of_eq d hij] at hs; rw [hs]; simp
    obtain ⟨d1, hf, hsame, hst, hlt, -, hb1⟩ := fill_ok_behind d hij hr l hl hb
    have hs1 : d1.stream = x :: s := by rw [hst, ← stream_of_eq d hij, hs]
    obtain ⟨d2, ht, hsame2, hst2, hle2, hn2, hb2⟩ := takeByte_behind d1 hlt x s hs1 l hb1
    refine ⟨d2, ?_, sameBytes_trans hsame hsame2, hst2, hle2, hn2, hb2⟩
    simp only [readByteLoop, hij, if_true, hf, Nat.ne_of_lt hlt, if_false, ht]
  · have hlt : d.bytes.i < d.bytes.j := by omega
    obtain ⟨d2, ht, hsame2, hst2, hle2, hn2, hb2⟩ := takeByte_behind d hlt x s hs l hb
    exact ⟨d2, by simp only [readByteLoop, hij, if_false, ht], hsame2, hst2, hle2, hn2, hb2⟩

theorem readByte_nil_behind (d : Decoder) (hle : d.bytes.i ≤ d.bytes.j) (hs : d.stream = [])
    (l : List Byte) (hl : l.length ≤ 2) (hb : Behind d l) :
    ∃ d1, readByte d = .fail .eof d1 ∧ SameButBytes d d1 ∧ d1.stream = [] ∧
      d1.bytes.i = d1.bytes.j ∧ d1.bytes.nUnreadable = d.bytes.nUnreadable ∧ Behind d1 l := by
  unfold readByte
  have hij : d.bytes.i = d.bytes.j := by
    by_contra hne
    have hlt : d.bytes.i < d.bytes.j := by omega
    rw [stream_of_lt d hlt] at hs
    exact absurd hs (by simp)
  have hr : d.r.rest = [] := by rw [← stream_of_eq d hij]; exact hs
  obtain ⟨d1, hf, hsame, hst, h1, h2, h3⟩ := fill_eof_behind d hij hr l hl hb
  exact ⟨d1, by simp only [readByteLoop, hij, if_true, hf], hsame, hst, h1, h2, h3⟩

theorem stream_length_ge (d : Decoder) : d.bytes.j - d.bytes.i ≤ d.stream.length := by
  unfold Decoder.stream
  rw [List.length_append, slice_length]
  omega

theorem stream_two (d : Decoder) (h : d.bytes.i + 2 ≤ d.bytes.j) :
    d.stream = d.bytes.buf d.bytes.i :: d.bytes.buf (d.bytes.i + 1) ::
      (slice d.bytes.buf (d.bytes.i + 2) (d.bytes.j - (d.bytes.i + 2)) ++ d.r.rest) := by
  unfold Decoder.stream
  have : d.bytes.j - d.bytes.i = (d.bytes.j - (d.bytes.i + 2)) + 1 + 1 := by omega
  rw [this, slice_succ, slice_succ]
  rfl

/-- On a stream that starts with a byte-stuffed data byte `readByteStuffedByte`
returns that byte and leaves the rest of the stream. -/
theorem readByteStuffedByte_data (d : Decoder) (hle : d.bytes.i ≤ d.bytes.j) (b : Byte)
    (s : List Byte) (hs : d.stream = stuff [b] ++ s) :
    ∃ d1, readByteStuffedByte d = .ok b d1 ∧ SameButBytes d d1 ∧ d1.stream = s ∧
      d1.bytes.i ≤ d1.bytes.j := by
  unfold readByteStuffedByte
  by_cases hb : b.val = 0xff
  · have hbe : b = byte 0xff := Fin.ext hb
    have hs2 : d.stream = byte 0xff :: byte 0x00 :: s := by
      rw [hs, hbe]; rfl
    by_cases hfast : d.bytes.i + 2 ≤ d.bytes.j
    · rw [if_pos hfast]
      have h2 := stream_two d hfast
      rw [hs2] at h2
      injection h2 with h0 h2
      injection h2 with h1 h2
      have e0 : (d.bytes.buf d.bytes.i).val = 0xff := by rw [← h0]; rfl
      have e1 : (d.bytes.buf (d.bytes.i + 1)).val = 0x00 := by rw [← h1]; rfl
      simp only [e0, e1, ne_eq, not_true_eq_false, if_false]
      rw [hbe]
      exact ⟨_, rfl, rfl, h2.symm, by show d.bytes.i + 1 + 1 ≤ d.bytes.j; omega⟩
    · rw [if_neg hfast]
      obtain ⟨d1, hr1, hsame1, hst1, hle1, -⟩ :=
        readByte_cons { d with bytes := { d.bytes with nUnreadable := 0 } } hle (byte 0xff)
          (byte 0x00 :: s) hs2
      obtain ⟨d3, hr3, hsame3, hst3, hle3, -⟩ :=
        readByte_cons { d1 with bytes := { d1.bytes with nUnreadable := 1 } } hle1 (byte 0x00)
          s hst1
      have e0 : (byte 0xff).val = 0xff := rfl
      have e1 : (byte 0x00).val = 0x00 := rfl
      simp only [hr1, hr3, e0, e1, ne_eq, not_true_eq_false, if_false]
      rw [hbe]
      refine ⟨_, rfl, ?_, hst3, hle3⟩
      exact sameBytes_trans (sameBytes_trans (sameBytes_trans (show SameButBytes d
        { d with bytes := { d.bytes with nUnreadable := 0 } } from rfl) hsame1)
        (sameBytes_trans (show SameButBytes d1
        { d1 with bytes := { d1.bytes with nUnreadable := 1 } } from rfl) hsame3))
        (show SameButBytes d3 { d3 with bytes := { d3.bytes with nUnreadable := 2 } } from rfl)
  · have hs2 : d.stream = b :: s := by
      rw [hs]; simp [stuff, hb]
    by_cases hfast : d.bytes.i + 2 ≤ d.bytes.j
    · rw [if_pos hfast]
      have h2 := stream_of_lt d (by omega)
      rw [hs2] at h2
      injection h2 with h0 h2
      have e0 : (d.bytes.buf d.bytes.i).val ≠ 0xff := by rw [← h0]; exact hb
      simp only [e0, ne_eq, not_false_eq_true, if_true]
      rw [← h0]
      exact ⟨_, rfl, rfl, h2.symm, by show d.bytes.i + 1 ≤ d.bytes.j; omega⟩
    · rw [if_neg hfast]
      obtain ⟨d1, hr1, hsame1, hst1, hle1, -⟩ :=
        readByte_cons { d with bytes := { d.bytes with nUnreadable := 0 } } hle b s hs2
      simp only [hr1, hb, ne_eq, not_false_eq_true, if_true]
      refine ⟨_, rfl, ?_, hst1, hle1⟩
      exact sameBytes_trans (sameBytes_trans (show SameButBytes d
        { d with bytes := { d.bytes with nUnreadable := 0 } } from rfl) hsame1)
        (show SameButBytes d1 { d1 with bytes := { d1.bytes with nUnreadable := 1 } } from rfl)

/-- On a stream that does not start with a data byte `readByteStuffedByte`
fails with `io.EOF` or with the missing-`FF00` error, and the bytes it has
consumed are the `nUnreadable` bytes just before the read position. -/
theorem readByteStuffedByte_stop (d : Decoder) (hle : d.bytes.i ≤ d.bytes.j)
    (hstop : Stop d.stream) :
    ∃ e d1, readByteStuffedByte d = .fail e d1 ∧ (e = .eof ∨ e = errMissingFF00) ∧
      SameButBytes d d1 ∧ d1.bytes.i ≤ d1.bytes.j ∧
      ∃ l, Behind d1 l ∧ d1.bytes.nUnreadable = l.length ∧ l ++ d1.stream = d.stream := by
  have hlen := stream_length_ge d
  unfold readByteStuffedByte
  rcases hstop with h0 | h1 | ⟨m, rest, h2, hm⟩
  · have hfast : ¬ d.bytes.i + 2 ≤ d.bytes.j := by
      rw [h0] at hlen; simp at hlen; omega
    rw [if_neg hfast]
    obtain ⟨d1, hr1, hsame1, hst1, hij1, hnu1, hb1⟩ :=
      readByte_nil_behind { d with bytes := { d.bytes with nUnreadable := 0 } } hle h0 []
        (by simp) (behind_nil _)
    simp only [hr1]
    refine ⟨_, _, rfl, Or.inl rfl, ?_, by omega, [], hb1, hnu1, ?_⟩
    · exact sameBytes_trans (show SameButBytes d
        { d with bytes := { d.bytes with nUnreadable := 0 } } from rfl) hsame1
    · rw [hst1, h0]; rfl
  · have hfast : ¬ d.bytes.i + 2 ≤ d.bytes.j := by
      rw [h1] at hlen; simp at hlen; omega
    rw [if_neg hfast]
    obtain ⟨d1, hr1, hsame1, hst1, hle1, -, hb1⟩ :=
      readByte_cons_behind { d with bytes := { d.bytes with nUnreadable := 0 } } hle (byte 0xff)
        [] h1 [] (by simp) (behind_nil _)
    obtain ⟨d3, hr3, hsame3, hst3, hij3, hnu3, hb3⟩ :=
      readByte_nil_behind { d1 with bytes := { d1.bytes with nUnreadable := 1 } } hle1 hst1
        ([] ++ [byte 0xff]) (by simp) hb1
    have e0 : (byte 0xff).val = 0xff := rfl
    simp only [hr1, hr3, e0, ne_eq, not_true_eq_false, if_false]
    refine ⟨_, _, rfl, Or.inl rfl, ?_, by omega, [byte 0xff], hb3, hnu3, ?_⟩
    · exact sameBytes_trans (sameBytes_trans (show SameButBytes d
        { d with bytes := { d.bytes with nUnreadable := 0 } } from rfl) hsame1)
        (sameBytes_trans (show SameButBytes d1
        { d1 with bytes := { d1.bytes with nUnreadable := 1 } } from rfl) hsame3)
    · rw [hst3, h1]; rfl
  · by_cases hfast : d.bytes.i + 2 ≤ d.bytes.j
    · rw [if_pos hfast]
      have h3 := stream_two d hfast
      rw [h2] at h3
      injection h3 with h30 h3
      injection h3 with h31 h3
      have e0 : (d.bytes.buf d.bytes.i).val = 0xff := by rw [← h30]; rfl
      have e1 : (d.bytes.buf (d.bytes.i + 1)).val ≠ 0x00 := by rw [← h31]; exact hm
      simp only [e0, e1, ne_eq, not_true_eq_false, if_false, not_false_eq_true, if_true]
      refine ⟨_, _, rfl, Or.inr rfl, rfl, by show d.bytes.i + 1 ≤ d.bytes.j; omega,
        [byte 0xff], ?_, rfl, ?_⟩
      · refine ⟨by show 1 ≤ d.bytes.i + 1; omega, ?_⟩
        show slice d.bytes.buf (d.bytes.i + 1 - 1) 1 = [byte 0xff]
        rw [Nat.add_sub_cancel, slice_succ, slice_zero, h30]
      · rw [h2]
        show [byte 0xff] ++ (slice d.bytes.buf (d.bytes.i + 1) (d.bytes.j - (d.bytes.i + 1)) ++
          d.r.rest) = _
        have : d.bytes.j - (d.bytes.i + 1) = (d.bytes.j - (d.bytes.i + 2)) + 1 := by omega
        rw [this, slice_succ, ← h31, h3]
        rfl
    · rw [if_neg hfast]
      obtain ⟨d1, hr1, hsame1, hst1, hle1, -, hb1⟩ :=
        readByte_cons_behind { d with bytes := { d.bytes with nUnreadable := 0 } } hle
          (byte 0xff) (m :: rest) h2 [] (by simp) (behind_nil _)
      obtain ⟨d3, hr3, hsame3, hst3, hle3, -, hb3⟩ :=
        readByte_cons_behind { d1 with bytes := { d1.bytes with nUnreadable := 1 } } hle1 m
          rest hst1 ([] ++ [byte 0xff]) (by simp) hb1
      have e0 : (byte 0xff).val = 0xff := rfl
      simp only [hr1, hr3, e0, hm, ne_eq, not_true_eq_false, if_false, not_false_eq_true, if_true]
      refine ⟨_, _, rfl, Or.inr rfl, ?_, hle3, [byte 0xff, m], hb3, rfl, ?_⟩
      · exact sameBytes_trans (sameBytes_trans (sameBytes_trans (show SameButBytes d
          { d with bytes := { d.bytes with nUnreadable := 0 } } from rfl) hsame1)
          (sameBytes_trans (show SameButBytes d1
          { d1 with bytes := { d1.bytes with nUnreadable := 1 } } from rfl) hsame3))
          (show SameButBytes d3 { d3 with bytes := { d3.bytes with nUnreadable := 2 } } from rfl)
      · rw [h2]
        show [byte 0xff, m] ++ d3.stream = _
        rw [hst3]
        rfl

/-- The unread step that `decodeHuffman` makes after a failed refill puts the
consumed bytes back in front of the stream. -/
theorem restoreBytes_stream (d : Decoder) (l : List Byte) (hle : d.bytes.i ≤ d.bytes.j)
    (hb : Behind d l) (hn : d.bytes.nUnreadable = l.length) (hbits : d.bits.n < 8) :
    (restoreBytes d).stream = l ++ d.stream ∧ (restoreBytes d).bytes.i ≤ (restoreBytes d).bytes.j ∧
      (restoreBytes d).bits = d.bits ∧ SameButBytes d (restoreBytes d) := by
  unfold restoreBytes
  by_cases h0 : d.bytes.nUnreadable = 0
  · rw [if_neg (by simpa using h0)]
    have : l = [] := List.eq_nil_of_length_eq_zero (by omega)
    subst this
    exact ⟨rfl, hle, rfl, rfl⟩
  · rw [if_pos h0]
    unfold unreadByteStuffedByte
    simp only [Result.state]
    rw [if_neg (by omega)]
    obtain ⟨hb1, hb2⟩ := hb
    refine ⟨?_, by show d.bytes.i - d.bytes.nUnreadable ≤ d.bytes.j; omega, rfl, rfl⟩
    show slice d.bytes.buf (d.bytes.i - d.bytes.nUnreadable)
      (d.bytes.j - (d.bytes.i - d.bytes.nUnreadable)) ++ d.r.rest = l ++ d.stream
    have e : d.bytes.j - (d.bytes.i - d.bytes.nUnreadable) = l.length + (d.bytes.j - d.bytes.i) := by
      omega
    rw [e, slice_add, hn, hb2]
    have e2 : d.bytes.i - l.length + l.length = d.bytes.i := by omega
    rw [e2, List.append_assoc]
    rfl

theorem sameBytes_bits {a b : Decoder} (h : SameButBytes a b) : b.bits = a.bits :=
  show b.noBytes.bits = a.noBytes.bits from congrArg Decoder.bits h

theorem stuff_one_append (c : Byte) (l : List Byte) : stuff (c :: l) = stuff [c] ++ stuff l := by
  by_cases h : c.val = 0xff <;> simp [stuff, h]

theorem stuff_head_inj (a b : Byte) (x y : List Byte) (h : stuff [a] ++ x = stuff [b] ++ y) :
    a = b ∧ x = y := by
  by_cases ha : a.val = 0xff <;> by_cases hb : b.val = 0xff <;>
    simp [stuff, ha, hb] at h
  · exact h
  · exact absurd (by rw [← h.1]; exact ha) hb
  · exact absurd (by rw [h.1]; exact hb) ha
  · exact h

theorem bytesBits_cons (c : Byte) (l : List Byte) :
    bytesBits (c :: l) = bitsOf c.val 8 ++ bytesBits l := by
  simp [bytesBits]

theorem pending_refill (b : Bits) (c : Nat) (hc : c < 256) (h0 : 0 ≤ b.n) (hn : b.n ≤ 15) :
    bitsOf (refillBits b c).a (refillBits b c).n.toNat = bitsOf b.a b.n.toNat ++ bitsOf c 8 := by
  have e : (refillBits b c).n.toNat = b.n.toNat + 8 := by
    show (b.n + 8).toNat = _
    omega
  rw [e, bitsOf_append]
  congr 1
  · apply bitsOf_congr
    intro j hj
    exact testBit_refill b.a c j hc (by omega)
  · apply bitsOf_congr
    intro j hj
    show ((((b.a <<< 8) % 4294967296) ||| c)).testBit j = c.testBit j
    have e32 : (4294967296 : Nat) = 2 ^ 32 := by norm_num
    rw [Nat.testBit_or, e32, Nat.testBit_mod_two_pow, Nat.testBit_shiftLeft]
    have : ¬ (j ≥ 8) := by omega
    simp [this]

theorem ahead_refill (d d1 : Decoder) (c : Byte) (s : List Byte) (bs : List Bool)
    (h : Ahead d bs) (hn : d.bits.n ≤ 15) (hst : d.stream = stuff [c] ++ s)
    (hst1 : d1.stream = s) (hle1 : d1.bytes.i ≤ d1.bytes.j) :
    Ahead { d1 with bits := refillBits d.bits c.val } bs := by
  obtain ⟨hinv, _, bytes, tail, hs, hp⟩ := h
  refine ⟨bitsInv_refillBits d.bits c.val hinv hn, hle1, ?_⟩
  have hpend : pendingD { d1 with bits := refillBits d.bits c.val } =
      pendingD d ++ bitsOf c.val 8 := pending_refill d.bits c.val c.isLt hinv.1 hn
  cases bytes with
  | nil =>
    refine ⟨[], s, by show d1.stream = _; rw [hst1]; rfl, ?_⟩
    rw [hpend]
    simp only [bytesBits, List.flatMap_nil, List.append_nil] at hp ⊢
    exact hp.trans (List.prefix_append _ _)
  | cons c1 bytes =>
    rw [stuff_one_append, List.append_assoc, hst] at hs
    obtain ⟨hc, hrest⟩ := stuff_head_inj _ _ _ _ hs
    refine ⟨bytes, tail, by show d1.stream = _; rw [hst1, hrest], ?_⟩
    rw [hpend, List.append_assoc, hc, ← bytesBits_cons]
    exact hp

theorem takeBit_ahead (d : Decoder) (b : Bool) (bs : List Bool) (h : Ahead d (b :: bs))
    (hn : 1 ≤ d.bits.n) :
    ∃ d1, takeBit d = .ok b d1 ∧ Ahead d1 bs := by
  obtain ⟨hinv, hle, bytes, tail, hs, hp⟩ := h
  obtain ⟨k, hk, hkn, hkm⟩ := (bitsInv_iff d.bits).mp hinv
  have hk1 : 1 ≤ k := by omega
  have hpd : pendingD d = d.bits.a.testBit (k - 1) :: bitsOf d.bits.a (k - 1) := by
    unfold pendingD
    have : d.bits.n.toNat = (k - 1) + 1 := by omega
    rw [this]
    rfl
  rw [hpd, List.cons_append] at hp
  obtain ⟨t, ht⟩ := hp
  injection ht with hb ht
  have hbit : decide (d.bits.a &&& d.bits.m ≠ 0) = b := by
    rw [hkm, and_mask_ne_zero d.bits.a k (by omega), ← hb]
  have hres : takeBit d = .ok b (takeBit d).state := by
    unfold takeBit
    rw [hbit]
    rfl
  refine ⟨(takeBit d).state, hres, takeBit_inv d hinv hn, hle, bytes, tail, hs, ?_⟩
  have : pendingD (takeBit d).state = bitsOf d.bits.a (k - 1) := by
    have e : (d.bits.n - 1).toNat = k - 1 := by omega
    show bitsOf d.bits.a (d.bits.n - 1).toNat = _
    rw [e]
  rw [this]
  exact ⟨t, ht⟩

theorem decodeBit_ahead (d : Decoder) (b : Bool) (bs : List Bool) (h : Ahead d (b :: bs)) :
    ∃ d1, decodeBit d = .ok b d1 ∧ Ahead d1 bs := by
  unfold decodeBit
  by_cases h0 : d.bits.n = 0
  · rw [if_pos h0]
    obtain ⟨hinv, hle, bytes, tail, hs, hp⟩ := h
    have hpd : pendingD d = [] := by
      unfold pendingD; rw [h0]; rfl
    cases bytes with
    | nil =>
      rw [hpd] at hp
      simp [bytesBits] at hp
    | cons c bytes =>
      rw [stuff_one_append, List.append_assoc] at hs
      obtain ⟨d1, hr, hsame, hst1, hle1⟩ := readByteStuffedByte_data d hle c _ hs
      have hb1 : d1.bits = d.bits := sameBytes_bits hsame
      have hA : Ahead { d1 with bits := refillBits d.bits c.val } (b :: bs) :=
        ahead_refill d d1 c _ (b :: bs) ⟨hinv, hle, c :: bytes, tail, by
          rw [stuff_one_append, List.append_assoc]; exact hs, hp⟩ (by omega) hs hst1 hle1
      have hn8 : (refillBits d.bits c.val).n = 8 := by
        show d.bits.n + 8 = 8
        omega
      have he : ensureNBits 1 d = .ok () { d1 with bits := refillBits d.bits c.val } := by
        unfold ensureNBits
        have : (1 - d.bits.n).toNat + 1 = 1 + 1 := by omega
        rw [this, ensureNBitsLoop_succ, hr]
        simp only
        rw [hb1, if_pos (by rw [hn8]; omega)]
      rw [he]
      exact takeBit_ahead _ b bs hA (by show 1 ≤ (refillBits d.bits c.val).n; omega)
  · rw [if_neg h0]
    exact takeBit_ahead d b bs h (by have := h.1.1; omega)

theorem nextBits_ahead (bs : List Bool) : ∀ (d : Decoder) (rest : List Bool),
    Ahead d (bs ++ rest) → ∃ d1, nextBits bs.length d = .ok bs d1 ∧ Ahead d1 rest := by
  induction bs with
  | nil => intro d rest h; exact ⟨d, rfl, h⟩
  | cons b bs ih =>
    intro d rest h
    obtain ⟨d1, h1, hA1⟩ := decodeBit_ahead d b (bs ++ rest) h
    obtain ⟨d2, h2, hA2⟩ := ih d1 rest hA1
    refine ⟨d2, ?_, hA2⟩
    show nextBits (bs.length + 1) d = _
    rw [nextBits_succ, h1]
    simp only
    rw [h2]

theorem ahead_weaken (d : Decoder) (bs rest : List Bool) (h : Ahead d (bs ++ rest)) :
    Ahead d bs := by
  obtain ⟨h1, h2, bytes, tail, h3, h4⟩ := h
  exact ⟨h1, h2, bytes, tail, h3, (List.prefix_append bs rest).trans h4⟩

theorem receiveExtend_ahead (t x : Nat) (ht : t ≤ 16) (hx : x < 2 ^ t) (d : Decoder)
    (rest : List Bool) (h : Ahead d (bitsOf x t ++ rest)) :
    ∃ d1, receiveExtend t d = .ok (extend x t) d1 ∧ Ahead d1 rest := by
  obtain ⟨d1, h1, hA⟩ := nextBits_ahead (bitsOf x t) d rest h
  rw [bitsOf_length] at h1
  have := receiveExtend_next t ht d h.1 _ d1 h1
  rw [ofBits_bitsOf, Nat.mod_eq_of_lt hx] at this
  exact ⟨d1, this, hA⟩

theorem decodeBitsTail_next (t : Nat) (ht : t ≤ 16) (d : Decoder) (hinv : BitsInv d.bits)
    (htn : (t : Int) ≤ d.bits.n) (bs : List Bool) (d1 : Decoder)
    (hbits : nextBits t d = .ok bs d1) :
    decodeBitsTail (t : Int) d = .ok (ofBits bs) d1 := by
  obtain ⟨k, hk, hn, hm⟩ := (bitsInv_iff d.bits).1 hinv
  have htk : t ≤ k := by omega
  rw [nextBits_acc t d k hk hn hm htk] at hbits
  simp only [Result.ok.injEq] at hbits
  obtain ⟨h1, h2⟩ := hbits
  unfold decodeBitsTail
  have e1 : u32 (d.bits.n - (t : Int)) = k - t := by
    rw [u32_of_nonneg _ (by omega) (by omega)]; omega
  have e2 : u32 (t : Int) = t := by
    rw [u32_of_nonneg _ (by omega) (by omega)]; omega
  have hp : (2 : Nat) ^ t ≤ 65536 := by
    calc (2 : Nat) ^ t ≤ 2 ^ 16 := Nat.pow_le_pow_right (by norm_num) ht
      _ = 65536 := by norm_num
  have hpos : 0 < (2 : Nat) ^ t := by positivity
  have e3 : u32 ((((1 <<< t) % 4294967296 : Nat) : Int) - 1) = 2 ^ t - 1 := by
    rw [Nat.shiftLeft_eq, Nat.one_mul, Nat.mod_eq_of_lt (by omega)]
    rw [u32_of_nonneg _ (by omega) (by omega)]
    omega
  simp only [e1, e2, e3]
  rw [Nat.and_pow_two_sub_one_eq_mod, ← h1, ofBits_bitsOf, ← h2]
  have e4 : d.bits.n - (t : Int) = ((k - t : Nat) : Int) := by omega
  have e5 : d.bits.m >>> t = (if k - t = 0 then 0 else 2 ^ (k - t - 1)) := by
    rw [hm, mask_shiftRight k t htk]
  rw [e4, e5]

theorem decodeBits_next (t : Nat) (ht : t ≤ 16) (d : Decoder) (hinv : BitsInv d.bits)
    (bs : List Bool) (d1 : Decoder) (hbits : nextBits t d = .ok bs d1) :
    decodeBits (t : Int) d = .ok (ofBits bs) d1 := by
  unfold decodeBits
  by_cases hlt : d.bits.n < (t : Int)
  · rw [if_pos hlt]
    obtain ⟨d2, h1, h2, h3, h4⟩ := ensureNBits_next t t d bs d1 hinv hlt (by omega) (le_refl _) hbits
    rw [h1]
    exact decodeBitsTail_next t ht d2 h2 h3 bs d1 h4
  · rw [if_neg hlt]
    exact decodeBitsTail_next t ht d hinv (by omega) bs d1 hbits

theorem decodeBits_ahead (t x : Nat) (ht : t ≤ 16) (hx : x < 2 ^ t) (d : Decoder)
    (rest : List Bool) (h : Ahead d (bitsOf x t ++ rest)) :
    ∃ d1, decodeBits (t : Int) d = .ok x d1 ∧ Ahead d1 rest := by
  obtain ⟨d1, h1, hA⟩ := nextBits_ahead (bitsOf x t) d rest h
  rw [bitsOf_length] at h1
  have := decodeBits_next t ht d h.1 _ d1 h1
  rw [ofBits_bitsOf, Nat.mod_eq_of_lt hx] at this
  exact ⟨d1, this, hA⟩

theorem ahead_of_same (d d1 : Decoder) (bs : List Bool) (h : Ahead d bs)
    (hb : d1.bits = d.bits) (hs : d1.stream = d.stream) (hle : d1.bytes.i ≤ d1.bytes.j) :
    Ahead d1 bs := by
  obtain ⟨h1, _, bytes, tail, h3, h4⟩ := h
  refine ⟨by rw [hb]; exact h1, hle, bytes, tail, by rw [hs]; exact h3, ?_⟩
  unfold pendingD at h4 ⊢
  rw [hb]
  exact h4

theorem canonical_code_lt (nc : Nat → Nat) (hv : ValidCounts nc) (t k : Nat) (ht : t < 16)
    (hk1 : canonBase nc t ≤ k) (hk2 : k < canonBase nc (t + 1)) :
    canonFirst nc t + (k - canonBase nc t) < 2 ^ (t + 1) := by
  rw [canonBase_succ] at hk2
  have hne : nc t ≠ 0 := by omega
  have := hv.2.2 t ht hne
  omega

/-- The ladder of `decodeHuffman` on a state whose next bits are the canonical
code word of the value number `k`. -/
theorem ladder_ahead (h0 : Huffman) (nc : Nat → Nat) (hv : ValidCounts nc) (t k : Nat)
    (ht : t < 16) (hk1 : canonBase nc t ≤ k) (hk2 : k < canonBase nc (t + 1)) (d : Decoder)
    (rest : List Bool)
    (h : Ahead d (bitsOf (canonFirst nc t + (k - canonBase nc t)) (t + 1) ++ rest)) :
    ∃ d1, huffSlowPath (buildHuffman h0 nc) maxCodeLength 0 0 d = .ok (h0.vals k).val d1 ∧
      Ahead d1 rest := by
  obtain ⟨d1, h1, hA⟩ := nextBits_ahead _ d rest h
  rw [bitsOf_length] at h1
  have hlt := canonical_code_lt nc hv t k ht hk1 hk2
  have hz : 2 * ((canonFirst nc t + (k - canonBase nc t)) >>> (t + 1)) = 0 := by
    rw [Nat.shiftRight_eq_div_pow, Nat.div_eq_of_lt hlt]
  have hsp := huffSlowPath_canonical h0 nc hv.2.1 t k ht hk1 hk2 t 0 d d1 (by omega) h1
  rw [hz, show maxCodeLength - 0 = maxCodeLength from rfl] at hsp
  exact ⟨d1, hsp, hA⟩

theorem decodeHuffman_refill_ok (h : Huffman) (d d2 : Decoder) (hn0 : h.nCodes ≠ 0)
    (hlt : d.bits.n < 8) (he : ensureNBits 8 d = .ok () d2) (h8 : 8 ≤ d2.bits.n) :
    decodeHuffman h d = decodeHuffman h d2 := by
  rw [decodeHuffman_buffered h d2 hn0 h8]
  unfold decodeHuffman
  rw [if_neg hn0, if_pos hlt, he]

theorem decodeHuffman_refill_fail (h : Huffman) (d d1 : Decoder) (e : Err) (hn0 : h.nCodes ≠ 0)
    (hlt : d.bits.n < 8) (he : ensureNBits 8 d = .fail e d1)
    (hE : e = errMissingFF00 ∨ e = errShortHuffmanData) :
    decodeHuffman h d = huffSlowPath h maxCodeLength 0 0 (restoreBytes d1) := by
  unfold decodeHuffman restoreBytes
  rw [if_neg hn0, if_pos hlt, he]
  have hE2 : ¬ (e ≠ errMissingFF00 ∧ e ≠ errShortHuffmanData) := by
    rcases hE with h1 | h1 <;> simp [h1]
  simp only [hE2, if_false]
  by_cases hu : d1.bytes.nUnreadable ≠ 0
  · simp only [hu, if_true, ne_eq, not_false_eq_true]
  · simp only [hu, if_false, ne_eq, not_true_eq_false]

/-- On a state whose next bits are the canonical code word of the value number
`k`, `decodeHuffman` returns that value and leaves the bits after the code
word, whether or not it can look ahead in the input. -/
theorem decodeHuffman_ahead (h0 : Huffman) (nc : Nat → Nat) (hv : ValidCounts nc)
    (hn0 : h0.nCodes ≠ 0) (t k : Nat) (ht : t < 16) (hk1 : canonBase nc t ≤ k)
    (hk2 : k < canonBase nc (t + 1)) (d : Decoder) (rest : List Bool)
    (h : Ahead d (bitsOf (canonFirst nc t + (k - canonBase nc t)) (t + 1) ++ rest)) :
    ∃ d1, decodeHuffman (buildHuffman h0 nc) d = .ok (h0.vals k).val d1 ∧ Ahead d1 rest := by
  by_cases h8 : 8 ≤ d.bits.n
  · rw [decodeHuffman_ladder h0 nc hv hn0 d h.1 h8]
    exact ladder_ahead h0 nc hv t k ht hk1 hk2 d rest h
  · have hlt : d.bits.n < 8 := by omega
    have hfuel : (8 - d.bits.n).toNat + 1 = ((8 - d.bits.n).toNat - 1) + 1 + 1 := by
      have := h.1.1
      have : 1 ≤ (8 - d.bits.n).toNat := by omega
      omega
    rcases stop_or_data d.stream with hstop | ⟨c, s, hs⟩
    · obtain ⟨e, d1, hr, hE, hsame, hle1, l, hb, hnu, hl⟩ :=
        readByteStuffedByte_stop d h.2.1 hstop
      have he : ensureNBits 8 d = .fail (if e = .eof then errShortHuffmanData else e) d1 := by
        unfold ensureNBits
        rw [hfuel, ensureNBitsLoop_succ, hr]
      have hE2 : (if e = .eof then errShortHuffmanData else e) = errMissingFF00 ∨
          (if e = .eof then errShortHuffmanData else e) = errShortHuffmanData := by
        rcases hE with h1 | h1
        · rw [h1]; exact Or.inr rfl
        · rw [h1]; exact Or.inl rfl
      have hb1 : d1.bits = d.bits := sameBytes_bits hsame
      rw [decodeHuffman_refill_fail (buildHuffman h0 nc) d d1 _ hn0 hlt he hE2]
      obtain ⟨r1, r2, r3, _⟩ := restoreBytes_stream d1 l hle1 hb hnu (by rw [hb1]; exact hlt)
      exact ladder_ahead h0 nc hv t k ht hk1 hk2 _ rest
        (ahead_of_same d _ _ h (by rw [r3, hb1]) (by rw [r1, hl]) r2)
    · obtain ⟨d1, hr, hsame, hst1, hle1⟩ := readByteStuffedByte_data d h.2.1 c s hs
      have hb1 : d1.bits = d.bits := sameBytes_bits hsame
      have hn8 : (refillBits d.bits c.val).n = d.bits.n + 8 := rfl
      have he : ensureNBits 8 d = .ok () { d1 with bits := refillBits d.bits c.val } := by
        unfold ensureNBits
        rw [hfuel, ensureNBitsLoop_succ, hr]
        simp only
        rw [hb1, if_pos (by rw [hn8]; have := h.1.1; omega)]
      have hA := ahead_refill d d1 c s _ h (by omega) hs hst1 hle1
      have h8' : 8 ≤ ({ d1 with bits := refillBits d.bits c.val } : Decoder).bits.n := by
        show 8 ≤ (refillBits d.bits c.val).n
        rw [hn8]; have := h.1.1; omega
      rw [decodeHuffman_refill_ok (buildHuffman h0 nc) d _ hn0 hlt he h8',
        decodeHuffman_ladder h0 nc hv hn0 _ hA.1 h8']
      exact ladder_ahead h0 nc hv t k ht hk1 hk2 _ rest hA


theorem spec_valid (h : Nat) (hh : h < 4) : ValidCounts (specCounts (theSpec h)) := by
  have key : ∀ h : Fin 4, ValidCounts (specCounts (theSpec h.val)) := by decide!
  exact key ⟨h, hh⟩

theorem spec_total (h : Nat) (hh : h < 4) :
    canonBase (specCounts (theSpec h)) 16 = (theSpec h).value.length ∧
    (theSpec h).count.length = 16 ∧ (theSpec h).value.length ≤ 162 ∧
    (theSpec h).value.Nodup ∧
    ((theSpec h).count.map (fun c => (byte c).val)).sum = (theSpec h).value.length := by
  have key : ∀ h : Fin 4, canonBase (specCounts (theSpec h.val)) 16 = (theSpec h.val).value.length ∧
      (theSpec h.val).count.length = 16 ∧ (theSpec h.val).value.length ≤ 162 ∧
      (theSpec h.val).value.Nodup ∧
      ((theSpec h.val).count.map (fun c => (byte c).val)).sum = (theSpec h.val).value.length := by
    decide!
  exact key ⟨h, hh⟩

/-- The entry of `theHuffmanLUT` for the `k`-th value of a table holds the
canonical code word of that value and its length. -/
theorem spec_lut (h k : Nat) (hh : h < 4) (hk : k < (theSpec h).value.length) :
    (theSpec h).value.getD k 0 < (theHuffmanLUT h).length ∧
    (theSpec h).value.getD k 0 < 256 ∧
    lenIndex (specCounts (theSpec h)) k < 16 ∧
    canonBase (specCounts (theSpec h)) (lenIndex (specCounts (theSpec h)) k) ≤ k ∧
    k < canonBase (specCounts (theSpec h)) (lenIndex (specCounts (theSpec h)) k + 1) ∧
    lutCode h ((theSpec h).value.getD k 0) = canonCode (specCounts (theSpec h)) k ∧
    lutLen h ((theSpec h).value.getD k 0) = lenIndex (specCounts (theSpec h)) k + 1 := by
  have key : ∀ h : Fin 4, ∀ k : Fin 162, k.val < (theSpec h.val).value.length →
      (theSpec h.val).value.getD k.val 0 < (theHuffmanLUT h.val).length ∧
      (theSpec h.val).value.getD k.val 0 < 256 ∧
      lenIndex (specCounts (theSpec h.val)) k.val < 16 ∧
      canonBase (specCounts (theSpec h.val)) (lenIndex (specCounts (theSpec h.val)) k.val) ≤ k.val ∧
      k.val < canonBase (specCounts (theSpec h.val))
        (lenIndex (specCounts (theSpec h.val)) k.val + 1) ∧
      lutCode h.val ((theSpec h.val).value.getD k.val 0) =
        canonCode (specCounts (theSpec h.val)) k.val ∧
      lutLen h.val ((theSpec h.val).value.getD k.val 0) =
        lenIndex (specCounts (theSpec h.val)) k.val + 1 := by
    decide!
  have h162 := (spec_total h hh).2.2.1
  exact key ⟨h, hh⟩ ⟨k, by omega⟩ hk

theorem bitsOf_inj (x y t : Nat) (hx : x < 2 ^ t) (hy : y < 2 ^ t) (h : bitsOf x t = bitsOf y t) :
    x = y := by
  have := congrArg ofBits h
  rw [ofBits_bitsOf, ofBits_bitsOf, Nat.mod_eq_of_lt hx, Nat.mod_eq_of_lt hy] at this
  exact this

/-- No canonical code word of a valid table is the beginning of another one. -/
theorem canon_prefix_free (nc : Nat → Nat) (hv : ValidCounts nc) (t1 k1 t2 k2 : Nat)
    (ht1 : t1 < 16) (ht2 : t2 < 16)
    (h1a : canonBase nc t1 ≤ k1) (h1b : k1 < canonBase nc (t1 + 1))
    (h2a : canonBase nc t2 ≤ k2) (h2b : k2 < canonBase nc (t2 + 1))
    (hp : bitsOf (canonFirst nc t1 + (k1 - canonBase nc t1)) (t1 + 1) <+:
      bitsOf (canonFirst nc t2 + (k2 - canonBase nc t2)) (t2 + 1)) : k1 = k2 := by
  have hc1 := canonical_code_lt nc hv t1 k1 ht1 h1a h1b
  have hc2 := canonical_code_lt nc hv t2 k2 ht2 h2a h2b
  have hle : t1 + 1 ≤ t2 + 1 := by
    have := hp.length_le
    rw [bitsOf_length, bitsOf_length] at this
    exact this
  have e : t2 + 1 = (t1 + 1) + (t2 - t1) := by omega
  have hR : bitsOf (canonFirst nc t2 + (k2 - canonBase nc t2)) (t2 + 1) =
      bitsOf ((canonFirst nc t2 + (k2 - canonBase nc t2)) >>> (t2 - t1)) (t1 + 1) ++
        bitsOf (canonFirst nc t2 + (k2 - canonBase nc t2)) (t2 - t1) := by
    rw [← bitsOf_append, ← e]
  rw [hR] at hp
  have hpre : bitsOf (canonFirst nc t1 + (k1 - canonBase nc t1)) (t1 + 1) =
      bitsOf ((canonFirst nc t2 + (k2 - canonBase nc t2)) >>> (t2 - t1)) (t1 + 1) := by
    obtain ⟨r, hr⟩ := hp
    have := List.append_inj hr (by rw [bitsOf_length, bitsOf_length])
    exact this.1
  have hsh : (canonFirst nc t2 + (k2 - canonBase nc t2)) >>> (t2 - t1) < 2 ^ (t1 + 1) := by
    rw [Nat.shiftRight_eq_div_pow]
    apply Nat.div_lt_of_lt_mul
    rw [← pow_add]
    have : t2 - t1 + (t1 + 1) = t2 + 1 := by omega
    rw [this]
    exact hc2
  have hcode := bitsOf_inj _ _ _ hc1 hsh hpre
  by_cases hd : t1 = t2
  · subst hd
    rw [Nat.sub_self, Nat.shiftRight_zero] at hcode
    omega
  · exfalso
    have hlt : t1 < t2 := by omega
    have hpf := canonFirst_prefix nc t1 t2 hlt
    rw [canonBase_succ] at h1b
    rw [Nat.shiftRight_eq_div_pow] at hcode
    have hge : canonFirst nc t1 + nc t1 ≤
        (canonFirst nc t2 + (k2 - canonBase nc t2)) / 2 ^ (t2 - t1) := by
      rw [Nat.le_div_iff_mul_le (by positivity)]
      omega
    omega

theorem spec_counts_bytes (h i : Nat) (hh : h < 4) (hi : i < 16) :
    (((theSpec h).count.map byte).getD i (byte 0)).val = specCounts (theSpec h) i := by
  have key : ∀ h : Fin 4, ∀ i : Fin 16,
      (((theSpec h.val).count.map byte).getD i.val (byte 0)).val =
        specCounts (theSpec h.val) i.val := by decide!
  exact key ⟨h, hh⟩ ⟨i, hi⟩

theorem emitHuff_spec (h v : Nat) (hh : h < 4) (hv : v < (theHuffmanLUT h).length)
    (e : Encoder) : emitHuff h (v : Int) e = .ok () (emit (lutCode h v) (lutLen h v) e) := by
  unfold emitHuff
  rw [if_neg (by unfold nHuffIndex; omega), if_neg (by omega)]
  rfl

/-- The code word that the encoder's table `h` holds for its `k`-th value is
decoded to that value by `decodeHuffman` on every decoding table derived from
the counts of the table and holding the value at place `k`. -/
theorem spec_decode (h k : Nat) (hh : h < 4) (hk : k < (theSpec h).value.length)
    (h0 : Huffman) (nc : Nat → Nat) (hnc : ∀ i, i < 16 → nc i = specCounts (theSpec h) i)
    (hn0 : h0.nCodes ≠ 0) (hvals : h0.vals k = byte ((theSpec h).value.getD k 0))
    (d : Decoder) (rest : List Bool)
    (hA : Ahead d (bitsOf (lutCode h ((theSpec h).value.getD k 0))
      (lutLen h ((theSpec h).value.getD k 0)) ++ rest)) :
    ∃ d1, decodeHuffman (buildHuffman h0 nc) d = .ok ((theSpec h).value.getD k 0) d1 ∧
      Ahead d1 rest := by
  obtain ⟨_, f2, f3, f4, f5, f6, f7⟩ := spec_lut h k hh hk
  have hagree : ∀ i, i < 16 → specCounts (theSpec h) i = nc i := fun i hi => (hnc i hi).symm
  have hv := validCounts_congr _ nc hagree (spec_valid h hh)
  have ecf := canonFirst_congr _ nc 16 hagree
  have ecb := canonBase_congr _ nc 16 hagree
  rw [f6, f7] at hA
  unfold canonCode at hA
  rw [ecf _ (by omega), ecb _ (by omega)] at hA
  rw [ecb _ (by omega)] at f4
  rw [ecb _ (by omega)] at f5
  obtain ⟨d1, h1, h2⟩ := decodeHuffman_ahead h0 nc hv hn0 _ k f3 f4 f5 d rest hA
  refine ⟨d1, ?_, h2⟩
  rw [h1, hvals, byte_val_of_lt _ f2]

/-- The table that `processDHT` installs from the counts and values of the
encoder table `h` decodes the code word of the `k`-th value to that value. -/
theorem spec_processDHT (h k : Nat) (hh : h < 4) (hk : k < (theSpec h).value.length)
    (d0 : Decoder) (b0 : Byte) (rest0 : List Byte)
    (hle : d0.bytes.i ≤ d0.bytes.j) (hnu : d0.bytes.nUnreadable = 0)
    (hst : d0.stream = b0 :: (theSpec h).count.map byte ++ ((theSpec h).value.map byte ++ rest0))
    (htc : b0.val >>> 4 ≤ 1) (hth : b0.val &&& 0x0f ≤ 3)
    (hprog : d0.progressive = false → b0.val &&& 0x0f ≤ 1) :
    (processDHT ((theSpec h).value.length + 17) d0).err? = none ∧
    (processDHT ((theSpec h).value.length + 17) d0).state.stream = rest0 ∧
    ∀ (d : Decoder) (rest : List Bool),
      Ahead d (bitsOf (lutCode h ((theSpec h).value.getD k 0))
        (lutLen h ((theSpec h).value.getD k 0)) ++ rest) →
      ∃ d1, decodeHuffman ((processDHT ((theSpec h).value.length + 17) d0).state.huff
          (b0.val >>> 4) (b0.val &&& 0x0f)) d = .ok ((theSpec h).value.getD k 0) d1 ∧
        Ahead d1 rest := by
  obtain ⟨t1, t2, t3, _, t5⟩ := spec_total h hh
  have hv := spec_valid h hh
  have hlen : ((theSpec h).count.map byte).length = 16 := by rw [List.length_map]; exact t2
  have hvl : ((theSpec h).value.map byte).length = (theSpec h).value.length := List.length_map _ _
  have hsum : (((theSpec h).count.map byte).map (fun b => b.val)).sum =
      ((theSpec h).value.map byte).length := by
    rw [List.map_map, hvl, ← t5]
    rfl
  have h1 : 1 ≤ ((theSpec h).value.map byte).length := by rw [hvl]; omega
  have h256 : ((theSpec h).value.map byte).length ≤ 256 := by rw [hvl]; omega
  obtain ⟨dF, nc, q1, q2, q3, q4, q5, q6⟩ := dhtLoop_accepts
    (((theSpec h).value.map byte).length + 17) (((theSpec h).value.map byte).length + 17) d0
    b0 ((theSpec h).count.map byte) ((theSpec h).value.map byte) rest0 hle hnu hlen hst htc hth
    hprog hsum h1 h256 (le_refl _)
  rw [hvl] at q1
  have hproc : processDHT ((theSpec h).value.length + 17) d0 = .ok () dF := by
    unfold processDHT
    rw [q1, Nat.sub_self]
    exact dhtLoop_zero_length _ dF
  rw [hproc]
  refine ⟨rfl, q4, ?_⟩
  intro d rest hA
  have htable : dF.huff (b0.val >>> 4) (b0.val &&& 0x0f) =
      buildHuffman { d0.huff (b0.val >>> 4) (b0.val &&& 0x0f) with
          nCodes := ((theSpec h).value.map byte).length,
          vals := blit (d0.huff (b0.val >>> 4) (b0.val &&& 0x0f)).vals 0
            ((theSpec h).value.map byte) } nc := by
    rw [sameInput_huff q3]
    exact setHuff_get _ _ _ _
  show ∃ d1, decodeHuffman (dF.huff (b0.val >>> 4) (b0.val &&& 0x0f)) d = _ ∧ _
  rw [htable]
  apply spec_decode h k hh hk _ nc _ _ _ d rest hA
  · intro i hi
    rw [q2 i hi]
    exact spec_counts_bytes h i hh hi
  · show ((((theSpec h).value.map byte).length : Nat) : Int) ≠ 0
    omega
  · show blit _ 0 ((theSpec h).value.map byte) k = _
    rw [blit_zero_lt _ _ _ (by rw [hvl]; exact hk)]
    simp [List.getD_eq_getElem?_getD, List.getElem?_eq_getElem hk]

/-- C27: for each of the four tables of `theHuffmanSpec` and each value `v`
listed in it (the `k`-th one), the length and code word that `huffmanLUT.init`
stores for `v`, and that `emitHuff` emits, are decoded to `v` by `decodeHuffman`
on the table `processDHT` builds from the counts and values of the same table,
whatever bits follow, and exactly these bits are consumed; no code word of the
table is the beginning of another one, and the values of a table are pairwise
distinct. -/
theorem encoder_codes_decode (h k : Nat) (hh : h < 4) (hk : k < (theSpec h).value.length) :
    1 ≤ lutLen h ((theSpec h).value.getD k 0) ∧ lutLen h ((theSpec h).value.getD k 0) ≤ 16 ∧
    lutCode h ((theSpec h).value.getD k 0) < 2 ^ lutLen h ((theSpec h).value.getD k 0) ∧
    (∀ e : Encoder, emitHuff h (((theSpec h).value.getD k 0 : Nat) : Int) e =
      .ok () (emit (lutCode h ((theSpec h).value.getD k 0))
        (lutLen h ((theSpec h).value.getD k 0)) e)) ∧
    (∀ (d0 : Decoder) (b0 : Byte) (rest0 : List Byte),
      d0.bytes.i ≤ d0.bytes.j → d0.bytes.nUnreadable = 0 →
      d0.stream = b0 :: (theSpec h).count.map byte ++ ((theSpec h).value.map byte ++ rest0) →
      b0.val >>> 4 ≤ 1 → b0.val &&& 0x0f ≤ 3 →
      (d0.progressive = false → b0.val &&& 0x0f ≤ 1) →
      (processDHT ((theSpec h).value.length + 17) d0).err? = none ∧
      ∀ (d : Decoder) (rest : List Bool),
        Ahead d (bitsOf (lutCode h ((theSpec h).value.getD k 0))
          (lutLen h ((theSpec h).value.getD k 0)) ++ rest) →
        ∃ d1, decodeHuffman ((processDHT ((theSpec h).value.length + 17) d0).state.huff
            (b0.val >>> 4) (b0.val &&& 0x0f)) d = .ok ((theSpec h).value.getD k 0) d1 ∧
          Ahead d1 rest) ∧
    (∀ k2, k2 < (theSpec h).value.length → k2 ≠ k →
      (theSpec h).value.getD k2 0 ≠ (theSpec h).value.getD k 0 ∧
      ¬ (bitsOf (lutCode h ((theSpec h).value.getD k 0)) (lutLen h ((theSpec h).value.getD k 0))
        <+: bitsOf (lutCode h ((theSpec h).value.getD k2 0))
          (lutLen h ((theSpec h).value.getD k2 0)))) := by
  obtain ⟨f1, f2, f3, f4, f5, f6, f7⟩ := spec_lut h k hh hk
  have hv := spec_valid h hh
  have hcl := canonical_code_lt _ hv _ k f3 f4 f5
  refine ⟨by rw [f7]; omega, by rw [f7]; omega, by rw [f6, f7]; exact hcl,
    fun e => emitHuff_spec h _ hh f1 e, ?_, ?_⟩
  · intro d0 b0 rest0 hle hnu hst htc hth hprog
    obtain ⟨p1, _, p3⟩ := spec_processDHT h k hh hk d0 b0 rest0 hle hnu hst htc hth hprog
    exact ⟨p1, p3⟩
  · intro k2 hk2 hne
    obtain ⟨_, _, g3, g4, g5, g6, g7⟩ := spec_lut h k2 hh hk2
    constructor
    · intro heq
      have hnd := (spec_total h hh).2.2.2.1
      have := (@List.Nodup.getElem_inj_iff _ _ hnd k2 hk2 k hk).mp (by
        simpa [List.getD_eq_getElem?_getD, List.getElem?_eq_getElem hk2,
          List.getElem?_eq_getElem hk] using heq)
      exact hne this
    · intro hp
      rw [f6, f7, g6, g7] at hp
      exact hne (canon_prefix_free _ hv _ k _ k2 f3 g3 f4 f5 g4 g5 hp).symm

theorem encoder_codes_decode_witness :
    (1 < 4 ∧ 3 < (theSpec 1).value.length) ∧
    (1 ≤ lutLen 1 ((theSpec 1).value.getD 3 0) ∧ lutLen 1 ((theSpec 1).value.getD 3 0) ≤ 16 ∧
    lutCode 1 ((theSpec 1).value.getD 3 0) < 2 ^ lutLen 1 ((theSpec 1).value.getD 3 0) ∧
    (∀ e : Encoder, emitHuff 1 (((theSpec 1).value.getD 3 0 : Nat) : Int) e =
      .ok () (emit (lutCode 1 ((theSpec 1).value.getD 3 0))
        (lutLen 1 ((theSpec 1).value.getD 3 0)) e)) ∧
    (∀ (d0 : Decoder) (b0 : Byte) (rest0 : List Byte),
      d0.bytes.i ≤ d0.bytes.j → d0.bytes.nUnreadable = 0 →
      d0.stream = b0 :: (theSpec 1).count.map byte ++ ((theSpec 1).value.map byte ++ rest0) →
      b0.val >>> 4 ≤ 1 → b0.val &&& 0x0f ≤ 3 →
      (d0.progressive = false → b0.val &&& 0x0f ≤ 1) →
      (processDHT ((theSpec 1).value.length + 17) d0).err? = none ∧
      ∀ (d : Decoder) (rest : List Bool),
        Ahead d (bitsOf (lutCode 1 ((theSpec 1).value.getD 3 0))
          (lutLen 1 ((theSpec 1).value.getD 3 0)) ++ rest) →
        ∃ d1, decodeHuffman ((processDHT ((theSpec 1).value.length + 17) d0).state.huff
            (b0.val >>> 4) (b0.val &&& 0x0f)) d = .ok ((theSpec 1).value.getD 3 0) d1 ∧
          Ahead d1 rest) ∧
    (∀ k2, k2 < (theSpec 1).value.length → k2 ≠ 3 →
      (theSpec 1).value.getD k2 0 ≠ (theSpec 1).value.getD 3 0 ∧
      ¬ (bitsOf (lutCode 1 ((theSpec 1).value.getD 3 0)) (lutLen 1 ((theSpec 1).value.getD 3 0))
        <+: bitsOf (lutCode 1 ((theSpec 1).value.getD k2 0))
          (lutLen 1 ((theSpec 1).value.getD k2 0))))) :=
  ⟨⟨by decide, by decide!⟩, encoder_codes_decode 1 3 (by decide) (by decide!)⟩


theorem readAll_ahead (calls : List (Nat × Nat)) : ∀ (d : Decoder) (rest : List Bool),
    (∀ c ∈ calls, c.2 ≤ 16 ∧ c.1 < 2 ^ c.2) → Ahead d (callBits calls ++ rest) →
    ∃ d1, readAll (calls.map (fun c => c.2)) d = .ok (calls.map (fun c => c.1)) d1 ∧
      Ahead d1 rest := by
  induction calls with
  | nil => intro d rest _ h; exact ⟨d, rfl, h⟩
  | cons c cs ih =>
    intro d rest hpre h
    rw [callBits_cons, List.append_assoc] at h
    have hc := hpre c (List.mem_cons_self _ _)
    obtain ⟨d1, h1, hA1⟩ := decodeBits_ahead c.2 c.1 hc.1 hc.2 d _ h
    obtain ⟨d2, h2, hA2⟩ := ih d1 rest (fun x hx => hpre x (List.mem_cons_of_mem _ hx)) hA1
    refine ⟨d2, ?_, hA2⟩
    simp only [List.map_cons, readAll, h1, h2]

theorem pendingBits_length (e : Encoder) : (pendingBits e).length = e.nBits := by
  unfold pendingBits
  exact bitsOf_length _ _

/-- The bytes written by a sequence of `emit` calls and the final padding hold
the emitted bits at their front. -/
theorem emitAll_padded (calls : List (Nat × Nat)) (e : Encoder) (herr : e.err = none)
    (hinv : EmitInv e) (hn : e.nBits = 0) (hpre : ∀ c ∈ calls, c.2 ≤ 16 ∧ c.1 < 2 ^ c.2) :
    ∃ bytes, (emit 0x7f 7 (emitAll calls e)).out = e.out ++ stuff bytes ∧
      callBits calls <+: bytesBits bytes := by
  obtain ⟨⟨b1, ho1, hb1⟩, hinv1, herr1, _, _⟩ := emitAll_spec calls e herr hinv hpre
  obtain ⟨b2, ho2, hb2, _, _, hinv2, _, _, _⟩ :=
    emit_spec 0x7f 7 (emitAll calls e) herr1 hinv1 (by omega) (by norm_num)
  have hp0 : pendingBits e = [] := by
    apply List.eq_nil_of_length_eq_zero
    rw [pendingBits_length, hn]
  rw [hp0, List.nil_append] at hb1
  refine ⟨b1 ++ b2, by rw [ho2, ho1, stuff_append, List.append_assoc], ?_⟩
  have hcat : callBits calls ++ bitsOf 0x7f 7 =
      bytesBits (b1 ++ b2) ++ pendingBits (emit 0x7f 7 (emitAll calls e)) := by
    rw [← hb1, bytesBits_append, List.append_assoc, List.append_assoc, hb2]
  have hl := congrArg List.length hcat
  rw [List.length_append, List.length_append, bitsOf_length, pendingBits_length] at hl
  have h8 := hinv2.1
  exact List.prefix_of_prefix_length_le (List.prefix_append _ _)
    (by rw [hcat]; exact List.prefix_append _ _) (by omega)

/-- C26: the values emitted by a sequence of `emit` calls of widths up to 16
(each value below `2^width`) on a bit writer with nothing pending, followed by
the padding `emit(0x7f, 7)`, are read back in the same order by `decodeBits`
with the same widths from the written bytes, whatever follows them in the input,
by a decoder whose bit accumulator is empty; no call fails. -/
theorem bit_stream_round_trip (calls : List (Nat × Nat)) (e : Encoder) (herr : e.err = none)
    (hinv : EmitInv e) (hn : e.nBits = 0) (hpre : ∀ c ∈ calls, c.2 ≤ 16 ∧ c.1 < 2 ^ c.2) :
    ∃ written, (emit 0x7f 7 (emitAll calls e)).out = e.out ++ written ∧
      FFStuffed written ∧ callBits calls <+: bytesBits (unstuff written) ∧
      ∀ (d : Decoder) (tail : List Byte), d.bits.n = 0 → d.bits.m = 0 →
        d.bytes.i ≤ d.bytes.j → d.stream = written ++ tail →
        ∃ d1, readAll (calls.map (fun c => c.2)) d = .ok (calls.map (fun c => c.1)) d1 := by
  obtain ⟨bytes, ho, hp⟩ := emitAll_padded calls e herr hinv hn hpre
  refine ⟨stuff bytes, ho, stuff_ffStuffed bytes, by rw [unstuff_stuff]; exact hp, ?_⟩
  intro d tail h0 hm hle hst
  have hbi : BitsInv d.bits := by
    refine ⟨by omega, by omega, fun h => by omega, fun _ => hm⟩
  have hpd : pendingD d = [] := by
    unfold pendingD; rw [h0]; rfl
  have hA : Ahead d (callBits calls ++ []) := by
    refine ⟨hbi, hle, bytes, tail, hst, ?_⟩
    rw [hpd, List.append_nil, List.nil_append]
    exact hp
  obtain ⟨d1, h1, _⟩ := readAll_ahead calls d [] hpre hA
  exact ⟨d1, h1⟩

theorem bit_stream_round_trip_witness :
    ((zeroEncoder []).err = none ∧ EmitInv (zeroEncoder []) ∧ (zeroEncoder []).nBits = 0 ∧
      (∀ c ∈ [(0xfff, 12), (5, 4), (0, 3)], c.2 ≤ 16 ∧ c.1 < 2 ^ c.2)) ∧
    (emit 0x7f 7 (emitAll [(0xfff, 12), (5, 4), (0, 3)] (zeroEncoder []))).out =
      bytesOf [0xff, 0x00, 0xf5, 0x1f] ∧
    (readAll [12, 4, 3] (zeroDecoder (sourceOf [0xff, 0x00, 0xf5, 0x1f]))).val? =
      some [0xfff, 5, 0] ∧
    ∃ written, (emit 0x7f 7 (emitAll [(0xfff, 12), (5, 4), (0, 3)] (zeroEncoder []))).out =
        (zeroEncoder []).out ++ written ∧
      FFStuffed written ∧
      callBits [(0xfff, 12), (5, 4), (0, 3)] <+: bytesBits (unstuff written) ∧
      ∀ (d : Decoder) (tail : List Byte), d.bits.n = 0 → d.bits.m = 0 →
        d.bytes.i ≤ d.bytes.j → d.stream = written ++ tail →
        ∃ d1, readAll ([(0xfff, 12), (5, 4), (0, 3)].map (fun c => c.2)) d =
          .ok ([(0xfff, 12), (5, 4), (0, 3)].map (fun c => c.1)) d1 :=
  ⟨⟨rfl, by decide, rfl, by decide⟩, by decide!, by decide!,
    bit_stream_round_trip [(0xfff, 12), (5, 4), (0, 3)] (zeroEncoder []) rfl (by decide) rfl
      (by decide)⟩


/-- The symbols of the AC coding are listed in both AC tables of the encoder:
`0x00`, `0xF0` and `run<<4 | size` for runs up to 15 and sizes 1 to 10. -/
theorem ac_symbol_listed (h x n : Nat) (hh : h = 1 ∨ h = 3) (hx : x < 16) (hn : n ≤ 10)
    (hz : n = 0 → x = 0 ∨ x = 15) :
    (theSpec h).value.indexOf (x * 16 + n) < (theSpec h).value.length ∧
    (theSpec h).value.getD ((theSpec h).value.indexOf (x * 16 + n)) 0 = x * 16 + n := by
  have key : ∀ q : Fin 2, ∀ x : Fin 16, ∀ n : Fin 11, (n.val = 0 → x.val = 0 ∨ x.val = 15) →
      (theSpec (2 * q.val + 1)).value.indexOf (x.val * 16 + n.val) <
        (theSpec (2 * q.val + 1)).value.length ∧
      (theSpec (2 * q.val + 1)).value.getD
        ((theSpec (2 * q.val + 1)).value.indexOf (x.val * 16 + n.val)) 0 = x.val * 16 + n.val := by
    decide!
  rcases hh with h1 | h3
  · subst h1
    exact key ⟨0, by omega⟩ ⟨x, hx⟩ ⟨n, by omega⟩ hz
  · subst h3
    exact key ⟨1, by omega⟩ ⟨x, hx⟩ ⟨n, by omega⟩ hz

/-- The code word of an AC symbol: `emitHuff` emits it, and `decodeHuffman`
reads the symbol back on every decoding table built from the same counts and
values. -/
theorem ac_symbol_code (h x n : Nat) (hh : h = 1 ∨ h = 3) (hx : x < 16) (hn : n ≤ 10)
    (hz : n = 0 → x = 0 ∨ x = 15) :
    lutLen h (x * 16 + n) ≤ 16 ∧ lutCode h (x * 16 + n) < 2 ^ lutLen h (x * 16 + n) ∧
    (∀ e : Encoder, emitHuff h ((x * 16 + n : Nat) : Int) e =
      .ok () (emit (lutCode h (x * 16 + n)) (lutLen h (x * 16 + n)) e)) ∧
    ∀ (h0 : Huffman) (nc : Nat → Nat), (∀ i, i < 16 → nc i = specCounts (theSpec h) i) →
      h0.nCodes ≠ 0 →
      (∀ k, k < (theSpec h).value.length → h0.vals k = byte ((theSpec h).value.getD k 0)) →
      ∀ (d : Decoder) (rest : List Bool), Ahead d (symBits h (x * 16 + n) ++ rest) →
        ∃ d1, decodeHuffman (buildHuffman h0 nc) d = .ok (x * 16 + n) d1 ∧ Ahead d1 rest := by
  have hh4 : h < 4 := by omega
  obtain ⟨hk, hval⟩ := ac_symbol_listed h x n hh hx hn hz
  obtain ⟨f1, f2, f3, f4, f5, f6, f7⟩ := spec_lut h _ hh4 hk
  have hcl := canonical_code_lt _ (spec_valid h hh4) _ _ f3 f4 f5
  rw [hval] at f1 f6 f7
  refine ⟨by rw [f7]; omega, by rw [f6, f7]; exact hcl, fun e => emitHuff_spec h _ hh4 f1 e, ?_⟩
  intro h0 nc hnc hn0 hvals d rest hA
  have := spec_decode h _ hh4 hk h0 nc hnc hn0 (hvals _ hk) d rest (by rw [hval]; exact hA)
  rw [hval] at this
  exact this

theorem emitted_emit (bits nBits : Nat) (e : Encoder) (herr : e.err = none) (hinv : EmitInv e)
    (hn : nBits ≤ 16) (hb : bits < 2 ^ nBits) :
    Emitted e (emit bits nBits e) (bitsOf bits nBits) ∧ EmitInv (emit bits nBits e) ∧
      (emit bits nBits e).err = none ∧ (emit bits nBits e).quant = e.quant := by
  obtain ⟨bytes, h1, h2, _, _, h5, h6, h7, _⟩ := emit_spec bits nBits e herr hinv hn hb
  exact ⟨⟨bytes, h1, h2⟩, h5, h6, h7⟩

/-- The symbol emission of `writeBlock` for an AC symbol. -/
theorem emitHuff_emitted (h x n : Nat) (hh : h = 1 ∨ h = 3) (hx : x < 16) (hn : n ≤ 10)
    (hz : n = 0 → x = 0 ∨ x = 15) (e : Encoder) (herr : e.err = none) (hinv : EmitInv e) :
    ∃ e1, emitHuff h ((x * 16 + n : Nat) : Int) e = .ok () e1 ∧
      Emitted e e1 (symBits h (x * 16 + n)) ∧ EmitInv e1 ∧ e1.err = none ∧
      e1.quant = e.quant := by
  obtain ⟨c1, c2, c3, _⟩ := ac_symbol_code h x n hh hx hn hz
  obtain ⟨g1, g2, g3, g4⟩ := emitted_emit _ _ e herr hinv c1 c2
  exact ⟨_, c3 e, g1, g2, g3, g4⟩

theorem writeZRL_emitted (h : Nat) (hh : h = 1 ∨ h = 3) (cnt : Nat) :
    ∀ (r : Nat) (e : Encoder), r / 16 < cnt → r ≤ 1000 → e.err = none → EmitInv e →
    ∃ e1, writeZRL h cnt (r : Int) e = .ok ((r % 16 : Nat) : Int) e1 ∧
      Emitted e e1 (List.replicate (r / 16) (symBits h 0xf0)).flatten ∧ EmitInv e1 ∧
      e1.err = none ∧ e1.quant = e.quant := by
  induction cnt with
  | zero => intro r e h0; omega
  | succ cnt ih =>
    intro r e hr hr2 herr hinv
    rw [writeZRL]
    by_cases h15 : (r : Int) > 15
    · rw [if_pos h15]
      obtain ⟨e1, g1, g2, g3, g4, g5⟩ := emitHuff_emitted h 15 0 hh (by omega) (by omega)
        (fun _ => Or.inr rfl) e herr hinv
      have ecast : (((15 * 16 + 0 : Nat)) : Int) = 0xf0 := by norm_num
      rw [ecast] at g1
      rw [g1]
      simp only
      have e16 : i32 ((r : Int) - 16) = ((r - 16 : Nat) : Int) := by
        rw [i32_of_range _ (by omega) (by omega)]; omega
      rw [e16]
      obtain ⟨e2, k1, k2, k3, k4, k5⟩ := ih (r - 16) e1 (by omega) (by omega) g4 g3
      have em : (r - 16) % 16 = r % 16 := by omega
      rw [em] at k1
      refine ⟨e2, k1, ?_, k3, k4, by rw [k5, g5]⟩
      have hrep : r / 16 = (r - 16) / 16 + 1 := by omega
      rw [hrep, List.replicate_succ, List.flatten_cons]
      exact emitted_trans g2 k2
    · rw [if_neg h15]
      have h0 : r / 16 = 0 := by omega
      have hm : r % 16 = r := by omega
      rw [h0, hm]
      exact ⟨e, rfl, emitted_refl e, hinv, herr, rfl⟩

/-- The size and extra bits that `emitHuffRLE` computes for a non-zero value of
magnitude below `2^16`, and EXTEND on them. -/
theorem rle_extend (v : Int) (hv : v ≠ 0) (h1 : -65536 < v) (h2 : v < 65536) :
    ∃ n, rleSize v = some n ∧ 1 ≤ n ∧ n ≤ 16 ∧ 2 ^ (n - 1) ≤ v.natAbs ∧ v.natAbs < 2 ^ n ∧
      rleBits v n < 2 ^ n ∧ extend (rleBits v n) n = v := by
  rcases lt_or_gt_of_ne hv with hneg | hpos
  · obtain ⟨n, c0, c1, c2, c3, c4, c5⟩ := rle_neg v hneg h1
    have hna : v.natAbs = (-v).toNat := by omega
    have hp : 0 < (2 : Nat) ^ n := by positivity
    have hlt : rleBits v n < 2 ^ n := by rw [c5]; omega
    have hcast : (rleBits v n : Int) = 2 ^ n - 1 - ((-v).toNat : Int) := by
      rw [c5]
      push_cast [Nat.cast_sub (show (-v).toNat ≤ 2 ^ n - 1 by omega),
        Nat.cast_sub (show 1 ≤ 2 ^ n by omega)]
      ring
    have hhalf : (2 : Nat) ^ n = 2 * 2 ^ (n - 1) := by
      rw [← Nat.pow_succ']; congr 1; omega
    have hext : extend (rleBits v n) n = v := by
      rw [extend_low _ _ c1 (by rw [c5]; omega), hcast]
      omega
    exact ⟨n, c0, c1, c2, by rw [hna]; exact c3, by rw [hna]; exact c4, hlt, hext⟩
  · obtain ⟨n, c0, c1, c2, c3, c4, c5⟩ := rle_pos v hpos h2
    have hna : v.natAbs = v.toNat := by omega
    have hlt : rleBits v n < 2 ^ n := by rw [c5]; exact c4
    have hext : extend (rleBits v n) n = v := by
      rw [extend_high _ _ c1 (by rw [c5]; exact c3), c5]
      omega
    exact ⟨n, c0, c1, c2, by rw [hna]; exact c3, by rw [hna]; exact c4, hlt, hext⟩

/-- A non-zero value of magnitude at most 1023 has a size between 1 and 10. -/
theorem rle_extend_ac (v : Int) (hv : v ≠ 0) (hb : v.natAbs ≤ 1023) :
    rleSize v = some (acSize v) ∧ 1 ≤ acSize v ∧ acSize v ≤ 10 ∧
      rleBits v (acSize v) < 2 ^ acSize v ∧ extend (rleBits v (acSize v)) (acSize v) = v := by
  obtain ⟨n, c0, c1, c2, c3, c4, c5, c6⟩ := rle_extend v hv (by omega) (by omega)
  have hs : acSize v = n := by unfold acSize; rw [c0]; rfl
  rw [hs]
  refine ⟨c0, c1, ?_, c5, c6⟩
  by_contra hcon
  have : (2 : Nat) ^ 10 ≤ 2 ^ (n - 1) := Nat.pow_le_pow_right (by norm_num) (by omega)
  omega

theorem or32_run_size (x n : Nat) (hx : x < 16) (hn : n < 16) :
    or32 (i32 (((x : Nat) : Int) * 16)) (i32 (n : Int)) = ((x * 16 + n : Nat) : Int) := by
  unfold or32
  have hi1 : i32 (((x : Nat) : Int) * 16) = ((x : Nat) : Int) * 16 :=
    i32_of_range _ (by omega) (by omega)
  have hi2 : i32 (n : Int) = (n : Int) := i32_of_range _ (by omega) (by omega)
  rw [hi1, hi2]
  have e1 : u32 (((x : Nat) : Int) * 16) = x * 16 := by
    rw [u32_of_nonneg _ (by omega) (by omega)]; omega
  have e2 : u32 (n : Int) = n := by
    rw [u32_of_nonneg _ (by omega) (by omega)]; omega
  rw [e1, e2]
  have e3 : x * 16 ||| n = x * 16 + n := by
    have := or_eq_add_of_lt n x 4 (by norm_num; exact hn)
    rw [Nat.lor_comm]
    simpa using this
  rw [e3, i32_of_range _ (by omega) (by omega)]

theorem emitHuffRLE_emitted (h x : Nat) (v : Int) (hh : h = 1 ∨ h = 3) (hx : x < 16)
    (hv : v ≠ 0) (hb : v.natAbs ≤ 1023) (e : Encoder) (herr : e.err = none)
    (hinv : EmitInv e) :
    ∃ e1, emitHuffRLE h (x : Int) v e = .ok () e1 ∧
      Emitted e e1 (symBits h (x * 16 + acSize v) ++
        bitsOf (rleBits v (acSize v)) (acSize v)) ∧
      EmitInv e1 ∧ e1.err = none ∧ e1.quant = e.quant := by
  obtain ⟨c0, c1, c2, c3, _⟩ := rle_extend_ac v hv hb
  obtain ⟨e1, g1, g2, g3, g4, g5⟩ := emitHuff_emitted h x (acSize v) hh hx c2
    (fun h0 => by omega) e herr hinv
  obtain ⟨k1, k2, k3, k4⟩ := emitted_emit (rleBits v (acSize v)) (acSize v) e1 g4 g3
    (by omega) c3
  refine ⟨_, ?_, emitted_trans g2 k1, k2, k3, by rw [k4, g5]⟩
  unfold emitHuffRLE
  rw [c0]
  simp only
  rw [or32_run_size x (acSize v) hx (by omega), g1]
  simp only
  rw [if_pos (by omega)]

theorem quantDiv_congr (e e1 : Encoder) (h : e1.quant = e.quant) (q zig : Nat) (x : Int) :
    quantDiv e1 q zig x = quantDiv e q zig x := by
  unfold quantDiv
  rw [h]

/-- The AC loop of `writeBlock` and the final `0x00` symbol emit the run-length
coding of the quantized coefficients. -/
theorem writeAC_emitted (b : Block) (q h : Nat) (c : Nat → Int) (e0 : Encoder)
    (hh : h = 1 ∨ h = 3) (cnt : Nat) :
    ∀ (zig r : Nat) (e : Encoder), zig + cnt = 64 → r < zig → e.err = none → EmitInv e →
    e.quant = e0.quant →
    (∀ z, zig ≤ z → z < 64 →
      quantDiv e0 q z (b (unzig z)) = some (c z) ∧ (c z).natAbs ≤ 1023) →
    ∃ rl e1 e2, writeAC b q h cnt zig (r : Int) e = .ok rl e1 ∧
      (if rl > 0 then emitHuff h 0x00 e1 else .ok () e1) = .ok () e2 ∧
      Emitted e e2 (acBits h c cnt zig r) ∧ EmitInv e2 ∧ e2.err = none ∧
      e2.quant = e0.quant := by
  induction cnt with
  | zero =>
    intro zig r e _ _ herr hinv hq _
    rw [writeAC, acBits]
    by_cases hr : r > 0
    · obtain ⟨e1, g1, g2, g3, g4, g5⟩ := emitHuff_emitted h 0 0 hh (by omega) (by omega)
        (fun _ => Or.inl rfl) e herr hinv
      have ecast : (((0 * 16 + 0 : Nat)) : Int) = 0x00 := by norm_num
      rw [ecast] at g1
      refine ⟨_, e, e1, rfl, ?_, ?_, g3, g4, by rw [g5, hq]⟩
      · rw [if_pos (by omega)]; exact g1
      · rw [if_pos hr]; exact g2
    · refine ⟨_, e, e, rfl, ?_, ?_, hinv, herr, hq⟩
      · rw [if_neg (by omega)]
      · rw [if_neg hr]; exact emitted_refl e
  | succ cnt ih =>
    intro zig r e hz hr herr hinv hq hc
    obtain ⟨hdiv, hbound⟩ := hc zig (le_refl _) (by omega)
    rw [writeAC, acBits, quantDiv_congr e0 e hq, hdiv]
    simp only
    by_cases hc0 : c zig = 0
    · rw [if_pos hc0, if_pos hc0]
      have e1 : i32 ((r : Int) + 1) = ((r + 1 : Nat) : Int) := by
        rw [i32_of_range _ (by omega) (by omega)]; omega
      rw [e1]
      exact ih (zig + 1) (r + 1) e (by omega) (by omega) herr hinv hq
        (fun z hz1 hz2 => hc z (by omega) hz2)
    · rw [if_neg hc0, if_neg hc0]
      obtain ⟨e1, g1, g2, g3, g4, g5⟩ := writeZRL_emitted h hh ((r : Int).toNat / 16 + 1) r e
        (by simp) (by omega) herr hinv
      rw [g1]
      simp only
      obtain ⟨e2, k1, k2, k3, k4, k5⟩ := emitHuffRLE_emitted h (r % 16) (c zig) hh
        (Nat.mod_lt _ (by norm_num)) hc0 hbound e1 g4 g3
      rw [k1]
      simp only
      obtain ⟨rl, e3, e4, m1, m2, m3, m4, m5, m6⟩ := ih (zig + 1) 0 e2 (by omega) (by omega)
        k4 k3 (by rw [k5, g5, hq]) (fun z hz1 hz2 => hc z (by omega) hz2)
      refine ⟨rl, e3, e4, m1, m2, ?_, m4, m5, m6⟩
      have := emitted_trans g2 (emitted_trans k2 m3)
      rw [List.append_assoc] at this
      exact this

theorem noReader_eobRun {a b : Decoder} (h : a.noReader = b.noReader) : a.eobRun = b.eobRun :=
  show a.noReader.eobRun = b.noReader.eobRun from congrArg Decoder.eobRun h

theorem decodeHuffman_eobRun (h : Huffman) (d d1 : Decoder) (v : Nat)
    (hr : decodeHuffman h d = .ok v d1) : d1.eobRun = d.eobRun := by
  have := decodeHuffman_frame h d
  rw [hr] at this
  exact noReader_eobRun this

theorem receiveExtend_eobRun (t : Nat) (d d1 : Decoder) (v : Int)
    (hr : receiveExtend t d = .ok v d1) : d1.eobRun = d.eobRun := by
  have := receiveExtend_frame t d
  rw [hr] at this
  exact noReader_eobRun this

theorem ahead_setEob (d : Decoder) (n : Nat) (bs : List Bool) (h : Ahead d bs) :
    Ahead { d with eobRun := n } bs := by
  obtain ⟨h1, h2, bytes, tail, h3, h4⟩ := h
  exact ⟨h1, h2, bytes, tail, h3, h4⟩

theorem run_size_split (x n : Nat) (hn : n < 16) :
    (x * 16 + n) >>> 4 = x ∧ (x * 16 + n) &&& 0x0f = n := by
  constructor
  · rw [Nat.shiftRight_eq_div_pow]; omega
  · have : (0x0f : Nat) = 2 ^ 4 - 1 := by norm_num
    rw [this, Nat.and_pow_two_sub_one_eq_mod]; omega

/-- The AC loop of `processSOS` on `n` symbols `0xF0`: each one moves the
position on by 16. -/
theorem zrl_ahead (h : Nat) (hh : h = 1 ∨ h = 3) (h0 : Huffman) (nc : Nat → Nat)
    (hnc : ∀ i, i < 16 → nc i = specCounts (theSpec h) i) (hn0 : h0.nCodes ≠ 0)
    (hvals : ∀ k, k < (theSpec h).value.length → h0.vals k = byte ((theSpec h).value.getD k 0))
    (n : Nat) : ∀ (p : Nat) (blk : Block) (d : Decoder) (fuel : Nat) (rest : List Bool),
    Ahead d ((List.replicate n (symBits h 0xf0)).flatten ++ rest) → p + 16 * n ≤ 63 →
    n ≤ fuel →
    ∃ d1, acLoop (buildHuffman h0 nc) 63 0 fuel p blk d =
        acLoop (buildHuffman h0 nc) 63 0 (fuel - n) (p + 16 * n) blk d1 ∧
      Ahead d1 rest ∧ d1.eobRun = d.eobRun := by
  induction n with
  | zero => intro p blk d fuel rest hA _ _; exact ⟨d, rfl, hA, rfl⟩
  | succ n ih =>
    intro p blk d fuel rest hA hp hf
    obtain ⟨f, hfe⟩ : ∃ f, fuel = f + 1 := ⟨fuel - 1, by omega⟩
    subst hfe
    rw [List.replicate_succ, List.flatten_cons, List.append_assoc] at hA
    obtain ⟨_, _, _, cdec⟩ := ac_symbol_code h 15 0 hh (by omega) (by omega) (fun _ => Or.inr rfl)
    obtain ⟨d1, hr, hA1⟩ := cdec h0 nc hnc hn0 hvals d _ hA
    have hv0 : (15 * 16 + 0 : Nat) >>> 4 = 15 := by decide
    have hv1 : (15 * 16 + 0 : Nat) &&& 0x0f = 0 := by decide
    obtain ⟨d2, k1, k2, k3⟩ := ih (p + 0x0f + 1) blk d1 f rest hA1 (by omega) (by omega)
    refine ⟨d2, ?_, k2, by rw [k3, decodeHuffman_eobRun _ _ _ _ hr]⟩
    rw [acLoop, if_pos (by omega), hr]
    simp only [hv0, hv1, ne_eq, not_true_eq_false, if_false]
    rw [k1]
    have e1 : f + 1 - (n + 1) = f - n := by omega
    have e2 : p + 0x0f + 1 + 16 * n = p + 16 * (n + 1) := by omega
    rw [e1, e2]

/-- The AC loop of `processSOS` (baseline: `Se = 63`, `Al = 0`) on the
run-length coding of the coefficients `c`: it stores the non-zero coefficients,
reads exactly the coded bits and leaves the end-of-band run at 0. -/
theorem acLoop_ahead (h : Nat) (hh : h = 1 ∨ h = 3) (h0 : Huffman) (nc : Nat → Nat)
    (hnc : ∀ i, i < 16 → nc i = specCounts (theSpec h) i) (hn0 : h0.nCodes ≠ 0)
    (hvals : ∀ k, k < (theSpec h).value.length → h0.vals k = byte ((theSpec h).value.getD k 0))
    (c : Nat → Int) (cnt : Nat) :
    ∀ (zig r : Nat) (blk : Block) (d : Decoder) (fuel : Nat) (rest : List Bool),
    zig + cnt = 64 → r < zig → 65 ≤ fuel + (zig - r) →
    (∀ z, zig ≤ z → z < 64 → (c z).natAbs ≤ 1023) →
    Ahead d (acBits h c cnt zig r ++ rest) → d.eobRun = 0 →
    ∃ d1, acLoop (buildHuffman h0 nc) 63 0 fuel (zig - r) blk d =
        .ok (acFill c cnt zig blk) d1 ∧ Ahead d1 rest ∧ d1.eobRun = 0 := by
  induction cnt with
  | zero =>
    intro zig r blk d fuel rest hz hr hf _ hA he
    obtain ⟨f, hfe⟩ : ∃ f, fuel = f + 1 := ⟨fuel - 1, by omega⟩
    subst hfe
    rw [acBits] at hA
    rw [acFill, acLoop]
    by_cases hr0 : r > 0
    · rw [if_pos hr0] at hA
      rw [if_pos (by omega)]
      obtain ⟨_, _, _, cdec⟩ := ac_symbol_code h 0 0 hh (by omega) (by omega)
        (fun _ => Or.inl rfl)
      obtain ⟨d1, hd, hA1⟩ := cdec h0 nc hnc hn0 hvals d _ hA
      rw [hd]
      have hv0 : (0 * 16 + 0 : Nat) >>> 4 = 0 := by decide
      have hv1 : (0 * 16 + 0 : Nat) &&& 0x0f = 0 := by decide
      simp only [hv0, hv1, ne_eq, not_true_eq_false, if_false]
      have hre : readEobRun 0 d1 = .ok () { d1 with eobRun := u16 (1 <<< 0) } := by
        unfold readEobRun
        simp
      rw [if_pos (by decide), hre]
      refine ⟨_, rfl, ahead_setEob _ _ _ (ahead_setEob _ _ _ hA1), ?_⟩
      show u16 (u16 (1 <<< 0) + 65535) = 0
      decide
    · rw [if_neg hr0] at hA
      rw [if_neg (by omega)]
      exact ⟨d, rfl, hA, he⟩
  | succ cnt ih =>
    intro zig r blk d fuel rest hz hr hf hc hA he
    rw [acBits] at hA
    rw [acFill]
    by_cases hc0 : c zig = 0
    · rw [if_pos hc0] at hA
      rw [if_pos hc0]
      have := ih (zig + 1) (r + 1) blk d fuel rest (by omega) (by omega) (by omega)
        (fun z hz1 hz2 => hc z (by omega) hz2) hA he
      have e : zig + 1 - (r + 1) = zig - r := by omega
      rw [e] at this
      exact this
    · rw [if_neg hc0] at hA
      rw [if_neg hc0]
      have hb := hc zig (le_refl _) (by omega)
      obtain ⟨s0, s1, s2, s3, s4⟩ := rle_extend_ac (c zig) hc0 hb
      rw [List.append_assoc] at hA
      obtain ⟨d1, z1, z2, z3⟩ := zrl_ahead h hh h0 nc hnc hn0 hvals (r / 16) (zig - r) blk d
        fuel _ hA (by omega) (by omega)
      rw [z1]
      obtain ⟨f, hfe⟩ : ∃ f, fuel - r / 16 = f + 1 := ⟨fuel - r / 16 - 1, by omega⟩
      rw [hfe, acLoop, if_pos (by omega)]
      obtain ⟨_, _, _, cdec⟩ := ac_symbol_code h (r % 16) (acSize (c zig)) hh
        (Nat.mod_lt _ (by norm_num)) s2 (fun h0 => by omega)
      rw [List.append_assoc] at z2
      obtain ⟨d2, hd, hA2⟩ := cdec h0 nc hnc hn0 hvals d1 _ z2
      rw [hd]
      obtain ⟨hv0, hv1⟩ := run_size_split (r % 16) (acSize (c zig)) (by omega)
      simp only [hv0, hv1]
      rw [if_pos (by omega), if_neg (by omega)]
      rw [List.append_assoc] at hA2
      obtain ⟨d3, hx, hA3⟩ := receiveExtend_ahead (acSize (c zig)) _ (by omega) s3 d2 _ hA2
      rw [hx, s4]
      simp only
      have hi : i32 (c zig * 2 ^ 0) = c zig := by
        rw [pow_zero, mul_one, i32_of_range _ (by omega) (by omega)]
      have hpos : zig - r + 16 * (r / 16) + r % 16 = zig := by omega
      rw [hi, hpos]
      have he3 : d3.eobRun = 0 := by
        rw [receiveExtend_eobRun _ _ _ _ hx, decodeHuffman_eobRun _ _ _ _ hd, z3, he]
      have := ih (zig + 1) 0 (upd blk (unzig zig) (c zig)) d3 f rest (by omega) (by omega)
        (by omega) (fun z hz1 hz2 => hc z (by omega) hz2) hA3 he3
      rw [Nat.sub_zero] at this
      exact this

theorem unzig_inj (a b : Nat) (ha : a < 64) (hb : b < 64) (h : unzig a = unzig b) : a = b := by
  have key : ∀ a b : Fin 64, unzig a.val = unzig b.val → a = b := by decide!
  have := key ⟨a, ha⟩ ⟨b, hb⟩ h
  exact congrArg Fin.val this

theorem acFill_other (c : Nat → Int) (cnt : Nat) : ∀ (zig : Nat) (blk : Block) (i : Nat),
    (∀ z, zig ≤ z → z < zig + cnt → unzig z ≠ i) → acFill c cnt zig blk i = blk i := by
  induction cnt with
  | zero => intro zig blk i _; rfl
  | succ cnt ih =>
    intro zig blk i hne
    rw [acFill, ih (zig + 1) _ i (fun z h1 h2 => hne z (by omega) (by omega))]
    by_cases hc : c zig = 0
    · rw [if_pos hc]
    · rw [if_neg hc]
      unfold upd
      rw [if_neg (fun h => hne zig (le_refl _) (by omega) h.symm)]

theorem acFill_at (c : Nat → Int) (cnt : Nat) : ∀ (zig : Nat) (blk : Block) (z : Nat),
    zig ≤ z → z < zig + cnt → zig + cnt ≤ 64 →
    acFill c cnt zig blk (unzig z) = if c z = 0 then blk (unzig z) else c z := by
  induction cnt with
  | zero => intro zig blk z h1 h2; omega
  | succ cnt ih =>
    intro zig blk z h1 h2 h3
    rw [acFill]
    by_cases hz : z = zig
    · subst hz
      rw [acFill_other c cnt (z + 1) _ (unzig z) (fun y hy1 hy2 hy =>
        absurd (unzig_inj y z (by omega) (by omega) hy) (by omega))]
      by_cases hc : c z = 0
      · rw [if_pos hc, if_pos hc]
      · rw [if_neg hc, if_neg hc]
        unfold upd
        rw [if_pos rfl]
    · rw [ih (zig + 1) _ z (by omega) (by omega) (by omega)]
      by_cases hcz : c z = 0
      · rw [if_pos hcz, if_pos hcz]
        by_cases hc : c zig = 0
        · rw [if_pos hc]
        · rw [if_neg hc]
          unfold upd
          rw [if_neg (fun h => hz (unzig_inj z zig (by omega) (by omega) h))]
      · rw [if_neg hcz, if_neg hcz]

/-- The block the AC loop builds from a zero block holds every coefficient at
its natural position, and 0 at the DC position. -/
theorem acFill_zero (c : Nat → Int) :
    (∀ z, 1 ≤ z → z < 64 → acFill c 63 1 zeroBlock (unzig z) = c z) ∧
    acFill c 63 1 zeroBlock 0 = 0 := by
  constructor
  · intro z h1 h2
    rw [acFill_at c 63 1 zeroBlock z h1 (by omega) (by omega)]
    by_cases hc : c z = 0
    · rw [if_pos hc, hc]; rfl
    · rw [if_neg hc]
  · rw [acFill_other c 63 1 zeroBlock 0 (fun z h1 h2 h =>
      absurd (unzig_pos z h1 (by omega)).1 (by omega))]
    rfl

theorem writeBlock_parts (b : Block) (q : Nat) (prevDC dc : Int) (e e1 e3 : Encoder)
    (hq : q < 2) (hdc : quantDiv e q 0 (fdct b 0) = some dc)
    (h1 : emitHuffRLE (2 * q + 0) 0 (i32 (dc - prevDC)) e = .ok () e1)
    (h3 : writeACPart (fdct b) q e1 = .ok () e3) :
    writeBlock b q prevDC e = .ok (fdct b, dc) e3 := by
  unfold writeBlock
  unfold writeACPart at h3
  simp only
  rw [if_neg (by unfold nQuantIndex; omega), hdc]
  simp only
  rw [h1]
  simp only
  cases hw : writeAC (fdct b) q (2 * q + 1) (blockSize - 1) 1 0 e1 with
  | panic m e2 => rw [hw] at h3; cases h3
  | ok rl e2 =>
    rw [hw] at h3
    simp only at h3 ⊢
    by_cases hr : rl > 0
    · rw [if_pos hr] at h3 ⊢
      rw [h3]
    · rw [if_neg hr] at h3 ⊢
      injection h3 with _ h4
      rw [h4]

theorem sosAC_baseline (sp : ScanParams) (i : Nat) (b b2 : Block) (sv : ScanVars)
    (d d2 : Decoder) (hz : sp.zigEnd = 63) (ha : sp.al = 0) (he : d.eobRun = 0)
    (hl : acLoop (d.huff acTable (sp.scan i).ta) 63 0 64 1 b d = .ok b2 d2) :
    sosAC sp i 1 b sv d = .ok (b2, sv) d2 := by
  unfold sosAC
  rw [if_neg (by omega), hz, ha]
  have e : 63 + 2 - 1 = 64 := rfl
  rw [e, hl]

/-- The table that `processDHT` installs from the counts and values of the
encoder table `h` is derived from these counts and holds these values. -/
theorem spec_processDHT_table (h : Nat) (hh : h < 4)
    (d0 : Decoder) (b0 : Byte) (rest0 : List Byte)
    (hle : d0.bytes.i ≤ d0.bytes.j) (hnu : d0.bytes.nUnreadable = 0)
    (hst : d0.stream = b0 :: (theSpec h).count.map byte ++ ((theSpec h).value.map byte ++ rest0))
    (htc : b0.val >>> 4 ≤ 1) (hth : b0.val &&& 0x0f ≤ 3)
    (hprog : d0.progressive = false → b0.val &&& 0x0f ≤ 1) :
    ∃ (h0 : Huffman) (nc : Nat → Nat),
      (processDHT ((theSpec h).value.length + 17) d0).state.huff (b0.val >>> 4)
        (b0.val &&& 0x0f) = buildHuffman h0 nc ∧
      (∀ i, i < 16 → nc i = specCounts (theSpec h) i) ∧ h0.nCodes ≠ 0 ∧
      (∀ k, k < (theSpec h).value.length → h0.vals k = byte ((theSpec h).value.getD k 0)) := by
  obtain ⟨t1, t2, t3, _, t5⟩ := spec_total h hh
  have hv := spec_valid h hh
  have hlen : ((theSpec h).count.map byte).length = 16 := by rw [List.length_map]; exact t2
  have hvl : ((theSpec h).value.map byte).length = (theSpec h).value.length := List.length_map _ _
  have hsum : (((theSpec h).count.map byte).map (fun b => b.val)).sum =
      ((theSpec h).value.map byte).length := by
    rw [List.map_map, hvl, ← t5]
    rfl
  have hpos := hv.1
  have h1 : 1 ≤ ((theSpec h).value.map byte).length := by rw [hvl]; omega
  have h256 : ((theSpec h).value.map byte).length ≤ 256 := by rw [hvl]; omega
  obtain ⟨dF, nc, q1, q2, q3, q4, q5, q6⟩ := dhtLoop_accepts
    (((theSpec h).value.map byte).length + 17) (((theSpec h).value.map byte).length + 17) d0
    b0 ((theSpec h).count.map byte) ((theSpec h).value.map byte) rest0 hle hnu hlen hst htc hth
    hprog hsum h1 h256 (le_refl _)
  rw [hvl] at q1
  have hproc : processDHT ((theSpec h).value.length + 17) d0 = .ok () dF := by
    unfold processDHT
    rw [q1, Nat.sub_self]
    exact dhtLoop_zero_length _ dF
  rw [hproc]
  have htable : dF.huff (b0.val >>> 4) (b0.val &&& 0x0f) =
      buildHuffman { d0.huff (b0.val >>> 4) (b0.val &&& 0x0f) with
          nCodes := ((theSpec h).value.map byte).length,
          vals := blit (d0.huff (b0.val >>> 4) (b0.val &&& 0x0f)).vals 0
            ((theSpec h).value.map byte) } nc := by
    rw [sameInput_huff q3]
    exact setHuff_get _ _ _ _
  refine ⟨_, nc, htable, ?_, ?_, ?_⟩
  · intro i hi
    rw [q2 i hi]
    exact spec_counts_bytes h i hh hi
  · show ((((theSpec h).value.map byte).length : Nat) : Int) ≠ 0
    omega
  · intro k hk
    show blit _ 0 ((theSpec h).value.map byte) k = _
    rw [blit_zero_lt _ _ _ (by rw [hvl]; exact hk)]
    simp [List.getD_eq_getElem?_getD, List.getElem?_eq_getElem hk]

/-- C25: for a block whose quantized AC coefficients `c zig` (the quotients
`writeBlock` computes for the zig-zag positions 1 to 63) have magnitude at most
1023, the AC statements of `writeBlock` do not panic and emit the run-length
coding `acBits` of these coefficients: `0xF0` per 16 zeros before a non-zero
coefficient, then `run<<4 | size` and the `size` magnitude bits, and a final
`0x00` when zeros trail.  The baseline AC loop of `processSOS` (`Se = 63`,
`Al = 0`), started at position 1 on a zero block with the end-of-band run at 0
and a table built from the counts and values of the encoder's AC table, reads
these bits back: it returns a block that holds `c zig` at `unzig zig` for every
`zig` from 1 to 63, consumes exactly the coded bits and leaves the end-of-band
run at 0. -/
theorem ac_round_trip (b : Block) (q : Nat) (c : Nat → Int) (e : Encoder) (hq : q < 2)
    (herr : e.err = none) (hinv : EmitInv e)
    (hc : ∀ z, 1 ≤ z → z < 64 → quantDiv e q z (b (unzig z)) = some (c z) ∧ |c z| ≤ 1023) :
    ∃ e2, writeACPart b q e = .ok () e2 ∧ Emitted e e2 (acBits (2 * q + 1) c 63 1 0) ∧
      EmitInv e2 ∧ e2.err = none ∧
      (∀ (b0 : Block) (prevDC dc : Int) (e0 : Encoder), fdct b0 = b →
        quantDiv e0 q 0 (b 0) = some dc →
        emitHuffRLE (2 * q + 0) 0 (i32 (dc - prevDC)) e0 = .ok () e →
        writeBlock b0 q prevDC e0 = .ok (b, dc) e2) ∧
      (∀ (d0 : Decoder) (b0 : Byte) (rest0 : List Byte),
        d0.bytes.i ≤ d0.bytes.j → d0.bytes.nUnreadable = 0 →
        d0.stream = b0 :: (theSpec (2 * q + 1)).count.map byte ++
          ((theSpec (2 * q + 1)).value.map byte ++ rest0) →
        b0.val >>> 4 ≤ 1 → b0.val &&& 0x0f ≤ 3 →
        (d0.progressive = false → b0.val &&& 0x0f ≤ 1) →
        ∃ (h0 : Huffman) (nc : Nat → Nat),
          (processDHT ((theSpec (2 * q + 1)).value.length + 17) d0).state.huff (b0.val >>> 4)
            (b0.val &&& 0x0f) = buildHuffman h0 nc ∧
          (∀ i, i < 16 → nc i = specCounts (theSpec (2 * q + 1)) i) ∧ h0.nCodes ≠ 0 ∧
          (∀ k, k < (theSpec (2 * q + 1)).value.length →
            h0.vals k = byte ((theSpec (2 * q + 1)).value.getD k 0))) ∧
      ∀ (h0 : Huffman) (nc : Nat → Nat),
        (∀ i, i < 16 → nc i = specCounts (theSpec (2 * q + 1)) i) → h0.nCodes ≠ 0 →
        (∀ k, k < (theSpec (2 * q + 1)).value.length →
          h0.vals k = byte ((theSpec (2 * q + 1)).value.getD k 0)) →
        ∀ (d : Decoder) (rest : List Bool),
          Ahead d (acBits (2 * q + 1) c 63 1 0 ++ rest) → d.eobRun = 0 →
          ∃ blk d1, acLoop (buildHuffman h0 nc) 63 0 64 1 zeroBlock d = .ok blk d1 ∧
            (∀ z, 1 ≤ z → z < 64 → blk (unzig z) = c z) ∧ blk 0 = 0 ∧
            Ahead d1 rest ∧ d1.eobRun = 0 ∧
            ∀ (sp : ScanParams) (i : Nat) (sv : ScanVars), sp.zigEnd = 63 → sp.al = 0 →
              d.huff acTable (sp.scan i).ta = buildHuffman h0 nc →
              sosAC sp i 1 zeroBlock sv d = .ok (blk, sv) d1 := by
  have hh : 2 * q + 1 = 1 ∨ 2 * q + 1 = 3 := by omega
  have hb : ∀ z, 1 ≤ z → z < 64 → (c z).natAbs ≤ 1023 := by
    intro z h1 h2
    have := (hc z h1 h2).2
    rw [Int.abs_eq_natAbs] at this
    omega
  obtain ⟨rl, e1, e2, w1, w2, w3, w4, w5, _⟩ := writeAC_emitted b q (2 * q + 1) c e hh 63 1 0 e
    (by omega) (by omega) herr hinv rfl (fun z h1 h2 => ⟨(hc z h1 h2).1, hb z h1 h2⟩)
  have hpart : writeACPart b q e = .ok () e2 := by
    unfold writeACPart
    have e63 : blockSize - 1 = 63 := rfl
    have ez : (((0 : Nat) : Int)) = 0 := rfl
    rw [e63]
    rw [ez] at w1
    rw [w1]
    exact w2
  refine ⟨e2, hpart, w3, w4, w5, ?_, ?_, ?_⟩
  · intro b0 prevDC dc e0 hf hdc hrle
    subst hf
    exact writeBlock_parts b0 q prevDC dc e0 e e2 hq hdc hrle hpart
  · intro d0 b0 rest0 hle hnu hst htc hth hprog
    exact spec_processDHT_table (2 * q + 1) (by omega) d0 b0 rest0 hle hnu hst htc hth hprog
  · intro h0 nc hnc hn0 hvals d rest hA he
    obtain ⟨d1, a1, a2, a3⟩ := acLoop_ahead (2 * q + 1) hh h0 nc hnc hn0 hvals c 63 1 0
      zeroBlock d 64 rest (by omega) (by omega) (by omega)
      (fun z h1 h2 => hb z (by omega) h2) hA he
    rw [Nat.sub_zero] at a1
    obtain ⟨f1, f2⟩ := acFill_zero c
    refine ⟨_, d1, a1, f1, f2, a2, a3, ?_⟩
    intro sp i sv hz ha htab
    exact sosAC_baseline sp i zeroBlock _ sv d d1 hz ha he (by rw [htab]; exact a1)

theorem ac_round_trip_witness :
    (0 < 2 ∧ onesEncoder.err = none ∧ EmitInv onesEncoder ∧
      (∀ z, 1 ≤ z → z < 64 →
        quantDiv onesEncoder 0 z (acSampleBlock (unzig z)) = some (acSampleCoeffs z) ∧
        |acSampleCoeffs z| ≤ 1023)) ∧
    (∃ e2, writeACPart acSampleBlock 0 onesEncoder = .ok () e2 ∧ Emitted onesEncoder e2 (acBits (2 * 0 + 1) acSampleCoeffs 63 1 0) ∧
      EmitInv e2 ∧ e2.err = none ∧
      (∀ (b0 : Block) (prevDC dc : Int) (e0 : Encoder), fdct b0 = acSampleBlock →
        quantDiv e0 0 0 (acSampleBlock 0) = some dc →
        emitHuffRLE (2 * 0 + 0) 0 (i32 (dc - prevDC)) e0 = .ok () onesEncoder →
        writeBlock b0 0 prevDC e0 = .ok (acSampleBlock, dc) e2) ∧
      (∀ (d0 : Decoder) (b0 : Byte) (rest0 : List Byte),
        d0.bytes.i ≤ d0.bytes.j → d0.bytes.nUnreadable = 0 →
        d0.stream = b0 :: (theSpec (2 * 0 + 1)).count.map byte ++
          ((theSpec (2 * 0 + 1)).value.map byte ++ rest0) →
        b0.val >>> 4 ≤ 1 → b0.val &&& 0x0f ≤ 3 →
        (d0.progressive = false → b0.val &&& 0x0f ≤ 1) →
        ∃ (h0 : Huffman) (nc : Nat → Nat),
          (processDHT ((theSpec (2 * 0 + 1)).value.length + 17) d0).state.huff (b0.val >>> 4)
            (b0.val &&& 0x0f) = buildHuffman h0 nc ∧
          (∀ i, i < 16 → nc i = specCounts (theSpec (2 * 0 + 1)) i) ∧ h0.nCodes ≠ 0 ∧
          (∀ k, k < (theSpec (2 * 0 + 1)).value.length →
            h0.vals k = byte ((theSpec (2 * 0 + 1)).value.getD k 0))) ∧
      ∀ (h0 : Huffman) (nc : Nat → Nat),
        (∀ i, i < 16 → nc i = specCounts (theSpec (2 * 0 + 1)) i) → h0.nCodes ≠ 0 →
        (∀ k, k < (theSpec (2 * 0 + 1)).value.length →
          h0.vals k = byte ((theSpec (2 * 0 + 1)).value.getD k 0)) →
        ∀ (d : Decoder) (rest : List Bool),
          Ahead d (acBits (2 * 0 + 1) acSampleCoeffs 63 1 0 ++ rest) → d.eobRun = 0 →
          ∃ blk d1, acLoop (buildHuffman h0 nc) 63 0 64 1 zeroBlock d = .ok blk d1 ∧
            (∀ z, 1 ≤ z → z < 64 → blk (unzig z) = acSampleCoeffs z) ∧ blk 0 = 0 ∧
            Ahead d1 rest ∧ d1.eobRun = 0 ∧
            ∀ (sp : ScanParams) (i : Nat) (sv : ScanVars), sp.zigEnd = 63 → sp.al = 0 →
              d.huff acTable (sp.scan i).ta = buildHuffman h0 nc →
              sosAC sp i 1 zeroBlock sv d = .ok (blk, sv) d1) :=
  ⟨⟨by decide, rfl, by decide, fun z h1 h2 =>
      (by decide! : ∀ z : Fin 64, 1 ≤ z.val →
        quantDiv onesEncoder 0 z.val (acSampleBlock (unzig z.val)) =
          some (acSampleCoeffs z.val) ∧ |acSampleCoeffs z.val| ≤ 1023) ⟨z, h2⟩ h1⟩,
    ac_round_trip acSampleBlock 0 acSampleCoeffs onesEncoder (by decide) rfl (by decide)
      (fun z h1 h2 =>
        (by decide! : ∀ z : Fin 64, 1 ≤ z.val →
          quantDiv onesEncoder 0 z.val (acSampleBlock (unzig z.val)) =
            some (acSampleCoeffs z.val) ∧ |acSampleCoeffs z.val| ≤ 1023) ⟨z, h2⟩ h1)⟩


theorem idctRowGeneral_dc (src : Block) (y8 : Nat) (s : Int) (h0 : src y8 = s)
    (h1 : src (y8 + 1) = 0) (h2 : src (y8 + 2) = 0) (h3 : src (y8 + 3) = 0)
    (h4 : src (y8 + 4) = 0) (h5 : src (y8 + 5) = 0) (h6 : src (y8 + 6) = 0)
    (h7 : src (y8 + 7) = 0) (hlo : -1048576 ≤ s) (hhi : s ≤ 1048575) :
    idctRowGeneral src y8 =
      setRow src y8 (s * 8) (s * 8) (s * 8) (s * 8) (s * 8) (s * 8) (s * 8) (s * 8) := by
  unfold idctRowGeneral
  simp only [h0, h1, h2, h3, h4, h5, h6, h7]
  have e0 : i32 (s * 2048 + 128) = s * 2048 + 128 := i32_of_range _ (by omega) (by omega)
  have e128 : i32 128 = 128 := by decide
  have s8 : (128 : Int) >>> 8 = 0 := by decide
  have eo : (s * 2048 + 128) >>> (8 : Int) = s * 8 := by
    have := int_shiftRight_div (s * 2048 + 128) 8
    simp only [Nat.cast_ofNat] at this
    rw [this]
    omega
  simp only [zero_mul, mul_zero, add_zero, zero_add, sub_zero, sub_self, i32_zero, e0, e128, s8,
    eo]

/-- C31: for a row of a block whose seven AC entries are zero and whose first
entry `s` has `|s| ≤ 2^19`, the fast path of the horizontal pass of `idct`
writes `s << 3 = 8*s` (without wrap) to the eight positions of the row, and the
general row computation (prescale, stages 1 to 4, output `>> 8`) gives the same
block; `idct` takes the fast path on such a row. -/
theorem idct_row_fast_path (src : Block) (y : Nat)
    (hz : ∀ k, 1 ≤ k → k < 8 → src (y * 8 + k) = 0) (hs : |src (y * 8)| ≤ 2 ^ 19) :
    idctRowGeneral src (y * 8) = idctRowFast src (y * 8) ∧
    idctRow src y = idctRowFast src (y * 8) ∧
    (∀ x, x < 8 → idctRowFast src (y * 8) (y * 8 + x) = src (y * 8) * 8 ∧
      idctRowGeneral src (y * 8) (y * 8 + x) = src (y * 8) * 8) ∧
    (∀ i, i < y * 8 ∨ y * 8 + 8 ≤ i → idctRowFast src (y * 8) i = src i ∧
      idctRowGeneral src (y * 8) i = src i) := by
  have hb := abs_le.mp hs
  have hlo : -1048576 ≤ src (y * 8) := by have := hb.1; norm_num at this; omega
  have hhi : src (y * 8) ≤ 1048575 := by have := hb.2; norm_num at this; omega
  have hg := idctRowGeneral_dc src (y * 8) (src (y * 8)) rfl (hz 1 (by omega) (by omega))
    (hz 2 (by omega) (by omega)) (hz 3 (by omega) (by omega)) (hz 4 (by omega) (by omega))
    (hz 5 (by omega) (by omega)) (hz 6 (by omega) (by omega)) (hz 7 (by omega) (by omega))
    hlo hhi
  have hf : idctRowFast src (y * 8) = setRow src (y * 8) (src (y * 8) * 8) (src (y * 8) * 8)
      (src (y * 8) * 8) (src (y * 8) * 8) (src (y * 8) * 8) (src (y * 8) * 8)
      (src (y * 8) * 8) (src (y * 8) * 8) := by
    unfold idctRowFast
    rw [i32_of_range _ (by omega) (by omega)]
  have hrow : idctRow src y = idctRowFast src (y * 8) := by
    unfold idctRow
    rw [if_pos ⟨hz 1 (by omega) (by omega), hz 2 (by omega) (by omega),
      hz 3 (by omega) (by omega), hz 4 (by omega) (by omega), hz 5 (by omega) (by omega),
      hz 6 (by omega) (by omega), hz 7 (by omega) (by omega)⟩]
  refine ⟨hg.trans hf.symm, hrow, ?_, ?_⟩
  · intro x hx
    have : setRow src (y * 8) (src (y * 8) * 8) (src (y * 8) * 8) (src (y * 8) * 8)
        (src (y * 8) * 8) (src (y * 8) * 8) (src (y * 8) * 8) (src (y * 8) * 8)
        (src (y * 8) * 8) (y * 8 + x) = src (y * 8) * 8 := by
      rw [setRow_get _ _ _ _ _ _ _ _ _ _ x hx]
      interval_cases x <;> rfl
    rw [hf, hg]
    exact ⟨this, this⟩
  · intro i hi
    rw [hf, hg]
    exact ⟨setRow_other _ _ _ _ _ _ _ _ _ _ _ hi, setRow_other _ _ _ _ _ _ _ _ _ _ _ hi⟩

theorem idct_row_fast_path_witness :
    ((∀ k, 1 ≤ k → k < 8 → rowSample (2 * 8 + k) = 0) ∧ |rowSample (2 * 8)| ≤ 2 ^ 19) ∧
    (idctRowGeneral rowSample (2 * 8) = idctRowFast rowSample (2 * 8) ∧
    idctRow rowSample 2 = idctRowFast rowSample (2 * 8) ∧
    (∀ x, x < 8 → idctRowFast rowSample (2 * 8) (2 * 8 + x) = rowSample (2 * 8) * 8 ∧
      idctRowGeneral rowSample (2 * 8) (2 * 8 + x) = rowSample (2 * 8) * 8) ∧
    (∀ i, i < 2 * 8 ∨ 2 * 8 + 8 ≤ i → idctRowFast rowSample (2 * 8) i = rowSample i ∧
      idctRowGeneral rowSample (2 * 8) i = rowSample i)) :=
  ⟨⟨fun k h1 h2 => (by decide : ∀ k : Fin 8, 1 ≤ k.val → rowSample (2 * 8 + k.val) = 0)
      ⟨k, h2⟩ h1, by decide⟩,
    idct_row_fast_path rowSample 2
      (fun k h1 h2 => (by decide : ∀ k : Fin 8, 1 ≤ k.val → rowSample (2 * 8 + k.val) = 0)
        ⟨k, h2⟩ h1) (by decide)⟩

theorem noReader_jfif {a b : Decoder} (h : a.noReader = b.noReader) : a.jfif = b.jfif :=
  show a.noReader.jfif = b.noReader.jfif from congrArg Decoder.jfif h

theorem ignoreLoop_frame (fuel : Nat) : ∀ (n : Nat) (d : Decoder),
    (ignoreLoop fuel n d).state.noReader = d.noReader := by
  induction fuel with
  | zero => intro n d; rfl
  | succ fuel ih =>
    intro n d
    unfold ignoreLoop
    simp only
    split
    · rfl
    · have hf := fill_frame
        { d with bytes := { d.bytes with i := d.bytes.i + min (d.bytes.j - d.bytes.i) n } }
      split
      · rename_i e d2 heq
        rw [heq] at hf
        exact hf
      · rename_i u d2 heq
        rw [heq] at hf
        rw [ih]
        exact hf

theorem ignore_frame (n : Nat) (d : Decoder) : (ignore n d).state.noReader = d.noReader := by
  unfold ignore
  have h := unreadOvershoot_frame d
  split
  · rename_i e d1 heq
    rw [heq] at h; exact h
  · rename_i u d1 heq
    rw [heq] at h
    rw [ignoreLoop_frame]
    exact h

/-- The loop of `ignore` on a stream that holds the bytes to skip. -/
theorem ignoreLoop_ok (fuel : Nat) : ∀ (n : Nat) (d : Decoder),
    d.bytes.i ≤ d.bytes.j → n ≤ d.stream.length → 1 ≤ fuel →
    n + 1 ≤ fuel + (if d.bytes.i < d.bytes.j then 1 else 0) →
    ∃ d1, ignoreLoop fuel n d = .ok () d1 ∧
      SameButBytes d d1 ∧ d1.stream = d.stream.drop n ∧ d1.bytes.i ≤ d1.bytes.j ∧
      d1.bytes.nUnreadable = d.bytes.nUnreadable := by
  induction fuel with
  | zero => intro _ _ _ _ h; omega
  | succ fuel ih =>
    intro n d hle hlen _ hfuel
    unfold ignoreLoop
    simp only
    have hst : d.stream = slice d.bytes.buf d.bytes.i (d.bytes.j - d.bytes.i) ++ d.r.rest := rfl
    have hlen1 : (slice d.bytes.buf d.bytes.i (d.bytes.j - d.bytes.i)).length
        = d.bytes.j - d.bytes.i := slice_length _ _ _
    by_cases hn : n - min (d.bytes.j - d.bytes.i) n = 0
    · simp only [hn, if_true]
      have hmin : min (d.bytes.j - d.bytes.i) n = n := by omega
      have hsplit : d.bytes.j - d.bytes.i = n + (d.bytes.j - (d.bytes.i + n)) := by omega
      have hdrop : d.stream.drop n =
          slice d.bytes.buf (d.bytes.i + n) (d.bytes.j - (d.bytes.i + n)) ++ d.r.rest := by
        have hst2 : d.stream = slice d.bytes.buf d.bytes.i n ++
            (slice d.bytes.buf (d.bytes.i + n) (d.bytes.j - (d.bytes.i + n)) ++ d.r.rest) := by
          unfold Decoder.stream
          rw [hsplit, slice_add, List.append_assoc]
        rw [hst2, List.drop_left' (slice_length _ _ _)]
      rw [hmin, hdrop]
      exact ⟨_, rfl, rfl, rfl, by show d.bytes.i + n ≤ d.bytes.j; omega, rfl⟩
    · simp only [hn, if_false]
      have hmin : min (d.bytes.j - d.bytes.i) n = d.bytes.j - d.bytes.i := by omega
      have hlt : d.bytes.j - d.bytes.i < n := by omega
      have hr : d.r.rest ≠ [] := by
        intro h0
        rw [hst, h0, List.append_nil, hlen1] at hlen
        omega
      rw [hmin]
      let d0 : Decoder := { d with bytes := { d.bytes with i := d.bytes.i + (d.bytes.j - d.bytes.i) } }
      have hij0 : d0.bytes.i = d0.bytes.j := by show d.bytes.i + (d.bytes.j - d.bytes.i) = d.bytes.j; omega
      obtain ⟨d1, hf, hsame, hst1, hlt1, hnu1⟩ := fill_ok d0 hij0 hr
      have hf' : fill { d with bytes := { d.bytes with i := d.bytes.i + (d.bytes.j - d.bytes.i) } }
          = .ok () d1 := hf
      rw [hf']
      simp only
      have hlen2 : n - (d.bytes.j - d.bytes.i) ≤ d1.stream.length := by
        rw [hst1]
        show _ ≤ d.r.rest.length
        rw [hst, List.length_append, hlen1] at hlen
        omega
      obtain ⟨d2, hrec, hsame2, hst2, hle2, hnu2⟩ :=
        ih (n - (d.bytes.j - d.bytes.i)) d1 (Nat.le_of_lt hlt1) hlen2
          (by split at hfuel <;> omega)
          (by simp only [hlt1, if_true]; split at hfuel <;> omega)
      refine ⟨d2, hrec, ?_, ?_, hle2, ?_⟩
      · exact sameBytes_trans (sameBytes_trans (show SameButBytes d d0 from rfl) hsame) hsame2
      · rw [hst2, hst1, hst]
        show _ = List.drop n _
        rw [drop_append_of_le _ _ _ (by rw [hlen1]; omega), hlen1]
      · rw [hnu2, hnu1]

theorem ignore_ok (n : Nat) (d : Decoder) (hle : d.bytes.i ≤ d.bytes.j)
    (hnu : d.bytes.nUnreadable = 0) (hlen : n ≤ d.stream.length) :
    ∃ d1, ignore n d = .ok () d1 ∧ SameButBytes d d1 ∧
      d1.stream = d.stream.drop n ∧ d1.bytes.i ≤ d1.bytes.j ∧ d1.bytes.nUnreadable = 0 := by
  obtain ⟨d1, h1, h2, h3, h4, h5⟩ := ignoreLoop_ok (n + 1) n d hle hlen (by omega)
    (by split <;> omega)
  refine ⟨d1, ?_, h2, h3, h4, by rw [h5, hnu]⟩
  unfold ignore
  rw [unreadOvershoot_id d hnu]
  exact h1

theorem jfifTag_iff (a b c e f : Byte) (q : List Byte) :
    (a.val = 0x4a ∧ b.val = 0x46 ∧ c.val = 0x49 ∧ e.val = 0x46 ∧ f.val = 0x00) ↔
      (a :: b :: c :: e :: f :: q).take 5 = jfifTag := by
  have h1 : ∀ (x : Byte) (n : Nat), n < 256 → (x.val = n ↔ x = byte n) := by
    intro x n hn
    constructor
    · intro h
      apply Fin.ext
      show x.val = n % 256
      omega
    · intro h
      rw [h]
      show n % 256 = n
      omega
  simp only [List.take_succ_cons, List.take_zero, jfifTag, bytesOf, List.map_cons, List.map_nil,
    List.cons.injEq, and_true]
  rw [h1 a _ (by decide), h1 b _ (by decide), h1 c _ (by decide), h1 e _ (by decide),
    h1 f _ (by decide)]

theorem processApp0Marker_short (n : Nat) (d : Decoder) (hn : n < 5) :
    processApp0Marker n d = ignore n d := by
  unfold processApp0Marker
  simp only [hn, if_true]

/-- C37 (counterexample): a decoder already marked as JFIF that processes an
APP0 payload of the five bytes `JFXX\0` succeeds and is no longer marked. -/
theorem app0_clears_jfif :
    jfxxDecoder.jfif = true ∧ (processApp0Marker 5 jfxxDecoder).err? = none ∧
      (processApp0Marker 5 jfxxDecoder).state.jfif = false := by
  decide!

/-- C37 (amended): on a decoder whose input starts with the `n` payload bytes
`p`, `processApp0Marker n` succeeds and consumes exactly the payload; when
`n < 5` the JFIF flag is left as it was, and when `n ≥ 5` the flag is assigned:
it is true exactly when the first five payload bytes are `JFIF\0`, whatever it
was before. Apart from the flag, only the byte reader and `tmp` change. -/
theorem app0_sets_jfif (n : Nat) (d : Decoder) (p rest : List Byte)
    (hle : d.bytes.i ≤ d.bytes.j) (hnu : d.bytes.nUnreadable = 0)
    (hst : d.stream = p ++ rest) (hp : p.length = n) :
    ∃ d1, processApp0Marker n d = .ok () d1 ∧ d1.stream = rest ∧
      d1.jfif = (if n < 5 then d.jfif else decide (p.take 5 = jfifTag)) ∧
      ({ d1 with jfif := d.jfif } : Decoder).noReader = d.noReader := by
  have hdrop : d.stream.drop n = rest := by
    rw [hst, List.drop_left' hp]
  by_cases hn : n < 5
  · obtain ⟨d1, h1, h2, h3, h4, h5⟩ := ignore_ok n d hle hnu
      (by rw [hst, List.length_append]; omega)
    have hf := ignore_frame n d
    rw [h1] at hf
    have hf1 : d1.noReader = d.noReader := hf
    have hj : d1.jfif = d.jfif := noReader_jfif hf1
    refine ⟨d1, ?_, by rw [h3, hdrop], ?_, ?_⟩
    · rw [processApp0Marker_short n d hn, h1]
    · simp only [hn, if_true]; exact hj
    · rw [← hj]; exact hf1
  · obtain ⟨a, b, c, e, f, q, rfl⟩ : ∃ a b c e f q, p = a :: b :: c :: e :: f :: q := by
      match p, hp with
      | a :: b :: c :: e :: f :: q, _ => exact ⟨a, b, c, e, f, q, rfl⟩
      | [], h | [_], h | [_, _], h | [_, _, _], h | [_, _, _, _], h =>
        simp only [List.length_cons, List.length_nil] at h; omega
    obtain ⟨d0, h1, h2, h3, h4, h5⟩ := readFullTmp_ok 5 d hle hnu
      (by rw [hst]; simp only [List.length_cons, List.length_append]; omega)
    have hfr := readFullTmp_frame 5 d
    rw [h1] at hfr
    rw [hst] at h1 h3
    simp only [List.cons_append, List.take_succ_cons, List.take_zero, List.drop_succ_cons,
      List.drop_zero] at h1 h3
    let t : Nat → Byte := blit d.tmp 0 [a, b, c, e, f]
    have t0 : blit d.tmp 0 [a, b, c, e, f] 0 = a := rfl
    have t1 : blit d.tmp 0 [a, b, c, e, f] 1 = b := rfl
    have t2 : blit d.tmp 0 [a, b, c, e, f] 2 = c := rfl
    have t3 : blit d.tmp 0 [a, b, c, e, f] 3 = e := rfl
    have t4 : blit d.tmp 0 [a, b, c, e, f] 4 = f := rfl
    let d2 : Decoder := { d0 with tmp := t, jfif := decide ((a :: b :: c :: e :: f :: q).take 5 = jfifTag) }
    have hd2 : ({ d2 with jfif := d.jfif } : Decoder).noReader = d.noReader := by
      have hj : ({ d0 with tmp := t } : Decoder).jfif = d.jfif := noReader_jfif hfr
      have e1 : ({ d2 with jfif := d.jfif } : Decoder) = { d0 with tmp := t } := by
        show ({ d0 with tmp := t, jfif := d.jfif } : Decoder) = _
        rw [← hj]
      rw [e1]; exact hfr
    have hpm : processApp0Marker n d =
        (if n - 5 > 0 then ignore (n - 5) d2 else .ok () d2) := by
      unfold processApp0Marker
      simp only [hn, if_false]
      rw [h1]
      simp only [t0, t1, t2, t3, t4]
      have := jfifTag_iff a b c e f q
      simp only [this]
    rw [hpm]
    simp only [hn, if_false]
    by_cases h5' : n - 5 > 0
    · simp only [h5', if_true]
      have hst2 : d2.stream = q ++ rest := h3
      have hq : q.length = n - 5 := by
        simp only [List.length_cons] at hp; omega
      obtain ⟨d3, g1, g2, g3, g4, g5⟩ := ignore_ok (n - 5) d2 h4 h5
        (by rw [hst2, List.length_append]; omega)
      have gf := ignore_frame (n - 5) d2
      rw [g1] at gf
      have gf1 : d3.noReader = d2.noReader := gf
      have gj : d3.jfif = d2.jfif := noReader_jfif gf1
      refine ⟨d3, g1, ?_, gj, ?_⟩
      · rw [g3, hst2, List.drop_left' hq]
      · have : ({ d3 with jfif := d.jfif } : Decoder).noReader
            = ({ d2 with jfif := d.jfif } : Decoder).noReader := by
          show ({ d3.noReader with jfif := d.jfif } : Decoder) = { d2.noReader with jfif := d.jfif }
          rw [gf1]
        rw [this]; exact hd2
    · simp only [h5', if_false]
      have hq : q = [] := by
        simp only [List.length_cons] at hp
        have : q.length = 0 := by omega
        exact List.length_eq_zero.mp this
      refine ⟨d2, rfl, ?_, rfl, hd2⟩
      show d0.stream = rest
      rw [h3, hq, List.nil_append]

theorem app0_sets_jfif_witness :
    jfxxDecoder.bytes.i ≤ jfxxDecoder.bytes.j ∧ jfxxDecoder.bytes.nUnreadable = 0 ∧
    jfxxDecoder.stream = bytesOf [0x4a, 0x46, 0x58, 0x58, 0x00] ++ [] ∧
    (bytesOf [0x4a, 0x46, 0x58, 0x58, 0x00]).length = 5 ∧
    ∃ d1, processApp0Marker 5 jfxxDecoder = .ok () d1 ∧ d1.stream = [] ∧
      d1.jfif = (if 5 < 5 then jfxxDecoder.jfif
        else decide ((bytesOf [0x4a, 0x46, 0x58, 0x58, 0x00]).take 5 = jfifTag)) ∧
      ({ d1 with jfif := jfxxDecoder.jfif } : Decoder).noReader = jfxxDecoder.noReader :=
  ⟨by decide, rfl, rfl, rfl,
    app0_sets_jfif 5 jfxxDecoder (bytesOf [0x4a, 0x46, 0x58, 0x58, 0x00]) [] (by decide) rfl rfl rfl⟩

theorem byte_header (x : Byte) : byte ((x.val >>> 4) * 16 + (x.val &&& 0x0f)) = x := by
  revert x; decide!

theorem dqtPayload_length_cons (e : DqtEntry) (es : List DqtEntry) (h : e.Complete) :
    65 ≤ (dqtPayload (e :: es)).length := by
  rw [dqtPayload_cons]
  simp only [List.length_cons, List.length_append]
  obtain ⟨-, ⟨-, h⟩ | ⟨-, h⟩⟩ := h <;> omega

/-- One round of the loop of `processDQT` on a complete entry. -/
theorem dqtLoop_step (f n : Nat) (d : Decoder) (x : Byte) (vals rest : List Byte)
    (hle : d.bytes.i ≤ d.bytes.j) (hst : d.stream = x :: (vals ++ rest))
    (htq : x.val &&& 0x0f ≤ 3)
    (hpq : (x.val >>> 4 = 0 ∧ vals.length = 64) ∨ (x.val >>> 4 = 1 ∧ vals.length = 128))
    (hn : 1 + vals.length ≤ n) :
    ∃ d1, dqtLoop (f + 1) n d = dqtLoop f (n - 1 - vals.length) d1 ∧ d1.stream = rest ∧
      d1.bytes.i ≤ d1.bytes.j := by
  obtain ⟨d1, r1, r2, r3, r4, r5⟩ := readByte_cons d hle x (vals ++ rest) hst
  rw [dqtLoop]
  rw [if_pos (by omega), r1]
  simp only [maxTq]
  rw [if_neg (by omega)]
  rcases hpq with ⟨hp, hlen⟩ | ⟨hp, hlen⟩
  · simp only [hp, blockSize]
    rw [if_neg (by omega)]
    obtain ⟨d2, s1, s2, s3, s4, s5⟩ := readFullTmp_ok 64 d1 r4 r5
      (by rw [r3]; simp only [List.length_append]; omega)
    rw [s1]
    simp only
    rw [hlen]
    refine ⟨_, rfl, ?_, s4⟩
    show d2.stream = rest
    rw [s3, r3, List.drop_left' hlen]
  · simp only [hp, blockSize]
    rw [if_neg (by omega)]
    obtain ⟨d2, s1, s2, s3, s4, s5⟩ := readFullTmp_ok (2 * 64) d1 r4 r5
      (by rw [r3]; simp only [List.length_append]; omega)
    rw [s1]
    simp only
    rw [hlen]
    refine ⟨_, rfl, ?_, s4⟩
    show d2.stream = rest
    rw [s3, r3, List.drop_left' hlen]

/-- The loop of `processDQT` on a header byte that is not followed by a full
table: the outcome depends only on the number of bytes left. -/
theorem dqtLoop_short (f n : Nat) (d : Decoder) (x : Byte) (rest : List Byte)
    (hle : d.bytes.i ≤ d.bytes.j) (hst : d.stream = x :: rest)
    (htq : x.val &&& 0x0f ≤ 3)
    (hpq : (x.val >>> 4 = 0 ∧ n - 1 < 64) ∨ (x.val >>> 4 = 1 ∧ n - 1 < 128))
    (hn : 1 ≤ n) :
    (dqtLoop (f + 1) n d).err? =
      if n = 1 then none else some (.format "DQT has wrong length") := by
  obtain ⟨d1, r1, r2, r3, r4, r5⟩ := readByte_cons d hle x rest hst
  rw [dqtLoop]
  rw [if_pos (by omega), r1]
  simp only [maxTq]
  rw [if_neg (by omega)]
  rcases hpq with ⟨hp, hlen⟩ | ⟨hp, hlen⟩
  · simp only [hp, blockSize]
    rw [if_pos (by omega)]
    unfold dqtEnd
    by_cases h1 : n = 1
    · subst h1; rfl
    · rw [if_pos (by omega), if_neg h1]; rfl
  · simp only [hp, blockSize]
    rw [if_pos (by omega)]
    unfold dqtEnd
    by_cases h1 : n = 1
    · subst h1; rfl
    · rw [if_pos (by omega), if_neg h1]; rfl

theorem dqtLoop_prefix (es : List DqtEntry) : ∀ (fuel m : Nat) (d : Decoder) (rest : List Byte),
    (∀ e, e ∈ es → e.Complete) → d.bytes.i ≤ d.bytes.j →
    d.stream = dqtPayload es ++ rest → (dqtPayload es).length + m < fuel →
    ∃ f1 d1, dqtLoop fuel ((dqtPayload es).length + m) d = dqtLoop (f1 + 1) m d1 ∧
      d1.stream = rest ∧ d1.bytes.i ≤ d1.bytes.j := by
  induction es with
  | nil =>
    intro fuel m d rest _ hle hst hfuel
    obtain ⟨f, rfl⟩ : ∃ f, fuel = f + 1 := ⟨fuel - 1, by omega⟩
    refine ⟨f, d, ?_, by simpa [dqtPayload] using hst, hle⟩
    simp [dqtPayload]
  | cons e es ih =>
    intro fuel m d rest hwf hle hst hfuel
    obtain ⟨f, rfl⟩ : ∃ f, fuel = f + 1 := ⟨fuel - 1, by omega⟩
    obtain ⟨htq, hpq⟩ := hwf e (List.mem_cons_self _ _)
    have hwf' : ∀ e', e' ∈ es → e'.Complete := fun e' h => hwf e' (List.mem_cons_of_mem _ h)
    have hpq1 : e.pq ≤ 1 := by rcases hpq with ⟨h, -⟩ | ⟨h, -⟩ <;> omega
    obtain ⟨hx1, hx2⟩ := dqt_header e.pq e.tq hpq1 htq
    rw [dqtPayload_cons] at hst hfuel ⊢
    simp only [List.length_cons, List.length_append] at hfuel ⊢
    obtain ⟨d1, g1, g2, g3⟩ := dqtLoop_step f (e.vals.length + (dqtPayload es).length + 1 + m) d
      (byte (e.pq * 16 + e.tq)) e.vals (dqtPayload es ++ rest) hle
      (by rw [hst]; simp only [List.cons_append, List.append_assoc]) (by rw [hx1]; exact htq) (by rw [hx2]; exact hpq) (by omega)
    rw [g1]
    have hn : e.vals.length + (dqtPayload es).length + 1 + m - 1 - e.vals.length
        = (dqtPayload es).length + m := by omega
    rw [hn]
    exact ih f m d1 rest hwf' g3 g2 (by omega)

/-- A payload that `processDQT` accepts has the accepted shape. -/
theorem dqtLoop_accepted (fuel : Nat) : ∀ (p rest : List Byte) (d : Decoder),
    d.bytes.i ≤ d.bytes.j → d.stream = p ++ rest → p.length < fuel →
    (dqtLoop fuel p.length d).err? = none → DqtAccepted p := by
  induction fuel with
  | zero => intro p _ _ _ _ h; omega
  | succ f ih =>
    intro p rest d hle hst hfuel hok
    match p, hst, hfuel, hok with
    | [], _, _, _ => exact ⟨[], fun _ h => absurd h (List.not_mem_nil _), Or.inl rfl⟩
    | x :: q, hst, hfuel, hok =>
      simp only [List.length_cons] at hfuel hok
      by_cases htq : x.val &&& 0x0f ≤ 3
      · have hcase : x.val >>> 4 = 0 ∨ x.val >>> 4 = 1 ∨ 2 ≤ x.val >>> 4 := by omega
        have key : ∀ (pq len : Nat), (pq = 0 ∧ len = 64) ∨ (pq = 1 ∧ len = 128) →
            x.val >>> 4 = pq → DqtAccepted (x :: q) := by
          intro pq len hpl hp
          by_cases hshort : q.length < len
          · have h := dqtLoop_short f (q.length + 1) d x (q ++ rest) hle hst htq
              (by rcases hpl with ⟨h1, h2⟩ | ⟨h1, h2⟩
                  · left; exact ⟨by omega, by omega⟩
                  · right; exact ⟨by omega, by omega⟩) (by omega)
            rw [hok] at h
            have hq : q = [] := by
              by_cases h0 : q.length + 1 = 1
              · exact List.length_eq_zero.mp (by omega)
              · rw [if_neg h0] at h; cases h
            subst hq
            exact ⟨[], fun _ h => absurd h (List.not_mem_nil _),
              Or.inr ⟨x, htq, by omega, rfl⟩⟩
          · have hq : q = q.take len ++ q.drop len := (List.take_append_drop len q).symm
            have hlen : (q.take len).length = len := by
              rw [List.length_take]; omega
            obtain ⟨d1, g1, g2, g3⟩ := dqtLoop_step f (q.length + 1) d x (q.take len)
              (q.drop len ++ rest) hle
              (by rw [hst, ← List.append_assoc, List.take_append_drop]; rfl) htq
              (by rw [hlen, hp]; exact hpl) (by omega)
            rw [g1] at hok
            have hn : q.length + 1 - 1 - (q.take len).length = (q.drop len).length := by
              rw [hlen, List.length_drop]; omega
            rw [hn] at hok
            obtain ⟨es, hwf, hsh⟩ := ih (q.drop len) rest d1 g3 g2
              (by rw [List.length_drop]; omega) hok
            let e : DqtEntry := { pq := pq, tq := x.val &&& 0x0f, vals := q.take len }
            have he : e.Complete := ⟨htq, by
              rcases hpl with ⟨h1, h2⟩ | ⟨h1, h2⟩
              · left; exact ⟨h1, by show (q.take len).length = 64; omega⟩
              · right; exact ⟨h1, by show (q.take len).length = 128; omega⟩⟩
            have hcons : ∀ t, dqtPayload (e :: es) ++ t = x :: (q.take len ++ (dqtPayload es ++ t)) := by
              intro t
              rw [dqtPayload_cons]
              show byte (pq * 16 + (x.val &&& 0x0f)) :: _ ++ t = _
              rw [← hp, byte_header]
              simp only [List.cons_append, List.append_assoc]
            refine ⟨e :: es, ?_, ?_⟩
            · intro e' h'
              rcases List.mem_cons.mp h' with h | h
              · rw [h]; exact he
              · exact hwf e' h
            · rcases hsh with h | ⟨y, hy1, hy2, h⟩
              · left
                have := hcons []
                rw [List.append_nil, List.append_nil] at this
                rw [this, ← h, List.take_append_drop]
              · right
                refine ⟨y, hy1, hy2, ?_⟩
                rw [hcons [y], ← h, List.take_append_drop]
        rcases hcase with h0 | h1 | h2
        · exact key 0 64 (Or.inl ⟨rfl, rfl⟩) h0
        · exact key 1 128 (Or.inr ⟨rfl, rfl⟩) h1
        · exfalso
          obtain ⟨d1, r1, r2, r3, r4, r5⟩ := readByte_cons d hle x (q ++ rest) hst
          rw [dqtLoop, if_pos (by omega), r1] at hok
          simp only [maxTq] at hok
          rw [if_neg (by omega)] at hok
          obtain ⟨k, hk⟩ : ∃ k, x.val >>> 4 = k + 2 := ⟨x.val >>> 4 - 2, by omega⟩
          rw [hk] at hok
          cases hok
      · exfalso
        obtain ⟨d1, r1, r2, r3, r4, r5⟩ := readByte_cons d hle x (q ++ rest) hst
        rw [dqtLoop, if_pos (by omega), r1] at hok
        simp only [maxTq] at hok
        rw [if_pos (by omega)] at hok
        cases hok

theorem read_length (s : Source) (cap : Nat) (chunk : List Byte) (r1 : Source)
    (h : s.read cap = some (chunk, r1)) : chunk.length ≤ cap := by
  unfold Source.read at h
  split at h
  · cases h
  · simp only [Option.some.injEq, Prod.mk.injEq] at h
    rw [← h.1, List.length_take]
    omega

/-- A call of `fill` keeps the indices in range, keeps `k ≤ 2` consumed bytes
in the buffer and leaves `nUnreadable` alone. -/
theorem fill_low (k : Nat) (hk : k ≤ 2) (d : Decoder) (h : BufLow k d) :
    BufLow k (fill d).state ∧ (fill d).state.bytes.nUnreadable = d.bytes.nUnreadable := by
  obtain ⟨h1, h2, h3⟩ := h
  unfold fill
  by_cases hij : d.bytes.i ≠ d.bytes.j
  · rw [if_pos hij]
    exact ⟨⟨h1, h2, h3⟩, rfl⟩
  · rw [if_neg hij]
    by_cases hj : d.bytes.j > 2
    · simp only [hj, if_true]
      cases hr : d.r.read (4096 - 2) with
      | none => exact ⟨⟨hk, Nat.le_refl _, by show (2 : Nat) ≤ 4096; omega⟩, rfl⟩
      | some p =>
        obtain ⟨chunk, r1⟩ := p
        have := read_length _ _ _ _ hr
        exact ⟨⟨hk, by show 2 ≤ 2 + chunk.length; omega, by show 2 + chunk.length ≤ 4096; omega⟩,
          rfl⟩
    · simp only [hj, if_false]
      cases hr : d.r.read (4096 - d.bytes.j) with
      | none => exact ⟨⟨h1, h2, h3⟩, rfl⟩
      | some p =>
        obtain ⟨chunk, r1⟩ := p
        have := read_length _ _ _ _ hr
        exact ⟨⟨h1, by show d.bytes.i ≤ d.bytes.j + chunk.length; omega,
          by show d.bytes.j + chunk.length ≤ 4096; omega⟩, rfl⟩

theorem readByteLoop_low (k : Nat) (hk : k ≤ 2) (fuel : Nat) : ∀ (d : Decoder), BufLow k d →
    BufLow k (readByteLoop fuel d).state ∧
    (∀ x d1, readByteLoop fuel d = .ok x d1 → BufLow (k + 1) d1 ∧ d1.bytes.nUnreadable = 0) ∧
    ((readByteLoop fuel d).err? ≠ none →
      (readByteLoop fuel d).state.bytes.nUnreadable = d.bytes.nUnreadable) := by
  induction fuel with
  | zero =>
    intro d h
    exact ⟨h, (fun _ _ h => by cases h), fun _ => rfl⟩
  | succ f ih =>
    intro d h
    rw [readByteLoop]
    by_cases hij : d.bytes.i = d.bytes.j
    · rw [if_pos hij]
      obtain ⟨g1, g2⟩ := fill_low k hk d h
      cases hf : fill d with
      | fail e d1 =>
        rw [hf] at g1 g2
        exact ⟨g1, (fun _ _ h => by cases h), fun _ => g2⟩
      | ok u d1 =>
        rw [hf] at g1 g2
        obtain ⟨i1, i2, i3⟩ := ih d1 g1
        exact ⟨i1, i2, fun hne => (i3 hne).trans g2⟩
    · rw [if_neg hij]
      obtain ⟨h1, h2, h3⟩ := h
      have hb : BufLow (k + 1)
          { d with bytes := { d.bytes with i := d.bytes.i + 1, nUnreadable := 0 } } :=
        ⟨by show k + 1 ≤ d.bytes.i + 1; omega, by show d.bytes.i + 1 ≤ d.bytes.j; omega, h3⟩
      refine ⟨⟨by show k ≤ d.bytes.i + 1; omega, hb.2.1, h3⟩, ?_, ?_⟩
      · intro x d1 hx
        unfold takeByte at hx
        cases hx
        exact ⟨hb, rfl⟩
      · intro hne
        exact absurd rfl hne

theorem readByte_low (k : Nat) (hk : k ≤ 2) (d : Decoder) (h : BufLow k d) :
    BufLow k (readByte d).state ∧
    (∀ x d1, readByte d = .ok x d1 → BufLow (k + 1) d1 ∧ d1.bytes.nUnreadable = 0) ∧
    ((readByte d).err? ≠ none → (readByte d).state.bytes.nUnreadable = d.bytes.nUnreadable) :=
  readByteLoop_low k hk 2 d h

theorem bufInv_of_low (k : Nat) (d : Decoder) (h : BufLow k d) (hn : d.bytes.nUnreadable ≤ k)
    (hk : k ≤ 2) : BufInv d :=
  ⟨by omega, by have := h.1; omega, h.2.1, h.2.2⟩

theorem bufLow_of_inv (d : Decoder) (h : BufInv d) : BufLow d.bytes.nUnreadable d :=
  ⟨h.2.1, h.2.2.1, h.2.2.2⟩

theorem bufLow_zero (k : Nat) (d : Decoder) (h : BufLow k d) : BufLow 0 d :=
  ⟨Nat.zero_le _, h.2.1, h.2.2⟩

theorem fill_bufInv (d : Decoder) (h : BufInv d) : BufInv (fill d).state := by
  obtain ⟨g1, g2⟩ := fill_low d.bytes.nUnreadable h.1 d (bufLow_of_inv d h)
  exact bufInv_of_low d.bytes.nUnreadable _ g1 (by rw [g2]) h.1

theorem readByte_bufInv (d : Decoder) (h : BufInv d) : BufInv (readByte d).state := by
  obtain ⟨g1, g2, g3⟩ := readByte_low d.bytes.nUnreadable h.1 d (bufLow_of_inv d h)
  cases hr : readByte d with
  | fail e d1 =>
    rw [hr] at g1 g3
    exact bufInv_of_low d.bytes.nUnreadable _ g1 (by
      have := g3 (by simp [Result.err?]); simp only [Result.state] at this ⊢; omega) h.1
  | ok x d1 =>
    obtain ⟨a, b⟩ := g2 x d1 hr
    exact bufInv_of_low 0 _ (bufLow_zero _ _ a) (by show d1.bytes.nUnreadable ≤ 0; omega)
      (by decide)

theorem readByteStuffedByte_bufInv (d : Decoder) (h : BufInv d) :
    BufInv (readByteStuffedByte d).state := by
  obtain ⟨h1, h2, h3, h4⟩ := h
  unfold readByteStuffedByte
  by_cases hfast : d.bytes.i + 2 ≤ d.bytes.j
  · rw [if_pos hfast]
    simp only
    split
    · exact bufInv_of_low 1 _ ⟨by show 1 ≤ d.bytes.i + 1; omega,
        by show d.bytes.i + 1 ≤ d.bytes.j; omega, h4⟩ (Nat.le_refl _) (by decide)
    · split
      · exact bufInv_of_low 1 _ ⟨by show 1 ≤ d.bytes.i + 1; omega,
          by show d.bytes.i + 1 ≤ d.bytes.j; omega, h4⟩ (Nat.le_refl _) (by decide)
      · exact bufInv_of_low 2 _ ⟨by show 2 ≤ d.bytes.i + 1 + 1; omega,
          by show d.bytes.i + 1 + 1 ≤ d.bytes.j; omega, h4⟩ (Nat.le_refl _) (by decide)
  · rw [if_neg hfast]
    simp only
    have hd0 : BufLow 0 { d with bytes := { d.bytes with nUnreadable := 0 } } :=
      ⟨Nat.zero_le _, h3, h4⟩
    obtain ⟨a1, a2, a3⟩ := readByte_low 0 (by decide) _ hd0
    cases hr : readByte { d with bytes := { d.bytes with nUnreadable := 0 } } with
    | fail e d1 =>
      rw [hr] at a1 a3
      simp only
      exact bufInv_of_low 0 _ a1 (by
        have := a3 (by simp [Result.err?]); simp only [Result.state] at this
        exact Nat.le_of_eq this) (by decide)
    | ok x d1 =>
      obtain ⟨b1, b2⟩ := a2 x d1 hr
      simp only
      have hd2 : BufLow 1 { d1 with bytes := { d1.bytes with nUnreadable := 1 } } := b1
      split
      · exact bufInv_of_low 1 _ hd2 (Nat.le_refl _) (by decide)
      · obtain ⟨c1, c2, c3⟩ := readByte_low 1 (by decide) _ hd2
        cases hr2 : readByte { d1 with bytes := { d1.bytes with nUnreadable := 1 } } with
        | fail e d3 =>
          rw [hr2] at c1 c3
          simp only
          exact bufInv_of_low 1 _ c1 (by
            have := c3 (by simp [Result.err?]); simp only [Result.state] at this
            exact Nat.le_of_eq this) (by decide)
        | ok y d3 =>
          obtain ⟨e1, e2⟩ := c2 y d3 hr2
          simp only
          have hd4 : BufLow 2 { d3 with bytes := { d3.bytes with nUnreadable := 2 } } := e1
          split
          · exact bufInv_of_low 2 _ hd4 (Nat.le_refl _) (by decide)
          · exact bufInv_of_low 2 _ hd4 (Nat.le_refl _) (by decide)

theorem unread_bufInv (d : Decoder) (h : BufInv d) :
    BufLow 0 (unreadByteStuffedByte d).state ∧
      (unreadByteStuffedByte d).state.bytes.nUnreadable = 0 := by
  obtain ⟨h1, h2, h3, h4⟩ := h
  exact ⟨⟨Nat.zero_le _, by show d.bytes.i - d.bytes.nUnreadable ≤ d.bytes.j; omega, h4⟩, rfl⟩

theorem unreadOvershoot_low (d : Decoder) (h : BufInv d) :
    BufLow 0 (unreadOvershoot d).state ∧ (unreadOvershoot d).state.bytes.nUnreadable = 0 := by
  unfold unreadOvershoot
  by_cases hn : d.bytes.nUnreadable ≠ 0
  · rw [if_pos hn]
    by_cases hb : d.bits.n ≥ 8
    · simp only [hb, if_true]
      obtain ⟨a, -⟩ := unread_bufInv d h
      exact ⟨a, rfl⟩
    · simp only [hb, if_false]
      exact ⟨⟨Nat.zero_le _, h.2.2.1, h.2.2.2⟩, rfl⟩
  · rw [if_neg hn]
    exact ⟨⟨Nat.zero_le _, h.2.2.1, h.2.2.2⟩, by simpa using hn⟩

theorem readFullLoop_low (fuel : Nat) : ∀ (need : Nat) (acc : List Byte) (d : Decoder),
    BufLow 0 d → d.bytes.nUnreadable = 0 →
    BufLow 0 (readFullLoop fuel need acc d).state ∧
      (readFullLoop fuel need acc d).state.bytes.nUnreadable = 0 := by
  induction fuel with
  | zero => intro _ _ d h hn; exact ⟨h, hn⟩
  | succ f ih =>
    intro need acc d h hn
    obtain ⟨h1, h2, h3⟩ := h
    rw [readFullLoop]
    simp only
    have hd1 : BufLow 0 { d with bytes := { d.bytes with
        i := d.bytes.i + min need (d.bytes.j - d.bytes.i) } } :=
      ⟨Nat.zero_le _, by show d.bytes.i + min need (d.bytes.j - d.bytes.i) ≤ d.bytes.j; omega, h3⟩
    split
    · exact ⟨hd1, hn⟩
    · obtain ⟨g1, g2⟩ := fill_low 0 (by decide) _ hd1
      split
      · rename_i e d2 heq
        rw [heq] at g1 g2
        exact ⟨g1, g2.trans hn⟩
      · rename_i u d2 heq
        rw [heq] at g1 g2
        exact ih _ _ d2 g1 (g2.trans hn)

theorem readFull_bufInv (n : Nat) (d : Decoder) (h : BufInv d) :
    BufInv (readFull n d).state ∧ (readFull n d).state.bytes.nUnreadable = 0 := by
  obtain ⟨a, b⟩ := unreadOvershoot_low d h
  have hu := (unreadOvershoot_ok d).1
  unfold readFull
  rw [hu]
  simp only
  obtain ⟨g1, g2⟩ := readFullLoop_low (n + 1) n [] _ a b
  exact ⟨bufInv_of_low 0 _ g1 (by rw [g2]) (by decide), g2⟩

theorem ignoreLoop_low (fuel : Nat) : ∀ (n : Nat) (d : Decoder),
    BufLow 0 d → d.bytes.nUnreadable = 0 →
    BufLow 0 (ignoreLoop fuel n d).state ∧ (ignoreLoop fuel n d).state.bytes.nUnreadable = 0 := by
  induction fuel with
  | zero => intro _ d h hn; exact ⟨h, hn⟩
  | succ f ih =>
    intro n d h hn
    obtain ⟨h1, h2, h3⟩ := h
    rw [ignoreLoop]
    simp only
    have hd1 : BufLow 0 { d with bytes := { d.bytes with
        i := d.bytes.i + min (d.bytes.j - d.bytes.i) n } } :=
      ⟨Nat.zero_le _, by show d.bytes.i + min (d.bytes.j - d.bytes.i) n ≤ d.bytes.j; omega, h3⟩
    split
    · exact ⟨hd1, hn⟩
    · obtain ⟨g1, g2⟩ := fill_low 0 (by decide) _ hd1
      split
      · rename_i e d2 heq
        rw [heq] at g1 g2
        exact ⟨g1, g2.trans hn⟩
      · rename_i u d2 heq
        rw [heq] at g1 g2
        exact ih _ d2 g1 (g2.trans hn)

theorem ignore_bufInv (n : Nat) (d : Decoder) (h : BufInv d) :
    BufInv (ignore n d).state ∧ (ignore n d).state.bytes.nUnreadable = 0 := by
  obtain ⟨a, b⟩ := unreadOvershoot_low d h
  have hu := (unreadOvershoot_ok d).1
  unfold ignore
  rw [hu]
  simp only
  obtain ⟨g1, g2⟩ := ignoreLoop_low (n + 1) n _ a b
  exact ⟨bufInv_of_low 0 _ g1 (by rw [g2]) (by decide), g2⟩

theorem Result.val_none_of_err {α : Type} {r : Result α} {e : Err} (h : r.err? = some e) :
    r.val? = none := by
  cases r with
  | ok a d => cases h
  | fail e d => rfl

theorem stuff_single_length (b : Byte) : (stuff [b]).length ≤ 2 := by
  by_cases h : b.val = 0xff <;> simp [stuff, h]

/-- After a successful stuffed read the consumed bytes are the `nUnreadable`
bytes just before the read position. -/
theorem readByteStuffedByte_data_behind (d : Decoder) (hle : d.bytes.i ≤ d.bytes.j) (b : Byte)
    (s : List Byte) (hs : d.stream = stuff [b] ++ s) :
    ∃ d1, readByteStuffedByte d = .ok b d1 ∧ d1.stream = s ∧ d1.bytes.i ≤ d1.bytes.j ∧
      Behind d1 (stuff [b]) ∧ d1.bytes.nUnreadable = (stuff [b]).length := by
  unfold readByteStuffedByte
  by_cases hb : b.val = 0xff
  · have hbe : b = byte 0xff := Fin.ext hb
    have hst : stuff [b] = [byte 0xff, byte 0x00] := by rw [hbe]; rfl
    have hs2 : d.stream = byte 0xff :: byte 0x00 :: s := by
      rw [hs, hbe]; rfl
    rw [hst]
    by_cases hfast : d.bytes.i + 2 ≤ d.bytes.j
    · rw [if_pos hfast]
      have h2 := stream_two d hfast
      rw [hs2] at h2
      injection h2 with h0 h2
      injection h2 with h1 h2
      have e0 : (d.bytes.buf d.bytes.i).val = 0xff := by rw [← h0]; rfl
      have e1 : (d.bytes.buf (d.bytes.i + 1)).val = 0x00 := by rw [← h1]; rfl
      simp only [e0, e1, ne_eq, not_true_eq_false, if_false]
      rw [hbe]
      refine ⟨_, rfl, h2.symm, by show d.bytes.i + 1 + 1 ≤ d.bytes.j; omega, ?_, rfl⟩
      refine ⟨by show 2 ≤ d.bytes.i + 1 + 1; omega, ?_⟩
      show slice d.bytes.buf (d.bytes.i + 1 + 1 - 2) 2 = _
      have : d.bytes.i + 1 + 1 - 2 = d.bytes.i := by omega
      rw [this, slice_succ, slice_succ, slice_zero, ← h0, ← h1]
    · rw [if_neg hfast]
      obtain ⟨d1, hr1, hsame1, hst1, hle1, -, hb1⟩ :=
        readByte_cons_behind { d with bytes := { d.bytes with nUnreadable := 0 } } hle (byte 0xff)
          (byte 0x00 :: s) hs2 [] (by simp) (behind_nil _)
      obtain ⟨d3, hr3, hsame3, hst3, hle3, -, hb3⟩ :=
        readByte_cons_behind { d1 with bytes := { d1.bytes with nUnreadable := 1 } } hle1
          (byte 0x00) s hst1 ([] ++ [byte 0xff]) (by simp) hb1
      have e0 : (byte 0xff).val = 0xff := rfl
      have e1 : (byte 0x00).val = 0x00 := rfl
      simp only [hr1, hr3, e0, e1, ne_eq, not_true_eq_false, if_false]
      rw [hbe]
      exact ⟨_, rfl, hst3, hle3, hb3, rfl⟩
  · have hst : stuff [b] = [b] := by simp [stuff, hb]
    have hs2 : d.stream = b :: s := by
      rw [hs, hst]; rfl
    rw [hst]
    by_cases hfast : d.bytes.i + 2 ≤ d.bytes.j
    · rw [if_pos hfast]
      have h2 := stream_of_lt d (by omega)
      rw [hs2] at h2
      injection h2 with h0 h2
      have e0 : (d.bytes.buf d.bytes.i).val ≠ 0xff := by rw [← h0]; exact hb
      simp only [e0, ne_eq, not_false_eq_true, if_true]
      rw [← h0]
      refine ⟨_, rfl, h2.symm, by show d.bytes.i + 1 ≤ d.bytes.j; omega, ?_, rfl⟩
      refine ⟨by show 1 ≤ d.bytes.i + 1; omega, ?_⟩
      show slice d.bytes.buf (d.bytes.i + 1 - 1) 1 = _
      rw [Nat.add_sub_cancel, slice_succ, slice_zero, ← h0]
    · rw [if_neg hfast]
      obtain ⟨d1, hr1, hsame1, hst1, hle1, -, hb1⟩ :=
        readByte_cons_behind { d with bytes := { d.bytes with nUnreadable := 0 } } hle b s hs2 []
          (by simp) (behind_nil _)
      simp only [hr1, hb, ne_eq, not_false_eq_true, if_true]
      exact ⟨_, rfl, hst1, hle1, hb1, rfl⟩

/-- At the end of the input, also after a lone `FF`, a stuffed read fails with
`io.EOF`. -/
theorem readByteStuffedByte_eof (d : Decoder) (hle : d.bytes.i ≤ d.bytes.j)
    (hs : d.stream = [] ∨ d.stream = [byte 0xff]) :
    (readByteStuffedByte d).err? = some .eof := by
  obtain ⟨e, d1, h1, h2, -⟩ := readByteStuffedByte_stop d hle
    (by rcases hs with h | h
        · exact Or.inl h
        · exact Or.inr (Or.inl h))
  have hlen := stream_length_ge d
  have hfast : ¬ d.bytes.i + 2 ≤ d.bytes.j := by
    rcases hs with h | h <;> rw [h] at hlen <;> simp at hlen <;> omega
  unfold readByteStuffedByte
  rw [if_neg hfast]
  rcases hs with h0 | h1
  · obtain ⟨d1, hr1, -⟩ :=
      readByte_nil { d with bytes := { d.bytes with nUnreadable := 0 } } hle h0
    simp only [hr1]
    rfl
  · obtain ⟨d1, hr1, hsame1, hst1, hle1, -⟩ :=
      readByte_cons { d with bytes := { d.bytes with nUnreadable := 0 } } hle (byte 0xff) [] h1
    obtain ⟨d3, hr3, -⟩ :=
      readByte_nil { d1 with bytes := { d1.bytes with nUnreadable := 1 } } hle1 hst1
    have e0 : (byte 0xff).val = 0xff := rfl
    simp only [hr1, hr3, e0, ne_eq, not_true_eq_false, if_false]
    rfl

/-- A byte `FF` followed by a byte other than `00` makes a stuffed read fail
with the missing-`FF00` error. -/
theorem readByteStuffedByte_missing (d : Decoder) (hle : d.bytes.i ≤ d.bytes.j) (m : Byte)
    (rest : List Byte) (h2 : d.stream = byte 0xff :: m :: rest) (hm : m.val ≠ 0x00) :
    (readByteStuffedByte d).err? = some errMissingFF00 := by
  unfold readByteStuffedByte
  by_cases hfast : d.bytes.i + 2 ≤ d.bytes.j
  · rw [if_pos hfast]
    have h3 := stream_two d hfast
    rw [h2] at h3
    injection h3 with h30 h3
    injection h3 with h31 h3
    have e0 : (d.bytes.buf d.bytes.i).val = 0xff := by rw [← h30]; rfl
    have e1 : (d.bytes.buf (d.bytes.i + 1)).val ≠ 0x00 := by rw [← h31]; exact hm
    simp only [e0, e1, ne_eq, not_true_eq_false, if_false, not_false_eq_true, if_true]
    rfl
  · rw [if_neg hfast]
    obtain ⟨d1, hr1, hsame1, hst1, hle1, -⟩ :=
      readByte_cons { d with bytes := { d.bytes with nUnreadable := 0 } } hle
        (byte 0xff) (m :: rest) h2
    obtain ⟨d3, hr3, -⟩ :=
      readByte_cons { d1 with bytes := { d1.bytes with nUnreadable := 1 } } hle1 m rest hst1
    have e0 : (byte 0xff).val = 0xff := rfl
    simp only [hr1, hr3, e0, hm, ne_eq, not_true_eq_false, if_false, not_false_eq_true, if_true]
    rfl

theorem fill_nu (d : Decoder) : (fill d).state.bytes.nUnreadable = d.bytes.nUnreadable := by
  unfold fill
  split
  · rfl
  · simp only
    split
    · split <;> rfl
    · split <;> rfl

theorem readByteLoop_nu (fuel : Nat) : ∀ (d : Decoder),
    (readByteLoop fuel d).state.bytes.nUnreadable = 0 ∨
      (readByteLoop fuel d).state.bytes.nUnreadable = d.bytes.nUnreadable := by
  induction fuel with
  | zero => intro d; exact Or.inr rfl
  | succ f ih =>
    intro d
    rw [readByteLoop]
    split
    · have hf := fill_nu d
      split
      · rename_i e d1 heq
        rw [heq] at hf
        exact Or.inr hf
      · rename_i u d1 heq
        rw [heq] at hf
        rcases ih d1 with h | h
        · exact Or.inl h
        · exact Or.inr (h.trans hf)
    · exact Or.inl rfl

theorem readByteStuffedByte_nu (d : Decoder) :
    (readByteStuffedByte d).state.bytes.nUnreadable ≤ 2 := by
  unfold readByteStuffedByte
  split
  · simp only
    split
    · exact (by decide : (1 : Nat) ≤ 2)
    · split
      · exact (by decide : (1 : Nat) ≤ 2)
      · exact Nat.le_refl 2
  · simp only
    have h0 := readByteLoop_nu 2 { d with bytes := { d.bytes with nUnreadable := 0 } }
    split
    · rename_i e d1 heq
      have heq1 : readByteLoop 2 { d with bytes := { d.bytes with nUnreadable := 0 } }
          = .fail e d1 := heq
      rw [heq1] at h0
      have : d1.bytes.nUnreadable = 0 := by
        rcases h0 with h | h <;> exact h
      show d1.bytes.nUnreadable ≤ 2
      omega
    · rename_i x d1 heq
      split
      · exact (by decide : (1 : Nat) ≤ 2)
      · have h1 := readByteLoop_nu 2 { d1 with bytes := { d1.bytes with nUnreadable := 1 } }
        split
        · rename_i e d3 heq3
          have heq4 : readByteLoop 2 { d1 with bytes := { d1.bytes with nUnreadable := 1 } }
              = .fail e d3 := heq3
          rw [heq4] at h1
          have : d3.bytes.nUnreadable = 0 ∨ d3.bytes.nUnreadable = 1 := h1
          show d3.bytes.nUnreadable ≤ 2
          omega
        · split
          · exact Nat.le_refl 2
          · exact Nat.le_refl 2

/-- Whatever the outcome of a stuffed read, the bytes it has consumed are the
`nUnreadable` bytes just before the read position. -/
theorem readByteStuffedByte_behind (d : Decoder) (hle : d.bytes.i ≤ d.bytes.j) :
    ∃ l, Behind (readByteStuffedByte d).state l ∧
      (readByteStuffedByte d).state.bytes.nUnreadable = l.length ∧
      l ++ (readByteStuffedByte d).state.stream = d.stream ∧ l.length ≤ 2 ∧
      (readByteStuffedByte d).state.bytes.i ≤ (readByteStuffedByte d).state.bytes.j := by
  have hnu := readByteStuffedByte_nu d
  rcases stop_or_data d.stream with hstop | ⟨b, s, hs⟩
  · obtain ⟨e, d1, h1, -, -, h4, l, h5, h6, h7⟩ := readByteStuffedByte_stop d hle hstop
    rw [h1] at hnu ⊢
    exact ⟨l, h5, h6, h7, by rw [← h6]; exact hnu, h4⟩
  · obtain ⟨d1, h1, h2, h3, h4, h5⟩ := readByteStuffedByte_data_behind d hle b s hs
    rw [h1]
    exact ⟨stuff [b], h4, h5, by rw [hs]; show _ ++ d1.stream = _; rw [h2],
      stuff_single_length b, h3⟩

theorem stuffedRead_eq (d : Decoder) (l : List Byte)
    (h : l ++ (readByteStuffedByte d).state.stream = d.stream) : stuffedRead d = l := by
  unfold stuffedRead
  rw [← h, List.length_append, Nat.add_sub_cancel, List.take_left' rfl]

/-- The unread step puts the bytes behind the read position back in front of
the stream. -/
theorem unread_stream (d : Decoder) (l : List Byte) (hle : d.bytes.i ≤ d.bytes.j)
    (hb : Behind d l) (hn : d.bytes.nUnreadable = l.length) :
    (unreadByteStuffedByte d).state.stream = l ++ d.stream ∧
      (unreadByteStuffedByte d).state.bytes.i ≤ (unreadByteStuffedByte d).state.bytes.j ∧
      (unreadByteStuffedByte d).state.bytes.i + l.length = d.bytes.i ∧
      (unreadByteStuffedByte d).state.bytes.nUnreadable = 0 := by
  obtain ⟨hb1, hb2⟩ := hb
  refine ⟨?_, by show d.bytes.i - d.bytes.nUnreadable ≤ d.bytes.j; omega,
    by show d.bytes.i - d.bytes.nUnreadable + l.length = d.bytes.i; omega, rfl⟩
  show slice d.bytes.buf (d.bytes.i - d.bytes.nUnreadable)
    (d.bytes.j - (d.bytes.i - d.bytes.nUnreadable)) ++ d.r.rest = l ++ d.stream
  have e : d.bytes.j - (d.bytes.i - d.bytes.nUnreadable) = l.length + (d.bytes.j - d.bytes.i) := by
    omega
  rw [e, slice_add, hn, hb2]
  have e2 : d.bytes.i - l.length + l.length = d.bytes.i := by omega
  rw [e2, List.append_assoc]
  rfl

theorem reach_inv (r : Source) (d : Decoder) (l : List Byte) (h : Reach r d l) :
    BufInv d ∧ Behind d l ∧ d.bytes.nUnreadable = l.length := by
  induction h with
  | zero =>
    exact ⟨⟨Nat.zero_le _, Nat.le_refl _, Nat.le_refl _, Nat.zero_le _⟩, behind_nil _, rfl⟩
  | other d d1 l _ hb _ ih =>
    obtain ⟨⟨a1, a2, a3, a4⟩, ⟨b1, b2⟩, c⟩ := ih
    refine ⟨⟨?_, ?_, ?_, ?_⟩, ⟨?_, ?_⟩, ?_⟩ <;> rw [hb] <;> assumption
  | fill d l _ hij ih =>
    obtain ⟨a, b, c⟩ := ih
    have hl : l.length ≤ 2 := by rw [← c]; exact a.1
    refine ⟨fill_bufInv d a, ?_⟩
    by_cases hr : d.r.rest = []
    · obtain ⟨d1, g1, -, -, -, g5, g6⟩ := fill_eof_behind d hij hr l hl b
      rw [g1]
      exact ⟨g6, g5.trans c⟩
    · obtain ⟨d1, g1, -, -, -, g5, g6⟩ := fill_ok_behind d hij hr l hl b
      rw [g1]
      exact ⟨g6, g5.trans c⟩
  | readByte d l _ ih =>
    obtain ⟨a, b, c⟩ := ih
    have hl : l.length ≤ 2 := by rw [← c]; exact a.1
    refine ⟨readByte_bufInv d a, ?_⟩
    cases hs : d.stream with
    | nil =>
      obtain ⟨d1, g1, -, -, -, g5, g6⟩ := readByte_nil_behind d a.2.2.1 hs l hl b
      rw [g1]
      exact ⟨g6, g5.trans c⟩
    | cons x s =>
      obtain ⟨d1, g1, -, -, -, g5, -⟩ := readByte_cons_behind d a.2.2.1 x s hs l hl b
      rw [g1]
      exact ⟨behind_nil _, g5⟩
  | stuffed d l _ ih =>
    obtain ⟨a, -, -⟩ := ih
    obtain ⟨l1, g1, g2, g3, -, -⟩ := readByteStuffedByte_behind d a.2.2.1
    rw [stuffedRead_eq d l1 g3]
    exact ⟨readByteStuffedByte_bufInv d a, g1, g2⟩
  | readFull d l n _ ih =>
    obtain ⟨g1, g2⟩ := readFull_bufInv n d ih.1
    exact ⟨g1, behind_nil _, g2⟩
  | ignore d l n _ ih =>
    obtain ⟨g1, g2⟩ := ignore_bufInv n d ih.1
    exact ⟨g1, behind_nil _, g2⟩
  | unread d l _ ih =>
    obtain ⟨g1, g2⟩ := unread_bufInv d ih.1
    exact ⟨bufInv_of_low 0 _ g1 (by rw [g2]) (by decide), behind_nil _, g2⟩

/-- C35: in every state that the byte reader reaches from the zero decoder by
calls of `fill` (when `i = j`), `readByte`, `readByteStuffedByte`, `readFull`,
`ignore` and `unreadByteStuffedByte`, the indices satisfy
`nUnreadable ≤ 2` and `nUnreadable ≤ i ≤ j ≤ 4096`, and
`buf[i-nUnreadable .. i)` holds the bytes `l` that the most recent stuffed read
consumed (a `fill` in between, also one between the `FF` and the byte after
it, keeps them); a stuffed read from such a state consumes a prefix of the
stream. -/
theorem byte_buffer_invariant (r : Source) (d : Decoder) (l : List Byte) (h : Reach r d l) :
    d.bytes.nUnreadable ≤ 2 ∧ d.bytes.nUnreadable ≤ d.bytes.i ∧ d.bytes.i ≤ d.bytes.j ∧
    d.bytes.j ≤ 4096 ∧ d.bytes.nUnreadable = l.length ∧
    slice d.bytes.buf (d.bytes.i - d.bytes.nUnreadable) d.bytes.nUnreadable = l ∧
    stuffedRead d ++ (readByteStuffedByte d).state.stream = d.stream := by
  obtain ⟨⟨a1, a2, a3, a4⟩, ⟨b1, b2⟩, c⟩ := reach_inv r d l h
  refine ⟨a1, a2, a3, a4, c, by rw [c]; exact b2, ?_⟩
  obtain ⟨l1, -, -, g3, -, -⟩ := readByteStuffedByte_behind d a3
  rw [stuffedRead_eq d l1 g3]
  exact g3

theorem byte_buffer_invariant_witness :
    Reach stuffedSource (readByteStuffedByte (zeroDecoder stuffedSource)).state
      (stuffedRead (zeroDecoder stuffedSource)) ∧
    stuffedRead (zeroDecoder stuffedSource) = bytesOf [0xff, 0x00] ∧
    ((readByteStuffedByte (zeroDecoder stuffedSource)).state.bytes.nUnreadable ≤ 2 ∧
      (readByteStuffedByte (zeroDecoder stuffedSource)).state.bytes.nUnreadable ≤
        (readByteStuffedByte (zeroDecoder stuffedSource)).state.bytes.i ∧
      (readByteStuffedByte (zeroDecoder stuffedSource)).state.bytes.i ≤
        (readByteStuffedByte (zeroDecoder stuffedSource)).state.bytes.j ∧
      (readByteStuffedByte (zeroDecoder stuffedSource)).state.bytes.j ≤ 4096 ∧
      (readByteStuffedByte (zeroDecoder stuffedSource)).state.bytes.nUnreadable =
        (stuffedRead (zeroDecoder stuffedSource)).length ∧
      slice (readByteStuffedByte (zeroDecoder stuffedSource)).state.bytes.buf
        ((readByteStuffedByte (zeroDecoder stuffedSource)).state.bytes.i -
          (readByteStuffedByte (zeroDecoder stuffedSource)).state.bytes.nUnreadable)
        (readByteStuffedByte (zeroDecoder stuffedSource)).state.bytes.nUnreadable =
        stuffedRead (zeroDecoder stuffedSource) ∧
      stuffedRead (readByteStuffedByte (zeroDecoder stuffedSource)).state ++
        (readByteStuffedByte (readByteStuffedByte (zeroDecoder stuffedSource)).state).state.stream =
        (readByteStuffedByte (zeroDecoder stuffedSource)).state.stream) :=
  ⟨Reach.stuffed _ _ Reach.zero, by decide!,
    byte_buffer_invariant stuffedSource _ _ (Reach.stuffed _ _ Reach.zero)⟩

/-- C33: on a decoder whose unread input starts with the byte `x`,
`readByteStuffedByte` returns `x` and consumes it when `x ≠ FF`; returns `FF`
and consumes two bytes when the input starts with `FF 00`; fails with the
format error "missing 0xff00 sequence" when it starts with `FF` and a byte other
than `00`; and two decoders with the same unread input, however it is split
between the buffer and the source (fast path or slow path), get the same
value and the same error. -/
theorem stuffed_byte_cases (d : Decoder) (hle : d.bytes.i ≤ d.bytes.j) :
    (∀ x s, d.stream = x :: s → x.val ≠ 0xff →
      ∃ d1, readByteStuffedByte d = .ok x d1 ∧ d1.stream = s) ∧
    (∀ s, d.stream = byte 0xff :: byte 0x00 :: s →
      ∃ d1, readByteStuffedByte d = .ok (byte 0xff) d1 ∧ d1.stream = s) ∧
    (∀ y s, d.stream = byte 0xff :: y :: s → y.val ≠ 0x00 →
      ∃ d1, readByteStuffedByte d = .fail (.format "missing 0xff00 sequence") d1) ∧
    (∀ d2 : Decoder, d2.bytes.i ≤ d2.bytes.j → d2.stream = d.stream →
      (readByteStuffedByte d2).val? = (readByteStuffedByte d).val? ∧
      (readByteStuffedByte d2).err? = (readByteStuffedByte d).err?) := by
  refine ⟨?_, ?_, ?_, ?_⟩
  · intro x s hs hx
    obtain ⟨d1, h1, -, h3, -⟩ := readByteStuffedByte_data d hle x s
      (by rw [hs]; simp [stuff, hx])
    exact ⟨d1, h1, h3⟩
  · intro s hs
    obtain ⟨d1, h1, -, h3, -⟩ := readByteStuffedByte_data d hle (byte 0xff) s
      (by rw [hs]; rfl)
    exact ⟨d1, h1, h3⟩
  · intro y s hs hy
    have h := readByteStuffedByte_missing d hle y s hs hy
    cases hr : readByteStuffedByte d with
    | ok a d1 => rw [hr] at h; cases h
    | fail e d1 =>
      rw [hr] at h
      simp only [Result.err?, Option.some.injEq] at h
      rw [h]
      exact ⟨d1, rfl⟩
  · intro d2 hle2 hst
    rcases stop_or_data d.stream with hstop | ⟨b, s, hs⟩
    · have key : ∀ e, (readByteStuffedByte d).err? = some e →
          (readByteStuffedByte d2).err? = some e →
          (readByteStuffedByte d2).val? = (readByteStuffedByte d).val? ∧
          (readByteStuffedByte d2).err? = (readByteStuffedByte d).err? := by
        intro e h1 h2
        rw [Result.val_none_of_err h1, Result.val_none_of_err h2, h1, h2]
        exact ⟨rfl, rfl⟩
      rcases hstop with h0 | h0 | ⟨m, rest, h0, hm⟩
      · exact key _ (readByteStuffedByte_eof d hle (Or.inl h0))
          (readByteStuffedByte_eof d2 hle2 (Or.inl (hst.trans h0)))
      · exact key _ (readByteStuffedByte_eof d hle (Or.inr h0))
          (readByteStuffedByte_eof d2 hle2 (Or.inr (hst.trans h0)))
      · exact key _ (readByteStuffedByte_missing d hle m rest h0 hm)
          (readByteStuffedByte_missing d2 hle2 m rest (hst.trans h0) hm)
    · obtain ⟨d1, h1, -⟩ := readByteStuffedByte_data d hle b s hs
      obtain ⟨d3, h3, -⟩ := readByteStuffedByte_data d2 hle2 b s (hst.trans hs)
      rw [h1, h3]
      exact ⟨rfl, rfl⟩

theorem stuffed_byte_cases_witness :
    (zeroDecoder stuffedSource).bytes.i ≤ (zeroDecoder stuffedSource).bytes.j ∧
    (zeroDecoder stuffedSource).stream = byte 0xff :: byte 0x00 :: [byte 0x12] ∧
    ((∀ x s, (zeroDecoder stuffedSource).stream = x :: s → x.val ≠ 0xff →
      ∃ d1, readByteStuffedByte (zeroDecoder stuffedSource) = .ok x d1 ∧ d1.stream = s) ∧
    (∀ s, (zeroDecoder stuffedSource).stream = byte 0xff :: byte 0x00 :: s →
      ∃ d1, readByteStuffedByte (zeroDecoder stuffedSource) = .ok (byte 0xff) d1 ∧
        d1.stream = s) ∧
    (∀ y s, (zeroDecoder stuffedSource).stream = byte 0xff :: y :: s → y.val ≠ 0x00 →
      ∃ d1, readByteStuffedByte (zeroDecoder stuffedSource) =
        .fail (.format "missing 0xff00 sequence") d1) ∧
    (∀ d2 : Decoder, d2.bytes.i ≤ d2.bytes.j → d2.stream = (zeroDecoder stuffedSource).stream →
      (readByteStuffedByte d2).val? = (readByteStuffedByte (zeroDecoder stuffedSource)).val? ∧
      (readByteStuffedByte d2).err? = (readByteStuffedByte (zeroDecoder stuffedSource)).err?)) :=
  ⟨by decide, rfl, stuffed_byte_cases (zeroDecoder stuffedSource) (by decide)⟩

theorem Result.eq_fail_of_err {α : Type} {r : Result α} {e : Err} (h : r.err? = some e) :
    r = .fail e r.state := by
  cases r with
  | ok a d => cases h
  | fail e1 d =>
    simp only [Result.err?, Option.some.injEq] at h
    rw [h]; rfl

theorem mod_refill (a c k : Nat) (hc : c < 256) (hk : k ≤ 24) :
    ((((a <<< 8) % 4294967296) ||| c) >>> 8) % 2 ^ k = a % 2 ^ k := by
  apply Nat.eq_of_testBit_eq
  intro j
  rw [Nat.testBit_mod_two_pow, Nat.testBit_mod_two_pow]
  by_cases hj : j < k
  · rw [testBit_refill a c j hc (by omega)]
  · simp [hj]

/-- C34: from a state with the accumulator invariant and `n ≤ 15`, a successful
`readByteStuffedByte` whose byte `c` is shifted into the accumulator as
`ensureNBits` does it, followed by `unreadByteStuffedByte`, restores the unread
input (the read position goes back by one byte for a plain byte, by two for
`FF 00`), restores `n` and `m`, and the low `n` bits of `a`; and after a
`readByteStuffedByte` that failed with the missing-`FF00` error,
`unreadByteStuffedByte` restores the unread input, which starts with the `FF`,
whether the bytes were buffered or had to be fetched. -/
theorem unread_undoes_refill (d : Decoder) (hinv : BitsInv d.bits) (hn : d.bits.n ≤ 15)
    (hle : d.bytes.i ≤ d.bytes.j) :
    (∀ c d1, readByteStuffedByte d = .ok c d1 →
      ensureNBitsLoop 1 (d.bits.n + 8) d = .ok () { d1 with bits := refillBits d.bits c.val } ∧
      (unreadByteStuffedByte { d1 with bits := refillBits d.bits c.val }).state.stream
        = d.stream ∧
      (unreadByteStuffedByte { d1 with bits := refillBits d.bits c.val }).state.bytes.i
        + (if c.val = 0xff then 2 else 1) = d1.bytes.i ∧
      (unreadByteStuffedByte { d1 with bits := refillBits d.bits c.val }).state.bits.n
        = d.bits.n ∧
      (unreadByteStuffedByte { d1 with bits := refillBits d.bits c.val }).state.bits.m
        = d.bits.m ∧
      (unreadByteStuffedByte { d1 with bits := refillBits d.bits c.val }).state.bits.a
        % 2 ^ d.bits.n.toNat = d.bits.a % 2 ^ d.bits.n.toNat) ∧
    (∀ d1, readByteStuffedByte d = .fail errMissingFF00 d1 →
      (unreadByteStuffedByte d1).state.stream = d.stream ∧
      ∃ y s, d.stream = byte 0xff :: y :: s ∧ y.val ≠ 0x00) := by
  constructor
  · intro c d1 hr
    rcases stop_or_data d.stream with hstop | ⟨b, s, hs⟩
    · obtain ⟨e, d2, h1, -⟩ := readByteStuffedByte_stop d hle hstop
      rw [h1] at hr; cases hr
    · obtain ⟨d2, h1, h2, h3, h4, h5⟩ := readByteStuffedByte_data_behind d hle b s hs
      obtain ⟨d2', h1', hsame, -⟩ := readByteStuffedByte_data d hle b s hs
      rw [h1] at hr h1'
      injection hr with hc hd
      injection h1' with _ hd'
      subst hc hd hd'
      have hbits : d2.bits = d.bits := sameBytes_bits hsame
      obtain ⟨k, hk, hkn, hkm⟩ := (bitsInv_iff d.bits).mp hinv
      have hk15 : k ≤ 15 := by omega
      have hb2 : Behind ({ d2 with bits := refillBits d.bits b.val } : Decoder) (stuff [b]) := h4
      obtain ⟨u1, u2, u3, u4⟩ := unread_stream { d2 with bits := refillBits d.bits b.val }
        (stuff [b]) h3 hb2 h5
      have hn8 : (refillBits d.bits b.val).n ≥ 8 := by
        show d.bits.n + 8 ≥ 8
        omega
      have hub : (unreadByteStuffedByte { d2 with bits := refillBits d.bits b.val }).state.bits
          = { a := (refillBits d.bits b.val).a >>> 8, n := (refillBits d.bits b.val).n - 8,
              m := (refillBits d.bits b.val).m >>> 8 } := by
        unfold unreadByteStuffedByte
        simp only [Result.state]
        rw [if_pos hn8]
      refine ⟨?_, ?_, ?_, ?_, ?_, ?_⟩
      · rw [ensureNBitsLoop_succ, h1]
        simp only [hbits]
        rw [if_pos (by show d.bits.n + 8 ≥ d.bits.n + 8; omega)]
      · rw [u1, hs]
        show _ ++ d2.stream = _
        rw [h2]
      · rw [← u3]
        by_cases hb : b.val = 0xff
        · have : b = byte 0xff := Fin.ext hb
          subst this
          rfl
        · simp [stuff, hb]
      · rw [hub]
        show d.bits.n + 8 - 8 = d.bits.n
        omega
      · rw [hub]
        show (if d.bits.m = 0 then 1 <<< 7 else (d.bits.m <<< 8) % 4294967296) >>> 8 = d.bits.m
        rw [hkm, mask_refill k hk15, mask_shiftRight (k + 8) 8 (by omega)]
        simp only [Nat.add_sub_cancel]
      · rw [hub, hkn]
        show ((((d.bits.a <<< 8) % 4294967296) ||| b.val) >>> 8) % 2 ^ k = _
        exact mod_refill d.bits.a b.val k b.isLt (by omega)
  · intro d1 hr
    obtain ⟨l, g1, g2, g3, -, g5⟩ := readByteStuffedByte_behind d hle
    rw [hr] at g1 g2 g3 g5
    obtain ⟨u1, -⟩ := unread_stream d1 l g5 g1 g2
    refine ⟨by rw [u1]; exact g3, ?_⟩
    rcases stop_or_data d.stream with hstop | ⟨b, s, hs⟩
    · rcases hstop with h0 | h0 | ⟨m, rest, h0, hm⟩
      · have := readByteStuffedByte_eof d hle (Or.inl h0)
        rw [hr] at this; cases this
      · have := readByteStuffedByte_eof d hle (Or.inr h0)
        rw [hr] at this; cases this
      · exact ⟨m, rest, h0, hm⟩
    · obtain ⟨d2, h1, -⟩ := readByteStuffedByte_data d hle b s hs
      rw [h1] at hr; cases hr

theorem unread_undoes_refill_witness :
    BitsInv (zeroDecoder stuffedSource).bits ∧ (zeroDecoder stuffedSource).bits.n ≤ 15 ∧
    (zeroDecoder stuffedSource).bytes.i ≤ (zeroDecoder stuffedSource).bytes.j ∧
    (readByteStuffedByte (zeroDecoder stuffedSource)).val? = some (byte 0xff) ∧
    ((∀ c d1, readByteStuffedByte (zeroDecoder stuffedSource) = .ok c d1 →
      ensureNBitsLoop 1 ((zeroDecoder stuffedSource).bits.n + 8) (zeroDecoder stuffedSource)
        = .ok () { d1 with bits := refillBits (zeroDecoder stuffedSource).bits c.val } ∧
      (unreadByteStuffedByte
        { d1 with bits := refillBits (zeroDecoder stuffedSource).bits c.val }).state.stream
        = (zeroDecoder stuffedSource).stream ∧
      (unreadByteStuffedByte
        { d1 with bits := refillBits (zeroDecoder stuffedSource).bits c.val }).state.bytes.i
        + (if c.val = 0xff then 2 else 1) = d1.bytes.i ∧
      (unreadByteStuffedByte
        { d1 with bits := refillBits (zeroDecoder stuffedSource).bits c.val }).state.bits.n
        = (zeroDecoder stuffedSource).bits.n ∧
      (unreadByteStuffedByte
        { d1 with bits := refillBits (zeroDecoder stuffedSource).bits c.val }).state.bits.m
        = (zeroDecoder stuffedSource).bits.m ∧
      (unreadByteStuffedByte
        { d1 with bits := refillBits (zeroDecoder stuffedSource).bits c.val }).state.bits.a
        % 2 ^ (zeroDecoder stuffedSource).bits.n.toNat
        = (zeroDecoder stuffedSource).bits.a % 2 ^ (zeroDecoder stuffedSource).bits.n.toNat) ∧
    (∀ d1, readByteStuffedByte (zeroDecoder stuffedSource) = .fail errMissingFF00 d1 →
      (unreadByteStuffedByte d1).state.stream = (zeroDecoder stuffedSource).stream ∧
      ∃ y s, (zeroDecoder stuffedSource).stream = byte 0xff :: y :: s ∧ y.val ≠ 0x00)) ∧
    (readByteStuffedByte (zeroDecoder markerSource)).err? = some errMissingFF00 ∧
    ((unreadByteStuffedByte (readByteStuffedByte (zeroDecoder markerSource)).state).state.stream
        = (zeroDecoder markerSource).stream ∧
      ∃ y s, (zeroDecoder markerSource).stream = byte 0xff :: y :: s ∧ y.val ≠ 0x00) :=
  ⟨by decide, by decide, by decide, by decide!,
    unread_undoes_refill (zeroDecoder stuffedSource) (by decide) (by decide) (by decide),
    by decide!,
    (unread_undoes_refill (zeroDecoder markerSource) (by decide) (by decide) (by decide)).2 _
      (Result.eq_fail_of_err (by decide!))⟩

theorem zeroPositions_end (b : Block) (zig zigEnd : Nat) (h : zigEnd < zig) :
    zeroPositions b zig zigEnd = [] := by
  unfold zeroPositions
  have : zigEnd + 1 - zig = 0 := by omega
  rw [this]; rfl

theorem zeroPositions_zero (b : Block) (zig zigEnd : Nat) (h : zig ≤ zigEnd)
    (hz : b (unzig zig) = 0) :
    zeroPositions b zig zigEnd = zig :: zeroPositions b (zig + 1) zigEnd := by
  unfold zeroPositions
  have : zigEnd + 1 - zig = (zigEnd + 1 - (zig + 1)) + 1 := by omega
  rw [this, List.range'_succ, List.filter_cons_of_pos (by simpa using hz)]

theorem zeroPositions_nonzero (b : Block) (zig zigEnd : Nat) (h : zig ≤ zigEnd)
    (hz : b (unzig zig) ≠ 0) :
    zeroPositions b zig zigEnd = zeroPositions b (zig + 1) zigEnd := by
  unfold zeroPositions
  have : zigEnd + 1 - zig = (zigEnd + 1 - (zig + 1)) + 1 := by omega
  rw [this, List.range'_succ, List.filter_cons_of_neg (by simpa using hz)]

theorem refineStop_range (b : Block) (zig zigEnd : Nat) (nz : Int) (h : zig ≤ zigEnd + 1) :
    zig ≤ refineStop b zig zigEnd nz ∧ refineStop b zig zigEnd nz ≤ zigEnd + 1 := by
  unfold refineStop
  by_cases hlt : nz.toNat < (zeroPositions b zig zigEnd).length
  · rw [List.getD_eq_getElem _ _ hlt]
    have hm : (zeroPositions b zig zigEnd)[nz.toNat] ∈ zeroPositions b zig zigEnd :=
      List.getElem_mem _
    generalize (zeroPositions b zig zigEnd)[nz.toNat] = x at hm ⊢
    unfold zeroPositions at hm
    rw [List.mem_filter, List.mem_range'_1] at hm
    omega
  · rw [List.getD_eq_default _ _ (by omega)]
    omega

theorem refinedCount_self (b : Block) (zig : Nat) : refinedCount b zig zig = 0 := by
  unfold refinedCount
  rw [Nat.sub_self]; rfl

theorem refinedCount_zero (b : Block) (zig stop : Nat) (h : zig < stop)
    (hz : b (unzig zig) = 0) : refinedCount b zig stop = refinedCount b (zig + 1) stop := by
  unfold refinedCount
  have : stop - zig = (stop - (zig + 1)) + 1 := by omega
  rw [this, List.range'_succ, List.filter_cons_of_neg (by simpa using hz)]

theorem refinedCount_nonzero (b : Block) (zig stop : Nat) (h : zig < stop)
    (hz : b (unzig zig) ≠ 0) : refinedCount b zig stop = refinedCount b (zig + 1) stop + 1 := by
  unfold refinedCount
  have : stop - zig = (stop - (zig + 1)) + 1 := by omega
  rw [this, List.range'_succ, List.filter_cons_of_pos (by simpa using hz), List.length_cons]

theorem nextBits_succ_ok (t : Nat) (d d1 : Decoder) (bs : List Bool)
    (h : nextBits (t + 1) d = .ok bs d1) :
    ∃ bit d2 bs1, decodeBit d = .ok bit d2 ∧ nextBits t d2 = .ok bs1 d1 ∧ bs = bit :: bs1 := by
  rw [nextBits] at h
  cases h1 : decodeBit d with
  | fail e d2 => rw [h1] at h; cases h
  | ok bit d2 =>
    rw [h1] at h
    simp only at h
    cases h2 : nextBits t d2 with
    | fail e d3 => rw [h2] at h; cases h
    | ok bs1 d3 =>
      rw [h2] at h
      simp only at h
      injection h with ha hb
      exact ⟨bit, d2, bs1, rfl, by rw [← hb]; exact h2, ha.symm⟩

/-- The loop of `refineNonZeroes`, for a current block `bc` that agrees with
the block `b0` of the call at the positions still to be visited. -/
theorem refineNonZeroesLoop_spec (b0 : Block) (zigEnd : Nat) (delta : Int) (d1 : Decoder)
    (hend : zigEnd ≤ 63) (hdelta : 0 < delta) (fuel : Nat) :
    ∀ (bc : Block) (zig : Nat) (nz : Int) (d : Decoder) (bs : List Bool),
    zig ≤ zigEnd + 1 → zigEnd + 2 - zig ≤ fuel → 0 ≤ nz → nz ≤ 2147483647 →
    (∀ z, zig ≤ z → z ≤ zigEnd → bc (unzig z) = b0 (unzig z)) →
    (∀ z, zig ≤ z → z ≤ zigEnd → |b0 (unzig z)| + delta ≤ 2147483647) →
    nextBits (refinedCount b0 zig (refineStop b0 zig zigEnd nz)) d = .ok bs d1 →
    ∃ b1, refineNonZeroesLoop zigEnd delta fuel bc zig nz d
        = .ok (b1, refineStop b0 zig zigEnd nz) d1 ∧
      (∀ u, (∀ z, zig ≤ z → z < refineStop b0 zig zigEnd nz → b0 (unzig z) ≠ 0 → unzig z ≠ u) →
        b1 u = bc u) ∧
      (∀ z, zig ≤ z → z < refineStop b0 zig zigEnd nz → b0 (unzig z) ≠ 0 →
        b1 (unzig z) = if bs.getD (refinedCount b0 zig z) false
          then awayFromZero (b0 (unzig z)) delta else b0 (unzig z)) := by
  induction fuel with
  | zero => intro _ zig _ _ _ h1 h2; omega
  | succ f ih =>
    intro bc zig nz d bs hzig hfuel hnz hnz2 hagree hrange hbits
    rw [refineNonZeroesLoop]
    by_cases hin : zig ≤ zigEnd
    · rw [if_pos hin]
      simp only
      have hu : bc (unzig zig) = b0 (unzig zig) := hagree zig (Nat.le_refl _) hin
      have hinj : ∀ z, zig + 1 ≤ z → z ≤ zigEnd → unzig z ≠ unzig zig := by
        intro z hz1 hz2 he
        have := unzig_inj z zig (by omega) (by omega) he
        omega
      by_cases hz : b0 (unzig zig) = 0
      · rw [if_pos (by rw [hu]; exact hz)]
        by_cases hnz0 : nz = 0
        · rw [if_pos hnz0]
          have hstop : refineStop b0 zig zigEnd nz = zig := by
            unfold refineStop
            rw [zeroPositions_zero b0 zig zigEnd hin hz, hnz0]
            rfl
          rw [hstop] at hbits ⊢
          rw [refinedCount_self] at hbits
          injection hbits with hb1 hb2
          subst hb2
          refine ⟨bc, rfl, fun _ _ => rfl, ?_⟩
          intro z h1 h2
          omega
        · rw [if_neg hnz0]
          have hnz1 : 1 ≤ nz := by omega
          have hi : i32 (nz - 1) = nz - 1 := i32_of_range _ (by omega) (by omega)
          rw [hi]
          have hstop : refineStop b0 zig zigEnd nz = refineStop b0 (zig + 1) zigEnd (nz - 1) := by
            unfold refineStop
            rw [zeroPositions_zero b0 zig zigEnd hin hz]
            have : nz.toNat = (nz - 1).toNat + 1 := by omega
            rw [this]
            rfl
          have hr := refineStop_range b0 (zig + 1) zigEnd (nz - 1) (by omega)
          rw [hstop] at hbits ⊢
          rw [refinedCount_zero b0 zig _ (by omega) hz] at hbits
          obtain ⟨b1, g1, g2, g3⟩ := ih bc (zig + 1) (nz - 1) d bs (by omega) (by omega)
            (by omega) (by omega) (fun z h1 h2 => hagree z (by omega) h2)
            (fun z h1 h2 => hrange z (by omega) h2) hbits
          refine ⟨b1, g1, ?_, ?_⟩
          · intro u hcond
            exact g2 u (fun z h1 h2 h3 => hcond z (by omega) h2 h3)
          · intro z h1 h2 h3
            have hzne : z ≠ zig := by
              intro he; rw [he] at h3; exact h3 hz
            rw [refinedCount_zero b0 zig z (by omega) hz]
            exact g3 z (by omega) h2 h3
      · rw [if_neg (by rw [hu]; exact hz)]
        have hstop : refineStop b0 zig zigEnd nz = refineStop b0 (zig + 1) zigEnd nz := by
          unfold refineStop
          rw [zeroPositions_nonzero b0 zig zigEnd hin hz]
        have hr := refineStop_range b0 (zig + 1) zigEnd nz (by omega)
        rw [hstop] at hbits ⊢
        rw [refinedCount_nonzero b0 zig _ (by omega) hz] at hbits
        obtain ⟨bit, d2, bs1, hdb, hnb, hbs⟩ := nextBits_succ_ok _ d d1 bs hbits
        rw [hdb]
        simp only
        have hrank : ∀ z, zig + 1 ≤ z →
            bs.getD (refinedCount b0 zig z) false = bs1.getD (refinedCount b0 (zig + 1) z) false := by
          intro z hz1
          rw [refinedCount_nonzero b0 zig z (by omega) hz, hbs]
          rfl
        have hrank0 : bs.getD (refinedCount b0 zig zig) false = bit := by
          rw [refinedCount_self, hbs]; rfl
        have hrg := hrange zig (Nat.le_refl _) hin
        have habs : |b0 (unzig zig)| = if b0 (unzig zig) > 0 then b0 (unzig zig)
            else - b0 (unzig zig) := by
          split
          · exact abs_of_pos (by assumption)
          · exact abs_of_nonpos (by omega)
        have tail : ∀ (bc1 : Block), (∀ u, u ≠ unzig zig → bc1 u = bc u) →
            bc1 (unzig zig) = (if bit = true then awayFromZero (b0 (unzig zig)) delta
              else b0 (unzig zig)) →
            ∃ b1, refineNonZeroesLoop zigEnd delta f bc1 (zig + 1) nz d2
                = .ok (b1, refineStop b0 (zig + 1) zigEnd nz) d1 ∧
              (∀ u, (∀ z, zig ≤ z → z < refineStop b0 (zig + 1) zigEnd nz → b0 (unzig z) ≠ 0 →
                unzig z ≠ u) → b1 u = bc u) ∧
              (∀ z, zig ≤ z → z < refineStop b0 (zig + 1) zigEnd nz → b0 (unzig z) ≠ 0 →
                b1 (unzig z) = if bs.getD (refinedCount b0 zig z) false
                  then awayFromZero (b0 (unzig z)) delta else b0 (unzig z)) := by
          intro bc1 hoth hat
          obtain ⟨b1, g1, g2, g3⟩ := ih bc1 (zig + 1) nz d2 bs1 (by omega) (by omega) hnz hnz2
            (fun z h1 h2 => by rw [hoth _ (hinj z h1 h2)]; exact hagree z (by omega) h2)
            (fun z h1 h2 => hrange z (by omega) h2) hnb
          refine ⟨b1, g1, ?_, ?_⟩
          · intro u hcond
            rw [g2 u (fun z h1 h2 h3 => hcond z (by omega) h2 h3)]
            exact hoth u (Ne.symm (hcond zig (Nat.le_refl _) (by omega) hz))
          · intro z h1 h2 h3
            by_cases hzz : z = zig
            · subst hzz
              rw [hrank0, g2 (unzig z) (fun z1 h1 h2 _ => hinj z1 h1 (by omega)), hat]
            · rw [hrank z (by omega)]
              exact g3 z (by omega) h2 h3
        by_cases hbit : bit = false
        · rw [if_pos hbit]
          exact tail bc (fun _ _ => rfl) (by rw [hbit, hu]; rfl)
        · rw [if_neg hbit]
          have hbt : bit = true := by simpa using hbit
          by_cases hpos : bc (unzig zig) ≥ 0
          · rw [if_pos hpos]
            have hp0 : b0 (unzig zig) > 0 := by rw [hu] at hpos; omega
            rw [if_pos hp0] at habs
            have hv : i32 (bc (unzig zig) + delta) = awayFromZero (b0 (unzig zig)) delta := by
              rw [hu, i32_of_range _ (by omega) (by omega)]
              unfold awayFromZero
              rw [if_pos hp0]
            exact tail _ (fun u hne => upd_other _ _ _ _ hne)
              (by rw [upd_same, hv, hbt]; rfl)
          · rw [if_neg hpos]
            have hp0 : ¬ b0 (unzig zig) > 0 := by rw [hu] at hpos; omega
            rw [if_neg hp0] at habs
            have hv : i32 (bc (unzig zig) - delta) = awayFromZero (b0 (unzig zig)) delta := by
              rw [hu, i32_of_range _ (by omega) (by omega)]
              unfold awayFromZero
              rw [if_neg hp0]
            exact tail _ (fun u hne => upd_other _ _ _ _ hne)
              (by rw [upd_same, hv, hbt]; rfl)
    · rw [if_neg hin]
      have hstop : refineStop b0 zig zigEnd nz = zig := by
        unfold refineStop
        rw [zeroPositions_end b0 zig zigEnd (by omega)]
        show zigEnd + 1 = zig
        omega
      rw [hstop] at hbits ⊢
      rw [refinedCount_self] at hbits
      injection hbits with hb1 hb2
      subst hb2
      refine ⟨bc, rfl, fun _ _ => rfl, ?_⟩
      intro z h1 h2
      omega

/-- The ladder returns the value read at the index that `huffSlowPathAt`
reports, and fails when `huffSlowPathAt` fails. -/
theorem huffSlowPath_at (h : Huffman) (cnt : Nat) : ∀ (i code : Nat) (d : Decoder),
    (∀ p d1, huffSlowPathAt h cnt i code d = .ok p d1 →
      huffSlowPath h cnt i code d = .ok (h.vals (valsIndex h p).toNat).val d1) ∧
    (∀ e d1, huffSlowPathAt h cnt i code d = .fail e d1 →
      huffSlowPath h cnt i code d = .fail e d1) := by
  induction cnt with
  | zero =>
    intro i code d
    refine ⟨fun p d1 h => ?_, fun e d1 h => ?_⟩
    · cases h
    · rw [huffSlowPathAt] at h
      injection h with h1 h2
      rw [huffSlowPath, h1, h2]
  | succ c ih =>
    intro i code d
    rw [huffSlowPathAt, huffSlowPath]
    cases hb : decodeBit d with
    | fail e d1 =>
      simp only
      refine ⟨fun p d1 h => ?_, fun e d1 h => ?_⟩
      · cases h
      · injection h with h1 h2
        rw [h1, h2]
    | ok bit d1 =>
      simp only
      by_cases hc : (((if bit = true then code ||| 1 else code : Nat)) : Int) ≤ h.maxCodes i
      · rw [if_pos hc, if_pos hc]
        refine ⟨fun p d2 h => ?_, fun e d2 h => ?_⟩
        · injection h with h1 h2
          rw [← h1, ← h2]
          rfl
        · cases h
      · rw [if_neg hc, if_neg hc]
        exact ih _ _ _

theorem le_or_one (code : Nat) (bit : Bool) : code ≤ (if bit = true then code ||| 1 else code) := by
  split
  · exact Nat.le_of_testBit (fun k hk => by rw [Nat.testBit_or, hk]; rfl)
  · exact Nat.le_refl _

/-- When the ladder of a table built from the counts `nc` returns at level `i`,
the level has codes and the code lies between the first and the last code of
that level. -/
theorem huffSlowPathAt_bounds (h0 : Huffman) (nc : Nat → Nat) (htot : canonBase nc 16 ≤ 256)
    (cnt : Nat) : ∀ (i code : Nat) (d : Decoder) (p : Nat × Nat) (d1 : Decoder),
    i + cnt = 16 → canonFirst nc i ≤ code →
    huffSlowPathAt (buildHuffman h0 nc) cnt i code d = .ok p d1 →
    p.1 < 16 ∧ nc p.1 ≠ 0 ∧ canonFirst nc p.1 ≤ p.2 ∧ p.2 + 1 ≤ canonFirst nc p.1 + nc p.1 := by
  induction cnt with
  | zero => intro i code d p d1 _ _ h; cases h
  | succ c ih =>
    intro i code d p d1 hi hcode h
    rw [huffSlowPathAt] at h
    cases hb : decodeBit d with
    | fail e d2 => rw [hb] at h; cases h
    | ok bit d2 =>
      rw [hb] at h
      simp only at h
      have hge := le_or_one code bit
      obtain ⟨-, c0, c1⟩ := buildHuffman_codes h0 nc htot i (by omega)
      by_cases hc : (((if bit = true then code ||| 1 else code : Nat)) : Int)
          ≤ (buildHuffman h0 nc).maxCodes i
      · rw [if_pos hc] at h
        injection h with h1 h2
        subst h1
        by_cases hn : nc i = 0
        · rw [c0 hn] at hc
          omega
        · rw [(c1 hn).2.1] at hc
          exact ⟨by show i < 16; omega, hn, by show canonFirst nc i ≤ _; omega,
            by show _ + 1 ≤ canonFirst nc i + nc i; omega⟩
      · rw [if_neg hc] at h
        refine ih (i + 1) _ d2 p d1 (by omega) ?_ h
        rw [Nat.shiftLeft_eq, Nat.pow_one]
        show (canonFirst nc i + nc i) * 2 ≤ _
        by_cases hn : nc i = 0
        · rw [hn]; omega
        · rw [(c1 hn).2.1] at hc
          omega

theorem lutFillJReads_spec (vals : Nat → Byte) (i : Nat) (cnt : Nat) :
    ∀ (s : LutState) (t : List Nat), s.x + cnt < 4294967296 →
    (lutFillJReads vals i cnt (s, t)).1 = lutFillJ vals i cnt s ∧
    (lutFillJReads vals i cnt (s, t)).2 = t ++ List.range' s.x cnt ∧
    (lutFillJ vals i cnt s).x = s.x + cnt := by
  induction cnt with
  | zero => intro s t _; exact ⟨rfl, by simp [lutFillJReads], rfl⟩
  | succ c ih =>
    intro s t hx
    rw [lutFillJReads, lutFillJ]
    simp only
    have hm : (s.x + 1) % 4294967296 = s.x + 1 := Nat.mod_eq_of_lt (by omega)
    obtain ⟨g1, g2, g3⟩ := ih
      { lut := lutFillK (u8 (s.code <<< (7 - i))) (u16 (((vals s.x).val <<< 8) ||| (2 + i)))
          (1 <<< (7 - i)) 0 s.lut
        x := (s.x + 1) % 4294967296
        code := (s.code + 1) % 4294967296 } (t ++ [s.x]) (by show (s.x + 1) % 4294967296 + c < _; omega)
    refine ⟨g1, ?_, ?_⟩
    · rw [g2]
      show t ++ [s.x] ++ List.range' ((s.x + 1) % 4294967296) c = _
      rw [hm, List.range'_succ, List.append_assoc]
      rfl
    · rw [g3]
      show (s.x + 1) % 4294967296 + c = _
      omega

theorem lutFillIReads_spec (vals : Nat → Byte) (nc : Nat → Nat) (htot : canonBase nc 16 ≤ 256)
    (cnt : Nat) : ∀ (i : Nat) (s : LutState) (t : List Nat), i + cnt ≤ 16 →
    s.x = canonBase nc i →
    (lutFillIReads vals nc cnt i (s, t)).1 = lutFillI vals nc cnt i s ∧
    (lutFillIReads vals nc cnt i (s, t)).2
      = t ++ List.range' (canonBase nc i) (canonBase nc (i + cnt) - canonBase nc i) := by
  induction cnt with
  | zero =>
    intro i s t _ _
    refine ⟨rfl, ?_⟩
    show t = _
    rw [Nat.add_zero, Nat.sub_self]
    simp
  | succ c ih =>
    intro i s t hi hx
    rw [lutFillIReads, lutFillI]
    have hb1 := canonBase_succ nc i
    have hm1 := canonBase_mono nc (i + 1) 16 (by omega)
    have hm2 := canonBase_mono nc (i + 1) (i + 1 + c) (by omega)
    obtain ⟨j1, j2, j3⟩ := lutFillJReads_spec vals i (nc i)
      { s with code := (s.code <<< 1) % 4294967296 } t (by show s.x + nc i < _; omega)
    have hpair : lutFillJReads vals i (nc i) ({ s with code := (s.code <<< 1) % 4294967296 }, t)
        = (lutFillJ vals i (nc i) { s with code := (s.code <<< 1) % 4294967296 },
           t ++ List.range' s.x (nc i)) := Prod.ext j1 j2
    show (lutFillIReads vals nc c (i + 1)
      (lutFillJReads vals i (nc i) ({ s with code := (s.code <<< 1) % 4294967296 }, t))).1 = _ ∧ _
    rw [hpair]
    obtain ⟨g1, g2⟩ := ih (i + 1) (lutFillJ vals i (nc i) { s with code := (s.code <<< 1) % 4294967296 })
      (t ++ List.range' s.x (nc i)) (by omega) (by rw [j3]; show s.x + nc i = _; omega)
    refine ⟨g1, ?_⟩
    have e1 : i + (c + 1) = i + 1 + c := by omega
    have e2 : canonBase nc (i + 1 + c) - canonBase nc i
        = (canonBase nc (i + 1 + c) - canonBase nc (i + 1)) + nc i := by omega
    rw [g2, hx, List.append_assoc, e1, e2, hb1, List.range'_append_1]

/-- The look-up table of a built table is the one the recording construction
builds, and the recorded reads are the indices below the number of codes of at
most eight bits. -/
theorem lutReads_spec (h0 : Huffman) (nc : Nat → Nat) (htot : canonBase nc 16 ≤ 256) :
    (lutReads h0.vals nc).1.lut = (buildHuffman h0 nc).lut ∧
    (lutReads h0.vals nc).2 = List.range' 0 (canonBase nc 8) := by
  obtain ⟨g1, g2⟩ := lutFillIReads_spec h0.vals nc htot 8 0 { lut := fun _ => 0, x := 0, code := 0 }
    [] (by decide) rfl
  constructor
  · show (lutFillIReads h0.vals nc 8 0 _).1.lut = _
    rw [g1]
    rfl
  · show (lutFillIReads h0.vals nc 8 0 _).2 = _
    rw [g2]
    simp [canonBase]

/-- C39: a `processDHT` entry with sixteen counts of total 1..256, prefix code
or not, succeeds and stores a table built from the counts; and for every table
so built and every decoder state, when the ladder of `decodeHuffman` returns at
level `i` the code satisfies `minCodes[i] ≤ code ≤ maxCodes[i]` and the index
`valsIndices[i] + code - minCodes[i]` at which `h.vals` is read lies in
`0 .. nCodes-1`; the look-up-table construction reads `h.vals` only at indices
below `nCodes`. -/
theorem ladder_in_bounds (d : Decoder) (b0 : Byte) (counts vals rest : List Byte)
    (hle : d.bytes.i ≤ d.bytes.j) (hnu : d.bytes.nUnreadable = 0)
    (hlen : counts.length = 16) (hst : d.stream = b0 :: counts ++ (vals ++ rest))
    (htc : b0.val >>> 4 ≤ 1) (hth : b0.val &&& 0x0f ≤ 3)
    (hprog : d.progressive = false → b0.val &&& 0x0f ≤ 1)
    (hsum : (counts.map (fun b => b.val)).sum = vals.length)
    (h1 : 1 ≤ vals.length) (h256 : vals.length ≤ 256) :
    (processDHT (vals.length + 17) d).err? = none ∧
    (∃ (h0 : Huffman) (nc : Nat → Nat),
      (processDHT (vals.length + 17) d).state.huff (b0.val >>> 4) (b0.val &&& 0x0f)
        = buildHuffman h0 nc ∧
      (∀ i, i < 16 → nc i = (counts.getD i (byte 0)).val) ∧
      h0.nCodes = (canonBase nc 16 : Int) ∧ canonBase nc 16 = vals.length) ∧
    (∀ (h0 : Huffman) (nc : Nat → Nat), 1 ≤ canonBase nc 16 → canonBase nc 16 ≤ 256 →
      h0.nCodes = (canonBase nc 16 : Int) →
      (∀ (e : Decoder) (p : Nat × Nat) (e1 : Decoder),
        huffSlowPathAt (buildHuffman h0 nc) maxCodeLength 0 0 e = .ok p e1 →
        p.1 < 16 ∧ (buildHuffman h0 nc).minCodes p.1 ≤ (p.2 : Int) ∧
        (p.2 : Int) ≤ (buildHuffman h0 nc).maxCodes p.1 ∧
        0 ≤ valsIndex (buildHuffman h0 nc) p ∧
        valsIndex (buildHuffman h0 nc) p < (buildHuffman h0 nc).nCodes ∧
        huffSlowPath (buildHuffman h0 nc) maxCodeLength 0 0 e
          = .ok ((buildHuffman h0 nc).vals (valsIndex (buildHuffman h0 nc) p).toNat).val e1) ∧
      (∀ (e : Decoder) (er : Err) (e1 : Decoder),
        huffSlowPathAt (buildHuffman h0 nc) maxCodeLength 0 0 e = .fail er e1 →
        huffSlowPath (buildHuffman h0 nc) maxCodeLength 0 0 e = .fail er e1) ∧
      (lutReads (buildHuffman h0 nc).vals nc).1.lut = (buildHuffman h0 nc).lut ∧
      (∀ x, x ∈ (lutReads (buildHuffman h0 nc).vals nc).2 →
        (x : Int) < (buildHuffman h0 nc).nCodes)) := by
  obtain ⟨dF, nc, q1, q2, q3, q4, q5, q6⟩ := dhtLoop_accepts (vals.length + 17) (vals.length + 17) d
    b0 counts vals rest hle hnu hlen hst htc hth hprog hsum h1 h256 (le_refl _)
  have hproc : processDHT (vals.length + 17) d = .ok () dF := by
    unfold processDHT
    rw [q1, Nat.sub_self]
    exact dhtLoop_zero_length _ dF
  have htable : dF.huff (b0.val >>> 4) (b0.val &&& 0x0f) =
      buildHuffman { d.huff (b0.val >>> 4) (b0.val &&& 0x0f) with
          nCodes := vals.length,
          vals := blit (d.huff (b0.val >>> 4) (b0.val &&& 0x0f)).vals 0 vals } nc := by
    rw [sameInput_huff q3]
    exact setHuff_get _ _ _ _
  have hcb : canonBase nc 16 = vals.length := by
    rw [← canonBase_congr (countsOf counts) nc 16 (fun i hi => (q2 i hi).symm) 16 (le_refl _),
      canonBase_countsOf counts hlen, hsum]
  refine ⟨by rw [hproc]; rfl, ⟨_, nc, by rw [hproc]; exact htable, q2, ?_, hcb⟩, ?_⟩
  · show ((vals.length : Nat) : Int) = _
    rw [hcb]
  · intro h0 nc g1 g256 gn
    refine ⟨?_, ?_, ?_, ?_⟩
    · intro e p e1 hp
      obtain ⟨b1, b2, b3, b4⟩ := huffSlowPathAt_bounds h0 nc g256 16 0 0 e p e1 rfl
        (Nat.zero_le _) hp
      obtain ⟨-, -, c1⟩ := buildHuffman_codes h0 nc g256 p.1 b1
      obtain ⟨c2, c3, c4⟩ := c1 b2
      have hbs := canonBase_succ nc p.1
      have hmono := canonBase_mono nc (p.1 + 1) 16 (by omega)
      have hidx : valsIndex (buildHuffman h0 nc) p
          = (canonBase nc p.1 : Int) + (p.2 : Int) - (canonFirst nc p.1 : Int) := by
        unfold valsIndex
        rw [c2, c4]
      have hnc : (buildHuffman h0 nc).nCodes = (canonBase nc 16 : Int) := gn
      refine ⟨b1, by rw [c2]; omega, by rw [c3]; omega, by rw [hidx]; omega,
        by rw [hidx, hnc]; omega, ?_⟩
      exact (huffSlowPath_at (buildHuffman h0 nc) 16 0 0 e).1 p e1 hp
    · intro e er e1 hp
      exact (huffSlowPath_at (buildHuffman h0 nc) 16 0 0 e).2 er e1 hp
    · exact (lutReads_spec h0 nc g256).1
    · intro x hx
      have hv : (buildHuffman h0 nc).vals = h0.vals := rfl
      rw [hv, (lutReads_spec h0 nc g256).2, List.mem_range'_1] at hx
      have hmono := canonBase_mono nc 8 16 (by decide)
      have hnc : (buildHuffman h0 nc).nCodes = (canonBase nc 16 : Int) := gn
      rw [hnc]
      omega

theorem ladder_in_bounds_witness :
    (dhtOverDecoder.bytes.i ≤ dhtOverDecoder.bytes.j ∧ dhtOverDecoder.bytes.nUnreadable = 0 ∧
     countsOver.length = 16 ∧
     dhtOverDecoder.stream = byte 0 :: countsOver ++ (bytesOf [5, 9, 7] ++ []) ∧
     (byte 0).val >>> 4 ≤ 1 ∧ (byte 0).val &&& 0x0f ≤ 3 ∧
     (dhtOverDecoder.progressive = false → (byte 0).val &&& 0x0f ≤ 1) ∧
     (countsOver.map (fun b => b.val)).sum = (bytesOf [5, 9, 7]).length ∧
     1 ≤ (bytesOf [5, 9, 7]).length ∧ (bytesOf [5, 9, 7]).length ≤ 256 ∧
     ¬ ValidCounts (countsOf countsOver) ∧
     (huffSlowPathAt ((processDHT ((bytesOf [5, 9, 7]).length + 17) dhtOverDecoder).state.huff
        ((byte 0).val >>> 4) ((byte 0).val &&& 0x0f)) maxCodeLength 0 0 (bitsDecoder 1 1)).val?
       = some (0, 1)) ∧
    ((processDHT ((bytesOf [5, 9, 7]).length + 17) dhtOverDecoder).err? = none ∧
    (∃ (h0 : Huffman) (nc : Nat → Nat),
      (processDHT ((bytesOf [5, 9, 7]).length + 17) dhtOverDecoder).state.huff
        ((byte 0).val >>> 4) ((byte 0).val &&& 0x0f) = buildHuffman h0 nc ∧
      (∀ i, i < 16 → nc i = (countsOver.getD i (byte 0)).val) ∧
      h0.nCodes = (canonBase nc 16 : Int) ∧ canonBase nc 16 = (bytesOf [5, 9, 7]).length) ∧
    (∀ (h0 : Huffman) (nc : Nat → Nat), 1 ≤ canonBase nc 16 → canonBase nc 16 ≤ 256 →
      h0.nCodes = (canonBase nc 16 : Int) →
      (∀ (e : Decoder) (p : Nat × Nat) (e1 : Decoder),
        huffSlowPathAt (buildHuffman h0 nc) maxCodeLength 0 0 e = .ok p e1 →
        p.1 < 16 ∧ (buildHuffman h0 nc).minCodes p.1 ≤ (p.2 : Int) ∧
        (p.2 : Int) ≤ (buildHuffman h0 nc).maxCodes p.1 ∧
        0 ≤ valsIndex (buildHuffman h0 nc) p ∧
        valsIndex (buildHuffman h0 nc) p < (buildHuffman h0 nc).nCodes ∧
        huffSlowPath (buildHuffman h0 nc) maxCodeLength 0 0 e
          = .ok ((buildHuffman h0 nc).vals (valsIndex (buildHuffman h0 nc) p).toNat).val e1) ∧
      (∀ (e : Decoder) (er : Err) (e1 : Decoder),
        huffSlowPathAt (buildHuffman h0 nc) maxCodeLength 0 0 e = .fail er e1 →
        huffSlowPath (buildHuffman h0 nc) maxCodeLength 0 0 e = .fail er e1) ∧
      (lutReads (buildHuffman h0 nc).vals nc).1.lut = (buildHuffman h0 nc).lut ∧
      (∀ x, x ∈ (lutReads (buildHuffman h0 nc).vals nc).2 →
        (x : Int) < (buildHuffman h0 nc).nCodes))) :=
  ⟨⟨by decide, rfl, rfl, rfl, by decide, by decide, fun _ => by decide, by decide, by decide,
     by decide, by decide, by decide!⟩,
   ladder_in_bounds dhtOverDecoder (byte 0) countsOver (bytesOf [5, 9, 7]) []
     (by decide) rfl rfl rfl (by decide) (by decide) (fun _ => by decide) (by decide) (by decide)
     (by decide)⟩

theorem noScan_comp {a b : Decoder} (h : a.noScan = b.noScan) : a.comp = b.comp :=
  show a.noScan.comp = b.noScan.comp from congrArg Decoder.comp h

theorem noScan_width {a b : Decoder} (h : a.noScan = b.noScan) : a.width = b.width :=
  show a.noScan.width = b.noScan.width from congrArg Decoder.width h

theorem noScan_height {a b : Decoder} (h : a.noScan = b.noScan) : a.height = b.height :=
  show a.noScan.height = b.noScan.height from congrArg Decoder.height h

theorem sosDC_count (sp : ScanParams) (i : Nat) (b : Block) (sv : ScanVars) (d : Decoder) :
    ∀ z b1 sv1 d1, sosDC sp i b sv d = .ok (z, b1, sv1) d1 → sv1.blockCount = sv.blockCount := by
  unfold sosDC
  simp only
  cases hr : decodeHuffman (d.huff dcTable (sp.scan i).td) d with
  | fail e d1 => exact fun _ _ _ _ h => by cases h
  | ok value d1 =>
    simp only
    split
    · exact fun _ _ _ _ h => by cases h
    · cases hr2 : receiveExtend value d1 with
      | fail e d2 => exact fun _ _ _ _ h => by cases h
      | ok dcDelta d2 =>
        intro z b1 sv1 d3 h
        simp only [Result.ok.injEq, Prod.mk.injEq] at h
        rw [← h.1.2.2]

theorem sosCoeffs_count (sp : ScanParams) (i : Nat) (b : Block) (sv : ScanVars) (d : Decoder) :
    ∀ b1 sv1 d1, sosCoeffs sp i b sv d = .ok (b1, sv1) d1 → sv1.blockCount = sv.blockCount := by
  unfold sosCoeffs
  simp only
  split
  · cases hr : refine b (d.huff acTable (sp.scan i).ta) sp.zigStart sp.zigEnd (2 ^ sp.al) d with
    | fail e d1 => exact fun _ _ _ h => by cases h
    | ok b1 d1 =>
      intro b2 sv2 d2 h
      simp only [Result.ok.injEq, Prod.mk.injEq] at h
      rw [← h.1.2]
  · have hdc : ∀ z b1 sv1 d1, (if sp.zigStart = 0 then sosDC sp i b sv d
          else (Result.ok (sp.zigStart, b, sv) d : Result (Nat × Block × ScanVars)))
          = .ok (z, b1, sv1) d1 → sv1.blockCount = sv.blockCount := by
      split
      · exact sosDC_count sp i b sv d
      · intro z b1 sv1 d3 h
        simp only [Result.ok.injEq, Prod.mk.injEq] at h
        rw [← h.1.2.2]
    cases hr : (if sp.zigStart = 0 then sosDC sp i b sv d
          else (Result.ok (sp.zigStart, b, sv) d : Result (Nat × Block × ScanVars))) with
    | fail e d1 => exact fun _ _ _ h => by cases h
    | ok p d1 =>
      rw [hr] at hdc
      obtain ⟨zig, b1, sv1⟩ := p
      have hsv := hdc zig b1 sv1 d1 rfl
      simp only
      have hac := sosAC_frame sp i zig b1 sv1 d1
      intro b2 sv2 d2 h
      rw [hac.2 b2 sv2 d2 h]; exact hsv

theorem sosBlock_count (sp : ScanParams) (i bx by_ : Nat) (sv sv1 : ScanVars) (d d1 : Decoder)
    (h : sosBlock sp i bx by_ sv d = .ok sv1 d1) : sv1.blockCount = sv.blockCount := by
  unfold sosBlock at h
  simp only at h
  generalize (if d.progressive = true then
      ((d.progCoeffs (sp.scan i).compIndex).getD []).getD
        (by_ * sp.mxx * (d.comp (sp.scan i).compIndex).h + bx) zeroBlock
    else zeroBlock) = b0 at h
  have hc := sosCoeffs_count sp i b0 sv d
  cases hr : sosCoeffs sp i b0 sv d with
  | fail e d2 => rw [hr] at h; cases h
  | ok p d2 =>
    rw [hr] at h hc
    obtain ⟨b, sv2⟩ := p
    have hsv := hc b sv2 d2 rfl
    simp only at h
    have key : ∀ (dx : Decoder), (Result.ok sv2 dx : Result ScanVars) = .ok sv1 d1 →
        sv1.blockCount = sv.blockCount := by
      intro dx hx
      injection hx with h1 h2
      rw [← h1]; exact hsv
    split at h
    · exact key _ h
    · split at h
      · split at h
        · cases h
        · exact key _ h
      · split at h
        · cases h
        · split at h
          · exact key _ h
          · split at h
            · exact key _ h
            · split at h
              · exact key _ h
              · split at h
                · exact key _ h
                · cases h

/-- One step of the loop over `j` in a non-interleaved scan: the block is the
one numbered by `blockCount`, it is skipped without any change of the decoder
when it lies outside the image, and `blockCount` goes up by one. -/
theorem sosUnit_single (sp : ScanParams) (mx my i j : Nat) (sv : ScanVars) (d : Decoder)
    (hn : sp.nComp = 1) :
    sosUnit sp mx my i j sv d =
      (if sv.blockCount % (sp.mxx * (d.comp (sp.scan i).compIndex).h) * 8 ≥ d.width ∨
          sv.blockCount / (sp.mxx * (d.comp (sp.scan i).compIndex).h) * 8 ≥ d.height
        then .ok { sv with blockCount := sv.blockCount + 1 } d
        else sosBlock sp i (sv.blockCount % (sp.mxx * (d.comp (sp.scan i).compIndex).h))
          (sv.blockCount / (sp.mxx * (d.comp (sp.scan i).compIndex).h))
          { sv with blockCount := sv.blockCount + 1 } d) := by
  unfold sosUnit
  simp only [hn, ne_eq, not_true_eq_false, if_false]

theorem sosUnit_interleaved (sp : ScanParams) (mx my i j : Nat) (sv : ScanVars) (d : Decoder)
    (hn : sp.nComp ≠ 1) :
    sosUnit sp mx my i j sv d =
      sosBlock sp i
        (unitBlock (d.comp (sp.scan i).compIndex).h (d.comp (sp.scan i).compIndex).v mx my j).1
        (unitBlock (d.comp (sp.scan i).compIndex).h (d.comp (sp.scan i).compIndex).v mx my j).2
        sv d := by
  unfold sosUnit
  simp only [hn, ne_eq, not_false_eq_true, if_true]
  rfl

theorem sosUnit_count (sp : ScanParams) (mx my i j : Nat) (sv sv1 : ScanVars) (d d1 : Decoder)
    (hn : sp.nComp = 1) (h : sosUnit sp mx my i j sv d = .ok sv1 d1) :
    sv1.blockCount = sv.blockCount + 1 := by
  rw [sosUnit_single sp mx my i j sv d hn] at h
  split at h
  · injection h with h1 h2
    rw [← h1]
  · exact sosBlock_count _ _ _ _ _ _ _ _ h

theorem sosUnits_count (sp : ScanParams) (mx my i : Nat) (hn : sp.nComp = 1) (cnt : Nat) :
    ∀ (j : Nat) (sv sv1 : ScanVars) (d d1 : Decoder),
    sosUnits sp mx my i cnt j sv d = .ok sv1 d1 →
    sv1.blockCount = sv.blockCount + cnt ∧ d1.noScan = d.noScan := by
  induction cnt with
  | zero =>
    intro j sv sv1 d d1 h
    simp only [sosUnits] at h
    injection h with h1 h2
    subst h1; subst h2
    exact ⟨rfl, rfl⟩
  | succ cnt ih =>
    intro j sv sv1 d d1 h
    rw [sosUnits] at h
    have hf := sosUnit_frame sp mx my i j sv d
    cases hr : sosUnit sp mx my i j sv d with
    | fail e d2 => rw [hr] at h; cases h
    | ok sv2 d2 =>
      rw [hr] at h hf
      simp only at h
      have h1 := sosUnit_count sp mx my i j sv sv2 d d2 hn hr
      obtain ⟨g1, g2⟩ := ih _ _ _ _ _ h
      exact ⟨by omega, g2.trans hf.1⟩

theorem sosComps_count (sp : ScanParams) (mx my : Nat) (hn : sp.nComp = 1)
    (sv sv1 : ScanVars) (d d1 : Decoder)
    (h : sosComps sp mx my sp.nComp 0 sv d = .ok sv1 d1) :
    sv1.blockCount = sv.blockCount +
      (d.comp (sp.scan 0).compIndex).h * (d.comp (sp.scan 0).compIndex).v ∧
    d1.noScan = d.noScan := by
  rw [hn, sosComps] at h
  cases hr : sosUnits sp mx my 0
      ((d.comp (sp.scan 0).compIndex).h * (d.comp (sp.scan 0).compIndex).v) 0 sv d with
  | fail e d2 => rw [hr] at h; cases h
  | ok sv2 d2 =>
    rw [hr] at h
    simp only [sosComps] at h
    injection h with h1 h2
    subst h1; subst h2
    exact sosUnits_count sp mx my 0 hn _ 0 sv _ d _ hr

theorem sosRestart_count (sp : ScanParams) (sv sv1 : ScanVars) (d d1 : Decoder)
    (h : sosRestart sp sv d = .ok sv1 d1) : sv1.blockCount = sv.blockCount := by
  unfold sosRestart at h
  simp only at h
  split at h
  · cases hr : readFullTmp 2 d with
    | fail e d2 => rw [hr] at h; cases h
    | ok u d2 =>
      rw [hr] at h
      simp only at h
      split at h
      · cases h
      · injection h with h1 h2
        rw [← h1]
  · injection h with h1 h2
    rw [← h1]

theorem sosMX_count (sp : ScanParams) (my : Nat) (hn : sp.nComp = 1) (hv : Nat) (cnt : Nat) :
    ∀ (mx : Nat) (sv sv1 : ScanVars) (d d1 : Decoder),
    (d.comp (sp.scan 0).compIndex).h * (d.comp (sp.scan 0).compIndex).v = hv →
    sosMX sp my cnt mx sv d = .ok sv1 d1 →
    sv1.blockCount = sv.blockCount + cnt * hv ∧ d1.noScan = d.noScan := by
  induction cnt with
  | zero =>
    intro mx sv sv1 d d1 _ h
    simp only [sosMX] at h
    injection h with h1 h2
    subst h1; subst h2
    exact ⟨by omega, rfl⟩
  | succ cnt ih =>
    intro mx sv sv1 d d1 hhv h
    rw [sosMX] at h
    cases hc : sosComps sp mx my sp.nComp 0 sv d with
    | fail e d2 => rw [hc] at h; cases h
    | ok sv2 d2 =>
      rw [hc] at h
      simp only at h
      obtain ⟨c1, c2⟩ := sosComps_count sp mx my hn sv sv2 d d2 hc
      have hrn := sosRestart_noScan sp sv2 d2
      cases hr : sosRestart sp sv2 d2 with
      | fail e d3 => rw [hr] at h; cases h
      | ok sv3 d3 =>
        rw [hr] at h hrn
        simp only at h
        have r1 := sosRestart_count sp sv2 sv3 d2 d3 hr
        have hn3 : d3.noScan = d.noScan := (show d3.noScan = d2.noScan from hrn).trans c2
        obtain ⟨g1, g2⟩ := ih _ _ _ _ _ (by rw [noScan_comp hn3]; exact hhv) h
        refine ⟨?_, g2.trans hn3⟩
        rw [g1, r1, c1, hhv, Nat.succ_mul]
        omega

theorem sosMY_count (sp : ScanParams) (hn : sp.nComp = 1) (hv : Nat) (cnt : Nat) :
    ∀ (my : Nat) (sv sv1 : ScanVars) (d d1 : Decoder),
    (d.comp (sp.scan 0).compIndex).h * (d.comp (sp.scan 0).compIndex).v = hv →
    sosMY sp cnt my sv d = .ok sv1 d1 →
    sv1.blockCount = sv.blockCount + cnt * sp.mxx * hv ∧ d1.noScan = d.noScan := by
  induction cnt with
  | zero =>
    intro my sv sv1 d d1 _ h
    simp only [sosMY] at h
    injection h with h1 h2
    subst h1; subst h2
    exact ⟨by omega, rfl⟩
  | succ cnt ih =>
    intro my sv sv1 d d1 hhv h
    rw [sosMY] at h
    cases hc : sosMX sp my sp.mxx 0 sv d with
    | fail e d2 => rw [hc] at h; cases h
    | ok sv2 d2 =>
      rw [hc] at h
      simp only at h
      obtain ⟨c1, c2⟩ := sosMX_count sp my hn hv sp.mxx 0 sv sv2 d d2 hhv hc
      obtain ⟨g1, g2⟩ := ih _ _ _ _ _ (by rw [noScan_comp c2]; exact hhv) h
      refine ⟨?_, g2.trans c2⟩
      rw [g1, c1, Nat.succ_mul, Nat.add_mul]
      omega

theorem pair_lt (a b A B : Nat) (ha : a < A) (hb : b < B) : b * A + a < B * A := by
  have h1 : (b + 1) * A ≤ B * A := Nat.mul_le_mul_right A hb
  rw [Nat.add_mul, Nat.one_mul] at h1
  omega

theorem pair_inj (a b a1 b1 A : Nat) (ha : a < A) (ha1 : a1 < A)
    (h : b * A + a = b1 * A + a1) : a = a1 ∧ b = b1 := by
  have hpos : 0 < A := by omega
  have m1 : (b * A + a) % A = a := by
    rw [Nat.mul_comm, Nat.mul_add_mod]; exact Nat.mod_eq_of_lt ha
  have m2 : (b1 * A + a1) % A = a1 := by
    rw [Nat.mul_comm, Nat.mul_add_mod]; exact Nat.mod_eq_of_lt ha1
  have q1 : (b * A + a) / A = b := by
    rw [Nat.mul_comm, Nat.mul_add_div hpos, Nat.div_eq_of_lt ha]; rfl
  have q2 : (b1 * A + a1) / A = b1 := by
    rw [Nat.mul_comm, Nat.mul_add_div hpos, Nat.div_eq_of_lt ha1]; rfl
  rw [h] at m1 q1
  exact ⟨m1.symm.trans m2, q1.symm.trans q2⟩

theorem pair_split (s A B : Nat) (h : s < B * A) :
    s % A < A ∧ s / A < B ∧ s / A * A + s % A = s := by
  have hpos : 0 < A := by
    rcases Nat.eq_zero_or_pos A with h0 | h0
    · rw [h0, Nat.mul_zero] at h; omega
    · exact h0
  refine ⟨Nat.mod_lt _ hpos, (Nat.div_lt_iff_lt_mul hpos).mpr h, ?_⟩
  rw [Nat.mul_comm]
  exact Nat.div_add_mod s A

theorem unitBlock_eq (hi vi mx my j : Nat) :
    unitBlock hi vi mx my j = (mx * hi + j % hi, my * vi + j / hi) := by
  unfold unitBlock
  rw [Nat.mul_comm hi mx, Nat.mul_comm vi my]

theorem slotOf_eq (mxx hi bx by_ : Nat) : slotOf mxx hi (bx, by_) = by_ * (mxx * hi) + bx := by
  unfold slotOf
  rw [Nat.mul_assoc]

theorem unit_parts (hi vi j : Nat) (hj : j < hi * vi) :
    j % hi < hi ∧ j / hi < vi ∧ j / hi * hi + j % hi = j := by
  have := pair_split j hi vi (by rw [Nat.mul_comm]; exact hj)
  exact this

theorem unitBlock_range (hi vi mxx myy mx my j : Nat) (hmx : mx < mxx) (hmy : my < myy)
    (hj : j < hi * vi) :
    (unitBlock hi vi mx my j).1 < mxx * hi ∧ (unitBlock hi vi mx my j).2 < myy * vi := by
  obtain ⟨p1, p2, -⟩ := unit_parts hi vi j hj
  rw [unitBlock_eq]
  exact ⟨pair_lt _ _ _ _ p1 hmx, pair_lt _ _ _ _ p2 hmy⟩

theorem unitBlock_slot_lt (hi vi mxx myy mx my j : Nat) (hmx : mx < mxx) (hmy : my < myy)
    (hj : j < hi * vi) : slotOf mxx hi (unitBlock hi vi mx my j) < mxx * myy * hi * vi := by
  obtain ⟨r1, r2⟩ := unitBlock_range hi vi mxx myy mx my j hmx hmy hj
  have h := pair_lt _ _ _ _ r1 r2
  have e : slotOf mxx hi (unitBlock hi vi mx my j)
      = (unitBlock hi vi mx my j).2 * (mxx * hi) + (unitBlock hi vi mx my j).1 :=
    slotOf_eq mxx hi _ _
  rw [e]
  have e2 : mxx * myy * hi * vi = myy * vi * (mxx * hi) := by ring
  rw [e2]
  exact h

theorem unitBlock_slot_inj (hi vi mxx myy mx my j mx1 my1 j1 : Nat) (hmx : mx < mxx)
    (hmy : my < myy) (hj : j < hi * vi) (hmx1 : mx1 < mxx) (hmy1 : my1 < myy)
    (hj1 : j1 < hi * vi)
    (h : slotOf mxx hi (unitBlock hi vi mx my j) = slotOf mxx hi (unitBlock hi vi mx1 my1 j1)) :
    mx = mx1 ∧ my = my1 ∧ j = j1 := by
  obtain ⟨r1, r2⟩ := unitBlock_range hi vi mxx myy mx my j hmx hmy hj
  obtain ⟨s1, s2⟩ := unitBlock_range hi vi mxx myy mx1 my1 j1 hmx1 hmy1 hj1
  obtain ⟨p1, p2, p3⟩ := unit_parts hi vi j hj
  obtain ⟨q1, q2, q3⟩ := unit_parts hi vi j1 hj1
  have e := slotOf_eq mxx hi (unitBlock hi vi mx my j).1 (unitBlock hi vi mx my j).2
  have e1 := slotOf_eq mxx hi (unitBlock hi vi mx1 my1 j1).1 (unitBlock hi vi mx1 my1 j1).2
  have h2 : (unitBlock hi vi mx my j).2 * (mxx * hi) + (unitBlock hi vi mx my j).1
      = (unitBlock hi vi mx1 my1 j1).2 * (mxx * hi) + (unitBlock hi vi mx1 my1 j1).1 :=
    e.symm.trans (h.trans e1)
  obtain ⟨hx, hy⟩ := pair_inj _ _ _ _ _ r1 s1 h2
  rw [unitBlock_eq, unitBlock_eq] at hx hy
  obtain ⟨a1, a2⟩ := pair_inj _ _ _ _ _ p1 q1 hx
  obtain ⟨b1, b2⟩ := pair_inj _ _ _ _ _ p2 q2 hy
  refine ⟨a2, b2, ?_⟩
  rw [← p3, ← q3, a1, b1]

theorem unitBlock_slot_surj (hi vi mxx myy s : Nat) (hs : s < mxx * myy * hi * vi) :
    ∃ mx my j, mx < mxx ∧ my < myy ∧ j < hi * vi ∧
      slotOf mxx hi (unitBlock hi vi mx my j) = s := by
  have e2 : mxx * myy * hi * vi = myy * vi * (mxx * hi) := by ring
  rw [e2] at hs
  obtain ⟨a1, a2, a3⟩ := pair_split s (mxx * hi) (myy * vi) hs
  obtain ⟨b1, b2, b3⟩ := pair_split (s % (mxx * hi)) hi mxx a1
  obtain ⟨c1, c2, c3⟩ := pair_split (s / (mxx * hi)) vi myy a2
  have hjlt : s / (mxx * hi) % vi * hi + s % (mxx * hi) % hi < hi * vi := by
    rw [Nat.mul_comm hi vi]
    exact pair_lt _ _ _ _ b1 c1
  obtain ⟨p1, p2, p3⟩ := unit_parts hi vi _ hjlt
  have hpos : 0 < hi := by omega
  have hm : (s / (mxx * hi) % vi * hi + s % (mxx * hi) % hi) % hi = s % (mxx * hi) % hi := by
    rw [Nat.mul_comm, Nat.mul_add_mod]; exact Nat.mod_eq_of_lt b1
  have hd : (s / (mxx * hi) % vi * hi + s % (mxx * hi) % hi) / hi = s / (mxx * hi) % vi := by
    rw [Nat.mul_comm, Nat.mul_add_div hpos, Nat.div_eq_of_lt b1]; rfl
  refine ⟨s % (mxx * hi) / hi, s / (mxx * hi) / vi,
    s / (mxx * hi) % vi * hi + s % (mxx * hi) % hi, b2, c2, hjlt, ?_⟩
  rw [unitBlock_eq, slotOf_eq, hm, hd, b3, c3, a3]

theorem step_rank_lt (hv mxx my mx j my1 mx1 j1 : Nat) (hmx : mx < mxx) (hj : j < hv)
    (h : my < my1 ∨ (my = my1 ∧ (mx < mx1 ∨ (mx = mx1 ∧ j < j1)))) :
    (my * mxx + mx) * hv + j < (my1 * mxx + mx1) * hv + j1 := by
  have key : ∀ m m1 : Nat, m < m1 → m * hv + j < m1 * hv + j1 := by
    intro m m1 hm
    have := pair_lt j m hv m1 hj hm
    omega
  rcases h with h | ⟨h0, h1 | ⟨h1, h2⟩⟩
  · apply key
    have := pair_lt mx my mxx my1 hmx h
    omega
  · subst h0
    apply key
    omega
  · subst h0; subst h1
    omega

/-- Pass 1 of `fdct` on a row of samples in 0..255: the first entry lies in
-4096..4064 and the others within 4080 of zero; no `int32` operation wraps. -/
theorem fdctRow_range (b : Block) (y : Nat)
    (hrow : ∀ k, k < 8 → 0 ≤ b (y * 8 + k) ∧ b (y * 8 + k) ≤ 255) (x : Nat) (hx : x < 8) :
    -4096 ≤ fdctRow b y (y * 8 + x) ∧ fdctRow b y (y * 8 + x) ≤ 4080 ∧
    (x = 0 → fdctRow b y (y * 8 + x) ≤ 4064) ∧ (1 ≤ x → -4080 ≤ fdctRow b y (y * 8 + x)) := by
  have h0 := hrow 0 (by omega)
  have h1 := hrow 1 (by omega)
  have h2 := hrow 2 (by omega)
  have h3 := hrow 3 (by omega)
  have h4 := hrow 4 (by omega)
  have h5 := hrow 5 (by omega)
  have h6 := hrow 6 (by omega)
  have h7 := hrow 7 (by omega)
  unfold fdctRow
  rw [setRow_get _ _ _ _ _ _ _ _ _ _ x hx]
  generalize b (y * 8 + 0) = a0 at *
  generalize b (y * 8 + 1) = a1 at *
  generalize b (y * 8 + 2) = a2 at *
  generalize b (y * 8 + 3) = a3 at *
  generalize b (y * 8 + 4) = a4 at *
  generalize b (y * 8 + 5) = a5 at *
  generalize b (y * 8 + 6) = a6 at *
  generalize b (y * 8 + 7) = a7 at *
  simp only [fix_0_298631336, fix_0_390180644, fix_0_541196100, fix_0_765366865,
    fix_0_899976223, fix_1_175875602, fix_1_501321110, fix_1_847759065, fix_1_961570560,
    fix_2_053119869, fix_2_562915447, fix_3_072711026, constBits, pass1Bits, centerJSample,
    Nat.reduceSub, Int.reducePow, Int.reduceMul, Int.shiftRight_eq_div_pow]
  simp (disch := omega) only [i32_of_range]
  interval_cases x <;> simp only [List.getD_cons_zero, List.getD_cons_succ] <;> omega

/-- Pass 2 of `fdct` on a column with entries in -4096..4064. -/
theorem fdctCol_range_first (b : Block) (x : Nat)
    (hcol : ∀ k, k < 8 → -4096 ≤ b (k * 8 + x) ∧ b (k * 8 + x) ≤ 4064) (y : Nat) (hy : y < 8) :
    -8192 ≤ fdctCol b x (y * 8 + x) ∧ fdctCol b x (y * 8 + x) ≤ 8160 ∧
    (y = 0 → fdctCol b x (y * 8 + x) ≤ 8128) ∧ (1 ≤ y → -8160 ≤ fdctCol b x (y * 8 + x)) := by
  have h0 := hcol 0 (by omega)
  have h1 := hcol 1 (by omega)
  have h2 := hcol 2 (by omega)
  have h3 := hcol 3 (by omega)
  have h4 := hcol 4 (by omega)
  have h5 := hcol 5 (by omega)
  have h6 := hcol 6 (by omega)
  have h7 := hcol 7 (by omega)
  unfold fdctCol
  rw [setCol_get _ _ _ _ _ _ _ _ _ _ y hy]
  generalize b (0 * 8 + x) = a0 at *
  generalize b (1 * 8 + x) = a1 at *
  generalize b (2 * 8 + x) = a2 at *
  generalize b (3 * 8 + x) = a3 at *
  generalize b (4 * 8 + x) = a4 at *
  generalize b (5 * 8 + x) = a5 at *
  generalize b (6 * 8 + x) = a6 at *
  generalize b (7 * 8 + x) = a7 at *
  simp only [fix_0_298631336, fix_0_390180644, fix_0_541196100, fix_0_765366865,
    fix_0_899976223, fix_1_175875602, fix_1_501321110, fix_1_847759065, fix_1_961570560,
    fix_2_053119869, fix_2_562915447, fix_3_072711026, constBits, pass1Bits,
    Nat.reduceSub, Nat.reduceAdd, Int.reducePow, Int.reduceMul, Int.shiftRight_eq_div_pow]
  simp (disch := omega) only [i32_of_range]
  interval_cases y <;> simp only [List.getD_cons_zero, List.getD_cons_succ] <;> omega

/-- Pass 2 of `fdct` on a column with entries within 4080 of zero. -/
theorem fdctCol_range_rest (b : Block) (x : Nat)
    (hcol : ∀ k, k < 8 → -4080 ≤ b (k * 8 + x) ∧ b (k * 8 + x) ≤ 4080) (y : Nat) (hy : y < 8) :
    -8160 ≤ fdctCol b x (y * 8 + x) ∧ fdctCol b x (y * 8 + x) ≤ 8160 := by
  have h0 := hcol 0 (by omega)
  have h1 := hcol 1 (by omega)
  have h2 := hcol 2 (by omega)
  have h3 := hcol 3 (by omega)
  have h4 := hcol 4 (by omega)
  have h5 := hcol 5 (by omega)
  have h6 := hcol 6 (by omega)
  have h7 := hcol 7 (by omega)
  unfold fdctCol
  rw [setCol_get _ _ _ _ _ _ _ _ _ _ y hy]
  generalize b (0 * 8 + x) = a0 at *
  generalize b (1 * 8 + x) = a1 at *
  generalize b (2 * 8 + x) = a2 at *
  generalize b (3 * 8 + x) = a3 at *
  generalize b (4 * 8 + x) = a4 at *
  generalize b (5 * 8 + x) = a5 at *
  generalize b (6 * 8 + x) = a6 at *
  generalize b (7 * 8 + x) = a7 at *
  simp only [fix_0_298631336, fix_0_390180644, fix_0_541196100, fix_0_765366865,
    fix_0_899976223, fix_1_175875602, fix_1_501321110, fix_1_847759065, fix_1_961570560,
    fix_2_053119869, fix_2_562915447, fix_3_072711026, constBits, pass1Bits,
    Nat.reduceSub, Nat.reduceAdd, Int.reducePow, Int.reduceMul, Int.shiftRight_eq_div_pow]
  simp (disch := omega) only [i32_of_range]
  interval_cases y <;> simp only [List.getD_cons_zero, List.getD_cons_succ] <;> omega

/-- The block after pass 1 of `fdct`, for samples in 0..255. -/
theorem fdctRows_range (b : Block) (hb : ∀ i, i < 64 → 0 ≤ b i ∧ b i ≤ 255) (y x : Nat)
    (hy : y < 8) (hx : x < 8) :
    -4096 ≤ (List.range 8).foldl fdctRow b (y * 8 + x) ∧
    (List.range 8).foldl fdctRow b (y * 8 + x) ≤ 4080 ∧
    (x = 0 → (List.range 8).foldl fdctRow b (y * 8 + x) ≤ 4064) ∧
    (1 ≤ x → -4080 ≤ (List.range 8).foldl fdctRow b (y * 8 + x)) := by
  rw [fdctRows_at b 8 y x hy hx]
  refine fdctRow_range _ y (fun k hk => ?_) x hx
  rw [fdctRows_other b y (y * 8 + k) (by omega)]
  exact hb _ (by omega)

/-- The output of `fdct` for samples in 0..255: the DC entry lies in
-8192..8128 and every other entry within 8160 of zero. -/
theorem fdct_range (b : Block) (hb : ∀ i, i < 64 → 0 ≤ b i ∧ b i ≤ 255) :
    (-8192 ≤ fdct b 0 ∧ fdct b 0 ≤ 8128) ∧
    ∀ i, 1 ≤ i → i < 64 → -8160 ≤ fdct b i ∧ fdct b i ≤ 8160 := by
  have key : ∀ y x, y < 8 → x < 8 →
      fdct b (y * 8 + x) =
        fdctCol ((List.range x).foldl fdctCol ((List.range 8).foldl fdctRow b)) x (y * 8 + x) := by
    intro y x _ hx
    unfold fdct
    exact fdctCols_at _ 8 y x (le_refl _) hx
  have hcolv : ∀ x k, x < 8 → k < 8 →
      (List.range x).foldl fdctCol ((List.range 8).foldl fdctRow b) (k * 8 + x) =
        (List.range 8).foldl fdctRow b (k * 8 + x) := by
    intro x k hx hk
    exact fdctCols_other _ x (k * 8 + x) (by omega) (by omega)
  have hfirst : ∀ y, y < 8 →
      -8192 ≤ fdct b (y * 8 + 0) ∧ fdct b (y * 8 + 0) ≤ 8160 ∧
      (y = 0 → fdct b (y * 8 + 0) ≤ 8128) ∧ (1 ≤ y → -8160 ≤ fdct b (y * 8 + 0)) := by
    intro y hy
    rw [key y 0 hy (by omega)]
    refine fdctCol_range_first _ 0 (fun k hk => ?_) y hy
    rw [hcolv 0 k (by omega) hk]
    obtain ⟨r1, _, r3, _⟩ := fdctRows_range b hb k 0 hk (by omega)
    exact ⟨r1, r3 rfl⟩
  have hrest : ∀ y x, y < 8 → 1 ≤ x → x < 8 →
      -8160 ≤ fdct b (y * 8 + x) ∧ fdct b (y * 8 + x) ≤ 8160 := by
    intro y x hy hx1 hx
    rw [key y x hy hx]
    refine fdctCol_range_rest _ x (fun k hk => ?_) y hy
    rw [hcolv x k hx hk]
    obtain ⟨_, r2, _, r4⟩ := fdctRows_range b hb k x hk hx
    exact ⟨r4 hx1, r2⟩
  refine ⟨?_, ?_⟩
  · obtain ⟨r1, _, r3, _⟩ := hfirst 0 (by omega)
    exact ⟨r1, r3 rfl⟩
  · intro i hi1 hi
    have hsplit : i = (i / 8) * 8 + i % 8 := by omega
    by_cases hx : i % 8 = 0
    · have e : i = (i / 8) * 8 + 0 := by omega
      obtain ⟨_, r2, _, r4⟩ := hfirst (i / 8) (by omega)
      rw [← e] at r2 r4
      exact ⟨r4 (by omega), r2⟩
    · have := hrest (i / 8) (i % 8) (by omega) (by omega) (by omega)
      rw [← hsplit] at this
      exact this

/-- Every entry of the tables that `Encode` builds lies in 1..255. -/
theorem encodeQuant_range (o : Option Int) (q z : Nat) (hq : q < 2) (hz : z < 64) :
    1 ≤ encodeQuant o q z ∧ encodeQuant o q z ≤ 255 := by
  unfold encodeQuant
  rw [initQuant_entry _ _ q z hq hz, scaleQuant_spec _ (clipQuality_range o)]
  unfold specQuant
  omega

/-- The quantized value of a coefficient within 8160 of zero, for a table entry
in 1..255, has magnitude at most 1020. -/
theorem quantDiv_ac_range (e : Encoder) (q z : Nat) (x : Int)
    (hk : 1 ≤ e.quant q z ∧ e.quant q z ≤ 255) (hx : -8160 ≤ x ∧ x ≤ 8160) :
    ∃ c, quantDiv e q z x = some c ∧ -1020 ≤ c ∧ c ≤ 1020 := by
  unfold quantDiv u8
  rw [Nat.mod_eq_of_lt (by omega)]
  generalize hb : (8 * (e.quant q z : Int)) = bq
  have hb8 : 8 ≤ bq := by omega
  have hb2 : bq ≤ 2040 := by omega
  by_cases h0 : 0 ≤ x
  · rw [div_of_nonneg x bq h0 (by omega) (by omega)]
    refine ⟨_, rfl, ?_, ?_⟩
    · have : 0 ≤ (x + bq / 2) / bq := Int.ediv_nonneg (by omega) (by omega)
      omega
    · have : (x + bq / 2) / bq < 1021 := Int.ediv_lt_of_lt_mul (by omega) (by omega)
      omega
  · rw [div_of_neg x bq (by omega) (by omega) (by omega)]
    refine ⟨_, rfl, ?_, ?_⟩
    · have : (-x + bq / 2) / bq < 1021 := Int.ediv_lt_of_lt_mul (by omega) (by omega)
      omega
    · have : 0 ≤ (-x + bq / 2) / bq := Int.ediv_nonneg (by omega) (by omega)
      omega

/-- The quantized value of a DC coefficient in -8192..8128, for a table entry
in 1..255, lies in -1024..1016. -/
theorem quantDiv_dc_range (e : Encoder) (q z : Nat) (x : Int)
    (hk : 1 ≤ e.quant q z ∧ e.quant q z ≤ 255) (hx : -8192 ≤ x ∧ x ≤ 8128) :
    ∃ c, quantDiv e q z x = some c ∧ -1024 ≤ c ∧ c ≤ 1016 := by
  unfold quantDiv u8
  rw [Nat.mod_eq_of_lt (by omega)]
  generalize hb : (8 * (e.quant q z : Int)) = bq
  have hb8 : 8 ≤ bq := by omega
  have hb2 : bq ≤ 2040 := by omega
  by_cases h0 : 0 ≤ x
  · rw [div_of_nonneg x bq h0 (by omega) (by omega)]
    refine ⟨_, rfl, ?_, ?_⟩
    · have : 0 ≤ (x + bq / 2) / bq := Int.ediv_nonneg (by omega) (by omega)
      omega
    · have : (x + bq / 2) / bq < 1017 := Int.ediv_lt_of_lt_mul (by omega) (by omega)
      omega
  · rw [div_of_neg x bq (by omega) (by omega) (by omega)]
    refine ⟨_, rfl, ?_, ?_⟩
    · have : (-x + bq / 2) / bq < 1025 := Int.ediv_lt_of_lt_mul (by omega) (by omega)
      omega
    · have : 0 ≤ (-x + bq / 2) / bq := Int.ediv_nonneg (by omega) (by omega)
      omega

theorem writeByte_quant (b : Byte) (e : Encoder) : (writeByte b e).quant = e.quant := by
  unfold writeByte
  split <;> rfl

theorem emitLoop_quant (cnt : Nat) : ∀ (bits nBits : Nat) (e : Encoder),
    (emitLoop cnt bits nBits e).quant = e.quant := by
  induction cnt with
  | zero => intro bits nBits e; rfl
  | succ cnt ih =>
    intro bits nBits e
    rw [emitLoop]
    split
    · simp only
      rw [ih]
      split
      · rw [writeByte_quant, writeByte_quant]
      · rw [writeByte_quant]
    · rfl

theorem emit_quant (bits nBits : Nat) (e : Encoder) : (emit bits nBits e).quant = e.quant := by
  unfold emit
  exact emitLoop_quant _ _ _ e

theorem emitHuff_quant (h : Nat) (v : Int) (e e1 : Encoder) (u : Unit)
    (hr : emitHuff h v e = .ok u e1) : e1.quant = e.quant := by
  unfold emitHuff at hr
  split at hr
  · cases hr
  · split at hr
    · cases hr
    · injection hr with _ h2
      rw [← h2]
      exact emit_quant _ _ e

theorem runCalls_append (cs cs' : List EmitCall) : ∀ (e e1 : Encoder),
    runCalls cs e = .ok () e1 → runCalls (cs ++ cs') e = runCalls cs' e1 := by
  induction cs with
  | nil =>
    intro e e1 h
    rw [runCalls] at h
    injection h with _ h2
    rw [List.nil_append, h2]
  | cons c cs ih =>
    intro e e1 h
    cases c with
    | huff hh v =>
      rw [List.cons_append, runCalls]
      rw [runCalls] at h
      cases hr : emitHuff hh v e with
      | panic m e2 => rw [hr] at h; cases h
      | ok u e2 =>
        rw [hr] at h
        exact ih e2 e1 h
    | raw bits n =>
      rw [List.cons_append, runCalls]
      rw [runCalls] at h
      exact ih _ e1 h

/-- The calls listed for `emitHuffRLE` are the calls it makes. -/
theorem emitHuffRLE_calls (h : Nat) (r v : Int) (e e1 : Encoder) (u : Unit)
    (hr : emitHuffRLE h r v e = .ok u e1) :
    runCalls (emitHuffRLECalls h r v) e = .ok () e1 ∧ e1.quant = e.quant := by
  unfold emitHuffRLE at hr
  unfold emitHuffRLECalls
  cases hs : rleSize v with
  | none => rw [hs] at hr; cases hr
  | some n =>
    rw [hs] at hr
    simp only at hr ⊢
    rw [runCalls]
    cases he : emitHuff h (or32 (i32 (r * 16)) (i32 (n : Int))) e with
    | panic m e2 => rw [he] at hr; cases hr
    | ok u2 e2 =>
      rw [he] at hr
      have hq2 := emitHuff_quant _ _ _ _ _ he
      simp only at hr ⊢
      by_cases hn : n > 0
      · rw [if_pos hn] at hr ⊢
        injection hr with _ h2
        rw [runCalls, runCalls, h2]
        refine ⟨rfl, ?_⟩
        rw [← h2, emit_quant, hq2]
      · rw [if_neg hn] at hr ⊢
        injection hr with _ h2
        rw [runCalls, h2]
        refine ⟨rfl, ?_⟩
        rw [← h2, hq2]

/-- The calls listed for the inner loop of `writeBlock` are the calls it makes. -/
theorem writeZRL_calls (h : Nat) (cnt : Nat) : ∀ (r r1 : Int) (e e1 : Encoder),
    writeZRL h cnt r e = .ok r1 e1 →
    runCalls (writeZRLCalls h cnt r).1 e = .ok () e1 ∧ (writeZRLCalls h cnt r).2 = r1 ∧
      e1.quant = e.quant := by
  induction cnt with
  | zero =>
    intro r r1 e e1 hr
    rw [writeZRL] at hr
    injection hr with h1 h2
    rw [writeZRLCalls]
    exact ⟨by rw [runCalls, h2], h1, by rw [h2]⟩
  | succ cnt ih =>
    intro r r1 e e1 hr
    rw [writeZRL] at hr
    rw [writeZRLCalls]
    by_cases h15 : r > 15
    · rw [if_pos h15] at hr ⊢
      simp only
      rw [runCalls]
      cases he : emitHuff h 0xf0 e with
      | panic m e2 => rw [he] at hr; cases hr
      | ok u2 e2 =>
        rw [he] at hr
        simp only at hr ⊢
        obtain ⟨k1, k2, k3⟩ := ih _ r1 e2 e1 hr
        exact ⟨k1, k2, by rw [k3, emitHuff_quant _ _ _ _ _ he]⟩
    · rw [if_neg h15] at hr ⊢
      injection hr with h1 h2
      exact ⟨by rw [runCalls, h2], h1, by rw [h2]⟩

/-- The calls listed for the AC loop of `writeBlock` are the calls it makes. -/
theorem writeAC_calls (e0 : Encoder) (b : Block) (q h : Nat) (cnt : Nat) :
    ∀ (zig : Nat) (r r1 : Int) (e e1 : Encoder), e.quant = e0.quant →
    writeAC b q h cnt zig r e = .ok r1 e1 →
    runCalls (writeACCalls e0 b q h cnt zig r).1 e = .ok () e1 ∧
      (writeACCalls e0 b q h cnt zig r).2 = r1 ∧ e1.quant = e0.quant := by
  induction cnt with
  | zero =>
    intro zig r r1 e e1 hq hr
    rw [writeAC] at hr
    injection hr with h1 h2
    rw [writeACCalls]
    exact ⟨by rw [runCalls, h2], h1, by rw [← h2, hq]⟩
  | succ cnt ih =>
    intro zig r r1 e e1 hq hr
    rw [writeAC, quantDiv_congr e0 e hq] at hr
    rw [writeACCalls]
    cases hd : quantDiv e0 q zig (b (unzig zig)) with
    | none => rw [hd] at hr; cases hr
    | some ac =>
      rw [hd] at hr
      simp only at hr ⊢
      by_cases hz : ac = 0
      · rw [if_pos hz] at hr ⊢
        exact ih _ _ r1 e e1 hq hr
      · rw [if_neg hz] at hr ⊢
        cases hw : writeZRL h (r.toNat / 16 + 1) r e with
        | panic m e2 => rw [hw] at hr; cases hr
        | ok rl e2 =>
          rw [hw] at hr
          simp only at hr
          obtain ⟨z1, z2, z3⟩ := writeZRL_calls h _ r rl e e2 hw
          cases hh : emitHuffRLE h rl ac e2 with
          | panic m e3 => rw [hh] at hr; cases hr
          | ok u3 e3 =>
            rw [hh] at hr
            simp only at hr
            obtain ⟨g1, g2⟩ := emitHuffRLE_calls h rl ac e2 e3 u3 hh
            obtain ⟨k1, k2, k3⟩ := ih (zig + 1) 0 r1 e3 e1 (by rw [g2, z3, hq]) hr
            refine ⟨?_, k2, k3⟩
            rw [runCalls_append _ _ e e2 z1, z2, runCalls_append _ _ e2 e3 g1]
            exact k1

/-- The calls listed for `writeBlock` are the calls it makes: made one after
the other from the same state they end in the state `writeBlock` ends in. -/
theorem writeBlock_calls (b : Block) (q : Nat) (prevDC : Int) (e e3 : Encoder)
    (r : Block × Int) (hr : writeBlock b q prevDC e = .ok r e3) :
    runCalls (writeBlockCalls b q prevDC e) e = .ok () e3 := by
  unfold writeBlock at hr
  unfold writeBlockCalls
  simp only at hr
  split at hr
  · cases hr
  · cases hd : quantDiv e q 0 (fdct b 0) with
    | none => rw [hd] at hr; cases hr
    | some dc =>
      rw [hd] at hr
      simp only at hr ⊢
      cases h1 : emitHuffRLE (2 * q + 0) 0 (i32 (dc - prevDC)) e with
      | panic m e1 => rw [h1] at hr; cases hr
      | ok u1 e1 =>
        rw [h1] at hr
        simp only at hr
        obtain ⟨g1, g2⟩ := emitHuffRLE_calls _ _ _ e e1 u1 h1
        cases h2 : writeAC (fdct b) q (2 * q + 1) (blockSize - 1) 1 0 e1 with
        | panic m e2 => rw [h2] at hr; cases hr
        | ok rl e2 =>
          rw [h2] at hr
          simp only at hr
          obtain ⟨k1, k2, k3⟩ := writeAC_calls e (fdct b) q (2 * q + 1) _ 1 0 rl e1 e2 g2 h2
          rw [runCalls_append _ _ e e1 g1, runCalls_append _ _ e1 e2 k1, k2]
          by_cases hrl : rl > 0
          · rw [if_pos hrl] at hr ⊢
            rw [runCalls]
            cases h3 : emitHuff (2 * q + 1) 0x00 e2 with
            | panic m e4 => rw [h3] at hr; cases hr
            | ok u4 e4 =>
              rw [h3] at hr
              simp only at hr ⊢
              injection hr with _ h4
              rw [runCalls, h4]
          · rw [if_neg hrl] at hr ⊢
            injection hr with _ h4
            rw [runCalls, h4]

/-- The sizes 0 to 11 are listed in both DC tables of the encoder. -/
theorem dc_symbol_listed (h n : Nat) (hh : h = 0 ∨ h = 2) (hn : n ≤ 11) :
    (theSpec h).value.indexOf n < (theSpec h).value.length ∧
    (theSpec h).value.getD ((theSpec h).value.indexOf n) 0 = n := by
  have key0 : ∀ n : Fin 12,
      (theSpec 0).value.indexOf n.val < (theSpec 0).value.length ∧
      (theSpec 0).value.getD ((theSpec 0).value.indexOf n.val) 0 = n.val := by
    decide
  have key2 : ∀ n : Fin 12,
      (theSpec 2).value.indexOf n.val < (theSpec 2).value.length ∧
      (theSpec 2).value.getD ((theSpec 2).value.indexOf n.val) 0 = n.val := by
    decide
  rcases hh with h1 | h3
  · subst h1
    exact key0 ⟨n, by omega⟩
  · subst h3
    exact key2 ⟨n, by omega⟩

/-- A listed value has a code: its entry of `theHuffmanLUT` exists and holds a
code word of 1 to 16 bits, which `emitHuff` emits. -/
theorem listed_code (h s : Nat) (hh : h < 4)
    (hk : (theSpec h).value.indexOf s < (theSpec h).value.length)
    (hval : (theSpec h).value.getD ((theSpec h).value.indexOf s) 0 = s) :
    HasCode h (s : Int) ∧ lutLen h s ≤ 16 ∧ lutCode h s < 2 ^ lutLen h s ∧
    ∀ e : Encoder, emitHuff h (s : Int) e = .ok () (emit (lutCode h s) (lutLen h s) e) := by
  obtain ⟨f1, f2, f3, f4, f5, f6, f7⟩ := spec_lut h _ hh hk
  have hcl := canonical_code_lt _ (spec_valid h hh) _ _ f3 f4 f5
  rw [hval] at f1 f6 f7
  have hmem : s ∈ (theSpec h).value := List.indexOf_lt_length.mp hk
  refine ⟨⟨hh, by omega, by rw [Int.toNat_ofNat]; exact hmem, by rw [Int.toNat_ofNat]; exact f1,
    by rw [Int.toNat_ofNat, f7]; omega⟩, by rw [f7]; omega, by rw [f6, f7]; exact hcl,
    fun e => emitHuff_spec h _ hh f1 e⟩

/-- An AC symbol has a code in both AC tables. -/
theorem ac_symbol_hasCode (h x n : Nat) (hh : h = 1 ∨ h = 3) (hx : x < 16) (hn : n ≤ 10)
    (hz : n = 0 → x = 0 ∨ x = 15) : HasCode h ((x * 16 + n : Nat) : Int) := by
  obtain ⟨hk, hval⟩ := ac_symbol_listed h x n hh hx hn hz
  exact (listed_code h _ (by omega) hk hval).1

/-- The size that `emitHuffRLE` computes for a value of magnitude at most 2047
is at most 11. -/
theorem rleSize_dc (v : Int) (hb : v.natAbs ≤ 2047) :
    ∃ n, rleSize v = some n ∧ n ≤ 11 ∧ (v = 0 → n = 0) ∧ (v ≠ 0 → 1 ≤ n) ∧
      rleBits v n < 2 ^ n := by
  by_cases hv : v = 0
  · subst hv
    exact ⟨0, by decide, by omega, fun _ => rfl, fun h => absurd rfl h, by decide⟩
  · obtain ⟨n, c0, c1, c2, c3, c4, c5, _⟩ := rle_extend v hv (by omega) (by omega)
    refine ⟨n, c0, ?_, fun h => absurd h hv, fun _ => c1, c5⟩
    by_contra hcon
    have : (2 : Nat) ^ 11 ≤ 2 ^ (n - 1) := Nat.pow_le_pow_right (by norm_num) (by omega)
    omega

/-- The size that `emitHuffRLE` computes for a value of magnitude at most 1023
is at most 10. -/
theorem rleSize_ac (v : Int) (hb : v.natAbs ≤ 1023) : ∃ n, rleSize v = some n ∧ n ≤ 10 := by
  by_cases hv : v = 0
  · subst hv
    exact ⟨0, by decide, by omega⟩
  · obtain ⟨c0, _, c2, _⟩ := rle_extend_ac v hv hb
    exact ⟨_, c0, c2⟩

/-- The call `emitHuffRLE(h, 0, v)` of `writeBlock` for a DC difference of
magnitude at most 2047: it does not panic, and the symbol it passes to
`emitHuff` is the size, which has a code. -/
theorem emitHuffRLE_dc (h : Nat) (v : Int) (hh : h = 0 ∨ h = 2) (hb : v.natAbs ≤ 2047)
    (e : Encoder) (herr : e.err = none) (hinv : EmitInv e) :
    ∃ e1 n, rleSize v = some n ∧ n ≤ 11 ∧ emitHuffRLE h 0 v e = .ok () e1 ∧
      EmitInv e1 ∧ e1.err = none ∧ e1.quant = e.quant ∧
      ∀ h1 v1, EmitCall.huff h1 v1 ∈ emitHuffRLECalls h 0 v → h1 = h ∧ HasCode h v1 := by
  obtain ⟨n, c0, c1, _, _, c5⟩ := rleSize_dc v hb
  obtain ⟨hk, hval⟩ := dc_symbol_listed h n hh c1
  obtain ⟨l1, l2, l3, l4⟩ := listed_code h n (by omega) hk hval
  obtain ⟨g1, g2, g3, g4⟩ := emitted_emit _ _ e herr hinv l2 l3
  have h16 : n ≤ 16 := by omega
  have hsym : or32 (i32 ((0 : Int) * 16)) (i32 (n : Int)) = (n : Int) := by
    have := or32_run_size 0 n (by omega) (by omega)
    simpa using this
  have hcalls : ∀ h1 v1, EmitCall.huff h1 v1 ∈ emitHuffRLECalls h 0 v → h1 = h ∧ HasCode h v1 := by
    intro h1 v1 hm
    unfold emitHuffRLECalls at hm
    rw [c0] at hm
    simp only at hm
    rw [hsym] at hm
    rcases List.mem_cons.mp hm with heq | hrest
    · injection heq with a1 a2
      rw [a1, a2]
      exact ⟨rfl, l1⟩
    · split at hrest
      · rcases List.mem_cons.mp hrest with heq | hnil
        · cases heq
        · cases hnil
      · cases hrest
  by_cases hn : n > 0
  · obtain ⟨k1, k2, k3, k4⟩ := emitted_emit (rleBits v n) n (emit (lutCode h n) (lutLen h n) e)
      g3 g2 h16 c5
    refine ⟨_, n, c0, c1, ?_, k2, k3, by rw [k4, g4], hcalls⟩
    unfold emitHuffRLE
    rw [c0]
    simp only
    rw [hsym, l4 e]
    simp only
    rw [if_pos hn]
  · refine ⟨_, n, c0, c1, ?_, g2, g3, g4, hcalls⟩
    unfold emitHuffRLE
    rw [c0]
    simp only
    rw [hsym, l4 e]
    simp only
    rw [if_neg hn]

/-- The calls `emitHuff` of `emitHuffRLE(h, x, v)` for a run `x` below 16 and a
non-zero value of magnitude at most 1023 pass a symbol that has a code. -/
theorem emitHuffRLECalls_ac (h x : Nat) (v : Int) (hh : h = 1 ∨ h = 3) (hx : x < 16)
    (hv : v ≠ 0) (hb : v.natAbs ≤ 1023) :
    ∀ h1 v1, EmitCall.huff h1 v1 ∈ emitHuffRLECalls h (x : Int) v → h1 = h ∧ HasCode h v1 := by
  obtain ⟨c0, c1, c2, _⟩ := rle_extend_ac v hv hb
  intro h1 v1 hm
  unfold emitHuffRLECalls at hm
  rw [c0] at hm
  simp only at hm
  rw [or32_run_size x (acSize v) hx (by omega)] at hm
  rcases List.mem_cons.mp hm with heq | hrest
  · injection heq with a1 a2
    rw [a1, a2]
    exact ⟨rfl, ac_symbol_hasCode h x (acSize v) hh hx c2 (fun h0 => by omega)⟩
  · split at hrest
    · rcases List.mem_cons.mp hrest with heq | hnil
      · cases heq
      · cases hnil
    · cases hrest

/-- The inner loop of `writeBlock` passes only `0xf0` to `emitHuff` and leaves
a run length below 16. -/
theorem writeZRLCalls_spec (h : Nat) (hh : h = 1 ∨ h = 3) (cnt : Nat) :
    ∀ (r : Nat), r / 16 < cnt → r ≤ 1000 →
    (writeZRLCalls h cnt (r : Int)).2 = ((r % 16 : Nat) : Int) ∧
    ∀ h1 v1, EmitCall.huff h1 v1 ∈ (writeZRLCalls h cnt (r : Int)).1 → h1 = h ∧ HasCode h v1 := by
  induction cnt with
  | zero => intro r h0; omega
  | succ cnt ih =>
    intro r hr hr2
    rw [writeZRLCalls]
    by_cases h15 : (r : Int) > 15
    · rw [if_pos h15]
      have e16 : i32 ((r : Int) - 16) = ((r - 16 : Nat) : Int) := by
        rw [i32_of_range _ (by omega) (by omega)]; omega
      rw [e16]
      obtain ⟨k1, k2⟩ := ih (r - 16) (by omega) (by omega)
      have em : (r - 16) % 16 = r % 16 := by omega
      rw [em] at k1
      refine ⟨k1, ?_⟩
      intro h1 v1 hm
      rcases List.mem_cons.mp hm with heq | hrest
      · injection heq with a1 a2
        rw [a1, a2]
        have := ac_symbol_hasCode h 15 0 hh (by omega) (by omega) (fun _ => Or.inr rfl)
        exact ⟨rfl, by simpa using this⟩
      · exact k2 h1 v1 hrest
    · rw [if_neg h15]
      have hm : r % 16 = r := by omega
      rw [hm]
      exact ⟨rfl, fun h1 v1 hmem => by cases hmem⟩

/-- The AC loop of `writeBlock` on coefficients of magnitude at most 1023
passes only symbols that have a code to `emitHuff`. -/
theorem writeACCalls_spec (e0 : Encoder) (b : Block) (q h : Nat) (hh : h = 1 ∨ h = 3)
    (cnt : Nat) :
    ∀ (zig r : Nat), zig + cnt = 64 → r < zig →
    (∀ z, zig ≤ z → z < 64 →
      ∃ c, quantDiv e0 q z (b (unzig z)) = some c ∧ c.natAbs ≤ 1023) →
    ∀ h1 v1, EmitCall.huff h1 v1 ∈ (writeACCalls e0 b q h cnt zig (r : Int)).1 →
      h1 = h ∧ HasCode h v1 := by
  induction cnt with
  | zero =>
    intro zig r _ _ _ h1 v1 hm
    rw [writeACCalls] at hm
    cases hm
  | succ cnt ih =>
    intro zig r hz hr hc h1 v1 hm
    obtain ⟨c, hdiv, hbound⟩ := hc zig (le_refl _) (by omega)
    rw [writeACCalls, hdiv] at hm
    simp only at hm
    by_cases hc0 : c = 0
    · rw [if_pos hc0] at hm
      have e1 : i32 ((r : Int) + 1) = ((r + 1 : Nat) : Int) := by
        rw [i32_of_range _ (by omega) (by omega)]; omega
      rw [e1] at hm
      exact ih (zig + 1) (r + 1) (by omega) (by omega) (fun z hz1 hz2 => hc z (by omega) hz2)
        h1 v1 hm
    · rw [if_neg hc0] at hm
      obtain ⟨z1, z2⟩ := writeZRLCalls_spec h hh ((r : Int).toNat / 16 + 1) r (by simp)
        (by omega)
      rw [z1] at hm
      rcases List.mem_append.mp hm with hm1 | hm2
      · exact z2 h1 v1 hm1
      · rcases List.mem_append.mp hm2 with hm3 | hm4
        · exact emitHuffRLECalls_ac h (r % 16) c hh (Nat.mod_lt _ (by omega)) hc0 hbound h1 v1 hm3
        · have ez : ((0 : Nat) : Int) = 0 := rfl
          rw [← ez] at hm4
          exact ih (zig + 1) 0 (by omega) (by omega) (fun z hz1 hz2 => hc z (by omega) hz2)
            h1 v1 hm4

/-- The DC value that `writeBlock` returns is the quantized first coefficient. -/
theorem writeBlock_dc (b : Block) (q : Nat) (prevDC : Int) (e e3 : Encoder) (r : Block × Int)
    (hr : writeBlock b q prevDC e = .ok r e3) : quantDiv e q 0 (fdct b 0) = some r.2 := by
  unfold writeBlock at hr
  simp only at hr
  split at hr
  · cases hr
  · cases hd : quantDiv e q 0 (fdct b 0) with
    | none => rw [hd] at hr; cases hr
    | some dc =>
      rw [hd] at hr
      simp only at hr
      cases h1 : emitHuffRLE (2 * q + 0) 0 (i32 (dc - prevDC)) e with
      | panic m e1 => rw [h1] at hr; cases hr
      | ok u1 e1 =>
        rw [h1] at hr
        simp only at hr
        cases h2 : writeAC (fdct b) q (2 * q + 1) (blockSize - 1) 1 0 e1 with
        | panic m e2 => rw [h2] at hr; cases hr
        | ok rl e2 =>
          rw [h2] at hr
          simp only at hr
          split at hr
          · cases h3 : emitHuff (2 * q + 1) 0x00 e2 with
            | panic m e4 => rw [h3] at hr; cases hr
            | ok u4 e4 =>
              rw [h3] at hr
              simp only at hr
              injection hr with h4 _
              rw [← h4]
          · injection hr with h4 _
            rw [← h4]

/-- C40: for every block `b` of samples in 0..255, the tables `e.quant` that
`Encode` builds for any quality (clipped to 1..100), a table index `q` below 2
and a previous DC value in -1024..1016 (the range that holds 0 and, by this
theorem, every DC value `writeBlock` returns), `writeBlock(b, q, prevDC)` on a
well-formed bit writer does not panic, so `theHuffmanLUT` is never indexed out
of range.  The calls it makes on the bit writer are those of
`writeBlockCalls`.  The DC value it returns is the quantized first coefficient
and lies in -1024..1016 again; the DC difference has a bit size of at most 11;
every quantized AC coefficient has magnitude at most 1023 and a bit size of at
most 10.  Every value passed to `emitHuff` goes to the DC table `2q` or the AC
table `2q+1` and has a code there: it is listed in `theHuffmanSpec`, it is an
index of `theHuffmanLUT`, and the stored code length is not zero.  The bit
writer is well formed afterwards, with the same tables.  Whatever the previous
DC value and the state of the bit writer, a value that `writeBlock` returns
for such a block and such tables lies in -1024..1016. -/
theorem writeBlock_symbols (b : Block) (q : Nat) (prevDC : Int) (o : Option Int) (e : Encoder)
    (hb : ∀ i, i < 64 → 0 ≤ b i ∧ b i ≤ 255) (hq : q < 2) (hquant : e.quant = encodeQuant o)
    (hprev : -1024 ≤ prevDC ∧ prevDC ≤ 1016) (herr : e.err = none) (hinv : EmitInv e) :
    (∃ dc e3 nDC,
      writeBlock b q prevDC e = .ok (fdct b, dc) e3 ∧
      runCalls (writeBlockCalls b q prevDC e) e = .ok () e3 ∧
      quantDiv e q 0 (fdct b 0) = some dc ∧ (-1024 ≤ dc ∧ dc ≤ 1016) ∧
      rleSize (i32 (dc - prevDC)) = some nDC ∧ nDC ≤ 11 ∧
      (∀ z, 1 ≤ z → z < 64 → ∃ ac n, quantDiv e q z (fdct b (unzig z)) = some ac ∧
        ac.natAbs ≤ 1023 ∧ rleSize ac = some n ∧ n ≤ 10) ∧
      (∀ h v, EmitCall.huff h v ∈ writeBlockCalls b q prevDC e →
        (h = 2 * q ∨ h = 2 * q + 1) ∧ HasCode h v) ∧
      EmitInv e3 ∧ e3.err = none ∧ e3.quant = e.quant) ∧
    ∀ (p : Int) (e0 e1 : Encoder) (r : Block × Int), e0.quant = encodeQuant o →
      writeBlock b q p e0 = .ok r e1 → -1024 ≤ r.2 ∧ r.2 ≤ 1016 := by
  obtain ⟨hdc0, hac⟩ := fdct_range b hb
  have hk : ∀ (e0 : Encoder), e0.quant = encodeQuant o → ∀ z, z < 64 →
      1 ≤ e0.quant q z ∧ e0.quant q z ≤ 255 := by
    intro e0 h0 z hz
    rw [h0]
    exact encodeQuant_range o q z hq hz
  refine ⟨?_, ?_⟩
  · obtain ⟨dc, hdcq, d1, d2⟩ := quantDiv_dc_range e q 0 (fdct b 0) (hk e hquant 0 (by omega)) hdc0
    have hdiff : i32 (dc - prevDC) = dc - prevDC := i32_of_range _ (by omega) (by omega)
    have hmag : (i32 (dc - prevDC)).natAbs ≤ 2047 := by rw [hdiff]; omega
    obtain ⟨e1, nDC, r0, r1, r2, r3, r4, r5, r6⟩ :=
      emitHuffRLE_dc (2 * q + 0) (i32 (dc - prevDC)) (by omega) hmag e herr hinv
    have hh : 2 * q + 1 = 1 ∨ 2 * q + 1 = 3 := by omega
    have hcoef : ∀ z, 1 ≤ z → z < 64 →
        ∃ c, quantDiv e q z (fdct b (unzig z)) = some c ∧ c.natAbs ≤ 1023 := by
      intro z h1 h2
      obtain ⟨u1, u2⟩ := unzig_pos z h1 h2
      obtain ⟨c, a1, a2, a3⟩ := quantDiv_ac_range e q z (fdct b (unzig z)) (hk e hquant z h2)
        (hac _ u1 u2)
      exact ⟨c, a1, by omega⟩
    have hc : ∀ z, 1 ≤ z → z < 64 →
        quantDiv e q z (fdct b (unzig z)) =
          some ((quantDiv e q z (fdct b (unzig z))).getD 0) ∧
        ((quantDiv e q z (fdct b (unzig z))).getD 0).natAbs ≤ 1023 := by
      intro z h1 h2
      obtain ⟨c, a1, a2⟩ := hcoef z h1 h2
      rw [a1]
      exact ⟨rfl, a2⟩
    obtain ⟨rl, e2, e3, w1, w2, _, w4, w5, w6⟩ := writeAC_emitted (fdct b) q (2 * q + 1)
      (fun z => (quantDiv e q z (fdct b (unzig z))).getD 0) e hh 63 1 0 e1
      (by omega) (by omega) r4 r3 r5 hc
    have e63 : blockSize - 1 = 63 := rfl
    have ez : (((0 : Nat) : Int)) = 0 := rfl
    have hpart : writeACPart (fdct b) q e1 = .ok () e3 := by
      unfold writeACPart
      rw [e63]
      rw [ez] at w1
      rw [w1]
      exact w2
    have hwb := writeBlock_parts b q prevDC dc e e1 e3 hq hdcq r2 hpart
    refine ⟨dc, e3, nDC, hwb, writeBlock_calls b q prevDC e e3 _ hwb, hdcq, ⟨d1, d2⟩, r0, r1,
      ?_, ?_, w4, w5, w6⟩
    · intro z h1 h2
      obtain ⟨c, a1, a2⟩ := hcoef z h1 h2
      obtain ⟨n, s1, s2⟩ := rleSize_ac c a2
      exact ⟨c, n, a1, a2, s1, s2⟩
    · intro h v hm
      unfold writeBlockCalls at hm
      rw [hdcq] at hm
      simp only at hm
      rcases List.mem_append.mp hm with m1 | m2
      · obtain ⟨t1, t2⟩ := r6 h v m1
        rw [t1]
        exact ⟨Or.inl (by omega), t2⟩
      · rcases List.mem_append.mp m2 with m3 | m4
        · rw [e63] at m3
          rw [← ez] at m3
          obtain ⟨t1, t2⟩ := writeACCalls_spec e (fdct b) q (2 * q + 1) hh 63 1 0 (by omega)
            (by omega) hcoef h v m3
          rw [t1]
          exact ⟨Or.inr rfl, t2⟩
        · split at m4
          · rcases List.mem_cons.mp m4 with heq | hnil
            · injection heq with a1 a2
              rw [a1, a2]
              have := ac_symbol_hasCode (2 * q + 1) 0 0 hh (by omega) (by omega)
                (fun _ => Or.inl rfl)
              exact ⟨Or.inr rfl, by simpa using this⟩
            · cases hnil
          · cases m4
  · intro p e0 e1 r h0 hr
    have hd := writeBlock_dc b q p e0 e1 r hr
    obtain ⟨dc, hdcq, d1, d2⟩ := quantDiv_dc_range e0 q 0 (fdct b 0) (hk e0 h0 0 (by omega)) hdc0
    rw [hdcq] at hd
    have hd2 : dc = r.2 := Option.some.inj hd
    rw [← hd2]
    exact ⟨d1, d2⟩

theorem writeBlock_symbols_witness :
    (∀ i, i < 64 → 0 ≤ rampBlock i ∧ rampBlock i ≤ 255) ∧ 0 < 2 ∧
    quality75Encoder.quant = encodeQuant (some 75) ∧ (-1024 ≤ (0 : Int) ∧ (0 : Int) ≤ 1016) ∧
    quality75Encoder.err = none ∧ EmitInv quality75Encoder ∧
    ((∃ dc e3 nDC,
      writeBlock rampBlock 0 0 quality75Encoder = .ok (fdct rampBlock, dc) e3 ∧
      runCalls (writeBlockCalls rampBlock 0 0 quality75Encoder) quality75Encoder = .ok () e3 ∧
      quantDiv quality75Encoder 0 0 (fdct rampBlock 0) = some dc ∧ (-1024 ≤ dc ∧ dc ≤ 1016) ∧
      rleSize (i32 (dc - 0)) = some nDC ∧ nDC ≤ 11 ∧
      (∀ z, 1 ≤ z → z < 64 →
        ∃ ac n, quantDiv quality75Encoder 0 z (fdct rampBlock (unzig z)) = some ac ∧
        ac.natAbs ≤ 1023 ∧ rleSize ac = some n ∧ n ≤ 10) ∧
      (∀ h v, EmitCall.huff h v ∈ writeBlockCalls rampBlock 0 0 quality75Encoder →
        (h = 2 * 0 ∨ h = 2 * 0 + 1) ∧ HasCode h v) ∧
      EmitInv e3 ∧ e3.err = none ∧ e3.quant = quality75Encoder.quant) ∧
    ∀ (p : Int) (e0 e1 : Encoder) (r : Block × Int), e0.quant = encodeQuant (some 75) →
      writeBlock rampBlock 0 p e0 = .ok r e1 → -1024 ≤ r.2 ∧ r.2 ≤ 1016) :=
  ⟨fun i _ => by unfold rampBlock; omega, by decide, rfl, by decide, rfl, by decide,
    writeBlock_symbols rampBlock 0 0 (some 75) quality75Encoder
      (fun i _ => by unfold rampBlock; omega) (by decide) rfl (by decide) rfl (by decide)⟩

end Jpeg
